import Mathlib

/-!
# The GOOS pretty printer (`common/goos/PrettyPrinter.cpp`)

A shallow embedding of `pretty_print::to_string` and of the functions it is made of,
followed by theorems about them.

Conventions of the embedding.

* A `goos::Object` is the inductive type `Object`. `Object::print()` is defined outside
  `PrettyPrinter.cpp`; every leaf therefore carries the text that `print()` returns for it.
* The doubly linked list of `PrettyPrinterNode`s is a `List PrettyPrinterNode` in list
  order: `n->next` is the element that follows `n`, `n->prev` the one before it. Every node
  carries the field `id`, which plays the part of its address: a `PrettyPrinterNode*` is an
  `Option Nat` (`none` is `nullptr`), and pointers are compared by comparing ids. The
  `NodePool` hands out the ids `0, 1, 2, ...`; since no node is ever unlinked, the next fresh
  id is the length of the list.
* `int` is `Int`. Text lengths are counted in characters.
* A thrown exception, a failed `assert` and the dereference of a null pointer are the
  errors of `Except Err`. Loops that mutate the list while they walk it take a fuel
  argument; running out of fuel is the separate error `Err.out_of_fuel`.
-/

namespace pretty_print

/-! ## Objects and tokens -/

/-- The `goos::Object` values the printer can be handed. A leaf carries its printed text. -/
inductive Object where
  | EMPTY_LIST : Object
  | INTEGER (printed : String) : Object
  | FLOAT (printed : String) : Object
  | CHAR (printed : String) : Object
  | SYMBOL (printed : String) : Object
  | STRING (printed : String) : Object
  | PAIR (car cdr : Object) : Object
  | ARRAY : Object
  | LAMBDA : Object
  | MACRO : Object
  | ENVIRONMENT : Object
  deriving Repr, DecidableEq, Inhabited

/-- What can go wrong in a call. -/
inductive Err where
  /-- A thrown `std::runtime_error`, with its message. -/
  | runtime_error (what : String) : Err
  /-- A failed `assert`. -/
  | assertion_failure : Err
  /-- Dereference of a null pointer (or `back`/`pop_back` on an empty vector). -/
  | null_dereference : Err
  /-- `std::string::append` with a negative count. -/
  | length_error : Err
  /-- The fuel of a loop of the embedding ran out. -/
  | out_of_fuel : Err
  /-- A paren link that does not point ahead in the list (the embedding follows the jump
  `n = n->paren` forward only). -/
  | bad_link : Err
  deriving Repr, DecidableEq, Inhabited

/-- `FormToken::TokenKind`. -/
inductive TokenKind where
  | WHITESPACE
  | STRING
  | OPEN_PAREN
  | DOT
  | CLOSE_PAREN
  | EMPTY_PAIR
  | SPECIAL_STRING
  deriving Repr, DecidableEq, Inhabited

/-- A single token which cannot be split between lines. -/
structure FormToken where
  kind : TokenKind
  str : String := ""
  deriving Repr, DecidableEq, Inhabited

/-- `FormToken::toString`. -/
def FormToken.toString (t : FormToken) : String :=
  match t.kind with
  | .WHITESPACE => " "
  | .STRING => t.str
  | .OPEN_PAREN => "("
  | .DOT => "."
  | .CLOSE_PAREN => ")"
  | .EMPTY_PAIR => "()"
  | .SPECIAL_STRING => t.str

/-- The message of the exception thrown for an unsupported object kind. -/
def unsupported_message : String :=
  "tried to pretty print a goos object kind which is not supported."

/-- The cases of the `switch` in `add_to_token_list` for an object that is not a pair. -/
def add_atom_to_token_list (obj : Object) (tokens : List FormToken) :
    Except Err (List FormToken) :=
  match obj with
  | .EMPTY_LIST => .ok (tokens ++ [⟨.EMPTY_PAIR, ""⟩])
  | .INTEGER p => .ok (tokens ++ [⟨.STRING, p⟩])
  | .FLOAT p => .ok (tokens ++ [⟨.STRING, p⟩])
  | .CHAR p => .ok (tokens ++ [⟨.STRING, p⟩])
  | .SYMBOL p => .ok (tokens ++ [⟨.STRING, p⟩])
  | .STRING p => .ok (tokens ++ [⟨.STRING, p⟩])
  | .PAIR _ _ => .ok tokens
  | .ARRAY => .error (.runtime_error unsupported_message)
  | .LAMBDA => .error (.runtime_error unsupported_message)
  | .MACRO => .error (.runtime_error unsupported_message)
  | .ENVIRONMENT => .error (.runtime_error unsupported_message)

/-- The improper-list branch: whitespace, then a dot, a space, the thing and a close
paren. The thing is not a pair, so the recursive call is one of the atom cases. -/
def add_improper_tail (obj : Object) (tokens : List FormToken) :
    Except Err (List FormToken) :=
  match add_atom_to_token_list obj
        (tokens ++ [⟨.WHITESPACE, ""⟩] ++ [⟨.DOT, ""⟩] ++ [⟨.WHITESPACE, ""⟩]) with
  | .error e => .error e
  | .ok tokens1 => .ok (tokens1 ++ [⟨.CLOSE_PAREN, ""⟩])

mutual
/-- `add_to_token_list`: convert an object to tokens and add them to the list. -/
def add_to_token_list : Object → List FormToken → Except Err (List FormToken)
  | .PAIR car cdr, tokens =>
    -- open paren, then the first iteration of the `for (;;)` loop with `to_print = &obj`
    match add_to_token_list car (tokens ++ [⟨.OPEN_PAREN, ""⟩]) with
    | .error e => .error e
    | .ok tokens1 => add_list_rest cdr tokens1
  | .EMPTY_LIST, tokens => add_atom_to_token_list .EMPTY_LIST tokens
  | .INTEGER p, tokens => add_atom_to_token_list (.INTEGER p) tokens
  | .FLOAT p, tokens => add_atom_to_token_list (.FLOAT p) tokens
  | .CHAR p, tokens => add_atom_to_token_list (.CHAR p) tokens
  | .SYMBOL p, tokens => add_atom_to_token_list (.SYMBOL p) tokens
  | .STRING p, tokens => add_atom_to_token_list (.STRING p) tokens
  | .ARRAY, tokens => add_atom_to_token_list .ARRAY tokens
  | .LAMBDA, tokens => add_atom_to_token_list .LAMBDA tokens
  | .MACRO, tokens => add_atom_to_token_list .MACRO tokens
  | .ENVIRONMENT, tokens => add_atom_to_token_list .ENVIRONMENT tokens
/-- The rest of the `for (;;)` loop of `add_to_token_list` once the car of a pair has been
printed and `to_print` has been set to its cdr, which is the argument here. -/
def add_list_rest : Object → List FormToken → Except Err (List FormToken)
  | .EMPTY_LIST, tokens =>
    -- we're done, add a close paren and finish
    .ok (tokens ++ [⟨.CLOSE_PAREN, ""⟩])
  | .PAIR car cdr, tokens =>
    -- more to print, add whitespace; the next iteration prints the car
    match add_to_token_list car (tokens ++ [⟨.WHITESPACE, ""⟩]) with
    | .error e => .error e
    | .ok tokens1 => add_list_rest cdr tokens1
  | .INTEGER p, tokens => add_improper_tail (.INTEGER p) tokens
  | .FLOAT p, tokens => add_improper_tail (.FLOAT p) tokens
  | .CHAR p, tokens => add_improper_tail (.CHAR p) tokens
  | .SYMBOL p, tokens => add_improper_tail (.SYMBOL p) tokens
  | .STRING p, tokens => add_improper_tail (.STRING p) tokens
  | .ARRAY, tokens => add_improper_tail .ARRAY tokens
  | .LAMBDA, tokens => add_improper_tail .LAMBDA tokens
  | .MACRO, tokens => add_improper_tail .MACRO tokens
  | .ENVIRONMENT, tokens => add_improper_tail .ENVIRONMENT tokens
end

/-! ## Nodes -/

/-- Linked list node representing a token in the output (whitespace, paren, newline, etc).
`id` is the address of the node; `next` and `prev` are given by the position in the list. -/
structure PrettyPrinterNode where
  id : Nat
  /-- If we aren't a newline, we will have a token. -/
  tok : Option FormToken := none
  /-- Line that token occurs on. Undefined for newlines. -/
  line : Int := -1
  /-- Indent of line. Only valid for first token in the line. -/
  lineIndent : Int := -1
  /-- Offset of beginning of token from left margin. -/
  offset : Int := -1
  specialIndentDelta : Int := 0
  /-- True if line separator (not a token). -/
  is_line_separator : Bool := false
  /-- Pointer to open paren if in parens. Open paren points to close and vice versa. -/
  paren : Option Nat := none
  deriving Repr, DecidableEq, Inhabited

/-- The node list of one call. -/
abbrev NodeList := List PrettyPrinterNode

/-- The node at address `p`, if there is one. -/
def node_at (s : NodeList) (p : Nat) : Option PrettyPrinterNode :=
  s.find? (fun n => n.id == p)

/-- Dereference of a pointer. -/
def deref (s : NodeList) (p : Option Nat) : Except Err PrettyPrinterNode :=
  match p with
  | none => .error .null_dereference
  | some i =>
    match node_at s i with
    | none => .error .null_dereference
    | some n => .ok n

/-- The token of a node: `n->tok`, dereferenced. -/
def tok_of (n : PrettyPrinterNode) : Except Err FormToken :=
  match n.tok with
  | none => .error .null_dereference
  | some t => .ok t

/-- The pointer `n->next` of the node at address `p`. -/
def next_of : NodeList → Nat → Option Nat
  | [], _ => none
  | a :: rest, p =>
    if a.id = p then
      match rest with
      | [] => none
      | b :: _ => some b.id
    else next_of rest p

/-- The pointer `n->prev` of the node at address `p`. -/
def prev_of : NodeList → Nat → Option Nat
  | [], _ => none
  | a :: rest, p =>
    if a.id = p then none
    else
      match rest with
      | [] => none
      | b :: _ => if b.id = p then some a.id else prev_of rest p

/-- The condition `q && !q->is_line_separator` on a pointer `q`. -/
def is_real (s : NodeList) (q : Option Nat) : Bool :=
  match q with
  | none => false
  | some i =>
    match node_at s i with
    | none => false
    | some n => !n.is_line_separator

/-- The condition `!q || q->is_line_separator` on a pointer `q`. -/
def null_or_separator (s : NodeList) (q : Option Nat) : Bool :=
  match q with
  | none => true
  | some i =>
    match node_at s i with
    | none => true
    | some n => n.is_line_separator

/-- A freshly allocated line separator: `pool.allocate()` followed by the two
assignments `nl->is_line_separator = true; nl->specialIndentDelta = specialIndentDelta`. -/
def new_separator (fresh : Nat) (specialIndentDelta : Int) : PrettyPrinterNode :=
  { id := fresh, is_line_separator := true, specialIndentDelta := specialIndentDelta }

/-- The splice of `insertNewlineAfter` into the list. -/
def splice_after (fresh : Nat) (specialIndentDelta : Int) : NodeList → Nat → NodeList
  | [], _ => []
  | a :: rest, p =>
    if a.id = p then
      match rest with
      | [] => [a]
      | b :: rest1 =>
        if b.is_line_separator then a :: b :: rest1
        else a :: new_separator fresh specialIndentDelta :: b :: rest1
    else a :: splice_after fresh specialIndentDelta rest p

/-- The splice of `insertNewlineBefore` into the list. -/
def splice_before (fresh : Nat) (specialIndentDelta : Int) : NodeList → Nat → NodeList
  | [], _ => []
  | a :: rest, p =>
    if a.id = p then a :: rest
    else
      match rest with
      | [] => [a]
      | b :: rest1 =>
        if b.id = p then
          if a.is_line_separator then a :: b :: rest1
          else a :: new_separator fresh specialIndentDelta :: b :: rest1
        else a :: splice_before fresh specialIndentDelta rest p

/-- `insertNewlineAfter`: splice in a line break after the given node, if there isn't one
already and if it isn't the last node. -/
def insertNewlineAfter (s : NodeList) (node : Nat) (specialIndentDelta : Int) : NodeList :=
  splice_after s.length specialIndentDelta s node

/-- `insertNewlineBefore`: splice in a line break before the given node, if there isn't
one already and if it isn't the first node. -/
def insertNewlineBefore (s : NodeList) (node : Nat) (specialIndentDelta : Int) : NodeList :=
  splice_before s.length specialIndentDelta s node

/-- The assignment `n->line = line`. -/
def set_line (s : NodeList) (p : Nat) (line : Int) : NodeList :=
  s.map (fun n => if n.id = p then { n with line := line } else n)

/-- The assignment `n->lineIndent = v`. -/
def set_lineIndent (s : NodeList) (p : Nat) (v : Int) : NodeList :=
  s.map (fun n => if n.id = p then { n with lineIndent := v } else n)

/-- The assignment `n->offset = v`. -/
def set_offset (s : NodeList) (p : Nat) (v : Int) : NodeList :=
  s.map (fun n => if n.id = p then { n with offset := v } else n)

/-- The assignment `n->paren = q`. -/
def set_paren (s : NodeList) (p : Nat) (q : Option Nat) : NodeList :=
  s.map (fun n => if n.id = p then { n with paren := q } else n)

/-- An `assert`. -/
def assert (c : Bool) : Except Err Unit :=
  if c then .ok () else .error .assertion_failure

/-- The nodes that come before the node at address `p`. -/
def nodes_before : NodeList → Nat → NodeList
  | [], _ => []
  | a :: rest, p => if a.id = p then [] else a :: nodes_before rest p

/-- The nodes from the node at address `p` on, that node included. -/
def nodes_from : NodeList → Nat → NodeList
  | [], _ => []
  | a :: rest, p => if a.id = p then a :: rest else nodes_from rest p

/-- The nodes that come after the node at address `p`. -/
def nodes_after (s : NodeList) (p : Nat) : NodeList :=
  (nodes_from s p).tail

/-- `insertNewlineAfter` called on a pointer that may be null. -/
def insertNewlineAfter_ptr (s : NodeList) (node : Option Nat) (specialIndentDelta : Int) :
    Except Err NodeList :=
  match deref s node with
  | .error e => .error e
  | .ok n => .ok (insertNewlineAfter s n.id specialIndentDelta)

/-! ## Breaking a list

The two `breakList` loops walk `n` from `leftParen->next` to the close paren `rp`. The walk
is written over the part of the list that starts at `n`: the result is that part, with the
new separators spliced in. `insertNewlineAfter(pool, n, 0)` at the node the walk stands on
looks at the node that follows it; the separator it splices in is the next node of the walk,
where the loop body does nothing. The jump `n = n->paren` at the open paren of a nested list
is the argument `jump`: the nodes up to the target are passed over untouched. A target that
does not lie ahead in the list is reported as `Err.bad_link`.
-/

/-- The walk of `breakList(pool, leftParen, first_elt)` with the flag `breaking`; `s0` is
the list at the start of the walk (used to look up paren partners), `fresh` the next free
address. -/
def breakList_walk (s0 : NodeList) (rp first_elt : Option Nat) :
    Nat → Bool → Option Nat → NodeList → Except Err NodeList
  | _, _, none, [] => .ok []
  | _, _, some _, [] => .error .bad_link
  | fresh, breaking, some target, n :: rest =>
    if n.id = target then
      -- arrived at `n->paren`: `if (breaking) insertNewlineAfter(pool, n, 0)`
      match rest with
      | [] => .ok [n]
      | m :: _ =>
        if breaking && !m.is_line_separator then
          match breakList_walk s0 rp first_elt (fresh + 1) breaking none rest with
          | .error e => .error e
          | .ok r => .ok (n :: new_separator fresh 0 :: r)
        else
          match breakList_walk s0 rp first_elt fresh breaking none rest with
          | .error e => .error e
          | .ok r => .ok (n :: r)
    else
      match breakList_walk s0 rp first_elt fresh breaking (some target) rest with
      | .error e => .error e
      | .ok r => .ok (n :: r)
  | fresh, breaking, none, n :: rest =>
    if some n.id = rp then .ok (n :: rest)
    else
      let breaking := if some n.id = first_elt then true else breaking
      if n.is_line_separator then
        match breakList_walk s0 rp first_elt fresh breaking none rest with
        | .error e => .error e
        | .ok r => .ok (n :: r)
      else
        match tok_of n with
        | .error e => .error e
        | .ok t =>
          if t.kind = .OPEN_PAREN then
            -- n = n->paren; assert(n->tok->kind == CLOSE_PAREN)
            match deref s0 n.paren with
            | .error e => .error e
            | .ok cl =>
              match tok_of cl with
              | .error e => .error e
              | .ok ct =>
                if ct.kind = .CLOSE_PAREN then
                  match breakList_walk s0 rp first_elt fresh breaking (some cl.id) rest with
                  | .error e => .error e
                  | .ok r => .ok (n :: r)
                else .error .assertion_failure
          else if t.kind ≠ .WHITESPACE then
            if t.kind = .CLOSE_PAREN then .error .assertion_failure
            else
              match rest with
              | [] => .ok [n]
              | m :: _ =>
                if breaking && !m.is_line_separator then
                  match breakList_walk s0 rp first_elt (fresh + 1) breaking none rest with
                  | .error e => .error e
                  | .ok r => .ok (n :: new_separator fresh 0 :: r)
                else
                  match breakList_walk s0 rp first_elt fresh breaking none rest with
                  | .error e => .error e
                  | .ok r => .ok (n :: r)
          else
            match breakList_walk s0 rp first_elt fresh breaking none rest with
            | .error e => .error e
            | .ok r => .ok (n :: r)

/-- The entry assertions shared by the two `breakList` functions; the result is the left
paren node. -/
def breakList_entry (s : NodeList) (leftParen : Option Nat) : Except Err PrettyPrinterNode := do
  let lp ← deref s leftParen
  assert (!lp.is_line_separator)
  let lt ← tok_of lp
  assert (lt.kind = .OPEN_PAREN)
  let rn ← deref s lp.paren
  let rt ← tok_of rn
  assert (rt.kind = .CLOSE_PAREN)
  pure lp

/-- `breakList(pool, leftParen)`: break a list across multiple lines. It is the walk of
the three-argument `breakList` with `breaking` true from the start. -/
def breakList (s : NodeList) (leftParen : Option Nat) : Except Err NodeList := do
  let lp ← breakList_entry s leftParen
  let r ← breakList_walk s lp.paren none s.length true none (nodes_after s lp.id)
  pure (nodes_before s lp.id ++ lp :: r)

/-- `breakList(pool, leftParen, first_elt)`: break a list across multiple lines, from
`first_elt` on. -/
def breakList_from (s : NodeList) (leftParen first_elt : Option Nat) :
    Except Err NodeList := do
  let lp ← breakList_entry s leftParen
  let r ← breakList_walk s lp.paren first_elt s.length false none (nodes_after s lp.id)
  pure (nodes_before s lp.id ++ lp :: r)

/-! ## Propagation of lines, offsets and indents -/

/-- The first loop of `propagatePretty` (propagate line numbers, and add the newlines
around close parens). `pre` holds the nodes the walk has passed, `line` is the running
line number, `fresh` the next free address, and the last argument the part of the list
that starts at the loop variable `n`. A separator spliced in after `n` is the next node of
the walk, where `line` goes up by one. -/
def propagate_lines : Nat → NodeList → Int → NodeList → Except Err NodeList
  | _, pre, _, [] => .ok pre
  | fresh, pre, line, n :: rest =>
    if n.is_line_separator then propagate_lines fresh (pre ++ [n]) (line + 1) rest
    else
      let n1 : PrettyPrinterNode := { n with line := line }
      match tok_of n1 with
      | .error e => .error e
      | .ok t =>
        if t.kind = .CLOSE_PAREN then
          -- n->paren->line
          match deref (pre ++ n1 :: rest) n1.paren with
          | .error e => .error e
          | .ok po =>
            if n1.line ≠ po.line then
              -- if (n->prev && !n->prev->is_line_separator) { insertNewlineBefore; line++; }
              let before : Bool :=
                match pre.getLast? with
                | none => false
                | some q => !q.is_line_separator
              let pre1 := if before then pre ++ [new_separator fresh 0] else pre
              let fresh1 := if before then fresh + 1 else fresh
              let line1 := if before then line + 1 else line
              -- if (n->next && !n->next->is_line_separator) insertNewlineAfter
              match rest with
              | [] => .ok (pre1 ++ [n1])
              | m :: _ =>
                if m.is_line_separator then propagate_lines fresh1 (pre1 ++ [n1]) line1 rest
                else
                  propagate_lines (fresh1 + 1) (pre1 ++ [n1, new_separator fresh1 0])
                    (line1 + 1) rest
            else propagate_lines fresh (pre ++ [n1]) line rest
        else propagate_lines fresh (pre ++ [n1]) line rest

/-- The local variables of the second loop of `propagatePretty`. The last element of the
vector `indentStack` is the head of the list. -/
structure OffsetState where
  indentStack : List Int := [0]
  offset : Int := 0
  line_start : Option Nat
  previous_line_sep : Bool := false
  rv : Option Nat := none
  deriving Repr, DecidableEq

/-- The second loop of `propagatePretty` (compute offsets and indents). `prev` is the node
before the loop variable, the last argument the part of the list that starts at it. The
result is that part with the new `offset` and `lineIndent` fields, and `rv`. -/
def propagate_offsets (line_length : Int) :
    Option PrettyPrinterNode → OffsetState → NodeList → Except Err (NodeList × Option Nat)
  | _, st, [] => .ok ([], st.rv)
  | prev, st, n :: rest =>
    if n.is_line_separator then
      match st.indentStack with
      | [] => .error .null_dereference
      | top :: _ =>
        match propagate_offsets line_length (some n)
            { st with previous_line_sep := true, offset := top + n.specialIndentDelta } rest with
        | .error e => .error e
        | .ok (r, rv) => .ok (n :: r, rv)
    else
      match tok_of n with
      | .error e => .error e
      | .ok t =>
        let line_start := if st.previous_line_sep then some n.id else st.line_start
        -- if (previous_line_sep) n->lineIndent = offset; then n->offset = offset
        let n2 : PrettyPrinterNode :=
          { n with
            lineIndent := if st.previous_line_sep then st.offset else n.lineIndent,
            offset := st.offset }
        let offset : Int := st.offset + t.toString.length
        let rv := if offset > line_length ∧ st.rv = none then line_start else st.rv
        let pushed : List Int :=
          if t.kind = .OPEN_PAREN then
            (match prev with
              | none => offset + 1
              | some q => if q.is_line_separator then offset + 1 else offset - 1)
              :: st.indentStack
          else st.indentStack
        if t.kind = .CLOSE_PAREN then
          match pushed with
          | [] => .error .null_dereference
          | _ :: popped =>
            match propagate_offsets line_length (some n2)
                { indentStack := popped, offset := offset, line_start := line_start,
                  previous_line_sep := false, rv := rv } rest with
            | .error e => .error e
            | .ok (r, rv1) => .ok (n2 :: r, rv1)
        else
          match propagate_offsets line_length (some n2)
              { indentStack := pushed, offset := offset, line_start := line_start,
                previous_line_sep := false, rv := rv } rest with
          | .error e => .error e
          | .ok (r, rv1) => .ok (n2 :: r, rv1)

/-- `propagatePretty`: compute proper line numbers, offsets, and indents for a list of
tokens with newlines. Will add newlines for close parens if needed. The result is the new
list and the returned node. -/
def propagatePretty (s : NodeList) (list : Option Nat) (line_length : Int) :
    Except Err (NodeList × Option Nat) := do
  let l ← deref s list
  let s1 ← propagate_lines s.length (nodes_before s l.id) l.line (nodes_from s l.id)
  let (r, rv) ← propagate_offsets line_length (nodes_before s1 l.id).getLast?
    { line_start := list } (nodes_from s1 l.id)
  pure (nodes_before s1 l.id ++ r, rv)

/-! ## Looking along a line -/

/-- The `while` loop shared by `getNextListOnLine`, `getNextOfKindOrStringOnLine`,
`getNextListOrEmptyListOnLine` and `getFirstListOnLine`: walk along the line `line` and
return the first node whose token is one of `kinds`. -/
def scan_line (kinds : List TokenKind) (line : Int) : NodeList → Except Err (Option Nat)
  | [] => .ok none
  | n :: rest =>
    if !n.is_line_separator ∧ n.line = line then
      match tok_of n with
      | .error e => .error e
      | .ok t => if t.kind ∈ kinds then .ok (some n.id) else scan_line kinds line rest
    else .ok none

/-- The functions that look for the next node of some kinds on the line, `start` not
included. -/
def scan_next_on_line (kinds : List TokenKind) (s : NodeList) (start : Option Nat) :
    Except Err (Option Nat) := do
  let st ← deref s start
  assert (!st.is_line_separator)
  match nodes_after s st.id with
  | [] => pure none
  | m :: rest => if m.is_line_separator then pure none else scan_line kinds st.line (m :: rest)

/-- `getNextListOnLine`: the next open paren on the current line, not inclusive of start. -/
def getNextListOnLine (s : NodeList) (start : Option Nat) : Except Err (Option Nat) :=
  scan_next_on_line [.OPEN_PAREN] s start

/-- `getNextOfKindOrStringOnLine`. -/
def getNextOfKindOrStringOnLine (s : NodeList) (start : Option Nat) (kind : TokenKind) :
    Except Err (Option Nat) :=
  scan_next_on_line [kind, .OPEN_PAREN] s start

/-- `getNextListOrEmptyListOnLine`. -/
def getNextListOrEmptyListOnLine (s : NodeList) (start : Option Nat) :
    Except Err (Option Nat) :=
  scan_next_on_line [.OPEN_PAREN, .EMPTY_PAIR] s start

/-- `getFirstListOnLine`: the first open paren on the current line, inclusive of start. -/
def getFirstListOnLine (s : NodeList) (start : Option Nat) : Except Err (Option Nat) := do
  let st ← deref s start
  assert (!st.is_line_separator)
  scan_line [.OPEN_PAREN] st.line (nodes_from s st.id)

/-- The loop of `getNextLine`. -/
def getNextLine_walk (line : Int) : NodeList → Option Nat
  | [] => none
  | n :: rest =>
    if n.is_line_separator ∨ n.line = line then getNextLine_walk line rest else some n.id

/-- `getNextLine`: the token on the start of the next line, `nullptr` if we're the last
line. -/
def getNextLine (s : NodeList) (start : Option Nat) : Except Err (Option Nat) := do
  let st ← deref s start
  assert (!st.is_line_separator)
  pure (getNextLine_walk st.line (nodes_from s st.id))

/-- The loop of `getFirstBadLine`, with its variables `currentLine` and
`currentLineNode`. -/
def getFirstBadLine_walk (line_length : Int) : Int → Nat → NodeList → Except Err (Option Nat)
  | _, _, [] => .ok none
  | currentLine, currentLineNode, n :: rest =>
    if n.is_line_separator then
      match rest with
      | [] => .error .assertion_failure
      | _ :: _ => getFirstBadLine_walk line_length currentLine currentLineNode rest
    else
      let currentLineNode1 := if n.line ≠ currentLine then n.id else currentLineNode
      let currentLine1 := if n.line ≠ currentLine then n.line else currentLine
      if n.offset > line_length then .ok (some currentLineNode1)
      else
        match rest with
        | [] => .ok none
        | _ :: _ => getFirstBadLine_walk line_length currentLine1 currentLineNode1 rest

/-- `getFirstBadLine`: the first token on the first line which exceeds the max length. -/
def getFirstBadLine (s : NodeList) (start : Option Nat) (line_length : Int) :
    Except Err (Option Nat) := do
  let st ← deref s start
  assert (!st.is_line_separator)
  getFirstBadLine_walk line_length st.line st.id (nodes_from s st.id)

/-- The loop `while (in && (in->is_line_separator || (in->tok && in->tok->kind ==
WHITESPACE))) in = in->next`. -/
def skip_blank : NodeList → Option Nat
  | [] => none
  | n :: rest =>
    if n.is_line_separator then skip_blank rest
    else
      match n.tok with
      | none => some n.id
      | some t => if t.kind = .WHITESPACE then skip_blank rest else some n.id

/-- `seek_to_next_non_whitespace`. -/
def seek_to_next_non_whitespace (s : NodeList) (inp : Option Nat) : Except Err (Option Nat) := do
  let nd ← deref s inp
  pure (skip_blank (nodes_after s nd.id))

/-! ## The break insertion algorithm -/

/-- The inner loop of `insertBreaksAsNeeded`: break the lists of the line
`candidate_line` from left to right, starting with `form_to_start`, until the line is no
longer the first bad line. -/
def fix_line (head : Option Nat) (line_length : Int) (candidate_line : Option Nat) :
    Nat → NodeList → Option Nat → Except Err NodeList
  | 0, _, _ => .error .out_of_fuel
  | fuel + 1, s, form_to_start =>
    match form_to_start with
    | none => .ok s  -- this means we failed to hit the desired line length...
    | some _ => do
      let s1 ← breakList s form_to_start
      let (s2, _) ← propagatePretty s1 head line_length
      let bad ← getFirstBadLine s2 candidate_line line_length
      if bad ≠ candidate_line then pure s2
      else
        let next ← getNextListOnLine s2 form_to_start
        match next with
        | none => pure s2
        | some _ => fix_line head line_length candidate_line fuel s2 next

/-- The search at the top of the outer loop of `insertBreaksAsNeeded`: the value of
`candidate_line` when the test `if (!candidate_line) break;` is reached. -/
def find_candidate_line (s : NodeList) (last_line_complete line_to_start_line_search : Option Nat)
    (line_length : Int) : Except Err (Option Nat) := do
  -- search for a bad line starting at the last line we fixed
  let found ← getFirstBadLine s line_to_start_line_search line_length
  -- if we got the same line we started on, this means we couldn't fix it.
  if found = last_line_complete then
    let next_line ← getNextLine s line_to_start_line_search
    match next_line with
    | none => pure none
    | some _ => getFirstBadLine s next_line line_length
  else pure found

/-- The outer loop of `insertBreaksAsNeeded` (loop over lines), with its variables
`last_line_complete` and `line_to_start_line_search`. `inner` is the fuel handed to each
run of the inner loop. -/
def insertBreaks_loop (head : Option Nat) (line_length : Int) (inner : Nat) :
    Nat → NodeList → Option Nat → Option Nat → Except Err NodeList
  | 0, _, _, _ => .error .out_of_fuel
  | fuel + 1, s, last_line_complete, line_to_start_line_search => do
    -- compute lines as needed
    let (s1, _) ← propagatePretty s head line_length
    let candidate_line ←
      find_candidate_line s1 last_line_complete line_to_start_line_search line_length
    match candidate_line with
    | none => pure s1
    | some c => do
      -- okay, we have a line which needs fixing.
      assert (null_or_separator s1 (prev_of s1 c))
      let form_to_start ← getFirstListOnLine s1 candidate_line
      let s2 ← fix_line head line_length candidate_line inner s1 form_to_start
      insertBreaks_loop head line_length inner fuel s2 candidate_line candidate_line

/-- `insertBreaksAsNeeded`: the break insertion algorithm. -/
def insertBreaksAsNeeded (fuel inner : Nat) (s : NodeList) (head : Option Nat)
    (line_length : Int) : Except Err NodeList :=
  insertBreaks_loop head line_length inner fuel s none head

/-! ## Special forms -/

/-- The names in `control_flow_start_forms`. -/
def control_flow_start_forms : List String := ["while", "dotimes", "until", "if", "when"]

/-- The `while (true)` loop of the `cond` rule. -/
def break_cond_cases : Nat → NodeList → Option Nat → Except Err NodeList
  | 0, _, _ => .error .out_of_fuel
  | fuel + 1, s, start_of_case => do
    -- let's break this case:
    let sc ← deref s start_of_case
    let st ← tok_of sc
    assert (st.kind = .OPEN_PAREN)
    let end_of_case := sc.paren
    let ec ← deref s end_of_case
    let et ← tok_of ec
    assert (et.kind = .CLOSE_PAREN)
    -- and break there.
    let s1 ← breakList s start_of_case
    -- now, look for the next case.
    let next := skip_blank (nodes_after s1 ec.id)
    match next with
    | none => pure s1
    | some _ => do
      let nx ← deref s1 next
      let nt ← tok_of nx
      if nt.kind = .CLOSE_PAREN then pure s1
      else if nt.kind ≠ .OPEN_PAREN then pure s1
      else break_cond_cases fuel s1 next

/-- The rule for `deftype`. -/
def special_deftype (s : NodeList) (node : PrettyPrinterNode) : Except Err NodeList := do
  let parent_type_dec ← getNextListOnLine s (some node.id)
  match parent_type_dec with
  | none => pure s
  | some _ => do
    let ptd ← deref s parent_type_dec
    insertNewlineAfter_ptr s ptd.paren 0

/-- The first part of the rule for `defun`, `defmethod`, `defun-debug`, `let`, `let*` and
`rlet`, given `first_list`. -/
def special_define_break (s : NodeList) (node : PrettyPrinterNode) (first_list : Option Nat) :
    Except Err NodeList :=
  match first_list with
  | none => pure s
  | some _ => do
    let fl ← deref s first_list
    let ft ← tok_of fl
    if ft.kind = .EMPTY_PAIR then
      let s1 ← insertNewlineAfter_ptr s first_list 0
      breakList_from s1 node.paren first_list
    else
      let s1 ← insertNewlineAfter_ptr s fl.paren 0
      breakList_from s1 node.paren first_list

/-- The value of `single_var` in the rule for `let`, `let*` and `rlet`: we only want to
break the variable list if it has multiple. -/
def let_single_var (s : NodeList) (first_list : Option Nat) : Except Err Bool := do
  let first_var_open ← seek_to_next_non_whitespace s first_list
  let fvo ← deref s first_var_open
  match fvo.tok with
  | none => pure false
  | some t =>
    if t.kind = .OPEN_PAREN then
      let var_close_paren := fvo.paren
      match var_close_paren with
      | none => pure false
      | some _ => do
        let vcp ← deref s var_close_paren
        match nodes_after s vcp.id with
        | [] => pure false
        | m :: rest =>
          match skip_blank (m :: rest) with
          | none => pure false
          | some i => do
            let it ← deref s (some i)
            match it.tok with
            | none => pure false
            | some u => pure (decide (u.kind = .CLOSE_PAREN))
    else pure false

/-- The second part of the rule for `let`, `let*` and `rlet`. -/
def special_let (s : NodeList) (node : PrettyPrinterNode) (first_list : Option Nat) :
    Except Err NodeList :=
  match first_list with
  | none => pure s
  | some _ => do
    let fl ← deref s first_list
    let ft ← tok_of fl
    let s1 ←
      (if ft.kind = .OPEN_PAREN then
        (let_single_var s first_list >>= fun single_var =>
          if !single_var then breakList s first_list else pure s)
      else pure s)
    let open_paren := prev_of s1 node.id
    match open_paren with
    | none => pure s1
    | some _ => do
      let op ← deref s1 open_paren
      let ot ← tok_of op
      if ot.kind = .OPEN_PAREN then
        match prev_of s1 op.id with
        | none => pure s1
        | some pp => do
          let ppn ← deref s1 (some pp)
          breakList_from s1 ppn.paren open_paren
      else pure s1

/-- The rule for the names in `control_flow_start_forms`. -/
def special_control_flow (s : NodeList) (node : PrettyPrinterNode) : Except Err NodeList := do
  let parent_type_dec ← getNextOfKindOrStringOnLine s (some node.id) .STRING
  match parent_type_dec with
  | none => pure s
  | some _ => do
    let ptd ← deref s parent_type_dec
    let pt ← tok_of ptd
    let s1 ←
      (if pt.kind = .OPEN_PAREN then
        (insertNewlineAfter_ptr s ptd.paren 0 >>= fun s0 =>
          breakList_from s0 node.paren parent_type_dec)
      else
        (insertNewlineAfter_ptr s parent_type_dec 0 >>= fun s0 =>
          breakList_from s0 node.paren parent_type_dec))
    let open_paren := prev_of s1 node.id
    match open_paren with
    | none => pure s1
    | some _ => do
      let op ← deref s1 open_paren
      let ot ← tok_of op
      if ot.kind = .OPEN_PAREN then
        if is_real s1 (prev_of s1 op.id) then do
          let ppn ← deref s1 (prev_of s1 op.id)
          let to_break ← deref s1 ppn.paren
          match to_break.tok with
          | none => pure s1
          | some tt =>
            if tt.kind = .OPEN_PAREN then breakList_from s1 ppn.paren open_paren
            else pure s1
        else pure s1
      else pure s1

/-- The rule for `cond`. -/
def special_cond (fuel : Nat) (s : NodeList) (node : PrettyPrinterNode) :
    Except Err NodeList := do
  let start_of_case ← getNextListOnLine s (some node.id)
  let s1 ← break_cond_cases fuel s start_of_case
  -- break cond into a multi-line always
  breakList s1 node.paren

/-- The rule for `defun`, `defmethod`, `defun-debug`, `let`, `let*` and `rlet`. -/
def special_define (s : NodeList) (node : PrettyPrinterNode) (name : String) :
    Except Err NodeList := do
  let first_list ← getNextListOrEmptyListOnLine s (some node.id)
  let s1 ← special_define_break s node first_list
  if name = "let" ∨ name = "let*" ∨ name = "rlet" then special_let s1 node first_list
  else pure s1

/-- The body of the loop of `insertSpecialBreaks` for the node at address `p`. -/
def special_breaks_at (fuel : Nat) (s : NodeList) (p : Nat) : Except Err NodeList := do
  let node ← deref s (some p)
  if node.is_line_separator then pure s
  else
    let t ← tok_of node
    if t.kind ≠ .STRING then pure s
    else
      let name := t.str
      let s1 ← (if name = "deftype" then special_deftype s node else pure s)
      let s2 ← (if name = "begin" then breakList s1 node.paren else pure s1)
      let s3 ←
        (if name = "defun" ∨ name = "defmethod" ∨ name = "defun-debug" ∨ name = "let" ∨
            name = "let*" ∨ name = "rlet" then special_define s2 node name else pure s2)
      let s4 ← (if name ∈ control_flow_start_forms then special_control_flow s3 node else pure s3)
      if name = "cond" then special_cond fuel s4 node else pure s4

/-- The loop of `insertSpecialBreaks`. Its body does nothing at a line separator, and the
nodes with a token are never unlinked, reordered or added to: the loop visits the nodes
with a token in the order they had at the start, which is the list `todo`. -/
def insertSpecialBreaks_loop (fuel : Nat) : NodeList → List Nat → Except Err NodeList
  | s, [] => .ok s
  | s, p :: todo =>
    match special_breaks_at fuel s p with
    | .error e => .error e
    | .ok s1 => insertSpecialBreaks_loop fuel s1 todo

/-- `insertSpecialBreaks`, started at the node `node`. -/
def insertSpecialBreaks (fuel : Nat) (s : NodeList) (node : Option Nat) : Except Err NodeList :=
  match node with
  | none => .ok s
  | some p => insertSpecialBreaks_loop fuel s ((nodes_from s p).map (fun n => n.id))

/-! ## The entry point -/

/-- The first loop of `to_string`: build the linked list of nodes, all on line 0 with
sequential offsets. `id` is the index of the token, `offset` the running offset. -/
def build_nodes : Nat → Int → List FormToken → NodeList
  | _, _, [] => []
  | id, offset, t :: rest =>
    { id := id, tok := some t, line := 0, offset := offset, lineIndent := 0 } ::
      build_nodes (id + 1) (offset + t.toString.length) rest

/-- The second loop of `to_string`: attach parens. `parenStack` has its last element at
the head of the list; the null pointer pushed first is `none`. `todo` is the part of the
list that starts at the loop variable. The result is the list and the stack. -/
def attach_parens : NodeList → List (Option Nat) → NodeList →
    Except Err (NodeList × List (Option Nat))
  | s, parenStack, [] => .ok (s, parenStack)
  | s, parenStack, n :: todo =>
    match tok_of n with
    | .error e => .error e
    | .ok t =>
      if t.kind = .OPEN_PAREN then attach_parens s (some n.id :: parenStack) todo
      else
        match parenStack with
        | [] => .error .null_dereference
        | back :: popped =>
          if t.kind = .CLOSE_PAREN then
            -- n->paren = parenStack.back(); parenStack.back()->paren = n; pop_back
            match back with
            | none => .error .null_dereference
            | some b => attach_parens (set_paren (set_paren s n.id back) b (some n.id)) popped todo
          else attach_parens (set_paren s n.id back) parenStack todo

/-- The last loop of `to_string`: write to string. -/
def render : Bool → NodeList → Except Err String
  | _, [] => .ok ""
  | newline_prev, n :: rest =>
    if n.is_line_separator then
      match render true rest with
      | .error e => .error e
      | .ok r => .ok ("\n" ++ r)
    else
      match tok_of n with
      | .error e => .error e
      | .ok t =>
        if newline_prev then
          if n.lineIndent < 0 then .error .length_error
          else
            match render false rest with
            | .error e => .error e
            | .ok r =>
              if t.kind = .WHITESPACE then .ok (String.mk (List.replicate n.lineIndent.toNat ' ') ++ r)
              else .ok (String.mk (List.replicate n.lineIndent.toNat ' ') ++ t.toString ++ r)
        else
          match render false rest with
          | .error e => .error e
          | .ok r => .ok (t.toString ++ r)

/-- The fuel `to_string` gives to the loops of the break insertion and of the `cond`
rule: the number of tokens plus two. -/
def loop_fuel (tokens : List FormToken) : Nat := tokens.length + 2

/-- `to_string`: pretty print an object with the given line length. -/
def to_string (obj : Object) (line_length : Int) : Except Err String := do
  let tokens ← add_to_token_list obj []
  assert (!tokens.isEmpty)
  -- build linked list of nodes
  let s0 := build_nodes 0 0 tokens
  let head : Option Nat := some 0
  -- attach parens.
  let (s1, parenStack) ← attach_parens s0 [none] s0
  assert (parenStack.length = 1)
  assert (parenStack.head? = some none)
  let s2 ← insertSpecialBreaks (loop_fuel tokens) s1 head
  let (s3, _) ← propagatePretty s2 head line_length
  let s4 ← insertBreaksAsNeeded (loop_fuel tokens) (loop_fuel tokens) s3 head line_length
  -- write to string
  render true s4

/-- `build_list(const std::vector<goos::Object>&)`: build a list out of a vector of forms. -/
def build_list : List Object → Object
  | [] => .EMPTY_LIST
  | car :: rest => .PAIR car (build_list rest)

instance instDecidableEqExcept {ε α : Type} [DecidableEq ε] [DecidableEq α] :
    DecidableEq (Except ε α) := fun a b =>
  match a, b with
  | .ok x, .ok y =>
    if h : x = y then isTrue (by rw [h]) else isFalse (by intro h2; cases h2; exact h rfl)
  | .error x, .error y =>
    if h : x = y then isTrue (by rw [h]) else isFalse (by intro h2; cases h2; exact h rfl)
  | .ok _, .error _ => isFalse (by intro h; cases h)
  | .error _, .ok _ => isFalse (by intro h; cases h)

/-! ## What the passes keep -/

/-- Two nodes agree on everything but `line`, `lineIndent` and `offset`. -/
def same_core (n n1 : PrettyPrinterNode) : Prop :=
  n1.id = n.id ∧ n1.tok = n.tok ∧ n1.is_line_separator = n.is_line_separator ∧
    n1.paren = n.paren ∧ n1.specialIndentDelta = n.specialIndentDelta

/-- A node is a line separator without a token. -/
def is_separator_node (b : PrettyPrinterNode) : Prop :=
  b.is_line_separator = true ∧ b.tok = none

/-- The list `s1` is the list `s` with separators spliced in, whose addresses are at least
`k`, and with new values in the fields `line`, `lineIndent` and `offset`. -/
inductive Refines (k : Nat) : NodeList → NodeList → Prop where
  | nil : Refines k [] []
  | keep {n n1 : PrettyPrinterNode} {s s1 : NodeList} :
      same_core n n1 → Refines k s s1 → Refines k (n :: s) (n1 :: s1)
  | ins {b : PrettyPrinterNode} {s s1 : NodeList} :
      is_separator_node b → k ≤ b.id → Refines k s s1 → Refines k s (b :: s1)

/-- The tokens of the nodes that are not separators, in list order. -/
def real_tokens (s : NodeList) : List FormToken :=
  (s.filter (fun n => !n.is_line_separator)).filterMap (fun n => n.tok)

/-- What the first node of the list shows to the renderer and to the passes. -/
def head_key (s : NodeList) : Option (Nat × Option FormToken × Bool × Int) :=
  s.head?.map (fun n => (n.id, n.tok, n.is_line_separator, n.lineIndent))

/-- The list `s1` comes from `s` by splicing in separators with fresh addresses and
recomputing the layout fields, and its first node is the first node of `s`, with the same
`lineIndent`. -/
def Evolves (s s1 : NodeList) : Prop :=
  Refines s.length s s1 ∧ head_key s1 = head_key s

/-! ## Reference notions used in the statements -/

/-- The object is built only from empty lists, integers, floats, chars, symbols, strings
and pairs. -/
def supported : Object → Prop
  | .PAIR car cdr => supported car ∧ supported cdr
  | .ARRAY => False
  | .LAMBDA => False
  | .MACRO => False
  | .ENVIRONMENT => False
  | _ => True

mutual
/-- The tokens of an object, as a function of the object alone. -/
def tokens_of : Object → List FormToken
  | .PAIR car cdr => ⟨.OPEN_PAREN, ""⟩ :: (tokens_of car ++ rest_tokens_of cdr)
  | .EMPTY_LIST => [⟨.EMPTY_PAIR, ""⟩]
  | .INTEGER p => [⟨.STRING, p⟩]
  | .FLOAT p => [⟨.STRING, p⟩]
  | .CHAR p => [⟨.STRING, p⟩]
  | .SYMBOL p => [⟨.STRING, p⟩]
  | .STRING p => [⟨.STRING, p⟩]
  | .ARRAY => []
  | .LAMBDA => []
  | .MACRO => []
  | .ENVIRONMENT => []
/-- The tokens that follow the car of a pair, as a function of its cdr. -/
def rest_tokens_of : Object → List FormToken
  | .EMPTY_LIST => [⟨.CLOSE_PAREN, ""⟩]
  | .PAIR car cdr => ⟨.WHITESPACE, ""⟩ :: (tokens_of car ++ rest_tokens_of cdr)
  | .INTEGER p => [⟨.WHITESPACE, ""⟩, ⟨.DOT, ""⟩, ⟨.WHITESPACE, ""⟩, ⟨.STRING, p⟩, ⟨.CLOSE_PAREN, ""⟩]
  | .FLOAT p => [⟨.WHITESPACE, ""⟩, ⟨.DOT, ""⟩, ⟨.WHITESPACE, ""⟩, ⟨.STRING, p⟩, ⟨.CLOSE_PAREN, ""⟩]
  | .CHAR p => [⟨.WHITESPACE, ""⟩, ⟨.DOT, ""⟩, ⟨.WHITESPACE, ""⟩, ⟨.STRING, p⟩, ⟨.CLOSE_PAREN, ""⟩]
  | .SYMBOL p => [⟨.WHITESPACE, ""⟩, ⟨.DOT, ""⟩, ⟨.WHITESPACE, ""⟩, ⟨.STRING, p⟩, ⟨.CLOSE_PAREN, ""⟩]
  | .STRING p => [⟨.WHITESPACE, ""⟩, ⟨.DOT, ""⟩, ⟨.WHITESPACE, ""⟩, ⟨.STRING, p⟩, ⟨.CLOSE_PAREN, ""⟩]
  | .ARRAY => []
  | .LAMBDA => []
  | .MACRO => []
  | .ENVIRONMENT => []
end

/-- The flat one-line rendering of a token list: the token texts one after the other. -/
def flat_text : List FormToken → String
  | [] => ""
  | t :: rest => t.toString ++ flat_text rest

/-- A run of `k` spaces. -/
def spaces (k : Nat) : String := String.mk (List.replicate k ' ')

/-- One line of an output text: its indentation, the whitespace token that the line break
before it stands for (if it stands for one), and the tokens printed on the line. -/
structure OutLine where
  indent : Nat
  dropped : Option FormToken
  toks : List FormToken
  deriving Repr, DecidableEq

/-- The text of a line. -/
def OutLine.text (l : OutLine) : String := spaces l.indent ++ flat_text l.toks

/-- The tokens a line accounts for. -/
def OutLine.tokens (l : OutLine) : List FormToken := l.dropped.toList ++ l.toks

/-- The lines, joined by line terminators. -/
def join_lines : List OutLine → String
  | [] => ""
  | l :: ls =>
    match ls with
    | [] => l.text
    | _ :: _ => l.text ++ "\n" ++ join_lines ls

/-- A token put at the front of the first line. -/
def push_token (t : FormToken) : List OutLine → List OutLine
  | [] => [⟨0, none, [t]⟩]
  | l :: ls => ⟨l.indent, l.dropped, t :: l.toks⟩ :: ls

/-- The first line opened with the given indentation and dropped token. -/
def open_line (indent : Nat) (dropped : Option FormToken) : List OutLine → List OutLine
  | [] => [⟨indent, dropped, []⟩]
  | l :: ls => ⟨indent, dropped, l.toks⟩ :: ls

/-- The lines that `render` writes for a node list. -/
def lines_of : Bool → NodeList → List OutLine
  | _, [] => [⟨0, none, []⟩]
  | newline_prev, n :: rest =>
    if n.is_line_separator then ⟨0, none, []⟩ :: lines_of true rest
    else
      match n.tok with
      | none => lines_of newline_prev rest
      | some t =>
        if newline_prev then
          if t.kind = .WHITESPACE then open_line n.lineIndent.toNat (some t) (lines_of false rest)
          else open_line n.lineIndent.toNat none (push_token t (lines_of false rest))
        else push_token t (lines_of false rest)

/-- A node with its paren link cleared. -/
def erase_paren (n : PrettyPrinterNode) : PrettyPrinterNode := { n with paren := none }

/-! ## The paren links, as a function of the object -/

mutual
/-- The `paren` fields that `to_string` gives to the nodes of the tokens of an object, when
the first of them has address `b` and `e` is the enclosing open paren. -/
def links_of : Object → Nat → Option Nat → List (Option Nat)
  | .PAIR car cdr, b, _ =>
    some (b + (tokens_of car).length + (rest_tokens_of cdr).length) ::
      (links_of car (b + 1) (some b) ++ rest_links_of cdr (b + 1 + (tokens_of car).length) b)
  | .EMPTY_LIST, _, e => [e]
  | .INTEGER _, _, e => [e]
  | .FLOAT _, _, e => [e]
  | .CHAR _, _, e => [e]
  | .SYMBOL _, _, e => [e]
  | .STRING _, _, e => [e]
  | .ARRAY, _, _ => []
  | .LAMBDA, _, _ => []
  | .MACRO, _, _ => []
  | .ENVIRONMENT, _, _ => []
/-- The `paren` fields of the nodes of the tokens that follow the car of a pair, `o` being
the open paren of the list. -/
def rest_links_of : Object → Nat → Nat → List (Option Nat)
  | .EMPTY_LIST, _, o => [some o]
  | .PAIR car cdr, b, o =>
    some o :: (links_of car (b + 1) (some o) ++ rest_links_of cdr (b + 1 + (tokens_of car).length) o)
  | .INTEGER _, _, o => [some o, some o, some o, some o, some o]
  | .FLOAT _, _, o => [some o, some o, some o, some o, some o]
  | .CHAR _, _, o => [some o, some o, some o, some o, some o]
  | .SYMBOL _, _, o => [some o, some o, some o, some o, some o]
  | .STRING _, _, o => [some o, some o, some o, some o, some o]
  | .ARRAY, _, _ => []
  | .LAMBDA, _, _ => []
  | .MACRO, _, _ => []
  | .ENVIRONMENT, _, _ => []
end

/-- The list of links `ls`, read as a partial function on addresses from `b` on. -/
def seg_links : List (Option Nat) → Nat → Nat → Option (Option Nat)
  | [], _, _ => none
  | x :: l, b, i => if i = b then some x else seg_links l (b + 1) i

/-- The list with the `paren` fields given by the partial function `f` on addresses. -/
def assign_parens (f : Nat → Option (Option Nat)) (s : NodeList) : NodeList :=
  s.map (fun n => match f n.id with
    | some q => { n with paren := q }
    | none => n)

/-- The total width of the texts of a token list. -/
def text_width : List FormToken → Int
  | [] => 0
  | t :: rest => t.toString.length + text_width rest

/-- The nodes of a token list with the given `paren` fields, as `to_string` has them before
any line break is inserted: every token on line 0, addresses and offsets in sequence. -/
def build_linked : Nat → Int → List FormToken → List (Option Nat) → NodeList
  | id, offset, t :: rest, q :: qs =>
    { id := id, tok := some t, line := 0, offset := offset, lineIndent := 0, paren := q } ::
      build_linked (id + 1) (offset + t.toString.length) rest qs
  | _, _, _, _ => []

/-- The nesting depth after a token list, starting at depth `d`; `none` when a close paren
comes at depth 0. -/
def paren_depth : Nat → List FormToken → Option Nat
  | d, [] => some d
  | d, t :: rest =>
    if t.kind = .OPEN_PAREN then paren_depth (d + 1) rest
    else if t.kind = .CLOSE_PAREN then
      match d with
      | 0 => none
      | d1 + 1 => paren_depth d1 rest
    else paren_depth d rest

/-- The names that `insertSpecialBreaks` has a rule for. -/
def special_form_names : List String :=
  ["deftype", "begin", "defun", "defmethod", "defun-debug", "let", "let*", "rlet", "while",
    "dotimes", "until", "if", "when", "cond"]

/-- No atom of the token list prints as a name that `insertSpecialBreaks` has a rule
for. -/
def no_special_form (tokens : List FormToken) : Prop :=
  ∀ t ∈ tokens, t.kind = .STRING → t.str ∉ special_form_names

/-! ## Termination: the notions -/

/-- The addresses of the nodes that are not separators, in list order. -/
def real_ids (s : NodeList) : List Nat :=
  (s.filter (fun n => !n.is_line_separator)).map (fun n => n.id)

/-- Every separator of the list has an address of at least `T`, and no token. -/
def separators_above (T : Nat) (s : NodeList) : Prop :=
  ∀ n ∈ s, n.is_line_separator = true → T ≤ n.id ∧ n.tok = none

/-- The paren link of every open paren of the list points to a token with a larger
address, below `T`. -/
def links_forward (T : Nat) (s : NodeList) : Prop :=
  ∀ n ∈ s, n.is_line_separator = false → ∀ t, n.tok = some t → t.kind = .OPEN_PAREN →
    ∃ c, n.paren = some c ∧ n.id < c ∧ c < T

/-- The list holds the `T` token nodes of a call, with the addresses `0, ..., T - 1` in this
order, and separators with addresses from `T` on; the links of open parens point ahead. -/
def well_numbered (T : Nat) (s : NodeList) : Prop :=
  real_ids s = List.range T ∧ separators_above T s ∧ links_forward T s

/-- The computation does not end in an error that stands for a loop that does not end. -/
def Halts {α : Type} (x : Except Err α) : Prop :=
  x ≠ .error .out_of_fuel ∧ x ≠ .error .bad_link

/-- The token nodes of the list have the addresses `a, ..., T - 1`, in this order. -/
def numbered_from (T a : Nat) (s : NodeList) : Prop :=
  real_ids s = List.range' a (T - a) ∧ a ≤ T

/-! ## Where the line breaks are -/

/-- A separator directly follows the token node with address `x`. -/
def sep_after (s : NodeList) (x : Nat) : Prop :=
  ∃ pre n m post, s = pre ++ n :: m :: post ∧ n.id = x ∧ n.is_line_separator = false ∧
    m.is_line_separator = true

/-- The nodes that are not separators have the tokens `toks` and the paren links `links`,
by address. -/
def carries (toks : List FormToken) (links : List (Option Nat)) (s : NodeList) : Prop :=
  ∀ n ∈ s, n.is_line_separator = false → n.tok = toks[n.id]? ∧ links[n.id]? = some n.paren

/-- A line break separates the first `p` tokens of the output from the rest. -/
def break_at (lines : List OutLine) (p : Nat) : Prop :=
  ∃ A B, lines = A ++ B ∧ A ≠ [] ∧ B ≠ [] ∧ (A.flatMap OutLine.tokens).length = p

/-- The token with index `j` is the first one printed on its line, and this line is not
the first line. -/
def first_on_line (lines : List OutLine) (j : Nat) : Prop :=
  ∃ A l B, lines = A ++ l :: B ∧ A ≠ [] ∧
    (A.flatMap OutLine.tokens).length + l.dropped.toList.length = j ∧ l.toks ≠ []

/-- The part `l` of a list holds the token nodes with the addresses `a, ..., T - 1`, which
carry the tokens `toks` and the links `links`, and separators with addresses from `T` on. -/
def laid (toks : List FormToken) (links : List (Option Nat)) (a : Nat) (l : NodeList) : Prop :=
  numbered_from toks.length a l ∧ separators_above toks.length l ∧ carries toks links l

/-- The number of tokens of the elements `es` of a list, each with the whitespace before
it. -/
def elts_width (es : List Object) : Nat :=
  (es.map (fun e => 1 + (tokens_of e).length)).sum

/-- An atom that prints as one string token: an integer, float, char, symbol or string. -/
def plain_atom (o : Object) : Prop := ∃ t, tokens_of o = [t] ∧ t.kind = .STRING

/-! ## Paren balance -/

/-- The number of tokens of a kind in a token list. -/
def count_kind (k : TokenKind) (toks : List FormToken) : Nat :=
  (toks.filter (fun t => decide (t.kind = k))).length

mutual
/-- The number of pairs of the tree that start a list: the pairs that are not reached
through the cdr of another pair. -/
def list_starts : Object → Nat
  | .PAIR car cdr => 1 + list_starts car + cdr_starts cdr
  | _ => 0
/-- The pairs that start a list, in the rest of a list that begins at a cdr. -/
def cdr_starts : Object → Nat
  | .PAIR car cdr => list_starts car + cdr_starts cdr
  | _ => 0
end

/-! ## The tokenizer, as the specification words it -/

mutual
/-- The reference token list of a tree: a leaf is one string token with its printed text,
the empty list is one empty-pair token, and a list is an open paren, the token lists of
its elements with one whitespace token between consecutive elements, for an improper list
a whitespace, a dot, a whitespace and the token of the tail, and a close paren. -/
def ref_tokens : Object → List FormToken
  | .PAIR car cdr =>
    [⟨.OPEN_PAREN, ""⟩] ++ List.intercalate [⟨.WHITESPACE, ""⟩] (ref_tokens car :: ref_elements cdr)
      ++ ref_tail cdr ++ [⟨.CLOSE_PAREN, ""⟩]
  | .EMPTY_LIST => [⟨.EMPTY_PAIR, ""⟩]
  | .INTEGER p => [⟨.STRING, p⟩]
  | .FLOAT p => [⟨.STRING, p⟩]
  | .CHAR p => [⟨.STRING, p⟩]
  | .SYMBOL p => [⟨.STRING, p⟩]
  | .STRING p => [⟨.STRING, p⟩]
  | .ARRAY => []
  | .LAMBDA => []
  | .MACRO => []
  | .ENVIRONMENT => []
/-- The reference token lists of the elements of a list after the first, given its cdr. -/
def ref_elements : Object → List (List FormToken)
  | .PAIR car cdr => ref_tokens car :: ref_elements cdr
  | _ => []
/-- The reference tokens for the tail of an improper list, given its cdr: nothing for a
proper list. -/
def ref_tail : Object → List FormToken
  | .PAIR _ cdr => ref_tail cdr
  | .EMPTY_LIST => []
  | .INTEGER p => [⟨.WHITESPACE, ""⟩, ⟨.DOT, ""⟩, ⟨.WHITESPACE, ""⟩, ⟨.STRING, p⟩]
  | .FLOAT p => [⟨.WHITESPACE, ""⟩, ⟨.DOT, ""⟩, ⟨.WHITESPACE, ""⟩, ⟨.STRING, p⟩]
  | .CHAR p => [⟨.WHITESPACE, ""⟩, ⟨.DOT, ""⟩, ⟨.WHITESPACE, ""⟩, ⟨.STRING, p⟩]
  | .SYMBOL p => [⟨.WHITESPACE, ""⟩, ⟨.DOT, ""⟩, ⟨.WHITESPACE, ""⟩, ⟨.STRING, p⟩]
  | .STRING p => [⟨.WHITESPACE, ""⟩, ⟨.DOT, ""⟩, ⟨.WHITESPACE, ""⟩, ⟨.STRING, p⟩]
  | .ARRAY => []
  | .LAMBDA => []
  | .MACRO => []
  | .ENVIRONMENT => []
end

/-- Every close paren of the list whose open paren is on a different line stands directly
behind a separator, and it is the last node or stands directly before a separator. -/
def close_parens_isolated (s : NodeList) : Prop :=
  ∀ pre c post, s = pre ++ c :: post → c.is_line_separator = false →
    (∃ t, c.tok = some t ∧ t.kind = .CLOSE_PAREN) →
    ∀ po, deref s c.paren = .ok po → po.line ≠ c.line →
      (∃ pre1 q, pre = pre1 ++ [q] ∧ q.is_line_separator = true) ∧
      (post = [] ∨ ∃ m post1, post = m :: post1 ∧ m.is_line_separator = true)

/-- The property `close_parens_isolated` of the list `whole`, told along a part of it that
comes behind the node `prev`. -/
def isolated_walk (whole : NodeList) : Option PrettyPrinterNode → NodeList → Prop
  | _, [] => True
  | prev, c :: post =>
    (c.is_line_separator = false → (∃ t, c.tok = some t ∧ t.kind = .CLOSE_PAREN) →
      ∀ po, deref whole c.paren = .ok po → po.line ≠ c.line →
        (∃ q, prev = some q ∧ q.is_line_separator = true) ∧
        (post = [] ∨ ∃ m post1, post = m :: post1 ∧ m.is_line_separator = true)) ∧
    isolated_walk whole (some c) post

/-- Two lists with the same nodes up to the fields `offset` and `lineIndent`. -/
def same_lines (l l1 : NodeList) : Prop :=
  List.Forall₂ (fun n n1 => n1.id = n.id ∧ n1.tok = n.tok ∧
    n1.is_line_separator = n.is_line_separator ∧ n1.paren = n.paren ∧ n1.line = n.line) l l1

/-- The address `x` is the address `y`, or the address of a node that comes before the
node with the address `y`. -/
def occurs_upto (s : NodeList) (x y : Nat) : Prop :=
  x = y ∨ ∃ m ∈ nodes_before s y, m.id = x

/-- An atom that prints as one string token which is not the name of a special form. -/
def idle_atom (o : Object) : Prop :=
  ∃ t, tokens_of o = [t] ∧ t.kind = .STRING ∧ t.str ∉ special_form_names

/-- One turn of the second loop of `propagatePretty`, at the node `n` that comes after
`prev`: the node with its new `offset` and `lineIndent`, and the new values of the local
variables. -/
def offset_step (line_length : Int) (prev : Option PrettyPrinterNode) (st : OffsetState)
    (n : PrettyPrinterNode) : Except Err (PrettyPrinterNode × OffsetState) :=
  if n.is_line_separator then
    match st.indentStack with
    | [] => .error .null_dereference
    | top :: _ =>
      .ok (n, { st with previous_line_sep := true, offset := top + n.specialIndentDelta })
  else
    match tok_of n with
    | .error e => .error e
    | .ok t =>
      let line_start := if st.previous_line_sep then some n.id else st.line_start
      let n2 : PrettyPrinterNode :=
        { n with
          lineIndent := if st.previous_line_sep then st.offset else n.lineIndent,
          offset := st.offset }
      let offset : Int := st.offset + t.toString.length
      let rv := if offset > line_length ∧ st.rv = none then line_start else st.rv
      let pushed : List Int :=
        if t.kind = .OPEN_PAREN then
          (match prev with
            | none => offset + 1
            | some q => if q.is_line_separator then offset + 1 else offset - 1)
            :: st.indentStack
        else st.indentStack
      if t.kind = .CLOSE_PAREN then
        match pushed with
        | [] => .error .null_dereference
        | _ :: popped =>
          .ok (n2, { indentStack := popped, offset := offset, line_start := line_start,
                     previous_line_sep := false, rv := rv })
      else
        .ok (n2, { indentStack := pushed, offset := offset, line_start := line_start,
                   previous_line_sep := false, rv := rv })

/-- The values of the local variables of the second loop of `propagatePretty` after each
turn, in the order of the turns. -/
def offset_states (line_length : Int) :
    Option PrettyPrinterNode → OffsetState → NodeList → Except Err (List OffsetState)
  | _, _, [] => .ok []
  | prev, st, n :: rest =>
    match offset_step line_length prev st n with
    | .error e => .error e
    | .ok (n2, st1) =>
      match offset_states line_length (some n2) st1 rest with
      | .error e => .error e
      | .ok l => .ok (st1 :: l)

/-- The tokens with the indices from `a` up to `c`, `c` not included. -/
def segment (toks : List FormToken) (a c : Nat) : List FormToken := (toks.take c).drop a

/-- The close paren with index `c` balances the open paren with index `o` in the proper
nesting: the tokens between the two are balanced. -/
def balances (toks : List FormToken) (o c : Nat) : Prop :=
  o < c ∧ toks[o]? = some ⟨.OPEN_PAREN, ""⟩ ∧ toks[c]? = some ⟨.CLOSE_PAREN, ""⟩ ∧
    paren_depth 0 (segment toks (o + 1) c) = some 0

/-- The list opened by the paren with index `o` encloses the token with index `i`: the
token stands between the open paren and the close paren that balances it. -/
def encloses (toks : List FormToken) (o i : Nat) : Prop :=
  ∃ c, balances toks o c ∧ o < i ∧ i < c

/-- The token with index `x` lies in the list opened at `p` and closed at `c`, at the top
level of this list, and is neither whitespace nor an open paren: an atom or a dot of the
list, or the close paren of a list that is an element of it. -/
def direct_end (toks : List FormToken) (p c x : Nat) : Bool :=
  decide (p < x) && decide (x < c) &&
    (match toks[x]? with
      | some t => decide (t.kind ≠ .WHITESPACE) && decide (t.kind ≠ .OPEN_PAREN)
      | none => false) &&
    decide (paren_depth 0 (segment toks (p + 1) (x + 1)) = some 0)

/-- The list with a new separator behind every token node whose address satisfies `P`,
unless a separator follows it already or it is the last node; `fresh` is the next free
address. -/
def with_breaks (P : Nat → Bool) : Nat → NodeList → NodeList
  | _, [] => []
  | fresh, n :: rest =>
    match rest with
    | [] => [n]
    | m :: _ =>
      if !n.is_line_separator && P n.id && !m.is_line_separator then
        n :: new_separator fresh 0 :: with_breaks P (fresh + 1) rest
      else n :: with_breaks P fresh rest

/-- The token node with address `x` is in the list and is not its last node. -/
def inner_token (l : NodeList) (x : Nat) : Prop :=
  ∃ pre n m post, l = pre ++ n :: m :: post ∧ n.id = x ∧ n.is_line_separator = false

/-- The number of line separators of a list. -/
def separators (s : NodeList) : Nat := s.countP (fun n => n.is_line_separator)

/-- The list with the line numbers that the first loop of `propagatePretty` assigns when
it inserts nothing: `line` at the first node, one more behind every separator. The
separators keep their line. -/
def reline : Int → NodeList → NodeList
  | _, [] => []
  | line, n :: rest =>
    if n.is_line_separator then n :: reline (line + 1) rest
    else { n with line := line } :: reline line rest

/-- Every token of the list has the line number `L0` plus the number of separators that
come before it. -/
def lines_counted (L0 : Int) (s : NodeList) : Prop :=
  ∀ A n B, s = A ++ n :: B → n.is_line_separator = false → n.line = L0 + separators A

/-- The node stands alone on its line: the node before it, if any, is a separator and so
is the node behind it, if any. -/
def stands_alone (pre post : NodeList) : Prop :=
  (pre = [] ∨ ∃ pre1 q, pre = pre1 ++ [q] ∧ q.is_line_separator = true) ∧
  (post = [] ∨ ∃ m post1, post = m :: post1 ∧ m.is_line_separator = true)

/-- Told along the part of a list that comes behind the nodes `pre`: every token node has
a token, and every close paren has its partner among the nodes before it, with as many
separators before the partner as before the close paren, unless the close paren stands
alone on its line. -/
def settled_walk : NodeList → NodeList → Prop
  | _, [] => True
  | pre, c :: post =>
    (c.is_line_separator = false → ∃ t, c.tok = some t ∧
      (t.kind = .CLOSE_PAREN → ∃ o po, c.paren = some o ∧ node_at pre o = some po ∧
        po.is_line_separator = false ∧
        (separators (nodes_before pre o) = separators pre ∨ stands_alone pre post))) ∧
    settled_walk (pre ++ [c]) post

/-- Two lists with the same nodes up to the fields `line`, `offset` and `lineIndent`. -/
def same_shape (l l1 : NodeList) : Prop :=
  List.Forall₂ (fun n n1 => n1.id = n.id ∧ n1.tok = n.tok ∧
    n1.is_line_separator = n.is_line_separator ∧ n1.paren = n.paren) l l1
/-- The nodes `pre` hold the token nodes with the addresses below `a`, which carry the
tokens `toks`; every other node of `pre` has an address from `toks.length` on. -/
def covered (toks : List FormToken) (pre : NodeList) (a : Nat) : Prop :=
  (∀ j, j < a → ∃ po, node_at pre j = some po ∧ po.is_line_separator = false ∧
    po.tok = toks[j]?) ∧
  ∀ m ∈ pre, m.id < a ∨ toks.length ≤ m.id

/-- Every token node of `pre` that is not a close paren has the line number `L0` plus the
number of separators before it. -/
def opens_counted (L0 : Int) (pre : NodeList) : Prop :=
  ∀ o po, node_at pre o = some po → po.is_line_separator = false →
    (∀ t, po.tok = some t → t.kind ≠ .CLOSE_PAREN) →
    po.line = L0 + separators (nodes_before pre o)

/-- The token `u` may come directly behind the token `t` in the token list of a tree: a
whitespace or a close paren comes behind a token that is neither a whitespace nor an open
paren, and nothing else does. -/
def may_follow (t u : FormToken) : Prop :=
  (u.kind = .WHITESPACE ∨ u.kind = .CLOSE_PAREN) ↔
    (t.kind ≠ .WHITESPACE ∧ t.kind ≠ .OPEN_PAREN)
/-- The property `placed` told along a part of the list that comes behind the node `prev`:
every separator of the part has no extra indent, stands directly behind a token that is
neither whitespace nor an open paren, and directly before a token. -/
def placed_walk : Option PrettyPrinterNode → NodeList → Prop
  | _, [] => True
  | prev, n :: rest =>
    (n.is_line_separator = true →
      n.specialIndentDelta = 0 ∧
      (∃ q t, prev = some q ∧ q.is_line_separator = false ∧ q.tok = some t ∧
        t.kind ≠ .WHITESPACE ∧ t.kind ≠ .OPEN_PAREN) ∧
      (∃ m post, rest = m :: post ∧ m.is_line_separator = false)) ∧
    placed_walk (some n) rest

/-- Every separator of the list has no extra indent and stands directly behind a token
that is neither whitespace nor an open paren, and directly before a token: no two
separators are adjacent, and no separator is the first or the last node. -/
def placed (s : NodeList) : Prop := placed_walk none s

/-- The list `s1` is the part `s` of a list that comes behind the node `prev`, with new
values in the fields `line`, `lineIndent` and `offset` and with separators without extra
indent spliced in, each of them directly behind a token that is neither whitespace nor an
open paren and directly before a token. -/
inductive Places : Option PrettyPrinterNode → NodeList → NodeList → Prop where
  | nil {prev : Option PrettyPrinterNode} : Places prev [] []
  | keep {prev : Option PrettyPrinterNode} {n n1 : PrettyPrinterNode} {s s1 : NodeList} :
      same_core n n1 → Places (some n1) s s1 → Places prev (n :: s) (n1 :: s1)
  | ins {q b m : PrettyPrinterNode} {s s1 : NodeList} :
      q.is_line_separator = false →
      (∃ t, q.tok = some t ∧ t.kind ≠ .WHITESPACE ∧ t.kind ≠ .OPEN_PAREN) →
      m.is_line_separator = false → b.is_line_separator = true →
      b.specialIndentDelta = 0 →
      Places (some b) (m :: s) s1 → Places (some q) (m :: s) (b :: s1)

/-- The lists that a call `to_string obj` passes through, taken step by step: the list it
builds, and the lists that come from such a list by one call of `insertNewlineAfter` with
no extra indent at a token that is neither whitespace nor an open paren, by one call of
`breakList`, or by one `propagatePretty` pass started at the first node. -/
inductive reachable (obj : Object) : NodeList → Prop where
  | start : reachable obj (build_linked 0 0 (tokens_of obj) (links_of obj 0 none))
  | newline {s s1 : NodeList} {c : Nat} {n : PrettyPrinterNode} {t : FormToken} :
      reachable obj s → node_at s c = some n → n.tok = some t →
      t.kind ≠ .WHITESPACE → t.kind ≠ .OPEN_PAREN →
      insertNewlineAfter_ptr s (some c) 0 = .ok s1 → reachable obj s1
  | broken {s s1 : NodeList} {p : Option Nat} :
      reachable obj s → breakList s p = .ok s1 → reachable obj s1
  | broken_from {s s1 : NodeList} {p q : Option Nat} :
      reachable obj s → breakList_from s p q = .ok s1 → reachable obj s1
  | propagated {s s1 : NodeList} {rv : Option Nat} {w : Int} :
      reachable obj s → propagatePretty s (some 0) w = .ok (s1, rv) → reachable obj s1

/-- The text is empty or made of spaces only. -/
def blank (str : String) : Prop := ∀ c ∈ str.data, c = ' '

/-- The lists on which the outer loop of `insertBreaksAsNeeded` runs its line search
(`getFirstBadLine`, `getNextLine`), one for each turn of the loop, in the order of the
turns: the list that the `propagatePretty` pass at the head of the turn returns. -/
def search_lists (head : Option Nat) (line_length : Int) (inner : Nat) :
    Nat → NodeList → Option Nat → Option Nat → List NodeList
  | 0, _, _, _ => []
  | fuel + 1, s, last_line_complete, line_to_start_line_search =>
    match propagatePretty s head line_length with
    | .error _ => []
    | .ok (s1, _) =>
      s1 ::
        (match find_candidate_line s1 last_line_complete line_to_start_line_search
            line_length with
        | .ok (some c) =>
          (match (assert (null_or_separator s1 (prev_of s1 c)) >>= fun _ =>
              getFirstListOnLine s1 (some c) >>= fun form_to_start =>
                fix_line head line_length (some c) inner s1 form_to_start) with
          | .ok s2 => search_lists head line_length inner fuel s2 (some c) (some c)
          | .error _ => [])
        | _ => [])

/-- The list is what one `propagatePretty` pass with the line length `w` returns for a
list of the call `to_string obj`. -/
def propagated_list (obj : Object) (w : Int) (s : NodeList) : Prop :=
  ∃ s0 rv, reachable obj s0 ∧ propagatePretty s0 (some 0) w = .ok (s, rv)

/-- The column of the token with the index `i` in the flat one-line rendering of the
tokens: the width of the text of the tokens before it. -/
def flat_column (toks : List FormToken) (i : Nat) : Int := text_width (toks.take i)

/-- Told along a part of the list that holds the tokens from the index `a` on: every
separator has no extra indent, stands before a token with an index of at least 2, and
this token is no open paren. -/
def inline_walk : Nat → NodeList → Prop
  | _, [] => True
  | a, n :: rest =>
    (n.is_line_separator = true →
      n.specialIndentDelta = 0 ∧ 2 ≤ a ∧
      (∃ x post u, rest = x :: post ∧ x.is_line_separator = false ∧ x.tok = some u ∧
        u.kind ≠ .OPEN_PAREN) ∧ inline_walk a rest) ∧
    (n.is_line_separator = false → inline_walk (a + 1) rest)

/-- Every close paren of the list whose open paren is on a different line, that is, with a
separator somewhere between the open paren and the close paren, stands directly behind a
separator, and it is the last node or stands directly before a separator. -/
def close_parens_alone (s : NodeList) : Prop :=
  ∀ A o B c C, s = A ++ o :: (B ++ c :: C) →
    o.is_line_separator = false → c.is_line_separator = false →
    (∃ t, c.tok = some t ∧ t.kind = .CLOSE_PAREN) → c.paren = some o.id →
    (∃ m ∈ B, m.is_line_separator = true) →
    (∃ B1 q, B = B1 ++ [q] ∧ q.is_line_separator = true) ∧
    (C = [] ∨ ∃ m C1, C = m :: C1 ∧ m.is_line_separator = true)

/-- The list of nodes with which the loop of `insertSpecialBreaks` arrives at the token
with the address `x`: the list that `to_string` builds, after the body of the loop has run
at the tokens before `x`, in their order. -/
def pass_at (obj : Object) (x : Nat) : Except Err NodeList :=
  insertSpecialBreaks_loop (loop_fuel (tokens_of obj))
    (build_linked 0 0 (tokens_of obj) (links_of obj 0 none)) (List.range' 0 x)

/-- The token with the address `t` is not inside a list that opens behind the token with
the address `a` and before `t`. -/
def outside_later (toks : List FormToken) (a t : Nat) : Prop :=
  ∀ q c, a < q → balances toks q c → ¬ (q < t ∧ t < c)

/-- The list `r` is the list `r1` without some of its separators; a separator of `r` may
stand in the place of another separator of `r1`. -/
inductive Thinner : NodeList → NodeList → Prop where
  | nil : Thinner [] []
  | keep (n : PrettyPrinterNode) {r r1 : NodeList} : Thinner r r1 → Thinner (n :: r) (n :: r1)
  | both {b b1 : PrettyPrinterNode} {r r1 : NodeList} : b.is_line_separator = true →
      b1.is_line_separator = true → Thinner r r1 → Thinner (b :: r) (b1 :: r1)
  | drop {b1 : PrettyPrinterNode} {r r1 : NodeList} : b1.is_line_separator = true →
      Thinner r r1 → Thinner r (b1 :: r1)

/-- What the body of the loop of `insertSpecialBreaks` does at the token with the address
`x`, call by call: `insertNewlineAfter` at a token `t` behind `x` that is not inside a list
that opens between `x` and `t`; the two-argument `breakList` at the open paren `L` of the
list of `x` (the rules for `begin` and `cond`), or at an open paren `L` behind `x` that is
not inside a list that opens between `x` and `L`; the three-argument `breakList` at an open
paren `L` before `x`, from a token `z` on that is not before `x - 1`. -/
inductive rule_steps (toks : List FormToken) (links : List (Option Nat)) (x : Nat) :
    NodeList → NodeList → Prop where
  | done (s : NodeList) : rule_steps toks links x s s
  | newline {s s1 s2 : NodeList} {t : Nat} : rule_steps toks links x s s1 → x < t →
      outside_later toks x t → insertNewlineAfter_ptr s1 (some t) 0 = .ok s2 →
      rule_steps toks links x s s2
  | around {s s1 s2 : NodeList} {L : Nat} : rule_steps toks links x s s1 →
      links[x]? = some (some L) → L < x →
      (toks[x]? = some ⟨.STRING, "begin"⟩ ∨ toks[x]? = some ⟨.STRING, "cond"⟩) →
      breakList s1 (some L) = .ok s2 → rule_steps toks links x s s2
  | ahead {s s1 s2 : NodeList} {L : Nat} : rule_steps toks links x s s1 → x < L →
      outside_later toks x L → breakList s1 (some L) = .ok s2 →
      rule_steps toks links x s s2
  | rest_from {s s1 s2 : NodeList} {L z : Nat} : rule_steps toks links x s s1 → L < x →
      x ≤ z + 1 → breakList_from s1 (some L) (some z) = .ok s2 →
      rule_steps toks links x s s2

mutual
/-- The forms inside an object, each with the address of its first token when the first
token of the object has the address `b`: the object itself and, for a list, the forms
inside its elements. -/
def parts_of : Object → Nat → List (Nat × Object)
  | .PAIR car cdr, b =>
    (b, .PAIR car cdr) ::
      (parts_of car (b + 1) ++ rest_parts_of cdr (b + 1 + (tokens_of car).length))
  | o, b => [(b, o)]
/-- The forms inside the elements of a list after the first, given its cdr; `b` is the
address of the whitespace token before the next element. -/
def rest_parts_of : Object → Nat → List (Nat × Object)
  | .PAIR car cdr, b =>
    parts_of car (b + 1) ++ rest_parts_of cdr (b + 1 + (tokens_of car).length)
  | _, _ => []
end

/-! # Theorems -/

theorem same_core_refl (n : PrettyPrinterNode) : same_core n n := ⟨rfl, rfl, rfl, rfl, rfl⟩

theorem same_core_trans {a b c : PrettyPrinterNode} (h1 : same_core a b) (h2 : same_core b c) :
    same_core a c := by
  obtain ⟨a1, a2, a3, a4, a5⟩ := h1
  obtain ⟨b1, b2, b3, b4, b5⟩ := h2
  exact ⟨b1.trans a1, b2.trans a2, b3.trans a3, b4.trans a4, b5.trans a5⟩

theorem Refines.same (k : Nat) (s : NodeList) : Refines k s s := by
  induction s with
  | nil => exact .nil
  | cons n s ih => exact .keep (same_core_refl n) ih

theorem Refines.of_nil {k : Nat} {a : NodeList} (h : Refines k a []) : a = [] := by
  cases h; rfl

theorem Refines.comp {k : Nat} {a b c : NodeList} (h1 : Refines k a b) (h2 : Refines k b c) :
    Refines k a c := by
  induction h2 generalizing a with
  | nil => exact h1
  | keep hc _ ih =>
    cases h1 with
    | keep hc1 h1 => exact .keep (same_core_trans hc1 hc) (ih h1)
    | ins hb hk h1 =>
      refine .ins ⟨?_, ?_⟩ ?_ (ih h1)
      · rw [hc.2.2.1]; exact hb.1
      · rw [hc.2.1]; exact hb.2
      · rw [hc.1]; exact hk
  | ins hb hk _ ih => exact .ins hb hk (ih h1)

theorem Refines.append {k : Nat} {a b c d : NodeList} (h1 : Refines k a b)
    (h2 : Refines k c d) : Refines k (a ++ c) (b ++ d) := by
  induction h1 with
  | nil => simpa using h2
  | keep hc _ ih => exact .keep hc ih
  | ins hb hk _ ih => exact .ins hb hk ih

theorem Refines.mono {k k1 : Nat} {a b : NodeList} (hk : k1 ≤ k) (h : Refines k a b) :
    Refines k1 a b := by
  induction h with
  | nil => exact .nil
  | keep hc _ ih => exact .keep hc ih
  | ins hb hb1 _ ih => exact .ins hb (Nat.le_trans hk hb1) ih

theorem Refines.length_le {k : Nat} {a b : NodeList} (h : Refines k a b) :
    a.length ≤ b.length := by
  induction h with
  | nil => exact Nat.le_refl _
  | keep _ _ ih => simp only [List.length_cons]; omega
  | ins _ _ _ ih => simp only [List.length_cons]; omega

theorem Refines.real_tokens {k : Nat} {s s1 : NodeList} (h : Refines k s s1) :
    real_tokens s1 = real_tokens s := by
  induction h with
  | nil => rfl
  | @keep n n1 s s1 hc _ ih =>
    obtain ⟨_, h2, h3, _, _⟩ := hc
    unfold pretty_print.real_tokens at ih ⊢
    simp only [List.filter_cons, h3]
    split
    · simp only [List.filterMap_cons, h2, ih]
    · exact ih
  | @ins b s s1 hb _ _ ih =>
    unfold pretty_print.real_tokens at ih ⊢
    simp [List.filter_cons, hb.1, ih]

theorem new_separator_is_separator (fresh : Nat) (d : Int) :
    is_separator_node (new_separator fresh d) := ⟨rfl, rfl⟩

theorem splice_after_refines {k : Nat} (fresh : Nat) (d : Int) (s : NodeList) (p : Nat)
    (hk : k ≤ fresh) : Refines k s (splice_after fresh d s p) := by
  induction s with
  | nil => exact .nil
  | cons a rest ih =>
    unfold splice_after
    split
    · cases rest with
      | nil => exact Refines.same _ _
      | cons b rest1 =>
        simp only
        split
        · exact Refines.same _ _
        · exact .keep (same_core_refl a) (.ins (new_separator_is_separator _ _) hk (Refines.same _ _))
    · exact .keep (same_core_refl a) ih

theorem splice_before_refines {k : Nat} (fresh : Nat) (d : Int) (s : NodeList) (p : Nat)
    (hk : k ≤ fresh) : Refines k s (splice_before fresh d s p) := by
  induction s with
  | nil => exact .nil
  | cons a rest ih =>
    unfold splice_before
    split
    · exact Refines.same _ _
    · cases rest with
      | nil => exact Refines.same _ _
      | cons b rest1 =>
        simp only
        split
        · split
          · exact Refines.same _ _
          · exact .keep (same_core_refl a) (.ins (new_separator_is_separator _ _) hk (Refines.same _ _))
        · exact .keep (same_core_refl a) ih

theorem nodes_before_append_from (s : NodeList) (p : Nat) :
    nodes_before s p ++ nodes_from s p = s := by
  induction s with
  | nil => rfl
  | cons a rest ih =>
    unfold nodes_before nodes_from
    split
    · rfl
    · simp [ih]

theorem nodes_from_of_node_at {s : NodeList} {p : Nat} {n : PrettyPrinterNode}
    (h : node_at s p = some n) : nodes_from s p = n :: nodes_after s p := by
  induction s with
  | nil => simp [node_at] at h
  | cons a rest ih =>
    unfold node_at at h
    rw [List.find?_cons] at h
    by_cases ha : a.id = p
    · simp [ha] at h
      subst h
      simp [nodes_after, nodes_from, ha]
    · have hb : (a.id == p) = false := by simpa using ha
      rw [hb] at h
      have := ih h
      simp [nodes_after, nodes_from, ha] at this ⊢
      exact this

theorem deref_ok {s : NodeList} {p : Option Nat} {n : PrettyPrinterNode}
    (h : deref s p = .ok n) : ∃ i, p = some i ∧ node_at s i = some n := by
  unfold deref at h
  cases p with
  | none => simp at h
  | some i =>
    refine ⟨i, rfl, ?_⟩
    simp only at h
    split at h
    · simp at h
    · next m hm => simp at h; rw [hm, h]

theorem node_at_id {s : NodeList} {p : Nat} {n : PrettyPrinterNode}
    (h : node_at s p = some n) : n.id = p := by
  have := List.find?_some h
  simpa using this

theorem split_at_node {s : NodeList} {p : Nat} {n : PrettyPrinterNode}
    (h : node_at s p = some n) : nodes_before s p ++ n :: nodes_after s p = s := by
  rw [← nodes_from_of_node_at h]; exact nodes_before_append_from s p

theorem bind_eq_ok {α β : Type} {x : Except Err α} {f : α → Except Err β} {r : β}
    (h : (x >>= f) = .ok r) : ∃ a, x = .ok a ∧ f a = .ok r := by
  cases x with
  | error e => simp [bind, Except.bind] at h
  | ok a => exact ⟨a, rfl, by simpa [bind, Except.bind] using h⟩

theorem assert_eq_ok {c : Bool} {u : Unit} (h : assert c = .ok u) : c = true := by
  unfold assert at h
  split at h
  · assumption
  · simp at h

theorem Evolves.stay (s : NodeList) : Evolves s s := ⟨Refines.same _ s, rfl⟩

theorem Evolves.andThen {a b c : NodeList} (h1 : Evolves a b) (h2 : Evolves b c) : Evolves a c :=
  ⟨h1.1.comp (Refines.mono h1.1.length_le h2.1), h2.2.trans h1.2⟩

theorem head_key_append_cons (pre a b : NodeList) (x : PrettyPrinterNode) :
    head_key (pre ++ x :: a) = head_key (pre ++ x :: b) := by
  cases pre <;> simp [head_key]

theorem splice_after_head (fresh : Nat) (d : Int) (s : NodeList) (p : Nat) :
    head_key (splice_after fresh d s p) = head_key s := by
  cases s with
  | nil => rfl
  | cons a rest =>
    unfold splice_after
    split
    · cases rest with
      | nil => rfl
      | cons b rest1 => simp only; split <;> simp [head_key]
    · simp [head_key]

theorem splice_before_head (fresh : Nat) (d : Int) (s : NodeList) (p : Nat) :
    head_key (splice_before fresh d s p) = head_key s := by
  cases s with
  | nil => rfl
  | cons a rest =>
    unfold splice_before
    split
    · rfl
    · cases rest with
      | nil => rfl
      | cons b rest1 =>
        simp only
        split
        · split <;> simp [head_key]
        · simp [head_key]

theorem insertNewlineAfter_evolves (s : NodeList) (p : Nat) (d : Int) :
    Evolves s (insertNewlineAfter s p d) :=
  ⟨splice_after_refines _ _ _ _ (Nat.le_refl _), splice_after_head _ _ _ _⟩

theorem insertNewlineBefore_evolves (s : NodeList) (p : Nat) (d : Int) :
    Evolves s (insertNewlineBefore s p d) :=
  ⟨splice_before_refines _ _ _ _ (Nat.le_refl _), splice_before_head _ _ _ _⟩

theorem insertNewlineAfter_ptr_evolves {s s1 : NodeList} {p : Option Nat} {d : Int}
    (h : insertNewlineAfter_ptr s p d = .ok s1) : Evolves s s1 := by
  unfold insertNewlineAfter_ptr at h
  split at h
  · simp at h
  · simp at h; subst h; exact insertNewlineAfter_evolves _ _ _

theorem breakList_walk_refines {k : Nat} (s0 : NodeList) (rp first_elt : Option Nat) :
    ∀ (rest : NodeList) (fresh : Nat) (breaking : Bool) (jump : Option Nat) (r : NodeList),
      k ≤ fresh →
      breakList_walk s0 rp first_elt fresh breaking jump rest = .ok r → Refines k rest r := by
  intro rest
  induction rest with
  | nil =>
    intro fresh breaking jump r _ h
    cases jump <;> simp [breakList_walk] at h
    subst h; exact .nil
  | cons n rest ih =>
    intro fresh breaking jump r hk h
    cases jump <;> simp only [breakList_walk] at h <;> repeat' split at h
    all_goals first
      | (simp at h; done)
      | (simp at h; subst h
         first
          | exact Refines.same _ _
          | exact .keep (same_core_refl _) (ih _ _ _ _ hk (by assumption))
          | exact .keep (same_core_refl _)
              (.ins (new_separator_is_separator _ _) hk
                (ih _ _ _ _ (Nat.le_succ_of_le hk) (by assumption))))

theorem breakList_entry_ok {s : NodeList} {leftParen : Option Nat} {lp : PrettyPrinterNode}
    (h : breakList_entry s leftParen = .ok lp) :
    ∃ i, leftParen = some i ∧ node_at s i = some lp := by
  unfold breakList_entry at h
  obtain ⟨a, h1, h2⟩ := bind_eq_ok h
  obtain ⟨_, _, h3⟩ := bind_eq_ok h2
  obtain ⟨_, _, h4⟩ := bind_eq_ok h3
  obtain ⟨_, _, h5⟩ := bind_eq_ok h4
  obtain ⟨_, _, h6⟩ := bind_eq_ok h5
  obtain ⟨_, _, h7⟩ := bind_eq_ok h6
  obtain ⟨_, _, h8⟩ := bind_eq_ok h7
  simp [pure, Except.pure] at h8
  subst h8
  exact deref_ok h1

theorem evolves_of_walk {s r : NodeList} {p : Nat} {lp : PrettyPrinterNode}
    (h1 : node_at s p = some lp) (h2 : Refines s.length (nodes_after s lp.id) r) :
    Evolves s (nodes_before s lp.id ++ lp :: r) := by
  have hid := node_at_id h1
  rw [hid] at h2 ⊢
  have hs := split_at_node h1
  constructor
  · conv => lhs; rw [← hs]
    exact Refines.append (Refines.same _ _) (.keep (same_core_refl _) (hs ▸ h2))
  · conv => rhs; rw [← hs]
    exact head_key_append_cons _ _ _ _

theorem breakList_evolves {s s1 : NodeList} {leftParen : Option Nat}
    (h : breakList s leftParen = .ok s1) : Evolves s s1 := by
  unfold breakList at h
  obtain ⟨lp, h1, h2⟩ := bind_eq_ok h
  obtain ⟨r, h3, h4⟩ := bind_eq_ok h2
  simp [pure, Except.pure] at h4
  subst h4
  obtain ⟨i, _, hi⟩ := breakList_entry_ok h1
  exact evolves_of_walk hi (breakList_walk_refines _ _ _ _ _ _ _ _ (Nat.le_refl _) h3)

theorem breakList_from_evolves {s s1 : NodeList} {leftParen first_elt : Option Nat}
    (h : breakList_from s leftParen first_elt = .ok s1) : Evolves s s1 := by
  unfold breakList_from at h
  obtain ⟨lp, h1, h2⟩ := bind_eq_ok h
  obtain ⟨r, h3, h4⟩ := bind_eq_ok h2
  simp [pure, Except.pure] at h4
  subst h4
  obtain ⟨i, _, hi⟩ := breakList_entry_ok h1
  exact evolves_of_walk hi (breakList_walk_refines _ _ _ _ _ _ _ _ (Nat.le_refl _) h3)

theorem same_core_set_line (n : PrettyPrinterNode) (v : Int) :
    same_core n { n with line := v } := ⟨rfl, rfl, rfl, rfl, rfl⟩

theorem same_core_set_offset (n : PrettyPrinterNode) (v : Int) :
    same_core n { n with offset := v } := ⟨rfl, rfl, rfl, rfl, rfl⟩

theorem same_core_set_lineIndent (n : PrettyPrinterNode) (v : Int) :
    same_core n { n with lineIndent := v } := ⟨rfl, rfl, rfl, rfl, rfl⟩

/-- The first loop of `propagatePretty` keeps the nodes it has passed and refines the
rest; with nothing passed yet, the first node stays first. -/
theorem propagate_lines_spec {k : Nat} :
    ∀ (rest : NodeList) (fresh : Nat) (pre : NodeList) (line : Int) (r : NodeList),
      k ≤ fresh → propagate_lines fresh pre line rest = .ok r →
        ∃ r1, r = pre ++ r1 ∧ Refines k rest r1 ∧ (pre = [] → head_key r1 = head_key rest) := by
  intro rest
  induction rest with
  | nil =>
    intro fresh pre line r hk h
    simp [propagate_lines] at h
    subst h
    exact ⟨[], by simp, .nil, fun _ => rfl⟩
  | cons n rest ih =>
    intro fresh pre line r hk h
    simp only [propagate_lines] at h
    split at h
    · obtain ⟨r1, h1, h2, _⟩ := ih _ _ _ _ (by omega) h
      exact ⟨n :: r1, by simp [h1], .keep (same_core_refl _) h2, fun _ => by simp [head_key]⟩
    · split at h
      · simp at h
      · split at h
        · split at h
          · simp at h
          · split at h
            · cases hpre : pre.getLast? with
              | none =>
                have hp : pre = [] := by simpa using hpre
                subst hp
                simp only [List.getLast?_nil] at h
                cases rest with
                | nil =>
                  simp at h; subst h
                  exact ⟨_, rfl, .keep (same_core_set_line _ _) .nil, fun _ => by simp [head_key]⟩
                | cons m rest1 =>
                  simp only at h
                  split at h
                  · obtain ⟨r1, h1, h2, _⟩ := ih _ _ _ _ (by split <;> omega) h
                    refine ⟨_ :: r1, by simpa using h1, .keep (same_core_set_line _ _) h2,
                      fun _ => by simp [head_key]⟩
                  · obtain ⟨r1, h1, h2, _⟩ := ih _ _ _ _ (by split <;> omega) h
                    refine ⟨_ :: _ :: r1, by simpa using h1,
                      .keep (same_core_set_line _ _) (.ins (new_separator_is_separator _ _) hk h2),
                      fun _ => by simp [head_key]⟩
              | some q =>
                have hne : pre ≠ [] := by
                  intro hp; subst hp; simp at hpre
                simp only [hpre] at h
                cases rest with
                | nil =>
                  simp at h; subst h
                  by_cases hq : q.is_line_separator = true
                  · simp only [hq, Bool.not_true, Bool.false_eq_true, if_false]
                    exact ⟨_, rfl, .keep (same_core_set_line _ _) .nil, fun hp => absurd hp hne⟩
                  · simp only [hq, Bool.not_false, if_true]
                    refine ⟨[new_separator fresh 0, { n with line := line }], by simp,
                      .ins (new_separator_is_separator _ _) hk (.keep (same_core_set_line _ _) .nil),
                      fun hp => absurd hp hne⟩
                | cons m rest1 =>
                  simp only at h
                  split at h
                  · obtain ⟨r1, h1, h2, _⟩ := ih _ _ _ _ (by split <;> omega) h
                    by_cases hq : q.is_line_separator = true
                    · simp only [hq, Bool.not_true, Bool.false_eq_true, if_false] at h1
                      refine ⟨_ :: r1, by simpa using h1, .keep (same_core_set_line _ _) h2,
                        fun hp => absurd hp hne⟩
                    · simp only [hq, Bool.not_false, if_true] at h1
                      refine ⟨new_separator fresh 0 :: _ :: r1, by simpa using h1,
                        .ins (new_separator_is_separator _ _) hk (.keep (same_core_set_line _ _) h2),
                        fun hp => absurd hp hne⟩
                  · obtain ⟨r1, h1, h2, _⟩ := ih _ _ _ _ (by split <;> omega) h
                    by_cases hq : q.is_line_separator = true
                    · simp only [hq, Bool.not_true, Bool.false_eq_true, if_false] at h1
                      refine ⟨_ :: _ :: r1, by simpa using h1,
                        .keep (same_core_set_line _ _)
                          (.ins (new_separator_is_separator _ _) hk h2),
                        fun hp => absurd hp hne⟩
                    · simp only [hq, Bool.not_false, if_true] at h1
                      refine ⟨new_separator fresh 0 :: _ :: _ :: r1, by simpa using h1,
                        .ins (new_separator_is_separator _ _) hk (.keep (same_core_set_line _ _)
                          (.ins (new_separator_is_separator _ _) (Nat.le_succ_of_le hk) h2)),
                        fun hp => absurd hp hne⟩
            · obtain ⟨r1, h1, h2, _⟩ := ih _ _ _ _ (by omega) h
              exact ⟨_ :: r1, by simpa using h1, .keep (same_core_set_line _ _) h2,
                fun _ => by simp [head_key]⟩
        · obtain ⟨r1, h1, h2, _⟩ := ih _ _ _ _ (by omega) h
          exact ⟨_ :: r1, by simpa using h1, .keep (same_core_set_line _ _) h2,
            fun _ => by simp [head_key]⟩

/-- The second loop of `propagatePretty` changes `offset` and `lineIndent` only, and the
`lineIndent` of the first node only when the walk starts right after a separator. -/
theorem propagate_offsets_spec {k : Nat} (w : Int) :
    ∀ (rest : NodeList) (prev : Option PrettyPrinterNode) (st : OffsetState) (r : NodeList)
      (rv : Option Nat),
      propagate_offsets w prev st rest = .ok (r, rv) →
        Refines k rest r ∧ (st.previous_line_sep = false → head_key r = head_key rest) := by
  intro rest
  induction rest with
  | nil =>
    intro prev st r rv h
    simp only [propagate_offsets, Except.ok.injEq, Prod.mk.injEq] at h
    obtain ⟨h1, _⟩ := h
    subst h1
    exact ⟨.nil, fun _ => rfl⟩
  | cons n rest ih =>
    intro prev st r rv h
    simp only [propagate_offsets] at h
    repeat' split at h
    all_goals first
      | (simp at h; done)
      | (simp only [Except.ok.injEq, Prod.mk.injEq] at h
         obtain ⟨h1, h2⟩ := h
         subst h1
         refine ⟨.keep ⟨rfl, rfl, rfl, rfl, rfl⟩ (ih _ _ _ _ (by assumption)).1, fun hp => ?_⟩
         first
          | (simp [head_key, hp]; done)
          | simp_all)

theorem propagatePretty_evolves {s s1 : NodeList} {list rv : Option Nat} {w : Int}
    (h : propagatePretty s list w = .ok (s1, rv)) : Evolves s s1 := by
  unfold propagatePretty at h
  obtain ⟨l, h1, h2⟩ := bind_eq_ok h
  obtain ⟨s2, h3, h4⟩ := bind_eq_ok h2
  obtain ⟨⟨r, rv1⟩, h5, h6⟩ := bind_eq_ok h4
  simp only [pure, Except.pure, Except.ok.injEq, Prod.mk.injEq] at h6
  obtain ⟨h6, _⟩ := h6
  subst h6
  obtain ⟨r1, e1, f1, g1⟩ := propagate_lines_spec _ _ _ _ _ (Nat.le_refl _) h3
  obtain ⟨f2, g2⟩ := propagate_offsets_spec w _ _ _ _ _ h5
  have hs := nodes_before_append_from s l.id
  have hs2 := nodes_before_append_from s2 l.id
  have A : Evolves s s2 := by
    constructor
    · rw [e1]; conv => lhs; rw [← hs]
      exact Refines.append (Refines.same _ _) f1
    · rw [e1]; conv => rhs; rw [← hs]
      cases hb : nodes_before s l.id with
      | nil => simpa using g1 hb
      | cons a b => simp [head_key]
  have B : Evolves s2 (nodes_before s2 l.id ++ r) := by
    constructor
    · conv => lhs; rw [← hs2]
      exact Refines.append (Refines.same _ _) f2
    · conv => rhs; rw [← hs2]
      cases hb : nodes_before s2 l.id with
      | nil => simpa using g2 rfl
      | cons a b => simp [head_key]
  exact A.andThen B

theorem fix_line_evolves (head : Option Nat) (w : Int) (c : Option Nat) :
    ∀ (fuel : Nat) (s : NodeList) (f : Option Nat) (s1 : NodeList),
      fix_line head w c fuel s f = .ok s1 → Evolves s s1 := by
  intro fuel
  induction fuel with
  | zero => intro s f s1 h; simp [fix_line] at h
  | succ fuel ih =>
    intro s f s1 h
    cases f with
    | none => simp [fix_line] at h; subst h; exact Evolves.stay _
    | some i =>
      simp only [fix_line] at h
      obtain ⟨sa, h1, h2⟩ := bind_eq_ok h
      obtain ⟨⟨sb, rv⟩, h3, h4⟩ := bind_eq_ok h2
      obtain ⟨bad, h5, h6⟩ := bind_eq_ok h4
      have E := (breakList_evolves h1).andThen (propagatePretty_evolves h3)
      simp only at h6
      split at h6
      · simp [pure, Except.pure] at h6; subst h6; exact E
      · obtain ⟨nx, h7, h8⟩ := bind_eq_ok h6
        split at h8
        · simp [pure, Except.pure] at h8; subst h8; exact E
        · exact E.andThen (ih _ _ _ h8)

theorem insertBreaks_loop_evolves (head : Option Nat) (w : Int) (inner : Nat) :
    ∀ (fuel : Nat) (s : NodeList) (last start : Option Nat) (s1 : NodeList),
      insertBreaks_loop head w inner fuel s last start = .ok s1 → Evolves s s1 := by
  intro fuel
  induction fuel with
  | zero => intro s last start s1 h; simp [insertBreaks_loop] at h
  | succ fuel ih =>
    intro s last start s1 h
    simp only [insertBreaks_loop] at h
    obtain ⟨⟨sa, rv⟩, h1, h2⟩ := bind_eq_ok h
    obtain ⟨cand, h5, h6⟩ := bind_eq_ok h2
    have E := propagatePretty_evolves h1
    simp only at h6
    split at h6
    · simp [pure, Except.pure] at h6; subst h6; exact E
    · obtain ⟨_, h7, h8⟩ := bind_eq_ok h6
      obtain ⟨f, h9, h10⟩ := bind_eq_ok h8
      obtain ⟨sb, h11, h12⟩ := bind_eq_ok h10
      exact E.andThen ((fix_line_evolves _ _ _ _ _ _ _ h11).andThen (ih _ _ _ _ h12))

theorem insertBreaksAsNeeded_evolves {fuel inner : Nat} {s s1 : NodeList} {head : Option Nat}
    {w : Int} (h : insertBreaksAsNeeded fuel inner s head w = .ok s1) : Evolves s s1 :=
  insertBreaks_loop_evolves _ _ _ _ _ _ _ _ h

theorem break_cond_cases_evolves :
    ∀ (fuel : Nat) (s : NodeList) (c : Option Nat) (s1 : NodeList),
      break_cond_cases fuel s c = .ok s1 → Evolves s s1 := by
  intro fuel
  induction fuel with
  | zero => intro s c s1 h; simp [break_cond_cases] at h
  | succ fuel ih =>
    intro s c s1 h
    simp only [break_cond_cases] at h
    obtain ⟨sc, _, h⟩ := bind_eq_ok h
    obtain ⟨st, _, h⟩ := bind_eq_ok h
    obtain ⟨_, _, h⟩ := bind_eq_ok h
    obtain ⟨ec, _, h⟩ := bind_eq_ok h
    obtain ⟨et, _, h⟩ := bind_eq_ok h
    obtain ⟨_, _, h⟩ := bind_eq_ok h
    obtain ⟨sa, h1, h⟩ := bind_eq_ok h
    have E := breakList_evolves h1
    split at h
    · simp [pure, Except.pure] at h; subst h; exact E
    · obtain ⟨nx, _, h⟩ := bind_eq_ok h
      obtain ⟨nt, _, h⟩ := bind_eq_ok h
      split at h
      · simp [pure, Except.pure] at h; subst h; exact E
      · split at h
        · simp [pure, Except.pure] at h; subst h; exact E
        · exact E.andThen (ih _ _ _ h)

theorem special_deftype_evolves {s s1 : NodeList} {node : PrettyPrinterNode}
    (h : special_deftype s node = .ok s1) : Evolves s s1 := by
  unfold special_deftype at h
  obtain ⟨p, _, h⟩ := bind_eq_ok h
  split at h
  · simp [pure, Except.pure] at h; subst h; exact Evolves.stay _
  · obtain ⟨_, _, h⟩ := bind_eq_ok h
    exact insertNewlineAfter_ptr_evolves h

theorem special_define_break_evolves {s s1 : NodeList} {node : PrettyPrinterNode}
    {first_list : Option Nat} (h : special_define_break s node first_list = .ok s1) :
    Evolves s s1 := by
  unfold special_define_break at h
  split at h
  · simp [pure, Except.pure] at h; subst h; exact Evolves.stay _
  · obtain ⟨_, _, h⟩ := bind_eq_ok h
    obtain ⟨_, _, h⟩ := bind_eq_ok h
    split at h
    · obtain ⟨_, h1, h⟩ := bind_eq_ok h
      exact (insertNewlineAfter_ptr_evolves h1).andThen (breakList_from_evolves h)
    · obtain ⟨_, h1, h⟩ := bind_eq_ok h
      exact (insertNewlineAfter_ptr_evolves h1).andThen (breakList_from_evolves h)

theorem special_let_evolves {s s1 : NodeList} {node : PrettyPrinterNode}
    {first_list : Option Nat} (h : special_let s node first_list = .ok s1) :
    Evolves s s1 := by
  unfold special_let at h
  split at h
  · simp [pure, Except.pure] at h; subst h; exact Evolves.stay _
  · obtain ⟨_, _, h⟩ := bind_eq_ok h
    obtain ⟨_, _, h⟩ := bind_eq_ok h
    obtain ⟨sa, h1, h⟩ := bind_eq_ok h
    have E : Evolves s sa := by
      split at h1
      · obtain ⟨sv, _, h1⟩ := bind_eq_ok h1
        split at h1
        · exact breakList_evolves h1
        · simp [pure, Except.pure] at h1; subst h1; exact Evolves.stay _
      · simp [pure, Except.pure] at h1; subst h1; exact Evolves.stay _
    simp only at h
    split at h
    · simp [pure, Except.pure] at h; subst h; exact E
    · obtain ⟨_, _, h⟩ := bind_eq_ok h
      obtain ⟨_, _, h⟩ := bind_eq_ok h
      split at h
      · split at h
        · simp [pure, Except.pure] at h; subst h; exact E
        · obtain ⟨_, _, h⟩ := bind_eq_ok h
          exact E.andThen (breakList_from_evolves h)
      · simp [pure, Except.pure] at h; subst h; exact E

theorem special_control_flow_evolves {s s1 : NodeList} {node : PrettyPrinterNode}
    (h : special_control_flow s node = .ok s1) : Evolves s s1 := by
  unfold special_control_flow at h
  obtain ⟨p, _, h⟩ := bind_eq_ok h
  split at h
  · simp [pure, Except.pure] at h; subst h; exact Evolves.stay _
  · obtain ⟨_, _, h⟩ := bind_eq_ok h
    obtain ⟨_, _, h⟩ := bind_eq_ok h
    obtain ⟨sa, h1, h⟩ := bind_eq_ok h
    have E : Evolves s sa := by
      split at h1
      · obtain ⟨_, h2, h1⟩ := bind_eq_ok h1
        exact (insertNewlineAfter_ptr_evolves h2).andThen (breakList_from_evolves h1)
      · obtain ⟨_, h2, h1⟩ := bind_eq_ok h1
        exact (insertNewlineAfter_ptr_evolves h2).andThen (breakList_from_evolves h1)
    simp only at h
    split at h
    · simp [pure, Except.pure] at h; subst h; exact E
    · obtain ⟨_, _, h⟩ := bind_eq_ok h
      obtain ⟨_, _, h⟩ := bind_eq_ok h
      split at h
      · split at h
        · obtain ⟨_, _, h⟩ := bind_eq_ok h
          obtain ⟨_, _, h⟩ := bind_eq_ok h
          split at h
          · simp [pure, Except.pure] at h; subst h; exact E
          · split at h
            · exact E.andThen (breakList_from_evolves h)
            · simp [pure, Except.pure] at h; subst h; exact E
        · simp [pure, Except.pure] at h; subst h; exact E
      · simp [pure, Except.pure] at h; subst h; exact E

theorem special_cond_evolves {fuel : Nat} {s s1 : NodeList} {node : PrettyPrinterNode}
    (h : special_cond fuel s node = .ok s1) : Evolves s s1 := by
  unfold special_cond at h
  obtain ⟨p, _, h⟩ := bind_eq_ok h
  obtain ⟨sa, h1, h⟩ := bind_eq_ok h
  exact (break_cond_cases_evolves _ _ _ _ h1).andThen (breakList_evolves h)

theorem special_define_evolves {s s1 : NodeList} {node : PrettyPrinterNode} {name : String}
    (h : special_define s node name = .ok s1) : Evolves s s1 := by
  unfold special_define at h
  obtain ⟨fl, _, h⟩ := bind_eq_ok h
  obtain ⟨se, h5, h⟩ := bind_eq_ok h
  have := special_define_break_evolves h5
  split at h
  · exact this.andThen (special_let_evolves h)
  · simp [pure, Except.pure] at h; subst h; exact this

theorem special_breaks_at_evolves {fuel : Nat} {s s1 : NodeList} {p : Nat}
    (h : special_breaks_at fuel s p = .ok s1) : Evolves s s1 := by
  unfold special_breaks_at at h
  obtain ⟨node, _, h⟩ := bind_eq_ok h
  split at h
  · simp [pure, Except.pure] at h; subst h; exact Evolves.stay _
  · obtain ⟨t, _, h⟩ := bind_eq_ok h
    split at h
    · simp [pure, Except.pure] at h; subst h; exact Evolves.stay _
    · obtain ⟨sa, h1, h⟩ := bind_eq_ok h
      obtain ⟨sb, h2, h⟩ := bind_eq_ok h
      obtain ⟨sc, h3, h⟩ := bind_eq_ok h
      obtain ⟨sd, h4, h⟩ := bind_eq_ok h
      have E1 : Evolves s sa := by
        split at h1
        · exact special_deftype_evolves h1
        · simp [pure, Except.pure] at h1; subst h1; exact Evolves.stay _
      have E2 : Evolves sa sb := by
        split at h2
        · exact breakList_evolves h2
        · simp [pure, Except.pure] at h2; subst h2; exact Evolves.stay _
      have E3 : Evolves sb sc := by
        split at h3
        · exact special_define_evolves h3
        · simp [pure, Except.pure] at h3; subst h3; exact Evolves.stay _
      have E4 : Evolves sc sd := by
        split at h4
        · exact special_control_flow_evolves h4
        · simp [pure, Except.pure] at h4; subst h4; exact Evolves.stay _
      have E5 : Evolves sd s1 := by
        split at h
        · exact special_cond_evolves h
        · simp [pure, Except.pure] at h; subst h; exact Evolves.stay _
      exact E1.andThen (E2.andThen (E3.andThen (E4.andThen E5)))

theorem insertSpecialBreaks_loop_evolves (fuel : Nat) :
    ∀ (todo : List Nat) (s s1 : NodeList),
      insertSpecialBreaks_loop fuel s todo = .ok s1 → Evolves s s1 := by
  intro todo
  induction todo with
  | nil => intro s s1 h; simp [insertSpecialBreaks_loop] at h; subst h; exact Evolves.stay _
  | cons p todo ih =>
    intro s s1 h
    simp only [insertSpecialBreaks_loop] at h
    split at h
    · simp at h
    · next sa ha => exact (special_breaks_at_evolves ha).andThen (ih _ _ h)

theorem insertSpecialBreaks_evolves {fuel : Nat} {s s1 : NodeList} {node : Option Nat}
    (h : insertSpecialBreaks fuel s node = .ok s1) : Evolves s s1 := by
  unfold insertSpecialBreaks at h
  split at h
  · simp at h; subst h; exact Evolves.stay _
  · exact insertSpecialBreaks_loop_evolves _ _ _ _ h

theorem add_atom_spec {obj : Object} {acc toks : List FormToken}
    (hp : ∀ a b, obj ≠ .PAIR a b) (h : add_atom_to_token_list obj acc = .ok toks) :
    toks = acc ++ tokens_of obj ∧ supported obj := by
  cases obj <;> simp [add_atom_to_token_list, tokens_of, supported] at h ⊢ <;>
    first | exact h.symm | exact absurd rfl (hp _ _)

mutual
theorem add_to_token_list_spec : ∀ (obj : Object) (acc toks : List FormToken),
    add_to_token_list obj acc = .ok toks → toks = acc ++ tokens_of obj ∧ supported obj
  | .PAIR car cdr, acc, toks, h => by
    simp only [add_to_token_list] at h
    split at h
    · simp at h
    · next t1 h1 =>
      obtain ⟨e1, s1⟩ := add_to_token_list_spec car _ _ h1
      obtain ⟨e2, s2⟩ := add_list_rest_spec cdr _ _ h
      subst e1
      exact ⟨by simp [e2, tokens_of], s1, s2⟩
  | .EMPTY_LIST, acc, toks, h => add_atom_spec (by simp) (by simpa [add_to_token_list] using h)
  | .INTEGER p, acc, toks, h => add_atom_spec (by simp) (by simpa [add_to_token_list] using h)
  | .FLOAT p, acc, toks, h => add_atom_spec (by simp) (by simpa [add_to_token_list] using h)
  | .CHAR p, acc, toks, h => add_atom_spec (by simp) (by simpa [add_to_token_list] using h)
  | .SYMBOL p, acc, toks, h => add_atom_spec (by simp) (by simpa [add_to_token_list] using h)
  | .STRING p, acc, toks, h => add_atom_spec (by simp) (by simpa [add_to_token_list] using h)
  | .ARRAY, acc, toks, h => by simp [add_to_token_list, add_atom_to_token_list] at h
  | .LAMBDA, acc, toks, h => by simp [add_to_token_list, add_atom_to_token_list] at h
  | .MACRO, acc, toks, h => by simp [add_to_token_list, add_atom_to_token_list] at h
  | .ENVIRONMENT, acc, toks, h => by simp [add_to_token_list, add_atom_to_token_list] at h
theorem add_list_rest_spec : ∀ (obj : Object) (acc toks : List FormToken),
    add_list_rest obj acc = .ok toks → toks = acc ++ rest_tokens_of obj ∧ supported obj
  | .PAIR car cdr, acc, toks, h => by
    simp only [add_list_rest] at h
    split at h
    · simp at h
    · next t1 h1 =>
      obtain ⟨e1, s1⟩ := add_to_token_list_spec car _ _ h1
      obtain ⟨e2, s2⟩ := add_list_rest_spec cdr _ _ h
      subst e1
      exact ⟨by simp [e2, rest_tokens_of], s1, s2⟩
  | .EMPTY_LIST, acc, toks, h => by
    simp [add_list_rest] at h
    exact ⟨by simp [← h, rest_tokens_of], trivial⟩
  | .INTEGER p, acc, toks, h => by
    simp [add_list_rest, add_improper_tail, add_atom_to_token_list] at h
    exact ⟨by simp [← h, rest_tokens_of], trivial⟩
  | .FLOAT p, acc, toks, h => by
    simp [add_list_rest, add_improper_tail, add_atom_to_token_list] at h
    exact ⟨by simp [← h, rest_tokens_of], trivial⟩
  | .CHAR p, acc, toks, h => by
    simp [add_list_rest, add_improper_tail, add_atom_to_token_list] at h
    exact ⟨by simp [← h, rest_tokens_of], trivial⟩
  | .SYMBOL p, acc, toks, h => by
    simp [add_list_rest, add_improper_tail, add_atom_to_token_list] at h
    exact ⟨by simp [← h, rest_tokens_of], trivial⟩
  | .STRING p, acc, toks, h => by
    simp [add_list_rest, add_improper_tail, add_atom_to_token_list] at h
    exact ⟨by simp [← h, rest_tokens_of], trivial⟩
  | .ARRAY, acc, toks, h => by
    simp [add_list_rest, add_improper_tail, add_atom_to_token_list] at h
  | .LAMBDA, acc, toks, h => by
    simp [add_list_rest, add_improper_tail, add_atom_to_token_list] at h
  | .MACRO, acc, toks, h => by
    simp [add_list_rest, add_improper_tail, add_atom_to_token_list] at h
  | .ENVIRONMENT, acc, toks, h => by
    simp [add_list_rest, add_improper_tail, add_atom_to_token_list] at h
end

mutual
theorem add_to_token_list_of_supported : ∀ (obj : Object) (acc : List FormToken),
    supported obj → add_to_token_list obj acc = .ok (acc ++ tokens_of obj)
  | .PAIR car cdr, acc, h => by
    simp only [add_to_token_list]
    rw [add_to_token_list_of_supported car _ h.1]
    simp only
    rw [add_list_rest_of_supported cdr _ h.2]
    simp [tokens_of]
  | .EMPTY_LIST, acc, _ => by simp [add_to_token_list, add_atom_to_token_list, tokens_of]
  | .INTEGER p, acc, _ => by simp [add_to_token_list, add_atom_to_token_list, tokens_of]
  | .FLOAT p, acc, _ => by simp [add_to_token_list, add_atom_to_token_list, tokens_of]
  | .CHAR p, acc, _ => by simp [add_to_token_list, add_atom_to_token_list, tokens_of]
  | .SYMBOL p, acc, _ => by simp [add_to_token_list, add_atom_to_token_list, tokens_of]
  | .STRING p, acc, _ => by simp [add_to_token_list, add_atom_to_token_list, tokens_of]
  | .ARRAY, acc, h => by simp [supported] at h
  | .LAMBDA, acc, h => by simp [supported] at h
  | .MACRO, acc, h => by simp [supported] at h
  | .ENVIRONMENT, acc, h => by simp [supported] at h
theorem add_list_rest_of_supported : ∀ (obj : Object) (acc : List FormToken),
    supported obj → add_list_rest obj acc = .ok (acc ++ rest_tokens_of obj)
  | .PAIR car cdr, acc, h => by
    simp only [add_list_rest]
    rw [add_to_token_list_of_supported car _ h.1]
    simp only
    rw [add_list_rest_of_supported cdr _ h.2]
    simp [rest_tokens_of]
  | .EMPTY_LIST, acc, _ => by simp [add_list_rest, rest_tokens_of]
  | .INTEGER p, acc, _ => by
    simp [add_list_rest, add_improper_tail, add_atom_to_token_list, rest_tokens_of]
  | .FLOAT p, acc, _ => by
    simp [add_list_rest, add_improper_tail, add_atom_to_token_list, rest_tokens_of]
  | .CHAR p, acc, _ => by
    simp [add_list_rest, add_improper_tail, add_atom_to_token_list, rest_tokens_of]
  | .SYMBOL p, acc, _ => by
    simp [add_list_rest, add_improper_tail, add_atom_to_token_list, rest_tokens_of]
  | .STRING p, acc, _ => by
    simp [add_list_rest, add_improper_tail, add_atom_to_token_list, rest_tokens_of]
  | .ARRAY, acc, h => by simp [supported] at h
  | .LAMBDA, acc, h => by simp [supported] at h
  | .MACRO, acc, h => by simp [supported] at h
  | .ENVIRONMENT, acc, h => by simp [supported] at h
end

theorem tokens_of_head {obj : Object} (h : supported obj) :
    ∃ t rest, tokens_of obj = t :: rest ∧ t.kind ≠ .WHITESPACE := by
  cases obj <;> simp [supported] at h <;> simp [tokens_of]

theorem real_tokens_build_nodes (tokens : List FormToken) :
    ∀ (id : Nat) (offset : Int), real_tokens (build_nodes id offset tokens) = tokens := by
  induction tokens with
  | nil => intro id offset; rfl
  | cons t rest ih =>
    intro id offset
    have := ih (id + 1) (offset + t.toString.length)
    unfold real_tokens at this ⊢
    simp [build_nodes, this]

theorem set_paren_erase (s : NodeList) (p : Nat) (q : Option Nat) :
    (set_paren s p q).map erase_paren = s.map erase_paren := by
  unfold set_paren
  rw [List.map_map]
  apply List.map_congr_left
  intro n _
  simp only [Function.comp]
  split <;> rfl

theorem attach_parens_erase :
    ∀ (todo s : NodeList) (st : List (Option Nat)) (s1 : NodeList) (st1 : List (Option Nat)),
      attach_parens s st todo = .ok (s1, st1) → s1.map erase_paren = s.map erase_paren := by
  intro todo
  induction todo with
  | nil =>
    intro s st s1 st1 h
    simp only [attach_parens, Except.ok.injEq, Prod.mk.injEq] at h
    rw [h.1]
  | cons n todo ih =>
    intro s st s1 st1 h
    simp only [attach_parens] at h
    repeat' split at h
    all_goals first
      | (have hih := ih _ _ _ _ h
         simpa [set_paren_erase] using hih)
      | simp at h

theorem real_tokens_map_erase (l : NodeList) :
    real_tokens (l.map erase_paren) = real_tokens l := by
  induction l with
  | nil => rfl
  | cons a l ih =>
    have e1 : (erase_paren a).is_line_separator = a.is_line_separator := rfl
    have e2 : (erase_paren a).tok = a.tok := rfl
    simp only [real_tokens, List.map_cons, List.filter_cons] at ih ⊢
    cases h : a.is_line_separator
    · simp only [h, e1, Bool.not_false, if_true, List.filterMap_cons, e2]
      rw [ih]
    · simp only [h, e1, Bool.not_true, Bool.false_eq_true, if_false]
      exact ih

theorem real_tokens_of_erase {s s1 : NodeList} (h : s1.map erase_paren = s.map erase_paren) :
    real_tokens s1 = real_tokens s := by
  rw [← real_tokens_map_erase s1, ← real_tokens_map_erase s, h]

theorem head_key_of_erase {s s1 : NodeList} (h : s1.map erase_paren = s.map erase_paren) :
    head_key s1 = head_key s := by
  have key : ∀ l : NodeList, head_key l = head_key (l.map erase_paren) := by
    intro l
    cases l <;> simp [head_key, erase_paren]
  rw [key s1, key s, h]

theorem lines_of_false_head (s : NodeList) :
    ∃ l ls, lines_of false s = l :: ls ∧ l.indent = 0 := by
  induction s with
  | nil => exact ⟨_, _, rfl, rfl⟩
  | cons n rest ih =>
    obtain ⟨l, ls, h1, h2⟩ := ih
    simp only [lines_of]
    split
    · exact ⟨_, _, rfl, rfl⟩
    · split
      · exact ⟨l, ls, h1, h2⟩
      · simp only [Bool.false_eq_true, if_false, h1, push_token]
        exact ⟨_, _, rfl, h2⟩

theorem lines_of_ne_nil (b : Bool) (s : NodeList) : lines_of b s ≠ [] := by
  induction s generalizing b with
  | nil => simp [lines_of]
  | cons n rest ih =>
    simp only [lines_of]
    split
    · simp
    · split
      · exact ih _
      · have h := ih false
        cases hl : lines_of false rest with
        | nil => exact absurd hl h
        | cons l ls =>
          split
          · split <;> simp [open_line, push_token]
          · simp [push_token]

theorem spaces_zero : spaces 0 = "" := rfl

theorem join_lines_push (t : FormToken) (l : OutLine) (ls : List OutLine) (h : l.indent = 0) :
    join_lines (push_token t (l :: ls)) = t.toString ++ join_lines (l :: ls) := by
  cases ls with
  | nil =>
    simp [push_token, join_lines, OutLine.text, h, spaces_zero, flat_text]
  | cons m ms =>
    simp [push_token, join_lines, OutLine.text, h, spaces_zero, flat_text, String.append_assoc]

theorem join_lines_open (k : Nat) (d : Option FormToken) (l : OutLine) (ls : List OutLine)
    (h : l.indent = 0) :
    join_lines (open_line k d (l :: ls)) = spaces k ++ join_lines (l :: ls) := by
  cases ls with
  | nil => simp [open_line, join_lines, OutLine.text, h, spaces_zero]
  | cons m ms =>
    simp [open_line, join_lines, OutLine.text, h, spaces_zero, String.append_assoc]

theorem join_lines_empty_cons (ls : List OutLine) (h : ls ≠ []) :
    join_lines (⟨0, none, []⟩ :: ls) = "\n" ++ join_lines ls := by
  cases ls with
  | nil => exact absurd rfl h
  | cons m ms => simp [join_lines, OutLine.text, spaces_zero, flat_text]

/-- The text that `render` writes is the text of the lines of the node list. -/
theorem render_eq_join_lines :
    ∀ (s : NodeList) (b : Bool) (out : String),
      render b s = .ok out → out = join_lines (lines_of b s) := by
  intro s
  induction s with
  | nil =>
    intro b out h
    simp [render] at h
    simp [← h, lines_of, join_lines, OutLine.text, spaces_zero, flat_text]
  | cons n rest ih =>
    intro b out h
    simp only [render] at h
    split at h
    · next hsep =>
      split at h
      · simp at h
      · next r hr =>
        simp at h
        simp only [lines_of, hsep, if_true]
        rw [join_lines_empty_cons _ (lines_of_ne_nil _ _), ← ih _ _ hr, h]
    · next hsep =>
      split at h
      · simp at h
      · next t ht =>
        have htok : n.tok = some t := by
          unfold tok_of at ht
          split at ht
          · simp at ht
          · next u hu => simp at ht; rw [hu, ht]
        obtain ⟨l, ls, hl, hi⟩ := lines_of_false_head rest
        simp only [lines_of, hsep, htok]
        split at h
        · next hb =>
          split at h
          · simp at h
          · split at h
            · simp at h
            · next r hr =>
              have e := ih _ _ hr
              split at h
              · next hws =>
                simp at h
                simp only [hb, hws, if_true, Bool.false_eq_true, if_false, hl]
                rw [join_lines_open _ _ _ _ hi, ← hl, ← e, ← h]
                rfl
              · next hws =>
                simp at h
                simp only [hb, hws, if_true, Bool.false_eq_true, if_false, hl]
                have hi2 : (⟨l.indent, l.dropped, t :: l.toks⟩ : OutLine).indent = 0 := hi
                rw [show push_token t (l :: ls) = ⟨l.indent, l.dropped, t :: l.toks⟩ :: ls from rfl,
                  join_lines_open _ _ _ _ hi2,
                  show (⟨l.indent, l.dropped, t :: l.toks⟩ :: ls : List OutLine)
                    = push_token t (l :: ls) from rfl,
                  join_lines_push _ _ _ hi, ← hl, ← e, ← h, String.append_assoc]
                rfl
        · next hb =>
          split at h
          · simp at h
          · next r hr =>
            simp at h
            simp only [hb, Bool.false_eq_true, if_false, hl]
            rw [join_lines_push _ _ _ hi, ← hl, ← ih _ _ hr, h]

theorem lines_of_false_head_dropped (s : NodeList) :
    ∃ l ls, lines_of false s = l :: ls ∧ l.indent = 0 ∧ l.dropped = none := by
  induction s with
  | nil => exact ⟨_, _, rfl, rfl, rfl⟩
  | cons n rest ih =>
    obtain ⟨l, ls, h1, h2, h3⟩ := ih
    simp only [lines_of]
    split
    · exact ⟨_, _, rfl, rfl, rfl⟩
    · split
      · exact ⟨l, ls, h1, h2, h3⟩
      · simp only [Bool.false_eq_true, if_false, h1, push_token]
        exact ⟨_, _, rfl, h2, h3⟩

/-- The lines of a node list account for exactly the tokens of its nodes, in order. -/
theorem lines_of_tokens :
    ∀ (s : NodeList) (b : Bool), (lines_of b s).flatMap OutLine.tokens = real_tokens s := by
  intro s
  induction s with
  | nil => intro b; simp [lines_of, OutLine.tokens, real_tokens]
  | cons n rest ih =>
    intro b
    obtain ⟨l, ls, hl, _, hd⟩ := lines_of_false_head_dropped rest
    have ihf := ih false
    rw [hl] at ihf
    simp only [List.flatMap_cons, OutLine.tokens, hd, Option.toList_none, List.nil_append] at ihf
    simp only [lines_of, real_tokens, List.filter_cons]
    cases hsep : n.is_line_separator
    · simp only [Bool.false_eq_true, if_false, Bool.not_false, if_true, List.filterMap_cons]
      cases htok : n.tok with
      | none => simpa [real_tokens] using ih b
      | some t =>
        simp only
        have hr : List.filterMap (fun n => n.tok)
            (List.filter (fun n => !n.is_line_separator) rest) = real_tokens rest := rfl
        rw [hr, ← ihf]
        split
        · split
          · simp [hl, open_line, OutLine.tokens]
          · simp [hl, open_line, push_token, OutLine.tokens]
        · simp [hl, push_token, OutLine.tokens, hd]
    · simp only [if_true, Bool.not_true, Bool.false_eq_true, if_false, List.flatMap_cons,
        OutLine.tokens, Option.toList_none, List.nil_append]
      simpa [real_tokens] using ih true

/-- A line break stands for a whitespace token or for nothing. -/
theorem lines_of_dropped :
    ∀ (s : NodeList) (b : Bool) (l : OutLine), l ∈ lines_of b s →
      ∀ t, l.dropped = some t → t.kind = .WHITESPACE := by
  intro s
  induction s with
  | nil =>
    intro b l hl t ht
    simp [lines_of] at hl
    subst hl; simp at ht
  | cons n rest ih =>
    intro b l hl t ht
    obtain ⟨l0, ls, hl0, _, hd⟩ := lines_of_false_head_dropped rest
    have ihf := ih false
    rw [hl0] at ihf
    simp only [lines_of] at hl
    split at hl
    · rcases List.mem_cons.1 hl with h | h
      · subst h; simp at ht
      · exact ih _ _ h _ ht
    · split at hl
      · exact ih _ _ hl _ ht
      · split at hl
        · split at hl
          · next hws =>
            rw [hl0] at hl
            rcases List.mem_cons.1 hl with h | h
            · subst h; simp at ht; subst ht; exact hws
            · exact ihf _ (List.mem_cons_of_mem _ h) _ ht
          · rw [hl0] at hl
            rcases List.mem_cons.1 hl with h | h
            · subst h; simp at ht
            · exact ihf _ (List.mem_cons_of_mem _ h) _ ht
        · rw [hl0] at hl
          rcases List.mem_cons.1 hl with h | h
          · subst h; simp [hd] at ht
          · exact ihf _ (List.mem_cons_of_mem _ h) _ ht

/-- The first line of a list whose first node is a token other than whitespace with
`lineIndent` 0 has no indentation and stands for no dropped token. -/
theorem lines_of_first {s : NodeList} {id : Nat} {t : FormToken}
    (h : head_key s = some (id, some t, false, 0)) (hws : t.kind ≠ .WHITESPACE) :
    ∃ l ls, lines_of true s = l :: ls ∧ l.indent = 0 ∧ l.dropped = none := by
  cases s with
  | nil => simp [head_key] at h
  | cons n rest =>
    simp only [head_key, List.head?_cons, Option.map_some', Option.some.injEq,
      Prod.mk.injEq] at h
    obtain ⟨_, h2, h3, h4⟩ := h
    obtain ⟨l, ls, hl, _, _⟩ := lines_of_false_head_dropped rest
    simp only [lines_of, h3, Bool.false_eq_true, if_false, h2, if_true, hws, hl, push_token,
      open_line, h4, Int.toNat_zero]
    exact ⟨_, _, rfl, rfl, rfl⟩

/-- The stages of `to_string`: the list `render` is run on has the tokens of the object,
and its first node is the first token, with `lineIndent` 0. -/
theorem to_string_stages {obj : Object} {w : Int} {out : String}
    (h : to_string obj w = .ok out) :
    ∃ s : NodeList, render true s = .ok out ∧ real_tokens s = tokens_of obj ∧
      head_key s = head_key (build_nodes 0 0 (tokens_of obj)) ∧ supported obj := by
  unfold to_string at h
  obtain ⟨toks, h1, h⟩ := bind_eq_ok h
  obtain ⟨_, _, h⟩ := bind_eq_ok h
  obtain ⟨⟨s1, st⟩, h2, h⟩ := bind_eq_ok h
  dsimp only at h
  obtain ⟨_, _, h⟩ := bind_eq_ok h
  obtain ⟨_, _, h⟩ := bind_eq_ok h
  obtain ⟨s2, h3, h⟩ := bind_eq_ok h
  obtain ⟨⟨s3, rv⟩, h4, h⟩ := bind_eq_ok h
  dsimp only at h
  obtain ⟨s4, h5, hr⟩ := bind_eq_ok h
  clear h
  obtain ⟨e, hs⟩ := add_to_token_list_spec _ _ _ h1
  simp only [List.nil_append] at e
  subst e
  have A := attach_parens_erase _ _ _ _ _ h2
  have E : Evolves s1 s4 :=
    (insertSpecialBreaks_evolves h3).andThen
      ((propagatePretty_evolves h4).andThen (insertBreaksAsNeeded_evolves h5))
  refine ⟨s4, hr, ?_, ?_, hs⟩
  · rw [E.1.real_tokens, real_tokens_of_erase A, real_tokens_build_nodes]
  · rw [E.2, head_key_of_erase A]

set_option maxRecDepth 100000

theorem to_string_empty_list (w : Int) (hw : 0 < w) : to_string .EMPTY_LIST w = .ok "()" := by
  have h1 : ¬ (0 : Int) > w := by omega
  simp [to_string, add_to_token_list, add_atom_to_token_list, assert, build_nodes, attach_parens,
    tok_of, set_paren, insertSpecialBreaks, nodes_from, insertSpecialBreaks_loop,
    special_breaks_at, deref, node_at, propagatePretty, propagate_lines, nodes_before,
    propagate_offsets, insertBreaksAsNeeded, insertBreaks_loop, loop_fuel, find_candidate_line,
    getFirstBadLine, getFirstBadLine_walk, getNextLine, getNextLine_walk, render, bind,
    Except.bind, pure, Except.pure, FormToken.toString, h1]

theorem flat_text_append (a b : List FormToken) :
    flat_text (a ++ b) = flat_text a ++ flat_text b := by
  induction a with
  | nil => simp [flat_text]
  | cons t a ih => simp [flat_text, ih, String.append_assoc]

/-- The output of `to_string`, as lines over the tokens of the object. -/
theorem to_string_lines {obj : Object} {w : Int} {out : String}
    (h : to_string obj w = .ok out) :
    ∃ lines : List OutLine,
      add_to_token_list obj [] = .ok (tokens_of obj) ∧
      out = join_lines lines ∧
      lines.flatMap OutLine.tokens = tokens_of obj ∧
      (∀ l ∈ lines, ∀ t, l.dropped = some t → t.kind = .WHITESPACE) ∧
      (∃ l ls, lines = l :: ls ∧ l.indent = 0 ∧ l.dropped = none) := by
  obtain ⟨s, h1, h2, h3, h4⟩ := to_string_stages h
  obtain ⟨t, rest, ht, hws⟩ := tokens_of_head h4
  refine ⟨lines_of true s, ?_, render_eq_join_lines _ _ _ h1, ?_, lines_of_dropped s true, ?_⟩
  · simpa using add_to_token_list_of_supported obj [] h4
  · rw [lines_of_tokens, h2]
  · rw [ht] at h3
    exact lines_of_first (by simpa [build_nodes, head_key] using h3) hws

/-- C1 (round trip at token level): when `to_string` returns, its output is a sequence of
lines joined by line terminators; each line is its indentation followed by the texts of
whole tokens; the tokens of the lines, with the whitespace token each line break stands
for put back, are exactly the tokens of `add_to_token_list`, in the original order; only
whitespace tokens are dropped, and only at a line break; the first line has no indentation.
Hence the flat rendering of the tokens of the lines is the flat rendering of the input. -/
theorem token_level_round_trip (obj : Object) (w : Int) (out : String)
    (h : to_string obj w = .ok out) :
    ∃ (toks : List FormToken) (lines : List OutLine),
      add_to_token_list obj [] = .ok toks ∧
      out = join_lines lines ∧
      lines.flatMap OutLine.tokens = toks ∧
      (∀ l ∈ lines, ∀ t, l.dropped = some t → t.kind = .WHITESPACE) ∧
      (∃ l ls, lines = l :: ls ∧ l.indent = 0 ∧ l.dropped = none) ∧
      flat_text (lines.flatMap OutLine.tokens) = flat_text toks := by
  obtain ⟨lines, h1, h2, h3, h4, h5⟩ := to_string_lines h
  exact ⟨tokens_of obj, lines, h1, h2, h3, h4, h5, by rw [h3]⟩

/-- Witness for C1: the list `(begin a b c)` at width 10. -/
theorem token_level_round_trip_witness :
    to_string (build_list [.SYMBOL "begin", .SYMBOL "a", .SYMBOL "b", .SYMBOL "c"]) 10
        = .ok "(begin\n  a\n  b\n  c\n  )" ∧
    ∃ (toks : List FormToken) (lines : List OutLine),
      add_to_token_list (build_list [.SYMBOL "begin", .SYMBOL "a", .SYMBOL "b", .SYMBOL "c"]) []
        = .ok toks ∧
      "(begin\n  a\n  b\n  c\n  )" = join_lines lines ∧
      lines.flatMap OutLine.tokens = toks ∧
      (∀ l ∈ lines, ∀ t, l.dropped = some t → t.kind = .WHITESPACE) ∧
      (∃ l ls, lines = l :: ls ∧ l.indent = 0 ∧ l.dropped = none) ∧
      flat_text (lines.flatMap OutLine.tokens) = flat_text toks :=
  ⟨by rfl, token_level_round_trip _ 10 _ (by rfl)⟩

/-- C10 (the empty list is one indivisible token): `add_to_token_list` maps the empty list
to exactly one `EMPTY_PAIR` token, whose text is `()`; `to_string` of the empty list is
`()` at every positive width; and in every output the text `()` of an `EMPTY_PAIR` token
stands whole inside one line, no such token being dropped at a line break. -/
theorem empty_list_is_one_token :
    (add_to_token_list .EMPTY_LIST [] = .ok [⟨.EMPTY_PAIR, ""⟩] ∧
      FormToken.toString ⟨.EMPTY_PAIR, ""⟩ = "()") ∧
    (∀ w : Int, 0 < w → to_string .EMPTY_LIST w = .ok "()") ∧
    (∀ (obj : Object) (w : Int) (out : String), to_string obj w = .ok out →
      ∃ (toks : List FormToken) (lines : List OutLine),
        add_to_token_list obj [] = .ok toks ∧
        out = join_lines lines ∧
        lines.flatMap OutLine.tokens = toks ∧
        (∀ l ∈ lines, ∀ t, l.dropped = some t → t.kind ≠ .EMPTY_PAIR) ∧
        (∀ l ∈ lines, ∀ (pre post : List FormToken) (t : FormToken),
          l.toks = pre ++ t :: post → t.kind = .EMPTY_PAIR →
            l.text = spaces l.indent ++ flat_text pre ++ "()" ++ flat_text post)) := by
  refine ⟨⟨rfl, rfl⟩, to_string_empty_list, ?_⟩
  intro obj w out h
  obtain ⟨lines, h1, h2, h3, h4, _⟩ := to_string_lines h
  refine ⟨tokens_of obj, lines, h1, h2, h3, ?_, ?_⟩
  · intro l hl t ht hk
    have := h4 l hl t ht
    rw [hk] at this
    exact absurd this (by decide)
  · intro l _ pre post t hl hk
    have ht : t.toString = "()" := by simp [FormToken.toString, hk]
    simp [OutLine.text, hl, flat_text_append, flat_text, ht, String.append_assoc]

/-- Witness for C10: the empty list at width 1. -/
theorem empty_list_is_one_token_witness : to_string .EMPTY_LIST 1 = .ok "()" :=
  empty_list_is_one_token.2.1 1 (by decide)

/-- C2, evaluated at the list `(cond)`: the `cond` rule dereferences the null pointer
that `getNextListOnLine` returns, although the object is supported. -/
theorem to_string_cond_without_clause :
    supported (build_list [.SYMBOL "cond"]) ∧
      to_string (build_list [.SYMBOL "cond"]) 80 = .error .null_dereference :=
  ⟨by simp [build_list, supported], by rfl⟩

/-- C4, evaluated at the list `(foo 1 2)` and width 8: the output is one line of nine
columns, in which no token is longer than the width. -/
theorem to_string_exceeds_width :
    to_string (build_list [.SYMBOL "foo", .INTEGER "1", .INTEGER "2"]) 8 = .ok "(foo 1 2)" ∧
      "(foo 1 2)".length = 9 := ⟨by rfl, by rfl⟩

theorem assign_parens_congr {f g : Nat → Option (Option Nat)} (h : ∀ i, f i = g i)
    (s : NodeList) : assign_parens f s = assign_parens g s := by
  have : f = g := funext h
  rw [this]

theorem assign_parens_none (s : NodeList) : assign_parens (fun _ => none) s = s := by
  simp [assign_parens]

theorem set_paren_eq_assign (s : NodeList) (p : Nat) (q : Option Nat) :
    set_paren s p q = assign_parens (fun i => if i = p then some q else none) s := by
  unfold set_paren assign_parens
  apply List.map_congr_left
  intro n _
  by_cases h : n.id = p <;> simp [h]

theorem assign_assign (f g : Nat → Option (Option Nat)) (s : NodeList) :
    assign_parens g (assign_parens f s) = assign_parens (fun i => (g i).or (f i)) s := by
  unfold assign_parens
  rw [List.map_map]
  apply List.map_congr_left
  intro n _
  simp only [Function.comp]
  cases hf : f n.id <;> cases hg : g n.id <;> simp [hf, hg, Option.or]

theorem seg_links_lt (ls : List (Option Nat)) :
    ∀ (b i : Nat), i < b → seg_links ls b i = none := by
  induction ls with
  | nil => intro b i _; rfl
  | cons x l ih =>
    intro b i h
    simp only [seg_links]
    rw [if_neg (by omega)]
    exact ih _ _ (by omega)

theorem seg_links_ge (ls : List (Option Nat)) :
    ∀ (b i : Nat), b + ls.length ≤ i → seg_links ls b i = none := by
  induction ls with
  | nil => intro b i _; rfl
  | cons x l ih =>
    intro b i h
    simp only [seg_links]
    simp only [List.length_cons] at h
    rw [if_neg (by omega)]
    exact ih _ _ (by omega)

theorem seg_links_append (l1 l2 : List (Option Nat)) :
    ∀ (b i : Nat), seg_links (l1 ++ l2) b i
      = (seg_links l1 b i).or (seg_links l2 (b + l1.length) i) := by
  induction l1 with
  | nil => intro b i; simp [seg_links]
  | cons x l ih =>
    intro b i
    rw [List.cons_append]
    simp only [seg_links, List.length_cons]
    by_cases h : i = b
    · simp [h, Option.or]
    · simp only [h, if_false]
      have e : b + (l.length + 1) = b + 1 + l.length := by omega
      rw [e]
      exact ih _ _

theorem build_nodes_append (l1 l2 : List FormToken) :
    ∀ (b : Nat) (off : Int), build_nodes b off (l1 ++ l2)
      = build_nodes b off l1 ++ build_nodes (b + l1.length) (off + text_width l1) l2 := by
  induction l1 with
  | nil => intro b off; simp [build_nodes, text_width]
  | cons t l ih =>
    intro b off
    rw [List.cons_append]
    simp only [build_nodes, List.length_cons, text_width, List.cons_append]
    have e1 : b + (l.length + 1) = b + 1 + l.length := by omega
    have e2 : off + ((t.toString.length : Int) + text_width l)
        = off + (t.toString.length : Int) + text_width l := by omega
    rw [e1, e2, ih]

theorem attach_step_open (s : NodeList) (st : List (Option Nat)) (n : PrettyPrinterNode)
    (t : FormToken) (todo : NodeList) (h : n.tok = some t) (hk : t.kind = .OPEN_PAREN) :
    attach_parens s st (n :: todo) = attach_parens s (some n.id :: st) todo := by
  simp [attach_parens, tok_of, h, hk]

theorem attach_step_other (s : NodeList) (e : Option Nat) (st : List (Option Nat))
    (n : PrettyPrinterNode) (t : FormToken) (todo : NodeList) (h : n.tok = some t)
    (hk : t.kind ≠ .OPEN_PAREN) (hc : t.kind ≠ .CLOSE_PAREN) :
    attach_parens s (e :: st) (n :: todo) = attach_parens (set_paren s n.id e) (e :: st) todo := by
  simp [attach_parens, tok_of, h, hk, hc]

theorem attach_step_close (s : NodeList) (o : Nat) (st : List (Option Nat))
    (n : PrettyPrinterNode) (t : FormToken) (todo : NodeList) (h : n.tok = some t)
    (hc : t.kind = .CLOSE_PAREN) :
    attach_parens s (some o :: st) (n :: todo)
      = attach_parens (set_paren (set_paren s n.id (some o)) o (some n.id)) st todo := by
  simp [attach_parens, tok_of, h, hc]

mutual
theorem links_of_length : ∀ (obj : Object) (b : Nat) (e : Option Nat),
    (links_of obj b e).length = (tokens_of obj).length
  | .PAIR car cdr, b, e => by
    simp [links_of, tokens_of, links_of_length car, rest_links_of_length cdr]
  | .EMPTY_LIST, _, _ => rfl
  | .INTEGER _, _, _ => rfl
  | .FLOAT _, _, _ => rfl
  | .CHAR _, _, _ => rfl
  | .SYMBOL _, _, _ => rfl
  | .STRING _, _, _ => rfl
  | .ARRAY, _, _ => rfl
  | .LAMBDA, _, _ => rfl
  | .MACRO, _, _ => rfl
  | .ENVIRONMENT, _, _ => rfl
theorem rest_links_of_length : ∀ (obj : Object) (b o : Nat),
    (rest_links_of obj b o).length = (rest_tokens_of obj).length
  | .PAIR car cdr, b, o => by
    simp [rest_links_of, rest_tokens_of, links_of_length car, rest_links_of_length cdr]
  | .EMPTY_LIST, _, _ => rfl
  | .INTEGER _, _, _ => rfl
  | .FLOAT _, _, _ => rfl
  | .CHAR _, _, _ => rfl
  | .SYMBOL _, _, _ => rfl
  | .STRING _, _, _ => rfl
  | .ARRAY, _, _ => rfl
  | .LAMBDA, _, _ => rfl
  | .MACRO, _, _ => rfl
  | .ENVIRONMENT, _, _ => rfl
end

theorem rest_tokens_of_pos {obj : Object} (h : supported obj) :
    0 < (rest_tokens_of obj).length := by
  cases obj <;> simp [supported] at h <;> simp [rest_tokens_of]

theorem attach_atom (s : NodeList) (e : Option Nat) (st : List (Option Nat)) (b : Nat)
    (off : Int) (t : FormToken) (rest : NodeList)
    (hk : t.kind ≠ .OPEN_PAREN) (hc : t.kind ≠ .CLOSE_PAREN) :
    attach_parens s (e :: st) (build_nodes b off [t] ++ rest)
      = attach_parens (assign_parens (seg_links [e] b) s) (e :: st) rest := by
  simp only [build_nodes, List.cons_append, List.nil_append]
  rw [attach_step_other _ _ _ _ t _ rfl hk hc, set_paren_eq_assign]
  refine congrArg (fun x => attach_parens x _ _) (assign_parens_congr ?_ s)
  intro i
  simp [seg_links]

mutual
theorem attach_tokens : ∀ (obj : Object), supported obj →
    ∀ (s : NodeList) (e : Option Nat) (st : List (Option Nat)) (b : Nat) (off : Int)
      (rest : NodeList),
      attach_parens s (e :: st) (build_nodes b off (tokens_of obj) ++ rest)
        = attach_parens (assign_parens (seg_links (links_of obj b e) b) s) (e :: st) rest
  | .PAIR car cdr, h, s, e, st, b, off, rest => by
    simp only [tokens_of, build_nodes, List.cons_append]
    rw [attach_step_open _ _ _ ⟨.OPEN_PAREN, ""⟩ _ rfl rfl, build_nodes_append,
      List.append_assoc, attach_tokens car h.1, attach_rest cdr h.2, assign_assign]
    refine congrArg (fun x => attach_parens x _ _) (assign_parens_congr ?_ s)
    intro i
    have hl := links_of_length car (b + 1) (some b)
    have hp := rest_tokens_of_pos h.2
    simp only [links_of, seg_links, seg_links_append, hl]
    by_cases hi : i = b
    · subst hi
      simp only [if_true, Option.or]
      congr 2
      omega
    · simp only [hi, if_false]
      cases hc : seg_links (links_of car (b + 1) (some b)) (b + 1) i with
      | none => simp
      | some q =>
        have : i < b + 1 + (tokens_of car).length := by
          by_contra hge
          rw [seg_links_ge _ _ _ (by rw [hl]; omega)] at hc
          simp at hc
        rw [seg_links_lt _ _ _ this]
        simp [Option.or]
  | .EMPTY_LIST, _, s, e, st, b, off, rest => attach_atom s e st b off _ rest (by simp) (by simp)
  | .INTEGER _, _, s, e, st, b, off, rest => attach_atom s e st b off _ rest (by simp) (by simp)
  | .FLOAT _, _, s, e, st, b, off, rest => attach_atom s e st b off _ rest (by simp) (by simp)
  | .CHAR _, _, s, e, st, b, off, rest => attach_atom s e st b off _ rest (by simp) (by simp)
  | .SYMBOL _, _, s, e, st, b, off, rest => attach_atom s e st b off _ rest (by simp) (by simp)
  | .STRING _, _, s, e, st, b, off, rest => attach_atom s e st b off _ rest (by simp) (by simp)
  | .ARRAY, h, _, _, _, _, _, _ => by simp [supported] at h
  | .LAMBDA, h, _, _, _, _, _, _ => by simp [supported] at h
  | .MACRO, h, _, _, _, _, _, _ => by simp [supported] at h
  | .ENVIRONMENT, h, _, _, _, _, _, _ => by simp [supported] at h
theorem attach_rest : ∀ (obj : Object), supported obj →
    ∀ (s : NodeList) (o : Nat) (st : List (Option Nat)) (b : Nat) (off : Int)
      (rest : NodeList),
      attach_parens s (some o :: st) (build_nodes b off (rest_tokens_of obj) ++ rest)
        = attach_parens (assign_parens (fun i =>
            if i = o then some (some (b + (rest_tokens_of obj).length - 1))
            else seg_links (rest_links_of obj b o) b i) s) st rest
  | .PAIR car cdr, h, s, o, st, b, off, rest => by
    simp only [rest_tokens_of, build_nodes, List.cons_append]
    rw [attach_step_other _ _ _ _ ⟨.WHITESPACE, ""⟩ _ rfl (by simp) (by simp),
      build_nodes_append, List.append_assoc, attach_tokens car h.1, attach_rest cdr h.2,
      set_paren_eq_assign, assign_assign, assign_assign]
    refine congrArg (fun x => attach_parens x _ _) (assign_parens_congr ?_ s)
    intro i
    have hl := links_of_length car (b + 1) (some o)
    have hp := rest_tokens_of_pos h.2
    simp only [rest_links_of, seg_links, seg_links_append, hl, List.length_cons,
      List.length_append]
    by_cases hi : i = o
    · subst hi
      simp only [if_true, Option.or]
      congr 2
      omega
    · simp only [hi, if_false]
      by_cases hb : i = b
      · subst hb
        rw [seg_links_lt _ _ _ (by omega), seg_links_lt _ _ _ (by omega)]
        simp [Option.or]
      · simp only [hb, if_false]
        cases hc : seg_links (links_of car (b + 1) (some o)) (b + 1) i with
        | none => simp
        | some q =>
          have : i < b + 1 + (tokens_of car).length := by
            by_contra hge
            rw [seg_links_ge _ _ _ (by rw [hl]; omega)] at hc
            simp at hc
          rw [seg_links_lt _ _ _ this]
          simp [Option.or]
  | .EMPTY_LIST, _, s, o, st, b, off, rest => by
    simp only [rest_tokens_of, build_nodes, List.cons_append, List.nil_append]
    rw [attach_step_close _ _ _ _ ⟨.CLOSE_PAREN, ""⟩ _ rfl rfl, set_paren_eq_assign,
      set_paren_eq_assign, assign_assign]
    refine congrArg (fun x => attach_parens x _ _) (assign_parens_congr ?_ s)
    intro i
    simp only [rest_links_of, seg_links, List.length_singleton]
    by_cases hi : i = o <;> simp [hi, Option.or]
  | .INTEGER p, _, s, o, st, b, off, rest => by
    simp only [rest_tokens_of, build_nodes, List.cons_append, List.nil_append]
    rw [attach_step_other _ _ _ _ ⟨.WHITESPACE, ""⟩ _ rfl (by simp) (by simp),
      attach_step_other _ _ _ _ ⟨.DOT, ""⟩ _ rfl (by simp) (by simp),
      attach_step_other _ _ _ _ ⟨.WHITESPACE, ""⟩ _ rfl (by simp) (by simp),
      attach_step_other _ _ _ _ ⟨.STRING, p⟩ _ rfl (by simp) (by simp),
      attach_step_close _ _ _ _ ⟨.CLOSE_PAREN, ""⟩ _ rfl rfl]
    simp only [set_paren_eq_assign, assign_assign]
    refine congrArg (fun x => attach_parens x _ _) (assign_parens_congr ?_ s)
    intro i
    simp only [rest_links_of, seg_links, List.length_cons, List.length_nil]
    by_cases hi : i = o
    · simp [hi, Option.or]
    · simp only [hi, if_false]
      by_cases h4 : i = b + 1 + 1 + 1 + 1
      · simp [h4, Option.or]
      · by_cases h3 : i = b + 1 + 1 + 1
        · simp [h3, Option.or]
        · by_cases h2 : i = b + 1 + 1
          · simp [h2, Option.or]
          · by_cases h1 : i = b + 1
            · simp [h1, Option.or]
            · by_cases h0 : i = b
              · subst h0
                simp [h1, h2, h3, h4, Option.or]
              · simp [h0, h1, h2, h3, h4, Option.or]
  | .FLOAT p, _, s, o, st, b, off, rest => by
    simp only [rest_tokens_of, build_nodes, List.cons_append, List.nil_append]
    rw [attach_step_other _ _ _ _ ⟨.WHITESPACE, ""⟩ _ rfl (by simp) (by simp),
      attach_step_other _ _ _ _ ⟨.DOT, ""⟩ _ rfl (by simp) (by simp),
      attach_step_other _ _ _ _ ⟨.WHITESPACE, ""⟩ _ rfl (by simp) (by simp),
      attach_step_other _ _ _ _ ⟨.STRING, p⟩ _ rfl (by simp) (by simp),
      attach_step_close _ _ _ _ ⟨.CLOSE_PAREN, ""⟩ _ rfl rfl]
    simp only [set_paren_eq_assign, assign_assign]
    refine congrArg (fun x => attach_parens x _ _) (assign_parens_congr ?_ s)
    intro i
    simp only [rest_links_of, seg_links, List.length_cons, List.length_nil]
    by_cases hi : i = o
    · simp [hi, Option.or]
    · simp only [hi, if_false]
      by_cases h4 : i = b + 1 + 1 + 1 + 1
      · simp [h4, Option.or]
      · by_cases h3 : i = b + 1 + 1 + 1
        · simp [h3, Option.or]
        · by_cases h2 : i = b + 1 + 1
          · simp [h2, Option.or]
          · by_cases h1 : i = b + 1
            · simp [h1, Option.or]
            · by_cases h0 : i = b
              · subst h0
                simp [h1, h2, h3, h4, Option.or]
              · simp [h0, h1, h2, h3, h4, Option.or]
  | .CHAR p, _, s, o, st, b, off, rest => by
    simp only [rest_tokens_of, build_nodes, List.cons_append, List.nil_append]
    rw [attach_step_other _ _ _ _ ⟨.WHITESPACE, ""⟩ _ rfl (by simp) (by simp),
      attach_step_other _ _ _ _ ⟨.DOT, ""⟩ _ rfl (by simp) (by simp),
      attach_step_other _ _ _ _ ⟨.WHITESPACE, ""⟩ _ rfl (by simp) (by simp),
      attach_step_other _ _ _ _ ⟨.STRING, p⟩ _ rfl (by simp) (by simp),
      attach_step_close _ _ _ _ ⟨.CLOSE_PAREN, ""⟩ _ rfl rfl]
    simp only [set_paren_eq_assign, assign_assign]
    refine congrArg (fun x => attach_parens x _ _) (assign_parens_congr ?_ s)
    intro i
    simp only [rest_links_of, seg_links, List.length_cons, List.length_nil]
    by_cases hi : i = o
    · simp [hi, Option.or]
    · simp only [hi, if_false]
      by_cases h4 : i = b + 1 + 1 + 1 + 1
      · simp [h4, Option.or]
      · by_cases h3 : i = b + 1 + 1 + 1
        · simp [h3, Option.or]
        · by_cases h2 : i = b + 1 + 1
          · simp [h2, Option.or]
          · by_cases h1 : i = b + 1
            · simp [h1, Option.or]
            · by_cases h0 : i = b
              · subst h0
                simp [h1, h2, h3, h4, Option.or]
              · simp [h0, h1, h2, h3, h4, Option.or]
  | .SYMBOL p, _, s, o, st, b, off, rest => by
    simp only [rest_tokens_of, build_nodes, List.cons_append, List.nil_append]
    rw [attach_step_other _ _ _ _ ⟨.WHITESPACE, ""⟩ _ rfl (by simp) (by simp),
      attach_step_other _ _ _ _ ⟨.DOT, ""⟩ _ rfl (by simp) (by simp),
      attach_step_other _ _ _ _ ⟨.WHITESPACE, ""⟩ _ rfl (by simp) (by simp),
      attach_step_other _ _ _ _ ⟨.STRING, p⟩ _ rfl (by simp) (by simp),
      attach_step_close _ _ _ _ ⟨.CLOSE_PAREN, ""⟩ _ rfl rfl]
    simp only [set_paren_eq_assign, assign_assign]
    refine congrArg (fun x => attach_parens x _ _) (assign_parens_congr ?_ s)
    intro i
    simp only [rest_links_of, seg_links, List.length_cons, List.length_nil]
    by_cases hi : i = o
    · simp [hi, Option.or]
    · simp only [hi, if_false]
      by_cases h4 : i = b + 1 + 1 + 1 + 1
      · simp [h4, Option.or]
      · by_cases h3 : i = b + 1 + 1 + 1
        · simp [h3, Option.or]
        · by_cases h2 : i = b + 1 + 1
          · simp [h2, Option.or]
          · by_cases h1 : i = b + 1
            · simp [h1, Option.or]
            · by_cases h0 : i = b
              · subst h0
                simp [h1, h2, h3, h4, Option.or]
              · simp [h0, h1, h2, h3, h4, Option.or]
  | .STRING p, _, s, o, st, b, off, rest => by
    simp only [rest_tokens_of, build_nodes, List.cons_append, List.nil_append]
    rw [attach_step_other _ _ _ _ ⟨.WHITESPACE, ""⟩ _ rfl (by simp) (by simp),
      attach_step_other _ _ _ _ ⟨.DOT, ""⟩ _ rfl (by simp) (by simp),
      attach_step_other _ _ _ _ ⟨.WHITESPACE, ""⟩ _ rfl (by simp) (by simp),
      attach_step_other _ _ _ _ ⟨.STRING, p⟩ _ rfl (by simp) (by simp),
      attach_step_close _ _ _ _ ⟨.CLOSE_PAREN, ""⟩ _ rfl rfl]
    simp only [set_paren_eq_assign, assign_assign]
    refine congrArg (fun x => attach_parens x _ _) (assign_parens_congr ?_ s)
    intro i
    simp only [rest_links_of, seg_links, List.length_cons, List.length_nil]
    by_cases hi : i = o
    · simp [hi, Option.or]
    · simp only [hi, if_false]
      by_cases h4 : i = b + 1 + 1 + 1 + 1
      · simp [h4, Option.or]
      · by_cases h3 : i = b + 1 + 1 + 1
        · simp [h3, Option.or]
        · by_cases h2 : i = b + 1 + 1
          · simp [h2, Option.or]
          · by_cases h1 : i = b + 1
            · simp [h1, Option.or]
            · by_cases h0 : i = b
              · subst h0
                simp [h1, h2, h3, h4, Option.or]
              · simp [h0, h1, h2, h3, h4, Option.or]
  | .ARRAY, h, _, _, _, _, _, _ => by simp [supported] at h
  | .LAMBDA, h, _, _, _, _, _, _ => by simp [supported] at h
  | .MACRO, h, _, _, _, _, _, _ => by simp [supported] at h
  | .ENVIRONMENT, h, _, _, _, _, _, _ => by simp [supported] at h
end

theorem attach_parens_nil (s : NodeList) (st : List (Option Nat)) :
    attach_parens s st [] = .ok (s, st) := rfl

theorem assign_parens_congr_ids {f g : Nat → Option (Option Nat)} (s : NodeList)
    (h : ∀ n ∈ s, f n.id = g n.id) : assign_parens f s = assign_parens g s := by
  unfold assign_parens
  apply List.map_congr_left
  intro n hn
  rw [h n hn]

theorem build_nodes_id_ge (toks : List FormToken) :
    ∀ (b : Nat) (off : Int) (n : PrettyPrinterNode), n ∈ build_nodes b off toks → b ≤ n.id := by
  induction toks with
  | nil => intro b off n h; simp [build_nodes] at h
  | cons t rest ih =>
    intro b off n h
    simp only [build_nodes, List.mem_cons] at h
    rcases h with h | h
    · subst h; exact Nat.le_refl _
    · have := ih _ _ _ h; omega

theorem assign_build_nodes (toks : List FormToken) :
    ∀ (ls : List (Option Nat)) (b : Nat) (off : Int), ls.length = toks.length →
      assign_parens (seg_links ls b) (build_nodes b off toks) = build_linked b off toks ls := by
  induction toks with
  | nil => intro ls b off h; cases ls <;> simp [build_nodes, build_linked, assign_parens]
  | cons t rest ih =>
    intro ls b off h
    cases ls with
    | nil => simp at h
    | cons q qs =>
      simp only [List.length_cons, Nat.add_right_cancel_iff] at h
      simp only [build_nodes, build_linked]
      have hr : assign_parens (seg_links (q :: qs) b) (build_nodes (b + 1) (off + t.toString.length) rest)
          = assign_parens (seg_links qs (b + 1)) (build_nodes (b + 1) (off + t.toString.length) rest) := by
        apply assign_parens_congr_ids
        intro n hn
        have := build_nodes_id_ge _ _ _ _ hn
        simp only [seg_links]
        rw [if_neg (by omega)]
      rw [← ih qs (b + 1) _ h, ← hr]
      simp [assign_parens, seg_links]

/-- The paren attachment pass of `to_string` succeeds on the tokens of a supported object,
leaves the stack with the null pointer alone, and sets the `paren` fields to
`links_of`. -/
theorem attach_parens_spec {obj : Object} (h : supported obj) :
    attach_parens (build_nodes 0 0 (tokens_of obj)) [none] (build_nodes 0 0 (tokens_of obj))
      = .ok (build_linked 0 0 (tokens_of obj) (links_of obj 0 none), [none]) := by
  have := attach_tokens obj h (build_nodes 0 0 (tokens_of obj)) none [] 0 0 []
  simp only [List.append_nil] at this
  rw [this, attach_parens_nil, assign_build_nodes _ _ _ _ (links_of_length _ _ _)]

mutual
theorem paren_depth_tokens : ∀ (obj : Object), supported obj →
    ∀ (d : Nat) (l : List FormToken), paren_depth d (tokens_of obj ++ l) = paren_depth d l
  | .PAIR car cdr, h, d, l => by
    rw [tokens_of, List.cons_append, List.append_assoc]
    simp only [paren_depth, if_true]
    rw [paren_depth_tokens car h.1, paren_depth_rest cdr h.2]
  | .EMPTY_LIST, _, d, l => by simp [tokens_of, paren_depth]
  | .INTEGER _, _, d, l => by simp [tokens_of, paren_depth]
  | .FLOAT _, _, d, l => by simp [tokens_of, paren_depth]
  | .CHAR _, _, d, l => by simp [tokens_of, paren_depth]
  | .SYMBOL _, _, d, l => by simp [tokens_of, paren_depth]
  | .STRING _, _, d, l => by simp [tokens_of, paren_depth]
  | .ARRAY, h, _, _ => by simp [supported] at h
  | .LAMBDA, h, _, _ => by simp [supported] at h
  | .MACRO, h, _, _ => by simp [supported] at h
  | .ENVIRONMENT, h, _, _ => by simp [supported] at h
theorem paren_depth_rest : ∀ (obj : Object), supported obj →
    ∀ (d : Nat) (l : List FormToken),
      paren_depth (d + 1) (rest_tokens_of obj ++ l) = paren_depth d l
  | .PAIR car cdr, h, d, l => by
    rw [rest_tokens_of, List.cons_append, List.append_assoc]
    simp only [paren_depth]
    simp only [show ¬ TokenKind.WHITESPACE = TokenKind.OPEN_PAREN by decide,
      show ¬ TokenKind.WHITESPACE = TokenKind.CLOSE_PAREN by decide, if_false]
    rw [paren_depth_tokens car h.1, paren_depth_rest cdr h.2]
  | .EMPTY_LIST, _, d, l => by simp [rest_tokens_of, paren_depth]
  | .INTEGER _, _, d, l => by simp [rest_tokens_of, paren_depth]
  | .FLOAT _, _, d, l => by simp [rest_tokens_of, paren_depth]
  | .CHAR _, _, d, l => by simp [rest_tokens_of, paren_depth]
  | .SYMBOL _, _, d, l => by simp [rest_tokens_of, paren_depth]
  | .STRING _, _, d, l => by simp [rest_tokens_of, paren_depth]
  | .ARRAY, h, _, _ => by simp [supported] at h
  | .LAMBDA, h, _, _ => by simp [supported] at h
  | .MACRO, h, _, _ => by simp [supported] at h
  | .ENVIRONMENT, h, _, _ => by simp [supported] at h
end

mutual
theorem close_links_of : ∀ (obj : Object) (b : Nat) (e : Option Nat) (t : FormToken)
    (q : Option Nat), (t, q) ∈ (tokens_of obj).zip (links_of obj b e) →
      t.kind = .CLOSE_PAREN → ∃ j, q = some j ∧ b ≤ j ∧ j < b + (tokens_of obj).length
  | .PAIR car cdr, b, e, t, q, h, hk => by
    simp only [tokens_of, links_of, List.zip_cons_cons, List.mem_cons] at h
    rw [List.zip_append (links_of_length car _ _).symm, List.mem_append] at h
    simp only [tokens_of, rest_tokens_of, List.length_cons, List.length_append]
    rcases h with h | h | h
    · simp only [Prod.mk.injEq] at h
      obtain ⟨rfl, _⟩ := h
      exact absurd hk (by decide)
    · obtain ⟨j, h1, h2, h3⟩ := close_links_of car _ _ _ _ h hk
      exact ⟨j, h1, by omega, by omega⟩
    · obtain ⟨j, h1, h2⟩ := close_rest_links_of cdr _ _ _ _ h hk
      refine ⟨j, h1, ?_, ?_⟩ <;> omega
  | .EMPTY_LIST, _, _, t, q, h, hk => by
    simp [tokens_of, links_of] at h; rw [h.1] at hk; simp at hk
  | .INTEGER _, _, _, t, q, h, hk => by
    simp [tokens_of, links_of] at h; rw [h.1] at hk; simp at hk
  | .FLOAT _, _, _, t, q, h, hk => by
    simp [tokens_of, links_of] at h; rw [h.1] at hk; simp at hk
  | .CHAR _, _, _, t, q, h, hk => by
    simp [tokens_of, links_of] at h; rw [h.1] at hk; simp at hk
  | .SYMBOL _, _, _, t, q, h, hk => by
    simp [tokens_of, links_of] at h; rw [h.1] at hk; simp at hk
  | .STRING _, _, _, t, q, h, hk => by
    simp [tokens_of, links_of] at h; rw [h.1] at hk; simp at hk
  | .ARRAY, _, _, _, _, h, _ => by simp [tokens_of] at h
  | .LAMBDA, _, _, _, _, h, _ => by simp [tokens_of] at h
  | .MACRO, _, _, _, _, h, _ => by simp [tokens_of] at h
  | .ENVIRONMENT, _, _, _, _, h, _ => by simp [tokens_of] at h
theorem close_rest_links_of : ∀ (obj : Object) (b o : Nat) (t : FormToken)
    (q : Option Nat), (t, q) ∈ (rest_tokens_of obj).zip (rest_links_of obj b o) →
      t.kind = .CLOSE_PAREN →
        ∃ j, q = some j ∧ (j = o ∨ (b ≤ j ∧ j < b + (rest_tokens_of obj).length))
  | .PAIR car cdr, b, o, t, q, h, hk => by
    simp only [rest_tokens_of, rest_links_of, List.zip_cons_cons, List.mem_cons] at h
    rw [List.zip_append (links_of_length car _ _).symm, List.mem_append] at h
    simp only [tokens_of, rest_tokens_of, List.length_cons, List.length_append]
    rcases h with h | h | h
    · simp only [Prod.mk.injEq] at h
      obtain ⟨rfl, _⟩ := h
      exact absurd hk (by decide)
    · obtain ⟨j, h1, h2, h3⟩ := close_links_of car _ _ _ _ h hk
      exact ⟨j, h1, Or.inr ⟨by omega, by omega⟩⟩
    · obtain ⟨j, h1, h2⟩ := close_rest_links_of cdr _ _ _ _ h hk
      refine ⟨j, h1, ?_⟩
      rcases h2 with h2 | h2
      · exact Or.inl h2
      · exact Or.inr ⟨by omega, by omega⟩
  | .EMPTY_LIST, _, o, t, q, h, _ => by
    simp [rest_tokens_of, rest_links_of] at h; exact ⟨o, h.2, Or.inl rfl⟩
  | .INTEGER _, _, o, t, q, h, _ => by
    have : q = some o := by
      simp [rest_tokens_of, rest_links_of] at h; rcases h with h | h | h | h | h <;> exact h.2
    exact ⟨o, this, Or.inl rfl⟩
  | .FLOAT _, _, o, t, q, h, _ => by
    have : q = some o := by
      simp [rest_tokens_of, rest_links_of] at h; rcases h with h | h | h | h | h <;> exact h.2
    exact ⟨o, this, Or.inl rfl⟩
  | .CHAR _, _, o, t, q, h, _ => by
    have : q = some o := by
      simp [rest_tokens_of, rest_links_of] at h; rcases h with h | h | h | h | h <;> exact h.2
    exact ⟨o, this, Or.inl rfl⟩
  | .SYMBOL _, _, o, t, q, h, _ => by
    have : q = some o := by
      simp [rest_tokens_of, rest_links_of] at h; rcases h with h | h | h | h | h <;> exact h.2
    exact ⟨o, this, Or.inl rfl⟩
  | .STRING _, _, o, t, q, h, _ => by
    have : q = some o := by
      simp [rest_tokens_of, rest_links_of] at h; rcases h with h | h | h | h | h <;> exact h.2
    exact ⟨o, this, Or.inl rfl⟩
  | .ARRAY, _, _, _, _, h, _ => by simp [rest_tokens_of] at h
  | .LAMBDA, _, _, _, _, h, _ => by simp [rest_tokens_of] at h
  | .MACRO, _, _, _, _, h, _ => by simp [rest_tokens_of] at h
  | .ENVIRONMENT, _, _, _, _, h, _ => by simp [rest_tokens_of] at h
end

/-- What a node of `build_linked` looks like. -/
theorem mem_build_linked (toks : List FormToken) :
    ∀ (ls : List (Option Nat)) (b : Nat) (off : Int) (n : PrettyPrinterNode),
      n ∈ build_linked b off toks ls →
        ∃ t, (t, n.paren) ∈ toks.zip ls ∧ n.tok = some t ∧ n.is_line_separator = false ∧
          n.line = 0 ∧ n.lineIndent = 0 ∧ n.specialIndentDelta = 0 ∧ b ≤ n.id ∧
          n.id < b + toks.length ∧ off ≤ n.offset ∧
          n.offset + t.toString.length ≤ off + text_width toks := by
  induction toks with
  | nil => intro ls b off n h; simp [build_linked] at h
  | cons t rest ih =>
    intro ls b off n h
    cases ls with
    | nil => simp [build_linked] at h
    | cons q qs =>
      simp only [build_linked, List.mem_cons] at h
      have hw : 0 ≤ text_width rest := by
        clear ih h
        induction rest with
        | nil => simp [text_width]
        | cons u r ihr => simp only [text_width]; omega
      rcases h with h | h
      · subst h
        refine ⟨t, by simp, rfl, rfl, rfl, rfl, rfl, Nat.le_refl _, by simp, Int.le_refl _, ?_⟩
        simp only [text_width]; omega
      · obtain ⟨u, h1, h2, h3, h4, h5, h6, h7, h8, h9, h10⟩ := ih _ _ _ _ h
        refine ⟨u, by simp [h1], h2, h3, h4, h5, h6, by omega, by simp; omega, by omega, ?_⟩
        simp only [text_width]; omega

theorem node_at_build_linked (toks : List FormToken) :
    ∀ (ls : List (Option Nat)) (b : Nat) (off : Int) (j : Nat), ls.length = toks.length →
      b ≤ j → j < b + toks.length → ∃ po, node_at (build_linked b off toks ls) j = some po := by
  induction toks with
  | nil => intro ls b off j _ h1 h2; simp at h2; omega
  | cons t rest ih =>
    intro ls b off j hl h1 h2
    cases ls with
    | nil => simp at hl
    | cons q qs =>
      simp only [List.length_cons, Nat.add_right_cancel_iff] at hl
      simp only [build_linked, node_at, List.find?_cons]
      by_cases hj : b = j
      · simp [hj]
      · have hb : (b == j) = false := by simpa using hj
        simp only [hb]
        simp only [List.length_cons] at h2
        exact ih qs (b + 1) _ j hl (by omega) (by omega)

theorem node_at_mem {s : NodeList} {j : Nat} {po : PrettyPrinterNode}
    (h : node_at s j = some po) : po ∈ s :=
  List.mem_of_find?_eq_some h

theorem set_line_self (n : PrettyPrinterNode) (h : n.line = 0) :
    ({ n with line := 0 } : PrettyPrinterNode) = n := by
  cases n; simp at h; subst h; rfl

theorem propagate_lines_step (fresh : Nat) (pre rest : NodeList) (line : Int)
    (n : PrettyPrinterNode) (t : FormToken) (hs : n.is_line_separator = false)
    (ht : n.tok = some t)
    (hc : t.kind = .CLOSE_PAREN → ∃ po,
      deref (pre ++ { n with line := line } :: rest) n.paren = .ok po ∧ po.line = line) :
    propagate_lines fresh pre line (n :: rest)
      = propagate_lines fresh (pre ++ [{ n with line := line }]) line rest := by
  rw [propagate_lines, if_neg (by simp [hs])]
  have ht1 : tok_of ({ n with line := line } : PrettyPrinterNode) = .ok t := by
    simp [tok_of, ht]
  simp only [ht1]
  by_cases hk : t.kind = .CLOSE_PAREN
  · obtain ⟨po, hd, hpl⟩ := hc hk
    simp only [hk, if_true, hd, hpl, ne_eq, not_true_eq_false, if_false]
  · simp only [hk, if_false]

/-- The first loop of `propagatePretty` changes nothing in a list without separators in
which every node is on line 0 and every close paren has a partner in the list. -/
theorem propagate_lines_flat :
    ∀ (rest : NodeList) (fresh : Nat) (pre : NodeList),
      (∀ n ∈ pre ++ rest, n.is_line_separator = false ∧ n.line = 0) →
      (∀ n ∈ rest, ∃ t, n.tok = some t ∧
        (t.kind = .CLOSE_PAREN → ∃ j po, n.paren = some j ∧ node_at (pre ++ rest) j = some po)) →
      propagate_lines fresh pre 0 rest = .ok (pre ++ rest) := by
  intro rest
  induction rest with
  | nil => intro fresh pre _ _; simp [propagate_lines]
  | cons n rest ih =>
    intro fresh pre h1 h2
    obtain ⟨hs, hl⟩ := h1 n (by simp)
    obtain ⟨t, ht, hc⟩ := h2 n (by simp)
    have e : pre ++ n :: rest = (pre ++ [n]) ++ rest := by simp
    have IH := ih fresh (pre ++ [n]) (by rw [← e]; exact h1)
      (by rw [← e]; intro m hm; exact h2 m (List.mem_cons_of_mem _ hm))
    rw [← e] at IH
    rw [propagate_lines_step fresh pre rest 0 n t hs ht, set_line_self n hl]
    · exact IH
    · intro hk
      obtain ⟨j, po, hp, hpo⟩ := hc hk
      rw [set_line_self n hl]
      exact ⟨po, by simp [deref, hp, hpo], (h1 po (node_at_mem hpo)).2⟩

theorem paren_depth_isSome_tail {d : Nat} {t : FormToken} {rest : List FormToken}
    (h : (paren_depth d (t :: rest)).isSome) :
    (t.kind = .OPEN_PAREN → (paren_depth (d + 1) rest).isSome) ∧
    (t.kind = .CLOSE_PAREN → ∃ d1, d = d1 + 1 ∧ (paren_depth d1 rest).isSome) ∧
    (t.kind ≠ .OPEN_PAREN → t.kind ≠ .CLOSE_PAREN → (paren_depth d rest).isSome) := by
  simp only [paren_depth] at h
  refine ⟨fun hk => by simpa [hk] using h, fun hk => ?_, fun h1 h2 => by simpa [h1, h2] using h⟩
  have hno : t.kind ≠ .OPEN_PAREN := by rw [hk]; decide
  simp only [hno, hk, if_true, if_false] at h
  cases d with
  | zero => simp at h
  | succ d1 => exact ⟨d1, rfl, by simpa using h⟩

/-- The second loop of `propagatePretty` changes nothing in `build_linked` nodes when it
starts at their offset, and it never finds the indent stack empty when the parens are
balanced. -/
theorem propagate_offsets_flat (w : Int) (toks : List FormToken) :
    ∀ (ls : List (Option Nat)) (b : Nat) (off : Int) (prev : Option PrettyPrinterNode)
      (st : OffsetState), ls.length = toks.length → st.offset = off →
      st.previous_line_sep = false → (paren_depth st.indentStack.length toks).isSome →
      ∃ rv, propagate_offsets w prev st (build_linked b off toks ls)
        = .ok (build_linked b off toks ls, rv) := by
  induction toks with
  | nil =>
    intro ls b off prev st _ _ _ _
    cases ls <;> exact ⟨st.rv, by simp [build_linked, propagate_offsets]⟩
  | cons t rest ih =>
    intro ls b off prev st hl ho hp hd
    cases ls with
    | nil => simp at hl
    | cons q qs =>
      simp only [List.length_cons, Nat.add_right_cancel_iff] at hl
      obtain ⟨d1, d2, d3⟩ := paren_depth_isSome_tail hd
      simp only [build_linked, propagate_offsets, Bool.false_eq_true, if_false, tok_of, hp, ho]
      by_cases hk : t.kind = .CLOSE_PAREN
      · have hno : t.kind ≠ .OPEN_PAREN := by rw [hk]; decide
        obtain ⟨dd, hdd, hsome⟩ := d2 hk
        simp only [hk, hno, if_true, if_false]
        cases hst : st.indentStack with
        | nil => rw [hst] at hdd; simp at hdd
        | cons top popped =>
          have hlen : popped.length = dd := by rw [hst] at hdd; simpa using hdd
          obtain ⟨rv, hrv⟩ := ih qs (b + 1) (off + t.toString.length) (some _)
            ⟨popped, off + t.toString.length, st.line_start, false,
              if off + ↑t.toString.length > w ∧ st.rv = none then st.line_start else st.rv⟩
            hl rfl rfl (by simpa [hlen] using hsome)
          simp only [reduceCtorEq, if_false] at hrv ⊢
          exact ⟨rv, by rw [hrv]⟩
      · simp only [hk, if_false]
        by_cases hop : t.kind = .OPEN_PAREN
        · simp only [hop, if_true]
          obtain ⟨rv, hrv⟩ := ih qs (b + 1) (off + t.toString.length) (some _)
            ⟨_ :: st.indentStack, off + t.toString.length, st.line_start, false,
              if off + ↑t.toString.length > w ∧ st.rv = none then st.line_start else st.rv⟩
            hl rfl rfl (by simpa using d1 hop)
          exact ⟨rv, by rw [hrv]⟩
        · simp only [hop, if_false]
          obtain ⟨rv, hrv⟩ := ih qs (b + 1) (off + t.toString.length) (some _)
            ⟨st.indentStack, off + t.toString.length, st.line_start, false,
              if off + ↑t.toString.length > w ∧ st.rv = none then st.line_start else st.rv⟩
            hl rfl rfl (d3 hop hk)
          exact ⟨rv, by rw [hrv]⟩

theorem getFirstBadLine_walk_none (w : Int) :
    ∀ (rest : NodeList) (cl : Int) (cln : Nat),
      (∀ n ∈ rest, n.is_line_separator = false ∧ n.offset ≤ w) →
      getFirstBadLine_walk w cl cln rest = .ok none := by
  intro rest
  induction rest with
  | nil => intro cl cln _; rfl
  | cons n rest ih =>
    intro cl cln h
    obtain ⟨hs, ho⟩ := h n (by simp)
    have hno : ¬ n.offset > w := by omega
    simp only [getFirstBadLine_walk, hs, Bool.false_eq_true, if_false, hno]
    cases rest with
    | nil => rfl
    | cons m rest1 => exact ih _ _ (fun x hx => h x (List.mem_cons_of_mem _ hx))

theorem getNextLine_walk_none (line : Int) :
    ∀ (rest : NodeList), (∀ n ∈ rest, n.line = line) → getNextLine_walk line rest = none := by
  intro rest
  induction rest with
  | nil => intro _; rfl
  | cons n rest ih =>
    intro h
    simp only [getNextLine_walk, h n (by simp), or_true, if_true]
    exact ih (fun x hx => h x (List.mem_cons_of_mem _ hx))

/-- The body of the loop of `insertSpecialBreaks` does nothing at a token that is not a
name it has a rule for. -/
theorem special_breaks_at_other (fuel : Nat) (s : NodeList) (p : Nat) (n : PrettyPrinterNode)
    (t : FormToken) (hn : node_at s p = some n) (hs : n.is_line_separator = false)
    (ht : n.tok = some t) (hk : t.kind = .STRING → t.str ∉ special_form_names) :
    special_breaks_at fuel s p = .ok s := by
  unfold special_breaks_at
  simp only [deref, hn, bind, Except.bind, hs, Bool.false_eq_true, if_false, tok_of, ht]
  by_cases hst : t.kind = .STRING
  · have := hk hst
    simp only [special_form_names, List.mem_cons, List.mem_singleton, List.not_mem_nil,
      not_or, or_false] at this
    obtain ⟨a1, a2, a3, a4, a5, a6, a7, a8, a9, a10, a11, a12, a13, a14⟩ := this
    simp [hst, a1, a2, a3, a4, a5, a6, a7, a8, a9, a10, a11, a12, a13, a14,
      control_flow_start_forms, pure, Except.pure]
  · simp [hst, pure, Except.pure]

theorem insertSpecialBreaks_loop_other (fuel : Nat) (s : NodeList) :
    ∀ (todo : List Nat),
      (∀ p ∈ todo, ∃ n t, node_at s p = some n ∧ n.is_line_separator = false ∧ n.tok = some t ∧
        (t.kind = .STRING → t.str ∉ special_form_names)) →
      insertSpecialBreaks_loop fuel s todo = .ok s := by
  intro todo
  induction todo with
  | nil => intro _; rfl
  | cons p todo ih =>
    intro h
    obtain ⟨n, t, h1, h2, h3, h4⟩ := h p (by simp)
    simp only [insertSpecialBreaks_loop, special_breaks_at_other fuel s p n t h1 h2 h3 h4]
    exact ih (fun x hx => h x (List.mem_cons_of_mem _ hx))

theorem render_false_flat :
    ∀ (s : NodeList), (∀ n ∈ s, n.is_line_separator = false ∧ ∃ t, n.tok = some t) →
      render false s = .ok (flat_text (real_tokens s)) := by
  intro s
  induction s with
  | nil => intro _; rfl
  | cons n rest ih =>
    intro h
    obtain ⟨hs, t, ht⟩ := h n (by simp)
    have IH := ih (fun x hx => h x (List.mem_cons_of_mem _ hx))
    simp only [render, hs, Bool.false_eq_true, if_false, tok_of, ht, IH]
    simp [real_tokens, List.filter_cons, hs, ht, flat_text]

theorem real_tokens_build_linked (toks : List FormToken) :
    ∀ (ls : List (Option Nat)) (b : Nat) (off : Int), ls.length = toks.length →
      real_tokens (build_linked b off toks ls) = toks := by
  induction toks with
  | nil => intro ls b off _; cases ls <;> rfl
  | cons t rest ih =>
    intro ls b off h
    cases ls with
    | nil => simp at h
    | cons q qs =>
      simp only [List.length_cons, Nat.add_right_cancel_iff] at h
      have := ih qs (b + 1) (off + t.toString.length) h
      unfold real_tokens at this ⊢
      simp [build_linked, this]

theorem text_width_eq_length (toks : List FormToken) :
    text_width toks = ((flat_text toks).length : Int) := by
  induction toks with
  | nil => rfl
  | cons t rest ih => simp [text_width, flat_text, ih, String.length_append]

theorem node_at_of_mem_ids {s : NodeList} {p : Nat} (h : p ∈ s.map (fun n => n.id)) :
    ∃ n, node_at s p = some n := by
  induction s with
  | nil => simp at h
  | cons a rest ih =>
    simp only [node_at, List.find?_cons]
    by_cases ha : a.id = p
    · simp [ha]
    · have hb : (a.id == p) = false := by simpa using ha
      simp only [hb]
      simp only [List.map_cons, List.mem_cons] at h
      rcases h with h | h
      · exact absurd h.symm ha
      · exact ih h

/-- The facts about the node list that `to_string` builds for a supported object. -/
theorem linked_nodes_facts (obj : Object) (n : PrettyPrinterNode)
    (hn : n ∈ build_linked 0 0 (tokens_of obj) (links_of obj 0 none)) :
    n.is_line_separator = false ∧ n.line = 0 ∧ n.lineIndent = 0 ∧
      ∃ t, n.tok = some t ∧ t ∈ tokens_of obj ∧
        n.offset + t.toString.length ≤ text_width (tokens_of obj) ∧
        (t.kind = .CLOSE_PAREN → ∃ j po, n.paren = some j ∧
          node_at (build_linked 0 0 (tokens_of obj) (links_of obj 0 none)) j = some po) := by
  obtain ⟨t, h1, h2, h3, h4, h5, _, _, _, _, h10⟩ := mem_build_linked _ _ _ _ _ hn
  refine ⟨h3, h4, h5, t, h2, (List.of_mem_zip h1).1, by simpa using h10, fun hk => ?_⟩
  obtain ⟨j, hj, _, hlt⟩ := close_links_of obj 0 none t n.paren h1 hk
  obtain ⟨po, hpo⟩ := node_at_build_linked (tokens_of obj) (links_of obj 0 none) 0 0 j
    (links_of_length _ _ _) (Nat.zero_le _) hlt
  exact ⟨j, po, hj, hpo⟩

theorem getFirstBadLine_none (s : NodeList) (w : Int) (n : PrettyPrinterNode)
    (rest : NodeList) (hs : s = n :: rest)
    (h : ∀ m ∈ s, m.is_line_separator = false ∧ m.offset ≤ w) :
    getFirstBadLine s (some n.id) w = .ok none := by
  subst hs
  have hn := (h n (by simp)).1
  simp only [getFirstBadLine, deref, node_at, List.find?_cons, beq_self_eq_true, bind,
    Except.bind, assert, hn, Bool.not_false, if_true, nodes_from]
  exact getFirstBadLine_walk_none w _ _ _ h

theorem getNextLine_none (s : NodeList) (n : PrettyPrinterNode)
    (rest : NodeList) (hs : s = n :: rest)
    (h : ∀ m ∈ s, m.is_line_separator = false ∧ m.line = 0) :
    getNextLine s (some n.id) = .ok none := by
  subst hs
  obtain ⟨hn, hl⟩ := h n (by simp)
  simp only [getNextLine, deref, node_at, List.find?_cons, beq_self_eq_true, bind,
    Except.bind, assert, hn, Bool.not_false, if_true, nodes_from, pure, Except.pure, hl]
  rw [getNextLine_walk_none 0 _ (fun m hm => (h m hm).2)]

/-- C3 (the flat rendering is returned when it fits): for every object whose tokens hold
no name with a special-form rule, and every width that is at least the length of the flat
rendering of its tokens, `to_string` returns exactly the flat rendering. -/
theorem flat_rendering_when_it_fits (obj : Object) (w : Int) (toks : List FormToken)
    (h1 : add_to_token_list obj [] = .ok toks) (h2 : no_special_form toks)
    (h3 : ((flat_text toks).length : Int) ≤ w) :
    to_string obj w = .ok (flat_text toks) := by
  obtain ⟨e, hs⟩ := add_to_token_list_spec _ _ _ h1
  simp only [List.nil_append] at e
  subst e
  obtain ⟨t0, rest0, hT, hws⟩ := tokens_of_head hs
  have F := linked_nodes_facts obj
  have hlen := links_of_length obj 0 none
  have hreal := real_tokens_build_linked (tokens_of obj) (links_of obj 0 none) 0 0 hlen
  have hdepth : (paren_depth 1 (tokens_of obj)).isSome := by
    have := paren_depth_tokens obj hs 1 []
    simp only [List.append_nil] at this
    rw [this]; rfl
  obtain ⟨rv0, hoff⟩ := propagate_offsets_flat w (tokens_of obj) (links_of obj 0 none) 0 0 none
    { line_start := some 0 } hlen rfl rfl hdepth
  have hw := text_width_eq_length (tokens_of obj)
  generalize hL : links_of obj 0 none = L at *
  generalize hS : build_linked 0 0 (tokens_of obj) L = s1 at *
  -- the list starts with the node of the first token
  obtain ⟨n0, r0, hs1, hid, htok, hind⟩ :
      ∃ n0 r0, s1 = n0 :: r0 ∧ n0.id = 0 ∧ n0.tok = some t0 ∧ n0.lineIndent = 0 := by
    rw [← hS, hT]
    rw [hT] at hlen
    cases L with
    | nil => simp at hlen
    | cons q qs => exact ⟨_, _, rfl, rfl, rfl, rfl⟩
  have hsep : ∀ m ∈ s1, m.is_line_separator = false ∧ m.line = 0 :=
    fun m hm => ⟨(F m hm).1, (F m hm).2.1⟩
  have hoffs : ∀ m ∈ s1, m.is_line_separator = false ∧ m.offset ≤ w := by
    intro m hm
    obtain ⟨a, _, _, t, _, _, hle, _⟩ := F m hm
    refine ⟨a, ?_⟩
    have : (0 : Int) ≤ t.toString.length := Int.natCast_nonneg _
    omega
  -- the special-form pass
  have hspecial : insertSpecialBreaks (loop_fuel (tokens_of obj)) s1 (some 0) = .ok s1 := by
    have hfrom : nodes_from s1 0 = s1 := by rw [hs1]; simp [nodes_from, hid]
    simp only [insertSpecialBreaks, hfrom]
    apply insertSpecialBreaks_loop_other
    intro p hp
    obtain ⟨n, hn⟩ := node_at_of_mem_ids hp
    obtain ⟨a, _, _, t, ht, hmem, _, _⟩ := F n (node_at_mem hn)
    exact ⟨n, t, hn, a, ht, h2 t hmem⟩
  -- propagation
  have hprop : propagatePretty s1 (some 0) w = .ok (s1, rv0) := by
    have hfrom : nodes_from s1 0 = s1 := by rw [hs1]; simp [nodes_from, hid]
    have hbefore : nodes_before s1 0 = [] := by rw [hs1]; simp [nodes_before, hid]
    have hderef : deref s1 (some 0) = .ok n0 := by
      rw [hs1]; simp [deref, node_at, hid]
    have hl0 : n0.line = 0 := (hsep n0 (by rw [hs1]; simp)).2
    have hlines : propagate_lines s1.length [] 0 s1 = .ok s1 := by
      have := propagate_lines_flat s1 s1.length [] (by simpa using hsep)
        (by
          intro m hm
          obtain ⟨_, _, _, t, ht, _, _, hc⟩ := F m hm
          exact ⟨t, ht, by simpa using hc⟩)
      simpa using this
    simp only [propagatePretty, hderef, bind, Except.bind, hid, hbefore, hfrom, hl0, hlines,
      List.getLast?_nil, hoff, pure, Except.pure, List.nil_append]
  have hcand : find_candidate_line s1 none (some 0) w = .ok none := by
    have a1 := getFirstBadLine_none s1 w n0 r0 hs1 hoffs
    have a2 := getNextLine_none s1 n0 r0 hs1 hsep
    rw [hid] at a1 a2
    simp [find_candidate_line, a1, a2, bind, Except.bind, pure, Except.pure]
  have hbreaks : insertBreaksAsNeeded (loop_fuel (tokens_of obj)) (loop_fuel (tokens_of obj))
      s1 (some 0) w = .ok s1 := by
    simp [insertBreaksAsNeeded, loop_fuel, insertBreaks_loop, hprop, hcand, bind, Except.bind,
      pure, Except.pure]
  have hrender : render true s1 = .ok (flat_text (tokens_of obj)) := by
    have hall : ∀ m ∈ r0, m.is_line_separator = false ∧ ∃ t, m.tok = some t := by
      intro m hm
      obtain ⟨a, _, _, t, ht, _⟩ := F m (by rw [hs1]; exact List.mem_cons_of_mem _ hm)
      exact ⟨a, t, ht⟩
    have hr := render_false_flat r0 hall
    have hn0 := (hsep n0 (by rw [hs1]; simp)).1
    rw [← hreal, hs1]
    simp only [render, hn0, Bool.false_eq_true, if_false, tok_of, htok, if_true, hind,
      lt_self_iff_false, hr, hws, Int.toNat_zero, List.replicate_zero]
    simp [real_tokens, List.filter_cons, hn0, htok, flat_text]
  have hne : (tokens_of obj).isEmpty = false := by rw [hT]; rfl
  have hattach := attach_parens_spec hs
  rw [hL, hS] at hattach
  simp [to_string, h1, hne, assert, hattach, hspecial, hprop, hbreaks, hrender, bind,
    Except.bind]

/-- Witness for C3: the list `(foo 1 2)` at width 80 gives `(foo 1 2)`. -/
theorem flat_rendering_when_it_fits_witness :
    flat_text [⟨.OPEN_PAREN, ""⟩, ⟨.STRING, "foo"⟩, ⟨.WHITESPACE, ""⟩, ⟨.STRING, "1"⟩,
        ⟨.WHITESPACE, ""⟩, ⟨.STRING, "2"⟩, ⟨.CLOSE_PAREN, ""⟩] = "(foo 1 2)" ∧
      to_string (build_list [.SYMBOL "foo", .INTEGER "1", .INTEGER "2"]) 80
        = .ok (flat_text [⟨.OPEN_PAREN, ""⟩, ⟨.STRING, "foo"⟩, ⟨.WHITESPACE, ""⟩,
            ⟨.STRING, "1"⟩, ⟨.WHITESPACE, ""⟩, ⟨.STRING, "2"⟩, ⟨.CLOSE_PAREN, ""⟩]) :=
  ⟨by rfl, flat_rendering_when_it_fits _ 80
    [⟨.OPEN_PAREN, ""⟩, ⟨.STRING, "foo"⟩, ⟨.WHITESPACE, ""⟩, ⟨.STRING, "1"⟩,
      ⟨.WHITESPACE, ""⟩, ⟨.STRING, "2"⟩, ⟨.CLOSE_PAREN, ""⟩] (by rfl) (by
      intro t ht _
      simp only [List.mem_cons, List.mem_singleton, List.not_mem_nil, or_false] at ht
      rcases ht with h | h | h | h | h | h | h <;> subst h <;> decide) (by decide)⟩

theorem halts_ok {α : Type} (a : α) : Halts (Except.ok a : Except Err α) :=
  ⟨by simp, by simp⟩

theorem halts_pure {α : Type} (a : α) : Halts (pure a : Except Err α) := halts_ok a

theorem halts_bind {α β : Type} {x : Except Err α} {f : α → Except Err β}
    (h1 : Halts x) (h2 : ∀ a, x = .ok a → Halts (f a)) : Halts (x >>= f) := by
  cases x with
  | error e =>
    simp only [bind, Except.bind]
    exact ⟨fun h => h1.1 (by simpa using h), fun h => h1.2 (by simpa using h)⟩
  | ok a => exact h2 a rfl

theorem halts_null {α : Type} : Halts (Except.error .null_dereference : Except Err α) :=
  ⟨by simp, by simp⟩

theorem halts_assertion {α : Type} :
    Halts (Except.error .assertion_failure : Except Err α) := ⟨by simp, by simp⟩

theorem halts_deref (s : NodeList) (p : Option Nat) : Halts (deref s p) := by
  unfold deref
  repeat' split
  all_goals first | exact halts_null | exact halts_ok _

theorem halts_tok_of (n : PrettyPrinterNode) : Halts (tok_of n) := by
  unfold tok_of
  split
  · exact halts_null
  · exact halts_ok _

theorem halts_assert (c : Bool) : Halts (assert c) := by
  unfold assert
  split
  · exact halts_ok _
  · exact halts_assertion

theorem halts_of_eq_error {α β : Type} {x : Except Err α} {e : Err} (h : Halts x)
    (he : x = .error e) : Halts (Except.error e : Except Err β) := by
  rw [he] at h
  exact ⟨fun h1 => h.1 (by simpa using h1), fun h1 => h.2 (by simpa using h1)⟩

theorem halts_insertNewlineAfter_ptr (s : NodeList) (p : Option Nat) (d : Int) :
    Halts (insertNewlineAfter_ptr s p d) := by
  unfold insertNewlineAfter_ptr
  split
  · next e he => exact halts_of_eq_error (halts_deref s p) he
  · exact halts_ok _

theorem halts_breakList_entry (s : NodeList) (p : Option Nat) : Halts (breakList_entry s p) := by
  unfold breakList_entry
  refine halts_bind (halts_deref _ _) fun lp _ => ?_
  refine halts_bind (halts_assert _) fun _ _ => ?_
  refine halts_bind (halts_tok_of _) fun lt _ => ?_
  refine halts_bind (halts_assert _) fun _ _ => ?_
  refine halts_bind (halts_deref _ _) fun rn _ => ?_
  refine halts_bind (halts_tok_of _) fun rt _ => ?_
  refine halts_bind (halts_assert _) fun _ _ => ?_
  exact halts_pure _

theorem halts_propagate_lines :
    ∀ (rest : NodeList) (fresh : Nat) (pre : NodeList) (line : Int),
      Halts (propagate_lines fresh pre line rest) := by
  intro rest
  induction rest with
  | nil => intro fresh pre line; exact halts_ok _
  | cons n rest ih =>
    intro fresh pre line
    simp only [propagate_lines]
    repeat' split
    all_goals first
      | exact ih _ _ _
      | exact halts_ok _
      | exact halts_of_eq_error (halts_tok_of _) (by assumption)
      | exact halts_of_eq_error (halts_deref _ _) (by assumption)

theorem halts_propagate_offsets (w : Int) :
    ∀ (rest : NodeList) (prev : Option PrettyPrinterNode) (st : OffsetState),
      Halts (propagate_offsets w prev st rest) := by
  intro rest
  induction rest with
  | nil => intro prev st; exact halts_ok _
  | cons n rest ih =>
    intro prev st
    simp only [propagate_offsets]
    repeat' split
    all_goals first
      | exact halts_ok _
      | exact halts_null
      | exact halts_of_eq_error (halts_tok_of _) (by assumption)
      | exact halts_of_eq_error (ih _ _) (by assumption)

theorem halts_propagatePretty (s : NodeList) (list : Option Nat) (w : Int) :
    Halts (propagatePretty s list w) := by
  unfold propagatePretty
  refine halts_bind (halts_deref _ _) fun l _ => ?_
  refine halts_bind (halts_propagate_lines _ _ _ _) fun s1 _ => ?_
  refine halts_bind (halts_propagate_offsets _ _ _ _) fun r _ => ?_
  exact halts_pure _

theorem halts_scan_line (kinds : List TokenKind) (line : Int) :
    ∀ (rest : NodeList), Halts (scan_line kinds line rest) := by
  intro rest
  induction rest with
  | nil => exact halts_ok _
  | cons n rest ih =>
    simp only [scan_line]
    repeat' split
    all_goals first
      | exact ih
      | exact halts_ok _
      | exact halts_of_eq_error (halts_tok_of _) (by assumption)

theorem halts_scan_next_on_line (kinds : List TokenKind) (s : NodeList) (start : Option Nat) :
    Halts (scan_next_on_line kinds s start) := by
  unfold scan_next_on_line
  refine halts_bind (halts_deref _ _) fun st _ => ?_
  refine halts_bind (halts_assert _) fun _ _ => ?_
  repeat' split
  all_goals first
    | exact halts_pure _
    | exact halts_scan_line _ _ _

theorem halts_getFirstListOnLine (s : NodeList) (start : Option Nat) :
    Halts (getFirstListOnLine s start) := by
  unfold getFirstListOnLine
  refine halts_bind (halts_deref _ _) fun st _ => ?_
  refine halts_bind (halts_assert _) fun _ _ => ?_
  exact halts_scan_line _ _ _

theorem halts_getNextLine (s : NodeList) (start : Option Nat) : Halts (getNextLine s start) := by
  unfold getNextLine
  refine halts_bind (halts_deref _ _) fun st _ => ?_
  refine halts_bind (halts_assert _) fun _ _ => ?_
  exact halts_pure _

theorem halts_getFirstBadLine_walk (w : Int) :
    ∀ (rest : NodeList) (cl : Int) (cln : Nat), Halts (getFirstBadLine_walk w cl cln rest) := by
  intro rest
  induction rest with
  | nil => intro cl cln; exact halts_ok _
  | cons n rest ih =>
    intro cl cln
    simp only [getFirstBadLine_walk]
    repeat' split
    all_goals first
      | exact ih _ _
      | exact halts_ok _
      | exact halts_assertion

theorem halts_getFirstBadLine (s : NodeList) (start : Option Nat) (w : Int) :
    Halts (getFirstBadLine s start w) := by
  unfold getFirstBadLine
  refine halts_bind (halts_deref _ _) fun st _ => ?_
  refine halts_bind (halts_assert _) fun _ _ => ?_
  exact halts_getFirstBadLine_walk _ _ _ _

theorem halts_find_candidate_line (s : NodeList) (last start : Option Nat) (w : Int) :
    Halts (find_candidate_line s last start w) := by
  unfold find_candidate_line
  refine halts_bind (halts_getFirstBadLine _ _ _) fun found _ => ?_
  split
  · refine halts_bind (halts_getNextLine _ _) fun nl _ => ?_
    split
    · exact halts_pure _
    · exact halts_getFirstBadLine _ _ _
  · exact halts_pure _

theorem Refines.real_ids {k : Nat} {s s1 : NodeList} (h : Refines k s s1) :
    real_ids s1 = real_ids s := by
  induction h with
  | nil => rfl
  | @keep n n1 s s1 hc _ ih =>
    obtain ⟨h1, _, h3, _, _⟩ := hc
    unfold pretty_print.real_ids at ih ⊢
    simp only [List.filter_cons, h3]
    split
    · simp only [List.map_cons, h1, ih]
    · exact ih
  | @ins b s s1 hb _ _ ih =>
    unfold pretty_print.real_ids at ih ⊢
    simp [List.filter_cons, hb.1, ih]

theorem Refines.separators_above {k T : Nat} {s s1 : NodeList} (h : Refines k s s1)
    (hk : T ≤ k) (hs : separators_above T s) : separators_above T s1 := by
  induction h with
  | nil => exact hs
  | @keep n n1 s s1 hc _ ih =>
    intro m hm hsep
    rcases List.mem_cons.1 hm with h | h
    · subst h
      rw [hc.1, hc.2.1]
      exact hs n (by simp) (by rw [← hc.2.2.1]; exact hsep)
    · exact ih (fun x hx => hs x (List.mem_cons_of_mem _ hx)) m h hsep
  | @ins b s s1 hb0 hb _ ih =>
    intro m hm hsep
    rcases List.mem_cons.1 hm with h | h
    · subst h; exact ⟨by omega, hb0.2⟩
    · exact ih hs m h hsep

theorem Refines.links_forward {k T : Nat} {s s1 : NodeList} (h : Refines k s s1)
    (hs : links_forward T s) : links_forward T s1 := by
  induction h with
  | nil => exact hs
  | @keep n n1 s s1 hc _ ih =>
    intro m hm hsep t ht hk
    rcases List.mem_cons.1 hm with h | h
    · subst h
      obtain ⟨c1, c2, c3, c4, _⟩ := hc
      rw [c1, c4]
      exact hs n (by simp) (by rw [← c3]; exact hsep) t (by rw [← c2]; exact ht) hk
    · exact ih (fun x hx => hs x (List.mem_cons_of_mem _ hx)) m h hsep t ht hk
  | @ins b s s1 hb _ _ ih =>
    intro m hm hsep t ht hk
    rcases List.mem_cons.1 hm with h | h
    · subst h; rw [hb.1] at hsep; simp at hsep
    · exact ih hs m h hsep t ht hk

theorem real_ids_length_le (s : NodeList) : (real_ids s).length ≤ s.length := by
  unfold real_ids
  rw [List.length_map]
  exact List.length_filter_le _ _

theorem Evolves.well_numbered {T : Nat} {s s1 : NodeList} (h : Evolves s s1)
    (hw : well_numbered T s) : well_numbered T s1 := by
  obtain ⟨h1, h2, h3⟩ := hw
  have hT : T ≤ s.length := by
    have := real_ids_length_le s
    rw [h1, List.length_range] at this
    exact this
  exact ⟨by rw [h.1.real_ids, h1], h.1.separators_above hT h2, h.1.links_forward h3⟩

theorem numbered_from_cons {T a : Nat} {n : PrettyPrinterNode} {rest : NodeList}
    (h : numbered_from T a (n :: rest)) :
    (n.is_line_separator = true → numbered_from T a rest) ∧
    (n.is_line_separator = false → n.id = a ∧ a < T ∧ numbered_from T (a + 1) rest) := by
  obtain ⟨h1, h2⟩ := h
  unfold real_ids at h1
  constructor
  · intro hs
    simp only [List.filter_cons, hs, Bool.not_true, Bool.false_eq_true, if_false] at h1
    exact ⟨h1, h2⟩
  · intro hs
    simp only [List.filter_cons, hs, Bool.not_false, if_true, List.map_cons] at h1
    have hpos : T - a ≠ 0 := by
      intro h0
      rw [h0] at h1
      simp at h1
    obtain ⟨m, hm⟩ := Nat.exists_eq_succ_of_ne_zero hpos
    rw [hm, List.range'_succ] at h1
    simp only [List.cons.injEq] at h1
    refine ⟨h1.1, by omega, ?_, by omega⟩
    have : T - (a + 1) = m := by omega
    unfold real_ids
    rw [this]
    exact h1.2

theorem well_numbered_numbered_from {T : Nat} {s : NodeList} (h : well_numbered T s) :
    numbered_from T 0 s := by
  refine ⟨?_, Nat.zero_le _⟩
  rw [h.1, List.range_eq_range']
  simp

theorem mem_nodes_from {s : NodeList} {c : Nat} {m : PrettyPrinterNode}
    (h : m ∈ nodes_from s c) : m ∈ s := by
  induction s with
  | nil => simp [nodes_from] at h
  | cons a rest ih =>
    simp only [nodes_from] at h
    split at h
    · exact h
    · exact List.mem_cons_of_mem _ (ih h)

theorem mem_nodes_after {s : NodeList} {c : Nat} {m : PrettyPrinterNode}
    (h : m ∈ nodes_after s c) : m ∈ s :=
  mem_nodes_from (List.mem_of_mem_tail h)

/-- From a token on, the token nodes are numbered in sequence. -/
theorem numbered_from_nodes_from {T : Nat} :
    ∀ (s : NodeList) (a c : Nat), numbered_from T a s → separators_above T s → a ≤ c → c < T →
      numbered_from T c (nodes_from s c) ∧
        ∃ n, node_at s c = some n ∧ n.is_line_separator = false := by
  intro s
  induction s with
  | nil =>
    intro a c h _ h1 h2
    obtain ⟨h3, _⟩ := h
    simp only [real_ids, List.filter_nil, List.map_nil] at h3
    have : T - a ≠ 0 := by omega
    obtain ⟨m, hm⟩ := Nat.exists_eq_succ_of_ne_zero this
    rw [hm, List.range'_succ] at h3
    simp at h3
  | cons x rest ih =>
    intro a c h hs h1 h2
    obtain ⟨f1, f2⟩ := numbered_from_cons h
    have hs1 : separators_above T rest := fun m hm => hs m (List.mem_cons_of_mem _ hm)
    cases hx : x.is_line_separator with
    | true =>
      have hge := (hs x (by simp) hx).1
      have hne : x.id ≠ c := by omega
      have hb : (x.id == c) = false := by simpa using hne
      simp only [nodes_from, hne, if_false, node_at, List.find?_cons, hb]
      exact ih a c (f1 hx) hs1 h1 h2
    | false =>
      obtain ⟨g1, g2, g3⟩ := f2 hx
      by_cases hc : x.id = c
      · simp only [nodes_from, hc, if_true, node_at, List.find?_cons, beq_self_eq_true]
        refine ⟨?_, x, rfl, hx⟩
        rw [← hc, g1]
        exact h
      · have hb : (x.id == c) = false := by simpa using hc
        simp only [nodes_from, hc, if_false, node_at, List.find?_cons, hb]
        exact ih (a + 1) c g3 hs1 (by omega) h2

/-- In a numbered list, the token nodes after a token all have larger addresses, below
`T`, and every such address occurs. -/
theorem numbered_from_mem {T a : Nat} :
    ∀ (s : NodeList), numbered_from T a s →
      (∀ m ∈ s, m.is_line_separator = false → a ≤ m.id ∧ m.id < T) ∧
      (∀ c, a ≤ c → c < T → c ∈ real_ids s) := by
  intro s h
  obtain ⟨h1, h2⟩ := h
  constructor
  · intro m hm hsep
    have : m.id ∈ real_ids s := by
      unfold real_ids
      exact List.mem_map.2 ⟨m, List.mem_filter.2 ⟨hm, by simp [hsep]⟩, rfl⟩
    rw [h1, List.mem_range'_1] at this
    omega
  · intro c hc1 hc2
    rw [h1, List.mem_range'_1]
    omega

theorem mem_real_ids_cons {n : PrettyPrinterNode} {rest : NodeList} {c : Nat}
    (h : c ∈ real_ids (n :: rest)) (hne : n.id ≠ c) : c ∈ real_ids rest := by
  unfold real_ids at h ⊢
  simp only [List.filter_cons] at h
  split at h
  · simp only [List.map_cons, List.mem_cons] at h
    rcases h with h | h
    · exact absurd h.symm hne
    · exact h
  · exact h

/-- The walk of `breakList` over a numbered list with links that point ahead always finds
the close paren it jumps to. -/
theorem halts_breakList_walk {T : Nat} (s0 : NodeList) (rp first_elt : Option Nat) :
    ∀ (rest : NodeList) (fresh : Nat) (breaking : Bool) (jump : Option Nat) (a : Nat),
      numbered_from T a rest → links_forward T rest →
      (∀ target, jump = some target → target ∈ real_ids rest) →
      Halts (breakList_walk s0 rp first_elt fresh breaking jump rest) := by
  intro rest
  induction rest with
  | nil =>
    intro fresh breaking jump a _ _ hj
    cases jump with
    | none => exact halts_ok _
    | some target => have := hj target rfl; simp [real_ids] at this
  | cons n rest ih =>
    intro fresh breaking jump a hn hl hj
    obtain ⟨f1, f2⟩ := numbered_from_cons hn
    have hl1 : links_forward T rest := fun m hm => hl m (List.mem_cons_of_mem _ hm)
    -- the walk goes on over the rest without a pending jump
    have next : ∀ (fr : Nat) (br : Bool),
        Halts (breakList_walk s0 rp first_elt fr br none rest) := by
      intro fr br
      cases hsep : n.is_line_separator with
      | true => exact ih fr br none a (f1 hsep) hl1 (by simp)
      | false => exact ih fr br none (a + 1) (f2 hsep).2.2 hl1 (by simp)
    cases jump with
    | some target =>
      simp only [breakList_walk]
      split
      · repeat' split
        all_goals first
          | exact halts_ok _
          | exact halts_of_eq_error (next _ _) (by assumption)
      · next hne =>
        have hmem := mem_real_ids_cons (hj target rfl) hne
        have hrec : ∀ (fr : Nat) (br : Bool),
            Halts (breakList_walk s0 rp first_elt fr br (some target) rest) := by
          intro fr br
          cases hsep : n.is_line_separator with
          | true =>
            exact ih _ _ _ a (f1 hsep) hl1 (by intro t ht; simp at ht; subst ht; exact hmem)
          | false =>
            exact ih _ _ _ (a + 1) (f2 hsep).2.2 hl1
              (by intro t ht; simp at ht; subst ht; exact hmem)
        split <;> first | exact halts_ok _ | exact halts_of_eq_error (hrec _ _) (by assumption)
    | none =>
      simp only [breakList_walk]
      split
      · exact halts_ok _
      · split
        · split <;> first | exact halts_ok _ | exact halts_of_eq_error (next _ _) (by assumption)
        · next hsep =>
          have hsep1 : n.is_line_separator = false := by simpa using hsep
          obtain ⟨g1, g2, g3⟩ := f2 hsep1
          split
          · next e he => exact halts_of_eq_error (halts_tok_of _) he
          · next t ht =>
            have htok : n.tok = some t := by
              unfold tok_of at ht
              split at ht
              · simp at ht
              · next u hu => simp at ht; rw [hu, ht]
            split
            · next hopen =>
              split
              · next e he => exact halts_of_eq_error (halts_deref _ _) he
              · next cl hcl =>
                split
                · next e he => exact halts_of_eq_error (halts_tok_of _) he
                · split
                  · obtain ⟨c, hc1, hc2, hc3⟩ := hl n (by simp) hsep1 t htok hopen
                    obtain ⟨i, hi1, hi2⟩ := deref_ok hcl
                    have hid : cl.id = c := by
                      rw [hc1] at hi1
                      simp at hi1
                      rw [node_at_id hi2, hi1]
                    have hrec : ∀ (fr : Nat) (br : Bool),
                        Halts (breakList_walk s0 rp first_elt fr br (some cl.id) rest) := by
                      intro fr br
                      refine ih _ _ _ (a + 1) g3 hl1 ?_
                      intro tg htg
                      simp at htg
                      subst htg
                      rw [hid]
                      exact (numbered_from_mem rest g3).2 c (by omega) hc3
                    split <;> first
                      | exact halts_ok _
                      | exact halts_of_eq_error (hrec _ _) (by assumption)
                  · exact halts_assertion
            · repeat' split
              all_goals first
                | exact halts_ok _
                | exact halts_assertion
                | exact halts_of_eq_error (next _ _) (by assumption)

theorem well_numbered_after {T : Nat} {s : NodeList} {c : Nat} {n : PrettyPrinterNode}
    (h : well_numbered T s) (hn : node_at s c = some n) (hs : n.is_line_separator = false) :
    c < T ∧ numbered_from T (c + 1) (nodes_after s c) ∧ links_forward T (nodes_after s c) := by
  have hmem := node_at_mem hn
  have hid := node_at_id hn
  have hlt : c < T := by
    have := ((numbered_from_mem s (well_numbered_numbered_from h)).1 n hmem hs).2
    omega
  obtain ⟨h1, _⟩ := numbered_from_nodes_from s 0 c (well_numbered_numbered_from h) h.2.1
    (Nat.zero_le _) hlt
  rw [nodes_from_of_node_at hn] at h1
  refine ⟨hlt, ((numbered_from_cons h1).2 hs).2.2, ?_⟩
  intro m hm
  exact h.2.2 m (mem_nodes_after hm)

theorem halts_breakList {T : Nat} {s : NodeList} (h : well_numbered T s) (p : Option Nat) :
    Halts (breakList s p) := by
  unfold breakList
  refine halts_bind (halts_breakList_entry _ _) fun lp hlp => ?_
  obtain ⟨i, _, hi⟩ := breakList_entry_ok hlp
  have hsep : lp.is_line_separator = false := by
    unfold breakList_entry at hlp
    obtain ⟨a, h1, h2⟩ := bind_eq_ok hlp
    obtain ⟨_, h3, h4⟩ := bind_eq_ok h2
    obtain ⟨_, _, h5⟩ := bind_eq_ok h4
    obtain ⟨_, _, h6⟩ := bind_eq_ok h5
    obtain ⟨_, _, h7⟩ := bind_eq_ok h6
    obtain ⟨_, _, h8⟩ := bind_eq_ok h7
    obtain ⟨_, _, h9⟩ := bind_eq_ok h8
    simp [pure, Except.pure] at h9
    subst h9
    simpa using assert_eq_ok h3
  have hid := node_at_id hi
  rw [← hid] at hi
  obtain ⟨_, h2, h3⟩ := well_numbered_after h hi hsep
  refine halts_bind (halts_breakList_walk _ _ _ _ _ _ _ _ h2 h3 (by simp)) fun r _ => ?_
  exact halts_pure _

theorem halts_breakList_from {T : Nat} {s : NodeList} (h : well_numbered T s)
    (p q : Option Nat) : Halts (breakList_from s p q) := by
  unfold breakList_from
  refine halts_bind (halts_breakList_entry _ _) fun lp hlp => ?_
  obtain ⟨i, _, hi⟩ := breakList_entry_ok hlp
  have hsep : lp.is_line_separator = false := by
    unfold breakList_entry at hlp
    obtain ⟨a, h1, h2⟩ := bind_eq_ok hlp
    obtain ⟨_, h3, h4⟩ := bind_eq_ok h2
    obtain ⟨_, _, h5⟩ := bind_eq_ok h4
    obtain ⟨_, _, h6⟩ := bind_eq_ok h5
    obtain ⟨_, _, h7⟩ := bind_eq_ok h6
    obtain ⟨_, _, h8⟩ := bind_eq_ok h7
    obtain ⟨_, _, h9⟩ := bind_eq_ok h8
    simp [pure, Except.pure] at h9
    subst h9
    simpa using assert_eq_ok h3
  have hid := node_at_id hi
  rw [← hid] at hi
  obtain ⟨_, h2, h3⟩ := well_numbered_after h hi hsep
  refine halts_bind (halts_breakList_walk _ _ _ _ _ _ _ _ h2 h3 (by simp)) fun r _ => ?_
  exact halts_pure _

theorem getFirstBadLine_walk_some (w : Int) :
    ∀ (rest : NodeList) (cl : Int) (cln c : Nat),
      getFirstBadLine_walk w cl cln rest = .ok (some c) →
        c = cln ∨ ∃ m ∈ rest, m.is_line_separator = false ∧ m.id = c := by
  intro rest
  induction rest with
  | nil => intro cl cln c h; simp [getFirstBadLine_walk] at h
  | cons n rest ih =>
    intro cl cln c h
    simp only [getFirstBadLine_walk] at h
    split at h
    · split at h
      · simp at h
      · rcases ih _ _ _ h with h1 | ⟨m, hm, h2⟩
        · exact Or.inl h1
        · exact Or.inr ⟨m, List.mem_cons_of_mem _ hm, h2⟩
    · next hsep =>
      have hsep1 : n.is_line_separator = false := by simpa using hsep
      split at h
      · simp only [Except.ok.injEq, Option.some.injEq] at h
        split at h
        · exact Or.inr ⟨n, by simp, hsep1, h⟩
        · exact Or.inl h.symm
      · split at h
        · simp at h
        · rcases ih _ _ _ h with h1 | ⟨m, hm, h2⟩
          · split at h1
            · exact Or.inr ⟨n, by simp, hsep1, h1.symm⟩
            · exact Or.inl h1
          · exact Or.inr ⟨m, List.mem_cons_of_mem _ hm, h2⟩

theorem getNextLine_walk_some (line : Int) :
    ∀ (rest : NodeList) (c : Nat), getNextLine_walk line rest = some c →
      ∃ m ∈ rest, m.is_line_separator = false ∧ m.line ≠ line ∧ m.id = c := by
  intro rest
  induction rest with
  | nil => intro c h; simp [getNextLine_walk] at h
  | cons n rest ih =>
    intro c h
    simp only [getNextLine_walk] at h
    split at h
    · obtain ⟨m, hm, h2⟩ := ih _ h
      exact ⟨m, List.mem_cons_of_mem _ hm, h2⟩
    · next hno =>
      simp only [not_or] at hno
      simp only [Option.some.injEq] at h
      exact ⟨n, by simp, by simpa using hno.1, hno.2, h⟩

theorem scan_line_some (kinds : List TokenKind) (line : Int) :
    ∀ (rest : NodeList) (c : Nat), scan_line kinds line rest = .ok (some c) →
      ∃ m ∈ rest, m.is_line_separator = false ∧ m.id = c ∧
        ∃ t, m.tok = some t ∧ t.kind ∈ kinds := by
  intro rest
  induction rest with
  | nil => intro c h; simp [scan_line] at h
  | cons n rest ih =>
    intro c h
    simp only [scan_line] at h
    split at h
    · next hc =>
      split at h
      · simp at h
      · next t ht =>
        have htok : n.tok = some t := by
          unfold tok_of at ht
          split at ht
          · simp at ht
          · next u hu => simp at ht; rw [hu, ht]
        split at h
        · next hk =>
          simp only [Except.ok.injEq, Option.some.injEq] at h
          exact ⟨n, by simp, by simpa using hc.1, h, t, htok, hk⟩
        · obtain ⟨m, hm, h2⟩ := ih _ h
          exact ⟨m, List.mem_cons_of_mem _ hm, h2⟩
    · simp at h

/-- The start of a search is a token of the list, and the tokens after it have larger
addresses. -/
theorem search_start {T : Nat} {s : NodeList} {p : Option Nat} {st : PrettyPrinterNode}
    (hw : well_numbered T s) (h1 : deref s p = .ok st) (h2 : st.is_line_separator = false) :
    p = some st.id ∧ st.id < T ∧ nodes_from s st.id = st :: nodes_after s st.id ∧
      ∀ m ∈ nodes_after s st.id, m.is_line_separator = false → st.id < m.id ∧ m.id < T := by
  obtain ⟨i, hi1, hi2⟩ := deref_ok h1
  have hid := node_at_id hi2
  rw [← hid] at hi2
  obtain ⟨a, b, _⟩ := well_numbered_after hw hi2 h2
  refine ⟨by rw [hi1, hid], a, nodes_from_of_node_at hi2, fun m hm hsep => ?_⟩
  have := (numbered_from_mem _ b).1 m hm hsep
  omega

theorem getFirstBadLine_bound {T : Nat} {s : NodeList} {p : Option Nat} {w : Int} {c : Nat}
    (hw : well_numbered T s) (h : getFirstBadLine s p w = .ok (some c)) :
    ∃ st, p = some st ∧ st ≤ c ∧ c < T := by
  unfold getFirstBadLine at h
  obtain ⟨st, h1, h⟩ := bind_eq_ok h
  obtain ⟨_, h2, h⟩ := bind_eq_ok h
  have hsep : st.is_line_separator = false := by simpa using assert_eq_ok h2
  obtain ⟨e1, e2, e3, e4⟩ := search_start hw h1 hsep
  refine ⟨st.id, e1, ?_⟩
  rw [e3] at h
  rcases getFirstBadLine_walk_some w _ _ _ _ h with h3 | ⟨m, hm, h4, h5⟩
  · omega
  · rcases List.mem_cons.1 hm with h6 | h6
    · subst h6; omega
    · have := e4 m h6 h4; omega

theorem getNextLine_bound {T : Nat} {s : NodeList} {p : Option Nat} {c : Nat}
    (hw : well_numbered T s) (h : getNextLine s p = .ok (some c)) :
    ∃ st, p = some st ∧ st < c ∧ c < T := by
  unfold getNextLine at h
  obtain ⟨st, h1, h⟩ := bind_eq_ok h
  obtain ⟨_, h2, h⟩ := bind_eq_ok h
  have hsep : st.is_line_separator = false := by simpa using assert_eq_ok h2
  obtain ⟨e1, e2, e3, e4⟩ := search_start hw h1 hsep
  refine ⟨st.id, e1, ?_⟩
  rw [e3] at h
  simp only [pure, Except.pure, Except.ok.injEq] at h
  obtain ⟨m, hm, h4, h5, h6⟩ := getNextLine_walk_some _ _ _ h
  rcases List.mem_cons.1 hm with h7 | h7
  · subst h7; exact absurd rfl h5
  · have := e4 m h7 h4; omega

theorem scan_next_on_line_bound {T : Nat} {s : NodeList} {p : Option Nat} {c : Nat}
    {kinds : List TokenKind}
    (hw : well_numbered T s) (h : scan_next_on_line kinds s p = .ok (some c)) :
    ∃ st, p = some st ∧ st < c ∧ c < T := by
  unfold scan_next_on_line at h
  obtain ⟨st, h1, h⟩ := bind_eq_ok h
  obtain ⟨_, h2, h⟩ := bind_eq_ok h
  have hsep : st.is_line_separator = false := by simpa using assert_eq_ok h2
  obtain ⟨e1, e2, e3, e4⟩ := search_start hw h1 hsep
  refine ⟨st.id, e1, ?_⟩
  split at h
  · simp [pure, Except.pure] at h
  · next m rest hm =>
    split at h
    · simp [pure, Except.pure] at h
    · obtain ⟨x, hx, h4, h5, _⟩ := scan_line_some _ _ _ _ h
      rw [← hm] at hx
      have := e4 x hx h4
      omega

theorem find_candidate_line_bound {T : Nat} {s : NodeList} {last p : Option Nat} {w : Int}
    {c : Nat} (hw : well_numbered T s) (h : find_candidate_line s last p w = .ok (some c)) :
    ∃ st, p = some st ∧ st ≤ c ∧ c < T ∧ (last = some st → st < c) := by
  unfold find_candidate_line at h
  obtain ⟨found, h1, h⟩ := bind_eq_ok h
  split at h
  · next heq =>
    obtain ⟨nl, h2, h⟩ := bind_eq_ok h
    split at h
    · simp [pure, Except.pure] at h
    · next i =>
      obtain ⟨st, e1, e2, e3⟩ := getNextLine_bound hw h2
      obtain ⟨st1, f1, f2, f3⟩ := getFirstBadLine_bound hw h
      simp only [Option.some.injEq] at f1
      subst f1
      exact ⟨st, e1, by omega, f3, fun _ => by omega⟩
  · next hne =>
    simp only [pure, Except.pure, Except.ok.injEq] at h
    subst h
    obtain ⟨st, e1, e2, e3⟩ := getFirstBadLine_bound hw h1
    refine ⟨st, e1, e2, e3, fun hl => ?_⟩
    have : c ≠ st := by
      intro hcs
      apply hne
      rw [hl, hcs]
    omega

theorem halts_fix_line {T : Nat} (head : Option Nat) (w : Int) (c : Option Nat) :
    ∀ (fuel : Nat) (s : NodeList) (f : Option Nat), well_numbered T s → 0 < fuel →
      (∀ i, f = some i → T ≤ i + fuel) → Halts (fix_line head w c fuel s f) := by
  intro fuel
  induction fuel with
  | zero => intro s f _ h; omega
  | succ fuel ih =>
    intro s f hw _ hf
    cases f with
    | none => simp only [fix_line]; exact halts_ok _
    | some i =>
      simp only [fix_line]
      refine halts_bind (halts_breakList hw _) fun sa h1 => ?_
      have hwa := (breakList_evolves h1).well_numbered hw
      refine halts_bind (halts_propagatePretty _ _ _) fun sb h3 => ?_
      obtain ⟨sb, rv⟩ := sb
      have hwb := (propagatePretty_evolves h3).well_numbered hwa
      refine halts_bind (halts_getFirstBadLine _ _ _) fun bad _ => ?_
      simp only
      split
      · exact halts_pure _
      · refine halts_bind (halts_scan_next_on_line _ _ _) fun nx h7 => ?_
        split
        · exact halts_pure _
        · next j =>
          obtain ⟨st, e1, e2, e3⟩ := scan_next_on_line_bound hwb h7
          simp only [Option.some.injEq] at e1
          subst e1
          have := hf i rfl
          exact ih _ _ hwb (by omega) (fun k hk => by
            simp only [Option.some.injEq] at hk
            omega)

theorem halts_insertBreaks_loop {T : Nat} (head : Option Nat) (w : Int) (inner : Nat)
    (hin : T ≤ inner) (hin0 : 0 < inner) :
    ∀ (fuel : Nat) (s : NodeList) (last start : Option Nat), well_numbered T s → 0 < fuel →
      (∀ i, start = some i → T ≤ i + fuel ∧ (last ≠ some i → T + 1 ≤ i + fuel)) →
      Halts (insertBreaks_loop head w inner fuel s last start) := by
  intro fuel
  induction fuel with
  | zero => intro s last start _ h; omega
  | succ fuel ih =>
    intro s last start hw _ hf
    simp only [insertBreaks_loop]
    refine halts_bind (halts_propagatePretty _ _ _) fun sa h1 => ?_
    obtain ⟨sa, rv⟩ := sa
    have hwa := (propagatePretty_evolves h1).well_numbered hw
    refine halts_bind (halts_find_candidate_line _ _ _ _) fun cand h5 => ?_
    simp only
    split
    · exact halts_pure _
    · next c =>
      obtain ⟨st, e1, e2, e3, e4⟩ := find_candidate_line_bound hwa h5
      refine halts_bind (halts_assert _) fun _ _ => ?_
      refine halts_bind (halts_getFirstListOnLine _ _) fun f h9 => ?_
      have hfl : Halts (fix_line head w (some c) inner sa f) := by
        refine halts_fix_line head w (some c) inner sa f hwa hin0 fun k hk => ?_
        omega
      refine halts_bind hfl fun sb h11 => ?_
      have hwb := (fix_line_evolves _ _ _ _ _ _ _ h11).well_numbered hwa
      have hst := hf st e1
      by_cases hl : last = some st
      · have := e4 hl
        exact ih _ _ _ hwb (by omega) (fun k hk => by
          simp only [Option.some.injEq] at hk
          subst hk
          exact ⟨by omega, fun hne => absurd rfl hne⟩)
      · have := hst.2 hl
        exact ih _ _ _ hwb (by omega) (fun k hk => by
          simp only [Option.some.injEq] at hk
          subst hk
          exact ⟨by omega, fun hne => absurd rfl hne⟩)

theorem halts_insertBreaksAsNeeded {T : Nat} {s : NodeList} (hw : well_numbered T s)
    (fuel inner : Nat) (hf : T + 2 ≤ fuel) (hin : T + 2 ≤ inner) (w : Int) :
    Halts (insertBreaksAsNeeded fuel inner s (some 0) w) := by
  unfold insertBreaksAsNeeded
  refine halts_insertBreaks_loop _ _ _ (by omega) (by omega) _ _ _ _ hw (by omega) fun i hi => ?_
  simp only [Option.some.injEq] at hi
  subst hi
  exact ⟨by omega, fun _ => by omega⟩

mutual
theorem open_links_of : ∀ (obj : Object), supported obj → ∀ (b : Nat) (e : Option Nat) (j : Nat)
    (t : FormToken) (q : Option Nat),
    (j, (t, q)) ∈ ((tokens_of obj).zip (links_of obj b e)).enumFrom b →
      t.kind = .OPEN_PAREN → ∃ c, q = some c ∧ j < c ∧ c < b + (tokens_of obj).length
  | .PAIR car cdr, hs, b, e, j, t, q, h, hk => by
    simp only [tokens_of, links_of, List.zip_cons_cons, List.enumFrom_cons, List.mem_cons] at h
    rw [List.zip_append (links_of_length car _ _).symm, List.enumFrom_append,
      List.mem_append] at h
    have hpos := rest_tokens_of_pos hs.2
    simp only [tokens_of, List.length_cons, List.length_append]
    rcases h with h | h | h
    · simp only [Prod.mk.injEq] at h
      obtain ⟨rfl, rfl, rfl⟩ := h
      exact ⟨_, rfl, by omega, by omega⟩
    · obtain ⟨c, h1, h2, h3⟩ := open_links_of car hs.1 _ _ _ _ _ h hk
      exact ⟨c, h1, by omega, by omega⟩
    · simp only [List.length_zip, links_of_length, Nat.min_self] at h
      obtain ⟨c, h1, h2, h3⟩ := open_rest_links_of cdr hs.2 _ _ _ _ _ h hk
      exact ⟨c, h1, by omega, by omega⟩
  | .EMPTY_LIST, _, _, _, j, t, q, h, hk => by
    simp [tokens_of, links_of] at h; rw [h.2.1] at hk; simp at hk
  | .INTEGER _, _, _, _, j, t, q, h, hk => by
    simp [tokens_of, links_of] at h; rw [h.2.1] at hk; simp at hk
  | .FLOAT _, _, _, _, j, t, q, h, hk => by
    simp [tokens_of, links_of] at h; rw [h.2.1] at hk; simp at hk
  | .CHAR _, _, _, _, j, t, q, h, hk => by
    simp [tokens_of, links_of] at h; rw [h.2.1] at hk; simp at hk
  | .SYMBOL _, _, _, _, j, t, q, h, hk => by
    simp [tokens_of, links_of] at h; rw [h.2.1] at hk; simp at hk
  | .STRING _, _, _, _, j, t, q, h, hk => by
    simp [tokens_of, links_of] at h; rw [h.2.1] at hk; simp at hk
  | .ARRAY, hs, _, _, _, _, _, _, _ => by simp [supported] at hs
  | .LAMBDA, hs, _, _, _, _, _, _, _ => by simp [supported] at hs
  | .MACRO, hs, _, _, _, _, _, _, _ => by simp [supported] at hs
  | .ENVIRONMENT, hs, _, _, _, _, _, _, _ => by simp [supported] at hs
theorem open_rest_links_of : ∀ (obj : Object), supported obj → ∀ (b o : Nat) (j : Nat)
    (t : FormToken) (q : Option Nat),
    (j, (t, q)) ∈ ((rest_tokens_of obj).zip (rest_links_of obj b o)).enumFrom b →
      t.kind = .OPEN_PAREN → ∃ c, q = some c ∧ j < c ∧ c < b + (rest_tokens_of obj).length
  | .PAIR car cdr, hs, b, o, j, t, q, h, hk => by
    simp only [rest_tokens_of, rest_links_of, List.zip_cons_cons, List.enumFrom_cons,
      List.mem_cons] at h
    rw [List.zip_append (links_of_length car _ _).symm, List.enumFrom_append,
      List.mem_append] at h
    simp only [rest_tokens_of, List.length_cons, List.length_append]
    rcases h with h | h | h
    · simp only [Prod.mk.injEq] at h
      obtain ⟨rfl, rfl, rfl⟩ := h
      exact absurd hk (by decide)
    · obtain ⟨c, h1, h2, h3⟩ := open_links_of car hs.1 _ _ _ _ _ h hk
      exact ⟨c, h1, by omega, by omega⟩
    · simp only [List.length_zip, links_of_length, Nat.min_self] at h
      obtain ⟨c, h1, h2, h3⟩ := open_rest_links_of cdr hs.2 _ _ _ _ _ h hk
      exact ⟨c, h1, by omega, by omega⟩
  | .EMPTY_LIST, _, _, _, j, t, q, h, hk => by
    simp [rest_tokens_of, rest_links_of] at h; rw [h.2.1] at hk; simp at hk
  | .INTEGER _, _, _, _, j, t, q, h, hk => by
    simp [rest_tokens_of, rest_links_of] at h
    rcases h with h | h | h | h | h <;> (rw [h.2.1] at hk; simp at hk)
  | .FLOAT _, _, _, _, j, t, q, h, hk => by
    simp [rest_tokens_of, rest_links_of] at h
    rcases h with h | h | h | h | h <;> (rw [h.2.1] at hk; simp at hk)
  | .CHAR _, _, _, _, j, t, q, h, hk => by
    simp [rest_tokens_of, rest_links_of] at h
    rcases h with h | h | h | h | h <;> (rw [h.2.1] at hk; simp at hk)
  | .SYMBOL _, _, _, _, j, t, q, h, hk => by
    simp [rest_tokens_of, rest_links_of] at h
    rcases h with h | h | h | h | h <;> (rw [h.2.1] at hk; simp at hk)
  | .STRING _, _, _, _, j, t, q, h, hk => by
    simp [rest_tokens_of, rest_links_of] at h
    rcases h with h | h | h | h | h <;> (rw [h.2.1] at hk; simp at hk)
  | .ARRAY, hs, _, _, _, _, _, _, _ => by simp [supported] at hs
  | .LAMBDA, hs, _, _, _, _, _, _, _ => by simp [supported] at hs
  | .MACRO, hs, _, _, _, _, _, _, _ => by simp [supported] at hs
  | .ENVIRONMENT, hs, _, _, _, _, _, _, _ => by simp [supported] at hs
end

theorem mem_build_linked_enum (toks : List FormToken) :
    ∀ (ls : List (Option Nat)) (b : Nat) (off : Int) (n : PrettyPrinterNode),
      n ∈ build_linked b off toks ls →
        ∃ t, (n.id, (t, n.paren)) ∈ (toks.zip ls).enumFrom b ∧ n.tok = some t := by
  induction toks with
  | nil => intro ls b off n h; simp [build_linked] at h
  | cons t rest ih =>
    intro ls b off n h
    cases ls with
    | nil => simp [build_linked] at h
    | cons q qs =>
      simp only [build_linked, List.mem_cons] at h
      rcases h with h | h
      · subst h
        exact ⟨t, by simp, rfl⟩
      · obtain ⟨u, h1, h2⟩ := ih _ _ _ _ h
        exact ⟨u, by simp [h1], h2⟩

theorem real_ids_build_linked (toks : List FormToken) :
    ∀ (ls : List (Option Nat)) (b : Nat) (off : Int), ls.length = toks.length →
      real_ids (build_linked b off toks ls) = List.range' b toks.length := by
  induction toks with
  | nil => intro ls b off h; cases ls <;> simp [build_linked, real_ids]
  | cons t rest ih =>
    intro ls b off h
    cases ls with
    | nil => simp at h
    | cons q qs =>
      have := ih qs (b + 1) (off + t.toString.length) (by simpa using h)
      simp only [real_ids] at this
      simp [build_linked, real_ids, List.range'_succ, this]

theorem well_numbered_build_linked {obj : Object} (h : supported obj) :
    well_numbered (tokens_of obj).length
      (build_linked 0 0 (tokens_of obj) (links_of obj 0 none)) := by
  refine ⟨?_, ?_, ?_⟩
  · rw [real_ids_build_linked _ _ _ _ (links_of_length _ _ _), List.range_eq_range']
  · intro n hn hsep
    obtain ⟨t, _, _, h3, _⟩ := mem_build_linked _ _ _ _ _ hn
    rw [h3] at hsep
    exact absurd hsep (by simp)
  · intro n hn _ t ht hk
    obtain ⟨u, h1, h2⟩ := mem_build_linked_enum _ _ _ _ _ hn
    rw [h2] at ht
    simp only [Option.some.injEq] at ht
    subst ht
    obtain ⟨c, e1, e2, e3⟩ := open_links_of obj h 0 none _ _ _ h1 hk
    exact ⟨c, e1, e2, by omega⟩

theorem bind_congr_ok {α β : Type} {x : Except Err α} {f g : α → Except Err β}
    (h : ∀ a, x = .ok a → f a = g a) : (x >>= f) = (x >>= g) := by
  cases x with
  | error e => rfl
  | ok a => exact h a rfl

theorem bind_ne_of_ok {α β : Type} {x : Except Err α} {f : α → Except Err β} {e : Err} {a : α}
    (h : (x >>= f) ≠ .error e) (hx : x = .ok a) : f a ≠ .error e := by
  subst hx
  exact h

/-- One more unit of fuel does not change a run of the inner loop that had enough. -/
theorem fix_line_fuel (head : Option Nat) (w : Int) (c : Option Nat) :
    ∀ (fuel : Nat) (s : NodeList) (f : Option Nat),
      fix_line head w c fuel s f ≠ .error .out_of_fuel →
        fix_line head w c (fuel + 1) s f = fix_line head w c fuel s f := by
  intro fuel
  induction fuel with
  | zero => intro s f h; exact absurd rfl h
  | succ fuel ih =>
    intro s f h
    cases f with
    | none => simp only [fix_line]
    | some i =>
      rw [fix_line] at h ⊢
      conv => rhs; rw [fix_line]
      refine bind_congr_ok fun sa h1 => ?_
      have h := bind_ne_of_ok h h1
      refine bind_congr_ok fun sb h3 => ?_
      have h := bind_ne_of_ok h h3
      obtain ⟨sb, rv⟩ := sb
      refine bind_congr_ok fun bad h5 => ?_
      have h := bind_ne_of_ok h h5
      simp only at h ⊢
      split
      · rfl
      · rename_i hb
        rw [if_neg hb] at h
        refine bind_congr_ok fun nx h7 => ?_
        have h := bind_ne_of_ok h h7
        cases nx with
        | none => rfl
        | some j => exact ih _ _ h

theorem fix_line_fuel_add (head : Option Nat) (w : Int) (c : Option Nat) (fuel : Nat)
    (s : NodeList) (f : Option Nat) (h : fix_line head w c fuel s f ≠ .error .out_of_fuel) :
    ∀ k, fix_line head w c (fuel + k) s f = fix_line head w c fuel s f := by
  intro k
  induction k with
  | zero => rfl
  | succ k ih =>
    rw [← Nat.add_assoc, fix_line_fuel _ _ _ _ _ _ (by rw [ih]; exact h), ih]

/-- More fuel for the inner or the outer loop does not change a run of the outer loop that
had enough of both. -/
theorem insertBreaks_loop_fuel (head : Option Nat) (w : Int) (inner : Nat) :
    ∀ (fuel : Nat) (s : NodeList) (last start : Option Nat),
      insertBreaks_loop head w inner fuel s last start ≠ .error .out_of_fuel →
        ∀ k j, insertBreaks_loop head w (inner + k) (fuel + j) s last start
          = insertBreaks_loop head w inner fuel s last start := by
  intro fuel
  induction fuel with
  | zero => intro s last start h; exact absurd rfl h
  | succ fuel ih =>
    intro s last start h k j
    rw [show fuel + 1 + j = (fuel + j) + 1 by omega]
    rw [insertBreaks_loop] at h ⊢
    conv => rhs; rw [insertBreaks_loop]
    refine bind_congr_ok fun sa h1 => ?_
    have h := bind_ne_of_ok h h1
    obtain ⟨sa, rv⟩ := sa
    refine bind_congr_ok fun cand h5 => ?_
    have h := bind_ne_of_ok h h5
    simp only at h ⊢
    cases cand with
    | none => rfl
    | some c =>
      simp only at h ⊢
      refine bind_congr_ok fun _ h7 => ?_
      have h := bind_ne_of_ok h h7
      refine bind_congr_ok fun f h9 => ?_
      have h := bind_ne_of_ok h h9
      have hfl : fix_line head w (some c) inner sa f ≠ .error .out_of_fuel := by
        intro he
        rw [he] at h
        exact h rfl
      rw [fix_line_fuel_add _ _ _ _ _ _ hfl]
      refine bind_congr_ok fun sb h11 => ?_
      have h := bind_ne_of_ok h h11
      exact ih _ _ _ h k j

/-- C5 (the resolver loop terminates): let `s3` be the node sequence that `to_string` hands
to `insertBreaksAsNeeded` for a tree that the tokenizer accepts, with `T` tokens: the list
built from the tokens, with the parens attached, after the special-form pass and one
propagation. Then at every width the outer loop and each run of the inner loop end within
`T + 2` iterations: the run with these two bounds ends neither for lack of fuel nor in a
walk that misses its target (`Halts`), and a larger bound for either loop gives the same
result. The search cursors only move forward over the `T` token nodes. -/
theorem insertBreaksAsNeeded_terminates (obj : Object) (w : Int) (toks : List FormToken)
    (s1 s2 s3 : NodeList) (st : List (Option Nat)) (rv : Option Nat) (f0 : Nat)
    (h0 : add_to_token_list obj [] = .ok toks)
    (h1 : attach_parens (build_nodes 0 0 toks) [none] (build_nodes 0 0 toks) = .ok (s1, st))
    (h2 : insertSpecialBreaks f0 s1 (some 0) = .ok s2)
    (h3 : propagatePretty s2 (some 0) w = .ok (s3, rv)) :
    Halts (insertBreaksAsNeeded (toks.length + 2) (toks.length + 2) s3 (some 0) w) ∧
      ∀ k j, insertBreaksAsNeeded (toks.length + 2 + k) (toks.length + 2 + j) s3 (some 0) w
        = insertBreaksAsNeeded (toks.length + 2) (toks.length + 2) s3 (some 0) w := by
  obtain ⟨e0, hs⟩ := add_to_token_list_spec obj [] toks h0
  simp only [List.nil_append] at e0
  subst e0
  rw [attach_parens_spec hs] at h1
  simp only [Except.ok.injEq, Prod.mk.injEq] at h1
  obtain ⟨e1, _⟩ := h1
  subst e1
  have hw := (propagatePretty_evolves h3).well_numbered
    ((insertSpecialBreaks_evolves h2).well_numbered (well_numbered_build_linked hs))
  have hh := halts_insertBreaksAsNeeded hw _ _ (Nat.le_refl _) (Nat.le_refl _) w
  refine ⟨hh, fun k j => ?_⟩
  unfold insertBreaksAsNeeded at hh ⊢
  exact insertBreaks_loop_fuel _ _ _ _ _ _ _ hh.1 j k

/-- Witness for C5: the list `(a bbbbbbbbbb)` at width 4, whose second atom is wider than
the width; it has 5 tokens, and no pass before the resolver changes its node sequence. -/
theorem insertBreaksAsNeeded_terminates_witness :
    add_to_token_list (build_list [.SYMBOL "a", .SYMBOL "bbbbbbbbbb"]) []
        = .ok [⟨.OPEN_PAREN, ""⟩, ⟨.STRING, "a"⟩, ⟨.WHITESPACE, ""⟩, ⟨.STRING, "bbbbbbbbbb"⟩,
            ⟨.CLOSE_PAREN, ""⟩] ∧
      Halts (insertBreaksAsNeeded 7 7
        (build_linked 0 0 (tokens_of (build_list [.SYMBOL "a", .SYMBOL "bbbbbbbbbb"]))
          (links_of (build_list [.SYMBOL "a", .SYMBOL "bbbbbbbbbb"]) 0 none)) (some 0) 4) ∧
      insertBreaksAsNeeded 8 9
          (build_linked 0 0 (tokens_of (build_list [.SYMBOL "a", .SYMBOL "bbbbbbbbbb"]))
            (links_of (build_list [.SYMBOL "a", .SYMBOL "bbbbbbbbbb"]) 0 none)) (some 0) 4
        = insertBreaksAsNeeded 7 7
          (build_linked 0 0 (tokens_of (build_list [.SYMBOL "a", .SYMBOL "bbbbbbbbbb"]))
            (links_of (build_list [.SYMBOL "a", .SYMBOL "bbbbbbbbbb"]) 0 none)) (some 0) 4 :=
  ⟨by rfl,
    (insertBreaksAsNeeded_terminates (build_list [.SYMBOL "a", .SYMBOL "bbbbbbbbbb"]) 4
      [⟨.OPEN_PAREN, ""⟩, ⟨.STRING, "a"⟩, ⟨.WHITESPACE, ""⟩, ⟨.STRING, "bbbbbbbbbb"⟩,
        ⟨.CLOSE_PAREN, ""⟩] _ _ _ [none] (some 0) 0 (by rfl) (by rfl) (by rfl) (by rfl)).1,
    (insertBreaksAsNeeded_terminates (build_list [.SYMBOL "a", .SYMBOL "bbbbbbbbbb"]) 4
      [⟨.OPEN_PAREN, ""⟩, ⟨.STRING, "a"⟩, ⟨.WHITESPACE, ""⟩, ⟨.STRING, "bbbbbbbbbb"⟩,
        ⟨.CLOSE_PAREN, ""⟩] _ _ _ [none] (some 0) 0 (by rfl) (by rfl) (by rfl) (by rfl)).2 1 2⟩

theorem Refines.head_sep {k : Nat} {m : PrettyPrinterNode} {post s1 : NodeList}
    (h : Refines k (m :: post) s1) (hm : m.is_line_separator = true) :
    ∃ m1 post1, s1 = m1 :: post1 ∧ m1.is_line_separator = true := by
  cases h with
  | keep hc _ => exact ⟨_, _, rfl, by rw [hc.2.2.1, hm]⟩
  | ins hb _ _ => exact ⟨_, _, rfl, hb.1⟩

/-- A separator that follows a token stays there, or another one takes its place. -/
theorem Refines.sep_after {k : Nat} {s s1 : NodeList} (h : Refines k s s1) :
    ∀ x, sep_after s x → sep_after s1 x := by
  induction h with
  | nil =>
    intro x hx
    obtain ⟨pre, n, m, post, e, _⟩ := hx
    simp at e
  | @keep n0 n1 s s1 hc hr ih =>
    intro x hx
    obtain ⟨pre, n, m, post, e, h1, h2, h3⟩ := hx
    cases pre with
    | nil =>
      simp only [List.nil_append, List.cons.injEq] at e
      obtain ⟨e1, e2⟩ := e
      subst e1 e2
      obtain ⟨m1, post1, e3, h4⟩ := hr.head_sep h3
      exact ⟨[], n1, m1, post1, by simp [e3], by rw [hc.1, h1], by rw [hc.2.2.1, h2], h4⟩
    | cons p pre =>
      simp only [List.cons_append, List.cons.injEq] at e
      obtain ⟨e1, e2⟩ := e
      obtain ⟨pre1, a, b, post1, e3, h5⟩ := ih x ⟨pre, n, m, post, e2, h1, h2, h3⟩
      exact ⟨n1 :: pre1, a, b, post1, by simp [e3], h5⟩
  | @ins b s s1 hb hk hr ih =>
    intro x hx
    obtain ⟨pre1, a, c, post1, e3, h5⟩ := ih x hx
    exact ⟨b :: pre1, a, c, post1, by simp [e3], h5⟩

theorem push_token_append (t : FormToken) {X : List OutLine} (Y : List OutLine) (h : X ≠ []) :
    push_token t (X ++ Y) = push_token t X ++ Y := by
  cases X with
  | nil => exact absurd rfl h
  | cons l ls => rfl

theorem open_line_append (i : Nat) (d : Option FormToken) {X : List OutLine}
    (Y : List OutLine) (h : X ≠ []) : open_line i d (X ++ Y) = open_line i d X ++ Y := by
  cases X with
  | nil => exact absurd rfl h
  | cons l ls => rfl

theorem push_token_ne_nil (t : FormToken) (X : List OutLine) : push_token t X ≠ [] := by
  cases X <;> simp [push_token]

/-- The lines of a list split at a separator. -/
theorem lines_of_append_sep (m : PrettyPrinterNode) (post : NodeList)
    (hm : m.is_line_separator = true) :
    ∀ (pre : NodeList) (b : Bool),
      lines_of b (pre ++ m :: post) = lines_of b pre ++ lines_of true post := by
  intro pre
  induction pre with
  | nil => intro b; simp [lines_of, hm]
  | cons n pre ih =>
    intro b
    simp only [List.cons_append, lines_of, List.append_eq]
    split
    · rw [ih]; rfl
    · split
      · exact ih _
      · next t _ =>
        split
        · split
          · rw [ih, open_line_append _ _ _ (lines_of_ne_nil _ _)]
          · rw [ih, push_token_append _ _ (lines_of_ne_nil _ _),
              open_line_append _ _ _ (push_token_ne_nil _ _)]
        · rw [ih, push_token_append _ _ (lines_of_ne_nil _ _)]

theorem laid_cons {toks : List FormToken} {links : List (Option Nat)} {a : Nat}
    {n : PrettyPrinterNode} {rest : NodeList} (h : laid toks links a (n :: rest)) :
    (n.is_line_separator = true → toks.length ≤ n.id ∧ laid toks links a rest) ∧
    (n.is_line_separator = false → n.id = a ∧ a < toks.length ∧ n.tok = toks[a]? ∧
      links[a]? = some n.paren ∧ laid toks links (a + 1) rest) := by
  obtain ⟨h1, h2, h3⟩ := h
  obtain ⟨f1, f2⟩ := numbered_from_cons h1
  have h2r : separators_above toks.length rest := fun m hm => h2 m (List.mem_cons_of_mem _ hm)
  have h3r : carries toks links rest := fun m hm => h3 m (List.mem_cons_of_mem _ hm)
  constructor
  · intro hs
    exact ⟨(h2 n (by simp) hs).1, f1 hs, h2r, h3r⟩
  · intro hs
    obtain ⟨g1, g2, g3⟩ := f2 hs
    obtain ⟨c1, c2⟩ := h3 n (by simp) hs
    rw [g1] at c1 c2
    exact ⟨g1, g2, c1, c2, g3, h2r, h3r⟩

theorem laid_nil {toks : List FormToken} {links : List (Option Nat)} {a : Nat}
    (h : laid toks links a []) : toks.length ≤ a := by
  obtain ⟨⟨h1, h2⟩, _⟩ := h
  simp only [real_ids, List.filter_nil, List.map_nil] at h1
  by_contra hlt
  have : toks.length - a ≠ 0 := by omega
  obtain ⟨m, hm⟩ := Nat.exists_eq_succ_of_ne_zero this
  rw [hm, List.range'_succ] at h1
  simp at h1

/-- The walk of `breakList` keeps the node it stands on at the front. -/
theorem breakList_walk_head (s0 : NodeList) (rp first_elt : Option Nat) (fresh : Nat)
    (breaking : Bool) (jump : Option Nat) (n : PrettyPrinterNode) (rest r : NodeList)
    (h : breakList_walk s0 rp first_elt fresh breaking jump (n :: rest) = .ok r) :
    ∃ r1, r = n :: r1 := by
  cases jump <;> simp only [breakList_walk] at h <;> repeat' split at h
  all_goals first
    | (simp only [Except.ok.injEq] at h; subst h; exact ⟨_, rfl⟩)
    | simp at h

/-- In the walk of `breakList`, the separators in front of the next token are passed. -/
theorem breakList_walk_skip {toks : List FormToken} {links : List (Option Nat)}
    (s0 : NodeList) (rp : Nat) (first_elt : Option Nat) (breaking : Bool) (hrp : rp < toks.length)
    (hfe : ∀ f, first_elt = some f → f < toks.length) :
    ∀ (l : NodeList) (a fresh : Nat) (r : NodeList), laid toks links a l → a < toks.length →
      breakList_walk s0 (some rp) first_elt fresh breaking none l = .ok r →
      ∃ seps n l1 r1, l = seps ++ n :: l1 ∧ (∀ m ∈ seps, m.is_line_separator = true) ∧
        n.is_line_separator = false ∧ n.id = a ∧ n.tok = toks[a]? ∧ links[a]? = some n.paren ∧
        laid toks links (a + 1) l1 ∧
        breakList_walk s0 (some rp) first_elt fresh breaking none (n :: l1) = .ok r1 ∧
        r = seps ++ r1 := by
  intro l
  induction l with
  | nil => intro a fresh r hl ha _; have := laid_nil hl; omega
  | cons x rest ih =>
    intro a fresh r hl ha h
    obtain ⟨f1, f2⟩ := laid_cons hl
    cases hx : x.is_line_separator with
    | false =>
      obtain ⟨g1, g2, g3, g4, g5⟩ := f2 hx
      exact ⟨[], x, rest, r, rfl, by simp, hx, g1, g3, g4, g5, h, rfl⟩
    | true =>
      obtain ⟨g1, g2⟩ := f1 hx
      have hne : ¬ (some x.id = some rp) := by
        simp only [Option.some.injEq]; omega
      have hnf : ¬ (some x.id = first_elt) := by
        intro hf
        have := hfe x.id hf.symm
        omega
      simp only [breakList_walk, hne, if_false, hx, if_true, hnf] at h
      split at h
      · simp at h
      · next r0 hr0 =>
        simp only [Except.ok.injEq] at h
        obtain ⟨seps, n, l1, r1, e1, e2, e3, e4, e5, e6, e7, e8, e9⟩ := ih a fresh r0 g2 ha hr0
        refine ⟨x :: seps, n, l1, r1, by simp [e1], ?_, e3, e4, e5, e6, e7, e8, by simp [← h, e9]⟩
        intro m hm
        rcases List.mem_cons.1 hm with hm | hm
        · subst hm; exact hx
        · exact e2 m hm

theorem prefix_drop_head {α : Type} {y : α} {ys xs : List α} {a : Nat}
    (h : List.IsPrefix (y :: ys) (xs.drop a)) :
    xs[a]? = some y ∧ List.IsPrefix ys (xs.drop (a + 1)) ∧ a < xs.length := by
  obtain ⟨t, ht⟩ := h
  have hlt : a < xs.length := by
    by_contra hge
    rw [List.drop_eq_nil_of_le (by omega)] at ht
    simp at ht
  refine ⟨?_, ⟨t, ?_⟩, hlt⟩
  · have := congrArg (fun l => l[0]?) ht
    simp only [List.cons_append, List.getElem?_cons_zero, List.getElem?_drop, Nat.add_zero] at this
    exact this.symm
  · have := congrArg (fun l => l.drop 1) ht
    simp only [List.cons_append, List.drop_succ_cons, List.drop_zero, List.drop_drop] at this
    exact this

theorem prefix_drop_append {α : Type} {y1 y2 xs : List α} {a : Nat}
    (h : List.IsPrefix (y1 ++ y2) (xs.drop a)) :
    List.IsPrefix y1 (xs.drop a) ∧ List.IsPrefix y2 (xs.drop (a + y1.length)) := by
  obtain ⟨t, ht⟩ := h
  refine ⟨⟨y2 ++ t, by simpa using ht⟩, ⟨t, ?_⟩⟩
  have := congrArg (fun l => l.drop y1.length) ht
  simp only [List.append_assoc, List.drop_left, List.drop_drop] at this
  exact this

theorem sep_after_append (X : NodeList) {r : NodeList} {x : Nat} (h : sep_after r x) :
    sep_after (X ++ r) x := by
  obtain ⟨pre, n, m, post, e, h1⟩ := h
  exact ⟨X ++ pre, n, m, post, by simp [e], h1⟩

/-- The jump of the walk of `breakList` over a nested list: the walk goes on behind the
close paren, where a separator then stands. -/
theorem breakList_walk_jump {toks : List FormToken} {links : List (Option Nat)}
    (s0 : NodeList) (rp : Option Nat) (first_elt : Option Nat) (target : Nat)
    (ht : target < toks.length) :
    ∀ (l : NodeList) (a fresh : Nat) (r : NodeList), laid toks links a l →
      breakList_walk s0 rp first_elt fresh true (some target) l = .ok r →
      ∃ pre n post, l = pre ++ n :: post ∧ n.id = target ∧ n.is_line_separator = false ∧
        laid toks links (target + 1) post ∧
        (post ≠ [] → ∃ fresh1 r1 X,
          breakList_walk s0 rp first_elt fresh1 true none post = .ok r1 ∧
          r = X ++ r1 ∧ sep_after r target) := by
  intro l
  induction l with
  | nil => intro a fresh r _ h; simp [breakList_walk] at h
  | cons x rest ih =>
    intro a fresh r hl h
    obtain ⟨f1, f2⟩ := laid_cons hl
    simp only [breakList_walk] at h
    by_cases hx : x.id = target
    · have hreal : x.is_line_separator = false := by
        cases hs : x.is_line_separator with
        | false => rfl
        | true => have := (f1 hs).1; omega
      obtain ⟨g1, g2, g3, g4, g5⟩ := f2 hreal
      rw [hx] at g1
      subst g1
      refine ⟨[], x, rest, rfl, hx, hreal, g5, fun hne => ?_⟩
      simp only [hx, if_true] at h
      cases rest with
      | nil => exact absurd rfl hne
      | cons m rest1 =>
        simp only at h
        cases hm : m.is_line_separator with
        | false =>
          simp only [hm, Bool.not_false, Bool.and_self, if_true] at h
          split at h
          · simp at h
          · next r0 hr0 =>
            simp only [Except.ok.injEq] at h
            subst h
            exact ⟨_, r0, [x, new_separator fresh 0], hr0, rfl,
              [], x, new_separator fresh 0, r0, rfl, hx, hreal, rfl⟩
        | true =>
          simp only [hm, Bool.not_true, Bool.and_false, Bool.false_eq_true, if_false] at h
          split at h
          · simp at h
          · next r0 hr0 =>
            simp only [Except.ok.injEq] at h
            subst h
            obtain ⟨r1, e1⟩ := breakList_walk_head _ _ _ _ _ _ _ _ _ hr0
            exact ⟨_, r0, [x], hr0, rfl, [], x, m, r1, by simp [e1], hx, hreal, hm⟩
    · simp only [hx, if_false] at h
      split at h
      · simp at h
      · next r0 hr0 =>
        simp only [Except.ok.injEq] at h
        subst h
        have hl1 : ∃ a1, laid toks links a1 rest := by
          cases hs : x.is_line_separator with
          | false => exact ⟨_, (f2 hs).2.2.2.2⟩
          | true => exact ⟨_, (f1 hs).2⟩
        obtain ⟨a1, hl1⟩ := hl1
        obtain ⟨pre, n, post, e1, e2, e3, e4, e5⟩ := ih a1 fresh r0 hl1 hr0
        refine ⟨x :: pre, n, post, by simp [e1], e2, e3, e4, fun hne => ?_⟩
        obtain ⟨fresh1, r1, X, k1, k2, k3⟩ := e5 hne
        exact ⟨fresh1, r1, x :: X, k1, by simp [k2], sep_after_append [x] k3⟩

theorem elts_width_cons (e : Object) (es : List Object) :
    elts_width (e :: es) = 1 + (tokens_of e).length + elts_width es := by
  simp [elts_width]

theorem elts_width_append (es1 es2 : List Object) :
    elts_width (es1 ++ es2) = elts_width es1 + elts_width es2 := by
  simp [elts_width]

theorem rest_tokens_of_build_list (es : List Object) :
    (rest_tokens_of (build_list es)).length = elts_width es + 1 := by
  induction es with
  | nil => rfl
  | cons e es ih =>
    simp only [build_list, rest_tokens_of, List.length_cons, List.length_append, ih,
      elts_width_cons]
    omega

/-- A supported object is a pair, or it has one token, which is a string or an empty
pair. -/
theorem supported_cases {e : Object} (h : supported e) :
    (∃ t, tokens_of e = [t] ∧ t.kind ≠ .OPEN_PAREN ∧ t.kind ≠ .WHITESPACE ∧
      t.kind ≠ .CLOSE_PAREN ∧ (t.kind = .STRING ∨ t.kind = .EMPTY_PAIR)) ∨
    (∃ car cdr, e = .PAIR car cdr) := by
  cases e with
  | PAIR car cdr => exact Or.inr ⟨car, cdr, rfl⟩
  | EMPTY_LIST => exact Or.inl ⟨_, rfl, by decide, by decide, by decide, Or.inr rfl⟩
  | INTEGER p => exact Or.inl ⟨_, rfl, by simp, by simp, by simp, Or.inl rfl⟩
  | FLOAT p => exact Or.inl ⟨_, rfl, by simp, by simp, by simp, Or.inl rfl⟩
  | CHAR p => exact Or.inl ⟨_, rfl, by simp, by simp, by simp, Or.inl rfl⟩
  | SYMBOL p => exact Or.inl ⟨_, rfl, by simp, by simp, by simp, Or.inl rfl⟩
  | STRING p => exact Or.inl ⟨_, rfl, by simp, by simp, by simp, Or.inl rfl⟩
  | ARRAY => simp [supported] at h
  | LAMBDA => simp [supported] at h
  | MACRO => simp [supported] at h
  | ENVIRONMENT => simp [supported] at h

/-- The walk of `breakList` over one element of the list: behind the element a separator
stands, and the walk goes on there. -/
theorem breakList_walk_elt {toks : List FormToken} {links : List (Option Nat)}
    (s0 : NodeList) (rp : Nat) (first_elt : Option Nat) (hrp : rp < toks.length)
    (hfe : ∀ f, first_elt = some f → f < toks.length)
    (e0 : Object) (hs0 : supported e0) (a : Nat) (l : NodeList) (fresh : Nat) (r : NodeList)
    (e : Option Nat)
    (hl : laid toks links a l)
    (ht : List.IsPrefix (tokens_of e0) (toks.drop a))
    (hk : List.IsPrefix (links_of e0 a e) (links.drop a))
    (hlt : a + (tokens_of e0).length ≤ rp) (breaking : Bool)
    (hb : breaking = true ∨ first_elt = some a)
    (h : breakList_walk s0 (some rp) first_elt fresh breaking none l = .ok r) :
    ∃ post fresh1 r1 X, laid toks links (a + (tokens_of e0).length) post ∧
      breakList_walk s0 (some rp) first_elt fresh1 true none post = .ok r1 ∧
      r = X ++ r1 ∧ sep_after r (a + (tokens_of e0).length - 1) := by
  rcases supported_cases hs0 with ⟨t, c1, c2, c3, c4, _⟩ | ⟨car, cdr, rfl⟩
  · rw [c1] at ht hlt ⊢
    obtain ⟨t1, _, t3⟩ := prefix_drop_head ht
    obtain ⟨seps, n, l1, r1, e1, e2, e3, e4, e5, e6, e7, e8, e9⟩ :=
      breakList_walk_skip s0 rp first_elt breaking hrp hfe l a fresh r hl t3 h
    have hne : ¬ (some n.id = some rp) := by
      simp only [Option.some.injEq, List.length_singleton] at hlt ⊢; omega
    have htok : tok_of n = .ok t := by simp [tok_of, e5, t1]
    have hbr : (if some n.id = first_elt then true else breaking) = true := by
      rcases hb with hb | hb
      · simp [hb]
      · simp [hb, e4]
    have hl1 : l1 ≠ [] := by
      intro hnil
      rw [hnil] at e7
      have := laid_nil e7
      simp only [List.length_singleton] at hlt
      omega
    simp only [breakList_walk, hne, if_false, hbr, e3, htok, c2, c3, c4, ne_eq,
      not_false_eq_true, if_true, Bool.false_eq_true] at e8
    cases l1 with
    | nil => exact absurd rfl hl1
    | cons m l2 =>
      simp only at e8
      cases hm : m.is_line_separator with
      | false =>
        simp only [hm, Bool.not_false, Bool.and_self, if_true] at e8
        split at e8
        · simp at e8
        · next r0 hr0 =>
          simp only [Except.ok.injEq] at e8
          subst e8
          refine ⟨m :: l2, _, r0, seps ++ [n, new_separator fresh 0], e7, hr0, by simp [e9], ?_⟩
          rw [e9]
          exact sep_after_append _ ⟨[], n, new_separator fresh 0, r0, rfl, by simp [e4], e3, rfl⟩
      | true =>
        simp only [hm, Bool.not_true, Bool.and_false, Bool.false_eq_true, if_false] at e8
        split at e8
        · simp at e8
        · next r0 hr0 =>
          simp only [Except.ok.injEq] at e8
          subst e8
          obtain ⟨r2, e10⟩ := breakList_walk_head _ _ _ _ _ _ _ _ _ hr0
          refine ⟨m :: l2, _, r0, seps ++ [n], e7, hr0, by simp [e9], ?_⟩
          rw [e9]
          exact sep_after_append _ ⟨[], n, m, r2, by simp [e10], by simp [e4], e3, hm⟩
  · simp only [tokens_of, links_of] at ht hk hlt ⊢
    obtain ⟨t1, _, t3⟩ := prefix_drop_head ht
    obtain ⟨k1, _, _⟩ := prefix_drop_head hk
    obtain ⟨seps, n, l1, r1, e1, e2, e3, e4, e5, e6, e7, e8, e9⟩ :=
      breakList_walk_skip s0 rp first_elt breaking hrp hfe l a fresh r hl t3 h
    have hpos := rest_tokens_of_pos hs0.2
    simp only [List.length_cons, List.length_append] at hlt ⊢
    have hne : ¬ (some n.id = some rp) := by
      simp only [Option.some.injEq]; omega
    have htok : tok_of n = .ok ⟨.OPEN_PAREN, ""⟩ := by simp [tok_of, e5, t1]
    have hbr : (if some n.id = first_elt then true else breaking) = true := by
      rcases hb with hb | hb
      · simp [hb]
      · simp [hb, e4]
    have hpar : n.paren = some (a + (tokens_of car).length + (rest_tokens_of cdr).length) := by
      rw [k1] at e6
      simpa using e6.symm
    simp only [breakList_walk, hne, if_false, hbr, e3, htok, if_true,
      Bool.false_eq_true] at e8
    split at e8
    · simp at e8
    · next cl hcl =>
      split at e8
      · simp at e8
      · next ct hct =>
        split at e8
        · split at e8
          · simp at e8
          · next r0 hr0 =>
            simp only [Except.ok.injEq] at e8
            subst e8
            obtain ⟨i, hi1, hi2⟩ := deref_ok hcl
            have hid := node_at_id hi2
            rw [hpar] at hi1
            simp only [Option.some.injEq] at hi1
            rw [← hi1] at hid
            rw [hid] at hr0
            obtain ⟨pre, nt, post, g1, g2, g3, g4, g5⟩ :=
              breakList_walk_jump s0 (some rp) first_elt _ (by omega) l1 _ fresh r0 e7 hr0
            have hpost : post ≠ [] := by
              intro hnil
              rw [hnil] at g4
              have := laid_nil g4
              omega
            obtain ⟨fresh1, r2, X, q1, q2, q3⟩ := g5 hpost
            refine ⟨post, fresh1, r2, seps ++ n :: X, ?_, q1, by simp [e9, q2], ?_⟩
            · have : a + ((tokens_of car).length + (rest_tokens_of cdr).length + 1)
                  = a + (tokens_of car).length + (rest_tokens_of cdr).length + 1 := by omega
              rw [this]
              exact g4
            · have : a + ((tokens_of car).length + (rest_tokens_of cdr).length + 1) - 1
                  = a + (tokens_of car).length + (rest_tokens_of cdr).length := by omega
              rw [this, e9]
              exact sep_after_append seps (sep_after_append [n] q3)
        · simp at e8

/-- The walk of `breakList` with `breaking` set, over the elements of a list up to its
close paren: behind every element a separator stands. -/
theorem breakList_walk_elts {toks : List FormToken} {links : List (Option Nat)}
    (s0 : NodeList) (rp : Nat) (first_elt : Option Nat) (hrp : rp < toks.length)
    (hfe : ∀ f, first_elt = some f → f < toks.length) :
    ∀ (es : List Object), (∀ e ∈ es, supported e) →
      ∀ (a : Nat) (l : NodeList) (fresh : Nat) (r : NodeList) (o : Nat),
        laid toks links a l →
        List.IsPrefix (rest_tokens_of (build_list es)) (toks.drop a) →
        List.IsPrefix (rest_links_of (build_list es) a o) (links.drop a) →
        rp = a + elts_width es →
        breakList_walk s0 (some rp) first_elt fresh true none l = .ok r →
        ∀ es1 e es2, es = es1 ++ e :: es2 →
          sep_after r (a + elts_width es1 + (tokens_of e).length) := by
  intro es
  induction es with
  | nil =>
    intro _ a l fresh r o _ _ _ _ _ es1 e es2 hes
    simp at hes
  | cons e0 es ih =>
    intro hsup a l fresh r o hl ht hk hrpa h es1 e es2 hes
    have hs0 := hsup e0 (by simp)
    simp only [build_list, rest_tokens_of, rest_links_of] at ht hk
    obtain ⟨t1, t2, t3⟩ := prefix_drop_head ht
    obtain ⟨t4, t5⟩ := prefix_drop_append t2
    obtain ⟨k1, k2, k3⟩ := prefix_drop_head hk
    obtain ⟨k4, k5⟩ := prefix_drop_append k2
    rw [links_of_length] at k5
    rw [elts_width_cons] at hrpa
    -- the whitespace
    obtain ⟨seps, n, l1, r1, e1, e2, e3, e4, e5, e6, e7, e8, e9⟩ :=
      breakList_walk_skip s0 rp first_elt true hrp hfe l a fresh r hl t3 h
    have hne : ¬ (some n.id = some rp) := by
      simp only [Option.some.injEq]; omega
    have htok : tok_of n = .ok ⟨.WHITESPACE, ""⟩ := by simp [tok_of, e5, t1]
    simp only [breakList_walk, hne, if_false, ite_self, e3, htok,
      show ¬ TokenKind.WHITESPACE = TokenKind.OPEN_PAREN by decide, ne_eq, not_true_eq_false,
      Bool.false_eq_true] at e8
    split at e8
    · simp at e8
    · next r0 hr0 =>
      simp only [Except.ok.injEq] at e8
      subst e8
      -- the element
      obtain ⟨post, fresh1, r2, X, q1, q2, q3, q4⟩ :=
        breakList_walk_elt s0 rp first_elt hrp hfe e0 hs0 (a + 1) l1 fresh r0 (some o) e7 t4 k4
          (by omega) true (Or.inl rfl) hr0
      have hadd : a + 1 + (tokens_of e0).length - 1 = a + (tokens_of e0).length := by omega
      rw [hadd] at q4
      cases es1 with
      | nil =>
        simp only [List.nil_append, List.cons.injEq] at hes
        obtain ⟨rfl, _⟩ := hes
        have : a + elts_width [] + (tokens_of e0).length = a + (tokens_of e0).length := by
          simp [elts_width]
        rw [this, e9]
        exact sep_after_append seps (sep_after_append [n] q4)
      | cons x1 es1 =>
        simp only [List.cons_append, List.cons.injEq] at hes
        obtain ⟨hx1, hes⟩ := hes
        subst hx1
        have key := ih (fun x hx => hsup x (List.mem_cons_of_mem _ hx))
          (a + 1 + (tokens_of e0).length) post fresh1 r2 o q1 t5 k5 (by omega) q2 es1 e es2 hes
        have : a + elts_width (e0 :: es1) + (tokens_of e).length
            = a + 1 + (tokens_of e0).length + elts_width es1 + (tokens_of e).length := by
          rw [elts_width_cons]; omega
        rw [this, e9, q3]
        exact sep_after_append seps (sep_after_append [n] (sep_after_append X key))

theorem Refines.carries {k : Nat} {s s1 : NodeList} {toks : List FormToken}
    {links : List (Option Nat)} (h : Refines k s s1) (hc : carries toks links s) :
    carries toks links s1 := by
  induction h with
  | nil => exact hc
  | @keep n n1 s s1 hcore _ ih =>
    intro m hm hsep
    rcases List.mem_cons.1 hm with h | h
    · subst h
      obtain ⟨c1, c2, c3, c4, _⟩ := hcore
      rw [c1, c2, c4]
      exact hc n (by simp) (by rw [← c3]; exact hsep)
    · exact ih (fun x hx => hc x (List.mem_cons_of_mem _ hx)) m h hsep
  | @ins b s s1 hb _ _ ih =>
    intro m hm hsep
    rcases List.mem_cons.1 hm with h | h
    · subst h; rw [hb.1] at hsep; simp at hsep
    · exact ih hc m h hsep

theorem Evolves.laid {s s1 : NodeList} {toks : List FormToken} {links : List (Option Nat)}
    (h : Evolves s s1) (hl : laid toks links 0 s) : laid toks links 0 s1 := by
  obtain ⟨h1, h2, h3⟩ := hl
  have hT : toks.length ≤ s.length := by
    have := real_ids_length_le s
    rw [h1.1] at this
    simpa using this
  exact ⟨⟨by rw [h.1.real_ids, h1.1], h1.2⟩, h.1.separators_above hT h2, h.1.carries h3⟩

theorem laid_nodes_after {s : NodeList} {toks : List FormToken} {links : List (Option Nat)}
    {c : Nat} {n : PrettyPrinterNode} (hl : laid toks links 0 s) (hn : node_at s c = some n)
    (hs : n.is_line_separator = false) :
    c < toks.length ∧ laid toks links (c + 1) (nodes_after s c) := by
  obtain ⟨h1, h2, h3⟩ := hl
  have hid := node_at_id hn
  have hmem := node_at_mem hn
  have hc : c < toks.length := by
    have := ((numbered_from_mem s h1).1 n hmem hs).2
    omega
  obtain ⟨g1, _⟩ := numbered_from_nodes_from s 0 c h1 h2 (Nat.zero_le _) hc
  have hfrom : nodes_from s c = n :: nodes_after s c := by
    rw [← hid] at hn ⊢
    exact nodes_from_of_node_at hn
  rw [hfrom] at g1
  refine ⟨hc, (numbered_from_cons g1).2 hs |>.2.2, ?_, ?_⟩
  · exact fun m hm => h2 m (mem_nodes_after hm)
  · exact fun m hm => h3 m (mem_nodes_after hm)

theorem carries_build_linked (toks : List FormToken) :
    ∀ (ls : List (Option Nat)) (b : Nat) (off : Int) (n : PrettyPrinterNode),
      n ∈ build_linked b off toks ls →
        b ≤ n.id ∧ n.tok = toks[n.id - b]? ∧ ls[n.id - b]? = some n.paren := by
  induction toks with
  | nil => intro ls b off n h; simp [build_linked] at h
  | cons t rest ih =>
    intro ls b off n h
    cases ls with
    | nil => simp [build_linked] at h
    | cons q qs =>
      simp only [build_linked, List.mem_cons] at h
      rcases h with h | h
      · subst h
        simp
      · obtain ⟨h1, h2, h3⟩ := ih _ _ _ _ h
        have : n.id - b = (n.id - (b + 1)) + 1 := by omega
        rw [this]
        exact ⟨by omega, by simpa using h2, by simpa using h3⟩

/-- The list that `to_string` builds for a supported object, before any pass. -/
theorem laid_build_linked {obj : Object} (h : supported obj) :
    laid (tokens_of obj) (links_of obj 0 none) 0
      (build_linked 0 0 (tokens_of obj) (links_of obj 0 none)) := by
  have hw := well_numbered_build_linked h
  refine ⟨well_numbered_numbered_from hw, hw.2.1, ?_⟩
  intro n hn _
  obtain ⟨_, h2, h3⟩ := carries_build_linked _ _ _ _ _ hn
  exact ⟨by simpa using h2, by simpa using h3⟩

theorem getElem?_some_of_lt {α : Type} {l : List α} {i : Nat} (h : i < l.length) :
    ∃ t, l[i]? = some t := ⟨l[i], List.getElem?_eq_getElem h⟩

theorem laid_next {toks : List FormToken} {links : List (Option Nat)} :
    ∀ (l : NodeList) (a : Nat), laid toks links a l → a < toks.length →
      ∃ seps n l1, l = seps ++ n :: l1 ∧ (∀ m ∈ seps, m.is_line_separator = true) ∧
        n.is_line_separator = false ∧ n.id = a ∧ n.tok = toks[a]? ∧
        links[a]? = some n.paren ∧ laid toks links (a + 1) l1 := by
  intro l
  induction l with
  | nil => intro a hl ha; have := laid_nil hl; omega
  | cons x rest ih =>
    intro a hl ha
    obtain ⟨f1, f2⟩ := laid_cons hl
    cases hx : x.is_line_separator with
    | false =>
      obtain ⟨g1, g2, g3, g4, g5⟩ := f2 hx
      exact ⟨[], x, rest, rfl, by simp, hx, g1, g3, g4, g5⟩
    | true =>
      obtain ⟨seps, n, l1, e1, e2, e3⟩ := ih a (f1 hx).2 ha
      refine ⟨x :: seps, n, l1, by simp [e1], ?_, e3⟩
      intro m hm
      rcases List.mem_cons.1 hm with hm | hm
      · subst hm; exact hx
      · exact e2 m hm

theorem real_tokens_append (a b : NodeList) :
    real_tokens (a ++ b) = real_tokens a ++ real_tokens b := by
  simp [real_tokens]

theorem laid_append {toks : List FormToken} {links : List (Option Nat)} :
    ∀ (pre rest : NodeList) (a : Nat), laid toks links a (pre ++ rest) →
      laid toks links (a + (real_tokens pre).length) rest := by
  intro pre
  induction pre with
  | nil => intro rest a h; simpa [real_tokens] using h
  | cons x pre ih =>
    intro rest a h
    obtain ⟨f1, f2⟩ := laid_cons h
    cases hx : x.is_line_separator with
    | true =>
      have := ih rest a (f1 hx).2
      simpa [real_tokens, List.filter_cons, hx] using this
    | false =>
      obtain ⟨g1, g2, g3, g4, g5⟩ := f2 hx
      have := ih rest (a + 1) g5
      obtain ⟨t, ht⟩ := getElem?_some_of_lt g2
      rw [ht] at g3
      have hlen : (real_tokens (x :: pre)).length = 1 + (real_tokens pre).length := by
        simp [real_tokens, List.filter_cons, hx, g3]
        omega
      rw [hlen, ← Nat.add_assoc]
      exact this

theorem lines_of_seps (rest : NodeList) :
    ∀ (seps : NodeList), (∀ m ∈ seps, m.is_line_separator = true) →
      lines_of true (seps ++ rest)
        = List.replicate seps.length ⟨0, none, []⟩ ++ lines_of true rest := by
  intro seps
  induction seps with
  | nil => intro _; rfl
  | cons m seps ih =>
    intro h
    have hm := h m (by simp)
    simp only [List.cons_append, lines_of, hm, if_true, List.length_cons, List.replicate_succ]
    rw [List.append_eq, ih (fun x hx => h x (List.mem_cons_of_mem _ hx))]

theorem flatMap_replicate_empty (k : Nat) :
    (List.replicate k (⟨0, none, []⟩ : OutLine)).flatMap OutLine.tokens = [] := by
  induction k with
  | zero => rfl
  | succ k ih => simp [List.replicate_succ, OutLine.tokens, ih]

/-- A separator directly behind the token with address `x` is a line break behind the
first `x + 1` tokens of the output. -/
theorem break_at_of_sep_after {toks : List FormToken} {links : List (Option Nat)}
    {s : NodeList} {x : Nat} (hl : laid toks links 0 s) (h : sep_after s x) :
    break_at (lines_of true s) (x + 1) := by
  obtain ⟨pre, n, m, post, e, h1, h2, h3⟩ := h
  subst e
  have g := laid_append pre (n :: m :: post) 0 hl
  obtain ⟨g1, g2, g3, _⟩ := (laid_cons g).2 h2
  obtain ⟨t, ht⟩ := getElem?_some_of_lt g2
  rw [ht] at g3
  have hsplit : pre ++ n :: m :: post = (pre ++ [n]) ++ m :: post := by simp
  rw [hsplit, lines_of_append_sep m post h3]
  refine ⟨_, _, rfl, lines_of_ne_nil _ _, lines_of_ne_nil _ _, ?_⟩
  rw [lines_of_tokens, real_tokens_append]
  have : (real_tokens [n]).length = 1 := by simp [real_tokens, h2, g3]
  rw [List.length_append, this]
  omega

/-- When a separator stands directly behind the token with address `x`, the next token is
whitespace and the one after it is not, then the latter is the first token printed on its
line. -/
theorem first_on_line_of_sep_after {toks : List FormToken} {links : List (Option Nat)}
    {s : NodeList} {x : Nat} (hl : laid toks links 0 s) (h : sep_after s x)
    (hws : ∃ t, toks[x + 1]? = some t ∧ t.kind = .WHITESPACE)
    (hy : ∃ t, toks[x + 2]? = some t ∧ t.kind ≠ .WHITESPACE) :
    first_on_line (lines_of true s) (x + 2) := by
  obtain ⟨pre, n, m, post, e, h1, h2, h3⟩ := h
  subst e
  obtain ⟨tw, hw1, hw2⟩ := hws
  obtain ⟨ty, hy1, hy2⟩ := hy
  have hx1 : x + 1 < toks.length := by
    by_contra hge
    rw [List.getElem?_eq_none (by omega)] at hw1
    simp at hw1
  have hx2 : x + 2 < toks.length := by
    by_contra hge
    rw [List.getElem?_eq_none (by omega)] at hy1
    simp at hy1
  have g := laid_append pre (n :: m :: post) 0 hl
  obtain ⟨g1, g2, g3, _, g5⟩ := (laid_cons g).2 h2
  obtain ⟨t, ht⟩ := getElem?_some_of_lt g2
  rw [ht] at g3
  have hpre : (real_tokens (pre ++ [n])).length = x + 1 := by
    have : (real_tokens [n]).length = 1 := by simp [real_tokens, h2, g3]
    rw [real_tokens_append, List.length_append, this]
    omega
  have hx : 0 + (real_tokens pre).length + 1 = x + 1 := by omega
  rw [hx] at g5
  have gpost := ((laid_cons g5).1 h3).2
  obtain ⟨seps1, ws, post2, e1, a1, a2, a3, a4, _, a6⟩ := laid_next post (x + 1) gpost hx1
  obtain ⟨seps2, y, post3, e2, b1, b2, b3, b4, _, _⟩ := laid_next post2 (x + 1 + 1) a6 hx2
  rw [hw1] at a4
  rw [show x + 1 + 1 = x + 2 by omega, hy1] at b4
  have hsplit : pre ++ n :: m :: post = (pre ++ [n]) ++ m :: post := by simp
  rw [hsplit, lines_of_append_sep m post h3, e1, lines_of_seps _ _ a1]
  have hws_line : lines_of true (ws :: post2)
      = open_line ws.lineIndent.toNat (some tw) (lines_of false post2) := by
    simp [lines_of, a2, a4, hw2]
  rw [hws_line, e2]
  have hcount : ((lines_of true (pre ++ [n]) ++ List.replicate seps1.length (⟨0, none, []⟩ : OutLine)).flatMap
      OutLine.tokens).length = x + 1 := by
    rw [List.flatMap_append, flatMap_replicate_empty, List.append_nil, lines_of_tokens, hpre]
  obtain ⟨l0, ls, hl0⟩ : ∃ l0 ls, lines_of false post3 = l0 :: ls := by
    cases hh : lines_of false post3 with
    | nil => exact absurd hh (lines_of_ne_nil _ _)
    | cons l0 ls => exact ⟨l0, ls, rfl⟩
  cases seps2 with
  | nil =>
    have hy_line : lines_of false ([] ++ y :: post3)
        = ⟨l0.indent, l0.dropped, ty :: l0.toks⟩ :: ls := by
      simp [lines_of, b2, b4, hl0, push_token]
    rw [hy_line]
    refine ⟨lines_of true (pre ++ [n]) ++ List.replicate seps1.length (⟨0, none, []⟩ : OutLine),
      ⟨ws.lineIndent.toNat, some tw, ty :: l0.toks⟩, ls, ?_, ?_, ?_, by simp⟩
    · simp [open_line]
    · simp [lines_of_ne_nil]
    · rw [hcount]; rfl
  | cons m2 seps2 =>
    have hm2 := b1 m2 (by simp)
    have hy_line : lines_of true (y :: post3)
        = ⟨y.lineIndent.toNat, none, ty :: l0.toks⟩ :: ls := by
      simp [lines_of, b2, b4, hy2, hl0, push_token, open_line]
    have hline : lines_of false (m2 :: seps2 ++ y :: post3)
        = (⟨0, none, []⟩ : OutLine) :: (List.replicate seps2.length (⟨0, none, []⟩ : OutLine) ++
            ⟨y.lineIndent.toNat, none, ty :: l0.toks⟩ :: ls) := by
      simp only [List.cons_append, lines_of, hm2, if_true, List.append_eq]
      rw [lines_of_seps _ _ (fun q hq => b1 q (List.mem_cons_of_mem _ hq)), hy_line]
    rw [hline]
    refine ⟨lines_of true (pre ++ [n]) ++ List.replicate seps1.length (⟨0, none, []⟩ : OutLine) ++
        ⟨ws.lineIndent.toNat, some tw, []⟩ :: List.replicate seps2.length (⟨0, none, []⟩ : OutLine),
      ⟨y.lineIndent.toNat, none, ty :: l0.toks⟩, ls, ?_, ?_, ?_, by simp⟩
    · simp [open_line]
    · simp [lines_of_ne_nil]
    · rw [List.flatMap_append, List.length_append, hcount, List.flatMap_cons,
        flatMap_replicate_empty]
      simp [OutLine.tokens]

/-- The passes of `to_string` when it returns: the special-form pass on the list built from
the tokens, and the passes after it, which only splice separators in. -/
theorem to_string_pipeline {obj : Object} {w : Int} {out : String}
    (h : to_string obj w = .ok out) :
    supported obj ∧ ∃ s2 s4,
      insertSpecialBreaks (loop_fuel (tokens_of obj))
        (build_linked 0 0 (tokens_of obj) (links_of obj 0 none)) (some 0) = .ok s2 ∧
      Evolves s2 s4 ∧ render true s4 = .ok out := by
  unfold to_string at h
  obtain ⟨toks, h1, h⟩ := bind_eq_ok h
  obtain ⟨_, _, h⟩ := bind_eq_ok h
  obtain ⟨⟨s1, st⟩, h2, h⟩ := bind_eq_ok h
  dsimp only at h
  obtain ⟨_, _, h⟩ := bind_eq_ok h
  obtain ⟨_, _, h⟩ := bind_eq_ok h
  obtain ⟨s2, h3, h⟩ := bind_eq_ok h
  obtain ⟨⟨s3, rv⟩, h4, h⟩ := bind_eq_ok h
  dsimp only at h
  obtain ⟨s4, h5, hr⟩ := bind_eq_ok h
  clear h
  obtain ⟨e, hs⟩ := add_to_token_list_spec _ _ _ h1
  simp only [List.nil_append] at e
  subst e
  rw [attach_parens_spec hs] at h2
  simp only [Except.ok.injEq, Prod.mk.injEq] at h2
  obtain ⟨e1, _⟩ := h2
  subst e1
  exact ⟨hs, s2, s4, h3,
    (propagatePretty_evolves h4).andThen (insertBreaksAsNeeded_evolves h5), hr⟩

theorem prefix_rest_tokens_append {toks : List FormToken} (es2 : List Object) :
    ∀ (es1 : List Object) (a : Nat),
      List.IsPrefix (rest_tokens_of (build_list (es1 ++ es2))) (toks.drop a) →
      List.IsPrefix (rest_tokens_of (build_list es2)) (toks.drop (a + elts_width es1)) := by
  intro es1
  induction es1 with
  | nil => intro a h; simpa [elts_width] using h
  | cons e es1 ih =>
    intro a h
    simp only [List.cons_append, build_list, rest_tokens_of] at h
    obtain ⟨_, t2, _⟩ := prefix_drop_head h
    obtain ⟨_, t5⟩ := prefix_drop_append t2
    have := ih _ t5
    rw [elts_width_cons]
    have e : a + (1 + (tokens_of e).length + elts_width es1)
        = a + 1 + (tokens_of e).length + elts_width es1 := by omega
    rw [e]
    exact this

theorem prefix_rest_links_append {links : List (Option Nat)} (es2 : List Object) (o : Nat) :
    ∀ (es1 : List Object) (a : Nat),
      List.IsPrefix (rest_links_of (build_list (es1 ++ es2)) a o) (links.drop a) →
      List.IsPrefix (rest_links_of (build_list es2) (a + elts_width es1) o)
        (links.drop (a + elts_width es1)) := by
  intro es1
  induction es1 with
  | nil => intro a h; simpa [elts_width] using h
  | cons e es1 ih =>
    intro a h
    simp only [List.cons_append, build_list, rest_links_of] at h
    obtain ⟨_, t2, _⟩ := prefix_drop_head h
    obtain ⟨_, t5⟩ := prefix_drop_append t2
    rw [links_of_length] at t5
    have := ih _ t5
    rw [elts_width_cons]
    have e : a + (1 + (tokens_of e).length + elts_width es1)
        = a + 1 + (tokens_of e).length + elts_width es1 := by omega
    rw [e]
    exact this

/-- The tokens of a run of atoms in a list are whitespace and strings. -/
theorem tokens_of_atoms {toks : List FormToken} (es2 : List Object) :
    ∀ (es1 : List Object) (a : Nat), (∀ e ∈ es1, plain_atom e) →
      List.IsPrefix (rest_tokens_of (build_list (es1 ++ es2))) (toks.drop a) →
      ∀ i, a ≤ i → i < a + elts_width es1 →
        ∃ t, toks[i]? = some t ∧ (t.kind = .WHITESPACE ∨ t.kind = .STRING) := by
  intro es1
  induction es1 with
  | nil => intro a _ _ i h1 h2; simp [elts_width] at h2; omega
  | cons e es1 ih =>
    intro a hat h i h1 h2
    obtain ⟨t, ht, hk⟩ := hat e (by simp)
    simp only [List.cons_append, build_list, rest_tokens_of, ht] at h
    obtain ⟨t1, t2, _⟩ := prefix_drop_head h
    obtain ⟨t3, t4, _⟩ := prefix_drop_head t2
    rw [elts_width_cons, ht] at h2
    simp only [List.length_singleton] at h2
    by_cases hi : i = a
    · subst hi; exact ⟨_, t1, Or.inl rfl⟩
    · by_cases hi1 : i = a + 1
      · subst hi1; exact ⟨_, t3, Or.inr hk⟩
      · exact ih (a + 1 + 1) (fun x hx => hat x (List.mem_cons_of_mem _ hx)) t4 i (by omega)
          (by omega)

/-- The first element of a list part stands behind a whitespace token. -/
theorem prefix_rest_tokens_elt {toks : List FormToken} {e : Object} {es : List Object} {a : Nat}
    (h : List.IsPrefix (rest_tokens_of (build_list (e :: es))) (toks.drop a)) :
    toks[a]? = some ⟨.WHITESPACE, ""⟩ ∧ List.IsPrefix (tokens_of e) (toks.drop (a + 1)) := by
  simp only [build_list, rest_tokens_of] at h
  obtain ⟨t1, t2, _⟩ := prefix_drop_head h
  exact ⟨t1, (prefix_drop_append t2).1⟩

/-- The walk of the three-argument `breakList` before `first_elt`: a token that is no paren
is passed, and nothing is spliced in. -/
theorem breakList_walk_pass {toks : List FormToken} {links : List (Option Nat)}
    (s0 : NodeList) (rp : Nat) (first_elt : Option Nat) (hrp : rp < toks.length)
    (hfe : ∀ f, first_elt = some f → f < toks.length)
    (a : Nat) (l : NodeList) (fresh : Nat) (r : NodeList) (t : FormToken)
    (hl : laid toks links a l) (ht : toks[a]? = some t) (ho : t.kind ≠ .OPEN_PAREN)
    (hc : t.kind ≠ .CLOSE_PAREN) (hlt : a < rp) (hnf : first_elt ≠ some a)
    (h : breakList_walk s0 (some rp) first_elt fresh false none l = .ok r) :
    ∃ post r1 X, laid toks links (a + 1) post ∧
      breakList_walk s0 (some rp) first_elt fresh false none post = .ok r1 ∧ r = X ++ r1 := by
  obtain ⟨seps, n, l1, r1, e1, e2, e3, e4, e5, e6, e7, e8, e9⟩ :=
    breakList_walk_skip s0 rp first_elt false hrp hfe l a fresh r hl (by omega) h
  have hne : ¬ (some n.id = some rp) := by
    simp only [Option.some.injEq]; omega
  have hnf1 : ¬ (some n.id = first_elt) := by
    rw [e4]; exact fun hh => hnf hh.symm
  have htok : tok_of n = .ok t := by simp [tok_of, e5, ht]
  simp only [breakList_walk, hne, hnf1, if_false, e3, htok, ho, hc, Bool.false_eq_true,
    Bool.false_and] at e8
  by_cases hw : t.kind = .WHITESPACE
  · simp only [hw, ne_eq, not_true_eq_false, if_false] at e8
    split at e8
    · simp at e8
    · next r0 hr0 =>
      simp only [Except.ok.injEq] at e8
      subst e8
      exact ⟨l1, r0, seps ++ [n], e7, hr0, by simp [e9]⟩
  · simp only [hw, ne_eq, not_false_eq_true, if_true] at e8
    cases l1 with
    | nil =>
      simp only [Except.ok.injEq] at e8
      subst e8
      exact ⟨[], [], seps ++ [n], e7, by simp [breakList_walk], by simp [e9]⟩
    | cons m l2 =>
      simp only at e8
      split at e8
      · simp at e8
      · next r0 hr0 =>
        simp only [Except.ok.injEq] at e8
        subst e8
        exact ⟨m :: l2, r0, seps ++ [n], e7, hr0, by simp [e9]⟩

theorem breakList_walk_pass_many {toks : List FormToken} {links : List (Option Nat)}
    (s0 : NodeList) (rp : Nat) (first_elt : Option Nat) (hrp : rp < toks.length)
    (hfe : ∀ f, first_elt = some f → f < toks.length) (fresh : Nat) :
    ∀ (k a : Nat) (l r : NodeList), laid toks links a l →
      (∀ i, a ≤ i → i < a + k → first_elt ≠ some i ∧
        ∃ t, toks[i]? = some t ∧ t.kind ≠ .OPEN_PAREN ∧ t.kind ≠ .CLOSE_PAREN) →
      a + k ≤ rp →
      breakList_walk s0 (some rp) first_elt fresh false none l = .ok r →
      ∃ post r1 X, laid toks links (a + k) post ∧
        breakList_walk s0 (some rp) first_elt fresh false none post = .ok r1 ∧ r = X ++ r1 := by
  intro k
  induction k with
  | zero => intro a l r hl _ _ h; exact ⟨l, r, [], hl, h, rfl⟩
  | succ k ih =>
    intro a l r hl hall hlt h
    obtain ⟨hnf, t, ht, ho, hc⟩ := hall a (Nat.le_refl _) (by omega)
    obtain ⟨post, r1, X, q1, q2, q3⟩ :=
      breakList_walk_pass s0 rp first_elt hrp hfe a l fresh r t hl ht ho hc (by omega) hnf h
    obtain ⟨post2, r2, X2, p1, p2, p3⟩ := ih (a + 1) post r1 q1
      (fun i h1 h2 => hall i (by omega) (by omega)) (by omega) q2
    refine ⟨post2, r2, X ++ X2, ?_, p2, by simp [q3, p3]⟩
    rw [show a + (k + 1) = a + 1 + k by omega]
    exact p1

/-- The walk of the three-argument `breakList` at `first_elt`, an atom or an empty pair:
breaking starts there, and a separator stands behind it. -/
theorem breakList_walk_first {toks : List FormToken} {links : List (Option Nat)}
    (s0 : NodeList) (rp : Nat) (f : Nat) (hrp : rp < toks.length) (hf : f < rp)
    (l : NodeList) (fresh : Nat) (r : NodeList) (t : FormToken)
    (hl : laid toks links f l) (ht : toks[f]? = some t) (ho : t.kind ≠ .OPEN_PAREN)
    (hc : t.kind ≠ .CLOSE_PAREN) (hw : t.kind ≠ .WHITESPACE)
    (h : breakList_walk s0 (some rp) (some f) fresh false none l = .ok r) :
    ∃ post fresh1 r1 X, laid toks links (f + 1) post ∧
      breakList_walk s0 (some rp) (some f) fresh1 true none post = .ok r1 ∧ r = X ++ r1 ∧
      sep_after r f := by
  obtain ⟨seps, n, l1, r1, e1, e2, e3, e4, e5, e6, e7, e8, e9⟩ :=
    breakList_walk_skip s0 rp (some f) false hrp
      (fun x hx => by simp only [Option.some.injEq] at hx; omega) l f fresh r hl (by omega) h
  have hne : ¬ (some f = some rp) := by
    simp only [Option.some.injEq]; omega
  have htok : tok_of n = .ok t := by simp [tok_of, e5, ht]
  have hl1 : l1 ≠ [] := by
    intro hnil
    rw [hnil] at e7
    have := laid_nil e7
    omega
  simp only [breakList_walk, hne, e4, if_false, if_true, e3, htok, ho, hc, hw, ne_eq,
    not_false_eq_true, Bool.false_eq_true] at e8
  cases l1 with
  | nil => exact absurd rfl hl1
  | cons m l2 =>
    simp only at e8
    cases hm : m.is_line_separator with
    | false =>
      simp only [hm, Bool.not_false, Bool.and_self, if_true] at e8
      split at e8
      · simp at e8
      · next r0 hr0 =>
        simp only [Except.ok.injEq] at e8
        subst e8
        refine ⟨m :: l2, _, r0, seps ++ [n, new_separator fresh 0], e7, hr0, by simp [e9], ?_⟩
        rw [e9]
        exact sep_after_append _ ⟨[], n, new_separator fresh 0, r0, rfl, e4, e3, rfl⟩
    | true =>
      simp only [hm, Bool.not_true, Bool.and_false, Bool.false_eq_true, if_false] at e8
      split at e8
      · simp at e8
      · next r0 hr0 =>
        simp only [Except.ok.injEq] at e8
        subst e8
        obtain ⟨r2, e10⟩ := breakList_walk_head _ _ _ _ _ _ _ _ _ hr0
        refine ⟨m :: l2, _, r0, seps ++ [n], e7, hr0, by simp [e9], ?_⟩
        rw [e9]
        exact sep_after_append _ ⟨[], n, m, r2, by simp [e10], e4, e3, hm⟩

theorem breakList_entry_real {s : NodeList} {p : Option Nat} {lp : PrettyPrinterNode}
    (h : breakList_entry s p = .ok lp) : lp.is_line_separator = false := by
  unfold breakList_entry at h
  obtain ⟨a, h1, h2⟩ := bind_eq_ok h
  obtain ⟨_, h3, h4⟩ := bind_eq_ok h2
  obtain ⟨_, _, h5⟩ := bind_eq_ok h4
  obtain ⟨_, _, h6⟩ := bind_eq_ok h5
  obtain ⟨_, _, h7⟩ := bind_eq_ok h6
  obtain ⟨_, _, h8⟩ := bind_eq_ok h7
  obtain ⟨_, _, h9⟩ := bind_eq_ok h8
  simp [pure, Except.pure] at h9
  subst h9
  simpa using assert_eq_ok h3

/-- The three-argument `breakList` of a definition rule, on a list `(head a1 ... ak () b1
... bm)` whose `ai` are atoms, with `first_elt` the empty pair: a separator stands behind
the empty pair and behind every `bi`. -/
theorem breakList_from_define {toks : List FormToken} {links : List (Option Nat)}
    {sa sb : NodeList} (pre body : List Object) (hpre : ∀ e ∈ pre, plain_atom e)
    (hbody : ∀ e ∈ body, supported e) (hl : laid toks links 0 sa)
    (htoks : List.IsPrefix (rest_tokens_of (build_list (pre ++ .EMPTY_LIST :: body)))
      (toks.drop 2))
    (hlinks : List.IsPrefix (rest_links_of (build_list (pre ++ .EMPTY_LIST :: body)) 2 0)
      (links.drop 2))
    (h1 : ∃ t, toks[1]? = some t ∧ t.kind = .STRING)
    (hl0 : links[0]? = some (some (2 + elts_width (pre ++ .EMPTY_LIST :: body))))
    (hT : toks.length = 3 + elts_width (pre ++ .EMPTY_LIST :: body))
    (h : breakList_from sa (some 0) (some (3 + elts_width pre)) = .ok sb) :
    sep_after sb (3 + elts_width pre) ∧
      ∀ b1 e b2, body = b1 ++ e :: b2 →
        sep_after sb (3 + elts_width pre + 1 + elts_width b1 + (tokens_of e).length) := by
  have hw : elts_width (pre ++ .EMPTY_LIST :: body) = elts_width pre + 2 + elts_width body := by
    rw [elts_width_append, elts_width_cons]
    simp [tokens_of]
    omega
  rw [hw] at hl0 hT
  unfold breakList_from at h
  obtain ⟨lp, h2, h⟩ := bind_eq_ok h
  obtain ⟨r, h3, h⟩ := bind_eq_ok h
  simp only [pure, Except.pure, Except.ok.injEq] at h
  subst h
  obtain ⟨i, hi1, hi2⟩ := breakList_entry_ok h2
  have hreal := breakList_entry_real h2
  simp only [Option.some.injEq] at hi1
  subst hi1
  have hid := node_at_id hi2
  obtain ⟨_, hafter⟩ := laid_nodes_after hl hi2 hreal
  have hpar : lp.paren = some (2 + (elts_width pre + 2 + elts_width body)) := by
    have := (hl.2.2 lp (node_at_mem hi2) hreal).2
    rw [hid, hl0] at this
    simpa using this.symm
  rw [hid, hpar] at h3
  -- the tokens of the second part of the list
  have t5 := prefix_rest_tokens_append (.EMPTY_LIST :: body) pre 2 htoks
  have k5 := prefix_rest_links_append (.EMPTY_LIST :: body) 0 pre 2 hlinks
  obtain ⟨u1, u2⟩ := prefix_rest_tokens_elt t5
  simp only [build_list, rest_tokens_of, rest_links_of, tokens_of, links_of] at t5 k5 u2
  obtain ⟨u3, _, _⟩ := prefix_drop_head u2
  obtain ⟨_, t6, _⟩ := prefix_drop_head t5
  obtain ⟨_, t7, _⟩ := prefix_drop_head t6
  obtain ⟨_, k6, _⟩ := prefix_drop_head k5
  obtain ⟨_, k7, _⟩ := prefix_drop_head k6
  -- up to the empty pair nothing is done
  obtain ⟨post, r1, X, q1, q2, q3⟩ :=
    breakList_walk_pass_many sa (2 + (elts_width pre + 2 + elts_width body))
      (some (3 + elts_width pre)) (by omega)
      (fun x hx => by simp only [Option.some.injEq] at hx; omega) sa.length
      (2 + elts_width pre) 1 (nodes_after sa 0) r hafter
      (by
        intro i i1 i2
        refine ⟨by simp only [ne_eq, Option.some.injEq]; omega, ?_⟩
        by_cases hi : i = 1
        · obtain ⟨t, ht, hk⟩ := h1
          subst hi
          exact ⟨t, ht, by rw [hk]; decide, by rw [hk]; decide⟩
        · by_cases hi2 : i = 2 + elts_width pre
          · subst hi2
            exact ⟨_, u1, by decide, by decide⟩
          · obtain ⟨t, ht, hk⟩ := tokens_of_atoms (.EMPTY_LIST :: body) pre 2 hpre htoks i
              (by omega) (by omega)
            refine ⟨t, ht, ?_, ?_⟩ <;> rcases hk with hk | hk <;> rw [hk] <;> decide)
      (by omega) h3
  rw [show 1 + (2 + elts_width pre) = 3 + elts_width pre by omega] at q1
  rw [show 2 + elts_width pre + 1 = 3 + elts_width pre by omega] at u3
  obtain ⟨post2, fresh1, r2, X2, p1, p2, p3, p4⟩ :=
    breakList_walk_first sa (2 + (elts_width pre + 2 + elts_width body)) (3 + elts_width pre)
      (by omega) (by omega) post sa.length r1 _ q1 u3 (by decide) (by decide) (by decide) q2
  have hlift : ∀ x, sep_after r1 x → sep_after (nodes_before sa lp.id ++ lp :: r) x := by
    intro x hx
    rw [q3]
    exact sep_after_append _ (sep_after_append [lp] (sep_after_append X hx))
  refine ⟨hlift _ p4, fun b1 e b2 hb => ?_⟩
  have key := breakList_walk_elts sa (2 + (elts_width pre + 2 + elts_width body))
    (some (3 + elts_width pre)) (by omega)
    (fun x hx => by simp only [Option.some.injEq] at hx; omega) body hbody
    (3 + elts_width pre + 1) post2 fresh1 r2 0 p1
    (by
      rw [show 3 + elts_width pre + 1 = 2 + elts_width pre + 1 + 1 by omega]
      exact t7)
    (by
      rw [show 3 + elts_width pre + 1 = 2 + elts_width pre + 1 + 1 by omega]
      exact k7)
    (by omega) p2 b1 e b2 hb
  apply hlift
  rw [p3]
  exact sep_after_append X2 key

theorem count_kind_cons (k : TokenKind) (t : FormToken) (l : List FormToken) :
    count_kind k (t :: l) = (if t.kind = k then 1 else 0) + count_kind k l := by
  unfold count_kind
  by_cases h : t.kind = k
  · simp [List.filter_cons, h]; omega
  · simp [List.filter_cons, h]

theorem count_kind_append (k : TokenKind) (a b : List FormToken) :
    count_kind k (a ++ b) = count_kind k a + count_kind k b := by
  simp [count_kind]

/-- A token list whose nesting depth never goes below zero: its counts of parens. -/
theorem paren_depth_counts :
    ∀ (toks : List FormToken) (d d1 : Nat), paren_depth d toks = some d1 →
      (∀ k, count_kind .CLOSE_PAREN (toks.take k) ≤ d + count_kind .OPEN_PAREN (toks.take k)) ∧
        d1 + count_kind .CLOSE_PAREN toks = d + count_kind .OPEN_PAREN toks := by
  intro toks
  induction toks with
  | nil =>
    intro d d1 h
    simp only [paren_depth, Option.some.injEq] at h
    subst h
    simp [count_kind]
  | cons t rest ih =>
    intro d d1 h
    simp only [paren_depth] at h
    have htake : ∀ k, (t :: rest).take (k + 1) = t :: rest.take k := fun k => rfl
    split at h
    · next ho =>
      obtain ⟨i1, i2⟩ := ih _ _ h
      have hc : ¬ t.kind = .CLOSE_PAREN := by rw [ho]; decide
      constructor
      · intro k
        cases k with
        | zero => simp [count_kind]
        | succ k =>
          rw [htake, count_kind_cons, count_kind_cons, if_neg hc, if_pos ho]
          have := i1 k
          omega
      · rw [count_kind_cons, count_kind_cons, if_neg hc, if_pos ho]
        omega
    · next ho =>
      split at h
      · next hc =>
        cases d with
        | zero => simp at h
        | succ d0 =>
          simp only at h
          obtain ⟨i1, i2⟩ := ih _ _ h
          constructor
          · intro k
            cases k with
            | zero => simp [count_kind]
            | succ k =>
              rw [htake, count_kind_cons, count_kind_cons, if_neg ho, if_pos hc]
              have := i1 k
              omega
          · rw [count_kind_cons, count_kind_cons, if_neg ho, if_pos hc]
            omega
      · next hc =>
        obtain ⟨i1, i2⟩ := ih _ _ h
        constructor
        · intro k
          cases k with
          | zero => simp [count_kind]
          | succ k =>
            rw [htake, count_kind_cons, count_kind_cons, if_neg ho, if_neg hc]
            have := i1 k
            omega
        · rw [count_kind_cons, count_kind_cons, if_neg ho, if_neg hc]
          omega

mutual
theorem count_open_tokens_of : ∀ (obj : Object),
    count_kind .OPEN_PAREN (tokens_of obj) = list_starts obj
  | .PAIR car cdr => by
    rw [tokens_of, count_kind_cons, count_kind_append, count_open_tokens_of car,
      count_open_rest_tokens_of cdr, list_starts]
    simp
    omega
  | .EMPTY_LIST => by simp [tokens_of, count_kind, list_starts]
  | .INTEGER _ => by simp [tokens_of, count_kind, list_starts]
  | .FLOAT _ => by simp [tokens_of, count_kind, list_starts]
  | .CHAR _ => by simp [tokens_of, count_kind, list_starts]
  | .SYMBOL _ => by simp [tokens_of, count_kind, list_starts]
  | .STRING _ => by simp [tokens_of, count_kind, list_starts]
  | .ARRAY => by simp [tokens_of, count_kind, list_starts]
  | .LAMBDA => by simp [tokens_of, count_kind, list_starts]
  | .MACRO => by simp [tokens_of, count_kind, list_starts]
  | .ENVIRONMENT => by simp [tokens_of, count_kind, list_starts]
theorem count_open_rest_tokens_of : ∀ (obj : Object),
    count_kind .OPEN_PAREN (rest_tokens_of obj) = cdr_starts obj
  | .PAIR car cdr => by
    rw [rest_tokens_of, count_kind_cons, count_kind_append, count_open_tokens_of car,
      count_open_rest_tokens_of cdr, cdr_starts]
    simp
  | .EMPTY_LIST => by simp [rest_tokens_of, count_kind, cdr_starts]
  | .INTEGER _ => by simp [rest_tokens_of, count_kind, cdr_starts]
  | .FLOAT _ => by simp [rest_tokens_of, count_kind, cdr_starts]
  | .CHAR _ => by simp [rest_tokens_of, count_kind, cdr_starts]
  | .SYMBOL _ => by simp [rest_tokens_of, count_kind, cdr_starts]
  | .STRING _ => by simp [rest_tokens_of, count_kind, cdr_starts]
  | .ARRAY => by simp [rest_tokens_of, count_kind, cdr_starts]
  | .LAMBDA => by simp [rest_tokens_of, count_kind, cdr_starts]
  | .MACRO => by simp [rest_tokens_of, count_kind, cdr_starts]
  | .ENVIRONMENT => by simp [rest_tokens_of, count_kind, cdr_starts]
end

/-- C12 (paren balance): the token list that `add_to_token_list` produces for a tree is
balanced. In every prefix there are at least as many open parens as close parens, the
totals are equal, and the number of open parens is the number of pairs of the tree that
start a list. -/
theorem paren_balance (obj : Object) (toks : List FormToken)
    (h : add_to_token_list obj [] = .ok toks) :
    (∀ k, count_kind .CLOSE_PAREN (toks.take k) ≤ count_kind .OPEN_PAREN (toks.take k)) ∧
      count_kind .OPEN_PAREN toks = count_kind .CLOSE_PAREN toks ∧
      count_kind .OPEN_PAREN toks = list_starts obj := by
  obtain ⟨e, hs⟩ := add_to_token_list_spec obj [] toks h
  simp only [List.nil_append] at e
  subst e
  have hd : paren_depth 0 (tokens_of obj) = some 0 := by
    have := paren_depth_tokens obj hs 0 []
    simpa [paren_depth] using this
  obtain ⟨i1, i2⟩ := paren_depth_counts _ _ _ hd
  refine ⟨fun k => by simpa using i1 k, by omega, count_open_tokens_of obj⟩

/-- Witness for C12: the tree `(a (b) c)` has two pairs that start a list, and its tokens
have two open and two close parens. -/
theorem paren_balance_witness :
    count_kind .CLOSE_PAREN
        ((tokens_of (build_list [.SYMBOL "a", build_list [.SYMBOL "b"], .SYMBOL "c"])).take 6)
      ≤ count_kind .OPEN_PAREN
        ((tokens_of (build_list [.SYMBOL "a", build_list [.SYMBOL "b"], .SYMBOL "c"])).take 6) ∧
      count_kind .OPEN_PAREN
          (tokens_of (build_list [.SYMBOL "a", build_list [.SYMBOL "b"], .SYMBOL "c"]))
        = count_kind .CLOSE_PAREN
          (tokens_of (build_list [.SYMBOL "a", build_list [.SYMBOL "b"], .SYMBOL "c"])) ∧
      count_kind .OPEN_PAREN
          (tokens_of (build_list [.SYMBOL "a", build_list [.SYMBOL "b"], .SYMBOL "c"]))
        = list_starts (build_list [.SYMBOL "a", build_list [.SYMBOL "b"], .SYMBOL "c"]) ∧
      list_starts (build_list [.SYMBOL "a", build_list [.SYMBOL "b"], .SYMBOL "c"]) = 2 :=
  ⟨(paren_balance (build_list [.SYMBOL "a", build_list [.SYMBOL "b"], .SYMBOL "c"]) _
      (by rfl)).1 6,
    (paren_balance (build_list [.SYMBOL "a", build_list [.SYMBOL "b"], .SYMBOL "c"]) _
      (by rfl)).2.1,
    (paren_balance (build_list [.SYMBOL "a", build_list [.SYMBOL "b"], .SYMBOL "c"]) _
      (by rfl)).2.2, by rfl⟩

theorem add_atom_error {obj : Object} {acc : List FormToken} {e : Err}
    (h : add_atom_to_token_list obj acc = .error e) : e = .runtime_error unsupported_message := by
  cases obj <;> simp [add_atom_to_token_list] at h <;> exact h.symm

theorem add_improper_tail_error {obj : Object} {acc : List FormToken} {e : Err}
    (h : add_improper_tail obj acc = .error e) : e = .runtime_error unsupported_message := by
  unfold add_improper_tail at h
  split at h
  · next e1 h1 =>
    simp only [Except.error.injEq] at h
    subst h
    exact add_atom_error h1
  · simp at h

mutual
theorem add_to_token_list_error : ∀ (obj : Object) (acc : List FormToken) (e : Err),
    add_to_token_list obj acc = .error e → e = .runtime_error unsupported_message
  | .PAIR car cdr, acc, e, h => by
    simp only [add_to_token_list] at h
    split at h
    · next e1 h1 =>
      simp only [Except.error.injEq] at h
      subst h
      exact add_to_token_list_error car _ _ h1
    · exact add_list_rest_error cdr _ _ h
  | .EMPTY_LIST, acc, e, h => add_atom_error (by simpa [add_to_token_list] using h)
  | .INTEGER _, acc, e, h => add_atom_error (by simpa [add_to_token_list] using h)
  | .FLOAT _, acc, e, h => add_atom_error (by simpa [add_to_token_list] using h)
  | .CHAR _, acc, e, h => add_atom_error (by simpa [add_to_token_list] using h)
  | .SYMBOL _, acc, e, h => add_atom_error (by simpa [add_to_token_list] using h)
  | .STRING _, acc, e, h => add_atom_error (by simpa [add_to_token_list] using h)
  | .ARRAY, acc, e, h => add_atom_error (by simpa [add_to_token_list] using h)
  | .LAMBDA, acc, e, h => add_atom_error (by simpa [add_to_token_list] using h)
  | .MACRO, acc, e, h => add_atom_error (by simpa [add_to_token_list] using h)
  | .ENVIRONMENT, acc, e, h => add_atom_error (by simpa [add_to_token_list] using h)
theorem add_list_rest_error : ∀ (obj : Object) (acc : List FormToken) (e : Err),
    add_list_rest obj acc = .error e → e = .runtime_error unsupported_message
  | .PAIR car cdr, acc, e, h => by
    simp only [add_list_rest] at h
    split at h
    · next e1 h1 =>
      simp only [Except.error.injEq] at h
      subst h
      exact add_to_token_list_error car _ _ h1
    · exact add_list_rest_error cdr _ _ h
  | .EMPTY_LIST, acc, e, h => by simp [add_list_rest] at h
  | .INTEGER _, acc, e, h => add_improper_tail_error (by simpa [add_list_rest] using h)
  | .FLOAT _, acc, e, h => add_improper_tail_error (by simpa [add_list_rest] using h)
  | .CHAR _, acc, e, h => add_improper_tail_error (by simpa [add_list_rest] using h)
  | .SYMBOL _, acc, e, h => add_improper_tail_error (by simpa [add_list_rest] using h)
  | .STRING _, acc, e, h => add_improper_tail_error (by simpa [add_list_rest] using h)
  | .ARRAY, acc, e, h => add_improper_tail_error (by simpa [add_list_rest] using h)
  | .LAMBDA, acc, e, h => add_improper_tail_error (by simpa [add_list_rest] using h)
  | .MACRO, acc, e, h => add_improper_tail_error (by simpa [add_list_rest] using h)
  | .ENVIRONMENT, acc, e, h => add_improper_tail_error (by simpa [add_list_rest] using h)
end

/-- C15, as the code has it: on a tree with an array, lambda, macro or environment node,
`add_to_token_list` and `to_string` fail with a `std::runtime_error` whose message is one
fixed text, the same for the four kinds. -/
theorem unsupported_kind_error (obj : Object) (acc : List FormToken) (w : Int)
    (h : ¬ supported obj) :
    add_to_token_list obj acc = .error (.runtime_error unsupported_message) ∧
      to_string obj w = .error (.runtime_error unsupported_message) := by
  have key : ∀ acc, add_to_token_list obj acc = .error (.runtime_error unsupported_message) := by
    intro acc
    cases hr : add_to_token_list obj acc with
    | ok toks => exact absurd (add_to_token_list_spec obj acc toks hr).2 h
    | error e => rw [add_to_token_list_error obj acc e hr]
  refine ⟨key acc, ?_⟩
  simp [to_string, key, bind, Except.bind]

/-- Witness for C15: the list `(a . #<array>)`. -/
theorem unsupported_kind_error_witness :
    add_to_token_list (.PAIR (.SYMBOL "a") .ARRAY) []
        = .error (.runtime_error unsupported_message) ∧
      to_string (.PAIR (.SYMBOL "a") .ARRAY) 80 = .error (.runtime_error unsupported_message) :=
  unsupported_kind_error (.PAIR (.SYMBOL "a") .ARRAY) [] 80 (by simp [supported])

/-- C15, counterexample: the failures for an array and for a lambda are the same error,
with the same message; so are those for a macro and an environment. -/
theorem unsupported_kinds_same_error :
    add_to_token_list .ARRAY [] = add_to_token_list .LAMBDA [] ∧
      add_to_token_list .LAMBDA [] = add_to_token_list .MACRO [] ∧
      add_to_token_list .MACRO [] = add_to_token_list .ENVIRONMENT [] ∧
      to_string .ARRAY 80 = to_string .LAMBDA 80 ∧
      to_string .ARRAY 80 = to_string .MACRO 80 ∧
      to_string .ARRAY 80 = to_string .ENVIRONMENT 80 ∧
      to_string .ARRAY 80
        = .error (.runtime_error
            "tried to pretty print a goos object kind which is not supported.") :=
  ⟨rfl, rfl, rfl, rfl, rfl, rfl, rfl⟩

theorem intercalate_cons {α : Type} (sep x : List α) (xs : List (List α)) :
    List.intercalate sep (x :: xs) = x ++ xs.flatMap (fun y => sep ++ y) := by
  induction xs generalizing x with
  | nil => simp [List.intercalate]
  | cons y ys ih =>
    have h := ih y
    simp only [List.intercalate, List.intersperse, List.flatten_cons, List.flatMap_cons,
      List.append_assoc] at h ⊢
    rw [h]

mutual
theorem ref_tokens_eq : ∀ (obj : Object), supported obj → ref_tokens obj = tokens_of obj
  | .PAIR car cdr, h => by
    rw [ref_tokens, tokens_of, intercalate_cons, ref_tokens_eq car h.1,
      ← rest_tokens_of_eq cdr h.2]
    simp
  | .EMPTY_LIST, _ => rfl
  | .INTEGER _, _ => rfl
  | .FLOAT _, _ => rfl
  | .CHAR _, _ => rfl
  | .SYMBOL _, _ => rfl
  | .STRING _, _ => rfl
  | .ARRAY, h => by simp [supported] at h
  | .LAMBDA, h => by simp [supported] at h
  | .MACRO, h => by simp [supported] at h
  | .ENVIRONMENT, h => by simp [supported] at h
theorem rest_tokens_of_eq : ∀ (obj : Object), supported obj →
    (ref_elements obj).flatMap (fun y => [⟨.WHITESPACE, ""⟩] ++ y) ++ ref_tail obj
        ++ [⟨.CLOSE_PAREN, ""⟩] = rest_tokens_of obj
  | .PAIR car cdr, h => by
    rw [ref_elements, ref_tail, rest_tokens_of, List.flatMap_cons, ref_tokens_eq car h.1,
      ← rest_tokens_of_eq cdr h.2]
    simp
  | .EMPTY_LIST, _ => rfl
  | .INTEGER _, _ => rfl
  | .FLOAT _, _ => rfl
  | .CHAR _, _ => rfl
  | .SYMBOL _, _ => rfl
  | .STRING _, _ => rfl
  | .ARRAY, h => by simp [supported] at h
  | .LAMBDA, h => by simp [supported] at h
  | .MACRO, h => by simp [supported] at h
  | .ENVIRONMENT, h => by simp [supported] at h
end

/-- C16 (the tokenizer against its reference definition): for every supported tree
`add_to_token_list` appends the reference token list: one string token for a leaf, and
for a list an open paren, the tokens of the elements with one whitespace token between
consecutive elements, for an improper list a whitespace, a dot, a whitespace and the
tail, and a close paren. -/
theorem add_to_token_list_eq_reference (obj : Object) (acc : List FormToken)
    (h : supported obj) : add_to_token_list obj acc = .ok (acc ++ ref_tokens obj) := by
  rw [ref_tokens_eq obj h]
  exact add_to_token_list_of_supported obj acc h

/-- Witness for C16: the improper list `(a (b) () . c)`. -/
theorem add_to_token_list_eq_reference_witness :
    supported (.PAIR (.SYMBOL "a") (.PAIR (build_list [.SYMBOL "b"])
        (.PAIR .EMPTY_LIST (.SYMBOL "c")))) ∧
      ref_tokens (.PAIR (.SYMBOL "a") (.PAIR (build_list [.SYMBOL "b"])
          (.PAIR .EMPTY_LIST (.SYMBOL "c"))))
        = [⟨.OPEN_PAREN, ""⟩, ⟨.STRING, "a"⟩, ⟨.WHITESPACE, ""⟩, ⟨.OPEN_PAREN, ""⟩,
            ⟨.STRING, "b"⟩, ⟨.CLOSE_PAREN, ""⟩, ⟨.WHITESPACE, ""⟩, ⟨.EMPTY_PAIR, ""⟩,
            ⟨.WHITESPACE, ""⟩, ⟨.DOT, ""⟩, ⟨.WHITESPACE, ""⟩, ⟨.STRING, "c"⟩,
            ⟨.CLOSE_PAREN, ""⟩] ∧
      add_to_token_list (.PAIR (.SYMBOL "a") (.PAIR (build_list [.SYMBOL "b"])
          (.PAIR .EMPTY_LIST (.SYMBOL "c")))) []
        = .ok ([] ++ ref_tokens (.PAIR (.SYMBOL "a") (.PAIR (build_list [.SYMBOL "b"])
            (.PAIR .EMPTY_LIST (.SYMBOL "c"))))) :=
  ⟨by simp [supported, build_list], by rfl,
    add_to_token_list_eq_reference _ [] (by simp [supported, build_list])⟩

/-- The tokens and links of a list, at its open paren. -/
theorem list_tokens_at {toks : List FormToken} {links : List (Option Nat)} {e1 : Object}
    {es : List Object} {p : Nat} {e : Option Nat}
    (ht : List.IsPrefix (tokens_of (build_list (e1 :: es))) (toks.drop p))
    (hk : List.IsPrefix (links_of (build_list (e1 :: es)) p e) (links.drop p)) :
    toks[p]? = some ⟨.OPEN_PAREN, ""⟩ ∧
      links[p]? = some (some (p + elts_width (e1 :: es))) ∧
      List.IsPrefix (tokens_of e1) (toks.drop (p + 1)) ∧
      List.IsPrefix (links_of e1 (p + 1) (some p)) (links.drop (p + 1)) ∧
      List.IsPrefix (rest_tokens_of (build_list es)) (toks.drop (p + 1 + (tokens_of e1).length)) ∧
      List.IsPrefix (rest_links_of (build_list es) (p + 1 + (tokens_of e1).length) p)
        (links.drop (p + 1 + (tokens_of e1).length)) ∧
      p + elts_width (e1 :: es) < toks.length := by
  simp only [build_list, tokens_of, links_of] at ht hk
  obtain ⟨t1, t2, _⟩ := prefix_drop_head ht
  obtain ⟨t3, t4⟩ := prefix_drop_append t2
  obtain ⟨k1, k2, _⟩ := prefix_drop_head hk
  obtain ⟨k3, k4⟩ := prefix_drop_append k2
  rw [links_of_length] at k4
  have hlen := rest_tokens_of_build_list es
  refine ⟨t1, ?_, t3, k3, t4, k4, ?_⟩
  · rw [k1, hlen, elts_width_cons]
    congr 2
    omega
  · obtain ⟨tl, htl⟩ := t4
    have := congrArg List.length htl
    simp only [List.length_append, List.length_drop, hlen] at this
    rw [elts_width_cons]
    omega

theorem breakList_entry_facts {toks : List FormToken} {links : List (Option Nat)}
    {s : NodeList} {p : Nat} {lp : PrettyPrinterNode} {q : Option Nat}
    (hl : laid toks links 0 s) (hq : links[p]? = some q)
    (h : breakList_entry s (some p) = .ok lp) :
    lp.id = p ∧ lp.paren = q ∧ laid toks links (p + 1) (nodes_after s p) := by
  obtain ⟨i, hi1, hi2⟩ := breakList_entry_ok h
  have hreal := breakList_entry_real h
  simp only [Option.some.injEq] at hi1
  subst hi1
  have hid := node_at_id hi2
  obtain ⟨_, hafter⟩ := laid_nodes_after hl hi2 hreal
  refine ⟨hid, ?_, hafter⟩
  have := (hl.2.2 lp (node_at_mem hi2) hreal).2
  rw [hid, hq] at this
  simpa using this.symm

theorem laid_node_at {toks : List FormToken} {links : List (Option Nat)} {s : NodeList}
    {c : Nat} (hl : laid toks links 0 s) (hc : c < toks.length) :
    ∃ n, node_at s c = some n ∧ n.is_line_separator = false ∧ n.id = c ∧
      n.tok = toks[c]? ∧ links[c]? = some n.paren ∧
      laid toks links (c + 1) (nodes_after s c) := by
  obtain ⟨_, n, hn, hreal⟩ := numbered_from_nodes_from s 0 c hl.1 hl.2.1 (Nat.zero_le _) hc
  have hid := node_at_id hn
  obtain ⟨c1, c2⟩ := hl.2.2 n (node_at_mem hn) hreal
  rw [hid] at c1 c2
  exact ⟨n, hn, hreal, hid, c1, c2, (laid_nodes_after hl hn hreal).2⟩

/-- The scan along a line without separators stops at the first token of the kinds looked
for. -/
theorem scan_line_laid {toks : List FormToken} {links : List (Option Nat)}
    (kinds : List TokenKind) (line : Int) (f : Nat) :
    ∀ (l : NodeList) (a : Nat), laid toks links a l →
      (∀ n ∈ l, n.is_line_separator = false ∧ n.line = line) →
      (∀ i, a ≤ i → i < f → ∃ t, toks[i]? = some t ∧ t.kind ∉ kinds) →
      (∃ t, toks[f]? = some t ∧ t.kind ∈ kinds) → a ≤ f →
      scan_line kinds line l = .ok (some f) := by
  intro l
  induction l with
  | nil =>
    intro a hl _ _ hf haf
    have := laid_nil hl
    obtain ⟨t, ht, _⟩ := hf
    rw [List.getElem?_eq_none (by omega)] at ht
    simp at ht
  | cons n rest ih =>
    intro a hl hflat hnot hf haf
    obtain ⟨hr, hline⟩ := hflat n (by simp)
    obtain ⟨g1, g2, g3, g4, g5⟩ := (laid_cons hl).2 hr
    by_cases hfa : a = f
    · subst hfa
      obtain ⟨t, ht, hk⟩ := hf
      rw [ht] at g3
      simp [scan_line, hr, hline, tok_of, g3, hk, g1]
    · obtain ⟨t, ht, hk⟩ := hnot a (Nat.le_refl _) (by omega)
      rw [ht] at g3
      simp only [scan_line, hr, hline, tok_of, g3, hk, Bool.not_false, and_self, if_true,
        if_false]
      exact ih (a + 1) g5 (fun m hm => hflat m (List.mem_cons_of_mem _ hm))
        (fun i h1 h2 => hnot i (by omega) h2) hf (by omega)

theorem scan_next_on_line_laid {toks : List FormToken} {links : List (Option Nat)}
    (kinds : List TokenKind) {s : NodeList} (hl : laid toks links 0 s)
    (hflat : ∀ n ∈ s, n.is_line_separator = false ∧ n.line = 0) (c f : Nat) (hc : c < f)
    (hnot : ∀ i, c < i → i < f → ∃ t, toks[i]? = some t ∧ t.kind ∉ kinds)
    (hf : ∃ t, toks[f]? = some t ∧ t.kind ∈ kinds) :
    scan_next_on_line kinds s (some c) = .ok (some f) := by
  have hfT : f < toks.length := by
    obtain ⟨t, ht, _⟩ := hf
    by_contra hge
    rw [List.getElem?_eq_none (by omega)] at ht
    simp at ht
  obtain ⟨n, hn, hreal, hid, _, _, hafter⟩ := laid_node_at hl (show c < toks.length by omega)
  have hflat1 : ∀ m ∈ nodes_after s c, m.is_line_separator = false ∧ m.line = 0 :=
    fun m hm => hflat m (mem_nodes_after hm)
  have hscan := scan_line_laid kinds 0 f (nodes_after s c) (c + 1) hafter hflat1
    (fun i h1 h2 => hnot i (by omega) h2) hf (by omega)
  have hline := (hflat n (node_at_mem hn)).2
  simp only [scan_next_on_line, deref, hn, bind, Except.bind, assert, hreal, Bool.not_false,
    if_true, hid, hline]
  cases hna : nodes_after s c with
  | nil =>
    rw [hna] at hafter
    have := laid_nil hafter
    omega
  | cons m rest =>
    rw [hna] at hscan
    have hm := (hflat1 m (by rw [hna]; simp)).1
    simp [hm, hscan]

/-- The nodes of the list that `to_string` builds are tokens on line 0. -/
theorem build_linked_flat (toks : List FormToken) (ls : List (Option Nat)) (b : Nat)
    (off : Int) : ∀ n ∈ build_linked b off toks ls, n.is_line_separator = false ∧ n.line = 0 := by
  intro n hn
  obtain ⟨_, _, _, h3, h4, _⟩ := mem_build_linked _ _ _ _ _ hn
  exact ⟨h3, h4⟩

/-- The search that skips separators and whitespace stops at the next token that is not
whitespace. -/
theorem skip_blank_laid {toks : List FormToken} {links : List (Option Nat)} (f : Nat) :
    ∀ (l : NodeList) (a : Nat), laid toks links a l →
      (∀ i, a ≤ i → i < f → ∃ t, toks[i]? = some t ∧ t.kind = .WHITESPACE) →
      (∃ t, toks[f]? = some t ∧ t.kind ≠ .WHITESPACE) → a ≤ f →
      skip_blank l = some f := by
  intro l
  induction l with
  | nil =>
    intro a hl _ hf haf
    have := laid_nil hl
    obtain ⟨t, ht, _⟩ := hf
    rw [List.getElem?_eq_none (by omega)] at ht
    simp at ht
  | cons n rest ih =>
    intro a hl hws hf haf
    obtain ⟨f1, f2⟩ := laid_cons hl
    cases hr : n.is_line_separator with
    | true =>
      simp only [skip_blank, hr, if_true]
      exact ih a (f1 hr).2 hws hf haf
    | false =>
      obtain ⟨g1, g2, g3, g4, g5⟩ := f2 hr
      by_cases hfa : a = f
      · subst hfa
        obtain ⟨t, ht, hk⟩ := hf
        rw [ht] at g3
        simp [skip_blank, hr, g3, hk, g1]
      · obtain ⟨t, ht, hk⟩ := hws a (Nat.le_refl _) (by omega)
        rw [ht] at g3
        simp only [skip_blank, hr, g3, hk, if_true, Bool.false_eq_true, if_false]
        exact ih (a + 1) g5 (fun i h1 h2 => hws i (by omega) h2) hf (by omega)

/-- The body of the loop of `insertSpecialBreaks` at a string token, rule by rule. -/
theorem special_breaks_at_string {s s1 : NodeList} {fuel p : Nat} {n1 : PrettyPrinterNode}
    {name : String} (hn : node_at s p = some n1) (hreal : n1.is_line_separator = false)
    (htok : n1.tok = some ⟨.STRING, name⟩) (h : special_breaks_at fuel s p = .ok s1) :
    ∃ sa sb sc sd,
      (if name = "deftype" then special_deftype s n1 else pure s) = .ok sa ∧
      (if name = "begin" then breakList sa n1.paren else pure sa) = .ok sb ∧
      (if name = "defun" ∨ name = "defmethod" ∨ name = "defun-debug" ∨ name = "let" ∨
          name = "let*" ∨ name = "rlet" then special_define sb n1 name else pure sb) = .ok sc ∧
      (if name ∈ control_flow_start_forms then special_control_flow sc n1 else pure sc)
        = .ok sd ∧
      (if name = "cond" then special_cond fuel sd n1 else pure sd) = .ok s1 := by
  unfold special_breaks_at at h
  obtain ⟨node, hd, h⟩ := bind_eq_ok h
  have hnode : node = n1 := by
    simp only [deref, hn, Except.ok.injEq] at hd
    exact hd.symm
  subst hnode
  rw [if_neg (by simp [hreal])] at h
  obtain ⟨t, ht, h⟩ := bind_eq_ok h
  have htt : t = ⟨.STRING, name⟩ := by
    simp only [tok_of, htok, Except.ok.injEq] at ht
    exact ht.symm
  subst htt
  rw [if_neg (by simp)] at h
  dsimp only at h
  obtain ⟨sa, h1, h⟩ := bind_eq_ok h
  obtain ⟨sb, h2, h⟩ := bind_eq_ok h
  obtain ⟨sc, h3, h⟩ := bind_eq_ok h
  obtain ⟨sd, h4, h⟩ := bind_eq_ok h
  exact ⟨sa, sb, sc, sd, h1, h2, h3, h4, h⟩

theorem plain_atom_supported {e : Object} (h : plain_atom e) : supported e := by
  obtain ⟨t, ht, hk⟩ := h
  cases e with
  | PAIR a b =>
    simp only [tokens_of, List.cons.injEq] at ht
    rw [← ht.1] at hk
    exact absurd hk (by decide)
  | ARRAY => simp [tokens_of] at ht
  | LAMBDA => simp [tokens_of] at ht
  | MACRO => simp [tokens_of] at ht
  | ENVIRONMENT => simp [tokens_of] at ht
  | EMPTY_LIST => trivial
  | INTEGER _ => trivial
  | FLOAT _ => trivial
  | CHAR _ => trivial
  | SYMBOL _ => trivial
  | STRING _ => trivial

/-- The tokens and links of a list `(name e1 ... en)` headed by a symbol. -/
theorem form_facts (name : String) (es : List Object) :
    (tokens_of (build_list (.SYMBOL name :: es)))[0]? = some ⟨.OPEN_PAREN, ""⟩ ∧
      (tokens_of (build_list (.SYMBOL name :: es)))[1]? = some ⟨.STRING, name⟩ ∧
      (links_of (build_list (.SYMBOL name :: es)) 0 none)[1]? = some (some 0) ∧
      List.IsPrefix (rest_tokens_of (build_list es))
        ((tokens_of (build_list (.SYMBOL name :: es))).drop 2) ∧
      List.IsPrefix (rest_links_of (build_list es) 2 0)
        ((links_of (build_list (.SYMBOL name :: es)) 0 none).drop 2) ∧
      (tokens_of (build_list (.SYMBOL name :: es))).length = 3 + elts_width es := by
  have hlen := rest_tokens_of_build_list es
  refine ⟨by simp [build_list, tokens_of], by simp [build_list, tokens_of],
    by simp [build_list, links_of], ?_, ?_, ?_⟩
  · simp [build_list, tokens_of]
  · simp [build_list, links_of, tokens_of]
  · simp only [build_list, tokens_of, List.length_cons, List.length_append, hlen,
      List.length_singleton, List.length_nil]
    omega

theorem supported_build_list {l : List Object} (h : supported (build_list l)) :
    ∀ z ∈ l, supported z := by
  induction l with
  | nil => intro z hz; simp at hz
  | cons a l ih =>
    intro z hz
    rcases List.mem_cons.1 hz with hz | hz
    · subst hz; exact h.1
    · exact ih h.2 z hz

theorem elts_width_symbol (name : String) (l : List Object) :
    elts_width (.SYMBOL name :: l) = 2 + elts_width l := by
  rw [elts_width_cons]; simp [tokens_of]

/-- `breakList` on the open paren of a list: a separator stands behind its first
element. -/
theorem breakList_breaks_first {toks : List FormToken} {links : List (Option Nat)}
    {s s1 : NodeList} (car cdr : Object) (hs : supported (.PAIR car cdr)) (p : Nat)
    (e : Option Nat) (hl : laid toks links 0 s)
    (ht : List.IsPrefix (tokens_of (.PAIR car cdr)) (toks.drop p))
    (hk : List.IsPrefix (links_of (.PAIR car cdr) p e) (links.drop p))
    (h : breakList s (some p) = .ok s1) :
    sep_after s1 (p + (tokens_of car).length) := by
  simp only [tokens_of, links_of] at ht hk
  obtain ⟨t1, t2, _⟩ := prefix_drop_head ht
  obtain ⟨t3, t4⟩ := prefix_drop_append t2
  obtain ⟨k1, k2, _⟩ := prefix_drop_head hk
  obtain ⟨k3, k4⟩ := prefix_drop_append k2
  have hpos := rest_tokens_of_pos hs.2
  have hT : p + (tokens_of car).length + (rest_tokens_of cdr).length < toks.length := by
    obtain ⟨tl, htl⟩ := t4
    have := congrArg List.length htl
    simp only [List.length_append, List.length_drop] at this
    omega
  unfold breakList at h
  obtain ⟨lp, h2, h⟩ := bind_eq_ok h
  obtain ⟨r, h3, h⟩ := bind_eq_ok h
  simp only [pure, Except.pure, Except.ok.injEq] at h
  subst h
  obtain ⟨hid, hpar, hafter⟩ := breakList_entry_facts hl k1 h2
  rw [hid, hpar] at h3
  have hfe : ∀ g, (none : Option Nat) = some g → g < toks.length := by
    intro g hg; simp at hg
  obtain ⟨post, fresh1, r1, X, q1, q2, q3, q4⟩ :=
    breakList_walk_elt s (p + (tokens_of car).length + (rest_tokens_of cdr).length) none hT hfe
      car hs.1 (p + 1) (nodes_after s p) s.length r (some p) hafter t3 k3 (by omega) true
      (Or.inl rfl) h3
  have hadd : p + 1 + (tokens_of car).length - 1 = p + (tokens_of car).length := by omega
  rw [hadd] at q4
  exact sep_after_append _ (sep_after_append [lp] q4)

/-- The tokens and links at the open paren of a list. -/
theorem pair_facts {toks : List FormToken} {links : List (Option Nat)} {car cdr : Object}
    {p : Nat} {e : Option Nat} (hs : supported (.PAIR car cdr))
    (ht : List.IsPrefix (tokens_of (.PAIR car cdr)) (toks.drop p))
    (hk : List.IsPrefix (links_of (.PAIR car cdr) p e) (links.drop p)) :
    toks[p]? = some ⟨.OPEN_PAREN, ""⟩ ∧
      links[p]? = some (some (p + (tokens_of (.PAIR car cdr)).length - 1)) ∧
      (tokens_of car).length + 2 ≤ (tokens_of (.PAIR car cdr)).length ∧
      p + (tokens_of (.PAIR car cdr)).length ≤ toks.length := by
  have hpos := rest_tokens_of_pos hs.2
  have hlen : (tokens_of (.PAIR car cdr)).length
      = (tokens_of car).length + (rest_tokens_of cdr).length + 1 := by
    simp [tokens_of]
  obtain ⟨tl, htl⟩ := ht
  have hL := congrArg List.length htl
  simp only [List.length_append, List.length_drop] at hL
  have ht : List.IsPrefix (tokens_of (.PAIR car cdr)) (toks.drop p) := ⟨tl, htl⟩
  simp only [tokens_of, links_of] at ht hk
  obtain ⟨t1, _, _⟩ := prefix_drop_head ht
  obtain ⟨k1, _, _⟩ := prefix_drop_head hk
  refine ⟨t1, ?_, by omega, by omega⟩
  rw [k1, hlen]
  congr 2
  omega

/-- The loop of the `cond` rule over the clauses `k1 ... kn`, all of them lists: in every
clause a separator stands behind the first element. -/
theorem break_cond_cases_effect {toks : List FormToken} {links : List (Option Nat)} (o : Nat) :
    ∀ (ks : List Object) (k1 : Object), (∀ k ∈ k1 :: ks, supported k ∧ ∃ a d, k = .PAIR a d) →
      ∀ (fuel : Nat) (s s1 : NodeList) (a : Nat), laid toks links 0 s →
        List.IsPrefix (rest_tokens_of (build_list (k1 :: ks))) (toks.drop a) →
        List.IsPrefix (rest_links_of (build_list (k1 :: ks)) a o) (links.drop a) →
        break_cond_cases fuel s (some (a + 1)) = .ok s1 →
        ∀ c1 car cdr c2, k1 :: ks = c1 ++ .PAIR car cdr :: c2 →
          sep_after s1 (a + elts_width c1 + 1 + (tokens_of car).length) := by
  intro ks
  induction ks with
  | nil =>
    intro k1 hk fuel s s1 a hl ht hlk h c1 car cdr c2 hc
    obtain ⟨hs1, a1, d1, rfl⟩ := hk k1 (by simp)
    have hc1 : c1 = [] ∧ car = a1 ∧ cdr = d1 := by
      cases c1 with
      | nil =>
        simp only [List.nil_append, List.cons.injEq, Object.PAIR.injEq] at hc
        exact ⟨rfl, hc.1.1.symm, hc.1.2.symm⟩
      | cons z c1 => simp at hc
    obtain ⟨rfl, rfl, rfl⟩ := hc1
    cases fuel with
    | zero => simp [break_cond_cases] at h
    | succ fuel =>
      simp only [build_list, rest_tokens_of, rest_links_of] at ht hlk
      obtain ⟨_, t2, _⟩ := prefix_drop_head ht
      obtain ⟨t3, _⟩ := prefix_drop_append t2
      obtain ⟨_, k2, _⟩ := prefix_drop_head hlk
      obtain ⟨k3, _⟩ := prefix_drop_append k2
      simp only [break_cond_cases] at h
      obtain ⟨sc, _, h⟩ := bind_eq_ok h
      obtain ⟨st, _, h⟩ := bind_eq_ok h
      obtain ⟨_, _, h⟩ := bind_eq_ok h
      obtain ⟨ec, _, h⟩ := bind_eq_ok h
      obtain ⟨et, _, h⟩ := bind_eq_ok h
      obtain ⟨_, _, h⟩ := bind_eq_ok h
      obtain ⟨sa, hb, h⟩ := bind_eq_ok h
      have key := breakList_breaks_first car cdr hs1 (a + 1) (some o) hl t3 k3 hb
      have Ea : Evolves sa s1 := by
        split at h
        · simp [pure, Except.pure] at h; subst h; exact Evolves.stay _
        · obtain ⟨nx, _, h⟩ := bind_eq_ok h
          obtain ⟨nt, _, h⟩ := bind_eq_ok h
          split at h
          · simp [pure, Except.pure] at h; subst h; exact Evolves.stay _
          · split at h
            · simp [pure, Except.pure] at h; subst h; exact Evolves.stay _
            · exact break_cond_cases_evolves _ _ _ _ h
      have := Ea.1.sep_after _ key
      simpa [elts_width] using this
  | cons k2 ks ih =>
    intro k1 hk fuel s s1 a hl ht hlk h c1 car cdr c2 hc
    obtain ⟨hs1, a1, d1, hk1⟩ := hk k1 (by simp)
    obtain ⟨hs2, a2, d2, hk2⟩ := hk k2 (by simp)
    cases fuel with
    | zero => simp [break_cond_cases] at h
    | succ fuel =>
      simp only [build_list, rest_tokens_of, rest_links_of] at ht hlk
      obtain ⟨_, t2, _⟩ := prefix_drop_head ht
      obtain ⟨t3, t4⟩ := prefix_drop_append t2
      obtain ⟨_, k2l, _⟩ := prefix_drop_head hlk
      obtain ⟨k3, k4⟩ := prefix_drop_append k2l
      rw [links_of_length] at k4
      obtain ⟨u1, u2, _⟩ := prefix_drop_head t4
      obtain ⟨u3, _⟩ := prefix_drop_append u2
      obtain ⟨_, w2, _⟩ := prefix_drop_head k4
      obtain ⟨w3, _⟩ := prefix_drop_append w2
      subst hk1 hk2
      obtain ⟨p1, p2, p3, p4⟩ := pair_facts hs1 t3 k3
      obtain ⟨r1, _, _, r4⟩ := pair_facts hs2 u3 w3
      generalize hL1 : (tokens_of (.PAIR a1 d1)).length = L1 at *
      simp only [break_cond_cases] at h
      obtain ⟨sc, hsc, h⟩ := bind_eq_ok h
      obtain ⟨st, _, h⟩ := bind_eq_ok h
      obtain ⟨_, _, h⟩ := bind_eq_ok h
      obtain ⟨ec, hec, h⟩ := bind_eq_ok h
      obtain ⟨et, _, h⟩ := bind_eq_ok h
      obtain ⟨_, _, h⟩ := bind_eq_ok h
      obtain ⟨sa, hb, h⟩ := bind_eq_ok h
      have Eb := breakList_evolves hb
      have hla := Eb.laid hl
      -- the clause at hand
      have key := breakList_breaks_first a1 d1 hs1 (a + 1) (some o) hl t3 k3 hb
      -- where the close paren of the clause is
      obtain ⟨n, hn, hnreal, hnid, _, hnpar, _⟩ :=
        laid_node_at hl (show a + 1 < toks.length by omega)
      have hscn : sc = n := by
        simp only [deref, hn, Except.ok.injEq] at hsc
        exact hsc.symm
      subst hscn
      rw [p2] at hnpar
      simp only [Option.some.injEq] at hnpar
      obtain ⟨i, hi1, hi2⟩ := deref_ok hec
      rw [← hnpar] at hi1
      simp only [Option.some.injEq] at hi1
      have hecid := node_at_id hi2
      rw [← hi1] at hecid
      obtain ⟨m, hm, hmreal, hmid, _, _, hmafter⟩ :=
        laid_node_at hla (show a + 1 + L1 - 1 < toks.length by omega)
      have hskip : skip_blank (nodes_after sa ec.id) = some (a + 1 + L1 + 1) := by
        rw [hecid]
        refine skip_blank_laid _ _ _ hmafter ?_ ⟨_, r1, by decide⟩ (by omega)
        intro i i1 i2
        have : i = a + 1 + L1 := by omega
        subst this
        exact ⟨_, u1, rfl⟩
      rw [hskip] at h
      simp only at h
      obtain ⟨nx, hnx, h⟩ := bind_eq_ok h
      obtain ⟨nt, hnt, h⟩ := bind_eq_ok h
      obtain ⟨x, hx, hxreal, hxid, hxtok, _, _⟩ :=
        laid_node_at hla (show a + 1 + L1 + 1 < toks.length by omega)
      have hnxx : nx = x := by
        simp only [deref, hx, Except.ok.injEq] at hnx
        exact hnx.symm
      subst hnxx
      rw [r1] at hxtok
      have hntt : nt = ⟨.OPEN_PAREN, ""⟩ := by
        simp only [tok_of, hxtok, Except.ok.injEq] at hnt
        exact hnt.symm
      subst hntt
      rw [if_neg (by decide), if_neg (by simp)] at h
      -- the clauses that follow
      have hrest := ih (.PAIR a2 d2) (fun k hk1 => hk k (List.mem_cons_of_mem _ hk1)) fuel sa s1
        (a + 1 + L1) hla t4 k4 h
      cases c1 with
      | nil =>
        simp only [List.nil_append, List.cons.injEq, Object.PAIR.injEq] at hc
        obtain ⟨⟨rfl, rfl⟩, _⟩ := hc
        have := (break_cond_cases_evolves _ _ _ _ h).1.sep_after _ key
        simpa [elts_width] using this
      | cons z c1 =>
        simp only [List.cons_append, List.cons.injEq] at hc
        obtain ⟨hz, hc⟩ := hc
        subst hz
        have := hrest c1 car cdr c2 hc
        have e : a + elts_width (.PAIR a1 d1 :: c1) + 1 + (tokens_of car).length
            = a + 1 + L1 + elts_width c1 + 1 + (tokens_of car).length := by
          rw [elts_width_cons, hL1]; omega
        rw [e]
        exact this

/-- The separators that the `cond` rule puts into the list built for `(cond k1 ... kn)`,
all `ki` lists: behind the first element of every clause. -/
theorem cond_rule_effect (k1 : Object) (ks : List Object) {fuel : Nat} {s1 : NodeList}
    (hs : supported (build_list (.SYMBOL "cond" :: k1 :: ks)))
    (hk : ∀ k ∈ k1 :: ks, ∃ a d, k = .PAIR a d)
    (h : special_breaks_at fuel
      (build_linked 0 0 (tokens_of (build_list (.SYMBOL "cond" :: k1 :: ks)))
        (links_of (build_list (.SYMBOL "cond" :: k1 :: ks)) 0 none)) 1 = .ok s1) :
    Evolves (build_linked 0 0 (tokens_of (build_list (.SYMBOL "cond" :: k1 :: ks)))
        (links_of (build_list (.SYMBOL "cond" :: k1 :: ks)) 0 none)) s1 ∧
      ∀ c1 car cdr c2, k1 :: ks = c1 ++ .PAIR car cdr :: c2 →
        sep_after s1 (2 + elts_width c1 + 1 + (tokens_of car).length) := by
  have hl := laid_build_linked hs
  obtain ⟨a0, a1, _, a3, a4, a5⟩ := form_facts "cond" (k1 :: ks)
  obtain ⟨n1, hn1, hreal, hid, htok, _, _⟩ := laid_node_at hl (show 1 < _ by omega)
  rw [a1] at htok
  obtain ⟨sa, sb, sc, sd, b1, b2, b3, b4, b5⟩ := special_breaks_at_string hn1 hreal htok h
  rw [if_neg (by decide)] at b1 b2 b3 b4
  rw [if_pos rfl] at b5
  simp only [pure, Except.pure, Except.ok.injEq] at b1 b2 b3 b4
  subst b1 b2 b3 b4
  have hsup := supported_build_list hs
  obtain ⟨ka, kd, hk1⟩ := hk k1 (by simp)
  obtain ⟨w1, w2⟩ := prefix_rest_tokens_elt a3
  have hopen : (tokens_of (build_list (.SYMBOL "cond" :: k1 :: ks)))[3]?
      = some ⟨.OPEN_PAREN, ""⟩ := by
    subst hk1
    simp only [tokens_of] at w2
    exact (prefix_drop_head w2).1
  have hscan : getNextListOnLine
      (build_linked 0 0 (tokens_of (build_list (.SYMBOL "cond" :: k1 :: ks)))
        (links_of (build_list (.SYMBOL "cond" :: k1 :: ks)) 0 none)) (some n1.id)
      = .ok (some (2 + 1)) := by
    rw [hid]
    refine scan_next_on_line_laid [.OPEN_PAREN] hl (build_linked_flat _ _ _ _) 1 3 (by omega)
      ?_ ⟨_, hopen, by simp⟩
    intro i i1 i2
    have : i = 2 := by omega
    subst this
    exact ⟨_, w1, by simp⟩
  simp only [special_cond] at b5
  obtain ⟨sc1, c1, b5⟩ := bind_eq_ok b5
  rw [hscan] at c1
  simp only [Except.ok.injEq] at c1
  subst c1
  obtain ⟨s5, c2, c3⟩ := bind_eq_ok b5
  have E1 := break_cond_cases_evolves _ _ _ _ c2
  have E2 := breakList_evolves c3
  refine ⟨E1.andThen E2, ?_⟩
  intro c1 car cdr cc hc
  have := break_cond_cases_effect 0 ks k1
    (fun k hkm => ⟨hsup k (List.mem_cons_of_mem _ hkm), hk k hkm⟩) fuel _ s5 2 hl a3 a4 c2
    c1 car cdr cc hc
  exact E2.1.sep_after _ this

theorem node_at_append_of_mem {pre : NodeList} {j : Nat} (h : ∃ m ∈ pre, m.id = j)
    (X : NodeList) : node_at (pre ++ X) j = node_at pre j := by
  unfold node_at
  rw [List.find?_append]
  obtain ⟨m, hm, hid⟩ := h
  cases hf : pre.find? (fun n => n.id == j) with
  | none =>
    have := List.find?_eq_none.1 hf m hm
    simp [hid] at this
  | some x => simp

theorem node_at_of_mem {pre : NodeList} {j : Nat} (h : ∃ m ∈ pre, m.id = j) :
    ∃ po, node_at pre j = some po := by
  unfold node_at
  obtain ⟨m, hm, hid⟩ := h
  cases hf : pre.find? (fun n => n.id == j) with
  | none =>
    have := List.find?_eq_none.1 hf m hm
    simp [hid] at this
  | some x => exact ⟨x, rfl⟩

mutual
theorem close_link_before : ∀ (obj : Object) (b : Nat) (e : Option Nat) (i : Nat)
    (t : FormToken), (tokens_of obj)[i]? = some t → t.kind = .CLOSE_PAREN →
      ∃ j, (links_of obj b e)[i]? = some (some j) ∧ j < b + i
  | .PAIR car cdr, b, e, i, t, h, hk => by
    simp only [tokens_of, links_of] at h ⊢
    cases i with
    | zero =>
      simp only [List.getElem?_cons_zero, Option.some.injEq] at h
      subst h
      exact absurd hk (by decide)
    | succ i =>
      simp only [List.getElem?_cons_succ] at h ⊢
      by_cases hi : i < (tokens_of car).length
      · rw [List.getElem?_append_left hi] at h
        rw [List.getElem?_append_left (by rw [links_of_length]; exact hi)]
        obtain ⟨j, h1, h2⟩ := close_link_before car (b + 1) (some b) i t h hk
        exact ⟨j, h1, by omega⟩
      · rw [List.getElem?_append_right (by omega)] at h
        rw [List.getElem?_append_right (by rw [links_of_length]; omega), links_of_length]
        obtain ⟨j, h1, h2⟩ := close_rest_link_before cdr (b + 1 + (tokens_of car).length) b _ t
          h hk (by omega)
        exact ⟨j, h1, by omega⟩
  | .EMPTY_LIST, _, _, i, t, h, hk => by
    cases i <;> simp [tokens_of] at h; subst h; exact absurd hk (by decide)
  | .INTEGER _, _, _, i, t, h, hk => by
    cases i <;> simp [tokens_of] at h; subst h; simp at hk
  | .FLOAT _, _, _, i, t, h, hk => by
    cases i <;> simp [tokens_of] at h; subst h; simp at hk
  | .CHAR _, _, _, i, t, h, hk => by
    cases i <;> simp [tokens_of] at h; subst h; simp at hk
  | .SYMBOL _, _, _, i, t, h, hk => by
    cases i <;> simp [tokens_of] at h; subst h; simp at hk
  | .STRING _, _, _, i, t, h, hk => by
    cases i <;> simp [tokens_of] at h; subst h; simp at hk
  | .ARRAY, _, _, _, _, h, _ => by simp [tokens_of] at h
  | .LAMBDA, _, _, _, _, h, _ => by simp [tokens_of] at h
  | .MACRO, _, _, _, _, h, _ => by simp [tokens_of] at h
  | .ENVIRONMENT, _, _, _, _, h, _ => by simp [tokens_of] at h
theorem close_rest_link_before : ∀ (obj : Object) (b o : Nat) (i : Nat)
    (t : FormToken), (rest_tokens_of obj)[i]? = some t → t.kind = .CLOSE_PAREN → o < b →
      ∃ j, (rest_links_of obj b o)[i]? = some (some j) ∧ j < b + i
  | .PAIR car cdr, b, o, i, t, h, hk, ho => by
    simp only [rest_tokens_of, rest_links_of] at h ⊢
    cases i with
    | zero =>
      simp only [List.getElem?_cons_zero, Option.some.injEq] at h
      subst h
      exact absurd hk (by decide)
    | succ i =>
      simp only [List.getElem?_cons_succ] at h ⊢
      by_cases hi : i < (tokens_of car).length
      · rw [List.getElem?_append_left hi] at h
        rw [List.getElem?_append_left (by rw [links_of_length]; exact hi)]
        obtain ⟨j, h1, h2⟩ := close_link_before car (b + 1) (some o) i t h hk
        exact ⟨j, h1, by omega⟩
      · rw [List.getElem?_append_right (by omega)] at h
        rw [List.getElem?_append_right (by rw [links_of_length]; omega), links_of_length]
        obtain ⟨j, h1, h2⟩ := close_rest_link_before cdr (b + 1 + (tokens_of car).length) o _ t
          h hk (by omega)
        exact ⟨j, h1, by omega⟩
  | .EMPTY_LIST, b, o, i, t, h, hk, ho => by
    cases i with
    | zero => exact ⟨o, by simp [rest_links_of], by omega⟩
    | succ i => simp [rest_tokens_of] at h
  | .INTEGER _, b, o, i, t, h, hk, ho => by
    have hi : i < 5 := by
      by_contra hge
      rw [List.getElem?_eq_none (by simp [rest_tokens_of]; omega)] at h
      simp at h
    refine ⟨o, ?_, by omega⟩
    simp only [rest_links_of]
    interval_cases i <;> rfl
  | .FLOAT _, b, o, i, t, h, hk, ho => by
    have hi : i < 5 := by
      by_contra hge
      rw [List.getElem?_eq_none (by simp [rest_tokens_of]; omega)] at h
      simp at h
    refine ⟨o, ?_, by omega⟩
    simp only [rest_links_of]
    interval_cases i <;> rfl
  | .CHAR _, b, o, i, t, h, hk, ho => by
    have hi : i < 5 := by
      by_contra hge
      rw [List.getElem?_eq_none (by simp [rest_tokens_of]; omega)] at h
      simp at h
    refine ⟨o, ?_, by omega⟩
    simp only [rest_links_of]
    interval_cases i <;> rfl
  | .SYMBOL _, b, o, i, t, h, hk, ho => by
    have hi : i < 5 := by
      by_contra hge
      rw [List.getElem?_eq_none (by simp [rest_tokens_of]; omega)] at h
      simp at h
    refine ⟨o, ?_, by omega⟩
    simp only [rest_links_of]
    interval_cases i <;> rfl
  | .STRING _, b, o, i, t, h, hk, ho => by
    have hi : i < 5 := by
      by_contra hge
      rw [List.getElem?_eq_none (by simp [rest_tokens_of]; omega)] at h
      simp at h
    refine ⟨o, ?_, by omega⟩
    simp only [rest_links_of]
    interval_cases i <;> rfl
  | .ARRAY, _, _, _, _, h, _, _ => by simp [rest_tokens_of] at h
  | .LAMBDA, _, _, _, _, h, _, _ => by simp [rest_tokens_of] at h
  | .MACRO, _, _, _, _, h, _, _ => by simp [rest_tokens_of] at h
  | .ENVIRONMENT, _, _, _, _, h, _, _ => by simp [rest_tokens_of] at h
end

theorem isolated_walk_sep {whole : NodeList} {prev : Option PrettyPrinterNode}
    {b : PrettyPrinterNode} {l : NodeList} (hb : b.is_line_separator = true)
    (h : isolated_walk whole (some b) l) : isolated_walk whole prev (b :: l) := by
  simp only [isolated_walk]
  exact ⟨fun hc => absurd hb (by simp [hc]), h⟩

theorem isolated_walk_close {whole : NodeList} {q c : PrettyPrinterNode} {Y : NodeList}
    (hq : q.is_line_separator = true)
    (hY : Y = [] ∨ ∃ m Y1, Y = m :: Y1 ∧ m.is_line_separator = true)
    (h : isolated_walk whole (some c) Y) : isolated_walk whole (some q) (c :: Y) := by
  simp only [isolated_walk]
  exact ⟨fun _ _ _ _ _ => ⟨⟨q, rfl, hq⟩, hY⟩, h⟩

theorem isolated_walk_plain {whole : NodeList} {prev : Option PrettyPrinterNode}
    {c : PrettyPrinterNode} {Y : NodeList}
    (hc : c.is_line_separator = false → (∃ t, c.tok = some t ∧ t.kind = .CLOSE_PAREN) →
      ∀ po, deref whole c.paren = .ok po → po.line = c.line)
    (h : isolated_walk whole (some c) Y) : isolated_walk whole prev (c :: Y) := by
  simp only [isolated_walk]
  exact ⟨fun h1 h2 po h3 h4 => absurd (hc h1 h2 po h3) h4, h⟩

/-- The first loop of `propagatePretty` isolates the close parens it passes. -/
theorem propagate_lines_isolates {toks : List FormToken} {links : List (Option Nat)}
    (hlk : ∀ (i : Nat) (t : FormToken), toks[i]? = some t → t.kind = .CLOSE_PAREN →
      ∃ j, links[i]? = some (some j) ∧ j < i) :
    ∀ (rest : NodeList) (fresh : Nat) (pre : NodeList) (line : Int) (r : NodeList) (a : Nat),
      laid toks links a rest → (∀ j, j < a → ∃ m ∈ pre, m.id = j) →
      propagate_lines fresh pre line rest = .ok r →
      ∃ r1, r = pre ++ r1 ∧
        (∀ m rest1, rest = m :: rest1 → m.is_line_separator = true → ∃ r2, r1 = m :: r2) ∧
        (rest = [] → r1 = []) ∧ isolated_walk r pre.getLast? r1 := by
  intro rest
  induction rest with
  | nil =>
    intro fresh pre line r a _ _ h
    simp [propagate_lines] at h
    subst h
    exact ⟨[], by simp, by simp, fun _ => rfl, trivial⟩
  | cons n rest ih =>
    intro fresh pre line r a hl hpre h
    obtain ⟨f1, f2⟩ := laid_cons hl
    cases hsep : n.is_line_separator with
    | true =>
      rw [propagate_lines, if_pos hsep] at h
      obtain ⟨r1, e1, _, _, iso⟩ := ih _ _ _ _ a (f1 hsep).2
        (fun j hj => let ⟨m, hm, e⟩ := hpre j hj; ⟨m, by simp [hm], e⟩) h
      refine ⟨n :: r1, by simp [e1], ?_, by simp, ?_⟩
      · intro m rest1 e _
        simp only [List.cons.injEq] at e
        exact ⟨r1, by rw [e.1]⟩
      · exact isolated_walk_sep hsep (by simpa using iso)
    | false =>
      obtain ⟨g1, g2, g3, g4, g5⟩ := f2 hsep
      obtain ⟨t, ht⟩ := getElem?_some_of_lt g2
      rw [ht] at g3
      have ht1 : tok_of ({ n with line := line } : PrettyPrinterNode) = .ok t := by
        simp [tok_of, g3]
      have hids : ∀ (L : NodeList), (∀ m ∈ pre, m ∈ L) →
          ({ n with line := line } : PrettyPrinterNode) ∈ L → ∀ (j : Nat), j < a + 1 →
          ∃ m ∈ L, m.id = j := by
        intro L h1 h2 j hj
        by_cases hja : j < a
        · obtain ⟨m, hm, e⟩ := hpre j hja
          exact ⟨m, h1 m hm, e⟩
        · exact ⟨{ n with line := line }, h2, by simp; omega⟩
      -- the step that appends the node and goes on
      have plain : (t.kind = .CLOSE_PAREN → ∀ po,
            deref r n.paren = .ok po → po.line = line) →
          propagate_lines fresh (pre ++ [{ n with line := line }]) line rest = .ok r →
          ∃ r1, r = pre ++ r1 ∧
            (∀ m rest1, n :: rest = m :: rest1 → m.is_line_separator = true →
              ∃ r2, r1 = m :: r2) ∧
            (n :: rest = [] → r1 = []) ∧ isolated_walk r pre.getLast? r1 := by
        intro hc h
        obtain ⟨r1, e1, _, _, iso⟩ := ih _ _ _ _ (a + 1) g5
          (hids _ (fun m hm => by simp [hm]) (by simp)) h
        refine ⟨{ n with line := line } :: r1, by simp [e1], ?_, by simp, ?_⟩
        · intro m rest1 e hm
          simp only [List.cons.injEq] at e
          rw [← e.1, hsep] at hm
          simp at hm
        · refine isolated_walk_plain ?_ (by simpa using iso)
          intro _ hcl po hpo
          obtain ⟨t1, e1, e2⟩ := hcl
          simp only [g3, Option.some.injEq] at e1
          subst e1
          exact hc e2 po hpo
      rw [propagate_lines, if_neg (by simp [hsep])] at h
      simp only [ht1] at h
      by_cases hk : t.kind = .CLOSE_PAREN
      · obtain ⟨j, hj1, hj2⟩ := hlk a t ht hk
        rw [hj1] at g4
        simp only [Option.some.injEq] at g4
        obtain ⟨po, hpo⟩ := node_at_of_mem (hpre j hj2)
        have hd : ∀ X, deref (pre ++ X) n.paren = .ok po := by
          intro X
          rw [← g4]
          simp only [deref, node_at_append_of_mem (hpre j hj2), hpo]
        simp only [hk, if_true, hd] at h
        by_cases hline : line = po.line
        · simp only [hline, ne_eq, not_true_eq_false, if_false] at h
          rw [← hline] at h
          refine plain ?_ h
          intro _ po1 hpo1
          obtain ⟨r1, e1, _⟩ := ih _ _ _ _ (a + 1) g5
            (hids _ (fun m hm => by simp [hm]) (by simp)) h
          rw [e1, List.append_assoc, hd] at hpo1
          simp only [Except.ok.injEq] at hpo1
          rw [← hpo1, hline]
        · simp only [ne_eq, hline, not_false_eq_true, if_true] at h
          obtain ⟨m0, hm0, _⟩ := hpre j hj2
          have hne : pre ≠ [] := List.ne_nil_of_mem hm0
          obtain ⟨pre0, q, hq⟩ : ∃ pre0 q, pre = pre0 ++ [q] :=
            ⟨pre.dropLast, pre.getLast hne, (List.dropLast_append_getLast hne).symm⟩
          have hlast : pre.getLast? = some q := by rw [hq]; simp
          simp only [hlast] at h
          have hn1 : ({ n with line := line } : PrettyPrinterNode).is_line_separator = false := hsep
          -- the nodes put before the close paren
          obtain ⟨X, qx, hX1, hX2, hX3⟩ : ∃ (X : NodeList) (qx : PrettyPrinterNode),
              (if (!q.is_line_separator) = true then pre ++ [new_separator fresh 0] else pre)
                = pre ++ X ∧ (pre ++ X).getLast? = some qx ∧ qx.is_line_separator = true ∧
              (X = [] ∨ X = [qx]) := by
            cases hqs : q.is_line_separator with
            | true => exact ⟨[], q, by simp, by simpa using hlast, hqs, Or.inl rfl⟩
            | false =>
              exact ⟨[new_separator fresh 0], new_separator fresh 0, by simp, by simp, rfl,
                Or.inr rfl⟩
          rw [hX1] at h
          have wrap : ∀ (Y : NodeList), r = (pre ++ X) ++ { n with line := line } :: Y →
              (Y = [] ∨ ∃ m Y1, Y = m :: Y1 ∧ m.is_line_separator = true) →
              isolated_walk r (some { n with line := line }) Y →
              ∃ r1, r = pre ++ r1 ∧
                (∀ m rest1, n :: rest = m :: rest1 → m.is_line_separator = true →
                  ∃ r2, r1 = m :: r2) ∧
                (n :: rest = [] → r1 = []) ∧ isolated_walk r pre.getLast? r1 := by
            intro Y e hY iso
            refine ⟨X ++ { n with line := line } :: Y, by simp [e], ?_, by simp, ?_⟩
            · intro m rest1 e hm
              simp only [List.cons.injEq] at e
              rw [← e.1, hsep] at hm
              simp at hm
            · rcases hX3.2 with hx | hx
              · subst hx
                simp only [List.append_nil] at hX2
                rw [List.nil_append, hX2]
                exact isolated_walk_close hX3.1 hY iso
              · subst hx
                exact isolated_walk_sep hX3.1 (isolated_walk_close hX3.1 hY iso)
          cases rest with
          | nil =>
            simp only [Except.ok.injEq] at h
            exact wrap [] (by rw [← h]) (Or.inl rfl) trivial
          | cons m rest1 =>
            simp only at h
            by_cases hm : m.is_line_separator = true
            · simp only [hm, if_true] at h
              obtain ⟨r1, e1, e2, _, iso⟩ := ih _ _ _ _ (a + 1) g5
                (hids _ (fun m hm => by simp [hm]) (by simp)) h
              obtain ⟨r2, e3⟩ := e2 m rest1 rfl hm
              refine wrap r1 (by rw [e1]; simp) (Or.inr ⟨m, r2, e3, hm⟩) (by simpa using iso)
            · simp only [hm, if_false] at h
              obtain ⟨r1, e1, _, _, iso⟩ := ih _ _ _ _ (a + 1) g5
                (hids _ (fun m hm => by simp [hm]) (by simp)) h
              refine wrap
                (new_separator (if (!q.is_line_separator) = true then fresh + 1 else fresh) 0
                  :: r1) (by rw [e1]; simp)
                (Or.inr ⟨_, r1, rfl, rfl⟩) (isolated_walk_sep rfl (by simpa using iso))
      · simp only [hk, if_false] at h
        exact plain (fun hc => absurd hc hk) h

/-- The second loop of `propagatePretty` keeps the line numbers. -/
theorem propagate_offsets_same_lines (w : Int) :
    ∀ (rest : NodeList) (prev : Option PrettyPrinterNode) (st : OffsetState) (r : NodeList)
      (rv : Option Nat),
      propagate_offsets w prev st rest = .ok (r, rv) → same_lines rest r := by
  intro rest
  induction rest with
  | nil =>
    intro prev st r rv h
    simp only [propagate_offsets, Except.ok.injEq, Prod.mk.injEq] at h
    obtain ⟨h1, _⟩ := h
    subst h1
    exact .nil
  | cons n rest ih =>
    intro prev st r rv h
    simp only [propagate_offsets] at h
    repeat' split at h
    all_goals first
      | (simp at h; done)
      | (simp only [Except.ok.injEq, Prod.mk.injEq] at h
         obtain ⟨h1, h2⟩ := h
         subst h1
         exact .cons ⟨rfl, rfl, rfl, rfl, rfl⟩ (ih _ _ _ _ (by assumption)))

theorem same_lines_node_at {l l1 : NodeList} (h : same_lines l l1) (j : Nat)
    {po1 : PrettyPrinterNode} (h1 : node_at l1 j = some po1) :
    ∃ po, node_at l j = some po ∧ po.line = po1.line := by
  induction h with
  | nil => simp [node_at] at h1
  | cons hab _ ih =>
    rename_i a b l l1 _
    simp only [node_at, List.find?_cons] at h1 ⊢
    rw [hab.1] at h1
    cases hid : (a.id == j) with
    | true =>
      simp only [hid] at h1
      simp only [Option.some.injEq] at h1
      subst h1
      exact ⟨a, rfl, hab.2.2.2.2.symm⟩
    | false =>
      simp only [hid] at h1
      exact ih h1

theorem same_lines_isolated_walk {whole whole1 : NodeList} (hw : same_lines whole whole1) :
    ∀ {l l1 : NodeList}, same_lines l l1 →
      ∀ (prev prev1 : Option PrettyPrinterNode),
        (∀ q, prev = some q → ∃ q1, prev1 = some q1 ∧
          q1.is_line_separator = q.is_line_separator) →
        isolated_walk whole prev l → isolated_walk whole1 prev1 l1 := by
  intro l l1 h
  induction h with
  | nil => intro _ _ _ _; trivial
  | cons hab hrest ih =>
    rename_i a b l l1
    intro prev prev1 hp hiso
    simp only [isolated_walk] at hiso ⊢
    refine ⟨?_, ih (some a) (some b) (fun q hq => by
      simp only [Option.some.injEq] at hq; subst hq; exact ⟨b, rfl, hab.2.2.1⟩) hiso.2⟩
    intro hs hc po1 hpo1 hne
    obtain ⟨j, hj, hn⟩ := deref_ok hpo1
    obtain ⟨po, hpo, hline⟩ := same_lines_node_at hw j hn
    have := hiso.1 (by rw [← hab.2.2.1]; exact hs) (by rw [← hab.2.1]; exact hc) po
      (by rw [← hab.2.2.2.1, hj]; simp [deref, hpo]) (by rw [hline, ← hab.2.2.2.2]; exact hne)
    obtain ⟨⟨q, hq1, hq2⟩, hpost⟩ := this
    obtain ⟨q1, hq3, hq4⟩ := hp q hq1
    refine ⟨⟨q1, hq3, by rw [hq4]; exact hq2⟩, ?_⟩
    rcases hpost with hpost | ⟨m, post1, hpost, hm⟩
    · subst hpost
      cases hrest
      exact Or.inl rfl
    · subst hpost
      cases hrest with
      | cons hmm _ => exact Or.inr ⟨_, _, rfl, by rw [hmm.2.2.1]; exact hm⟩

theorem isolated_walk_split {whole : NodeList} :
    ∀ (p : NodeList) (prev : Option PrettyPrinterNode) (c : PrettyPrinterNode)
      (post : NodeList), isolated_walk whole prev (p ++ c :: post) →
      c.is_line_separator = false → (∃ t, c.tok = some t ∧ t.kind = .CLOSE_PAREN) →
      ∀ po, deref whole c.paren = .ok po → po.line ≠ c.line →
        ((p = [] ∧ ∃ q, prev = some q ∧ q.is_line_separator = true) ∨
          ∃ pre1 q, p = pre1 ++ [q] ∧ q.is_line_separator = true) ∧
        (post = [] ∨ ∃ m post1, post = m :: post1 ∧ m.is_line_separator = true) := by
  intro p
  induction p with
  | nil =>
    intro prev c post h hs hc po hpo hne
    simp only [List.nil_append, isolated_walk] at h
    obtain ⟨h1, h2⟩ := h.1 hs hc po hpo hne
    exact ⟨Or.inl ⟨rfl, h1⟩, h2⟩
  | cons x p ih =>
    intro prev c post h hs hc po hpo hne
    simp only [List.cons_append, isolated_walk] at h
    obtain ⟨h1, h2⟩ := ih (some x) c post h.2 hs hc po hpo hne
    refine ⟨Or.inr ?_, h2⟩
    rcases h1 with ⟨rfl, q, hq, hq2⟩ | ⟨pre1, q, rfl, hq⟩
    · simp only [Option.some.injEq] at hq
      subst hq
      exact ⟨[], x, rfl, hq2⟩
    · exact ⟨x :: pre1, q, rfl, hq⟩

theorem close_parens_isolated_of_walk {s : NodeList} (h : isolated_walk s none s) :
    close_parens_isolated s := by
  intro pre c post e hs hc po hpo hne
  rw [e] at h
  rw [← e] at h
  have h2 : isolated_walk s none (pre ++ c :: post) := by rw [← e]; exact h
  obtain ⟨h1, h3⟩ := isolated_walk_split pre none c post h2 hs hc po hpo hne
  refine ⟨?_, h3⟩
  rcases h1 with ⟨_, q, hq, _⟩ | h1
  · simp at hq
  · exact h1

theorem evolves_head {obj : Object} (hs : supported obj) {s : NodeList}
    (hE : Evolves (build_linked 0 0 (tokens_of obj) (links_of obj 0 none)) s) :
    ∃ n tl, s = n :: tl ∧ n.id = 0 ∧ n.is_line_separator = false := by
  obtain ⟨t, rest, ht, _⟩ := tokens_of_head hs
  have hlen := links_of_length obj 0 none
  generalize hL : links_of obj 0 none = L at hlen hE
  rw [ht] at hlen hE
  cases L with
  | nil => simp at hlen
  | cons q qs =>
    have h2 := hE.2
    simp only [build_linked, head_key, List.head?_cons, Option.map_some'] at h2
    cases s with
    | nil => simp at h2
    | cons n tl =>
      simp only [List.head?_cons, Option.map_some', Option.some.injEq, Prod.mk.injEq] at h2
      exact ⟨n, tl, rfl, h2.1, h2.2.2.1⟩

/-- After a `propagatePretty` pass over a list of the call `to_string obj`, the close
parens are isolated. -/
theorem propagatePretty_isolates {obj : Object} (hs : supported obj) {s s3 : NodeList}
    {rv : Option Nat} {w : Int}
    (hE : Evolves (build_linked 0 0 (tokens_of obj) (links_of obj 0 none)) s)
    (h : propagatePretty s (some 0) w = .ok (s3, rv)) : close_parens_isolated s3 := by
  have hl := hE.laid (laid_build_linked hs)
  obtain ⟨n, tl, e, hid, hsep⟩ := evolves_head hs hE
  subst e
  unfold propagatePretty at h
  obtain ⟨l, h1, h2⟩ := bind_eq_ok h
  have hln : l = n := by
    simp only [deref, node_at, List.find?_cons, hid, beq_self_eq_true, Except.ok.injEq] at h1
    exact h1.symm
  subst hln
  obtain ⟨s1, h3, h4⟩ := bind_eq_ok h2
  obtain ⟨⟨r, rv1⟩, h5, h6⟩ := bind_eq_ok h4
  simp only [pure, Except.pure, Except.ok.injEq, Prod.mk.injEq] at h6
  obtain ⟨h6, _⟩ := h6
  subst h6
  simp only [nodes_before, nodes_from, if_true] at h3
  obtain ⟨r1, e1, _, _, iso⟩ := propagate_lines_isolates
    (fun i t ht hk => by
      obtain ⟨j, h1, h2⟩ := close_link_before obj 0 none i t ht hk
      exact ⟨j, h1, by omega⟩) _ _ _ _ _ 0 hl (fun j hj => absurd hj (by omega)) h3
  simp only [List.nil_append] at e1
  subst e1
  obtain ⟨r2, e2, _, hk⟩ := propagate_lines_spec (k := 0) _ _ _ _ _ (Nat.zero_le _) h3
  simp only [List.nil_append] at e2
  subst e2
  have hk := hk rfl
  cases s1 with
  | nil => simp [head_key] at hk
  | cons n1 tl1 =>
    simp only [head_key, List.head?_cons, Option.map_some', Option.some.injEq,
      Prod.mk.injEq] at hk
    have hid1 : n1.id = l.id := hk.1
    simp only [nodes_before, nodes_from, hid1, if_true, List.nil_append] at h5 ⊢
    have hw := propagate_offsets_same_lines w _ _ _ _ _ h5
    exact close_parens_isolated_of_walk
      (same_lines_isolated_walk hw hw none none (fun q hq => by simp at hq)
        (by simpa using iso))

/-- The list that the outer loop of `insertBreaksAsNeeded` returns comes out of a
`propagatePretty` pass. -/
theorem insertBreaks_loop_final (head : Option Nat) (w : Int) (inner : Nat) :
    ∀ (fuel : Nat) (s : NodeList) (last start : Option Nat) (s1 : NodeList),
      insertBreaks_loop head w inner fuel s last start = .ok s1 →
      ∃ sa rv, Evolves s sa ∧ propagatePretty sa head w = .ok (s1, rv) := by
  intro fuel
  induction fuel with
  | zero => intro s last start s1 h; simp [insertBreaks_loop] at h
  | succ fuel ih =>
    intro s last start s1 h
    simp only [insertBreaks_loop] at h
    obtain ⟨⟨sa, rv⟩, h1, h2⟩ := bind_eq_ok h
    obtain ⟨cand, h5, h6⟩ := bind_eq_ok h2
    have E := propagatePretty_evolves h1
    simp only at h6
    split at h6
    · simp [pure, Except.pure] at h6; subst h6; exact ⟨s, rv, Evolves.stay _, h1⟩
    · obtain ⟨_, h7, h8⟩ := bind_eq_ok h6
      obtain ⟨f, h9, h10⟩ := bind_eq_ok h8
      obtain ⟨sb, h11, h12⟩ := bind_eq_ok h10
      obtain ⟨sc, rv2, E2, h13⟩ := ih _ _ _ _ h12
      exact ⟨sc, rv2, E.andThen ((fix_line_evolves _ _ _ _ _ _ _ h11).andThen E2), h13⟩

/-- The list that `to_string` renders comes out of a `propagatePretty` pass. -/
theorem to_string_final_pass {obj : Object} {w : Int} {out : String}
    (h : to_string obj w = .ok out) :
    ∃ sa s4 rv, Evolves (build_linked 0 0 (tokens_of obj) (links_of obj 0 none)) sa ∧
      propagatePretty sa (some 0) w = .ok (s4, rv) ∧ render true s4 = .ok out := by
  unfold to_string at h
  obtain ⟨toks, h1, h⟩ := bind_eq_ok h
  obtain ⟨_, _, h⟩ := bind_eq_ok h
  obtain ⟨⟨s1, st⟩, h2, h⟩ := bind_eq_ok h
  dsimp only at h
  obtain ⟨_, _, h⟩ := bind_eq_ok h
  obtain ⟨_, _, h⟩ := bind_eq_ok h
  obtain ⟨s2, h3, h⟩ := bind_eq_ok h
  obtain ⟨⟨s3, rv⟩, h4, h⟩ := bind_eq_ok h
  dsimp only at h
  obtain ⟨s4, h5, hr⟩ := bind_eq_ok h
  clear h
  obtain ⟨e, hs⟩ := add_to_token_list_spec _ _ _ h1
  simp only [List.nil_append] at e
  subst e
  rw [attach_parens_spec hs] at h2
  simp only [Except.ok.injEq, Prod.mk.injEq] at h2
  obtain ⟨e1, _⟩ := h2
  subst e1
  obtain ⟨sa, rv2, E, h6⟩ := insertBreaks_loop_final _ _ _ _ _ _ _ _ h5
  exact ⟨sa, s4, rv2,
    (insertSpecialBreaks_evolves h3).andThen ((propagatePretty_evolves h4).andThen E), h6, hr⟩

/-- A separator directly before a token node is a line break before its token. -/
theorem break_at_of_sep_before {toks : List FormToken} {links : List (Option Nat)}
    {pre1 post : NodeList} {q c : PrettyPrinterNode}
    (hl : laid toks links 0 (pre1 ++ q :: c :: post)) (hq : q.is_line_separator = true)
    (hc : c.is_line_separator = false) :
    break_at (lines_of true (pre1 ++ q :: c :: post)) c.id := by
  have g := laid_append pre1 (q :: c :: post) 0 hl
  have g2 := ((laid_cons g).1 hq).2
  obtain ⟨g3, _⟩ := (laid_cons g2).2 hc
  rw [lines_of_append_sep q (c :: post) hq]
  refine ⟨_, _, rfl, lines_of_ne_nil _ _, lines_of_ne_nil _ _, ?_⟩
  rw [lines_of_tokens, g3]
  omega

theorem nodes_before_ne (s : NodeList) (y : Nat) : ∀ m ∈ nodes_before s y, m.id ≠ y := by
  induction s with
  | nil => intro m hm; simp [nodes_before] at hm
  | cons a rest ih =>
    intro m hm
    simp only [nodes_before] at hm
    split at hm
    · simp at hm
    · rcases List.mem_cons.1 hm with h | h
      · subst h; assumption
      · exact ih m h

theorem nodes_before_append_mem {pre : NodeList} {x : Nat} (h : ∃ m ∈ pre, m.id = x)
    (l : NodeList) : nodes_before (pre ++ l) x = nodes_before pre x := by
  induction pre with
  | nil => obtain ⟨m, hm, _⟩ := h; simp at hm
  | cons a pre ih =>
    simp only [List.cons_append, nodes_before]
    split
    · rfl
    · next hne =>
      obtain ⟨m, hm, e⟩ := h
      rcases List.mem_cons.1 hm with h1 | h1
      · subst h1; exact absurd e hne
      · exact congrArg _ (ih ⟨m, h1, e⟩)

theorem nodes_before_append_not_mem {pre : NodeList} {x : Nat} (h : ∀ m ∈ pre, m.id ≠ x)
    (l : NodeList) : nodes_before (pre ++ l) x = pre ++ nodes_before l x := by
  induction pre with
  | nil => rfl
  | cons a pre ih =>
    simp only [List.cons_append, nodes_before]
    rw [if_neg (h a (by simp))]
    exact congrArg _ (ih (fun m hm => h m (List.mem_cons_of_mem _ hm)))

theorem occurs_upto_agree {s s1 : NodeList} {x y : Nat}
    (h : nodes_before s1 y = nodes_before s y) (hx : occurs_upto s x y) :
    occurs_upto s1 x y := by
  rcases hx with rfl | hx
  · exact Or.inl rfl
  · exact Or.inr (by rw [h]; exact hx)

/-- The pointer `prev` of a node of the list is the last node before it. -/
theorem prev_of_eq : ∀ (s : NodeList) (x : Nat), (∃ n ∈ s, n.id = x) →
    prev_of s x = (nodes_before s x).getLast?.map (fun n => n.id) := by
  intro s
  induction s with
  | nil => intro x h; simp at h
  | cons a rest ih =>
    intro x h
    by_cases hax : a.id = x
    · simp [prev_of, nodes_before, hax]
    · have hr : ∃ n ∈ rest, n.id = x := by
        obtain ⟨n, hn, e⟩ := h
        rcases List.mem_cons.1 hn with h1 | h1
        · subst h1; exact absurd e hax
        · exact ⟨n, h1, e⟩
      cases rest with
      | nil => simp at hr
      | cons b rest1 =>
        simp only [prev_of, if_neg hax, nodes_before]
        by_cases hbx : b.id = x
        · simp [hbx]
        · have := ih x hr
          simp only [prev_of, if_neg hbx, nodes_before] at this
          simp only [if_neg hbx]
          rw [List.getLast?_cons_cons]
          cases rest1 with
          | nil => simp at hr; exact absurd hr hbx
          | cons c rest2 =>
            simp only at this ⊢
            exact this

/-- The tokens and links of a list `(name g b1 ... bm)` that stands at the address `p`. -/
theorem form_at_facts {toks : List FormToken} {links : List (Option Nat)} {name : String}
    {g : Object} {body : List Object} {p : Nat} {e : Option Nat}
    (ht : List.IsPrefix (tokens_of (build_list (.SYMBOL name :: g :: body))) (toks.drop p))
    (hk : List.IsPrefix (links_of (build_list (.SYMBOL name :: g :: body)) p e)
      (links.drop p)) :
    toks[p]? = some ⟨.OPEN_PAREN, ""⟩ ∧
      links[p]? = some (some (p + elts_width (.SYMBOL name :: g :: body))) ∧
      toks[p + 1]? = some ⟨.STRING, name⟩ ∧ links[p + 1]? = some (some p) ∧
      toks[p + 2]? = some ⟨.WHITESPACE, ""⟩ ∧
      List.IsPrefix (tokens_of g) (toks.drop (p + 3)) ∧
      List.IsPrefix (rest_tokens_of (build_list (g :: body))) (toks.drop (p + 2)) ∧
      List.IsPrefix (rest_links_of (build_list (g :: body)) (p + 2) p) (links.drop (p + 2)) ∧
      p + elts_width (.SYMBOL name :: g :: body) < toks.length := by
  obtain ⟨l1, l2, l3, l4, l5, l6, l7⟩ := list_tokens_at ht hk
  simp only [tokens_of, links_of, List.length_singleton] at l3 l4 l5 l6
  obtain ⟨u1, u2⟩ := prefix_rest_tokens_elt l5
  exact ⟨l1, l2, (prefix_drop_head l3).1, (prefix_drop_head l4).1, u1, u2, l5, l6, l7⟩

theorem ids_build_linked (toks : List FormToken) :
    ∀ (ls : List (Option Nat)) (b : Nat) (off : Int), ls.length = toks.length →
      (build_linked b off toks ls).map (fun n => n.id) = List.range' b toks.length := by
  induction toks with
  | nil => intro ls b off h; cases ls <;> simp [build_linked]
  | cons t rest ih =>
    intro ls b off h
    cases ls with
    | nil => simp at h
    | cons q qs =>
      have := ih qs (b + 1) (off + t.toString.length) (by simpa using h)
      simp [build_linked, List.range'_succ, this]

theorem idle_atom_plain {e : Object} (h : idle_atom e) : plain_atom e := by
  obtain ⟨t, h1, h2, _⟩ := h
  exact ⟨t, h1, h2⟩

theorem real_ids_before {toks : List FormToken} {links : List (Option Nat)} {s : NodeList}
    (hl : laid toks links 0 s) {x : Nat} (hx : x < toks.length) :
    real_ids (nodes_before s x) = List.range' 0 x := by
  obtain ⟨h1, h2, _⟩ := hl
  obtain ⟨g1, _⟩ := numbered_from_nodes_from s 0 x h1 h2 (Nat.zero_le _) hx
  have hs := nodes_before_append_from s x
  have hids : real_ids s = real_ids (nodes_before s x) ++ real_ids (nodes_from s x) := by
    conv => lhs; rw [← hs]
    simp [real_ids]
  rw [h1.1, g1.1] at hids
  have e1 := List.range'_append_1 0 x (toks.length - x)
  have e2 : toks.length - x + x = toks.length - 0 := by omega
  rw [e2, Nat.zero_add, hids] at e1
  exact (List.append_cancel_right e1).symm

theorem mem_nodes_before {s : NodeList} {x : Nat} {m : PrettyPrinterNode}
    (h : m ∈ nodes_before s x) : m ∈ s := by
  rw [← nodes_before_append_from s x]
  exact List.mem_append_left _ h

/-- In a list of a call, the last node before the token with the address `x` is a
separator or the token with the address `x - 1`. -/
theorem last_before_laid {toks : List FormToken} {links : List (Option Nat)} {s : NodeList}
    (hl : laid toks links 0 s) {x : Nat} (h0 : 0 < x) (hx : x < toks.length) :
    ∃ m, (nodes_before s x).getLast? = some m ∧ m ∈ s ∧
      (m.is_line_separator = false → m.id = x - 1) := by
  have hids := real_ids_before hl hx
  have hne : nodes_before s x ≠ [] := by
    intro hnil
    rw [hnil] at hids
    have := congrArg List.length hids
    simp [real_ids] at this
    omega
  have hsplit := (List.dropLast_append_getLast hne).symm
  refine ⟨(nodes_before s x).getLast hne, by rw [List.getLast?_eq_getLast _ hne],
    mem_nodes_before (List.getLast_mem hne), fun hm => ?_⟩
  rw [hsplit] at hids
  have e1 := List.range'_append_1 0 (x - 1) 1
  have e2 : 1 + (x - 1) = x := by omega
  rw [e2, Nat.zero_add] at e1
  rw [← e1] at hids
  have hr : real_ids ((nodes_before s x).dropLast ++ [(nodes_before s x).getLast hne])
      = real_ids (nodes_before s x).dropLast ++ [((nodes_before s x).getLast hne).id] := by
    simp [real_ids, List.filter_append, hm]
  rw [hr] at hids
  have := (List.append_inj' hids (by simp)).2
  simpa using this

mutual
/-- The paren link of a token that is no open paren: it is the link of the object itself
(for an atom), or it points to an open paren inside the object, before the token. -/
theorem inner_link_bounds : ∀ (obj : Object) (b : Nat) (e : Option Nat) (i : Nat)
    (t : FormToken), (tokens_of obj)[i]? = some t → t.kind ≠ .OPEN_PAREN →
      (i = 0 ∧ tokens_of obj = [t] ∧ (links_of obj b e)[i]? = some e) ∨
        ∃ j, (links_of obj b e)[i]? = some (some j) ∧ b ≤ j ∧ j < b + i
  | .PAIR car cdr, b, e, i, t, h, hk => by
    right
    simp only [tokens_of, links_of] at h ⊢
    cases i with
    | zero =>
      simp only [List.getElem?_cons_zero, Option.some.injEq] at h
      subst h
      exact absurd rfl hk
    | succ i =>
      simp only [List.getElem?_cons_succ] at h ⊢
      by_cases hi : i < (tokens_of car).length
      · rw [List.getElem?_append_left hi] at h
        rw [List.getElem?_append_left (by rw [links_of_length]; exact hi)]
        rcases inner_link_bounds car (b + 1) (some b) i t h hk with ⟨_, _, h1⟩ | ⟨j, h1, h2, h3⟩
        · exact ⟨b, h1, by omega, by omega⟩
        · exact ⟨j, h1, by omega, by omega⟩
      · rw [List.getElem?_append_right (by omega)] at h
        rw [List.getElem?_append_right (by rw [links_of_length]; omega), links_of_length]
        rcases inner_rest_link_bounds cdr (b + 1 + (tokens_of car).length) b _ t h hk with
          h1 | ⟨j, h1, h2, h3⟩
        · exact ⟨b, h1, by omega, by omega⟩
        · exact ⟨j, h1, by omega, by omega⟩
  | .EMPTY_LIST, _, _, i, t, h, hk => by
    cases i <;> simp [tokens_of] at h; subst h; left; simp [tokens_of, links_of]
  | .INTEGER _, _, _, i, t, h, hk => by
    cases i <;> simp [tokens_of] at h; subst h; left; simp [tokens_of, links_of]
  | .FLOAT _, _, _, i, t, h, hk => by
    cases i <;> simp [tokens_of] at h; subst h; left; simp [tokens_of, links_of]
  | .CHAR _, _, _, i, t, h, hk => by
    cases i <;> simp [tokens_of] at h; subst h; left; simp [tokens_of, links_of]
  | .SYMBOL _, _, _, i, t, h, hk => by
    cases i <;> simp [tokens_of] at h; subst h; left; simp [tokens_of, links_of]
  | .STRING _, _, _, i, t, h, hk => by
    cases i <;> simp [tokens_of] at h; subst h; left; simp [tokens_of, links_of]
  | .ARRAY, _, _, _, _, h, _ => by simp [tokens_of] at h
  | .LAMBDA, _, _, _, _, h, _ => by simp [tokens_of] at h
  | .MACRO, _, _, _, _, h, _ => by simp [tokens_of] at h
  | .ENVIRONMENT, _, _, _, _, h, _ => by simp [tokens_of] at h
theorem inner_rest_link_bounds : ∀ (obj : Object) (b o : Nat) (i : Nat)
    (t : FormToken), (rest_tokens_of obj)[i]? = some t → t.kind ≠ .OPEN_PAREN →
      (rest_links_of obj b o)[i]? = some (some o) ∨
        ∃ j, (rest_links_of obj b o)[i]? = some (some j) ∧ b + 1 ≤ j ∧ j < b + i
  | .PAIR car cdr, b, o, i, t, h, hk => by
    simp only [rest_tokens_of, rest_links_of] at h ⊢
    cases i with
    | zero => left; simp
    | succ i =>
      simp only [List.getElem?_cons_succ] at h ⊢
      by_cases hi : i < (tokens_of car).length
      · rw [List.getElem?_append_left hi] at h
        rw [List.getElem?_append_left (by rw [links_of_length]; exact hi)]
        rcases inner_link_bounds car (b + 1) (some o) i t h hk with ⟨_, _, h1⟩ | ⟨j, h1, h2, h3⟩
        · exact Or.inl h1
        · exact Or.inr ⟨j, h1, by omega, by omega⟩
      · rw [List.getElem?_append_right (by omega)] at h
        rw [List.getElem?_append_right (by rw [links_of_length]; omega), links_of_length]
        rcases inner_rest_link_bounds cdr (b + 1 + (tokens_of car).length) o _ t h hk with
          h1 | ⟨j, h1, h2, h3⟩
        · exact Or.inl h1
        · exact Or.inr ⟨j, h1, by omega, by omega⟩
  | .EMPTY_LIST, b, o, i, t, h, hk => by
    cases i with
    | zero => left; simp [rest_links_of]
    | succ i => simp [rest_tokens_of] at h
  | .INTEGER _, b, o, i, t, h, hk => by
    have hi : i < 5 := by
      by_contra hge
      rw [List.getElem?_eq_none (by simp [rest_tokens_of]; omega)] at h
      simp at h
    left
    simp only [rest_links_of]
    interval_cases i <;> rfl
  | .FLOAT _, b, o, i, t, h, hk => by
    have hi : i < 5 := by
      by_contra hge
      rw [List.getElem?_eq_none (by simp [rest_tokens_of]; omega)] at h
      simp at h
    left
    simp only [rest_links_of]
    interval_cases i <;> rfl
  | .CHAR _, b, o, i, t, h, hk => by
    have hi : i < 5 := by
      by_contra hge
      rw [List.getElem?_eq_none (by simp [rest_tokens_of]; omega)] at h
      simp at h
    left
    simp only [rest_links_of]
    interval_cases i <;> rfl
  | .SYMBOL _, b, o, i, t, h, hk => by
    have hi : i < 5 := by
      by_contra hge
      rw [List.getElem?_eq_none (by simp [rest_tokens_of]; omega)] at h
      simp at h
    left
    simp only [rest_links_of]
    interval_cases i <;> rfl
  | .STRING _, b, o, i, t, h, hk => by
    have hi : i < 5 := by
      by_contra hge
      rw [List.getElem?_eq_none (by simp [rest_tokens_of]; omega)] at h
      simp at h
    left
    simp only [rest_links_of]
    interval_cases i <;> rfl
  | .ARRAY, _, _, _, _, h, _ => by simp [rest_tokens_of] at h
  | .LAMBDA, _, _, _, _, h, _ => by simp [rest_tokens_of] at h
  | .MACRO, _, _, _, _, h, _ => by simp [rest_tokens_of] at h
  | .ENVIRONMENT, _, _, _, _, h, _ => by simp [rest_tokens_of] at h
end

/-- What a search along the line finds: a token behind the start, of one of the kinds. -/
theorem scan_next_on_line_found {toks : List FormToken} {links : List (Option Nat)}
    {s : NodeList} {p : Option Nat} {f : Nat} {kinds : List TokenKind}
    (hl : laid toks links 0 s) (hw : well_numbered toks.length s)
    (h : scan_next_on_line kinds s p = .ok (some f)) :
    ∃ st, p = some st ∧ st < f ∧ f < toks.length ∧ ∃ t, toks[f]? = some t ∧ t.kind ∈ kinds := by
  obtain ⟨st, h1, h2, h3⟩ := scan_next_on_line_bound hw h
  refine ⟨st, h1, h2, h3, ?_⟩
  unfold scan_next_on_line at h
  obtain ⟨sn, _, h⟩ := bind_eq_ok h
  obtain ⟨_, _, h⟩ := bind_eq_ok h
  split at h
  · simp [pure, Except.pure] at h
  · next m rest hm =>
    split at h
    · simp [pure, Except.pure] at h
    · obtain ⟨x, hx, hxs, hxid, t, hxt, hk⟩ := scan_line_some _ _ _ _ h
      rw [← hm] at hx
      have := hl.2.2 x (mem_nodes_after hx) hxs
      rw [hxid, hxt] at this
      exact ⟨t, this.1.symm, hk⟩

/-- The node before a token, when it has a token itself, is the token before it. -/
theorem prev_token {toks : List FormToken} {links : List (Option Nat)} {s : NodeList}
    (hl : laid toks links 0 s) {p o : Nat} {op : PrettyPrinterNode} {t : FormToken}
    (h0 : 0 < p) (hp : p < toks.length) (h1 : prev_of s p = some o)
    (h2 : node_at s o = some op) (h3 : op.tok = some t) : o = p - 1 := by
  obtain ⟨n, hn, _⟩ := laid_node_at hl hp
  rw [prev_of_eq s p ⟨n, node_at_mem hn, node_at_id hn⟩] at h1
  obtain ⟨m, hm1, hm2, hm3⟩ := last_before_laid hl h0 hp
  rw [hm1] at h1
  simp only [Option.map_some', Option.some.injEq] at h1
  cases hms : m.is_line_separator with
  | false => rw [← h1]; exact hm3 hms
  | true =>
    exfalso
    have hge := (hl.2.1 m hm2 hms).1
    have hid := node_at_id h2
    have hmem := node_at_mem h2
    cases hos : op.is_line_separator with
    | true =>
      have := (hl.2.1 op hmem hos).2
      rw [h3] at this
      simp at this
    | false =>
      have := ((numbered_from_mem s hl.1).1 op hmem hos).2
      omega

theorem text_width_nonneg (toks : List FormToken) : 0 ≤ text_width toks := by
  rw [text_width_eq_length]
  exact Int.natCast_nonneg _

theorem text_width_append (a b : List FormToken) :
    text_width (a ++ b) = text_width a + text_width b := by
  induction a with
  | nil => simp [text_width]
  | cons t a ih =>
    show (t.toString.length : Int) + text_width (a ++ b) = _
    rw [ih]
    simp only [text_width]
    omega

theorem text_width_take_le (toks : List FormToken) {K M : Nat} (h : K ≤ M) :
    text_width (toks.take K) ≤ text_width (toks.take M) := by
  obtain ⟨d, rfl⟩ := Nat.exists_eq_add_of_le h
  rw [List.take_add, text_width_append]
  have := text_width_nonneg (List.take d (List.drop K toks))
  omega

mutual
/-- The paren link of a close paren among the tokens of an object points to an open paren
of the object, before it. -/
theorem close_link_open : ∀ (obj : Object) (b : Nat) (e : Option Nat) (i : Nat)
    (t : FormToken), (tokens_of obj)[i]? = some t → t.kind = .CLOSE_PAREN →
      ∃ j, (links_of obj b e)[i]? = some (some (b + j)) ∧ j < i ∧
        (tokens_of obj)[j]? = some ⟨.OPEN_PAREN, ""⟩
  | .PAIR car cdr, b, e, i, t, h, hk => by
    simp only [tokens_of, links_of] at h ⊢
    cases i with
    | zero =>
      simp only [List.getElem?_cons_zero, Option.some.injEq] at h
      subst h
      exact absurd hk (by decide)
    | succ i =>
      simp only [List.getElem?_cons_succ] at h ⊢
      by_cases hi : i < (tokens_of car).length
      · rw [List.getElem?_append_left hi] at h
        rw [List.getElem?_append_left (by rw [links_of_length]; exact hi)]
        obtain ⟨j, h1, h2, h3⟩ := close_link_open car (b + 1) (some b) i t h hk
        refine ⟨j + 1, ?_, by omega, ?_⟩
        · rw [h1]; congr 2; omega
        · rw [List.getElem?_cons_succ, List.getElem?_append_left (by omega)]
          exact h3
      · rw [List.getElem?_append_right (by omega)] at h
        rw [List.getElem?_append_right (by rw [links_of_length]; omega), links_of_length]
        rcases close_rest_link_open cdr (b + 1 + (tokens_of car).length) b _ t h hk with
          h1 | ⟨j, h1, h2, h3⟩
        · exact ⟨0, by rw [h1]; rfl, by omega, by simp⟩
        · refine ⟨1 + (tokens_of car).length + j, ?_, by omega, ?_⟩
          · rw [h1]; congr 2; omega
          · have e1 : 1 + (tokens_of car).length + j = ((tokens_of car).length + j) + 1 := by
              omega
            rw [e1, List.getElem?_cons_succ, List.getElem?_append_right (by omega)]
            simpa using h3
  | .EMPTY_LIST, _, _, i, t, h, hk => by
    cases i <;> simp [tokens_of] at h; subst h; exact absurd hk (by decide)
  | .INTEGER _, _, _, i, t, h, hk => by
    cases i <;> simp [tokens_of] at h; subst h; simp at hk
  | .FLOAT _, _, _, i, t, h, hk => by
    cases i <;> simp [tokens_of] at h; subst h; simp at hk
  | .CHAR _, _, _, i, t, h, hk => by
    cases i <;> simp [tokens_of] at h; subst h; simp at hk
  | .SYMBOL _, _, _, i, t, h, hk => by
    cases i <;> simp [tokens_of] at h; subst h; simp at hk
  | .STRING _, _, _, i, t, h, hk => by
    cases i <;> simp [tokens_of] at h; subst h; simp at hk
  | .ARRAY, _, _, _, _, h, _ => by simp [tokens_of] at h
  | .LAMBDA, _, _, _, _, h, _ => by simp [tokens_of] at h
  | .MACRO, _, _, _, _, h, _ => by simp [tokens_of] at h
  | .ENVIRONMENT, _, _, _, _, h, _ => by simp [tokens_of] at h
/-- The paren link of a close paren among the tokens behind the car of a pair points to
the open paren of the list, or to an open paren among these tokens, before it. -/
theorem close_rest_link_open : ∀ (obj : Object) (b o : Nat) (i : Nat)
    (t : FormToken), (rest_tokens_of obj)[i]? = some t → t.kind = .CLOSE_PAREN →
      (rest_links_of obj b o)[i]? = some (some o) ∨
        ∃ j, (rest_links_of obj b o)[i]? = some (some (b + j)) ∧ j < i ∧
          (rest_tokens_of obj)[j]? = some ⟨.OPEN_PAREN, ""⟩
  | .PAIR car cdr, b, o, i, t, h, hk => by
    simp only [rest_tokens_of, rest_links_of] at h ⊢
    cases i with
    | zero =>
      simp only [List.getElem?_cons_zero, Option.some.injEq] at h
      subst h
      exact absurd hk (by decide)
    | succ i =>
      simp only [List.getElem?_cons_succ] at h ⊢
      by_cases hi : i < (tokens_of car).length
      · rw [List.getElem?_append_left hi] at h
        rw [List.getElem?_append_left (by rw [links_of_length]; exact hi)]
        obtain ⟨j, h1, h2, h3⟩ := close_link_open car (b + 1) (some o) i t h hk
        refine Or.inr ⟨j + 1, ?_, by omega, ?_⟩
        · rw [h1]; congr 2; omega
        · rw [List.getElem?_cons_succ, List.getElem?_append_left (by omega)]
          exact h3
      · rw [List.getElem?_append_right (by omega)] at h
        rw [List.getElem?_append_right (by rw [links_of_length]; omega), links_of_length]
        rcases close_rest_link_open cdr (b + 1 + (tokens_of car).length) o _ t h hk with
          h1 | ⟨j, h1, h2, h3⟩
        · exact Or.inl h1
        · refine Or.inr ⟨1 + (tokens_of car).length + j, ?_, by omega, ?_⟩
          · rw [h1]; congr 2; omega
          · have e1 : 1 + (tokens_of car).length + j = ((tokens_of car).length + j) + 1 := by
              omega
            rw [e1, List.getElem?_cons_succ, List.getElem?_append_right (by omega)]
            simpa using h3
  | .EMPTY_LIST, b, o, i, t, h, hk => by
    cases i with
    | zero => exact Or.inl (by simp [rest_links_of])
    | succ i => simp [rest_tokens_of] at h
  | .INTEGER _, b, o, i, t, h, hk => by
    have hi : i < 5 := by
      by_contra hge
      rw [List.getElem?_eq_none (by simp [rest_tokens_of]; omega)] at h
      simp at h
    left
    simp only [rest_links_of]
    interval_cases i <;> rfl
  | .FLOAT _, b, o, i, t, h, hk => by
    have hi : i < 5 := by
      by_contra hge
      rw [List.getElem?_eq_none (by simp [rest_tokens_of]; omega)] at h
      simp at h
    left
    simp only [rest_links_of]
    interval_cases i <;> rfl
  | .CHAR _, b, o, i, t, h, hk => by
    have hi : i < 5 := by
      by_contra hge
      rw [List.getElem?_eq_none (by simp [rest_tokens_of]; omega)] at h
      simp at h
    left
    simp only [rest_links_of]
    interval_cases i <;> rfl
  | .SYMBOL _, b, o, i, t, h, hk => by
    have hi : i < 5 := by
      by_contra hge
      rw [List.getElem?_eq_none (by simp [rest_tokens_of]; omega)] at h
      simp at h
    left
    simp only [rest_links_of]
    interval_cases i <;> rfl
  | .STRING _, b, o, i, t, h, hk => by
    have hi : i < 5 := by
      by_contra hge
      rw [List.getElem?_eq_none (by simp [rest_tokens_of]; omega)] at h
      simp at h
    left
    simp only [rest_links_of]
    interval_cases i <;> rfl
  | .ARRAY, _, _, _, _, h, _ => by simp [rest_tokens_of] at h
  | .LAMBDA, _, _, _, _, h, _ => by simp [rest_tokens_of] at h
  | .MACRO, _, _, _, _, h, _ => by simp [rest_tokens_of] at h
  | .ENVIRONMENT, _, _, _, _, h, _ => by simp [rest_tokens_of] at h
end

/-- C27 (paren attachment): for a supported tree the tokenizer returns the tokens of the
tree, and the paren-attachment pass of `to_string` over their nodes returns. The stack it
ends with holds the null pointer alone, so the two assertions behind the pass hold. The
`paren` field the pass gives to a close paren is the top of the stack at the moment the
close paren is met: it is the address of an open paren node that comes before it, never
the null pointer. -/
theorem attach_parens_never_fails (obj : Object) (hs : supported obj) :
    add_to_token_list obj [] = .ok (tokens_of obj) ∧
      ∃ s1 parenStack,
        attach_parens (build_nodes 0 0 (tokens_of obj)) [none] (build_nodes 0 0 (tokens_of obj))
          = .ok (s1, parenStack) ∧
        parenStack = [none] ∧
        assert (parenStack.length = 1) = .ok () ∧
        assert (parenStack.head? = some none) = .ok () ∧
        ∀ n ∈ s1, ∀ t, n.tok = some t → t.kind = .CLOSE_PAREN →
          ∃ j po, n.paren = some j ∧ j < n.id ∧ node_at s1 j = some po ∧
            po.is_line_separator = false ∧ po.tok = some ⟨.OPEN_PAREN, ""⟩ := by
  refine ⟨by simpa using add_to_token_list_of_supported obj [] hs,
    _, _, attach_parens_spec hs, rfl, rfl, rfl, ?_⟩
  intro n hn t ht hk
  have hl := laid_build_linked hs
  obtain ⟨_, h2, h3⟩ := carries_build_linked _ _ _ _ _ hn
  simp only [Nat.sub_zero] at h2 h3
  rw [ht] at h2
  obtain ⟨j, h4, h5, h6⟩ := close_link_open obj 0 none n.id t h2.symm hk
  rw [h4] at h3
  simp only [Option.some.injEq, Nat.zero_add] at h3
  have hjT : j < (tokens_of obj).length := by
    by_contra hge
    rw [List.getElem?_eq_none (by omega)] at h6
    simp at h6
  obtain ⟨po, hp1, hp2, _, hp4, _, _⟩ := laid_node_at hl hjT
  rw [h6] at hp4
  exact ⟨j, po, h3.symm, h5, hp1, hp2, hp4⟩

/-- Witness for C27: the tree `(a (b) c)`. -/
theorem attach_parens_never_fails_witness :
    supported (build_list [.SYMBOL "a", build_list [.SYMBOL "b"], .SYMBOL "c"]) ∧
      ∃ s1, attach_parens
          (build_nodes 0 0 (tokens_of (build_list [.SYMBOL "a", build_list [.SYMBOL "b"],
            .SYMBOL "c"]))) [none]
          (build_nodes 0 0 (tokens_of (build_list [.SYMBOL "a", build_list [.SYMBOL "b"],
            .SYMBOL "c"]))) = .ok (s1, [none]) :=
  ⟨by simp [supported, build_list],
    let ⟨_, s1, st, h1, h2, _⟩ :=
      attach_parens_never_fails (build_list [.SYMBOL "a", build_list [.SYMBOL "b"],
        .SYMBOL "c"]) (by simp [supported, build_list])
    ⟨s1, h2 ▸ h1⟩⟩

theorem splice_after_twice (d d2 : Int) (p : Nat) :
    ∀ (s : NodeList) (f f2 : Nat),
      splice_after f2 d2 (splice_after f d s p) p = splice_after f d s p := by
  intro s
  induction s with
  | nil => intro f f2; rfl
  | cons a rest ih =>
    intro f f2
    by_cases ha : a.id = p
    · cases rest with
      | nil => simp [splice_after, ha]
      | cons b rest1 =>
        by_cases hb : b.is_line_separator = true
        · simp [splice_after, ha, hb]
        · simp [splice_after, ha, hb, new_separator]
    · simp only [splice_after, if_neg ha]
      rw [ih]

theorem splice_before_cons_head (f : Nat) (d : Int) (p : Nat) (b : PrettyPrinterNode)
    (rest : NodeList) : ∃ tl, splice_before f d (b :: rest) p = b :: tl := by
  unfold splice_before
  split
  · exact ⟨_, rfl⟩
  · cases rest with
    | nil => exact ⟨_, rfl⟩
    | cons c rest1 =>
      simp only
      split
      · split <;> exact ⟨_, rfl⟩
      · exact ⟨_, rfl⟩

theorem splice_before_step (f : Nat) (d : Int) {p : Nat} {a b : PrettyPrinterNode}
    (tl : NodeList) (ha : a.id ≠ p) (hb : b.id ≠ p) :
    splice_before f d (a :: b :: tl) p = a :: splice_before f d (b :: tl) p := by
  rw [splice_before, if_neg ha]
  simp only [if_neg hb]

theorem splice_before_twice (d d2 : Int) (p : Nat) :
    ∀ (s : NodeList) (f f2 : Nat), f ≠ p →
      splice_before f2 d2 (splice_before f d s p) p = splice_before f d s p := by
  intro s
  induction s with
  | nil => intro f f2 _; rfl
  | cons a rest ih =>
    intro f f2 hf
    by_cases ha : a.id = p
    · simp [splice_before, ha]
    · cases rest with
      | nil => simp [splice_before, ha]
      | cons b rest1 =>
        by_cases hb : b.id = p
        · by_cases hs : a.is_line_separator = true
          · simp [splice_before, ha, hb, hs]
          · simp [splice_before, ha, hb, hs, new_separator, hf]
        · obtain ⟨tl, htl⟩ := splice_before_cons_head f d p b rest1
          have hrec := ih f f2 hf
          rw [splice_before_step f d rest1 ha hb, htl, splice_before_step f2 d2 tl ha hb]
          rw [htl] at hrec
          rw [hrec]

theorem splice_after_at_sep (f : Nat) (d : Int) (p : Nat) :
    ∀ (pre : NodeList) (n m : PrettyPrinterNode) (post : NodeList), n.id = p →
      (∀ x ∈ pre, x.id ≠ p) → m.is_line_separator = true →
      splice_after f d (pre ++ n :: m :: post) p = pre ++ n :: m :: post := by
  intro pre
  induction pre with
  | nil => intro n m post hn _ hm; simp [splice_after, hn, hm]
  | cons a pre ih =>
    intro n m post hn hpre hm
    have ha := hpre a (by simp)
    simp only [List.cons_append, splice_after, if_neg ha]
    exact congrArg _ (ih n m post hn (fun x hx => hpre x (by simp [hx])) hm)

theorem splice_after_at_last (f : Nat) (d : Int) (p : Nat) :
    ∀ (pre : NodeList) (n : PrettyPrinterNode), n.id = p → (∀ x ∈ pre, x.id ≠ p) →
      splice_after f d (pre ++ [n]) p = pre ++ [n] := by
  intro pre
  induction pre with
  | nil => intro n hn _; simp [splice_after, hn]
  | cons a pre ih =>
    intro n hn hpre
    have ha := hpre a (by simp)
    simp only [List.cons_append, splice_after, if_neg ha]
    exact congrArg _ (ih n hn (fun x hx => hpre x (by simp [hx])))

theorem splice_before_at_sep (f : Nat) (d : Int) (p : Nat) :
    ∀ (pre : NodeList) (m n : PrettyPrinterNode) (post : NodeList), n.id = p →
      (∀ x ∈ pre ++ [m], x.id ≠ p) → m.is_line_separator = true →
      splice_before f d (pre ++ m :: n :: post) p = pre ++ m :: n :: post := by
  intro pre
  induction pre with
  | nil =>
    intro m n post hn hpre hm
    have h1 := hpre m (by simp)
    simp [splice_before, hn, hm, h1]
  | cons a pre ih =>
    intro m n post hn hpre hm
    have ha := hpre a (by simp)
    have hrec := ih m n post hn (fun x hx => hpre x (by
      simp only [List.cons_append, List.mem_cons]; exact Or.inr hx)) hm
    cases pre with
    | nil =>
      have h1 := hpre m (by simp)
      simp only [List.nil_append] at hrec
      rw [List.cons_append, List.nil_append, splice_before_step f d _ ha h1, hrec]
    | cons b pre1 =>
      have h1 := hpre b (by simp)
      simp only [List.cons_append] at hrec ⊢
      rw [splice_before_step f d _ ha h1, hrec]

/-- C28 (separator insertion is idempotent): in a node list whose addresses are below its
length (so that the address of a newly allocated node is new), for every node `n` of the
list, a separator or not: `insertNewlineAfter` at `n` applied twice gives the list that one
application gives, and so does `insertNewlineBefore`; each changes nothing when a separator
already stands directly behind (before) `n`; `insertNewlineAfter` changes nothing when `n`
is the last node, and `insertNewlineBefore` changes nothing when `n` is the first node. -/
theorem separator_insertion_idempotent (s : NodeList) (n : PrettyPrinterNode) (d d2 : Int)
    (hn : n ∈ s)
    (hfresh : ∀ m ∈ s, m.id < s.length) :
    insertNewlineAfter (insertNewlineAfter s n.id d) n.id d2 = insertNewlineAfter s n.id d ∧
      insertNewlineBefore (insertNewlineBefore s n.id d) n.id d2
        = insertNewlineBefore s n.id d ∧
      (∀ pre m post, s = pre ++ n :: m :: post → (∀ x ∈ pre, x.id ≠ n.id) →
        m.is_line_separator = true → insertNewlineAfter s n.id d = s) ∧
      (∀ pre m post, s = pre ++ m :: n :: post → (∀ x ∈ pre ++ [m], x.id ≠ n.id) →
        m.is_line_separator = true → insertNewlineBefore s n.id d = s) ∧
      (∀ pre, s = pre ++ [n] → (∀ x ∈ pre, x.id ≠ n.id) → insertNewlineAfter s n.id d = s) ∧
      (∀ post, s = n :: post → insertNewlineBefore s n.id d = s) := by
  have hp : s.length ≠ n.id := by
    have := hfresh n hn
    omega
  refine ⟨splice_after_twice d d2 n.id s _ _, splice_before_twice d d2 n.id s _ _ hp,
    ?_, ?_, ?_, ?_⟩
  · intro pre m post e hpre hm
    unfold insertNewlineAfter
    rw [e]
    exact splice_after_at_sep _ d n.id pre n m post rfl hpre hm
  · intro pre m post e hpre hm
    unfold insertNewlineBefore
    rw [e]
    exact splice_before_at_sep _ d n.id pre m n post rfl hpre hm
  · intro pre e hpre
    unfold insertNewlineAfter
    rw [e]
    exact splice_after_at_last _ d n.id pre n rfl hpre
  · intro post e
    unfold insertNewlineBefore
    rw [e]
    simp [splice_before]

/-- Witness for C28: the three nodes of the tokens of `(a)`, at the node of `a`. -/
theorem separator_insertion_idempotent_witness :
    insertNewlineAfter (insertNewlineAfter
        (build_linked 0 0 (tokens_of (build_list [.SYMBOL "a"]))
          (links_of (build_list [.SYMBOL "a"]) 0 none)) 1 0) 1 0
      = insertNewlineAfter
        (build_linked 0 0 (tokens_of (build_list [.SYMBOL "a"]))
          (links_of (build_list [.SYMBOL "a"]) 0 none)) 1 0 ∧
    insertNewlineBefore (insertNewlineBefore
        (build_linked 0 0 (tokens_of (build_list [.SYMBOL "a"]))
          (links_of (build_list [.SYMBOL "a"]) 0 none)) 1 0) 1 0
      = insertNewlineBefore
        (build_linked 0 0 (tokens_of (build_list [.SYMBOL "a"]))
          (links_of (build_list [.SYMBOL "a"]) 0 none)) 1 0 :=
  let h := separator_insertion_idempotent
    (build_linked 0 0 (tokens_of (build_list [.SYMBOL "a"]))
      (links_of (build_list [.SYMBOL "a"]) 0 none))
    { id := 1, tok := some ⟨.STRING, "a"⟩, line := 0, offset := 1, lineIndent := 0,
      paren := some 0 } 0 0 (by decide) (by decide)
  ⟨h.1, h.2.1⟩

/-- C24, evaluated at the list `(foo 1 2)` and width 8: after the special pass, the
`propagatePretty` pass returns the node 0, the first token of the line whose last token
ends in column 9, and `getFirstBadLine` on the list it leaves returns no node. -/
theorem propagator_resolver_differ :
    supported (build_list [.SYMBOL "foo", .INTEGER "1", .INTEGER "2"]) ∧
    (do
      let tokens ← add_to_token_list (build_list [.SYMBOL "foo", .INTEGER "1", .INTEGER "2"]) []
      let (s1, _) ← attach_parens (build_nodes 0 0 tokens) [none] (build_nodes 0 0 tokens)
      let s2 ← insertSpecialBreaks (loop_fuel tokens) s1 (some 0)
      let (s3, rv) ← propagatePretty s2 (some 0) 8
      let bad ← getFirstBadLine s3 (some 0) 8
      pure (s3.map (fun n => (n.id, n.offset)), rv, bad)) =
      (.ok ([(0, 0), (1, 1), (2, 4), (3, 5), (4, 6), (5, 7), (6, 8)], some 0, none) :
        Except Err (List (Nat × Int) × Option Nat × Option Nat)) :=
  ⟨by simp [build_list, supported], by rfl⟩

/-- C22, evaluated at the list `(deftype foo (bar) x)` and width 80: the first
`propagatePretty` pass after the special pass puts a separator before the last close paren,
node 10, and leaves it the line 1 although two separators precede it; a second pass
directly after it inserts nothing and changes that line to 2. Each triple is the address
of a node, whether it is a separator, and its line. -/
theorem second_pass_changes_line :
    supported (build_list [.SYMBOL "deftype", .SYMBOL "foo", build_list [.SYMBOL "bar"],
      .SYMBOL "x"]) ∧
    (do
      let tokens ← add_to_token_list (build_list [.SYMBOL "deftype", .SYMBOL "foo",
        build_list [.SYMBOL "bar"], .SYMBOL "x"]) []
      let (s1, _) ← attach_parens (build_nodes 0 0 tokens) [none] (build_nodes 0 0 tokens)
      let s2 ← insertSpecialBreaks (loop_fuel tokens) s1 (some 0)
      let (s3, _) ← propagatePretty s2 (some 0) 80
      let (s3b, _) ← propagatePretty s3 (some 0) 80
      pure (s3.map (fun n => (n.id, n.is_line_separator, n.line)),
        s3b.map (fun n => (n.id, n.is_line_separator, n.line)))) =
      (.ok ([(0, false, 0), (1, false, 0), (2, false, 0), (3, false, 0), (4, false, 0),
          (5, false, 0), (6, false, 0), (7, false, 0), (11, true, -1), (8, false, 1),
          (9, false, 1), (12, true, -1), (10, false, 1)],
        [(0, false, 0), (1, false, 0), (2, false, 0), (3, false, 0), (4, false, 0),
          (5, false, 0), (6, false, 0), (7, false, 0), (11, true, -1), (8, false, 1),
          (9, false, 1), (12, true, -1), (10, false, 2)]) :
        Except Err (List (Nat × Bool × Int) × List (Nat × Bool × Int))) :=
  ⟨by simp [build_list, supported], by rfl⟩

/-- The second loop of `propagatePretty`, one turn at a time. -/
theorem propagate_offsets_cons (w : Int) (prev : Option PrettyPrinterNode) (st : OffsetState)
    (n : PrettyPrinterNode) (rest : NodeList) :
    propagate_offsets w prev st (n :: rest) =
      match offset_step w prev st n with
      | .error e => .error e
      | .ok (n2, st1) =>
        match propagate_offsets w (some n2) st1 rest with
        | .error e => .error e
        | .ok (r, rv) => .ok (n2 :: r, rv) := by
  cases hs : n.is_line_separator with
  | true =>
    cases hst : st.indentStack with
    | nil => simp only [propagate_offsets, offset_step, hs, hst, if_true]
    | cons top tl => simp only [propagate_offsets, offset_step, hs, hst, if_true]
  | false =>
    cases ht : tok_of n with
    | error e =>
      simp only [propagate_offsets, offset_step, hs, ht, Bool.false_eq_true, if_false]
    | ok t =>
      by_cases hc : t.kind = .CLOSE_PAREN
      · have ho : ¬ t.kind = .OPEN_PAREN := by rw [hc]; decide
        simp only [propagate_offsets, offset_step, hs, ht, hc, ho, if_true, if_false,
          Bool.false_eq_true]
        cases hst : st.indentStack with
        | nil => rfl
        | cons top tl => rfl
      · simp only [propagate_offsets, offset_step, hs, ht, hc, if_false, Bool.false_eq_true]

theorem real_tokens_cons_sep {n : PrettyPrinterNode} {rest : NodeList}
    (h : n.is_line_separator = true) : real_tokens (n :: rest) = real_tokens rest := by
  simp [real_tokens, h]

theorem real_tokens_cons_tok {n : PrettyPrinterNode} {rest : NodeList} {t : FormToken}
    (h : n.is_line_separator = false) (ht : n.tok = some t) :
    real_tokens (n :: rest) = t :: real_tokens rest := by
  simp [real_tokens, h, ht]

/-- The tokens of a part of a list that holds the token nodes from the address `a` on. -/
theorem real_tokens_of_laid {toks : List FormToken} {links : List (Option Nat)} :
    ∀ (l : NodeList) (a : Nat), laid toks links a l → real_tokens l = toks.drop a := by
  intro l
  induction l with
  | nil =>
    intro a hl
    have := laid_nil hl
    simp [real_tokens, List.drop_eq_nil_of_le this]
  | cons n rest ih =>
    intro a hl
    obtain ⟨f1, f2⟩ := laid_cons hl
    cases hs : n.is_line_separator with
    | true => rw [real_tokens_cons_sep hs]; exact ih a (f1 hs).2
    | false =>
      obtain ⟨_, g2, g3, _, g5⟩ := f2 hs
      rw [List.getElem?_eq_getElem g2] at g3
      rw [real_tokens_cons_tok hs g3, ih _ g5, List.drop_eq_getElem_cons g2]

/-- Every token node of a laid list has a token. -/
theorem laid_has_tok {toks : List FormToken} {links : List (Option Nat)} :
    ∀ (l : NodeList) (a : Nat), laid toks links a l →
      ∀ n ∈ l, n.is_line_separator = false → ∃ t, n.tok = some t := by
  intro l a hl n hn hs
  have h3 := (hl.2.2 n hn hs).1
  have hlt : n.id < toks.length := by
    have hr := hl.1.1
    have hm : n.id ∈ real_ids l := by
      simp only [real_ids, List.mem_map, List.mem_filter]
      exact ⟨n, ⟨hn, by simp [hs]⟩, rfl⟩
    rw [hr, List.mem_range'] at hm
    obtain ⟨i, hi, e⟩ := hm
    have := hl.1.2
    omega
  rw [List.getElem?_eq_getElem hlt] at h3
  exact ⟨_, h3⟩

/-- The indent stack along the second loop of `propagatePretty`: over a list whose tokens
never close a paren that was not opened, every turn succeeds, and the stack is the stack
`base` under as many pushed values as parens are open. -/
theorem offset_states_stack (w : Int) (base : List Int) (hb : base ≠ []) :
    ∀ (l : NodeList) (prev : Option PrettyPrinterNode) (st : OffsetState) (pushed : List Int)
      (d1 : Nat),
      (∀ n ∈ l, n.is_line_separator = false → ∃ t, n.tok = some t) →
      st.indentStack = pushed ++ base →
      paren_depth pushed.length (real_tokens l) = some d1 →
      ∃ states, offset_states w prev st l = .ok states ∧ states.length = l.length ∧
        ∀ k stk, (st :: states)[k]? = some stk →
          ∃ pk, stk.indentStack = pk ++ base ∧
            pk.length + count_kind .CLOSE_PAREN (real_tokens (l.take k)) =
              pushed.length + count_kind .OPEN_PAREN (real_tokens (l.take k)) := by
  intro l
  induction l with
  | nil =>
    intro prev st pushed d1 _ hst _
    refine ⟨[], rfl, rfl, ?_⟩
    intro k stk hk
    cases k with
    | zero =>
      simp only [List.getElem?_cons_zero, Option.some.injEq] at hk
      subst hk
      exact ⟨pushed, hst, by simp [real_tokens, count_kind]⟩
    | succ k => simp at hk
  | cons n rest ih =>
    intro prev st pushed d1 htok hst hd
    have htok1 : ∀ m ∈ rest, m.is_line_separator = false → ∃ t, m.tok = some t :=
      fun m hm => htok m (List.mem_cons_of_mem _ hm)
    have hzero : ∀ stk, (st :: ([] : List OffsetState))[0]? = some stk →
        ∃ pk, stk.indentStack = pk ++ base ∧
          pk.length + count_kind .CLOSE_PAREN (real_tokens ((n :: rest).take 0)) =
            pushed.length + count_kind .OPEN_PAREN (real_tokens ((n :: rest).take 0)) := by
      intro stk hk
      simp only [List.getElem?_cons_zero, Option.some.injEq] at hk
      subst hk
      exact ⟨pushed, hst, by simp [real_tokens, count_kind]⟩
    cases hs : n.is_line_separator with
    | true =>
      rw [real_tokens_cons_sep hs] at hd
      cases hpb : st.indentStack with
      | nil =>
        rw [hst] at hpb
        simp only [List.append_eq_nil] at hpb
        exact absurd hpb.2 hb
      | cons top tl =>
        obtain ⟨st1, hstep, hstk⟩ : ∃ st1, offset_step w prev st n = .ok (n, st1) ∧
            st1.indentStack = st.indentStack := by
          simp only [offset_step, hs, hpb, if_true]
          exact ⟨_, rfl, rfl⟩
        obtain ⟨states, h1, h2, h3⟩ := ih (some n) st1 pushed d1 htok1 (by rw [hstk, hst]) hd
        refine ⟨st1 :: states, ?_, by simp [h2], ?_⟩
        · simp only [offset_states, hstep, h1]
        · intro k stk hk
          cases k with
          | zero => exact hzero stk (by simpa using hk)
          | succ k =>
            rw [List.getElem?_cons_succ] at hk
            obtain ⟨pk, e1, e2⟩ := h3 k stk hk
            refine ⟨pk, e1, ?_⟩
            rw [List.take_succ_cons, real_tokens_cons_sep hs]
            exact e2
    | false =>
      obtain ⟨t, ht⟩ := htok n (by simp) hs
      rw [real_tokens_cons_tok hs ht] at hd
      have hto : tok_of n = .ok t := by simp [tok_of, ht]
      simp only [paren_depth] at hd
      by_cases ho : t.kind = .OPEN_PAREN
      · have hc : ¬ t.kind = .CLOSE_PAREN := by rw [ho]; decide
        rw [if_pos ho] at hd
        obtain ⟨n2, st1, x, hstep, hstk⟩ : ∃ n2 st1 x, offset_step w prev st n = .ok (n2, st1) ∧
            st1.indentStack = x :: st.indentStack := by
          simp only [offset_step, hs, hto, ho, hc, if_true, if_false, Bool.false_eq_true]
          exact ⟨_, _, _, rfl, rfl⟩
        obtain ⟨states, h1, h2, h3⟩ := ih (some n2) st1 (x :: pushed) d1 htok1
          (by rw [hstk, hst]; rfl) hd
        refine ⟨st1 :: states, ?_, by simp [h2], ?_⟩
        · simp only [offset_states, hstep, h1]
        · intro k stk hk
          cases k with
          | zero => exact hzero stk (by simpa using hk)
          | succ k =>
            rw [List.getElem?_cons_succ] at hk
            obtain ⟨pk, e1, e2⟩ := h3 k stk hk
            refine ⟨pk, e1, ?_⟩
            rw [List.take_succ_cons, real_tokens_cons_tok hs ht, count_kind_cons,
              count_kind_cons]
            simp only [ho, if_true] at e2 ⊢
            simp only [List.length_cons] at e2
            simp [hc] at e2 ⊢
            omega
      · rw [if_neg ho] at hd
        by_cases hc : t.kind = .CLOSE_PAREN
        · rw [if_pos hc] at hd
          cases pushed with
          | nil => simp at hd
          | cons x p1 =>
            simp only [List.length_cons] at hd
            obtain ⟨n2, st1, hstep, hstk⟩ : ∃ n2 st1, offset_step w prev st n = .ok (n2, st1) ∧
                st1.indentStack = p1 ++ base := by
              simp only [offset_step, hs, hto, ho, hc, if_true, if_false, Bool.false_eq_true,
                hst, List.cons_append]
              exact ⟨_, _, rfl, rfl⟩
            obtain ⟨states, h1, h2, h3⟩ := ih (some n2) st1 p1 d1 htok1 hstk hd
            refine ⟨st1 :: states, ?_, by simp [h2], ?_⟩
            · simp only [offset_states, hstep, h1]
            · intro k stk hk
              cases k with
              | zero => exact hzero stk (by simpa using hk)
              | succ k =>
                rw [List.getElem?_cons_succ] at hk
                obtain ⟨pk, e1, e2⟩ := h3 k stk hk
                refine ⟨pk, e1, ?_⟩
                rw [List.take_succ_cons, real_tokens_cons_tok hs ht, count_kind_cons,
                  count_kind_cons]
                simp [hc, ho] at e2 ⊢
                omega
        · rw [if_neg hc] at hd
          obtain ⟨n2, st1, hstep, hstk⟩ : ∃ n2 st1, offset_step w prev st n = .ok (n2, st1) ∧
              st1.indentStack = st.indentStack := by
            simp only [offset_step, hs, hto, ho, hc, if_true, if_false, Bool.false_eq_true]
            exact ⟨_, _, rfl, rfl⟩
          obtain ⟨states, h1, h2, h3⟩ := ih (some n2) st1 pushed d1 htok1
            (by rw [hstk, hst]) hd
          refine ⟨st1 :: states, ?_, by simp [h2], ?_⟩
          · simp only [offset_states, hstep, h1]
          · intro k stk hk
            cases k with
            | zero => exact hzero stk (by simpa using hk)
            | succ k =>
              rw [List.getElem?_cons_succ] at hk
              obtain ⟨pk, e1, e2⟩ := h3 k stk hk
              refine ⟨pk, e1, ?_⟩
              rw [List.take_succ_cons, real_tokens_cons_tok hs ht, count_kind_cons,
                count_kind_cons]
              simp [hc, ho] at e2 ⊢
              omega

/-- When every turn of the second loop of `propagatePretty` succeeds, the loop returns. -/
theorem propagate_offsets_of_states (w : Int) :
    ∀ (l : NodeList) (prev : Option PrettyPrinterNode) (st : OffsetState)
      (states : List OffsetState), offset_states w prev st l = .ok states →
      ∃ r rv, propagate_offsets w prev st l = .ok (r, rv) := by
  intro l
  induction l with
  | nil => intro prev st states _; exact ⟨[], st.rv, rfl⟩
  | cons n rest ih =>
    intro prev st states h
    rw [propagate_offsets_cons]
    simp only [offset_states] at h
    cases hstep : offset_step w prev st n with
    | error e => simp [hstep] at h
    | ok p =>
      obtain ⟨n2, st1⟩ := p
      simp only [hstep] at h
      cases hrec : offset_states w (some n2) st1 rest with
      | error e => simp [hrec] at h
      | ok l1 =>
        obtain ⟨r, rv, e⟩ := ih (some n2) st1 l1 hrec
        exact ⟨n2 :: r, rv, by simp only [e]⟩

/-- The run of the second loop of `propagatePretty` from its turn `k` on: started with the
local variables before this turn, at the node of this turn, it returns the rest of what the
whole run returns. -/
theorem propagate_offsets_from_turn (w : Int) :
    ∀ (s : NodeList) (prev : Option PrettyPrinterNode) (st0 : OffsetState)
      (states : List OffsetState) (r : NodeList) (rv : Option Nat),
      offset_states w prev st0 s = .ok states →
      propagate_offsets w prev st0 s = .ok (r, rv) →
      ∀ k st, (st0 :: states)[k]? = some st →
        propagate_offsets w (match k with | 0 => prev | j + 1 => r[j]?) st (s.drop k)
          = .ok (r.drop k, rv) := by
  intro s
  induction s with
  | nil =>
    intro prev st0 states r rv h1 h2 k st hk
    simp only [offset_states, Except.ok.injEq] at h1
    subst h1
    cases k with
    | zero =>
      simp only [List.getElem?_cons_zero, Option.some.injEq] at hk
      subst hk
      simpa using h2
    | succ k => simp at hk
  | cons n rest ih =>
    intro prev st0 states r rv h1 h2 k st hk
    cases k with
    | zero =>
      simp only [List.getElem?_cons_zero, Option.some.injEq] at hk
      subst hk
      simpa using h2
    | succ k =>
      rw [propagate_offsets_cons] at h2
      simp only [offset_states] at h1
      cases hstep : offset_step w prev st0 n with
      | error e => rw [hstep] at h2; simp at h2
      | ok p =>
        obtain ⟨n2, st1⟩ := p
        rw [hstep] at h1 h2
        simp only at h1 h2
        cases hrec : propagate_offsets w (some n2) st1 rest with
        | error e => rw [hrec] at h2; simp at h2
        | ok q =>
          obtain ⟨r1, rv1⟩ := q
          rw [hrec] at h2
          simp only [Except.ok.injEq, Prod.mk.injEq] at h2
          obtain ⟨e1, e2⟩ := h2
          subst e1 e2
          cases hos : offset_states w (some n2) st1 rest with
          | error e => rw [hos] at h1; simp at h1
          | ok l =>
            rw [hos] at h1
            simp only [Except.ok.injEq] at h1
            subst h1
            simp only [List.getElem?_cons_succ] at hk
            have := ih (some n2) st1 l r1 rv1 hos hrec k st hk
            simp only [List.drop_succ_cons]
            cases k with
            | zero => simpa using this
            | succ j => simpa using this

/-- C26 (indent stack): the second loop of `propagatePretty` is the function
`propagate_offsets`, whose turn at a node is `offset_step` (first part: the loop over an
empty list returns, and over a list that starts with `n` it is the turn at `n` followed by
the loop over the rest with the local variables that the turn leaves). Over a list that
holds the tokens of a supported tree, with separators anywhere between them, every turn
succeeds and the loop returns. The loop started at the node of the turn `k` with the local
variables `st` before this turn returns the rest of the result; the size of the indent
stack of `st` is the number of open parens passed minus the number of close parens passed,
plus one, and its bottom is the seed 0; the stack is not empty when the turn is at a
separator, it holds at least two values when the turn is at a close paren, and it is the
seed alone after the last turn. -/
theorem indent_stack_invariant (obj : Object) (hs : supported obj) (links : List (Option Nat))
    (s : NodeList) (hl : laid (tokens_of obj) links 0 s) (w : Int)
    (prev : Option PrettyPrinterNode) (list : Option Nat) :
    (∀ (p1 : Option PrettyPrinterNode) (st1 : OffsetState) (n : PrettyPrinterNode)
        (rest : NodeList),
      propagate_offsets w p1 st1 [] = .ok ([], st1.rv) ∧
      propagate_offsets w p1 st1 (n :: rest) =
        (match offset_step w p1 st1 n with
          | .error e => .error e
          | .ok (n2, st2) =>
            match propagate_offsets w (some n2) st2 rest with
            | .error e => .error e
            | .ok (r, rv) => .ok (n2 :: r, rv))) ∧
    ∃ states r rv,
      offset_states w prev { line_start := list } s = .ok states ∧
      propagate_offsets w prev { line_start := list } s = .ok (r, rv) ∧
      states.length = s.length ∧
      (∀ k st, (({ line_start := list } : OffsetState) :: states)[k]? = some st →
        propagate_offsets w (match k with | 0 => prev | j + 1 => r[j]?) st (s.drop k)
          = .ok (r.drop k, rv) ∧
        st.indentStack.length + count_kind .CLOSE_PAREN (real_tokens (s.take k)) =
          count_kind .OPEN_PAREN (real_tokens (s.take k)) + 1 ∧
        st.indentStack.getLast? = some 0 ∧
        (∀ n, s[k]? = some n → n.is_line_separator = true → st.indentStack ≠ []) ∧
        (∀ n t, s[k]? = some n → n.is_line_separator = false → n.tok = some t →
          t.kind = .CLOSE_PAREN → 2 ≤ st.indentStack.length)) ∧
      ∃ st, (({ line_start := list } : OffsetState) :: states)[s.length]? = some st ∧
        st.indentStack = [0] := by
  refine ⟨fun p1 st1 n rest => ⟨rfl, propagate_offsets_cons w p1 st1 n rest⟩, ?_⟩
  have hrt : real_tokens s = tokens_of obj := by
    simpa using real_tokens_of_laid s 0 hl
  have hd : paren_depth 0 (real_tokens s) = some 0 := by
    have := paren_depth_tokens obj hs 0 []
    rw [hrt]
    simpa [paren_depth] using this
  obtain ⟨states, h1, h2, h3⟩ := offset_states_stack w [0] (by simp) s prev
    { line_start := list } [] 0 (laid_has_tok s 0 hl) rfl hd
  obtain ⟨r, rv, h4⟩ := propagate_offsets_of_states w s prev _ states h1
  have hlen : ∀ k st, (({ line_start := list } : OffsetState) :: states)[k]? = some st →
      st.indentStack.length + count_kind .CLOSE_PAREN (real_tokens (s.take k)) =
        count_kind .OPEN_PAREN (real_tokens (s.take k)) + 1 ∧
      st.indentStack.getLast? = some 0 := by
    intro k st hk
    obtain ⟨pk, e1, e2⟩ := h3 k st hk
    simp only [List.length_nil, Nat.zero_add] at e2
    refine ⟨by rw [e1, List.length_append, List.length_singleton]; omega, by rw [e1]; simp⟩
  refine ⟨states, r, rv, h1, h4, h2, ?_, ?_⟩
  · intro k st hk
    obtain ⟨e1, e2⟩ := hlen k st hk
    refine ⟨propagate_offsets_from_turn w s prev _ states r rv h1 h4 k st hk, e1, e2, ?_, ?_⟩
    · intro n _ _ hnil
      rw [hnil] at e2
      simp at e2
    · intro n t hn hsep ht hc
      have hk1 : k < s.length := by
        rcases Nat.lt_or_ge k s.length with h | h
        · exact h
        · rw [List.getElem?_eq_none h] at hn; simp at hn
      have hk2 : k + 1 < (({ line_start := list } : OffsetState) :: states).length := by
        show k + 1 < states.length + 1
        omega
      obtain ⟨f1, f2⟩ := hlen (k + 1) _ (List.getElem?_eq_getElem hk2)
      generalize ((({ line_start := list } : OffsetState) :: states)[k + 1]).indentStack = stk
        at f1 f2
      have hpos : 1 ≤ stk.length := by
        cases stk with
        | nil => simp at f2
        | cons _ _ => simp
      have hn2 : s[k] = n := by
        rw [List.getElem?_eq_getElem hk1] at hn
        exact Option.some.inj hn
      have htk : s.take (k + 1) = s.take k ++ [n] := by
        rw [List.take_succ, List.getElem?_eq_getElem hk1, hn2]; rfl
      have hone : real_tokens [n] = [t] := real_tokens_cons_tok hsep ht
      rw [htk, real_tokens_append, hone, count_kind_append, count_kind_append] at f1
      have c1 : count_kind .CLOSE_PAREN [t] = 1 := by simp [count_kind, hc]
      have c2 : count_kind .OPEN_PAREN [t] = 0 := by simp [count_kind, hc]
      rw [c1, c2] at f1
      omega
  · have hk2 : s.length < (({ line_start := list } : OffsetState) :: states).length := by
      show s.length < states.length + 1
      omega
    refine ⟨_, List.getElem?_eq_getElem hk2, ?_⟩
    obtain ⟨f1, f2⟩ := hlen s.length _ (List.getElem?_eq_getElem hk2)
    rw [List.take_length, hrt] at f1
    have hb := (paren_balance obj (tokens_of obj) (by simpa using add_to_token_list_of_supported obj [] hs)).2.1
    generalize ((({ line_start := list } : OffsetState) :: states)[s.length]).indentStack = stk
      at f1 f2 ⊢
    match stk, f1, f2 with
    | [x], _, f2 => simpa using f2
    | [], f1, _ => simp at f1; omega
    | _ :: _ :: _, f1, _ => simp at f1; omega

/-- Witness for C26: the list that `to_string` builds for `(a (b))`. -/
theorem indent_stack_invariant_witness :
    supported (build_list [.SYMBOL "a", build_list [.SYMBOL "b"]]) ∧
      ∃ states, offset_states 80 none { line_start := some 0 }
        (build_linked 0 0 (tokens_of (build_list [.SYMBOL "a", build_list [.SYMBOL "b"]]))
          (links_of (build_list [.SYMBOL "a", build_list [.SYMBOL "b"]]) 0 none)) = .ok states ∧
        ∃ st, (({ line_start := some 0 } : OffsetState) :: states)[(build_linked 0 0
          (tokens_of (build_list [.SYMBOL "a", build_list [.SYMBOL "b"]]))
          (links_of (build_list [.SYMBOL "a", build_list [.SYMBOL "b"]]) 0 none)).length]?
            = some st ∧ st.indentStack = [0] :=
  ⟨by simp [build_list, supported],
    let ⟨_, states, _, _, h1, _, _, _, h5⟩ := indent_stack_invariant
      (build_list [.SYMBOL "a", build_list [.SYMBOL "b"]]) (by simp [build_list, supported])
      (links_of (build_list [.SYMBOL "a", build_list [.SYMBOL "b"]]) 0 none) _
      (laid_build_linked (by simp [build_list, supported])) 80 none (some 0)
    ⟨states, h1, h5⟩⟩

/-- C33, evaluated at the list `(cond a)` and at the symbol `cond`: on the list that
`to_string` builds, `getNextListOnLine` at the node of `cond` returns no node, and
`to_string` ends in the dereference of this null pointer. -/
theorem cond_rule_without_list :
    supported (build_list [.SYMBOL "cond", .SYMBOL "a"]) ∧
    getNextListOnLine (build_linked 0 0 (tokens_of (build_list [.SYMBOL "cond", .SYMBOL "a"]))
      (links_of (build_list [.SYMBOL "cond", .SYMBOL "a"]) 0 none)) (some 1) = .ok none ∧
    to_string (build_list [.SYMBOL "cond", .SYMBOL "a"]) 80 = .error .null_dereference ∧
    supported (.SYMBOL "cond") ∧
    getNextListOnLine (build_linked 0 0 (tokens_of (.SYMBOL "cond"))
      (links_of (.SYMBOL "cond") 0 none)) (some 0) = .ok none ∧
    to_string (.SYMBOL "cond") 80 = .error .null_dereference :=
  ⟨by simp [build_list, supported], by rfl, by rfl, by simp [supported], by rfl, by rfl⟩

/-- C32, evaluated at the list `((let ((a 1)) b))`: the node before the open paren of the
`let` form is the open paren of the enclosing list, node 0, whose paren link is its close
paren, node 14; the rule passes this close paren to `breakList`, whose entry assertion
fails. -/
theorem let_rule_passes_close_paren :
    supported (build_list [build_list [.SYMBOL "let",
      build_list [build_list [.SYMBOL "a", .INTEGER "1"]], .SYMBOL "b"]]) ∧
    (do
      let tokens ← add_to_token_list (build_list [build_list [.SYMBOL "let",
        build_list [build_list [.SYMBOL "a", .INTEGER "1"]], .SYMBOL "b"]]) []
      let (s1, _) ← attach_parens (build_nodes 0 0 tokens) [none] (build_nodes 0 0 tokens)
      let open_paren ← deref s1 (some 1)
      let before ← deref s1 (some 0)
      let passed ← deref s1 before.paren
      pure (open_paren.tok, before.tok, before.paren, passed.tok)) =
      (.ok (some ⟨.OPEN_PAREN, ""⟩, some ⟨.OPEN_PAREN, ""⟩, some 14, some ⟨.CLOSE_PAREN, ""⟩) :
        Except Err (Option FormToken × Option FormToken × Option Nat × Option FormToken)) ∧
    to_string (build_list [build_list [.SYMBOL "let",
      build_list [build_list [.SYMBOL "a", .INTEGER "1"]], .SYMBOL "b"]]) 80
      = .error .assertion_failure :=
  ⟨by simp [build_list, supported], by rfl, by rfl⟩

theorem paren_depth_append (a : List FormToken) :
    ∀ (d : Nat) (b : List FormToken),
      paren_depth d (a ++ b) = (paren_depth d a).bind (fun d1 => paren_depth d1 b) := by
  induction a with
  | nil => intro d b; rfl
  | cons t rest ih =>
    intro d b
    simp only [List.cons_append, paren_depth]
    split
    · exact ih _ _
    · split
      · cases d with
        | zero => rfl
        | succ d1 => exact ih _ _
      · exact ih _ _

theorem paren_depth_add (a : List FormToken) :
    ∀ (d r k : Nat), paren_depth d a = some r → paren_depth (d + k) a = some (r + k) := by
  induction a with
  | nil =>
    intro d r k h
    simp only [paren_depth, Option.some.injEq] at h ⊢
    omega
  | cons t rest ih =>
    intro d r k h
    simp only [paren_depth] at h ⊢
    split
    · rename_i ho
      rw [if_pos ho] at h
      have := ih _ _ k h
      rw [show d + k + 1 = d + 1 + k by omega]
      exact this
    · rename_i ho
      rw [if_neg ho] at h
      split
      · rename_i hc
        rw [if_pos hc] at h
        cases d with
        | zero => simp at h
        | succ d1 =>
          simp only at h
          rw [show d1 + 1 + k = (d1 + k) + 1 by omega]
          exact ih _ _ k h
      · rename_i hc
        rw [if_neg hc] at h
        exact ih _ _ k h

/-- A segment, cut at a token inside it. -/
theorem segment_split (toks : List FormToken) (a c i : Nat) (t : FormToken)
    (h1 : a ≤ c) (h2 : c < i) (ht : toks[c]? = some t) :
    segment toks a i = segment toks a c ++ t :: segment toks (c + 1) i := by
  have hc : c < toks.length := by
    by_contra hge
    rw [List.getElem?_eq_none (by omega)] at ht
    simp at ht
  rw [List.getElem?_eq_getElem hc] at ht
  simp only [Option.some.injEq] at ht
  subst ht
  unfold segment
  have e1 : toks.take i = toks.take c ++ toks[c] :: (toks.take i).drop (c + 1) := by
    have hci : c < (toks.take i).length := by simp; omega
    have := (List.take_append_drop c (toks.take i)).symm
    rw [List.drop_eq_getElem_cons hci, List.take_take, Nat.min_eq_left (by omega)] at this
    simpa using this
  have hlen : (toks.take c).length = c := by simp; omega
  conv => lhs; rw [e1]
  rw [List.drop_append_eq_append_drop, hlen, Nat.sub_eq_zero_of_le h1, List.drop_zero]

theorem segment_append (toks : List FormToken) (a i c : Nat) (h1 : a ≤ i) (h2 : i ≤ c)
    (h3 : i ≤ toks.length) :
    segment toks a c = segment toks a i ++ segment toks i c := by
  unfold segment
  have e1 : toks.take c = toks.take i ++ (toks.take c).drop i := by
    have := (List.take_append_drop i (toks.take c)).symm
    rwa [List.take_take, Nat.min_eq_left h2] at this
  have hlen : (toks.take i).length = i := by simp; omega
  conv => lhs; rw [e1]
  rw [List.drop_append_eq_append_drop, hlen, Nat.sub_eq_zero_of_le h1, List.drop_zero]

/-- A close paren inside a balanced segment: the part of the segment before it is not
balanced. -/
theorem no_close_inside {toks : List FormToken} {a c i : Nat} {t : FormToken}
    (hb : paren_depth 0 (segment toks a i) = some 0) (h1 : a ≤ c) (h2 : c < i)
    (ht : toks[c]? = some t) (hk : t.kind = .CLOSE_PAREN) :
    paren_depth 0 (segment toks a c) ≠ some 0 := by
  intro h
  rw [segment_split toks a c i t h1 h2 ht, paren_depth_append, h] at hb
  simp [paren_depth, hk] at hb

/-- An open paren inside a balanced segment is closed inside it. -/
theorem no_open_unclosed {toks : List FormToken} {a o i : Nat} {t : FormToken} {r : Nat}
    (hb : paren_depth 0 (segment toks a i) = some 0) (h1 : a ≤ o) (h2 : o < i)
    (ht : toks[o]? = some t) (hk : t.kind = .OPEN_PAREN)
    (hr : paren_depth 0 (segment toks (o + 1) i) = some r) : False := by
  rw [segment_split toks a o i t h1 h2 ht, paren_depth_append] at hb
  cases hd : paren_depth 0 (segment toks a o) with
  | none => simp [hd] at hb
  | some d2 =>
    have := paren_depth_add _ _ _ (d2 + 1) hr
    simp only [hd, Option.some_bind, paren_depth, hk, if_true] at hb
    rw [Nat.zero_add] at this
    rw [this] at hb
    simp at hb

/-- The close paren that balances an open paren is unique. -/
theorem balances_unique {toks : List FormToken} {o c c2 : Nat} (h1 : balances toks o c)
    (h2 : balances toks o c2) : c = c2 := by
  rcases Nat.lt_trichotomy c c2 with h | h | h
  · exact absurd h1.2.2.2 (no_close_inside h2.2.2.2 (by have := h1.1; omega) h h1.2.2.1 rfl)
  · exact h
  · exact absurd h2.2.2.2 (no_close_inside h1.2.2.2 (by have := h2.1; omega) h h2.2.2.1 rfl)

/-- The part of a balanced segment before a token inside it has a nesting depth. -/
theorem segment_prefix_depth {toks : List FormToken} {a i c : Nat}
    (hb : paren_depth 0 (segment toks a c) = some 0) (h1 : a ≤ i) (h2 : i ≤ c)
    (h3 : i ≤ toks.length) : ∃ r, paren_depth 0 (segment toks a i) = some r := by
  rw [segment_append toks a i c h1 h2 h3, paren_depth_append] at hb
  cases hd : paren_depth 0 (segment toks a i) with
  | none => simp [hd] at hb
  | some r => exact ⟨r, rfl⟩

/-- The last token behind the car of a pair is the close paren of the list, and its link
is the open paren of the list. -/
theorem rest_last_close : ∀ (obj : Object), supported obj → ∀ (b o : Nat),
    (rest_tokens_of obj)[(rest_tokens_of obj).length - 1]? = some ⟨.CLOSE_PAREN, ""⟩ ∧
      (rest_links_of obj b o)[(rest_tokens_of obj).length - 1]? = some (some o)
  | .PAIR car cdr, hs, b, o => by
    have hpos := rest_tokens_of_pos hs.2
    obtain ⟨h1, h2⟩ := rest_last_close cdr hs.2 (b + 1 + (tokens_of car).length) o
    have e : (rest_tokens_of (.PAIR car cdr)).length - 1
        = ((tokens_of car).length + ((rest_tokens_of cdr).length - 1)) + 1 := by
      simp only [rest_tokens_of, List.length_cons, List.length_append]; omega
    rw [e]
    simp only [rest_tokens_of, rest_links_of, List.getElem?_cons_succ]
    rw [List.getElem?_append_right (by omega),
      List.getElem?_append_right (by rw [links_of_length]; omega), links_of_length]
    simp only [Nat.add_sub_cancel_left]
    exact ⟨h1, h2⟩
  | .EMPTY_LIST, _, _, _ => by simp [rest_tokens_of, rest_links_of]
  | .INTEGER _, _, _, _ => by simp [rest_tokens_of, rest_links_of]
  | .FLOAT _, _, _, _ => by simp [rest_tokens_of, rest_links_of]
  | .CHAR _, _, _, _ => by simp [rest_tokens_of, rest_links_of]
  | .SYMBOL _, _, _, _ => by simp [rest_tokens_of, rest_links_of]
  | .STRING _, _, _, _ => by simp [rest_tokens_of, rest_links_of]
  | .ARRAY, h, _, _ => by simp [supported] at h
  | .LAMBDA, h, _, _ => by simp [supported] at h
  | .MACRO, h, _, _ => by simp [supported] at h
  | .ENVIRONMENT, h, _, _ => by simp [supported] at h

mutual
/-- The paren link of a token that is no open paren: for an atom it is the link of the
object itself; otherwise it points to an open paren of the object before the token, and
the tokens between this open paren and the token are balanced. -/
theorem link_segment : ∀ (obj : Object), supported obj → ∀ (b : Nat) (e : Option Nat)
    (i : Nat) (t : FormToken), (tokens_of obj)[i]? = some t → t.kind ≠ .OPEN_PAREN →
      (i = 0 ∧ tokens_of obj = [t] ∧ (links_of obj b e)[i]? = some e) ∨
        ∃ j, (links_of obj b e)[i]? = some (some (b + j)) ∧ j < i ∧
          (tokens_of obj)[j]? = some ⟨.OPEN_PAREN, ""⟩ ∧
          paren_depth 0 (segment (tokens_of obj) (j + 1) i) = some 0
  | .PAIR car cdr, hs, b, e, i, t, h, hk => by
    right
    simp only [tokens_of, links_of, segment] at h ⊢
    cases i with
    | zero =>
      simp only [List.getElem?_cons_zero, Option.some.injEq] at h
      subst h
      exact absurd rfl hk
    | succ i =>
      simp only [List.getElem?_cons_succ, List.take_succ_cons, List.drop_succ_cons] at h ⊢
      by_cases hi : i < (tokens_of car).length
      · rw [List.getElem?_append_left hi] at h
        rw [List.getElem?_append_left (by rw [links_of_length]; exact hi)]
        rcases link_segment car hs.1 (b + 1) (some b) i t h hk with
          ⟨h0, h1, h2⟩ | ⟨j, h1, h2, h3, h4⟩
        · subst h0
          exact ⟨0, by rw [h2]; rfl, by omega, by simp, by simp [paren_depth]⟩
        · refine ⟨j + 1, ?_, by omega, ?_, ?_⟩
          · rw [h1]; congr 2; omega
          · rw [List.getElem?_cons_succ, List.getElem?_append_left (by omega)]
            exact h3
          · rw [List.take_append_of_le_length (by omega)]
            exact h4
      · rw [List.getElem?_append_right (by omega)] at h
        rw [List.getElem?_append_right (by rw [links_of_length]; omega), links_of_length]
        have htake : (tokens_of car ++ rest_tokens_of cdr).take i
            = tokens_of car ++ (rest_tokens_of cdr).take (i - (tokens_of car).length) := by
          rw [List.take_append_eq_append_take, List.take_of_length_le (by omega)]
        rcases rest_link_segment cdr hs.2 (b + 1 + (tokens_of car).length) b _ t h hk with
          ⟨h1, h2⟩ | ⟨j, h1, h2, h3, h4⟩
        · refine ⟨0, by rw [h1]; rfl, by omega, by simp, ?_⟩
          rw [List.drop_zero, htake, paren_depth_tokens car hs.1]
          exact h2
        · refine ⟨1 + (tokens_of car).length + j, ?_, by omega, ?_, ?_⟩
          · rw [h1]; congr 2; omega
          · have e1 : 1 + (tokens_of car).length + j = ((tokens_of car).length + j) + 1 := by
              omega
            rw [e1, List.getElem?_cons_succ, List.getElem?_append_right (by omega)]
            simpa using h3
          · have e1 : 1 + (tokens_of car).length + j = (tokens_of car).length + (j + 1) := by
              omega
            rw [htake, e1, List.drop_append]
            exact h4
  | .EMPTY_LIST, _, _, _, i, t, h, _ => by
    cases i <;> simp [tokens_of] at h; subst h; exact Or.inl ⟨rfl, rfl, rfl⟩
  | .INTEGER _, _, _, _, i, t, h, _ => by
    cases i <;> simp [tokens_of] at h; subst h; exact Or.inl ⟨rfl, rfl, rfl⟩
  | .FLOAT _, _, _, _, i, t, h, _ => by
    cases i <;> simp [tokens_of] at h; subst h; exact Or.inl ⟨rfl, rfl, rfl⟩
  | .CHAR _, _, _, _, i, t, h, _ => by
    cases i <;> simp [tokens_of] at h; subst h; exact Or.inl ⟨rfl, rfl, rfl⟩
  | .SYMBOL _, _, _, _, i, t, h, _ => by
    cases i <;> simp [tokens_of] at h; subst h; exact Or.inl ⟨rfl, rfl, rfl⟩
  | .STRING _, _, _, _, i, t, h, _ => by
    cases i <;> simp [tokens_of] at h; subst h; exact Or.inl ⟨rfl, rfl, rfl⟩
  | .ARRAY, hs, _, _, _, _, _, _ => by simp [supported] at hs
  | .LAMBDA, hs, _, _, _, _, _, _ => by simp [supported] at hs
  | .MACRO, hs, _, _, _, _, _, _ => by simp [supported] at hs
  | .ENVIRONMENT, hs, _, _, _, _, _, _ => by simp [supported] at hs
/-- The paren link of a token behind the car of a pair that is no open paren: it is the
open paren of the list, and the tokens from the car's end up to the token are balanced; or
it points to an open paren among these tokens, with balanced tokens between the two. -/
theorem rest_link_segment : ∀ (obj : Object), supported obj → ∀ (b o : Nat) (i : Nat)
    (t : FormToken), (rest_tokens_of obj)[i]? = some t → t.kind ≠ .OPEN_PAREN →
      ((rest_links_of obj b o)[i]? = some (some o) ∧
          paren_depth 0 ((rest_tokens_of obj).take i) = some 0) ∨
        ∃ j, (rest_links_of obj b o)[i]? = some (some (b + j)) ∧ j < i ∧
          (rest_tokens_of obj)[j]? = some ⟨.OPEN_PAREN, ""⟩ ∧
          paren_depth 0 (segment (rest_tokens_of obj) (j + 1) i) = some 0
  | .PAIR car cdr, hs, b, o, i, t, h, hk => by
    simp only [rest_tokens_of, rest_links_of, segment] at h ⊢
    cases i with
    | zero => exact Or.inl ⟨by simp, by simp [paren_depth]⟩
    | succ i =>
      simp only [List.getElem?_cons_succ, List.take_succ_cons, List.drop_succ_cons] at h ⊢
      have hws : ∀ l, paren_depth 0 ((⟨.WHITESPACE, ""⟩ : FormToken) :: l) = paren_depth 0 l := by
        intro l; simp [paren_depth]
      by_cases hi : i < (tokens_of car).length
      · rw [List.getElem?_append_left hi] at h
        rw [List.getElem?_append_left (by rw [links_of_length]; exact hi)]
        rcases link_segment car hs.1 (b + 1) (some o) i t h hk with
          ⟨h0, h1, h2⟩ | ⟨j, h1, h2, h3, h4⟩
        · subst h0
          exact Or.inl ⟨h2, by simp [paren_depth]⟩
        · refine Or.inr ⟨j + 1, ?_, by omega, ?_, ?_⟩
          · rw [h1]; congr 2; omega
          · rw [List.getElem?_cons_succ, List.getElem?_append_left (by omega)]
            exact h3
          · rw [List.take_append_of_le_length (by omega)]
            exact h4
      · rw [List.getElem?_append_right (by omega)] at h
        rw [List.getElem?_append_right (by rw [links_of_length]; omega), links_of_length]
        have htake : (tokens_of car ++ rest_tokens_of cdr).take i
            = tokens_of car ++ (rest_tokens_of cdr).take (i - (tokens_of car).length) := by
          rw [List.take_append_eq_append_take, List.take_of_length_le (by omega)]
        rcases rest_link_segment cdr hs.2 (b + 1 + (tokens_of car).length) o _ t h hk with
          ⟨h1, h2⟩ | ⟨j, h1, h2, h3, h4⟩
        · refine Or.inl ⟨h1, ?_⟩
          rw [hws, htake, paren_depth_tokens car hs.1]
          exact h2
        · refine Or.inr ⟨1 + (tokens_of car).length + j, ?_, by omega, ?_, ?_⟩
          · rw [h1]; congr 2; omega
          · have e1 : 1 + (tokens_of car).length + j = ((tokens_of car).length + j) + 1 := by
              omega
            rw [e1, List.getElem?_cons_succ, List.getElem?_append_right (by omega)]
            simpa using h3
          · have e1 : 1 + (tokens_of car).length + j = (tokens_of car).length + (j + 1) := by
              omega
            rw [htake, e1, List.drop_append]
            exact h4
  | .EMPTY_LIST, _, b, o, i, t, h, _ => by
    cases i with
    | zero => exact Or.inl ⟨by simp [rest_links_of], by simp [paren_depth]⟩
    | succ i => simp [rest_tokens_of] at h
  | .INTEGER _, _, b, o, i, t, h, _ => by
    have hi : i < 5 := by
      by_contra hge
      rw [List.getElem?_eq_none (by simp [rest_tokens_of]; omega)] at h
      simp at h
    left
    simp only [rest_links_of, rest_tokens_of]
    interval_cases i <;> exact ⟨rfl, by simp [paren_depth]⟩
  | .FLOAT _, _, b, o, i, t, h, _ => by
    have hi : i < 5 := by
      by_contra hge
      rw [List.getElem?_eq_none (by simp [rest_tokens_of]; omega)] at h
      simp at h
    left
    simp only [rest_links_of, rest_tokens_of]
    interval_cases i <;> exact ⟨rfl, by simp [paren_depth]⟩
  | .CHAR _, _, b, o, i, t, h, _ => by
    have hi : i < 5 := by
      by_contra hge
      rw [List.getElem?_eq_none (by simp [rest_tokens_of]; omega)] at h
      simp at h
    left
    simp only [rest_links_of, rest_tokens_of]
    interval_cases i <;> exact ⟨rfl, by simp [paren_depth]⟩
  | .SYMBOL _, _, b, o, i, t, h, _ => by
    have hi : i < 5 := by
      by_contra hge
      rw [List.getElem?_eq_none (by simp [rest_tokens_of]; omega)] at h
      simp at h
    left
    simp only [rest_links_of, rest_tokens_of]
    interval_cases i <;> exact ⟨rfl, by simp [paren_depth]⟩
  | .STRING _, _, b, o, i, t, h, _ => by
    have hi : i < 5 := by
      by_contra hge
      rw [List.getElem?_eq_none (by simp [rest_tokens_of]; omega)] at h
      simp at h
    left
    simp only [rest_links_of, rest_tokens_of]
    interval_cases i <;> exact ⟨rfl, by simp [paren_depth]⟩
  | .ARRAY, hs, _, _, _, _, _, _ => by simp [supported] at hs
  | .LAMBDA, hs, _, _, _, _, _, _ => by simp [supported] at hs
  | .MACRO, hs, _, _, _, _, _, _ => by simp [supported] at hs
  | .ENVIRONMENT, hs, _, _, _, _, _, _ => by simp [supported] at hs
end

mutual
/-- The paren link of an open paren among the tokens of an object points to a close paren
of the object behind it, whose own link points back to the open paren. -/
theorem open_link_partner : ∀ (obj : Object), supported obj → ∀ (b : Nat) (e : Option Nat)
    (i : Nat) (t : FormToken), (tokens_of obj)[i]? = some t → t.kind = .OPEN_PAREN →
      ∃ c, (links_of obj b e)[i]? = some (some (b + c)) ∧ i < c ∧
        (tokens_of obj)[c]? = some ⟨.CLOSE_PAREN, ""⟩ ∧
        (links_of obj b e)[c]? = some (some (b + i))
  | .PAIR car cdr, hs, b, e, i, t, h, hk => by
    simp only [tokens_of, links_of] at h ⊢
    cases i with
    | zero =>
      have hpos := rest_tokens_of_pos hs.2
      obtain ⟨h1, h2⟩ := rest_last_close cdr hs.2 (b + 1 + (tokens_of car).length) b
      have e1 : (tokens_of car).length + (rest_tokens_of cdr).length
          = ((tokens_of car).length + ((rest_tokens_of cdr).length - 1)) + 1 := by omega
      refine ⟨(tokens_of car).length + (rest_tokens_of cdr).length, ?_, by omega, ?_, ?_⟩
      · simp only [List.getElem?_cons_zero]; congr 2; omega
      · rw [e1, List.getElem?_cons_succ, List.getElem?_append_right (by omega)]
        simpa using h1
      · rw [e1, List.getElem?_cons_succ,
          List.getElem?_append_right (by rw [links_of_length]; omega), links_of_length]
        simpa using h2
    | succ i =>
      simp only [List.getElem?_cons_succ] at h ⊢
      by_cases hi : i < (tokens_of car).length
      · rw [List.getElem?_append_left hi] at h
        rw [List.getElem?_append_left (by rw [links_of_length]; exact hi)]
        obtain ⟨c, h1, h2, h3, h4⟩ := open_link_partner car hs.1 (b + 1) (some b) i t h hk
        have hc : c < (tokens_of car).length := by
          by_contra hge
          rw [List.getElem?_eq_none (by omega)] at h3
          simp at h3
        refine ⟨c + 1, ?_, by omega, ?_, ?_⟩
        · rw [h1]; congr 2; omega
        · rw [List.getElem?_cons_succ, List.getElem?_append_left hc]
          exact h3
        · rw [List.getElem?_cons_succ,
            List.getElem?_append_left (by rw [links_of_length]; exact hc), h4]
          congr 2; omega
      · rw [List.getElem?_append_right (by omega)] at h
        rw [List.getElem?_append_right (by rw [links_of_length]; omega), links_of_length]
        obtain ⟨c, h1, h2, h3, h4⟩ :=
          open_rest_link_partner cdr hs.2 (b + 1 + (tokens_of car).length) b _ t h hk
        have e1 : 1 + (tokens_of car).length + c = ((tokens_of car).length + c) + 1 := by
          omega
        refine ⟨1 + (tokens_of car).length + c, ?_, by omega, ?_, ?_⟩
        · rw [h1]; congr 2; omega
        · rw [e1, List.getElem?_cons_succ, List.getElem?_append_right (by omega)]
          simpa using h3
        · rw [e1, List.getElem?_cons_succ,
            List.getElem?_append_right (by rw [links_of_length]; omega), links_of_length]
          simp only [Nat.add_sub_cancel_left]
          rw [h4]; congr 2; omega
  | .EMPTY_LIST, _, _, _, i, t, h, hk => by
    cases i <;> simp [tokens_of] at h; subst h; exact absurd hk (by decide)
  | .INTEGER _, _, _, _, i, t, h, hk => by
    cases i <;> simp [tokens_of] at h; subst h; simp at hk
  | .FLOAT _, _, _, _, i, t, h, hk => by
    cases i <;> simp [tokens_of] at h; subst h; simp at hk
  | .CHAR _, _, _, _, i, t, h, hk => by
    cases i <;> simp [tokens_of] at h; subst h; simp at hk
  | .SYMBOL _, _, _, _, i, t, h, hk => by
    cases i <;> simp [tokens_of] at h; subst h; simp at hk
  | .STRING _, _, _, _, i, t, h, hk => by
    cases i <;> simp [tokens_of] at h; subst h; simp at hk
  | .ARRAY, hs, _, _, _, _, _, _ => by simp [supported] at hs
  | .LAMBDA, hs, _, _, _, _, _, _ => by simp [supported] at hs
  | .MACRO, hs, _, _, _, _, _, _ => by simp [supported] at hs
  | .ENVIRONMENT, hs, _, _, _, _, _, _ => by simp [supported] at hs
/-- The same for an open paren among the tokens behind the car of a pair. -/
theorem open_rest_link_partner : ∀ (obj : Object), supported obj → ∀ (b o : Nat) (i : Nat)
    (t : FormToken), (rest_tokens_of obj)[i]? = some t → t.kind = .OPEN_PAREN →
      ∃ c, (rest_links_of obj b o)[i]? = some (some (b + c)) ∧ i < c ∧
        (rest_tokens_of obj)[c]? = some ⟨.CLOSE_PAREN, ""⟩ ∧
        (rest_links_of obj b o)[c]? = some (some (b + i))
  | .PAIR car cdr, hs, b, o, i, t, h, hk => by
    simp only [rest_tokens_of, rest_links_of] at h ⊢
    cases i with
    | zero =>
      simp only [List.getElem?_cons_zero, Option.some.injEq] at h
      subst h
      exact absurd hk (by decide)
    | succ i =>
      simp only [List.getElem?_cons_succ] at h ⊢
      by_cases hi : i < (tokens_of car).length
      · rw [List.getElem?_append_left hi] at h
        rw [List.getElem?_append_left (by rw [links_of_length]; exact hi)]
        obtain ⟨c, h1, h2, h3, h4⟩ := open_link_partner car hs.1 (b + 1) (some o) i t h hk
        have hc : c < (tokens_of car).length := by
          by_contra hge
          rw [List.getElem?_eq_none (by omega)] at h3
          simp at h3
        refine ⟨c + 1, ?_, by omega, ?_, ?_⟩
        · rw [h1]; congr 2; omega
        · rw [List.getElem?_cons_succ, List.getElem?_append_left hc]
          exact h3
        · rw [List.getElem?_cons_succ,
            List.getElem?_append_left (by rw [links_of_length]; exact hc), h4]
          congr 2; omega
      · rw [List.getElem?_append_right (by omega)] at h
        rw [List.getElem?_append_right (by rw [links_of_length]; omega), links_of_length]
        obtain ⟨c, h1, h2, h3, h4⟩ :=
          open_rest_link_partner cdr hs.2 (b + 1 + (tokens_of car).length) o _ t h hk
        have e1 : 1 + (tokens_of car).length + c = ((tokens_of car).length + c) + 1 := by
          omega
        refine ⟨1 + (tokens_of car).length + c, ?_, by omega, ?_, ?_⟩
        · rw [h1]; congr 2; omega
        · rw [e1, List.getElem?_cons_succ, List.getElem?_append_right (by omega)]
          simpa using h3
        · rw [e1, List.getElem?_cons_succ,
            List.getElem?_append_right (by rw [links_of_length]; omega), links_of_length]
          simp only [Nat.add_sub_cancel_left]
          rw [h4]; congr 2; omega
  | .EMPTY_LIST, _, _, _, i, t, h, hk => by
    cases i <;> simp [rest_tokens_of] at h; subst h; exact absurd hk (by decide)
  | .INTEGER _, _, _, _, i, t, h, hk => by
    have hi : i < 5 := by
      by_contra hge
      rw [List.getElem?_eq_none (by simp [rest_tokens_of]; omega)] at h
      simp at h
    simp only [rest_tokens_of] at h
    interval_cases i <;> simp at h <;> subst h <;> simp at hk
  | .FLOAT _, _, _, _, i, t, h, hk => by
    have hi : i < 5 := by
      by_contra hge
      rw [List.getElem?_eq_none (by simp [rest_tokens_of]; omega)] at h
      simp at h
    simp only [rest_tokens_of] at h
    interval_cases i <;> simp at h <;> subst h <;> simp at hk
  | .CHAR _, _, _, _, i, t, h, hk => by
    have hi : i < 5 := by
      by_contra hge
      rw [List.getElem?_eq_none (by simp [rest_tokens_of]; omega)] at h
      simp at h
    simp only [rest_tokens_of] at h
    interval_cases i <;> simp at h <;> subst h <;> simp at hk
  | .SYMBOL _, _, _, _, i, t, h, hk => by
    have hi : i < 5 := by
      by_contra hge
      rw [List.getElem?_eq_none (by simp [rest_tokens_of]; omega)] at h
      simp at h
    simp only [rest_tokens_of] at h
    interval_cases i <;> simp at h <;> subst h <;> simp at hk
  | .STRING _, _, _, _, i, t, h, hk => by
    have hi : i < 5 := by
      by_contra hge
      rw [List.getElem?_eq_none (by simp [rest_tokens_of]; omega)] at h
      simp at h
    simp only [rest_tokens_of] at h
    interval_cases i <;> simp at h <;> subst h <;> simp at hk
  | .ARRAY, hs, _, _, _, _, _, _ => by simp [supported] at hs
  | .LAMBDA, hs, _, _, _, _, _, _ => by simp [supported] at hs
  | .MACRO, hs, _, _, _, _, _, _ => by simp [supported] at hs
  | .ENVIRONMENT, hs, _, _, _, _, _, _ => by simp [supported] at hs
end

/-- The link of an open paren among the tokens of a supported object is the close paren
that balances it, and the link of this close paren is the open paren. -/
theorem open_link_balances {obj : Object} (hs : supported obj) {i : Nat} {t : FormToken}
    (h : (tokens_of obj)[i]? = some t) (hk : t.kind = .OPEN_PAREN) :
    ∃ c, (links_of obj 0 none)[i]? = some (some c) ∧ balances (tokens_of obj) i c ∧
      (links_of obj 0 none)[c]? = some (some i) := by
  obtain ⟨c, h1, h2, h3, h4⟩ := open_link_partner obj hs 0 none i t h hk
  simp only [Nat.zero_add] at h1 h4
  rcases link_segment obj hs 0 none c _ h3 (by decide) with ⟨h0, _, _⟩ | ⟨j, g1, g2, g3, g4⟩
  · omega
  · rw [h4] at g1
    simp only [Nat.zero_add, Option.some.injEq] at g1
    subst g1
    exact ⟨c, h1, ⟨h2, g3, h3, g4⟩, h4⟩

/-- The link of a token that is no open paren, among the tokens of a supported object: the
null pointer for an atom that is the whole object; otherwise the last open paren before
the token that is not closed before it. -/
theorem inner_link_encloses {obj : Object} (hs : supported obj) {i : Nat} {t : FormToken}
    (h : (tokens_of obj)[i]? = some t) (hk : t.kind ≠ .OPEN_PAREN) :
    ((links_of obj 0 none)[i]? = some none ∧ tokens_of obj = [t]) ∨
      ∃ o c, (links_of obj 0 none)[i]? = some (some o) ∧ balances (tokens_of obj) o c ∧
        o < i ∧ i ≤ c ∧ (t.kind = .CLOSE_PAREN → c = i) ∧
        (links_of obj 0 none)[o]? = some (some c) ∧
        ∀ o2 c2, balances (tokens_of obj) o2 c2 → o2 < i → i < c2 → o2 ≤ o := by
  rcases link_segment obj hs 0 none i t h hk with ⟨h0, h1, h2⟩ | ⟨j, g1, g2, g3, g4⟩
  · subst h0
    exact Or.inl ⟨h2, h1⟩
  · right
    simp only [Nat.zero_add] at g1
    have hiT : i < (tokens_of obj).length := by
      by_contra hge
      rw [List.getElem?_eq_none (by omega)] at h
      simp at h
    obtain ⟨c, f1, f2, f3⟩ := open_link_balances hs g3 rfl
    have hci : i ≤ c := by
      by_contra hlt
      exact no_close_inside g4 (by have := f2.1; omega) (by omega) f2.2.2.1 rfl f2.2.2.2
    refine ⟨j, c, g1, f2, g2, hci, ?_, f1, ?_⟩
    · intro hc
      by_contra hne
      exact no_close_inside f2.2.2.2 (by omega) (by omega) h hc g4
    · intro o2 c2 hb2 h1 h2
      by_contra hgt
      obtain ⟨r, hr⟩ := segment_prefix_depth hb2.2.2.2 (by omega : o2 + 1 ≤ i) (by omega)
        (by omega)
      exact no_open_unclosed g4 (by omega) h1 hb2.2.1 rfl hr

/-- C34 (paren links): after the paren attachment pass of `to_string` on the tokens of a
supported object, the node of every token carries this token; the link of an open paren
is the close paren that balances it, and the link of that close paren is the open paren;
the link of a close paren is the open paren it balances, whose link is the close paren;
the link of every other token is the innermost open paren whose list encloses the token,
or the null pointer when no list encloses it. -/
theorem paren_links_nesting (obj : Object) (hs : supported obj) :
    ∃ s1, attach_parens (build_nodes 0 0 (tokens_of obj)) [none]
        (build_nodes 0 0 (tokens_of obj)) = .ok (s1, [none]) ∧
      ∀ i t, (tokens_of obj)[i]? = some t →
        ∃ n, node_at s1 i = some n ∧ n.tok = some t ∧
          (t.kind = .OPEN_PAREN → ∃ c nc, n.paren = some c ∧ balances (tokens_of obj) i c ∧
            node_at s1 c = some nc ∧ nc.paren = some i) ∧
          (t.kind = .CLOSE_PAREN → ∃ o no, n.paren = some o ∧ balances (tokens_of obj) o i ∧
            node_at s1 o = some no ∧ no.paren = some i) ∧
          (t.kind ≠ .OPEN_PAREN → t.kind ≠ .CLOSE_PAREN →
            (∃ o, n.paren = some o ∧ encloses (tokens_of obj) o i ∧
                ∀ o2, encloses (tokens_of obj) o2 i → o2 ≤ o) ∨
              (n.paren = none ∧ ∀ o2, ¬ encloses (tokens_of obj) o2 i)) := by
  refine ⟨_, attach_parens_spec hs, ?_⟩
  intro i t h
  have hl := laid_build_linked hs
  have hnode : ∀ k, k < (tokens_of obj).length →
      ∃ m, node_at (build_linked 0 0 (tokens_of obj) (links_of obj 0 none)) k = some m ∧
        m.tok = (tokens_of obj)[k]? ∧ (links_of obj 0 none)[k]? = some m.paren := by
    intro k hk
    obtain ⟨m, m1, _, _, m4, m5, _⟩ := laid_node_at hl hk
    exact ⟨m, m1, m4, m5⟩
  have hlt : ∀ {k : Nat} {u : FormToken}, (tokens_of obj)[k]? = some u →
      k < (tokens_of obj).length := by
    intro k u hk
    by_contra hge
    rw [List.getElem?_eq_none (by omega)] at hk
    simp at hk
  obtain ⟨n, n1, n2, n3⟩ := hnode i (hlt h)
  rw [h] at n2
  refine ⟨n, n1, n2, ?_, ?_, ?_⟩
  · intro hk
    obtain ⟨c, f1, f2, f3⟩ := open_link_balances hs h hk
    obtain ⟨nc, c1, _, c3⟩ := hnode c (hlt f2.2.2.1)
    rw [f1] at n3
    rw [f3] at c3
    exact ⟨c, nc, (Option.some.inj n3).symm, f2, c1, (Option.some.inj c3).symm⟩
  · intro hk
    rcases inner_link_encloses hs h (by rw [hk]; decide) with ⟨_, g2⟩ | ⟨o, c, g1, g2, g3, _, g5, g6, _⟩
    · have hi0 : i = 0 := by
        have := hlt h
        rw [g2] at this
        simpa using this
      subst hi0
      obtain ⟨j, _, hj, _⟩ := close_link_open obj 0 none 0 t h hk
      omega
    · have hc := g5 hk
      subst hc
      obtain ⟨no, o1, _, o3⟩ := hnode o (hlt g2.2.1)
      rw [g1] at n3
      rw [g6] at o3
      exact ⟨o, no, (Option.some.inj n3).symm, g2, o1, (Option.some.inj o3).symm⟩
  · intro hk hc
    rcases inner_link_encloses hs h hk with ⟨g1, g2⟩ | ⟨o, c, g1, g2, g3, g4, _, _, g7⟩
    · right
      rw [g1] at n3
      refine ⟨(Option.some.inj n3).symm, ?_⟩
      rintro o2 ⟨c2, hb, h1, h2⟩
      have := hlt hb.2.2.1
      rw [g2] at this
      simp only [List.length_singleton] at this
      omega
    · left
      rw [g1] at n3
      have hne : i ≠ c := by
        intro e
        subst e
        have := g2.2.2.1
        rw [h] at this
        simp only [Option.some.injEq] at this
        subst this
        exact hc rfl
      refine ⟨o, (Option.some.inj n3).symm, ⟨c, g2, g3, by omega⟩, ?_⟩
      rintro o2 ⟨c2, hb, h1, h2⟩
      exact g7 o2 c2 hb h1 h2

/-- Witness for C34: the tree `(a (b) c)`. -/
theorem paren_links_nesting_witness :
    supported (build_list [.SYMBOL "a", build_list [.SYMBOL "b"], .SYMBOL "c"]) ∧
      ∃ s1, attach_parens
          (build_nodes 0 0 (tokens_of (build_list [.SYMBOL "a", build_list [.SYMBOL "b"],
            .SYMBOL "c"]))) [none]
          (build_nodes 0 0 (tokens_of (build_list [.SYMBOL "a", build_list [.SYMBOL "b"],
            .SYMBOL "c"]))) = .ok (s1, [none]) ∧
        ∃ n, node_at s1 3 = some n ∧ n.tok = some ⟨.OPEN_PAREN, ""⟩ ∧
          ∃ c, n.paren = some c ∧ balances (tokens_of (build_list [.SYMBOL "a",
            build_list [.SYMBOL "b"], .SYMBOL "c"])) 3 c :=
  ⟨by simp [supported, build_list],
    let ⟨s1, h1, h2⟩ :=
      paren_links_nesting (build_list [.SYMBOL "a", build_list [.SYMBOL "b"], .SYMBOL "c"])
        (by simp [supported, build_list])
    let ⟨n, n1, n2, n3, _⟩ := h2 3 ⟨.OPEN_PAREN, ""⟩ (by rfl)
    let ⟨c, _, c1, c2, _⟩ := n3 rfl
    ⟨s1, h1, n, n1, n2, c, c1, c2⟩⟩

/-- One turn of the second loop of `propagatePretty` at a token: the fields of the node
after the turn. -/
theorem offset_step_token {w : Int} {prev : Option PrettyPrinterNode} {st st1 : OffsetState}
    {n n2 : PrettyPrinterNode} (hn : n.is_line_separator = false)
    (h : offset_step w prev st n = .ok (n2, st1)) :
    n2.id = n.id ∧ n2.tok = n.tok ∧ n2.is_line_separator = false ∧ n2.offset = st.offset ∧
      (st.previous_line_sep = true → n2.lineIndent = st.offset) := by
  simp only [offset_step, hn, Bool.false_eq_true, if_false] at h
  cases ht : tok_of n with
  | error e => simp [ht] at h
  | ok t =>
    simp only [ht] at h
    by_cases hc : t.kind = .CLOSE_PAREN
    · simp only [hc, if_true] at h
      split at h
      · simp at h
      · simp only [Except.ok.injEq, Prod.mk.injEq] at h
        obtain ⟨h1, _⟩ := h
        subst h1
        exact ⟨rfl, rfl, rfl, rfl, fun hp => by simp [hp]⟩
    · simp only [hc, if_false, Except.ok.injEq, Prod.mk.injEq] at h
      obtain ⟨h1, _⟩ := h
      subst h1
      exact ⟨rfl, rfl, rfl, rfl, fun hp => by simp [hp]⟩

/-- The second loop of `propagatePretty` over tokens that are no parens and separators:
the top of the indent stack stays, so the token that starts the line behind a separator
`m` gets the top plus the extra indent of `m` as its `lineIndent`. -/
theorem propagate_offsets_line_start (w : Int) (m n : PrettyPrinterNode) (post : NodeList)
    (hm : m.is_line_separator = true) (hn : n.is_line_separator = false) :
    ∀ (mid : NodeList) (prev : Option PrettyPrinterNode) (st : OffsetState) (top : Int)
      (tl : List Int) (r : NodeList) (rv : Option Nat),
      st.indentStack = top :: tl →
      (∀ x ∈ mid, x.is_line_separator = true ∨
        ∃ t, x.tok = some t ∧ t.kind ≠ .OPEN_PAREN ∧ t.kind ≠ .CLOSE_PAREN) →
      propagate_offsets w prev st (mid ++ m :: n :: post) = .ok (r, rv) →
      ∃ mid2 n2 post2, r = mid2 ++ m :: n2 :: post2 ∧ mid2.length = mid.length ∧
        n2.id = n.id ∧ n2.tok = n.tok ∧ n2.lineIndent = top + m.specialIndentDelta := by
  intro mid
  induction mid with
  | nil =>
    intro prev st top tl r rv hst _ h
    rw [List.nil_append, propagate_offsets_cons] at h
    obtain ⟨st1, hstep, ho1, hp1⟩ : ∃ st1, offset_step w prev st m = .ok (m, st1) ∧
        st1.offset = top + m.specialIndentDelta ∧ st1.previous_line_sep = true := by
      simp only [offset_step, hm, hst, if_true]
      exact ⟨_, rfl, rfl, rfl⟩
    simp only [hstep] at h
    cases hrec : propagate_offsets w (some m) st1 (n :: post) with
    | error e => simp [hrec] at h
    | ok p =>
      obtain ⟨r1, rv1⟩ := p
      simp only [hrec, Except.ok.injEq, Prod.mk.injEq] at h
      rw [propagate_offsets_cons] at hrec
      cases hs2 : offset_step w (some m) st1 n with
      | error e => simp [hs2] at hrec
      | ok q =>
        obtain ⟨n2, st2⟩ := q
        simp only [hs2] at hrec
        cases hrec2 : propagate_offsets w (some n2) st2 post with
        | error e => simp [hrec2] at hrec
        | ok p2 =>
          obtain ⟨r2, rv2⟩ := p2
          simp only [hrec2, Except.ok.injEq, Prod.mk.injEq] at hrec
          obtain ⟨f1, f2, _, _, f5⟩ := offset_step_token hn hs2
          refine ⟨[], n2, r2, ?_, rfl, f1, f2, by rw [f5 hp1, ho1]⟩
          rw [← h.1, ← hrec.1]
          rfl
  | cons x mid ih =>
    intro prev st top tl r rv hst hmid h
    have hmid1 : ∀ y ∈ mid, y.is_line_separator = true ∨
        ∃ t, y.tok = some t ∧ t.kind ≠ .OPEN_PAREN ∧ t.kind ≠ .CLOSE_PAREN :=
      fun y hy => hmid y (List.mem_cons_of_mem _ hy)
    rw [List.cons_append, propagate_offsets_cons] at h
    obtain ⟨x2, st1, hstep, hstk⟩ : ∃ x2 st1, offset_step w prev st x = .ok (x2, st1) ∧
        st1.indentStack = top :: tl := by
      cases hx : x.is_line_separator with
      | true =>
        simp only [offset_step, hx, hst, if_true]
        exact ⟨_, _, rfl, rfl⟩
      | false =>
        rcases hmid x (by simp) with hx1 | ⟨t, ht, ho, hc⟩
        · rw [hx] at hx1; simp at hx1
        · have hto : tok_of x = .ok t := by simp [tok_of, ht]
          simp only [offset_step, hx, hto, ho, hc, if_false, Bool.false_eq_true]
          exact ⟨_, _, rfl, hst⟩
    simp only [hstep] at h
    cases hrec : propagate_offsets w (some x2) st1 (mid ++ m :: n :: post) with
    | error e => simp [hrec] at h
    | ok p =>
      obtain ⟨r1, rv1⟩ := p
      simp only [hrec, Except.ok.injEq, Prod.mk.injEq] at h
      obtain ⟨mid2, n2, post2, e1, e2, e3⟩ := ih (some x2) st1 top tl r1 rv1 hstk hmid1 hrec
      refine ⟨x2 :: mid2, n2, post2, ?_, by simp [e2], e3⟩
      rw [← h.1, e1]
      rfl

/-- C23 (indent rule, as the code has it): in the second loop of `propagatePretty`, the
turn at an open paren `o` records the running offset as the offset of `o` and pushes an
indent level: the recorded offset plus 2 when `o` has no node before it or a separator
directly before it, and the recorded offset itself otherwise. When only separators and
tokens that are no parens stand between `o` and a separator `m`, the token `n` that starts
the line behind `m` gets the pushed level plus the extra indent of `m` as `lineIndent`. -/
theorem open_paren_indent_level (w : Int) (prev : Option PrettyPrinterNode) (st : OffsetState)
    (o : PrettyPrinterNode) (t : FormToken) (mid : NodeList) (m n : PrettyPrinterNode)
    (post r : NodeList) (rv : Option Nat)
    (ho : o.is_line_separator = false) (hot : o.tok = some t) (hk : t.kind = .OPEN_PAREN)
    (hmid : ∀ x ∈ mid, x.is_line_separator = true ∨
      ∃ u, x.tok = some u ∧ u.kind ≠ .OPEN_PAREN ∧ u.kind ≠ .CLOSE_PAREN)
    (hm : m.is_line_separator = true) (hn : n.is_line_separator = false)
    (h : propagate_offsets w prev st (o :: (mid ++ m :: n :: post)) = .ok (r, rv)) :
    ∃ o2 st1 pushed mid2 n2 post2,
      offset_step w prev st o = .ok (o2, st1) ∧ o2.id = o.id ∧ o2.offset = st.offset ∧
      st1.indentStack = pushed :: st.indentStack ∧
      (prev = none → pushed = o2.offset + 2) ∧
      (∀ q, prev = some q → q.is_line_separator = true → pushed = o2.offset + 2) ∧
      (∀ q, prev = some q → q.is_line_separator = false → pushed = o2.offset) ∧
      r = o2 :: (mid2 ++ m :: n2 :: post2) ∧ mid2.length = mid.length ∧
      n2.id = n.id ∧ n2.tok = n.tok ∧ n2.lineIndent = pushed + m.specialIndentDelta := by
  rw [propagate_offsets_cons] at h
  have hto : tok_of o = .ok t := by simp [tok_of, hot]
  have hc : ¬ t.kind = .CLOSE_PAREN := by rw [hk]; decide
  have hlen : (t.toString.length : Int) = 1 := by
    simp only [FormToken.toString, hk]
    rfl
  obtain ⟨o2, st1, pushed, hstep, f1, f2, f3, f4, f5, f6⟩ : ∃ o2 st1 pushed,
      offset_step w prev st o = .ok (o2, st1) ∧ o2.id = o.id ∧ o2.offset = st.offset ∧
      st1.indentStack = pushed :: st.indentStack ∧
      (prev = none → pushed = o2.offset + 2) ∧
      (∀ q, prev = some q → q.is_line_separator = true → pushed = o2.offset + 2) ∧
      (∀ q, prev = some q → q.is_line_separator = false → pushed = o2.offset) := by
    simp only [offset_step, ho, hto, hk, hc, if_true, if_false, Bool.false_eq_true, hlen]
    refine ⟨_, _, _, rfl, rfl, rfl, rfl, ?_, ?_, ?_⟩
    · intro hp; subst hp; simp only; omega
    · intro q hp hq; subst hp; simp only [hq, if_true]; omega
    · intro q hp hq; subst hp; simp only [hq, Bool.false_eq_true, if_false]; omega
  simp only [hstep] at h
  cases hrec : propagate_offsets w (some o2) st1 (mid ++ m :: n :: post) with
  | error e => simp [hrec] at h
  | ok p =>
    obtain ⟨r1, rv1⟩ := p
    simp only [hrec, Except.ok.injEq, Prod.mk.injEq] at h
    obtain ⟨mid2, n2, post2, e1, e2, e3, e4, e5⟩ :=
      propagate_offsets_line_start w m n post hm hn mid (some o2) st1 pushed st.indentStack
        r1 rv1 f3 hmid hrec
    exact ⟨o2, st1, pushed, mid2, n2, post2, hstep, f1, f2, f3, f4, f5, f6,
      by rw [← h.1, e1], e2, e3, e4, e5⟩

/-- Witness for C23: an open paren at the head of the list, a separator and a symbol. -/
theorem open_paren_indent_level_witness :
    propagate_offsets 80 none { line_start := some 0 }
        [{ id := 0, tok := some ⟨.OPEN_PAREN, ""⟩ }, new_separator 2 0,
          { id := 1, tok := some ⟨.STRING, "a"⟩ }]
        = .ok ([{ id := 0, tok := some ⟨.OPEN_PAREN, ""⟩, offset := 0 }, new_separator 2 0,
          { id := 1, tok := some ⟨.STRING, "a"⟩, offset := 2, lineIndent := 2 }], none) ∧
      ∃ (o2 n2 : PrettyPrinterNode) (pushed : Int), o2.offset = 0 ∧ pushed = o2.offset + 2 ∧
        n2.id = 1 ∧
        n2.lineIndent = pushed + 0 :=
  ⟨by rfl,
    let ⟨o2, _, pushed, _, n2, _, _, _, h3, _, h5, _, _, _, _, h10, _, h12⟩ :=
      open_paren_indent_level 80 none { line_start := some 0 }
        { id := 0, tok := some ⟨.OPEN_PAREN, ""⟩ } ⟨.OPEN_PAREN, ""⟩ [] (new_separator 2 0)
        { id := 1, tok := some ⟨.STRING, "a"⟩ } []
        [{ id := 0, tok := some ⟨.OPEN_PAREN, ""⟩, offset := 0 }, new_separator 2 0,
          { id := 1, tok := some ⟨.STRING, "a"⟩, offset := 2, lineIndent := 2 }] none
        rfl rfl rfl (by simp) rfl rfl (by rfl)
    ⟨o2, n2, pushed, h3, h5 rfl, h10, h12⟩⟩

/-- C23, counterexample: for `(foo (begin a))` at width 80, after the special pass and one
`propagatePretty` pass. The open paren at the head, node 0, is the first node of its line
and has the offset 0; the close paren of the list, node 8, starts a line inside it with
`lineIndent` 2, not 1. The open paren of the inner list, node 3, is not first on its line
and has the offset 5; the symbol `a`, node 5, starts a line inside it with `lineIndent` 5,
not 4. Each entry is the address of a node, whether it is a separator, its offset, its
`lineIndent` and its extra indent. -/
theorem indent_level_off_by_one :
    (do
      let tokens ← add_to_token_list
        (build_list [.SYMBOL "foo", build_list [.SYMBOL "begin", .SYMBOL "a"]]) []
      let (s1, _) ← attach_parens (build_nodes 0 0 tokens) [none] (build_nodes 0 0 tokens)
      let s2 ← insertSpecialBreaks (loop_fuel tokens) s1 (some 0)
      let (s3, _) ← propagatePretty s2 (some 0) 80
      pure (s3.map (fun n =>
        (n.id, n.is_line_separator, n.offset, n.lineIndent, n.specialIndentDelta)))) =
      (.ok [(0, false, 0, 0, 0), (1, false, 1, 0, 0), (2, false, 4, 0, 0), (3, false, 5, 0, 0),
          (4, false, 6, 0, 0), (9, true, -1, -1, 0), (5, false, 5, 5, 0), (6, false, 6, 0, 0),
          (10, true, -1, -1, 0), (7, false, 5, 5, 0), (11, true, -1, -1, 0),
          (8, false, 2, 2, 0)] :
        Except Err (List (Nat × Bool × Int × Int × Int))) ∧
    to_string (build_list [.SYMBOL "foo", build_list [.SYMBOL "begin", .SYMBOL "a"]]) 80
      = .ok "(foo (begin\n     a\n     )\n  )" ∧
    (2 : Int) ≠ 0 + 1 + 0 ∧ (5 : Int) ≠ 5 - 1 + 0 :=
  ⟨by rfl, by rfl, by decide, by decide⟩

theorem with_breaks_head (P : Nat → Bool) (fresh : Nat) (n : PrettyPrinterNode)
    (rest : NodeList) : ∃ r, with_breaks P fresh (n :: rest) = n :: r := by
  cases rest with
  | nil => exact ⟨[], rfl⟩
  | cons m rest1 =>
    simp only [with_breaks]
    split
    · exact ⟨_, rfl⟩
    · exact ⟨_, rfl⟩

theorem with_breaks_single (P : Nat → Bool) (fresh : Nat) (n : PrettyPrinterNode) :
    with_breaks P fresh [n] = [n] := rfl

theorem with_breaks_step (P : Nat → Bool) (fresh : Nat) (n m : PrettyPrinterNode)
    (rest : NodeList) :
    with_breaks P fresh (n :: m :: rest) =
      if !n.is_line_separator && P n.id && !m.is_line_separator then
        n :: new_separator fresh 0 :: with_breaks P (fresh + 1) (m :: rest)
      else n :: with_breaks P fresh (m :: rest) := rfl

theorem sep_after_cons_cons (n m : PrettyPrinterNode) (post : NodeList) (x : Nat) :
    sep_after (n :: m :: post) x ↔
      (n.id = x ∧ n.is_line_separator = false ∧ m.is_line_separator = true) ∨
        sep_after (m :: post) x := by
  constructor
  · rintro ⟨pre, a, b, q, e, h1, h2, h3⟩
    cases pre with
    | nil =>
      simp only [List.nil_append, List.cons.injEq] at e
      obtain ⟨e1, e2, _⟩ := e
      subst e1 e2
      exact Or.inl ⟨h1, h2, h3⟩
    | cons y pre1 =>
      simp only [List.cons_append, List.cons.injEq] at e
      exact Or.inr ⟨pre1, a, b, q, e.2, h1, h2, h3⟩
  · rintro (⟨h1, h2, h3⟩ | h)
    · exact ⟨[], n, m, post, rfl, h1, h2, h3⟩
    · exact sep_after_append [n] h

theorem sep_after_short (l : NodeList) (x : Nat) (h : l.length ≤ 1) : ¬ sep_after l x := by
  rintro ⟨pre, a, b, q, e, _⟩
  have := congrArg List.length e
  simp at this
  omega

theorem inner_token_cons_cons (n m : PrettyPrinterNode) (post : NodeList) (x : Nat) :
    inner_token (n :: m :: post) x ↔
      (n.id = x ∧ n.is_line_separator = false) ∨ inner_token (m :: post) x := by
  constructor
  · rintro ⟨pre, a, b, q, e, h1, h2⟩
    cases pre with
    | nil =>
      simp only [List.nil_append, List.cons.injEq] at e
      obtain ⟨e1, _, _⟩ := e
      subst e1
      exact Or.inl ⟨h1, h2⟩
    | cons y pre1 =>
      simp only [List.cons_append, List.cons.injEq] at e
      exact Or.inr ⟨pre1, a, b, q, e.2, h1, h2⟩
  · rintro (⟨h1, h2⟩ | ⟨pre, a, b, q, e, h1, h2⟩)
    · exact ⟨[], n, m, post, rfl, h1, h2⟩
    · exact ⟨n :: pre, a, b, q, by simp [e], h1, h2⟩

theorem inner_token_short (l : NodeList) (x : Nat) (h : l.length ≤ 1) : ¬ inner_token l x := by
  rintro ⟨pre, a, b, q, e, _⟩
  have := congrArg List.length e
  simp at this
  omega

/-- Where the separators are after `with_breaks`: where they were, and behind every token
that satisfies `P` and is not the last node. -/
theorem with_breaks_sep_after (P : Nat → Bool) (x : Nat) :
    ∀ (l : NodeList) (fresh : Nat),
      sep_after (with_breaks P fresh l) x ↔ sep_after l x ∨ (P x = true ∧ inner_token l x) := by
  intro l
  induction l with
  | nil =>
    intro fresh
    simp only [with_breaks]
    constructor
    · intro h; exact absurd h (sep_after_short _ _ (by simp))
    · rintro (h | ⟨_, h⟩)
      · exact absurd h (sep_after_short _ _ (by simp))
      · exact absurd h (inner_token_short _ _ (by simp))
  | cons n rest ih =>
    intro fresh
    cases rest with
    | nil =>
      simp only [with_breaks]
      constructor
      · intro h; exact absurd h (sep_after_short _ _ (by simp))
      · rintro (h | ⟨_, h⟩)
        · exact absurd h (sep_after_short _ _ (by simp))
        · exact absurd h (inner_token_short _ _ (by simp))
    | cons m rest1 =>
      have hsepm : (new_separator fresh 0).is_line_separator = true := rfl
      rw [sep_after_cons_cons n m rest1 x, inner_token_cons_cons n m rest1 x,
        with_breaks_step]
      split
      · rename_i hc
        simp only [Bool.and_eq_true, Bool.not_eq_true', decide_eq_true_eq] at hc
        obtain ⟨⟨hn, hP⟩, hm⟩ := hc
        obtain ⟨r, hr⟩ := with_breaks_head P (fresh + 1) m rest1
        have ih1 := ih (fresh + 1)
        rw [hr] at ih1 ⊢
        rw [sep_after_cons_cons, sep_after_cons_cons, ih1]
        simp only [hsepm, hn, hm, Bool.false_eq_true, and_false, false_or, and_true,
          Bool.true_eq_false]
        constructor
        · rintro (h | h | h)
          · exact Or.inr ⟨by rw [← h]; exact hP, Or.inl h⟩
          · exact Or.inl h
          · exact Or.inr ⟨h.1, Or.inr h.2⟩
        · rintro (h | ⟨h1, h2 | h2⟩)
          · exact Or.inr (Or.inl h)
          · exact Or.inl h2
          · exact Or.inr (Or.inr ⟨h1, h2⟩)
      · rename_i hc
        simp only [Bool.and_eq_true, Bool.not_eq_true', decide_eq_true_eq, not_and,
          Bool.not_eq_false] at hc
        obtain ⟨r, hr⟩ := with_breaks_head P fresh m rest1
        have ih1 := ih fresh
        rw [hr] at ih1 ⊢
        rw [sep_after_cons_cons, ih1]
        constructor
        · rintro (h | h | h)
          · exact Or.inl (Or.inl h)
          · exact Or.inl (Or.inr h)
          · exact Or.inr ⟨h.1, Or.inr h.2⟩
        · rintro ((h | h) | ⟨h1, h2 | h2⟩)
          · exact Or.inl h
          · exact Or.inr (Or.inl h)
          · exact Or.inl ⟨h2.1, h2.2, hc ⟨h2.2, by rw [h2.1]; exact h1⟩⟩
          · exact Or.inr (Or.inr ⟨h1, h2⟩)

theorem with_breaks_real_tokens (P : Nat → Bool) :
    ∀ (l : NodeList) (fresh : Nat), real_tokens (with_breaks P fresh l) = real_tokens l := by
  intro l
  induction l with
  | nil => intro fresh; rfl
  | cons n rest ih =>
    intro fresh
    cases rest with
    | nil => rfl
    | cons m rest1 =>
      rw [with_breaks_step]
      have hc : ∀ (X : NodeList), real_tokens (n :: X) = real_tokens [n] ++ real_tokens X :=
        fun X => real_tokens_append [n] X
      split
      · rw [hc, hc (m :: rest1), real_tokens_cons_sep (n := new_separator fresh 0) rfl, ih]
      · rw [hc, hc (m :: rest1), ih]

theorem with_breaks_nothing (P : Nat → Bool) :
    ∀ (l : NodeList) (fresh : Nat),
      (∀ n ∈ l, n.is_line_separator = false → P n.id = false) → with_breaks P fresh l = l := by
  intro l
  induction l with
  | nil => intro fresh _; rfl
  | cons n rest ih =>
    intro fresh h
    cases rest with
    | nil => rfl
    | cons m rest1 =>
      rw [with_breaks_step]
      have hn : (!n.is_line_separator && P n.id && !m.is_line_separator) = false := by
        cases hs : n.is_line_separator with
        | true => simp
        | false => simp [h n (by simp) hs]
      rw [hn]
      simp only [Bool.false_eq_true, if_false]
      rw [ih fresh (fun x hx => h x (List.mem_cons_of_mem _ hx))]

theorem with_breaks_start (P : Nat → Bool) (l : NodeList) :
    ∀ (pre : NodeList) (fresh : Nat),
      (∀ n ∈ pre, n.is_line_separator = false → P n.id = false) →
      with_breaks P fresh (pre ++ l) = pre ++ with_breaks P fresh l := by
  intro pre
  induction pre with
  | nil => intro fresh _; rfl
  | cons n pre1 ih =>
    intro fresh h
    have hrec := ih fresh (fun x hx => h x (List.mem_cons_of_mem _ hx))
    cases hpl : pre1 ++ l with
    | nil =>
      simp only [List.append_eq_nil] at hpl
      obtain ⟨e1, e2⟩ := hpl
      subst e1 e2
      rfl
    | cons m rest1 =>
      rw [List.cons_append, hpl, with_breaks_step]
      have hn : (!n.is_line_separator && P n.id && !m.is_line_separator) = false := by
        cases hs : n.is_line_separator with
        | true => simp
        | false => simp [h n (by simp) hs]
      rw [hn]
      simp only [Bool.false_eq_true, if_false]
      rw [← hpl, hrec]
      rfl

/-- The nodes of the list stay, and the new nodes are fresh separators. -/
theorem with_breaks_nodes (P : Nat → Bool) :
    ∀ (l : NodeList) (fresh : Nat),
      (∀ n ∈ l, n ∈ with_breaks P fresh l) ∧
        ∀ n ∈ with_breaks P fresh l, n ∈ l ∨ ∃ k, fresh ≤ k ∧ n = new_separator k 0 := by
  intro l
  induction l with
  | nil => intro fresh; exact ⟨fun n hn => hn, fun n hn => Or.inl hn⟩
  | cons a rest ih =>
    intro fresh
    cases rest with
    | nil => exact ⟨fun n hn => hn, fun n hn => Or.inl hn⟩
    | cons m rest1 =>
      rw [with_breaks_step]
      split
      · obtain ⟨i1, i2⟩ := ih (fresh + 1)
        constructor
        · intro n hn
          rcases List.mem_cons.1 hn with hn | hn
          · subst hn; simp
          · exact List.mem_cons_of_mem _ (List.mem_cons_of_mem _ (i1 n hn))
        · intro n hn
          rcases List.mem_cons.1 hn with hn | hn
          · subst hn; exact Or.inl (by simp)
          · rcases List.mem_cons.1 hn with hn | hn
            · exact Or.inr ⟨fresh, Nat.le_refl _, hn⟩
            · rcases i2 n hn with h | ⟨k, hk, e⟩
              · exact Or.inl (List.mem_cons_of_mem _ h)
              · exact Or.inr ⟨k, by omega, e⟩
      · obtain ⟨i1, i2⟩ := ih fresh
        constructor
        · intro n hn
          rcases List.mem_cons.1 hn with hn | hn
          · subst hn; simp
          · exact List.mem_cons_of_mem _ (i1 n hn)
        · intro n hn
          rcases List.mem_cons.1 hn with hn | hn
          · subst hn; exact Or.inl (by simp)
          · rcases i2 n hn with h | ⟨k, hk, e⟩
            · exact Or.inl (List.mem_cons_of_mem _ h)
            · exact Or.inr ⟨k, hk, e⟩

/-- The part of the list in which no token satisfies `P` stays as it is, behind nodes of
the list and new separators. -/
theorem with_breaks_tail (P : Nat → Bool) (B : NodeList)
    (hB : ∀ n ∈ B, n.is_line_separator = false → P n.id = false) :
    ∀ (A : NodeList) (fresh : Nat), ∃ X, with_breaks P fresh (A ++ B) = X ++ B ∧
      ∀ n ∈ X, n ∈ A ∨ ∃ k, fresh ≤ k ∧ n = new_separator k 0 := by
  intro A
  induction A with
  | nil =>
    intro fresh
    exact ⟨[], by rw [List.nil_append, with_breaks_nothing P B fresh hB],
      fun n hn => by simp at hn⟩
  | cons a A1 ih =>
    intro fresh
    cases hpl : A1 ++ B with
    | nil =>
      simp only [List.append_eq_nil] at hpl
      obtain ⟨e1, e2⟩ := hpl
      subst e1 e2
      exact ⟨[a], rfl, fun n hn => Or.inl hn⟩
    | cons m rest1 =>
      rw [List.cons_append, hpl, with_breaks_step]
      split
      · obtain ⟨X, e, hX⟩ := ih (fresh + 1)
        rw [hpl] at e
        refine ⟨a :: new_separator fresh 0 :: X, by rw [e]; rfl, ?_⟩
        intro n hn
        rcases List.mem_cons.1 hn with hn | hn
        · subst hn; exact Or.inl (by simp)
        · rcases List.mem_cons.1 hn with hn | hn
          · exact Or.inr ⟨fresh, Nat.le_refl _, hn⟩
          · rcases hX n hn with h | ⟨k, hk, e2⟩
            · exact Or.inl (List.mem_cons_of_mem _ h)
            · exact Or.inr ⟨k, by omega, e2⟩
      · obtain ⟨X, e, hX⟩ := ih fresh
        rw [hpl] at e
        refine ⟨a :: X, by rw [e]; rfl, ?_⟩
        intro n hn
        rcases List.mem_cons.1 hn with hn | hn
        · subst hn; exact Or.inl (by simp)
        · rcases hX n hn with h | ⟨k, hk, e2⟩
          · exact Or.inl (List.mem_cons_of_mem _ h)
          · exact Or.inr ⟨k, hk, e2⟩

theorem nodes_from_skip (c : Nat) (B : NodeList) :
    ∀ (X : NodeList), (∀ n ∈ X, n.id ≠ c) → nodes_from (X ++ B) c = nodes_from B c := by
  intro X
  induction X with
  | nil => intro _; rfl
  | cons a X1 ih =>
    intro h
    simp only [List.cons_append, nodes_from, h a (by simp), if_false]
    exact ih (fun n hn => h n (List.mem_cons_of_mem _ hn))

theorem nodes_before_stop (p : Nat) (m : PrettyPrinterNode) (r : NodeList) (hm : m.id = p) :
    ∀ (A : NodeList), (∀ n ∈ A, n.id ≠ p) → nodes_before (A ++ m :: r) p = A := by
  intro A
  induction A with
  | nil => intro _; simp [nodes_before, hm]
  | cons a A1 ih =>
    intro h
    simp only [List.cons_append, nodes_before, h a (by simp), if_false]
    exact congrArg _ (ih (fun n hn => h n (List.mem_cons_of_mem _ hn)))

theorem segment_self (toks : List FormToken) (a : Nat) : segment toks a a = [] := by
  unfold segment
  exact List.drop_eq_nil_of_le (by simp)

theorem segment_snoc (toks : List FormToken) {a x : Nat} {t : FormToken} (h : a ≤ x)
    (ht : toks[x]? = some t) : segment toks a (x + 1) = segment toks a x ++ [t] := by
  rw [segment_split toks a x (x + 1) t h (by omega) ht, segment_self]

theorem direct_end_iff (toks : List FormToken) (p c x : Nat) :
    direct_end toks p c x = true ↔
      p < x ∧ x < c ∧ (∃ t, toks[x]? = some t ∧ t.kind ≠ .WHITESPACE ∧ t.kind ≠ .OPEN_PAREN) ∧
        paren_depth 0 (segment toks (p + 1) (x + 1)) = some 0 := by
  unfold direct_end
  cases hx : toks[x]? with
  | none => simp
  | some t => simp [and_assoc]

/-- The nesting depth behind a token that is no paren. -/
theorem depth_after_token {toks : List FormToken} {a x d : Nat} {t : FormToken} (h : a ≤ x)
    (ht : toks[x]? = some t) (ho : t.kind ≠ .OPEN_PAREN) (hc : t.kind ≠ .CLOSE_PAREN)
    (hd : paren_depth 0 (segment toks a x) = some d) :
    paren_depth 0 (segment toks a (x + 1)) = some d := by
  rw [segment_snoc toks h ht, paren_depth_append, hd]
  simp [paren_depth, ho, hc]

/-- The nesting depth behind a list that starts at depth 0 is 0. -/
theorem depth_after_list {toks : List FormToken} {b a c1 : Nat} (h : b ≤ a)
    (hb : balances toks a c1) (hd : paren_depth 0 (segment toks b a) = some 0) :
    paren_depth 0 (segment toks b (c1 + 1)) = some 0 := by
  obtain ⟨h1, h2, h3, h4⟩ := hb
  rw [segment_snoc toks (by omega) h3, segment_split toks b a c1 _ h h1 h2]
  rw [List.append_assoc, paren_depth_append, hd]
  simp only [Option.some_bind, List.cons_append, paren_depth, if_true]
  show paren_depth (0 + 1) (segment toks (a + 1) c1 ++ [⟨.CLOSE_PAREN, ""⟩]) = some 0
  rw [paren_depth_append, paren_depth_add _ 0 0 1 h4]
  simp [paren_depth]

/-- A list that is an element of the list from `p` to `c`: it ends before `c`, no token
inside it is at the top level of the list from `p` to `c`, and its close paren is. -/
theorem nested_list_facts {toks : List FormToken} {p c a c1 : Nat}
    (hb : balances toks p c) (hpa : p < a) (hac : a < c) (hn : balances toks a c1)
    (hd : paren_depth 0 (segment toks (p + 1) a) = some 0) :
    c1 < c ∧ (∀ y, a ≤ y → y < c1 → direct_end toks p c y = false) ∧
      direct_end toks p c c1 = true ∧
      paren_depth 0 (segment toks (p + 1) (c1 + 1)) = some 0 := by
  obtain ⟨n1, n2, n3, n4⟩ := hn
  have hcT : c < toks.length := by
    by_contra hge
    have := hb.2.2.1
    rw [List.getElem?_eq_none (by omega)] at this
    simp at this
  have hc1T : c1 < toks.length := by
    by_contra hge
    rw [List.getElem?_eq_none (by omega)] at n3
    simp at n3
  have hlt : c1 < c := by
    by_contra hge
    obtain ⟨r, hr⟩ := segment_prefix_depth n4 (by omega : a + 1 ≤ c) (by omega) (by omega)
    exact no_open_unclosed hb.2.2.2 (by omega) hac n2 rfl hr
  have hdepth := depth_after_list (by omega : p + 1 ≤ a) ⟨n1, n2, n3, n4⟩ hd
  refine ⟨hlt, ?_, ?_, hdepth⟩
  · intro y hy1 hy2
    cases hde : direct_end toks p c y with
    | false => rfl
    | true =>
      exfalso
      obtain ⟨_, _, ⟨t, ht, _, hto⟩, h4⟩ := (direct_end_iff toks p c y).1 hde
      have hya : a ≠ y := by
        intro e
        subst e
        rw [n2] at ht
        simp only [Option.some.injEq] at ht
        subst ht
        exact hto rfl
      obtain ⟨r, hr⟩ := segment_prefix_depth n4 (by omega : a + 1 ≤ y + 1) (by omega)
        (by omega)
      exact no_open_unclosed h4 (by omega) (by omega) n2 rfl hr
  · rw [direct_end_iff]
    exact ⟨by omega, hlt, ⟨_, n3, by decide, by decide⟩, hdepth⟩
theorem walk_jump_pass (s0 : NodeList) (rp fe : Option Nat) (fresh : Nat) (b : Bool)
    (target : Nat) (n : PrettyPrinterNode) (rest : NodeList) (h : ¬ n.id = target) :
    breakList_walk s0 rp fe fresh b (some target) (n :: rest) =
      Except.map (fun r => n :: r) (breakList_walk s0 rp fe fresh b (some target) rest) := by
  rw [breakList_walk.eq_def]
  simp only [h, if_false]
  cases breakList_walk s0 rp fe fresh b (some target) rest <;> rfl

theorem walk_jump_last (s0 : NodeList) (rp fe : Option Nat) (fresh : Nat) (b : Bool)
    (target : Nat) (n : PrettyPrinterNode) (h : n.id = target) :
    breakList_walk s0 rp fe fresh b (some target) [n] = .ok [n] := by
  rw [breakList_walk.eq_def]
  simp only [h, if_true]

theorem walk_jump_hit (s0 : NodeList) (rp fe : Option Nat) (fresh : Nat)
    (target : Nat) (n m : PrettyPrinterNode) (rest : NodeList) (h : n.id = target) :
    breakList_walk s0 rp fe fresh true (some target) (n :: m :: rest) =
      if m.is_line_separator then
        Except.map (fun r => n :: r) (breakList_walk s0 rp fe fresh true none (m :: rest))
      else
        Except.map (fun r => n :: new_separator fresh 0 :: r)
          (breakList_walk s0 rp fe (fresh + 1) true none (m :: rest)) := by
  rw [breakList_walk.eq_def]
  cases hm : m.is_line_separator
  · simp only [h, if_true, hm, Bool.true_and, Bool.not_false, if_false, Bool.false_eq_true]
    cases breakList_walk s0 rp fe (fresh + 1) true none (m :: rest) <;> rfl
  · simp only [h, if_true, hm, Bool.true_and, Bool.not_true, if_false, Bool.false_eq_true]
    cases breakList_walk s0 rp fe fresh true none (m :: rest) <;> rfl

theorem walk_stop (s0 : NodeList) (c : Nat) (fe : Option Nat) (fresh : Nat) (b : Bool)
    (n : PrettyPrinterNode) (rest : NodeList) (h : n.id = c) :
    breakList_walk s0 (some c) fe fresh b none (n :: rest) = .ok (n :: rest) := by
  rw [breakList_walk.eq_def]
  simp only [h, if_true]

theorem walk_sep (s0 : NodeList) (c : Nat) (fresh : Nat)
    (n : PrettyPrinterNode) (rest : NodeList) (h : ¬ n.id = c)
    (hs : n.is_line_separator = true) :
    breakList_walk s0 (some c) none fresh true none (n :: rest) =
      Except.map (fun r => n :: r) (breakList_walk s0 (some c) none fresh true none rest) := by
  rw [breakList_walk.eq_def]
  simp only [Option.some.injEq, h, if_false, hs, if_true, reduceCtorEq]
  cases breakList_walk s0 (some c) none fresh true none rest <;> rfl

theorem walk_open (s0 : NodeList) (c : Nat) (fresh : Nat)
    (n cl : PrettyPrinterNode) (t ct : FormToken) (rest : NodeList) (h : ¬ n.id = c)
    (hs : n.is_line_separator = false) (ht : n.tok = some t) (hk : t.kind = .OPEN_PAREN)
    (hcl : deref s0 n.paren = .ok cl) (hct : cl.tok = some ct) (hck : ct.kind = .CLOSE_PAREN) :
    breakList_walk s0 (some c) none fresh true none (n :: rest) =
      Except.map (fun r => n :: r)
        (breakList_walk s0 (some c) none fresh true (some cl.id) rest) := by
  rw [breakList_walk.eq_def]
  simp only [Option.some.injEq, h, if_false, hs, Bool.false_eq_true, reduceCtorEq, tok_of, ht,
    hk, if_true, hcl, hct, hck]
  cases breakList_walk s0 (some c) none fresh true (some cl.id) rest <;> rfl

theorem walk_space (s0 : NodeList) (c : Nat) (fresh : Nat)
    (n : PrettyPrinterNode) (t : FormToken) (rest : NodeList) (h : ¬ n.id = c)
    (hs : n.is_line_separator = false) (ht : n.tok = some t) (hk : t.kind = .WHITESPACE) :
    breakList_walk s0 (some c) none fresh true none (n :: rest) =
      Except.map (fun r => n :: r) (breakList_walk s0 (some c) none fresh true none rest) := by
  rw [breakList_walk.eq_def]
  simp only [Option.some.injEq, h, if_false, hs, Bool.false_eq_true, reduceCtorEq, tok_of, ht,
    hk, ne_eq, not_true_eq_false]
  cases breakList_walk s0 (some c) none fresh true none rest <;> rfl

theorem walk_atom_last (s0 : NodeList) (c : Nat) (fresh : Nat)
    (n : PrettyPrinterNode) (t : FormToken) (h : ¬ n.id = c)
    (hs : n.is_line_separator = false) (ht : n.tok = some t) (ho : t.kind ≠ .OPEN_PAREN)
    (hw : t.kind ≠ .WHITESPACE) (hc : t.kind ≠ .CLOSE_PAREN) :
    breakList_walk s0 (some c) none fresh true none [n] = .ok [n] := by
  rw [breakList_walk.eq_def]
  simp only [Option.some.injEq, h, if_false, hs, Bool.false_eq_true, reduceCtorEq, tok_of, ht,
    ho, hw, hc, ne_eq, not_false_eq_true, if_true]

theorem walk_atom (s0 : NodeList) (c : Nat) (fresh : Nat)
    (n m : PrettyPrinterNode) (t : FormToken) (rest : NodeList) (h : ¬ n.id = c)
    (hs : n.is_line_separator = false) (ht : n.tok = some t) (ho : t.kind ≠ .OPEN_PAREN)
    (hw : t.kind ≠ .WHITESPACE) (hc : t.kind ≠ .CLOSE_PAREN) :
    breakList_walk s0 (some c) none fresh true none (n :: m :: rest) =
      if m.is_line_separator then
        Except.map (fun r => n :: r)
          (breakList_walk s0 (some c) none fresh true none (m :: rest))
      else
        Except.map (fun r => n :: new_separator fresh 0 :: r)
          (breakList_walk s0 (some c) none (fresh + 1) true none (m :: rest)) := by
  rw [breakList_walk.eq_def]
  cases hm : m.is_line_separator
  · simp only [Option.some.injEq, h, if_false, hs, Bool.false_eq_true, reduceCtorEq, tok_of, ht,
      ho, hw, hc, ne_eq, not_false_eq_true, if_true, hm, Bool.true_and, Bool.not_false]
    cases breakList_walk s0 (some c) none (fresh + 1) true none (m :: rest) <;> rfl
  · simp only [Option.some.injEq, h, if_false, hs, Bool.false_eq_true, reduceCtorEq, tok_of, ht,
      ho, hw, hc, ne_eq, not_false_eq_true, if_true, hm, Bool.true_and, Bool.not_true]
    cases breakList_walk s0 (some c) none fresh true none (m :: rest) <;> rfl

/-- The walk of `breakList(pool, leftParen)` over the list from `p` to `c`, started at a
token at the top level of this list or on a jump over a list that is an element of it: it
returns, and what it returns is `with_breaks` for the tokens at the top level. -/
theorem breakList_walk_children {obj : Object} (hs : supported obj) {s0 : NodeList}
    (hl0 : laid (tokens_of obj) (links_of obj 0 none) 0 s0) {p c : Nat}
    (hb : balances (tokens_of obj) p c) :
    ∀ (l : NodeList) (a fresh : Nat) (jump : Option Nat),
      laid (tokens_of obj) (links_of obj 0 none) a l → p < a →
      (jump = none → a ≤ c ∧ paren_depth 0 (segment (tokens_of obj) (p + 1) a) = some 0) →
      (∀ target, jump = some target → a ≤ target ∧ target < c ∧
        (∀ y, a ≤ y → y < target → direct_end (tokens_of obj) p c y = false) ∧
        direct_end (tokens_of obj) p c target = true ∧
        paren_depth 0 (segment (tokens_of obj) (p + 1) (target + 1)) = some 0) →
      breakList_walk s0 (some c) none fresh true jump l
        = .ok (with_breaks (direct_end (tokens_of obj) p c) fresh l) := by
  have hcT : c < (tokens_of obj).length := by
    by_contra hge
    have := hb.2.2.1
    rw [List.getElem?_eq_none (by omega)] at this
    simp at this
  intro l
  induction l with
  | nil =>
    intro a fresh jump hl hpa hn hj
    cases jump with
    | none => rfl
    | some target =>
      obtain ⟨h1, h2, _⟩ := hj target rfl
      have := laid_nil hl
      omega
  | cons n rest ih =>
    intro a fresh jump hl hpa hn hj
    obtain ⟨f1, f2⟩ := laid_cons hl
    cases jump with
    | some target =>
      obtain ⟨j1, j2, j3, j4, j5⟩ := hj target rfl
      cases hsep : n.is_line_separator with
      | true =>
        obtain ⟨g1, g2⟩ := f1 hsep
        cases rest with
        | nil => have := laid_nil g2; omega
        | cons m rest1 =>
          rw [walk_jump_pass _ _ _ _ _ _ _ _ (by omega),
            ih a fresh (some target) g2 hpa (fun h => by simp at h) hj, with_breaks_step]
          simp only [hsep, Bool.not_true, Bool.false_and, Bool.false_eq_true, if_false]
          rfl
      | false =>
        obtain ⟨g1, g2, g3, g4, g5⟩ := f2 hsep
        by_cases hat : a = target
        · subst hat
          cases rest with
          | nil => rw [walk_jump_last _ _ _ _ _ _ _ g1]; rfl
          | cons m rest1 =>
            rw [walk_jump_hit _ _ _ _ _ _ _ _ g1, with_breaks_step]
            have hrec1 := ih (a + 1) fresh none g5 (by omega) (fun _ => ⟨by omega, j5⟩)
              (fun t h => by simp at h)
            have hrec2 := ih (a + 1) (fresh + 1) none g5 (by omega) (fun _ => ⟨by omega, j5⟩)
              (fun t h => by simp at h)
            cases hm : m.is_line_separator with
            | true =>
              simp only [if_true, hrec1, hsep, Bool.not_true, Bool.and_false,
                Bool.false_eq_true, if_false]
              rfl
            | false =>
              simp only [Bool.false_eq_true, if_false, hrec2, hsep, Bool.not_false, g1, j4,
                Bool.and_self, if_true]
              rfl
        · cases rest with
          | nil => have := laid_nil g5; omega
          | cons m rest1 =>
            have hP : direct_end (tokens_of obj) p c n.id = false := by
              rw [g1]; exact j3 a (Nat.le_refl _) (by omega)
            rw [walk_jump_pass _ _ _ _ _ _ _ _ (by omega),
              ih (a + 1) fresh (some target) g5 (by omega) (fun h => by simp at h)
                (fun t h => by
                  simp only [Option.some.injEq] at h
                  subst h
                  exact ⟨by omega, j2, fun y h1 h2 => j3 y (by omega) h2, j4, j5⟩),
              with_breaks_step]
            simp only [hP, Bool.and_false, Bool.false_and, Bool.false_eq_true, if_false]
            rfl
    | none =>
      obtain ⟨hac, hd⟩ := hn rfl
      cases hsep : n.is_line_separator with
      | true =>
        obtain ⟨g1, g2⟩ := f1 hsep
        rw [walk_sep _ _ _ _ _ (by omega) hsep, ih a fresh none g2 hpa (fun _ => ⟨hac, hd⟩)
          (fun t h => by simp at h)]
        cases rest with
        | nil => rfl
        | cons m rest1 =>
          rw [with_breaks_step]
          simp only [hsep, Bool.not_true, Bool.false_and, Bool.false_eq_true, if_false]
          rfl
      | false =>
        obtain ⟨g1, g2, g3, g4, g5⟩ := f2 hsep
        by_cases hca : a = c
        · subst hca
          rw [walk_stop _ _ _ _ _ _ _ g1, with_breaks_nothing]
          intro x hx hxs
          have hxa : a ≤ x.id := by
            have := (numbered_from_mem _ hl.1).1 x hx hxs
            omega
          cases hde : direct_end (tokens_of obj) p a x.id with
          | false => rfl
          | true =>
            have := ((direct_end_iff _ _ _ _).1 hde).2.1
            omega
        · have hlt : a < c := by omega
          have hne : ¬ n.id = c := by omega
          rw [List.getElem?_eq_getElem g2] at g3
          have hta : (tokens_of obj)[a]? = some (tokens_of obj)[a] := List.getElem?_eq_getElem g2
          generalize (tokens_of obj)[a] = t at g3 hta
          by_cases ho : t.kind = .OPEN_PAREN
          · obtain ⟨c1, k1, k2, k3⟩ := open_link_balances hs hta ho
            rw [k1] at g4
            obtain ⟨cl, cl1, _, cl3, cl4, _, _⟩ := laid_node_at hl0
              (show c1 < (tokens_of obj).length by
                by_contra hge
                have := k2.2.2.1
                rw [List.getElem?_eq_none (by omega)] at this
                simp at this)
            rw [k2.2.2.1] at cl4
            have hderef : deref s0 n.paren = .ok cl := by
              rw [← Option.some.inj g4]
              simp only [deref, cl1]
            obtain ⟨n1, n2, n3, n4⟩ := nested_list_facts hb hpa hlt k2 hd
            have hP : direct_end (tokens_of obj) p c n.id = false := by
              rw [g1]; exact n2 a (Nat.le_refl _) k2.1
            rw [walk_open _ _ _ _ _ _ _ _ hne hsep g3 ho hderef cl4 rfl, cl3,
              ih (a + 1) fresh (some c1) g5 (by omega) (fun h => by simp at h)
                (fun tg h => by
                  simp only [Option.some.injEq] at h
                  subst h
                  exact ⟨by have := k2.1; omega, n1, fun y h1 h2 => n2 y (by omega) h2, n3, n4⟩)]
            cases rest with
            | nil => have := laid_nil g5; have := k2.1; omega
            | cons m rest1 =>
              rw [with_breaks_step]
              simp only [hP, Bool.and_false, Bool.false_and, Bool.false_eq_true, if_false]
              rfl
          · by_cases hw : t.kind = .WHITESPACE
            · have hd1 := depth_after_token (by omega : p + 1 ≤ a) hta ho (by rw [hw]; decide) hd
              have hP : direct_end (tokens_of obj) p c n.id = false := by
                rw [g1]
                cases hde : direct_end (tokens_of obj) p c a with
                | false => rfl
                | true =>
                  obtain ⟨_, _, ⟨u, hu, hu1, _⟩, _⟩ := (direct_end_iff _ _ _ _).1 hde
                  rw [hta] at hu
                  simp only [Option.some.injEq] at hu
                  subst hu
                  exact absurd hw hu1
              rw [walk_space _ _ _ _ _ _ hne hsep g3 hw,
                ih (a + 1) fresh none g5 (by omega) (fun _ => ⟨by omega, hd1⟩)
                  (fun tg h => by simp at h)]
              cases rest with
              | nil => rfl
              | cons m rest1 =>
                rw [with_breaks_step]
                simp only [hP, Bool.and_false, Bool.false_and, Bool.false_eq_true, if_false]
                rfl
            · have hc : t.kind ≠ .CLOSE_PAREN := by
                intro hck
                exact no_close_inside hb.2.2.2 (by omega) hlt hta hck hd
              have hd1 := depth_after_token (by omega : p + 1 ≤ a) hta ho hc hd
              have hP : direct_end (tokens_of obj) p c n.id = true := by
                rw [g1, direct_end_iff]
                exact ⟨hpa, hlt, ⟨t, hta, hw, ho⟩, hd1⟩
              cases rest with
              | nil => rw [walk_atom_last _ _ _ _ _ hne hsep g3 ho hw hc]; rfl
              | cons m rest1 =>
                rw [walk_atom _ _ _ _ _ _ _ hne hsep g3 ho hw hc, with_breaks_step]
                have hrec1 := ih (a + 1) fresh none g5 (by omega) (fun _ => ⟨by omega, hd1⟩)
                  (fun tg h => by simp at h)
                have hrec2 := ih (a + 1) (fresh + 1) none g5 (by omega)
                  (fun _ => ⟨by omega, hd1⟩) (fun tg h => by simp at h)
                cases hm : m.is_line_separator with
                | true =>
                  simp only [if_true, hrec1, hsep, Bool.not_true, Bool.and_false,
                    Bool.false_eq_true, if_false]
                  rfl
                | false =>
                  simp only [Bool.false_eq_true, if_false, hrec2, hsep, Bool.not_false, hP,
                    Bool.and_self, if_true]
                  rfl

/-- In a list of a call, the token nodes before the token with the address `p` have
smaller addresses. -/
theorem laid_before_lt {toks : List FormToken} {links : List (Option Nat)} (p : Nat) :
    ∀ (s : NodeList) (a : Nat), laid toks links a s → a ≤ p →
      ∀ n ∈ nodes_before s p, n.is_line_separator = false → n.id < p := by
  intro s
  induction s with
  | nil => intro a _ _ n hn; simp [nodes_before] at hn
  | cons x rest ih =>
    intro a hl ha n hn hs
    obtain ⟨f1, f2⟩ := laid_cons hl
    simp only [nodes_before] at hn
    split at hn
    · simp at hn
    · rename_i hne
      cases hx : x.is_line_separator with
      | true =>
        rcases List.mem_cons.1 hn with hn | hn
        · subst hn; rw [hx] at hs; simp at hs
        · exact ih a (f1 hx).2 ha n hn hs
      | false =>
        obtain ⟨g1, _, _, _, g5⟩ := f2 hx
        rcases List.mem_cons.1 hn with hn | hn
        · subst hn; omega
        · exact ih (a + 1) g5 (by omega) n hn hs

/-- C25 (frame of `breakList`, as the code has it): on a list of nodes that holds the
tokens of a supported tree, `breakList` at an open paren `p` with the close paren `c`
returns. Afterwards a separator stands behind a token exactly when one stood there before
or the token is at the top level of the list from `p` to `c` and is neither whitespace nor
an open paren: an atom, an empty pair or a dot of the list, or the close paren of a list
that is an element. The tokens keep their order, the nodes before `p` and the nodes from
`c` on are the same lists as before, every node of the list is still there, and every new
node is a fresh separator. -/
theorem breakList_splits_children (obj : Object) (hs : supported obj) (s : NodeList)
    (hl : laid (tokens_of obj) (links_of obj 0 none) 0 s) (p c : Nat)
    (hb : balances (tokens_of obj) p c) :
    ∃ s1, breakList s (some p) = .ok s1 ∧
      (∀ x, sep_after s1 x ↔ sep_after s x ∨ direct_end (tokens_of obj) p c x = true) ∧
      real_tokens s1 = real_tokens s ∧
      nodes_before s1 p = nodes_before s p ∧ nodes_from s1 c = nodes_from s c ∧
      (∀ n ∈ s, n ∈ s1) ∧
      (∀ n ∈ s1, n ∈ s ∨ ∃ k, s.length ≤ k ∧ n = new_separator k 0) := by
  obtain ⟨b1, b2, b3, b4⟩ := hb
  have hcT : c < (tokens_of obj).length := by
    by_contra hge
    rw [List.getElem?_eq_none (by omega)] at b3
    simp at b3
  have hTs : (tokens_of obj).length ≤ s.length := by
    have := real_ids_length_le s
    rw [hl.1.1] at this
    simpa using this
  obtain ⟨lp, lp1, lp2, lp3, lp4, lp5, lp6⟩ := laid_node_at hl (show p < _ by omega)
  obtain ⟨rn, rn1, rn2, rn3, rn4, _, _⟩ := laid_node_at hl hcT
  rw [b2] at lp4
  rw [b3] at rn4
  obtain ⟨c1, k1, k2, _⟩ := open_link_balances hs b2 rfl
  have hc1 : c1 = c := balances_unique k2 ⟨b1, b2, b3, b4⟩
  subst hc1
  rw [k1] at lp5
  have hpar : lp.paren = some c1 := (Option.some.inj lp5).symm
  have hentry : breakList_entry s (some p) = .ok lp := by
    simp only [breakList_entry, deref, lp1, bind, Except.bind, assert, lp2, Bool.not_false,
      if_true, tok_of, lp4, decide_True, hpar, rn1, rn4, pure, Except.pure]
  have hwalk := breakList_walk_children hs hl ⟨b1, b2, b3, b4⟩ (nodes_after s p) (p + 1)
    s.length none lp6 (by omega)
    (fun _ => ⟨by omega, by rw [segment_self]; rfl⟩) (fun t h => by simp at h)
  have hsplit := split_at_node lp1
  have hPbefore : ∀ n ∈ nodes_before s p, n.is_line_separator = false →
      direct_end (tokens_of obj) p c1 n.id = false := by
    intro n hn hns
    have := laid_before_lt p s 0 hl (Nat.zero_le _) n hn hns
    cases hde : direct_end (tokens_of obj) p c1 n.id with
    | false => rfl
    | true =>
      have := ((direct_end_iff _ _ _ _).1 hde).1
      omega
  have hPp : direct_end (tokens_of obj) p c1 lp.id = false := by
    rw [lp3]
    cases hde : direct_end (tokens_of obj) p c1 p with
    | false => rfl
    | true =>
      have := ((direct_end_iff _ _ _ _).1 hde).1
      omega
  have hwhole : ∀ f, with_breaks (direct_end (tokens_of obj) p c1) f s
      = nodes_before s p ++ lp ::
        with_breaks (direct_end (tokens_of obj) p c1) f (nodes_after s p) := by
    intro f
    conv => lhs; rw [← hsplit]
    rw [with_breaks_start _ _ _ _ hPbefore]
    congr 1
    cases hna : nodes_after s p with
    | nil => rfl
    | cons m rest1 =>
      rw [with_breaks_step]
      simp only [hPp, Bool.and_false, Bool.false_and, Bool.false_eq_true, if_false]
  have hres : breakList s (some p)
      = .ok (with_breaks (direct_end (tokens_of obj) p c1) s.length s) := by
    rw [hwhole]
    simp only [breakList, hentry, bind, Except.bind, hpar, lp3, hwalk, pure, Except.pure]
  refine ⟨_, hres, ?_, with_breaks_real_tokens _ _ _, ?_, ?_, (with_breaks_nodes _ _ _).1,
    (with_breaks_nodes _ _ _).2⟩
  · intro x
    rw [with_breaks_sep_after]
    constructor
    · rintro (h | ⟨h, _⟩)
      · exact Or.inl h
      · exact Or.inr h
    · rintro (h | h)
      · exact Or.inl h
      · refine Or.inr ⟨h, ?_⟩
        have hxc := ((direct_end_iff _ _ _ _).1 h).2.1
        obtain ⟨n, n1, n2, n3, _, _, n6⟩ := laid_node_at hl (show x < _ by omega)
        cases hna : nodes_after s x with
        | nil => rw [hna] at n6; have := laid_nil n6; omega
        | cons m post =>
          have := split_at_node n1
          rw [hna] at this
          exact ⟨_, n, m, post, this.symm, n3, n2⟩
  · rw [hwhole]
    exact nodes_before_stop p lp _ lp3 _ (nodes_before_ne s p)
  · have hB : ∀ n ∈ nodes_from s c1, n.is_line_separator = false →
        direct_end (tokens_of obj) p c1 n.id = false := by
      intro n hn hns
      obtain ⟨g1, _⟩ := numbered_from_nodes_from s 0 c1 hl.1 hl.2.1 (Nat.zero_le _) hcT
      have := ((numbered_from_mem _ g1).1 n hn hns).1
      cases hde : direct_end (tokens_of obj) p c1 n.id with
      | false => rfl
      | true =>
        have := ((direct_end_iff _ _ _ _).1 hde).2.1
        omega
    obtain ⟨X, e, hX⟩ := with_breaks_tail _ _ hB (nodes_before s c1) s.length
    rw [nodes_before_append_from] at e
    rw [e, nodes_from_skip]
    · conv => rhs; rw [← nodes_before_append_from s c1]
      rw [nodes_from_skip _ _ _ (nodes_before_ne s c1)]
    · intro n hn
      rcases hX n hn with h | ⟨k, hk, e2⟩
      · exact nodes_before_ne s c1 n h
      · rw [e2]
        simp only [new_separator]
        omega

/-- Witness for C25: `breakList` at the open paren of the list that `to_string` builds for
`(a (b c) . d)`: separators are put behind `a`, behind the close paren of `(b c)`, behind
the dot and behind `d`, and none inside `(b c)`. -/
theorem breakList_splits_children_witness :
    supported (.PAIR (.SYMBOL "a") (.PAIR (build_list [.SYMBOL "b", .SYMBOL "c"])
      (.SYMBOL "d"))) ∧
    balances (tokens_of (.PAIR (.SYMBOL "a") (.PAIR (build_list [.SYMBOL "b", .SYMBOL "c"])
      (.SYMBOL "d")))) 0 12 ∧
    ∃ s1, breakList (build_linked 0 0
        (tokens_of (.PAIR (.SYMBOL "a") (.PAIR (build_list [.SYMBOL "b", .SYMBOL "c"])
          (.SYMBOL "d"))))
        (links_of (.PAIR (.SYMBOL "a") (.PAIR (build_list [.SYMBOL "b", .SYMBOL "c"])
          (.SYMBOL "d"))) 0 none)) (some 0) = .ok s1 ∧
      sep_after s1 1 ∧ sep_after s1 7 ∧ sep_after s1 9 ∧ sep_after s1 11 ∧ ¬ sep_after s1 5 :=
  have hs : supported (.PAIR (.SYMBOL "a") (.PAIR (build_list [.SYMBOL "b", .SYMBOL "c"])
      (.SYMBOL "d"))) := by simp [supported, build_list]
  have hb : balances (tokens_of (.PAIR (.SYMBOL "a")
      (.PAIR (build_list [.SYMBOL "b", .SYMBOL "c"]) (.SYMBOL "d")))) 0 12 :=
    ⟨by decide, by rfl, by rfl, by rfl⟩
  ⟨hs, hb,
    let ⟨s1, h1, h2, _⟩ := breakList_splits_children _ hs _ (laid_build_linked hs) 0 12 hb
    ⟨s1, h1, (h2 1).2 (Or.inr (by rfl)), (h2 7).2 (Or.inr (by rfl)),
      (h2 9).2 (Or.inr (by rfl)), (h2 11).2 (Or.inr (by rfl)),
      fun h => by
        rcases (h2 5).1 h with h | h
        · obtain ⟨pre, n, m, post, e, _, _, hm⟩ := h
          have : m ∈ build_linked 0 0
              (tokens_of (.PAIR (.SYMBOL "a") (.PAIR (build_list [.SYMBOL "b", .SYMBOL "c"])
                (.SYMBOL "d"))))
              (links_of (.PAIR (.SYMBOL "a") (.PAIR (build_list [.SYMBOL "b", .SYMBOL "c"])
                (.SYMBOL "d"))) 0 none) := by rw [e]; simp
          rw [(build_linked_flat _ _ _ _ m this).1] at hm
          simp at hm
        · revert h; decide⟩⟩

/-- C25, counterexample: `breakList` at the open paren of the list that `to_string` builds
for `(a . b)` puts a separator, node 8, behind the dot, node 3. Each pair is the address of
a node and whether it is a separator. -/
theorem breakList_breaks_behind_dot :
    (tokens_of (.PAIR (.SYMBOL "a") (.SYMBOL "b")))[3]? = some ⟨.DOT, ""⟩ ∧
    (breakList (build_linked 0 0 (tokens_of (.PAIR (.SYMBOL "a") (.SYMBOL "b")))
        (links_of (.PAIR (.SYMBOL "a") (.SYMBOL "b")) 0 none)) (some 0)).map
      (fun s1 => s1.map (fun n => (n.id, n.is_line_separator)))
      = .ok [(0, false), (1, false), (7, true), (2, false), (3, false), (8, true), (4, false),
          (5, false), (9, true), (6, false)] ∧
    to_string (.PAIR (.SYMBOL "a") (.SYMBOL "b")) 3 = .ok "(a\n  .\n  b\n  )" :=
  ⟨by rfl, by rfl, by rfl⟩

theorem separators_append (A B : NodeList) :
    separators (A ++ B) = separators A + separators B := by
  simp [separators, List.countP_append]

theorem separators_snoc_sep (A : NodeList) (n : PrettyPrinterNode)
    (h : n.is_line_separator = true) : separators (A ++ [n]) = separators A + 1 := by
  simp [separators, List.countP_append, List.countP_cons, h]

theorem separators_snoc_tok (A : NodeList) (n : PrettyPrinterNode)
    (h : n.is_line_separator = false) : separators (A ++ [n]) = separators A := by
  simp [separators, List.countP_append, List.countP_cons, h]

theorem reline_sep (L : Int) (n : PrettyPrinterNode) (rest : NodeList)
    (h : n.is_line_separator = true) : reline L (n :: rest) = n :: reline (L + 1) rest := by
  rw [reline, if_pos h]

theorem reline_tok (L : Int) (n : PrettyPrinterNode) (rest : NodeList)
    (h : n.is_line_separator = false) :
    reline L (n :: rest) = { n with line := L } :: reline L rest := by
  rw [reline, if_neg (by simp [h])]

theorem separators_cons_sep (n : PrettyPrinterNode) (A : NodeList)
    (h : n.is_line_separator = true) : separators (n :: A) = separators A + 1 := by
  simp [separators, List.countP_cons, h]

theorem separators_cons_tok (n : PrettyPrinterNode) (A : NodeList)
    (h : n.is_line_separator = false) : separators (n :: A) = separators A := by
  simp [separators, List.countP_cons, h]

theorem reline_append : ∀ (A B : NodeList) (L : Int),
    reline L (A ++ B) = reline L A ++ reline (L + separators A) B := by
  intro A
  induction A with
  | nil => intro B L; simp [reline, separators]
  | cons a A ih =>
    intro B L
    rw [List.cons_append]
    by_cases ha : a.is_line_separator = true
    · rw [reline_sep _ _ _ ha, reline_sep _ _ _ ha, ih, separators_cons_sep _ _ ha,
        List.cons_append]
      have e : L + 1 + (separators A : Int) = L + ((separators A + 1 : Nat) : Int) := by
        push_cast; ring
      rw [e]
    · have ha1 : a.is_line_separator = false := by simpa using ha
      rw [reline_tok _ _ _ ha1, reline_tok _ _ _ ha1, ih, separators_cons_tok _ _ ha1,
        List.cons_append]

theorem reline_same_shape : ∀ (l : NodeList) (L : Int), same_shape l (reline L l) := by
  intro l
  induction l with
  | nil => intro L; exact .nil
  | cons a l ih =>
    intro L
    simp only [reline]
    split
    · exact .cons ⟨rfl, rfl, rfl, rfl⟩ (ih _)
    · exact .cons ⟨rfl, rfl, rfl, rfl⟩ (ih _)

theorem reline_getLast (A : NodeList) (q : PrettyPrinterNode) (L : Int)
    (hq : q.is_line_separator = true) : (reline L (A ++ [q])).getLast? = some q := by
  rw [reline_append, reline_sep _ _ _ hq]
  simp [reline]

/-- The node found at an address in the renumbered list. -/
theorem node_at_reline : ∀ (A : NodeList) (L : Int) (o : Nat) (po : PrettyPrinterNode),
    node_at A o = some po → po.is_line_separator = false →
      node_at (reline L A) o = some { po with line := L + separators (nodes_before A o) } := by
  intro A
  induction A with
  | nil => intro L o po h; simp [node_at] at h
  | cons a A ih =>
    intro L o po h hp
    simp only [node_at, List.find?_cons] at h
    by_cases hid : a.id = o
    · simp only [hid, beq_self_eq_true, Option.some.injEq] at h
      subst h
      simp only [reline, hp, Bool.false_eq_true, if_false, node_at, List.find?_cons, hid,
        beq_self_eq_true, nodes_before, if_true, separators, List.countP_nil]
      simp
    · have hb : (a.id == o) = false := by simpa using hid
      simp only [hb] at h
      have hrec := ih
      by_cases ha : a.is_line_separator = true
      · have := ih (L + 1) o po h hp
        simp only [reline, ha, if_true, node_at, List.find?_cons, hb, nodes_before, hid,
          if_false]
        simp only [node_at] at this
        rw [this]
        have : separators (a :: nodes_before A o) = separators (nodes_before A o) + 1 := by
          simp [separators, List.countP_cons, ha]
        rw [this]
        have e : L + 1 + (separators (nodes_before A o) : Int)
            = L + ((separators (nodes_before A o) + 1 : Nat) : Int) := by
          push_cast; ring
        rw [e]
      · have ha1 : a.is_line_separator = false := by simpa using ha
        have := ih L o po h hp
        simp only [reline, ha1, Bool.false_eq_true, if_false, node_at, List.find?_cons,
          nodes_before, hid]
        have hb2 : (({ a with line := L } : PrettyPrinterNode).id == o) = false := hb
        simp only [hb2]
        simp only [node_at] at this
        rw [this]
        have : separators (a :: nodes_before A o) = separators (nodes_before A o) := by
          simp [separators, List.countP_cons, ha1]
        rw [this]

/-- On a settled list the first loop of `propagatePretty` inserts nothing: the result is
the list with the line numbers counted along it. -/
theorem propagate_lines_settled (L0 : Int) :
    ∀ (rest pre0 : NodeList) (fresh : Nat), settled_walk pre0 rest →
      propagate_lines fresh (reline L0 pre0) (L0 + separators pre0) rest
        = .ok (reline L0 (pre0 ++ rest)) := by
  intro rest
  induction rest with
  | nil => intro pre0 fresh _; simp [propagate_lines]
  | cons c post ih =>
    intro pre0 fresh h
    obtain ⟨h1, h2⟩ := h
    have hrec := ih (pre0 ++ [c]) fresh h2
    rw [List.append_assoc, List.singleton_append] at hrec
    by_cases hc : c.is_line_separator = true
    · rw [propagate_lines, if_pos hc]
      rw [reline_append, separators_snoc_sep _ _ hc, reline_sep _ _ _ hc] at hrec
      simp only [reline] at hrec
      have e : L0 + ((separators pre0 + 1 : Nat) : Int) = L0 + (separators pre0 : Int) + 1 := by
        push_cast; ring
      rw [e] at hrec
      exact hrec
    · have hc1 : c.is_line_separator = false := by simpa using hc
      obtain ⟨t, ht, hcl⟩ := h1 hc1
      rw [reline_append, separators_snoc_tok _ _ hc1, reline_tok _ _ _ hc1] at hrec
      simp only [reline] at hrec
      by_cases hk : t.kind = .CLOSE_PAREN
      · obtain ⟨o, po, hpar, hpo, hreal, hcase⟩ := hcl hk
        have hfound := node_at_reline pre0 L0 o po hpo hreal
        have hd : deref (reline L0 pre0 ++
            ({ c with line := L0 + separators pre0 } : PrettyPrinterNode) :: post) c.paren
            = .ok { po with line := L0 + separators (nodes_before pre0 o) } := by
          rw [hpar]
          simp only [deref]
          rw [node_at_append_of_mem ⟨_, node_at_mem hfound, node_at_id hfound⟩, hfound]
        by_cases heq : separators (nodes_before pre0 o) = separators pre0
        · rw [propagate_lines_step fresh _ post _ c t hc1 ht
            (fun _ => ⟨_, hd, by simp [heq]⟩)]
          exact hrec
        · have hal : stands_alone pre0 post := by
            rcases hcase with h | h
            · exact absurd h heq
            · exact h
          have ht1 : tok_of ({ c with line := L0 + separators pre0 } : PrettyPrinterNode)
              = .ok t := by simp [tok_of, ht]
          have hne : (L0 + (separators pre0 : Int) ≠ L0 + (separators (nodes_before pre0 o) : Int)) := by
            intro e
            apply heq
            have : (separators pre0 : Int) = separators (nodes_before pre0 o) := by linarith
            exact (Int.ofNat_inj.1 this).symm
          have hlast : (reline L0 pre0).getLast? = none ∨
              ∃ q, (reline L0 pre0).getLast? = some q ∧ q.is_line_separator = true := by
            rcases hal.1 with e | ⟨pre1, q, e, hq⟩
            · subst e; exact Or.inl rfl
            · subst e; exact Or.inr ⟨q, reline_getLast _ _ _ hq, hq⟩
          rcases hal.2 with e | ⟨m, post1, e, hm⟩
          · subst e
            rw [propagate_lines, if_neg (by simp [hc1])]
            simp only [ht1, hk, if_true, hd, ne_eq, hne, not_false_eq_true]
            rw [propagate_lines] at hrec
            rcases hlast with hl | ⟨q, hl, hq⟩
            · simp only [hl, Bool.false_eq_true, if_false]
              exact hrec
            · simp only [hl, hq, Bool.not_true, Bool.false_eq_true, if_false]
              exact hrec
          · subst e
            rw [propagate_lines, if_neg (by simp [hc1])]
            simp only [ht1, hk, if_true, hd, ne_eq, hne, not_false_eq_true, hm]
            rcases hlast with hl | ⟨q, hl, hq⟩
            · simp only [hl, Bool.false_eq_true, if_false]
              exact hrec
            · simp only [hl, hq, Bool.not_true, Bool.false_eq_true, if_false]
              exact hrec
      · rw [propagate_lines_step fresh _ post _ c t hc1 ht (fun hk1 => absurd hk1 hk)]
        exact hrec

theorem covered_append {toks : List FormToken} {pre : NodeList} {a : Nat}
    (h : covered toks pre a) (X : NodeList) (hX : ∀ x ∈ X, toks.length ≤ x.id) :
    covered toks (pre ++ X) a := by
  refine ⟨fun j hj => ?_, fun m hm => ?_⟩
  · obtain ⟨po, h1, h2, h3⟩ := h.1 j hj
    exact ⟨po, by rw [node_at_append_of_mem ⟨po, node_at_mem h1, node_at_id h1⟩]; exact h1,
      h2, h3⟩
  · rcases List.mem_append.1 hm with h1 | h1
    · exact h.2 m h1
    · exact Or.inr (hX m h1)

theorem node_at_append_none {pre : NodeList} {o : Nat} (h : node_at pre o = none)
    (X : NodeList) : node_at (pre ++ X) o = node_at X o := by
  unfold node_at at h ⊢
  rw [List.find?_append, h]
  rfl

theorem node_at_none_ne {pre : NodeList} {o : Nat} (h : node_at pre o = none) :
    ∀ m ∈ pre, m.id ≠ o := by
  intro m hm e
  unfold node_at at h
  have := List.find?_eq_none.1 h m hm
  simp [e] at this

theorem covered_snoc {toks : List FormToken} {pre : NodeList} {a : Nat}
    (h : covered toks pre a) (c : PrettyPrinterNode) (hid : c.id = a) (ha : a < toks.length)
    (hs : c.is_line_separator = false) (ht : c.tok = toks[a]?) :
    covered toks (pre ++ [c]) (a + 1) := by
  refine ⟨fun j hj => ?_, fun m hm => ?_⟩
  · by_cases hja : j < a
    · obtain ⟨po, h1, h2, h3⟩ := h.1 j hja
      exact ⟨po, by rw [node_at_append_of_mem ⟨po, node_at_mem h1, node_at_id h1⟩]; exact h1,
        h2, h3⟩
    · have hj2 : j = a := by omega
      subst hj2
      have hnone : node_at pre j = none := by
        cases hf : node_at pre j with
        | none => rfl
        | some x =>
          have := h.2 x (node_at_mem hf)
          rw [node_at_id hf] at this
          omega
      refine ⟨c, ?_, hs, ht⟩
      rw [node_at_append_none hnone]
      simp [node_at, hid]
  · rcases List.mem_append.1 hm with h1 | h1
    · rcases h.2 m h1 with h2 | h2
      · exact Or.inl (by omega)
      · exact Or.inr h2
    · simp only [List.mem_singleton] at h1
      subst h1
      exact Or.inl (by omega)

theorem opens_counted_append {L0 : Int} {pre : NodeList} (h : opens_counted L0 pre)
    (X : NodeList)
    (hX : ∀ x ∈ X, x.is_line_separator = true ∨ ∃ t, x.tok = some t ∧ t.kind = .CLOSE_PAREN) :
    opens_counted L0 (pre ++ X) := by
  intro o po hpo hreal hk
  cases hf : node_at pre o with
  | some x =>
    have hm : ∃ m ∈ pre, m.id = o := ⟨x, node_at_mem hf, node_at_id hf⟩
    rw [node_at_append_of_mem hm] at hpo
    rw [nodes_before_append_mem hm]
    exact h o po hpo hreal hk
  | none =>
    rw [node_at_append_none hf] at hpo
    rcases hX po (node_at_mem hpo) with h1 | ⟨t, h1, h2⟩
    · rw [hreal] at h1; simp at h1
    · exact absurd h2 (hk t h1)

theorem opens_counted_snoc {L0 : Int} {pre : NodeList} (h : opens_counted L0 pre)
    (c : PrettyPrinterNode) (hc : c.line = L0 + separators pre) :
    opens_counted L0 (pre ++ [c]) := by
  intro o po hpo hreal hk
  cases hf : node_at pre o with
  | some x =>
    have hm : ∃ m ∈ pre, m.id = o := ⟨x, node_at_mem hf, node_at_id hf⟩
    rw [node_at_append_of_mem hm] at hpo
    rw [nodes_before_append_mem hm]
    exact h o po hpo hreal hk
  | none =>
    rw [node_at_append_none hf] at hpo
    have hmem := node_at_mem hpo
    simp only [List.mem_singleton] at hmem
    subst hmem
    have hid := node_at_id hpo
    rw [nodes_before_append_not_mem (node_at_none_ne hf)]
    simp only [nodes_before, hid, if_true, List.append_nil]
    exact hc

theorem settled_walk_cons_sep {pre : NodeList} {c : PrettyPrinterNode} {post : NodeList}
    (hc : c.is_line_separator = true) (h : settled_walk (pre ++ [c]) post) :
    settled_walk pre (c :: post) :=
  ⟨fun h1 => by rw [hc] at h1; simp at h1, h⟩

/-- The first loop of `propagatePretty` leaves a settled list: a close paren whose line
differs from the line of its open paren is put alone on its line, and the other close
parens have as many separators before them as their open parens have. -/
theorem propagate_lines_settles {toks : List FormToken} {links : List (Option Nat)}
    (hlk : ∀ (i : Nat) (t : FormToken), toks[i]? = some t → t.kind = .CLOSE_PAREN →
      ∃ j, links[i]? = some (some j) ∧ j < i ∧
        ∃ u, toks[j]? = some u ∧ u.kind ≠ .CLOSE_PAREN) (L0 : Int) :
    ∀ (rest : NodeList) (fresh : Nat) (pre : NodeList) (line : Int) (r : NodeList) (a : Nat),
      laid toks links a rest → toks.length ≤ fresh → covered toks pre a →
      opens_counted L0 pre → line = L0 + separators pre →
      propagate_lines fresh pre line rest = .ok r →
      ∃ r1, r = pre ++ r1 ∧
        (∀ m rest1, rest = m :: rest1 → m.is_line_separator = true → ∃ r2, r1 = m :: r2) ∧
        (rest = [] → r1 = []) ∧ settled_walk pre r1 := by
  intro rest
  induction rest with
  | nil =>
    intro fresh pre line r a _ _ _ _ _ h
    simp [propagate_lines] at h
    subst h
    exact ⟨[], by simp, by simp, fun _ => rfl, trivial⟩
  | cons n rest ih =>
    intro fresh pre line r a hl hfresh hcov hoc hline h
    obtain ⟨f1, f2⟩ := laid_cons hl
    cases hsep : n.is_line_separator with
    | true =>
      rw [propagate_lines, if_pos hsep] at h
      obtain ⟨r1, e1, _, _, hw⟩ := ih _ _ _ _ a (f1 hsep).2 hfresh
        (covered_append hcov [n] (fun x hx => by
          simp only [List.mem_singleton] at hx; subst hx; exact (f1 hsep).1))
        (opens_counted_append hoc [n] (fun x hx => by
          simp only [List.mem_singleton] at hx; subst hx; exact Or.inl hsep))
        (by rw [separators_snoc_sep _ _ hsep, hline]; push_cast; ring) h
      refine ⟨n :: r1, by simp [e1], ?_, by simp, settled_walk_cons_sep hsep hw⟩
      intro m rest1 e _
      simp only [List.cons.injEq] at e
      exact ⟨r1, by rw [e.1]⟩
    | false =>
      obtain ⟨g1, g2, g3, g4, g5⟩ := f2 hsep
      obtain ⟨t, ht⟩ := getElem?_some_of_lt g2
      rw [ht] at g3
      have hn1s : ({ n with line := line } : PrettyPrinterNode).is_line_separator = false := hsep
      have ht1 : tok_of ({ n with line := line } : PrettyPrinterNode) = .ok t := by
        simp [tok_of, g3]
      have hcov1 : covered toks (pre ++ [({ n with line := line } : PrettyPrinterNode)])
          (a + 1) := covered_snoc hcov _ g1 g2 hsep (by rw [ht]; exact g3)
      -- the step that appends the node and goes on
      have plain : (t.kind = .CLOSE_PAREN → ∃ o po, n.paren = some o ∧
            node_at pre o = some po ∧ po.is_line_separator = false ∧
            separators (nodes_before pre o) = separators pre) →
          propagate_lines fresh (pre ++ [{ n with line := line }]) line rest = .ok r →
          ∃ r1, r = pre ++ r1 ∧
            (∀ m rest1, n :: rest = m :: rest1 → m.is_line_separator = true →
              ∃ r2, r1 = m :: r2) ∧
            (n :: rest = [] → r1 = []) ∧ settled_walk pre r1 := by
        intro hc h
        obtain ⟨r1, e1, _, _, hw⟩ := ih _ _ _ _ (a + 1) g5 hfresh hcov1
          (opens_counted_snoc hoc _ hline)
          (by rw [separators_snoc_tok _ _ hn1s]; exact hline) h
        refine ⟨{ n with line := line } :: r1, by simp [e1], ?_, by simp, ?_, hw⟩
        · intro m rest1 e hm
          simp only [List.cons.injEq] at e
          rw [← e.1, hsep] at hm
          simp at hm
        · intro _
          refine ⟨t, g3, fun hk => ?_⟩
          obtain ⟨o, po, h1, h2, h3, h4⟩ := hc hk
          exact ⟨o, po, h1, h2, h3, Or.inl h4⟩
      rw [propagate_lines, if_neg (by simp [hsep])] at h
      simp only [ht1] at h
      by_cases hk : t.kind = .CLOSE_PAREN
      · obtain ⟨j, hj1, hj2, u, hu, huk⟩ := hlk a t ht hk
        rw [hj1] at g4
        simp only [Option.some.injEq] at g4
        obtain ⟨po, hpo, hpreal, hptok⟩ := hcov.1 j hj2
        have hmem : ∃ m ∈ pre, m.id = j := ⟨po, node_at_mem hpo, node_at_id hpo⟩
        have hd : ∀ X, deref (pre ++ X) n.paren = .ok po := by
          intro X
          rw [← g4]
          simp only [deref, node_at_append_of_mem hmem, hpo]
        have hpline : po.line = L0 + separators (nodes_before pre j) :=
          hoc j po hpo hpreal (fun t1 ht1 => by
            rw [hptok, hu] at ht1
            simp only [Option.some.injEq] at ht1
            subst ht1
            exact huk)
        simp only [hk, if_true, hd] at h
        by_cases hline2 : line = po.line
        · simp only [hline2, ne_eq, not_true_eq_false, if_false] at h
          rw [← hline2] at h
          refine plain (fun _ => ⟨j, po, g4.symm, hpo, hpreal, ?_⟩) h
          have : (separators (nodes_before pre j) : Int) = separators pre := by
            rw [hline, hpline] at hline2; linarith
          exact Int.ofNat_inj.1 this
        · simp only [ne_eq, hline2, not_false_eq_true, if_true] at h
          have hne : pre ≠ [] := List.ne_nil_of_mem (node_at_mem hpo)
          obtain ⟨pre0, q, hq⟩ : ∃ pre0 q, pre = pre0 ++ [q] :=
            ⟨pre.dropLast, pre.getLast hne, (List.dropLast_append_getLast hne).symm⟩
          have hlast : pre.getLast? = some q := by rw [hq]; simp
          simp only [hlast] at h
          -- the nodes put before the close paren
          obtain ⟨X, hX1, hX2, hX3, hX4, hX5⟩ : ∃ (X : NodeList),
              (if (!q.is_line_separator) = true then pre ++ [new_separator fresh 0] else pre)
                = pre ++ X ∧
              (∃ p1 qx, pre ++ X = p1 ++ [qx] ∧ qx.is_line_separator = true) ∧
              (X = [] ∨ X = [new_separator fresh 0]) ∧
              ((if (!q.is_line_separator) = true then line + 1 else line)
                = L0 + separators (pre ++ X)) ∧
              (X = [new_separator fresh 0] →
                (if (!q.is_line_separator) = true then fresh + 1 else fresh) = fresh + 1) := by
            cases hqs : q.is_line_separator with
            | true =>
              refine ⟨[], by simp, ⟨pre0, q, by simp [hq], hqs⟩, Or.inl rfl, by simp [hline],
                fun e => by simp at e⟩
            | false =>
              refine ⟨[new_separator fresh 0], by simp,
                ⟨pre, new_separator fresh 0, rfl, rfl⟩, Or.inr rfl, ?_, fun _ => by simp⟩
              rw [separators_snoc_sep _ _ rfl, hline]
              simp only [Bool.not_false, if_true]
              push_cast; ring
          rw [hX1, hX4] at h
          have hXsep : ∀ x ∈ X, x.is_line_separator = true ∧ toks.length ≤ x.id := by
            intro x hx
            rcases hX3 with e | e
            · subst e; simp at hx
            · subst e
              simp only [List.mem_singleton] at hx
              subst hx
              exact ⟨rfl, hfresh⟩
          have hcovX : covered toks (pre ++ X) a :=
            covered_append hcov X (fun x hx => (hXsep x hx).2)
          have hocX : opens_counted L0 (pre ++ X) :=
            opens_counted_append hoc X (fun x hx => Or.inl (hXsep x hx).1)
          have hcovXn : covered toks
              ((pre ++ X) ++ [({ n with line := line } : PrettyPrinterNode)]) (a + 1) :=
            covered_snoc hcovX _ g1 g2 hsep (by rw [ht]; exact g3)
          have hocXn : opens_counted L0
              ((pre ++ X) ++ [({ n with line := line } : PrettyPrinterNode)]) :=
            opens_counted_append hocX _ (fun x hx => by
              simp only [List.mem_singleton] at hx
              subst hx
              exact Or.inr ⟨t, g3, hk⟩)
          have wrap : ∀ (Y : NodeList), r = (pre ++ X) ++ { n with line := line } :: Y →
              (Y = [] ∨ ∃ m Y1, Y = m :: Y1 ∧ m.is_line_separator = true) →
              settled_walk ((pre ++ X) ++ [{ n with line := line }]) Y →
              ∃ r1, r = pre ++ r1 ∧
                (∀ m rest1, n :: rest = m :: rest1 → m.is_line_separator = true →
                  ∃ r2, r1 = m :: r2) ∧
                (n :: rest = [] → r1 = []) ∧ settled_walk pre r1 := by
            intro Y e hY hw
            refine ⟨X ++ { n with line := line } :: Y, by simp [e], ?_, by simp, ?_⟩
            · intro m rest1 e hm
              simp only [List.cons.injEq] at e
              rw [← e.1, hsep] at hm
              simp at hm
            · have hcl : settled_walk (pre ++ X)
                  (({ n with line := line } : PrettyPrinterNode) :: Y) := by
                refine ⟨fun _ => ⟨t, g3, fun _ => ⟨j, po, g4.symm, ?_, hpreal,
                  Or.inr ⟨Or.inr hX2, hY⟩⟩⟩, hw⟩
                rw [node_at_append_of_mem hmem]
                exact hpo
              rcases hX3 with hx | hx
              · subst hx
                simpa using hcl
              · subst hx
                exact settled_walk_cons_sep rfl hcl
          cases rest with
          | nil =>
            simp only [Except.ok.injEq] at h
            exact wrap [] (by rw [← h]) (Or.inl rfl) trivial
          | cons m rest1 =>
            simp only at h
            by_cases hm : m.is_line_separator = true
            · simp only [hm, if_true] at h
              obtain ⟨r1, e1, e2, _, hw⟩ := ih _ _ _ _ (a + 1) g5 (by split <;> omega) hcovXn
                hocXn (by rw [separators_snoc_tok _ _ hn1s]) h
              obtain ⟨r2, e3⟩ := e2 m rest1 rfl hm
              exact wrap r1 (by rw [e1]; simp) (Or.inr ⟨m, r2, e3, hm⟩) hw
            · simp only [hm, if_false] at h
              have e0 : (pre ++ X) ++ [({ n with line := line } : PrettyPrinterNode),
                  new_separator (if (!q.is_line_separator) = true then fresh + 1 else fresh) 0]
                  = ((pre ++ X) ++ [({ n with line := line } : PrettyPrinterNode)]) ++
                    [new_separator (if (!q.is_line_separator) = true then fresh + 1
                      else fresh) 0] := by simp
              rw [e0] at h
              obtain ⟨r1, e1, _, _, hw⟩ := ih _ _ _ _ (a + 1) g5 (by split <;> omega)
                (covered_append hcovXn _ (fun x hx => by
                  simp only [List.mem_singleton] at hx
                  subst hx
                  show toks.length ≤ (if (!q.is_line_separator) = true then fresh + 1
                      else fresh)
                  split <;> omega))
                (opens_counted_append hocXn _ (fun x hx => by
                  simp only [List.mem_singleton] at hx
                  subst hx
                  exact Or.inl rfl))
                (by rw [separators_snoc_sep _ _ rfl, separators_snoc_tok _ _ hn1s]
                    push_cast; ring) h
              exact wrap
                (new_separator (if (!q.is_line_separator) = true then fresh + 1 else fresh) 0
                  :: r1) (by rw [e1]; simp)
                (Or.inr ⟨_, r1, rfl, rfl⟩) (settled_walk_cons_sep rfl hw)
      · simp only [hk, if_false] at h
        exact plain (fun hc => absurd hc hk) h

/-- The first loop of `propagatePretty` returns on the lists of a call. -/
theorem propagate_lines_ok {toks : List FormToken} {links : List (Option Nat)}
    (hlk : ∀ (i : Nat) (t : FormToken), toks[i]? = some t → t.kind = .CLOSE_PAREN →
      ∃ j, links[i]? = some (some j) ∧ j < i) :
    ∀ (rest : NodeList) (fresh : Nat) (pre : NodeList) (line : Int) (a : Nat),
      laid toks links a rest → (∀ j, j < a → ∃ m ∈ pre, m.id = j) →
      ∃ r, propagate_lines fresh pre line rest = .ok r := by
  intro rest
  induction rest with
  | nil => intro fresh pre line a _ _; exact ⟨pre, rfl⟩
  | cons n rest ih =>
    intro fresh pre line a hl hpre
    obtain ⟨f1, f2⟩ := laid_cons hl
    cases hsep : n.is_line_separator with
    | true =>
      rw [propagate_lines, if_pos hsep]
      exact ih _ _ _ a (f1 hsep).2
        (fun j hj => let ⟨m, hm, e⟩ := hpre j hj; ⟨m, by simp [hm], e⟩)
    | false =>
      obtain ⟨g1, g2, g3, g4, g5⟩ := f2 hsep
      obtain ⟨t, ht⟩ := getElem?_some_of_lt g2
      rw [ht] at g3
      have ht1 : tok_of ({ n with line := line } : PrettyPrinterNode) = .ok t := by
        simp [tok_of, g3]
      have hids : ∀ (L : NodeList), (∀ m ∈ pre, m ∈ L) →
          ({ n with line := line } : PrettyPrinterNode) ∈ L → ∀ (j : Nat), j < a + 1 →
          ∃ m ∈ L, m.id = j := by
        intro L h1 h2 j hj
        by_cases hja : j < a
        · obtain ⟨m, hm, e⟩ := hpre j hja
          exact ⟨m, h1 m hm, e⟩
        · exact ⟨{ n with line := line }, h2, by simp; omega⟩
      rw [propagate_lines, if_neg (by simp [hsep])]
      simp only [ht1]
      by_cases hk : t.kind = .CLOSE_PAREN
      · obtain ⟨j, hj1, hj2⟩ := hlk a t ht hk
        rw [hj1] at g4
        simp only [Option.some.injEq] at g4
        obtain ⟨po, hpo⟩ := node_at_of_mem (hpre j hj2)
        have hd : ∀ X, deref (pre ++ X) n.paren = .ok po := by
          intro X
          rw [← g4]
          simp only [deref, node_at_append_of_mem (hpre j hj2), hpo]
        simp only [hk, if_true, hd]
        split
        · cases rest with
          | nil => exact ⟨_, rfl⟩
          | cons m rest1 =>
            simp only
            split
            · exact ih _ _ _ (a + 1) g5 (hids _ (fun m hm => by
                split <;> simp [hm]) (by simp))
            · exact ih _ _ _ (a + 1) g5 (hids _ (fun m hm => by
                split <;> simp [hm]) (by simp))
        · exact ih _ _ _ (a + 1) g5 (hids _ (fun m hm => by simp [hm]) (by simp))
      · simp only [hk, if_false]
        exact ih _ _ _ (a + 1) g5 (hids _ (fun m hm => by simp [hm]) (by simp))

theorem same_shape_refl (l : NodeList) : same_shape l l := by
  induction l with
  | nil => exact .nil
  | cons a l ih => exact .cons ⟨rfl, rfl, rfl, rfl⟩ ih

theorem same_shape_of_same_lines {l l1 : NodeList} (h : same_lines l l1) : same_shape l l1 := by
  induction h with
  | nil => exact .nil
  | cons hab _ ih => exact .cons ⟨hab.1, hab.2.1, hab.2.2.1, hab.2.2.2.1⟩ ih

theorem same_shape_trans {a b c : NodeList} (h1 : same_shape a b) (h2 : same_shape b c) :
    same_shape a c := by
  induction h1 generalizing c with
  | nil => cases h2; exact .nil
  | cons hab _ ih =>
    cases h2 with
    | cons hbc h2 =>
      exact .cons ⟨hbc.1.trans hab.1, hbc.2.1.trans hab.2.1, hbc.2.2.1.trans hab.2.2.1,
        hbc.2.2.2.trans hab.2.2.2⟩ (ih h2)

theorem same_shape_append {a b c d : NodeList} (h1 : same_shape a b) (h2 : same_shape c d) :
    same_shape (a ++ c) (b ++ d) := by
  induction h1 with
  | nil => exact h2
  | cons hab _ ih => exact .cons hab ih

theorem same_shape_separators {l l1 : NodeList} (h : same_shape l l1) :
    separators l1 = separators l := by
  induction h with
  | nil => rfl
  | cons hab _ ih =>
    rename_i a b l l1 _
    simp only [separators, List.countP_cons] at ih ⊢
    rw [ih, hab.2.2.1]

theorem same_shape_nodes_before {l l1 : NodeList} (h : same_shape l l1) (o : Nat) :
    same_shape (nodes_before l o) (nodes_before l1 o) := by
  induction h with
  | nil => exact .nil
  | cons hab _ ih =>
    simp only [nodes_before]
    rw [hab.1]
    split
    · exact .nil
    · exact .cons hab ih

theorem same_shape_node_at {l l1 : NodeList} (h : same_shape l l1) (o : Nat)
    {po : PrettyPrinterNode} (hpo : node_at l o = some po) :
    ∃ po1, node_at l1 o = some po1 ∧ po1.is_line_separator = po.is_line_separator := by
  induction h with
  | nil => simp [node_at] at hpo
  | cons hab _ ih =>
    rename_i a b l l1 _
    simp only [node_at, List.find?_cons] at hpo ⊢
    rw [hab.1]
    cases hid : (a.id == o) with
    | true =>
      simp only [hid, Option.some.injEq] at hpo
      subst hpo
      exact ⟨b, rfl, hab.2.2.1⟩
    | false =>
      simp only [hid] at hpo
      exact ih hpo

theorem same_shape_snoc : ∀ (A : NodeList) (q : PrettyPrinterNode) (l1 : NodeList),
    same_shape (A ++ [q]) l1 →
      ∃ A1 q1, l1 = A1 ++ [q1] ∧ q1.is_line_separator = q.is_line_separator := by
  intro A
  induction A with
  | nil =>
    intro q l1 h
    cases h with
    | cons hqq hnil =>
      cases hnil
      exact ⟨[], _, rfl, hqq.2.2.1⟩
  | cons a A ih =>
    intro q l1 h
    cases h with
    | cons haa hrest =>
      obtain ⟨A1, q1, e, hq⟩ := ih q _ hrest
      exact ⟨_ :: A1, q1, by rw [e]; rfl, hq⟩

theorem same_shape_stands_alone {pre pre1 post post1 : NodeList} (h1 : same_shape pre pre1)
    (h2 : same_shape post post1) (h : stands_alone pre post) : stands_alone pre1 post1 := by
  constructor
  · rcases h.1 with e | ⟨p0, q, e, hq⟩
    · subst e; cases h1; exact Or.inl rfl
    · subst e
      obtain ⟨A1, q1, e1, hq1⟩ := same_shape_snoc _ _ _ h1
      exact Or.inr ⟨A1, q1, e1, by rw [hq1]; exact hq⟩
  · rcases h.2 with e | ⟨m, p1, e, hm⟩
    · subst e; cases h2; exact Or.inl rfl
    · subst e
      cases h2 with
      | cons hmm _ => exact Or.inr ⟨_, _, rfl, by rw [hmm.2.2.1]; exact hm⟩

/-- A list with the shape of a settled list is settled. -/
theorem same_shape_settled_walk :
    ∀ {l l1 : NodeList}, same_shape l l1 → ∀ {pre pre1 : NodeList}, same_shape pre pre1 →
      settled_walk pre l → settled_walk pre1 l1 := by
  intro l l1 h
  induction h with
  | nil => intro _ _ _ _; trivial
  | cons hab hrest ih =>
    rename_i a b l l1
    intro pre pre1 hp hw
    obtain ⟨h1, h2⟩ := hw
    refine ⟨fun hb => ?_, ih (same_shape_append hp (.cons hab .nil)) h2⟩
    obtain ⟨t, ht, hcl⟩ := h1 (by rw [← hab.2.2.1]; exact hb)
    refine ⟨t, by rw [hab.2.1]; exact ht, fun hk => ?_⟩
    obtain ⟨o, po, g1, g2, g3, g4⟩ := hcl hk
    obtain ⟨po1, f1, f2⟩ := same_shape_node_at hp o g2
    refine ⟨o, po1, by rw [hab.2.2.2]; exact g1, f1, by rw [f2]; exact g3, ?_⟩
    rcases g4 with g4 | g4
    · left
      rw [same_shape_separators (same_shape_nodes_before hp o), same_shape_separators hp]
      exact g4
    · exact Or.inr (same_shape_stands_alone hp hrest g4)

theorem reline_idem : ∀ (s : NodeList) (L : Int), reline L (reline L s) = reline L s := by
  intro s
  induction s with
  | nil => intro L; rfl
  | cons a s ih =>
    intro L
    by_cases ha : a.is_line_separator = true
    · rw [reline_sep _ _ _ ha, reline_sep _ _ _ ha, ih]
    · have ha1 : a.is_line_separator = false := by simpa using ha
      rw [reline_tok _ _ _ ha1, reline_tok _ _ _ (by exact ha1), ih]

theorem reline_fixed_cons {L : Int} {a : PrettyPrinterNode} {s : NodeList}
    (h : reline L (a :: s) = a :: s) :
    (a.is_line_separator = true → reline (L + 1) s = s) ∧
    (a.is_line_separator = false → a.line = L ∧ reline L s = s) := by
  constructor
  · intro ha
    rw [reline_sep _ _ _ ha] at h
    exact (List.cons.inj h).2
  · intro ha
    rw [reline_tok _ _ _ ha] at h
    obtain ⟨h1, h2⟩ := List.cons.inj h
    refine ⟨?_, h2⟩
    have := congrArg PrettyPrinterNode.line h1
    exact this.symm

/-- A list that the renumbering keeps has counted lines. -/
theorem lines_counted_of_reline : ∀ (s : NodeList) (L : Int), reline L s = s →
    lines_counted L s := by
  intro s
  induction s with
  | nil => intro L _ A n B e; simp at e
  | cons a s ih =>
    intro L h A n B e hn
    obtain ⟨f1, f2⟩ := reline_fixed_cons h
    cases A with
    | nil =>
      simp only [List.nil_append, List.cons.injEq] at e
      rw [← e.1] at hn
      rw [← e.1, (f2 hn).1]
      simp [separators]
    | cons a1 A1 =>
      simp only [List.cons_append, List.cons.injEq] at e
      obtain ⟨e1, e2⟩ := e
      subst e1
      by_cases ha : a.is_line_separator = true
      · have := ih (L + 1) (f1 ha) A1 n B e2 hn
        rw [this, separators_cons_sep _ _ ha]
        push_cast; ring
      · have ha1 : a.is_line_separator = false := by simpa using ha
        have := ih L (f2 ha1).2 A1 n B e2 hn
        rw [this, separators_cons_tok _ _ ha1]

theorem reline_fixed_same_lines {l l1 : NodeList} (h : same_lines l l1) :
    ∀ (L : Int), reline L l = l → reline L l1 = l1 := by
  induction h with
  | nil => intro L _; rfl
  | cons hab _ ih =>
    rename_i a b l l1 _
    intro L hfix
    obtain ⟨f1, f2⟩ := reline_fixed_cons hfix
    by_cases ha : a.is_line_separator = true
    · have hb : b.is_line_separator = true := by rw [hab.2.2.1]; exact ha
      rw [reline_sep _ _ _ hb, ih _ (f1 ha)]
    · have ha1 : a.is_line_separator = false := by simpa using ha
      have hb : b.is_line_separator = false := by rw [hab.2.2.1]; exact ha1
      rw [reline_tok _ _ _ hb, ih _ (f2 ha1).2]
      have hl : b.line = L := by rw [hab.2.2.2.2]; exact (f2 ha1).1
      cases b
      simp only at hl
      subst hl
      rfl

/-- One more turn of the second loop of `propagatePretty` at a node it has already set
changes nothing. -/
theorem offset_step_again {w : Int} {prev : Option PrettyPrinterNode}
    {st st1 : OffsetState} {n n2 : PrettyPrinterNode}
    (h : offset_step w prev st n = .ok (n2, st1)) :
    offset_step w prev st n2 = .ok (n2, st1) := by
  cases hs : n.is_line_separator with
  | true =>
    simp only [offset_step, hs, if_true] at h
    cases hstk : st.indentStack with
    | nil => simp [hstk] at h
    | cons top tl =>
      simp only [hstk, Except.ok.injEq, Prod.mk.injEq] at h
      obtain ⟨h1, h2⟩ := h
      subst h1
      simp only [offset_step, hs, if_true, hstk, h2]
  | false =>
    cases ht : tok_of n with
    | error e =>
      rw [offset_step, if_neg (by simp [hs])] at h
      simp [ht] at h
    | ok t =>
      have hn2 : n2 = { n with
          lineIndent := (if st.previous_line_sep = true then st.offset else n.lineIndent),
          offset := st.offset } := by
        rw [offset_step, if_neg (by simp [hs])] at h
        simp only [ht] at h
        split at h
        · split at h
          · simp at h
          · simp only [Except.ok.injEq, Prod.mk.injEq] at h
            exact h.1.symm
        · simp only [Except.ok.injEq, Prod.mk.injEq] at h
          exact h.1.symm
      subst hn2
      rw [← h]
      clear h
      cases hb : st.previous_line_sep with
      | true =>
        simp only [offset_step, hb, if_true]
        rw [if_neg (by simp [hs]), if_neg (by simp [hs])]
        rfl
      | false =>
        simp only [offset_step, hb, Bool.false_eq_true, if_false]
        rw [if_neg (by simp [hs]), if_neg (by simp [hs])]
        rfl

/-- The second loop of `propagatePretty` run again over its own result changes nothing and
returns the same node. -/
theorem propagate_offsets_again (w : Int) :
    ∀ (l : NodeList) (prev : Option PrettyPrinterNode) (st : OffsetState) (r : NodeList)
      (rv : Option Nat),
      propagate_offsets w prev st l = .ok (r, rv) →
      propagate_offsets w prev st r = .ok (r, rv) := by
  intro l
  induction l with
  | nil =>
    intro prev st r rv h
    simp only [propagate_offsets, Except.ok.injEq, Prod.mk.injEq] at h
    obtain ⟨h1, h2⟩ := h
    subst h1
    simp [propagate_offsets, h2]
  | cons n rest ih =>
    intro prev st r rv h
    rw [propagate_offsets_cons] at h
    cases hstep : offset_step w prev st n with
    | error e => simp [hstep] at h
    | ok x =>
      obtain ⟨n2, st1⟩ := x
      simp only [hstep] at h
      cases hrec : propagate_offsets w (some n2) st1 rest with
      | error e => simp [hrec] at h
      | ok y =>
        obtain ⟨r1, rv1⟩ := y
        simp only [hrec, Except.ok.injEq, Prod.mk.injEq] at h
        obtain ⟨h1, h2⟩ := h
        subst h1
        subst h2
        rw [propagate_offsets_cons, offset_step_again hstep]
        simp only [ih (some n2) _ _ _ hrec]

/-- The second loop of `propagatePretty` returns on the lists of a call. -/
theorem propagate_offsets_ok {obj : Object} (hs : supported obj) {links : List (Option Nat)}
    {s : NodeList} (hl : laid (tokens_of obj) links 0 s) (w : Int)
    (prev : Option PrettyPrinterNode) (list : Option Nat) :
    ∃ r rv, propagate_offsets w prev { line_start := list } s = .ok (r, rv) := by
  have hrt : real_tokens s = tokens_of obj := by
    simpa using real_tokens_of_laid s 0 hl
  have hd : paren_depth 0 (real_tokens s) = some 0 := by
    have := paren_depth_tokens obj hs 0 []
    rw [hrt]
    simpa [paren_depth] using this
  obtain ⟨states, h1, _, _⟩ := offset_states_stack w [0] (by simp) s prev
    { line_start := list } [] 0 (laid_has_tok s 0 hl) rfl hd
  exact propagate_offsets_of_states w s prev _ states h1

/-- The first node of the result of the first loop of `propagatePretty`, started at the
first node. -/
theorem propagate_lines_first {fresh : Nat} {line : Int} {n : PrettyPrinterNode}
    {tl r : NodeList} (hn : n.is_line_separator = false)
    (h : propagate_lines fresh [] line (n :: tl) = .ok r) :
    ∃ tl1, r = { n with line := line } :: tl1 := by
  rw [propagate_lines, if_neg (by simp [hn])] at h
  have key : ∀ (f : Nat) (X : NodeList) (L : Int) (r : NodeList),
      propagate_lines f (({ n with line := line } : PrettyPrinterNode) :: X) L tl = .ok r →
      ∃ tl1, r = { n with line := line } :: tl1 := by
    intro f X L r h
    obtain ⟨r1, e, _⟩ := propagate_lines_spec (k := 0) _ _ _ _ _ (Nat.zero_le _) h
    exact ⟨X ++ r1, by rw [e]; rfl⟩
  simp only [List.getLast?_nil, List.nil_append, Bool.false_eq_true, if_false] at h
  repeat' split at h
  all_goals first
    | (simp at h; done)
    | exact key _ [] _ _ h
    | exact key _ [_] _ _ h
    | (simp only [Except.ok.injEq] at h; exact ⟨[], h.symm⟩)

/-- `propagatePretty` called with the first node of the list, which has the address 0:
the two loops run over the whole list. -/
theorem propagatePretty_from_head {s : NodeList} {n : PrettyPrinterNode} {tl : NodeList}
    (e : s = n :: tl) (hid : n.id = 0) (hn : n.is_line_separator = false) {w : Int}
    {r r2 : NodeList} {rv : Option Nat}
    (h1 : propagate_lines s.length [] n.line s = .ok r)
    (h2 : propagate_offsets w none { line_start := some 0 } r = .ok (r2, rv)) :
    propagatePretty s (some 0) w = .ok (r2, rv) := by
  have hd : deref s (some 0) = .ok n := by
    subst e
    simp [deref, node_at, hid]
  have hb : nodes_before s n.id = [] := by subst e; simp [nodes_before]
  have hf : nodes_from s n.id = s := by subst e; simp [nodes_from]
  obtain ⟨tl1, er⟩ : ∃ tl1, r = { n with line := n.line } :: tl1 := by
    subst e
    exact propagate_lines_first hn h1
  have hb1 : nodes_before r n.id = [] := by rw [er]; simp [nodes_before]
  have hf1 : nodes_from r n.id = r := by rw [er]; simp [nodes_from]
  unfold propagatePretty
  simp only [hd, bind, Except.bind, hb, hf, h1, hb1, hf1, List.getLast?_nil, h2, pure,
    Except.pure, List.nil_append]

theorem laid_length_le {toks : List FormToken} {links : List (Option Nat)} {s : NodeList}
    (hl : laid toks links 0 s) : toks.length ≤ s.length := by
  have := real_ids_length_le s
  rw [hl.1.1] at this
  simpa using this

theorem covered_nil (toks : List FormToken) : covered toks [] 0 :=
  ⟨fun j hj => absurd hj (by omega), fun m hm => by simp at hm⟩

theorem opens_counted_nil (L0 : Int) : opens_counted L0 [] := by
  intro o po h
  simp [node_at] at h

/-- One `propagatePretty` pass over a list of the call `to_string obj`: it returns, the
result is settled, and its first node has the line of the first node of the list. -/
theorem propagatePretty_settles {obj : Object} (hs : supported obj) {s : NodeList}
    (hE : Evolves (build_linked 0 0 (tokens_of obj) (links_of obj 0 none)) s) (w : Int) :
    ∃ s1 rv1, propagatePretty s (some 0) w = .ok (s1, rv1) ∧ settled_walk [] s1 ∧
      ∀ hd, s.head? = some hd → ∃ hd1, s1.head? = some hd1 ∧ hd1.line = hd.line := by
  have hl := hE.laid (laid_build_linked hs)
  obtain ⟨n, tl, e, hid, hn⟩ := evolves_head hs hE
  obtain ⟨r, hr⟩ := propagate_lines_ok
    (fun i t ht hk => by
      obtain ⟨j, h1, h2, _⟩ := close_link_open obj 0 none i t ht hk
      exact ⟨j, by simpa using h1, h2⟩) s s.length [] n.line 0 hl
    (fun j hj => absurd hj (by omega))
  obtain ⟨r1, e1, _, _, hw⟩ := propagate_lines_settles
    (fun i t ht hk => by
      obtain ⟨j, h1, h2, h3⟩ := close_link_open obj 0 none i t ht hk
      exact ⟨j, by simpa using h1, h2, _, h3, by decide⟩) n.line s s.length [] n.line r 0 hl
    (laid_length_le hl) (covered_nil _) (opens_counted_nil _) (by simp [separators]) hr
  simp only [List.nil_append] at e1
  subst e1
  obtain ⟨r2, e2, hR, hK⟩ := propagate_lines_spec (k := s.length) _ _ _ _ _ (Nat.le_refl _) hr
  simp only [List.nil_append] at e2
  subst e2
  have hEr : Evolves s r := ⟨hR, hK rfl⟩
  have hlr := hEr.laid hl
  obtain ⟨s1, rv1, ho⟩ := propagate_offsets_ok hs hlr w none (some 0)
  have hsl := propagate_offsets_same_lines w _ _ _ _ _ ho
  refine ⟨s1, rv1, propagatePretty_from_head e hid hn hr ho,
    same_shape_settled_walk (same_shape_of_same_lines hsl) .nil hw, ?_⟩
  intro hd hhd
  rw [e] at hhd hr
  simp only [List.head?_cons, Option.some.injEq] at hhd
  subst hhd
  obtain ⟨tl1, er⟩ := propagate_lines_first hn hr
  rw [er] at hsl
  cases hsl with
  | cons hab _ => exact ⟨_, rfl, hab.2.2.2.2⟩

/-- One `propagatePretty` pass over a settled list of the call `to_string obj`: it
returns, inserts no separator, and the result has counted lines. -/
theorem propagatePretty_of_settled {obj : Object} (hs : supported obj) {s : NodeList}
    (hE : Evolves (build_linked 0 0 (tokens_of obj) (links_of obj 0 none)) s) (w : Int)
    (hw : settled_walk [] s) :
    ∃ s1 rv1 L0, propagatePretty s (some 0) w = .ok (s1, rv1) ∧ same_shape s s1 ∧
      (∀ hd, s.head? = some hd → hd.line = L0) ∧ reline L0 s1 = s1 ∧
      propagate_offsets w none { line_start := some 0 } (reline L0 s) = .ok (s1, rv1) := by
  have hl := hE.laid (laid_build_linked hs)
  obtain ⟨n, tl, e, hid, hn⟩ := evolves_head hs hE
  have hr : propagate_lines s.length [] n.line s = .ok (reline n.line s) := by
    have := propagate_lines_settled n.line s [] s.length hw
    simpa [reline, separators] using this
  obtain ⟨r2, e2, hR, hK⟩ := propagate_lines_spec (k := s.length) _ _ _ _ _ (Nat.le_refl _) hr
  simp only [List.nil_append] at e2
  have hEr : Evolves s (reline n.line s) := by
    rw [e2]; exact ⟨hR, hK rfl⟩
  have hlr := hEr.laid hl
  obtain ⟨s1, rv1, ho⟩ := propagate_offsets_ok hs hlr w none (some 0)
  have hsl := propagate_offsets_same_lines w _ _ _ _ _ ho
  refine ⟨s1, rv1, n.line, propagatePretty_from_head e hid hn hr ho,
    same_shape_trans (reline_same_shape _ _) (same_shape_of_same_lines hsl), ?_,
    reline_fixed_same_lines hsl _ (reline_idem _ _), ho⟩
  intro hd hhd
  rw [e] at hhd
  simp only [List.head?_cons, Option.some.injEq] at hhd
  rw [← hhd]

/-- Two `propagatePretty` passes in a row over a list of the call `to_string obj`: both
return, every token of the result has the line of the first node plus the number of
separators before it, and a third pass returns the same list and the same node. -/
theorem propagatePretty_twice {obj : Object} (hs : supported obj) {s : NodeList}
    (hE : Evolves (build_linked 0 0 (tokens_of obj) (links_of obj 0 none)) s) (w : Int) :
    ∃ s1 rv1 s2 rv2, propagatePretty s (some 0) w = .ok (s1, rv1) ∧
      propagatePretty s1 (some 0) w = .ok (s2, rv2) ∧ same_shape s1 s2 ∧
      (∀ hd, s.head? = some hd → lines_counted hd.line s2) ∧
      propagatePretty s2 (some 0) w = .ok (s2, rv2) := by
  obtain ⟨s1, rv1, p1, hw1, hh1⟩ := propagatePretty_settles hs hE w
  have hE1 := hE.andThen (propagatePretty_evolves p1)
  obtain ⟨s2, rv2, L0, p2, hsh, hL0, hfix, ho⟩ := propagatePretty_of_settled hs hE1 w hw1
  have hE2 := hE1.andThen (propagatePretty_evolves p2)
  have hw2 : settled_walk [] s2 := same_shape_settled_walk hsh .nil hw1
  refine ⟨s1, rv1, s2, rv2, p1, p2, hsh, ?_, ?_⟩
  · intro hd hhd
    obtain ⟨hd1, g1, g2⟩ := hh1 hd hhd
    rw [← g2, hL0 hd1 g1]
    exact lines_counted_of_reline _ _ hfix
  · obtain ⟨n2, tl2, e2, hid2, hn2⟩ := evolves_head hs hE2
    have hline : n2.line = L0 := by
      have := reline_fixed_cons (by rw [← e2]; exact hfix : reline L0 (n2 :: tl2) = n2 :: tl2)
      exact (this.2 hn2).1
    have hr : propagate_lines s2.length [] n2.line s2 = .ok s2 := by
      have := propagate_lines_settled L0 s2 [] s2.length hw2
      rw [hline]
      simpa [reline, separators, hfix] using this
    have ho2 := propagate_offsets_again w _ _ _ _ _ ho
    exact propagatePretty_from_head e2 hid2 hn2 hr ho2

mutual
theorem tokens_chain : ∀ (obj : Object), supported obj → ∀ (p : FormToken)
    (X : List FormToken), (p.kind = .WHITESPACE ∨ p.kind = .OPEN_PAREN) →
    (∀ q : FormToken, q.kind ≠ .WHITESPACE → q.kind ≠ .OPEN_PAREN →
      List.Chain may_follow q X) →
    List.Chain may_follow p (tokens_of obj ++ X)
  | .PAIR car cdr, hs, p, X, hp, hX => by
    have e : tokens_of (.PAIR car cdr) ++ X
        = ⟨.OPEN_PAREN, ""⟩ :: (tokens_of car ++ (rest_tokens_of cdr ++ X)) := by
      simp [tokens_of]
    rw [e]
    refine List.Chain.cons ?_ (tokens_chain car hs.1 _ _ (Or.inr rfl) ?_)
    · rcases hp with h | h <;> simp [may_follow, h]
    · intro q h1 h2
      exact rest_tokens_chain cdr hs.2 q X h1 h2
        (fun q1 hq1 => hX q1 (by rw [hq1]; decide) (by rw [hq1]; decide))
  | .EMPTY_LIST, _, p, X, hp, hX => by
    refine List.Chain.cons ?_ (hX _ (by simp) (by simp))
    rcases hp with h | h <;> simp [may_follow, h]
  | .INTEGER _, _, p, X, hp, hX => by
    refine List.Chain.cons ?_ (hX _ (by simp) (by simp))
    rcases hp with h | h <;> simp [may_follow, h]
  | .FLOAT _, _, p, X, hp, hX => by
    refine List.Chain.cons ?_ (hX _ (by simp) (by simp))
    rcases hp with h | h <;> simp [may_follow, h]
  | .CHAR _, _, p, X, hp, hX => by
    refine List.Chain.cons ?_ (hX _ (by simp) (by simp))
    rcases hp with h | h <;> simp [may_follow, h]
  | .SYMBOL _, _, p, X, hp, hX => by
    refine List.Chain.cons ?_ (hX _ (by simp) (by simp))
    rcases hp with h | h <;> simp [may_follow, h]
  | .STRING _, _, p, X, hp, hX => by
    refine List.Chain.cons ?_ (hX _ (by simp) (by simp))
    rcases hp with h | h <;> simp [may_follow, h]
  | .ARRAY, hs, _, _, _, _ => by simp [supported] at hs
  | .LAMBDA, hs, _, _, _, _ => by simp [supported] at hs
  | .MACRO, hs, _, _, _, _ => by simp [supported] at hs
  | .ENVIRONMENT, hs, _, _, _, _ => by simp [supported] at hs
theorem rest_tokens_chain : ∀ (obj : Object), supported obj → ∀ (p : FormToken)
    (X : List FormToken), p.kind ≠ .WHITESPACE → p.kind ≠ .OPEN_PAREN →
    (∀ q : FormToken, q.kind = .CLOSE_PAREN → List.Chain may_follow q X) →
    List.Chain may_follow p (rest_tokens_of obj ++ X)
  | .PAIR car cdr, hs, p, X, h1, h2, hX => by
    have e : rest_tokens_of (.PAIR car cdr) ++ X
        = ⟨.WHITESPACE, ""⟩ :: (tokens_of car ++ (rest_tokens_of cdr ++ X)) := by
      simp [rest_tokens_of]
    rw [e]
    refine List.Chain.cons ?_ (tokens_chain car hs.1 _ _ (Or.inl rfl) ?_)
    · simp [may_follow, h1, h2]
    · intro q g1 g2
      exact rest_tokens_chain cdr hs.2 q X g1 g2 hX
  | .EMPTY_LIST, _, p, X, h1, h2, hX => by
    refine List.Chain.cons ?_ (hX _ rfl)
    simp [may_follow, h1, h2]
  | .INTEGER _, _, p, X, h1, h2, hX => by
    refine .cons ?_ (.cons ?_ (.cons ?_ (.cons ?_ (.cons ?_ (hX _ rfl)))))
    · simp [may_follow, h1, h2]
    all_goals simp [may_follow]
  | .FLOAT _, _, p, X, h1, h2, hX => by
    refine .cons ?_ (.cons ?_ (.cons ?_ (.cons ?_ (.cons ?_ (hX _ rfl)))))
    · simp [may_follow, h1, h2]
    all_goals simp [may_follow]
  | .CHAR _, _, p, X, h1, h2, hX => by
    refine .cons ?_ (.cons ?_ (.cons ?_ (.cons ?_ (.cons ?_ (hX _ rfl)))))
    · simp [may_follow, h1, h2]
    all_goals simp [may_follow]
  | .SYMBOL _, _, p, X, h1, h2, hX => by
    refine .cons ?_ (.cons ?_ (.cons ?_ (.cons ?_ (.cons ?_ (hX _ rfl)))))
    · simp [may_follow, h1, h2]
    all_goals simp [may_follow]
  | .STRING _, _, p, X, h1, h2, hX => by
    refine .cons ?_ (.cons ?_ (.cons ?_ (.cons ?_ (.cons ?_ (hX _ rfl)))))
    · simp [may_follow, h1, h2]
    all_goals simp [may_follow]
  | .ARRAY, hs, _, _, _, _, _ => by simp [supported] at hs
  | .LAMBDA, hs, _, _, _, _, _ => by simp [supported] at hs
  | .MACRO, hs, _, _, _, _, _ => by simp [supported] at hs
  | .ENVIRONMENT, hs, _, _, _, _, _ => by simp [supported] at hs
end

theorem chain_adjacent {R : FormToken → FormToken → Prop} :
    ∀ (l : List FormToken) (a : FormToken), List.Chain R a l →
      ∀ (i : Nat) (t u : FormToken), (a :: l)[i]? = some t → (a :: l)[i + 1]? = some u →
        R t u := by
  intro l
  induction l with
  | nil => intro a _ i t u _ h2; simp at h2
  | cons b l ih =>
    intro a h i t u h1 h2
    cases h with
    | cons hab hbl =>
      cases i with
      | zero =>
        simp only [List.getElem?_cons_zero, Option.some.injEq, Nat.zero_add,
          List.getElem?_cons_succ] at h1 h2
        subst h1; subst h2
        exact hab
      | succ i =>
        rw [List.getElem?_cons_succ] at h1 h2
        exact ih b hbl i t u h1 h2

/-- The grammar of the token list of a tree: the first token is no whitespace and no close
paren, the last token is no whitespace and no open paren, and a whitespace or a close paren
comes behind exactly the tokens that are neither a whitespace nor an open paren. -/
theorem token_grammar {obj : Object} (hs : supported obj) (i : Nat) (t : FormToken)
    (h : (tokens_of obj)[i]? = some t) :
    (i = 0 → t.kind ≠ .WHITESPACE ∧ t.kind ≠ .CLOSE_PAREN) ∧
    (∀ u, (tokens_of obj)[i + 1]? = some u → may_follow t u) ∧
    ((tokens_of obj)[i + 1]? = none → t.kind ≠ .WHITESPACE ∧ t.kind ≠ .OPEN_PAREN) := by
  have hc := tokens_chain obj hs ⟨.WHITESPACE, ""⟩ [⟨.CLOSE_PAREN, ""⟩] (Or.inl rfl)
    (fun q h1 h2 => .cons (by simp [may_follow, h1, h2]) .nil)
  have hadj := chain_adjacent _ _ hc
  have hlt : i < (tokens_of obj).length := by
    by_contra hge
    rw [List.getElem?_eq_none (by omega)] at h
    simp at h
  refine ⟨fun h0 => ?_, fun u hu => ?_, fun hn => ?_⟩
  · subst h0
    have := hadj 0 ⟨.WHITESPACE, ""⟩ t (by simp) (by
      simp only [Nat.zero_add, List.getElem?_cons_succ]
      rw [List.getElem?_append_left hlt]; exact h)
    simp only [may_follow, ne_eq, not_true_eq_false, false_and, iff_false, not_or] at this
    exact this
  · have hlt2 : i + 1 < (tokens_of obj).length := by
      by_contra hge
      rw [List.getElem?_eq_none (by omega)] at hu
      simp at hu
    exact hadj (i + 1) t u (by
      simp only [List.getElem?_cons_succ]
      rw [List.getElem?_append_left hlt]; exact h) (by
      simp only [List.getElem?_cons_succ]
      rw [List.getElem?_append_left hlt2]; exact hu)
  · have hlen : (tokens_of obj).length = i + 1 := by
      have := List.getElem?_eq_none_iff.1 hn
      omega
    have := hadj (i + 1) t ⟨.CLOSE_PAREN, ""⟩ (by
      simp only [List.getElem?_cons_succ]
      rw [List.getElem?_append_left hlt]; exact h) (by
      simp only [List.getElem?_cons_succ]
      rw [List.getElem?_append_right (by omega), hlen]
      simp)
    simp only [may_follow, or_true, true_iff] at this
    exact this

theorem placed_walk_cons (prev : Option PrettyPrinterNode) (n : PrettyPrinterNode)
    (rest : NodeList) :
    placed_walk prev (n :: rest) ↔
      (n.is_line_separator = true →
        n.specialIndentDelta = 0 ∧
        (∃ q t, prev = some q ∧ q.is_line_separator = false ∧ q.tok = some t ∧
          t.kind ≠ .WHITESPACE ∧ t.kind ≠ .OPEN_PAREN) ∧
        (∃ m post, rest = m :: post ∧ m.is_line_separator = false)) ∧
      placed_walk (some n) rest := Iff.rfl

/-- In front of a token it does not matter which node comes before. -/
theorem placed_walk_token {prev prev1 : Option PrettyPrinterNode} {n : PrettyPrinterNode}
    {rest : NodeList} (hn : n.is_line_separator = false) (h : placed_walk prev (n :: rest)) :
    placed_walk prev1 (n :: rest) := by
  rw [placed_walk_cons] at h ⊢
  exact ⟨fun hs => by rw [hn] at hs; simp at hs, h.2⟩

/-- Only the token and the separator flag of the node before count. -/
theorem placed_walk_prev {n n1 : PrettyPrinterNode} (hc : same_core n n1) :
    ∀ {l : NodeList}, placed_walk (some n) l → placed_walk (some n1) l := by
  intro l h
  cases l with
  | nil => trivial
  | cons a rest =>
    rw [placed_walk_cons] at h ⊢
    refine ⟨fun hs => ?_, h.2⟩
    obtain ⟨g1, ⟨q, t, e, g2, g3, g4⟩, g5⟩ := h.1 hs
    simp only [Option.some.injEq] at e
    subst e
    exact ⟨g1, ⟨n1, t, rfl, by rw [hc.2.2.1]; exact g2, by rw [hc.2.1]; exact g3, g4⟩, g5⟩

/-- Behind a separator, the first node of the new list is a token. -/
theorem Places.head_token {b m : PrettyPrinterNode} {s s1 : NodeList}
    (h : Places (some b) (m :: s) s1) (hb : b.is_line_separator = true)
    (hm : m.is_line_separator = false) :
    ∃ m1 post, s1 = m1 :: post ∧ m1.is_line_separator = false := by
  cases h with
  | keep hc _ => exact ⟨_, _, rfl, by rw [hc.2.2.1]; exact hm⟩
  | ins hq _ _ _ _ _ => rw [hb] at hq; simp at hq

/-- The splices of `Places` keep the separators well placed. -/
theorem Places.placed_walk {prev : Option PrettyPrinterNode} {s s1 : NodeList}
    (h : Places prev s s1) : placed_walk prev s → placed_walk prev s1 := by
  induction h with
  | nil => intro _; trivial
  | keep hc hrest ih =>
    rename_i prev n n1 s s1
    intro hp
    rw [placed_walk_cons] at hp ⊢
    have hrec := ih (placed_walk_prev hc hp.2)
    refine ⟨fun hs => ?_, hrec⟩
    obtain ⟨g1, g2, m, post, e, hm⟩ := hp.1 (by rw [← hc.2.2.1]; exact hs)
    subst e
    exact ⟨by rw [hc.2.2.2.2]; exact g1, g2, hrest.head_token hs hm⟩
  | ins hq hk hm hb hd hrest ih =>
    rename_i q b m s s1
    intro hp
    rw [placed_walk_cons]
    obtain ⟨t, ht, hk1, hk2⟩ := hk
    exact ⟨fun _ => ⟨hd, ⟨q, t, rfl, hq, ht, hk1, hk2⟩, hrest.head_token hb hm⟩,
      ih (placed_walk_token hm hp)⟩

theorem Places.unchanged : ∀ (l : NodeList) (prev : Option PrettyPrinterNode), Places prev l l := by
  intro l
  induction l with
  | nil => intro prev; exact .nil
  | cons a l ih => intro prev; exact .keep (same_core_refl _) (ih _)

/-- A part that is kept in front of a part with splices. -/
theorem Places.prepend {x : PrettyPrinterNode} {B B1 : NodeList}
    (h : Places (some x) B B1) :
    ∀ (A : NodeList) (prev : Option PrettyPrinterNode),
      Places prev (A ++ x :: B) (A ++ x :: B1) := by
  intro A
  induction A with
  | nil => intro prev; exact .keep (same_core_refl _) h
  | cons a A ih => intro prev; exact .keep (same_core_refl _) (ih _)

theorem getLast_snoc (X : NodeList) (b : PrettyPrinterNode) : (X ++ [b]).getLast? = some b := by
  simp

/-- The splice of `insertNewlineAfter` with no extra indent, at a token that is neither
whitespace nor an open paren. -/
theorem splice_after_places (fresh : Nat) (p : Nat) :
    ∀ (l : NodeList) (prev : Option PrettyPrinterNode),
      (∀ n, node_at l p = some n → n.is_line_separator = false ∧
        ∃ t, n.tok = some t ∧ t.kind ≠ .WHITESPACE ∧ t.kind ≠ .OPEN_PAREN) →
      Places prev l (splice_after fresh 0 l p) := by
  intro l
  induction l with
  | nil => intro prev _; exact .nil
  | cons a rest ih =>
    intro prev hp
    by_cases ha : a.id = p
    · obtain ⟨ha1, hk⟩ := hp a (by simp [node_at, ha])
      cases rest with
      | nil => simp only [splice_after, ha, if_true]; exact Places.unchanged _ _
      | cons b rest1 =>
        simp only [splice_after, ha, if_true]
        split
        · exact Places.unchanged _ _
        · rename_i hb
          have hb1 : b.is_line_separator = false := by simpa using hb
          exact .keep (same_core_refl _) (.ins ha1 hk hb1 rfl rfl (Places.unchanged _ _))
    · simp only [splice_after, ha, if_false]
      refine .keep (same_core_refl _) (ih _ (fun n hn => hp n ?_))
      have hb : (a.id == p) = false := by simpa using ha
      simpa [node_at, List.find?_cons, hb] using hn

/-- The second loop of `propagatePretty` splices nothing in. -/
theorem propagate_offsets_places (w : Int) :
    ∀ (rest : NodeList) (prev : Option PrettyPrinterNode) (st : OffsetState) (r : NodeList)
      (rv : Option Nat) (prev1 : Option PrettyPrinterNode),
      propagate_offsets w prev st rest = .ok (r, rv) → Places prev1 rest r := by
  intro rest
  induction rest with
  | nil =>
    intro prev st r rv prev1 h
    simp only [propagate_offsets, Except.ok.injEq, Prod.mk.injEq] at h
    obtain ⟨h1, _⟩ := h
    subst h1
    exact .nil
  | cons n rest ih =>
    intro prev st r rv prev1 h
    simp only [propagate_offsets] at h
    repeat' split at h
    all_goals first
      | (simp at h; done)
      | (simp only [Except.ok.injEq, Prod.mk.injEq] at h
         obtain ⟨h1, h2⟩ := h
         subst h1
         exact .keep ⟨rfl, rfl, rfl, rfl, rfl⟩ (ih _ _ _ _ _ (by assumption)))

/-- The first loop of `propagatePretty` splices separators in around close parens only:
behind the token before a close paren, which is neither whitespace nor an open paren, and
behind the close paren. -/
theorem propagate_lines_places {obj : Object} (hs : supported obj)
    {links : List (Option Nat)} :
    ∀ (rest : NodeList) (fresh : Nat) (pre : NodeList) (line : Int) (r : NodeList) (a : Nat),
      laid (tokens_of obj) links a rest →
      (∀ q, pre.getLast? = some q → q.is_line_separator = false →
        ∃ t, q.tok = some t ∧ 0 < a ∧ (tokens_of obj)[a - 1]? = some t) →
      propagate_lines fresh pre line rest = .ok r →
      ∃ r1, r = pre ++ r1 ∧ Places pre.getLast? rest r1 := by
  intro rest
  induction rest with
  | nil =>
    intro fresh pre line r a _ _ h
    simp [propagate_lines] at h
    subst h
    exact ⟨[], by simp, .nil⟩
  | cons n rest ih =>
    intro fresh pre line r a hl hprev h
    obtain ⟨f1, f2⟩ := laid_cons hl
    cases hsep : n.is_line_separator with
    | true =>
      rw [propagate_lines, if_pos hsep] at h
      obtain ⟨r1, e1, hP⟩ := ih _ _ _ _ a (f1 hsep).2
        (fun q hq hqs => by
          rw [getLast_snoc, Option.some.injEq] at hq
          rw [← hq, hsep] at hqs
          simp at hqs) h
      refine ⟨n :: r1, by simp [e1], .keep (same_core_refl _) ?_⟩
      simpa [getLast_snoc] using hP
    | false =>
      obtain ⟨g1, g2, g3, g4, g5⟩ := f2 hsep
      obtain ⟨t, ht⟩ := getElem?_some_of_lt g2
      rw [ht] at g3
      have hn1s : ({ n with line := line } : PrettyPrinterNode).is_line_separator = false := hsep
      have ht1 : tok_of ({ n with line := line } : PrettyPrinterNode) = .ok t := by
        simp [tok_of, g3]
      -- what holds for a list that ends with the node
      have hlast : ∀ (X : NodeList) (q : PrettyPrinterNode),
          (X ++ [({ n with line := line } : PrettyPrinterNode)]).getLast? = some q →
          q.is_line_separator = false →
          ∃ t, q.tok = some t ∧ 0 < a + 1 ∧ (tokens_of obj)[a + 1 - 1]? = some t := by
        intro X q hq _
        rw [getLast_snoc, Option.some.injEq] at hq
        subst hq
        exact ⟨t, g3, by omega, by simpa using ht⟩
      have hlast_sep : ∀ (X : NodeList) (b q : PrettyPrinterNode),
          b.is_line_separator = true → (X ++ [b]).getLast? = some q →
          q.is_line_separator = false →
          ∃ t, q.tok = some t ∧ 0 < a + 1 ∧ (tokens_of obj)[a + 1 - 1]? = some t := by
        intro X b q hb hq hqs
        rw [getLast_snoc, Option.some.injEq] at hq
        rw [← hq, hb] at hqs
        simp at hqs
      -- the step that appends the node and goes on
      have plain : propagate_lines fresh (pre ++ [{ n with line := line }]) line rest = .ok r →
          ∃ r1, r = pre ++ r1 ∧ Places pre.getLast? (n :: rest) r1 := by
        intro h
        obtain ⟨r1, e1, hP⟩ := ih _ _ _ _ (a + 1) g5 (hlast pre) h
        refine ⟨{ n with line := line } :: r1, by simp [e1],
          .keep (same_core_set_line _ _) ?_⟩
        simpa [getLast_snoc] using hP
      rw [propagate_lines, if_neg (by simp [hsep])] at h
      simp only [ht1] at h
      by_cases hk : t.kind = .CLOSE_PAREN
      · simp only [hk, if_true] at h
        split at h
        · simp at h
        · rename_i po hpo
          split at h
          · -- the close paren is put on a line of its own
            have hclose : ∃ u, ({ n with line := line } : PrettyPrinterNode).tok = some u ∧
                u.kind ≠ .WHITESPACE ∧ u.kind ≠ .OPEN_PAREN :=
              ⟨t, g3, by rw [hk]; decide, by rw [hk]; decide⟩
            -- the part behind the close paren
            have tail : ∀ (X : NodeList) (f : Nat) (L : Int),
                (match rest with
                  | [] => (Except.ok (X ++ [({ n with line := line } : PrettyPrinterNode)]) :
                      Except Err NodeList)
                  | m :: _ =>
                    if m.is_line_separator = true then
                      propagate_lines f (X ++ [({ n with line := line } : PrettyPrinterNode)])
                        L rest
                    else
                      propagate_lines (f + 1)
                        (X ++ [({ n with line := line } : PrettyPrinterNode),
                          new_separator f 0]) (L + 1) rest) = .ok r →
                ∃ Y, r = X ++ ({ n with line := line } : PrettyPrinterNode) :: Y ∧
                  Places (some ({ n with line := line } : PrettyPrinterNode)) rest Y := by
              intro X f L h
              cases rest with
              | nil =>
                simp only [Except.ok.injEq] at h
                exact ⟨[], h.symm, .nil⟩
              | cons m rest1 =>
                simp only at h
                split at h
                · obtain ⟨r1, e1, hP⟩ := ih _ _ _ _ (a + 1) g5 (hlast X) h
                  exact ⟨r1, by rw [e1]; simp, by simpa [getLast_snoc] using hP⟩
                · rename_i hm
                  have hm1 : m.is_line_separator = false := by simpa using hm
                  have e0 : X ++ [({ n with line := line } : PrettyPrinterNode),
                      new_separator f 0]
                      = (X ++ [({ n with line := line } : PrettyPrinterNode)]) ++
                        [new_separator f 0] := by simp
                  rw [e0] at h
                  obtain ⟨r1, e1, hP⟩ := ih _ _ _ _ (a + 1) g5
                    (hlast_sep _ _ · rfl) h
                  refine ⟨new_separator f 0 :: r1, by rw [e1]; simp, ?_⟩
                  exact .ins hn1s hclose hm1 rfl rfl (by simpa [getLast_snoc] using hP)
            cases hpre : pre.getLast? with
            | none =>
              simp only [hpre, Bool.false_eq_true, if_false] at h
              obtain ⟨Y, e, hP⟩ := tail pre fresh line h
              exact ⟨_ :: Y, e, .keep (same_core_set_line _ _) hP⟩
            | some q =>
              simp only [hpre] at h
              cases hqs : q.is_line_separator with
              | true =>
                simp only [hqs, Bool.not_true, Bool.false_eq_true, if_false] at h
                obtain ⟨Y, e, hP⟩ := tail pre fresh line h
                exact ⟨_ :: Y, e, .keep (same_core_set_line _ _) hP⟩
              | false =>
                simp only [hqs, Bool.not_false, if_true] at h
                obtain ⟨Y, e, hP⟩ := tail (pre ++ [new_separator fresh 0]) (fresh + 1)
                  (line + 1) h
                obtain ⟨u, hu, ha0, hua⟩ := hprev q hpre hqs
                have hfol := (token_grammar hs (a - 1) u hua).2.1 t (by
                  rw [show a - 1 + 1 = a by omega]; exact ht)
                have hqk : u.kind ≠ .WHITESPACE ∧ u.kind ≠ .OPEN_PAREN :=
                  hfol.1 (Or.inr hk)
                refine ⟨new_separator fresh 0 ::
                  ({ n with line := line } : PrettyPrinterNode) :: Y, by rw [e]; simp, ?_⟩
                exact .ins hqs ⟨u, hu, hqk.1, hqk.2⟩ hsep rfl rfl
                  (.keep (same_core_set_line _ _) hP)
          · exact plain h
      · simp only [hk, if_false] at h
        exact plain h

/-- The walk of `breakList` splices separators in behind atoms and behind the close parens
of nested lists only. -/
theorem breakList_walk_places {obj : Object} (hs : supported obj) (s0 : NodeList)
    (rp first_elt : Option Nat) :
    ∀ (l : NodeList) (a fresh : Nat) (breaking : Bool) (jump : Option Nat)
      (prev : Option PrettyPrinterNode) (r : NodeList),
      laid (tokens_of obj) (links_of obj 0 none) a l →
      (∀ tg, jump = some tg → tg < (tokens_of obj).length ∧
        (tokens_of obj)[tg]? = some ⟨.CLOSE_PAREN, ""⟩) →
      breakList_walk s0 rp first_elt fresh breaking jump l = .ok r → Places prev l r := by
  intro l
  induction l with
  | nil =>
    intro a fresh breaking jump prev r _ _ h
    cases jump <;> simp [breakList_walk] at h
    subst h; exact .nil
  | cons n rest ih =>
    intro a fresh breaking jump prev r hl hj h
    obtain ⟨f1, f2⟩ := laid_cons hl
    -- the walk goes on behind the node
    have hrest : ∀ a1, (n.is_line_separator = true → a1 = a) →
        (n.is_line_separator = false → a1 = a + 1) →
        laid (tokens_of obj) (links_of obj 0 none) a1 rest := by
      intro a1 h1 h2
      cases hsep : n.is_line_separator with
      | true => rw [h1 hsep]; exact (f1 hsep).2
      | false => rw [h2 hsep]; exact (f2 hsep).2.2.2.2
    obtain ⟨a1, ha1, ha2⟩ : ∃ a1, (n.is_line_separator = true → a1 = a) ∧
        (n.is_line_separator = false → a1 = a + 1) := by
      cases n.is_line_separator with
      | true => exact ⟨a, fun _ => rfl, fun h => by simp at h⟩
      | false => exact ⟨a + 1, fun h => by simp at h, fun _ => rfl⟩
    have hl1 := hrest a1 ha1 ha2
    have hnone : ∀ tg, (none : Option Nat) = some tg → tg < (tokens_of obj).length ∧
        (tokens_of obj)[tg]? = some ⟨.CLOSE_PAREN, ""⟩ := fun tg e => by simp at e
    cases jump with
    | some target =>
      by_cases hid : n.id = target
      · obtain ⟨hT, hc⟩ := hj target rfl
        have hreal : n.is_line_separator = false := by
          cases hsep : n.is_line_separator with
          | false => rfl
          | true => have := (f1 hsep).1; omega
        obtain ⟨g1, g2, g3, g4, g5⟩ := f2 hreal
        have hok : ∃ t, n.tok = some t ∧ t.kind ≠ .WHITESPACE ∧ t.kind ≠ .OPEN_PAREN := by
          refine ⟨⟨.CLOSE_PAREN, ""⟩, ?_, by decide, by decide⟩
          rw [g3, ← g1, hid]; exact hc
        cases rest with
        | nil =>
          simp only [breakList_walk, hid, if_true, Except.ok.injEq] at h
          subst h
          exact Places.unchanged _ _
        | cons m rest1 =>
          simp only [breakList_walk, hid, if_true] at h
          split at h
          · rename_i hcond
            have hm : m.is_line_separator = false := by
              simp only [Bool.and_eq_true, Bool.not_eq_true'] at hcond
              exact hcond.2
            split at h
            · simp at h
            · rename_i r1 hr1
              simp only [Except.ok.injEq] at h
              subst h
              exact .keep (same_core_refl _) (.ins hreal hok hm rfl rfl
                (ih _ _ _ _ _ _ hl1 hnone hr1))
          · split at h
            · simp at h
            · rename_i r1 hr1
              simp only [Except.ok.injEq] at h
              subst h
              exact .keep (same_core_refl _) (ih _ _ _ _ _ _ hl1 hnone hr1)
      · simp only [breakList_walk, hid, if_false] at h
        split at h
        · simp at h
        · rename_i r1 hr1
          simp only [Except.ok.injEq] at h
          subst h
          exact .keep (same_core_refl _) (ih _ _ _ _ _ _ hl1 hj hr1)
    | none =>
      by_cases hstop : some n.id = rp
      · simp only [breakList_walk, hstop, if_true, Except.ok.injEq] at h
        subst h
        exact Places.unchanged _ _
      · cases hsep : n.is_line_separator with
        | true =>
          simp only [breakList_walk, hstop, if_false, hsep, if_true] at h
          split at h
          · simp at h
          · rename_i r1 hr1
            simp only [Except.ok.injEq] at h
            subst h
            exact .keep (same_core_refl _) (ih _ _ _ _ _ _ hl1 hnone hr1)
        | false =>
          have hreal := hsep
          obtain ⟨g1, g2, g3, g4, g5⟩ := f2 hreal
          obtain ⟨t, hta⟩ := getElem?_some_of_lt g2
          have htok : n.tok = some t := by rw [g3]; exact hta
          have ht : tok_of n = .ok t := by simp [tok_of, htok]
          simp only [breakList_walk, hstop, if_false, hsep, Bool.false_eq_true, ht] at h
          generalize (if some n.id = first_elt then true else breaking) = b1 at h
          by_cases hopen : t.kind = .OPEN_PAREN
          · simp only [hopen, if_true] at h
            split at h
            · simp at h
            · rename_i cl hcl
              split at h
              · simp at h
              · rename_i ct hct
                split at h
                · split at h
                  · simp at h
                  · rename_i r1 hr1
                    simp only [Except.ok.injEq] at h
                    subst h
                    refine .keep (same_core_refl _) (ih _ _ _ _ _ _ hl1 ?_ hr1)
                    intro tg e
                    simp only [Option.some.injEq] at e
                    subst e
                    obtain ⟨c, k1, k2, k3, _⟩ := open_link_partner obj hs 0 none a t hta hopen
                    simp only [Nat.zero_add] at k1
                    rw [k1] at g4
                    simp only [Option.some.injEq] at g4
                    obtain ⟨j, e1, e2⟩ := deref_ok hcl
                    rw [← g4] at e1
                    simp only [Option.some.injEq] at e1
                    rw [node_at_id e2, ← e1]
                    refine ⟨?_, k3⟩
                    by_contra hge
                    rw [List.getElem?_eq_none (by omega)] at k3
                    simp at k3
                · simp at h
          · simp only [hopen, if_false] at h
            by_cases hws : t.kind = .WHITESPACE
            · simp only [hws, ne_eq, not_true_eq_false, if_false] at h
              split at h
              · simp at h
              · rename_i r1 hr1
                simp only [Except.ok.injEq] at h
                subst h
                exact .keep (same_core_refl _) (ih _ _ _ _ _ _ hl1 hnone hr1)
            · simp only [ne_eq, hws, not_false_eq_true, if_true] at h
              by_cases hcl : t.kind = .CLOSE_PAREN
              · simp [hcl] at h
              · simp only [hcl, if_false] at h
                have hok : ∃ t, n.tok = some t ∧ t.kind ≠ .WHITESPACE ∧
                    t.kind ≠ .OPEN_PAREN := ⟨t, htok, hws, hopen⟩
                cases rest with
                | nil =>
                  simp only [Except.ok.injEq] at h
                  subst h
                  exact Places.unchanged _ _
                | cons m rest1 =>
                  simp only at h
                  split at h
                  · rename_i hcond
                    have hm : m.is_line_separator = false := by
                      simp only [Bool.and_eq_true, Bool.not_eq_true'] at hcond
                      exact hcond.2
                    split at h
                    · simp at h
                    · rename_i r1 hr1
                      simp only [Except.ok.injEq] at h
                      subst h
                      exact .keep (same_core_refl _) (.ins hreal hok hm rfl rfl
                        (ih _ _ _ _ _ _ hl1 hnone hr1))
                  · split at h
                    · simp at h
                    · rename_i r1 hr1
                      simp only [Except.ok.injEq] at h
                      subst h
                      exact .keep (same_core_refl _) (ih _ _ _ _ _ _ hl1 hnone hr1)

theorem placed_walk_of_tokens : ∀ (l : NodeList) (prev : Option PrettyPrinterNode),
    (∀ n ∈ l, n.is_line_separator = false) → placed_walk prev l := by
  intro l
  induction l with
  | nil => intro _ _; trivial
  | cons a l ih =>
    intro prev h
    rw [placed_walk_cons]
    exact ⟨fun hs => by rw [h a (by simp)] at hs; simp at hs,
      ih _ (fun n hn => h n (List.mem_cons_of_mem _ hn))⟩

theorem splice_after_first (fresh : Nat) (d : Int) (s : NodeList) (p : Nat) :
    (splice_after fresh d s p).head? = s.head? := by
  cases s with
  | nil => rfl
  | cons a rest =>
    unfold splice_after
    split
    · cases rest with
      | nil => rfl
      | cons b rest1 => simp only; split <;> rfl
    · rfl

theorem head_append_cons (A : NodeList) (x : PrettyPrinterNode) (B C : NodeList) :
    (A ++ x :: B).head? = (A ++ x :: C).head? := by
  cases A <;> rfl

/-- The two `breakList` functions on a list of the call `to_string obj`: the splices keep
the separators well placed, and the first node stays. -/
theorem walk_result_places {obj : Object} (hs : supported obj) {s : NodeList}
    (hl : laid (tokens_of obj) (links_of obj 0 none) 0 s) {leftParen : Option Nat}
    {lp : PrettyPrinterNode} (h1 : breakList_entry s leftParen = .ok lp)
    {rp fe : Option Nat} {b : Bool} {r : NodeList}
    (h3 : breakList_walk s rp fe s.length b none (nodes_after s lp.id) = .ok r) :
    Places none s (nodes_before s lp.id ++ lp :: r) ∧
      (nodes_before s lp.id ++ lp :: r).head? = s.head? := by
  obtain ⟨i, _, hi⟩ := breakList_entry_ok h1
  have hreal := breakList_entry_real h1
  have hid := node_at_id hi
  have hiT : i < (tokens_of obj).length := by
    have := (numbered_from_mem s hl.1).1 lp (node_at_mem hi) hreal
    omega
  obtain ⟨n, hn, _, _, _, _, hla⟩ := laid_node_at hl hiT
  rw [hi] at hn
  simp only [Option.some.injEq] at hn
  subst hn
  have hP := breakList_walk_places hs s rp fe _ _ _ _ _ (some lp) _ hla
    (fun tg e => by simp at e) (hid ▸ h3)
  have hsplit := split_at_node hi
  rw [hid]
  constructor
  · have := hP.prepend (nodes_before s i) none
    rw [hsplit] at this
    exact this
  · conv => rhs; rw [← hsplit]
    exact head_append_cons _ _ _ _

/-- The lists a call passes through come from the list it builds by splices of separators
and new layout fields; their separators are well placed, and their first node is on
line 0. -/
theorem reachable_sound {obj : Object} (hs : supported obj) {s : NodeList}
    (h : reachable obj s) :
    Evolves (build_linked 0 0 (tokens_of obj) (links_of obj 0 none)) s ∧ placed s ∧
      ∀ hd, s.head? = some hd → hd.line = 0 := by
  induction h with
  | start =>
    refine ⟨Evolves.stay _, placed_walk_of_tokens _ _
      (fun n hn => (build_linked_flat _ _ _ _ n hn).1), fun hd hhd => ?_⟩
    exact (build_linked_flat _ _ _ _ hd (List.mem_of_mem_head? hhd)).2
  | newline hr hn ht hk1 hk2 hins ih =>
    rename_i s s1 c n t
    obtain ⟨hE, hP, hH⟩ := ih
    have hl := hE.laid (laid_build_linked hs)
    refine ⟨hE.andThen (insertNewlineAfter_ptr_evolves hins), ?_, ?_⟩
    · have hreal : n.is_line_separator = false := by
        cases hsep : n.is_line_separator with
        | false => rfl
        | true =>
          have := (hl.2.1 n (node_at_mem hn) hsep).2
          rw [ht] at this
          simp at this
      have e : s1 = splice_after s.length 0 s c := by
        simp only [insertNewlineAfter_ptr, deref, hn, Except.ok.injEq] at hins
        rw [← hins, insertNewlineAfter, node_at_id hn]
      rw [e]
      exact (splice_after_places _ _ _ none (fun n2 hn2 => by
        rw [hn] at hn2
        simp only [Option.some.injEq] at hn2
        subst hn2
        exact ⟨hreal, t, ht, hk1, hk2⟩)).placed_walk hP
    · have e : s1 = splice_after s.length 0 s c := by
        simp only [insertNewlineAfter_ptr, deref, hn, Except.ok.injEq] at hins
        rw [← hins, insertNewlineAfter, node_at_id hn]
      intro hd hhd
      rw [e, splice_after_first] at hhd
      exact hH hd hhd
  | broken hr hb ih =>
    rename_i s s1 p
    obtain ⟨hE, hP, hH⟩ := ih
    have hl := hE.laid (laid_build_linked hs)
    refine ⟨hE.andThen (breakList_evolves hb), ?_⟩
    unfold breakList at hb
    obtain ⟨lp, h1, h2⟩ := bind_eq_ok hb
    obtain ⟨r, h3, h4⟩ := bind_eq_ok h2
    simp [pure, Except.pure] at h4
    subst h4
    obtain ⟨g1, g2⟩ := walk_result_places hs hl h1 h3
    exact ⟨g1.placed_walk hP, fun hd hhd => hH hd (by rw [← g2]; exact hhd)⟩
  | broken_from hr hb ih =>
    rename_i s s1 p q
    obtain ⟨hE, hP, hH⟩ := ih
    have hl := hE.laid (laid_build_linked hs)
    refine ⟨hE.andThen (breakList_from_evolves hb), ?_⟩
    unfold breakList_from at hb
    obtain ⟨lp, h1, h2⟩ := bind_eq_ok hb
    obtain ⟨r, h3, h4⟩ := bind_eq_ok h2
    simp [pure, Except.pure] at h4
    subst h4
    obtain ⟨g1, g2⟩ := walk_result_places hs hl h1 h3
    exact ⟨g1.placed_walk hP, fun hd hhd => hH hd (by rw [← g2]; exact hhd)⟩
  | propagated hr hp ih =>
    rename_i s s1 rv w
    obtain ⟨hE, hP, hH⟩ := ih
    have hl := hE.laid (laid_build_linked hs)
    refine ⟨hE.andThen (propagatePretty_evolves hp), ?_, ?_⟩
    · obtain ⟨n, tl, e, hid, hsep⟩ := evolves_head hs hE
      have hp2 := hp
      unfold propagatePretty at hp2
      obtain ⟨l, h1, h2⟩ := bind_eq_ok hp2
      have hln : l = n := by
        rw [e] at h1
        simp only [deref, node_at, List.find?_cons, hid, beq_self_eq_true,
          Except.ok.injEq] at h1
        exact h1.symm
      subst hln
      obtain ⟨sA, h3, h4⟩ := bind_eq_ok h2
      obtain ⟨⟨r, rv1⟩, h5, h6⟩ := bind_eq_ok h4
      simp only [pure, Except.pure, Except.ok.injEq, Prod.mk.injEq] at h6
      obtain ⟨h6, _⟩ := h6
      have hb : nodes_before s l.id = [] := by rw [e]; simp [nodes_before]
      have hf : nodes_from s l.id = s := by rw [e]; simp [nodes_from]
      rw [hb, hf] at h3
      obtain ⟨r1, e1, hPl⟩ := propagate_lines_places hs _ _ _ _ _ 0 hl
        (fun q hq => by simp at hq) h3
      simp only [List.nil_append] at e1
      subst e1
      obtain ⟨tl1, er⟩ : ∃ tl1, sA = { l with line := l.line } :: tl1 := by
        rw [e] at h3
        exact propagate_lines_first hsep h3
      have hb1 : nodes_before sA l.id = [] := by rw [er]; simp [nodes_before]
      have hf1 : nodes_from sA l.id = sA := by rw [er]; simp [nodes_from]
      rw [hb1, hf1] at h5
      rw [hb1, List.nil_append] at h6
      subst h6
      have hPo := propagate_offsets_places w _ _ _ _ _ none h5
      exact hPo.placed_walk (hPl.placed_walk hP)
    · obtain ⟨s1x, rv1x, px, _, hh⟩ := propagatePretty_settles hs hE w
      rw [hp] at px
      simp only [Except.ok.injEq, Prod.mk.injEq] at px
      obtain ⟨px1, _⟩ := px
      subst px1
      intro hd hhd
      obtain ⟨n, tl, e, _, _⟩ := evolves_head hs hE
      obtain ⟨hd1, k1, k2⟩ := hh n (by rw [e]; rfl)
      rw [hhd] at k1
      simp only [Option.some.injEq] at k1
      subst k1
      rw [k2]
      exact hH n (by rw [e]; rfl)

theorem reachable_laid {obj : Object} (hs : supported obj) {s : NodeList}
    (h : reachable obj s) : laid (tokens_of obj) (links_of obj 0 none) 0 s :=
  (reachable_sound hs h).1.laid (laid_build_linked hs)

theorem reachable_numbered {obj : Object} (hs : supported obj) {s : NodeList}
    (h : reachable obj s) : well_numbered (tokens_of obj).length s :=
  (reachable_sound hs h).1.well_numbered (well_numbered_build_linked hs)

/-- A separator put behind the token with the address `f`, which is neither whitespace nor
an open paren. -/
theorem newline_at_atom {obj : Object} (hs : supported obj) {s s1 : NodeList}
    (hr : reachable obj s) {f : Nat} {t : FormToken} (hf : (tokens_of obj)[f]? = some t)
    (hk1 : t.kind ≠ .WHITESPACE) (hk2 : t.kind ≠ .OPEN_PAREN)
    (h : insertNewlineAfter_ptr s (some f) 0 = .ok s1) : reachable obj s1 := by
  have hl := reachable_laid hs hr
  have hfT : f < (tokens_of obj).length := by
    by_contra hge
    rw [List.getElem?_eq_none (by omega)] at hf
    simp at hf
  obtain ⟨n, hn, _, _, htok, _, _⟩ := laid_node_at hl hfT
  exact .newline hr hn (by rw [htok]; exact hf) hk1 hk2 h

/-- A separator put behind the close paren of the list whose open paren has the address
`f`. -/
theorem newline_at_close {obj : Object} (hs : supported obj) {s s1 : NodeList}
    (hr : reachable obj s) {f : Nat} {t : FormToken} (hf : (tokens_of obj)[f]? = some t)
    (hk : t.kind = .OPEN_PAREN) {ptd : PrettyPrinterNode} (hd : deref s (some f) = .ok ptd)
    (h : insertNewlineAfter_ptr s ptd.paren 0 = .ok s1) : reachable obj s1 := by
  have hl := reachable_laid hs hr
  have hfT : f < (tokens_of obj).length := by
    by_contra hge
    rw [List.getElem?_eq_none (by omega)] at hf
    simp at hf
  obtain ⟨n, hn, _, _, _, hlink, _⟩ := laid_node_at hl hfT
  have e : ptd = n := by
    simp only [deref, hn, Except.ok.injEq] at hd
    exact hd.symm
  subst e
  obtain ⟨c, k1, _, k3, _⟩ := open_link_partner obj hs 0 none f t hf hk
  simp only [Nat.zero_add] at k1
  rw [k1] at hlink
  simp only [Option.some.injEq] at hlink
  rw [← hlink] at h
  exact newline_at_atom hs hr k3 (by decide) (by decide) h

theorem fix_line_reach {obj : Object} (w : Int) (c : Option Nat) :
    ∀ (fuel : Nat) (s : NodeList) (f : Option Nat) (s1 : NodeList), reachable obj s →
      fix_line (some 0) w c fuel s f = .ok s1 → reachable obj s1 := by
  intro fuel
  induction fuel with
  | zero => intro s f s1 _ h; simp [fix_line] at h
  | succ fuel ih =>
    intro s f s1 hr h
    cases f with
    | none => simp [fix_line] at h; subst h; exact hr
    | some i =>
      simp only [fix_line] at h
      obtain ⟨sa, h1, h2⟩ := bind_eq_ok h
      obtain ⟨⟨sb, rv⟩, h3, h4⟩ := bind_eq_ok h2
      obtain ⟨bad, h5, h6⟩ := bind_eq_ok h4
      have E : reachable obj sb := .propagated (.broken hr h1) h3
      simp only at h6
      split at h6
      · simp [pure, Except.pure] at h6; subst h6; exact E
      · obtain ⟨nx, h7, h8⟩ := bind_eq_ok h6
        split at h8
        · simp [pure, Except.pure] at h8; subst h8; exact E
        · exact ih _ _ _ E h8

theorem insertBreaks_loop_reach {obj : Object} (w : Int) (inner : Nat) :
    ∀ (fuel : Nat) (s : NodeList) (last start : Option Nat) (s1 : NodeList),
      reachable obj s →
      insertBreaks_loop (some 0) w inner fuel s last start = .ok s1 → reachable obj s1 := by
  intro fuel
  induction fuel with
  | zero => intro s last start s1 _ h; simp [insertBreaks_loop] at h
  | succ fuel ih =>
    intro s last start s1 hr h
    simp only [insertBreaks_loop] at h
    obtain ⟨⟨sa, rv⟩, h1, h2⟩ := bind_eq_ok h
    obtain ⟨cand, h5, h6⟩ := bind_eq_ok h2
    have E : reachable obj sa := .propagated hr h1
    simp only at h6
    split at h6
    · simp [pure, Except.pure] at h6; subst h6; exact E
    · obtain ⟨_, h7, h8⟩ := bind_eq_ok h6
      obtain ⟨f, h9, h10⟩ := bind_eq_ok h8
      obtain ⟨sb, h11, h12⟩ := bind_eq_ok h10
      exact ih _ _ _ _ (fix_line_reach _ _ _ _ _ _ E h11) h12

theorem insertBreaksAsNeeded_reach {obj : Object} {fuel inner : Nat}
    {s s1 : NodeList} {w : Int} (hr : reachable obj s)
    (h : insertBreaksAsNeeded fuel inner s (some 0) w = .ok s1) : reachable obj s1 :=
  insertBreaks_loop_reach _ _ _ _ _ _ _ hr h

theorem break_cond_cases_reach {obj : Object} :
    ∀ (fuel : Nat) (s : NodeList) (c : Option Nat) (s1 : NodeList), reachable obj s →
      break_cond_cases fuel s c = .ok s1 → reachable obj s1 := by
  intro fuel
  induction fuel with
  | zero => intro s c s1 _ h; simp [break_cond_cases] at h
  | succ fuel ih =>
    intro s c s1 hr h
    simp only [break_cond_cases] at h
    obtain ⟨sc, _, h⟩ := bind_eq_ok h
    obtain ⟨st, _, h⟩ := bind_eq_ok h
    obtain ⟨_, _, h⟩ := bind_eq_ok h
    obtain ⟨ec, _, h⟩ := bind_eq_ok h
    obtain ⟨et, _, h⟩ := bind_eq_ok h
    obtain ⟨_, _, h⟩ := bind_eq_ok h
    obtain ⟨sa, h1, h⟩ := bind_eq_ok h
    have E : reachable obj sa := .broken hr h1
    split at h
    · simp [pure, Except.pure] at h; subst h; exact E
    · obtain ⟨nx, _, h⟩ := bind_eq_ok h
      obtain ⟨nt, _, h⟩ := bind_eq_ok h
      split at h
      · simp [pure, Except.pure] at h; subst h; exact E
      · split at h
        · simp [pure, Except.pure] at h; subst h; exact E
        · exact ih _ _ _ E h

theorem special_deftype_reach {obj : Object} (hs : supported obj) {s s1 : NodeList}
    {node : PrettyPrinterNode} (hr : reachable obj s)
    (h : special_deftype s node = .ok s1) : reachable obj s1 := by
  unfold special_deftype at h
  obtain ⟨p, hp, h⟩ := bind_eq_ok h
  split at h
  · simp [pure, Except.pure] at h; subst h; exact hr
  · rename_i f
    obtain ⟨ptd, hd, h⟩ := bind_eq_ok h
    obtain ⟨_, _, _, _, t, ht, hk⟩ := scan_next_on_line_found (reachable_laid hs hr)
      (reachable_numbered hs hr) hp
    simp only [List.mem_singleton] at hk
    exact newline_at_close hs hr ht hk hd h

theorem special_define_break_reach {obj : Object} (hs : supported obj) {s s1 : NodeList}
    {node : PrettyPrinterNode} {first_list : Option Nat} (hr : reachable obj s)
    (hfl : ∀ f, first_list = some f → ∃ t, (tokens_of obj)[f]? = some t ∧
      (t.kind = .OPEN_PAREN ∨ t.kind = .EMPTY_PAIR))
    (h : special_define_break s node first_list = .ok s1) : reachable obj s1 := by
  unfold special_define_break at h
  split at h
  · simp [pure, Except.pure] at h; subst h; exact hr
  · rename_i f
    obtain ⟨t, ht, hk⟩ := hfl f rfl
    have hl := reachable_laid hs hr
    have hfT : f < (tokens_of obj).length := by
      by_contra hge
      rw [List.getElem?_eq_none (by omega)] at ht
      simp at ht
    obtain ⟨n, hn, _, _, htok, _, _⟩ := laid_node_at hl hfT
    obtain ⟨fl, hd, h⟩ := bind_eq_ok h
    have e : fl = n := by
      simp only [deref, hn, Except.ok.injEq] at hd
      exact hd.symm
    obtain ⟨ft, hft, h⟩ := bind_eq_ok h
    have eft : ft = t := by
      rw [e] at hft
      simp only [tok_of, htok, ht, Except.ok.injEq] at hft
      exact hft.symm
    subst eft
    split at h
    · rename_i hempty
      obtain ⟨sa, h1, h⟩ := bind_eq_ok h
      exact .broken_from (newline_at_atom hs hr ht (by rw [hempty]; decide)
        (by rw [hempty]; decide) h1) h
    · rename_i hne
      obtain ⟨sa, h1, h⟩ := bind_eq_ok h
      have hopen : ft.kind = .OPEN_PAREN := by
        rcases hk with hk | hk
        · exact hk
        · exact absurd hk hne
      exact .broken_from (newline_at_close hs hr ht hopen hd h1) h

theorem special_let_reach {obj : Object} {s s1 : NodeList} {node : PrettyPrinterNode}
    {first_list : Option Nat} (hr : reachable obj s)
    (h : special_let s node first_list = .ok s1) : reachable obj s1 := by
  unfold special_let at h
  split at h
  · simp [pure, Except.pure] at h; subst h; exact hr
  · obtain ⟨_, _, h⟩ := bind_eq_ok h
    obtain ⟨_, _, h⟩ := bind_eq_ok h
    obtain ⟨sa, h1, h⟩ := bind_eq_ok h
    have E : reachable obj sa := by
      split at h1
      · obtain ⟨sv, _, h1⟩ := bind_eq_ok h1
        split at h1
        · exact .broken hr h1
        · simp [pure, Except.pure] at h1; subst h1; exact hr
      · simp [pure, Except.pure] at h1; subst h1; exact hr
    simp only at h
    split at h
    · simp [pure, Except.pure] at h; subst h; exact E
    · obtain ⟨_, _, h⟩ := bind_eq_ok h
      obtain ⟨_, _, h⟩ := bind_eq_ok h
      split at h
      · split at h
        · simp [pure, Except.pure] at h; subst h; exact E
        · obtain ⟨_, _, h⟩ := bind_eq_ok h
          exact .broken_from E h
      · simp [pure, Except.pure] at h; subst h; exact E

theorem special_control_flow_reach {obj : Object} (hs : supported obj) {s s1 : NodeList}
    {node : PrettyPrinterNode} (hr : reachable obj s)
    (h : special_control_flow s node = .ok s1) : reachable obj s1 := by
  unfold special_control_flow at h
  obtain ⟨p, hp, h⟩ := bind_eq_ok h
  split at h
  · simp [pure, Except.pure] at h; subst h; exact hr
  · rename_i f
    obtain ⟨_, _, _, hfT, t, ht, hk⟩ := scan_next_on_line_found (reachable_laid hs hr)
      (reachable_numbered hs hr) hp
    obtain ⟨n, hn, _, _, htok, _, _⟩ := laid_node_at (reachable_laid hs hr) hfT
    obtain ⟨ptd, hd, h⟩ := bind_eq_ok h
    have e : ptd = n := by
      simp only [deref, hn, Except.ok.injEq] at hd
      exact hd.symm
    obtain ⟨pt, hpt, h⟩ := bind_eq_ok h
    have ept : pt = t := by
      rw [e] at hpt
      simp only [tok_of, htok, ht, Except.ok.injEq] at hpt
      exact hpt.symm
    subst ept
    obtain ⟨sa, h1, h⟩ := bind_eq_ok h
    have E : reachable obj sa := by
      split at h1
      · rename_i hopen
        obtain ⟨_, h2, h1⟩ := bind_eq_ok h1
        exact .broken_from (newline_at_close hs hr ht hopen hd h2) h1
      · rename_i hne
        obtain ⟨_, h2, h1⟩ := bind_eq_ok h1
        have hstr : pt.kind = .STRING := by
          simp only [List.mem_cons, List.mem_singleton, List.not_mem_nil, or_false] at hk
          rcases hk with hk | hk
          · exact hk
          · exact absurd hk hne
        exact .broken_from (newline_at_atom hs hr ht (by rw [hstr]; decide)
          (by rw [hstr]; decide) h2) h1
    simp only at h
    split at h
    · simp [pure, Except.pure] at h; subst h; exact E
    · obtain ⟨_, _, h⟩ := bind_eq_ok h
      obtain ⟨_, _, h⟩ := bind_eq_ok h
      split at h
      · split at h
        · obtain ⟨_, _, h⟩ := bind_eq_ok h
          obtain ⟨_, _, h⟩ := bind_eq_ok h
          split at h
          · simp [pure, Except.pure] at h; subst h; exact E
          · split at h
            · exact .broken_from E h
            · simp [pure, Except.pure] at h; subst h; exact E
        · simp [pure, Except.pure] at h; subst h; exact E
      · simp [pure, Except.pure] at h; subst h; exact E

theorem special_cond_reach {obj : Object} {fuel : Nat} {s s1 : NodeList}
    {node : PrettyPrinterNode} (hr : reachable obj s)
    (h : special_cond fuel s node = .ok s1) : reachable obj s1 := by
  unfold special_cond at h
  obtain ⟨p, _, h⟩ := bind_eq_ok h
  obtain ⟨sa, h1, h⟩ := bind_eq_ok h
  exact .broken (break_cond_cases_reach _ _ _ _ hr h1) h

theorem special_define_reach {obj : Object} (hs : supported obj) {s s1 : NodeList}
    {node : PrettyPrinterNode} {name : String} (hr : reachable obj s)
    (h : special_define s node name = .ok s1) : reachable obj s1 := by
  unfold special_define at h
  obtain ⟨fl, hfl, h⟩ := bind_eq_ok h
  obtain ⟨se, h5, h⟩ := bind_eq_ok h
  have E : reachable obj se := by
    refine special_define_break_reach hs hr (fun f hf => ?_) h5
    subst hf
    obtain ⟨_, _, _, _, t, ht, hk⟩ := scan_next_on_line_found (reachable_laid hs hr)
      (reachable_numbered hs hr) hfl
    simp only [List.mem_cons, List.mem_singleton, List.not_mem_nil, or_false] at hk
    exact ⟨t, ht, hk⟩
  split at h
  · exact special_let_reach E h
  · simp [pure, Except.pure] at h; subst h; exact E

theorem special_breaks_at_reach {obj : Object} (hs : supported obj) {fuel : Nat}
    {s s1 : NodeList} {p : Nat} (hr : reachable obj s)
    (h : special_breaks_at fuel s p = .ok s1) : reachable obj s1 := by
  unfold special_breaks_at at h
  obtain ⟨node, _, h⟩ := bind_eq_ok h
  split at h
  · simp [pure, Except.pure] at h; subst h; exact hr
  · obtain ⟨t, _, h⟩ := bind_eq_ok h
    split at h
    · simp [pure, Except.pure] at h; subst h; exact hr
    · obtain ⟨sa, h1, h⟩ := bind_eq_ok h
      obtain ⟨sb, h2, h⟩ := bind_eq_ok h
      obtain ⟨sc, h3, h⟩ := bind_eq_ok h
      obtain ⟨sd, h4, h⟩ := bind_eq_ok h
      have E1 : reachable obj sa := by
        split at h1
        · exact special_deftype_reach hs hr h1
        · simp [pure, Except.pure] at h1; subst h1; exact hr
      have E2 : reachable obj sb := by
        split at h2
        · exact .broken E1 h2
        · simp [pure, Except.pure] at h2; subst h2; exact E1
      have E3 : reachable obj sc := by
        split at h3
        · exact special_define_reach hs E2 h3
        · simp [pure, Except.pure] at h3; subst h3; exact E2
      have E4 : reachable obj sd := by
        split at h4
        · exact special_control_flow_reach hs E3 h4
        · simp [pure, Except.pure] at h4; subst h4; exact E3
      split at h
      · exact special_cond_reach E4 h
      · simp [pure, Except.pure] at h; subst h; exact E4

theorem insertSpecialBreaks_loop_reach {obj : Object} (hs : supported obj) (fuel : Nat) :
    ∀ (todo : List Nat) (s s1 : NodeList), reachable obj s →
      insertSpecialBreaks_loop fuel s todo = .ok s1 → reachable obj s1 := by
  intro todo
  induction todo with
  | nil => intro s s1 hr h; simp [insertSpecialBreaks_loop] at h; subst h; exact hr
  | cons p todo ih =>
    intro s s1 hr h
    simp only [insertSpecialBreaks_loop] at h
    split at h
    · simp at h
    · next sa ha => exact ih _ _ (special_breaks_at_reach hs hr ha) h

theorem insertSpecialBreaks_reach {obj : Object} (hs : supported obj) {fuel : Nat}
    {s s1 : NodeList} {node : Option Nat} (hr : reachable obj s)
    (h : insertSpecialBreaks fuel s node = .ok s1) : reachable obj s1 := by
  unfold insertSpecialBreaks at h
  split at h
  · simp at h; subst h; exact hr
  · exact insertSpecialBreaks_loop_reach hs _ _ _ _ hr h

/-- The passes of `to_string` when it returns, with the lists between them. -/
theorem to_string_reach {obj : Object} {w : Int} {out : String}
    (h : to_string obj w = .ok out) :
    supported obj ∧ ∃ s2 s3 rv s4,
      insertSpecialBreaks (loop_fuel (tokens_of obj))
        (build_linked 0 0 (tokens_of obj) (links_of obj 0 none)) (some 0) = .ok s2 ∧
      propagatePretty s2 (some 0) w = .ok (s3, rv) ∧
      insertBreaksAsNeeded (loop_fuel (tokens_of obj)) (loop_fuel (tokens_of obj)) s3 (some 0) w
        = .ok s4 ∧
      render true s4 = .ok out ∧ reachable obj s2 ∧ reachable obj s3 ∧ reachable obj s4 := by
  unfold to_string at h
  obtain ⟨toks, h1, h⟩ := bind_eq_ok h
  obtain ⟨_, _, h⟩ := bind_eq_ok h
  obtain ⟨⟨s1, st⟩, h2, h⟩ := bind_eq_ok h
  dsimp only at h
  obtain ⟨_, _, h⟩ := bind_eq_ok h
  obtain ⟨_, _, h⟩ := bind_eq_ok h
  obtain ⟨s2, h3, h⟩ := bind_eq_ok h
  obtain ⟨⟨s3, rv⟩, h4, h⟩ := bind_eq_ok h
  dsimp only at h
  obtain ⟨s4, h5, hr⟩ := bind_eq_ok h
  clear h
  obtain ⟨e, hs⟩ := add_to_token_list_spec _ _ _ h1
  simp only [List.nil_append] at e
  subst e
  rw [attach_parens_spec hs] at h2
  simp only [Except.ok.injEq, Prod.mk.injEq] at h2
  obtain ⟨e1, _⟩ := h2
  subst e1
  have r2 := insertSpecialBreaks_reach hs .start h3
  have r3 : reachable obj s3 := .propagated r2 h4
  exact ⟨hs, s2, s3, rv, s4, h3, h4, h5, hr, r2, r3, insertBreaksAsNeeded_reach r3 h5⟩

/-- In a list a call passes through, told along a part of it that holds the tokens from
the address `a` on: a separator stands behind a token that is no whitespace and before a
whitespace or a close paren, and a whitespace stands before a token that is no
whitespace. -/
theorem separators_walk {obj : Object} (hs : supported obj) {links : List (Option Nat)} :
    ∀ (l : NodeList) (a : Nat) (prev : Option PrettyPrinterNode),
      laid (tokens_of obj) links a l → placed_walk prev l →
      (∀ q, prev = some q → q.is_line_separator = false →
        ∃ t, q.tok = some t ∧ 0 < a ∧ (tokens_of obj)[a - 1]? = some t) →
      ∀ pre m post, l = pre ++ m :: post →
        (m.is_line_separator = true →
          (∃ q t,
            (match pre.getLast? with | some x => some x | none => prev) = some q ∧
            q.is_line_separator = false ∧ q.tok = some t ∧ t.kind ≠ .WHITESPACE ∧
            t.kind ≠ .OPEN_PAREN) ∧
          ∃ x post1 u, post = x :: post1 ∧ x.is_line_separator = false ∧ x.tok = some u ∧
            (u.kind = .WHITESPACE ∨ u.kind = .CLOSE_PAREN)) ∧
        (m.is_line_separator = false → ∀ t, m.tok = some t → t.kind = .WHITESPACE →
          ∃ x post1 u, post = x :: post1 ∧ x.is_line_separator = false ∧ x.tok = some u ∧
            u.kind ≠ .WHITESPACE) := by
  intro l
  induction l with
  | nil => intro a prev _ _ _ pre m post e; simp at e
  | cons n rest ih =>
    intro a prev hl hp hJ pre m post e
    obtain ⟨f1, f2⟩ := laid_cons hl
    rw [placed_walk_cons] at hp
    cases pre with
    | cons p0 pre1 =>
      simp only [List.cons_append, List.cons.injEq] at e
      obtain ⟨e1, e2⟩ := e
      subst e1
      -- the facts for the rest of the list
      have hrec : ∃ a1, laid (tokens_of obj) links a1 rest ∧
          (∀ q, some n = some q → q.is_line_separator = false →
            ∃ t, q.tok = some t ∧ 0 < a1 ∧ (tokens_of obj)[a1 - 1]? = some t) := by
        cases hsep : n.is_line_separator with
        | true =>
          refine ⟨a, (f1 hsep).2, fun q hq hqs => ?_⟩
          simp only [Option.some.injEq] at hq
          rw [← hq, hsep] at hqs
          simp at hqs
        | false =>
          obtain ⟨g1, g2, g3, g4, g5⟩ := f2 hsep
          obtain ⟨t, ht⟩ := getElem?_some_of_lt g2
          refine ⟨a + 1, g5, fun q hq _ => ?_⟩
          simp only [Option.some.injEq] at hq
          subst hq
          exact ⟨t, by rw [g3]; exact ht, by omega, by simpa using ht⟩
      obtain ⟨a1, hl1, hJ1⟩ := hrec
      have := ih a1 (some n) hl1 hp.2 hJ1 pre1 m post e2
      refine ⟨fun hm => ?_, this.2⟩
      obtain ⟨⟨q, t, k1, k2⟩, k3⟩ := this.1 hm
      refine ⟨⟨q, t, ?_, k2⟩, k3⟩
      cases hpl : pre1.getLast? with
      | none =>
        have : pre1 = [] := by simpa using hpl
        subst this
        simpa using k1
      | some x =>
        rw [hpl] at k1
        have hne : pre1 ≠ [] := by intro h0; subst h0; simp at hpl
        have : (n :: pre1).getLast? = some x := by
          rw [← hpl]
          cases pre1 with
          | nil => exact absurd rfl hne
          | cons y ys => rfl
        rw [this]; exact k1
    | nil =>
      simp only [List.nil_append, List.cons.injEq] at e
      obtain ⟨e1, e2⟩ := e
      subst e1
      subst e2
      constructor
      · intro hm
        obtain ⟨_, ⟨q, t, hq, hqs, hqt, hk1, hk2⟩, x, post1, e3, hx⟩ := hp.1 hm
        subst e3
        refine ⟨⟨q, t, by simpa using hq, hqs, hqt, hk1, hk2⟩, ?_⟩
        obtain ⟨u0, hu0, ha0, hua⟩ := hJ q hq hqs
        rw [hqt] at hu0
        simp only [Option.some.injEq] at hu0
        subst hu0
        have hlx := (f1 hm).2
        obtain ⟨g1, g2, g3, g4, g5⟩ := (laid_cons hlx).2 hx
        obtain ⟨u, hu⟩ := getElem?_some_of_lt g2
        have hfol := (token_grammar hs (a - 1) t hua).2.1 u (by
          rw [show a - 1 + 1 = a by omega]; exact hu)
        exact ⟨x, post1, u, rfl, hx, by rw [g3]; exact hu, hfol.2 ⟨hk1, hk2⟩⟩
      · intro hm t ht hk
        obtain ⟨g1, g2, g3, g4, g5⟩ := f2 hm
        have hta : (tokens_of obj)[a]? = some t := by rw [← g3]; exact ht
        cases hrest : rest with
        | nil =>
          rw [hrest] at g5
          have hlen := laid_nil g5
          have := (token_grammar hs a t hta).2.2 (List.getElem?_eq_none (by omega))
          exact absurd hk this.1
        | cons y post2 =>
          rw [hrest] at g5 hp
          cases hy : y.is_line_separator with
          | true =>
            have hp2 := hp.2
            rw [placed_walk_cons] at hp2
            obtain ⟨_, ⟨q, t2, hq, _, hqt, hk1, _⟩, _⟩ := hp2.1 hy
            simp only [Option.some.injEq] at hq
            subst hq
            rw [ht] at hqt
            simp only [Option.some.injEq] at hqt
            subst hqt
            exact absurd hk hk1
          | false =>
            obtain ⟨k1, k2, k3, k4, k5⟩ := (laid_cons g5).2 hy
            obtain ⟨u, hu⟩ := getElem?_some_of_lt k2
            have hfol := (token_grammar hs a t hta).2.1 u hu
            refine ⟨y, post2, u, rfl, hy, by rw [k3]; exact hu, ?_⟩
            intro hws
            have := hfol.1 (Or.inl hws)
            exact this.1 hk

theorem push_token_shape (t : FormToken) (X : List OutLine) (h : X ≠ []) :
    ∃ hd, push_token t X = hd :: X.tail ∧ t ∈ hd.toks := by
  cases X with
  | nil => exact absurd rfl h
  | cons l ls => exact ⟨_, rfl, by simp⟩

theorem open_line_shape (i : Nat) (d : Option FormToken) (X : List OutLine) (h : X ≠ []) :
    ∃ hd, open_line i d X = hd :: X.tail ∧ ∀ l ∈ X.head?, hd.toks = l.toks := by
  cases X with
  | nil => exact absurd rfl h
  | cons l ls => exact ⟨_, rfl, by simp⟩

/-- The first line of a part of the list that starts with a token that is no whitespace,
or with a whitespace and a token that is no whitespace, holds a token that is no
whitespace; the other lines are those of the rest of the part. -/
theorem lines_of_start (b : Bool) (x : PrettyPrinterNode) (post : NodeList) (u : FormToken)
    (hx : x.is_line_separator = false) (hu : x.tok = some u)
    (h : u.kind ≠ .WHITESPACE ∨ ∃ y post2 v, post = y :: post2 ∧ y.is_line_separator = false ∧
      y.tok = some v ∧ v.kind ≠ .WHITESPACE) :
    ∃ hd, lines_of b (x :: post) = hd :: (lines_of false post).tail ∧
      ∃ t ∈ hd.toks, t.kind ≠ .WHITESPACE := by
  have hne := lines_of_ne_nil false post
  by_cases hk : u.kind = .WHITESPACE
  · rcases h with h | ⟨y, post2, v, e, hy, hv, hvk⟩
    · exact absurd hk h
    · subst e
      have hne2 := lines_of_ne_nil false post2
      obtain ⟨h1, e1, m1⟩ := push_token_shape v _ hne2
      have ey : lines_of false (y :: post2) = h1 :: (lines_of false post2).tail := by
        simp only [lines_of, hy, Bool.false_eq_true, if_false, hv]
        exact e1
      cases b with
      | true =>
        refine ⟨⟨x.lineIndent.toNat, some u, h1.toks⟩, ?_, v, m1, hvk⟩
        simp only [lines_of, hx, Bool.false_eq_true, if_false, hu, if_true, hk] at ey ⊢
        rw [ey]
        rfl
      | false =>
        refine ⟨⟨h1.indent, h1.dropped, u :: h1.toks⟩, ?_, v, by simp [m1], hvk⟩
        simp only [lines_of, hx, Bool.false_eq_true, if_false, hu] at ey ⊢
        rw [ey]
        rfl
  · obtain ⟨h1, e1, m1⟩ := push_token_shape u _ hne
    cases b with
    | true =>
      refine ⟨⟨x.lineIndent.toNat, none, h1.toks⟩, ?_, u, m1, hk⟩
      simp only [lines_of, hx, Bool.false_eq_true, if_false, hu, if_true, hk]
      rw [e1]
      rfl
    | false =>
      refine ⟨h1, ?_, u, m1, hk⟩
      simp only [lines_of, hx, Bool.false_eq_true, if_false, hu]
      exact e1

/-- The lines behind the first one hold a token that is no whitespace each, when every
separator stands before a whitespace or a close paren and every whitespace before a token
that is no whitespace. -/
theorem lines_of_tail_tokens :
    ∀ (l : NodeList) (b : Bool),
      (∀ n ∈ l, n.is_line_separator = false → ∃ t, n.tok = some t) →
      (∀ pre m post, l = pre ++ m :: post →
        (m.is_line_separator = true →
          ∃ x post1 u, post = x :: post1 ∧ x.is_line_separator = false ∧ x.tok = some u ∧
            (u.kind = .WHITESPACE ∨ u.kind = .CLOSE_PAREN)) ∧
        (m.is_line_separator = false → ∀ t, m.tok = some t → t.kind = .WHITESPACE →
          ∃ x post1 u, post = x :: post1 ∧ x.is_line_separator = false ∧ x.tok = some u ∧
            u.kind ≠ .WHITESPACE)) →
      ∀ x ∈ (lines_of b l).tail, ∃ t ∈ x.toks, t.kind ≠ .WHITESPACE := by
  intro l
  induction l with
  | nil => intro b _ _ x hx; simp [lines_of] at hx
  | cons n rest ih =>
    intro b htok H x hx
    have Hrest : ∀ pre m post, rest = pre ++ m :: post →
        (m.is_line_separator = true →
          ∃ x post1 u, post = x :: post1 ∧ x.is_line_separator = false ∧ x.tok = some u ∧
            (u.kind = .WHITESPACE ∨ u.kind = .CLOSE_PAREN)) ∧
        (m.is_line_separator = false → ∀ t, m.tok = some t → t.kind = .WHITESPACE →
          ∃ x post1 u, post = x :: post1 ∧ x.is_line_separator = false ∧ x.tok = some u ∧
            u.kind ≠ .WHITESPACE) :=
      fun pre m post e => H (n :: pre) m post (by rw [e]; rfl)
    have htok1 : ∀ m ∈ rest, m.is_line_separator = false → ∃ t, m.tok = some t :=
      fun m hm => htok m (List.mem_cons_of_mem _ hm)
    cases hn : n.is_line_separator with
    | true =>
      obtain ⟨y, post1, u, e, hy, hu, hk⟩ := (H [] n rest rfl).1 hn
      subst e
      have hstart : u.kind ≠ .WHITESPACE ∨ ∃ z post2 v, post1 = z :: post2 ∧
          z.is_line_separator = false ∧ z.tok = some v ∧ v.kind ≠ .WHITESPACE := by
        by_cases hw : u.kind = .WHITESPACE
        · exact Or.inr ((Hrest [] y post1 rfl).2 hy u hu hw)
        · exact Or.inl hw
      obtain ⟨hd, e1, hhd⟩ := lines_of_start true y post1 u hy hu hstart
      have e2 : (lines_of b (n :: y :: post1)).tail = lines_of true (y :: post1) := by
        simp [lines_of, hn]
      rw [e2] at hx
      rw [e1] at hx
      rcases List.mem_cons.1 hx with h1 | h1
      · subst h1; exact hhd
      · have := ih true htok1 Hrest x (by rw [e1]; exact h1)
        exact this
    | false =>
      obtain ⟨t, ht⟩ := htok n (by simp) hn
      have hne := lines_of_ne_nil false rest
      have e2 : (lines_of b (n :: rest)).tail = (lines_of false rest).tail := by
        simp only [lines_of, hn, Bool.false_eq_true, if_false, ht]
        obtain ⟨h1, k1, _⟩ := push_token_shape t _ hne
        split
        · split
          · obtain ⟨h2, k2, _⟩ := open_line_shape n.lineIndent.toNat (some t) _ hne
            rw [k2]; rfl
          · obtain ⟨h2, k2, _⟩ := open_line_shape n.lineIndent.toNat none _
              (push_token_ne_nil t (lines_of false rest))
            rw [k2, k1]; rfl
        · rw [k1]; rfl
      rw [e2] at hx
      exact ih false htok1 Hrest x hx

theorem flat_text_data (t : FormToken) : ∀ (toks : List FormToken), t ∈ toks →
    ∀ c ∈ t.toString.data, c ∈ (flat_text toks).data := by
  intro toks
  induction toks with
  | nil => intro h; simp at h
  | cons u rest ih =>
    intro h c hc
    simp only [flat_text, String.data_append, List.mem_append]
    rcases List.mem_cons.1 h with h1 | h1
    · subst h1; exact Or.inl hc
    · exact Or.inr (ih h1 c hc)

/-- A line that holds a token whose text is not blank is not blank. -/
theorem line_not_blank (l : OutLine) (t : FormToken) (ht : t ∈ l.toks)
    (hb : ¬ blank t.toString) : ¬ blank l.text := by
  intro h
  apply hb
  intro c hc
  apply h c
  simp only [OutLine.text, String.data_append, List.mem_append]
  exact Or.inr (flat_text_data t _ ht c hc)

/-- C29, with its last part amended: in every list that `to_string obj` passes through, a
separator stands directly behind a token that is no whitespace and directly before a token
that is a whitespace or a close paren, and a whitespace token stands directly before a
token that is no whitespace; so no two separators are adjacent, no separator is the first
or the last node, and no line is made of a whitespace token only. The lists between the
passes of `to_string` are such lists, and when `to_string` returns, its output is made of
lines, joined by line terminators, that hold a token that is no whitespace each; no line is
empty or blank as long as no token other than the whitespace prints as a blank text. -/
theorem separators_between_tokens (obj : Object) (hs : supported obj) :
    (∀ s, reachable obj s → ∀ pre m post, s = pre ++ m :: post →
      (m.is_line_separator = true →
        (∃ pre1 q t, pre = pre1 ++ [q] ∧ q.is_line_separator = false ∧ q.tok = some t ∧
          t.kind ≠ .WHITESPACE) ∧
        (∃ x post1 u, post = x :: post1 ∧ x.is_line_separator = false ∧ x.tok = some u ∧
          (u.kind = .WHITESPACE ∨ u.kind = .CLOSE_PAREN))) ∧
      (m.is_line_separator = false → ∀ t, m.tok = some t → t.kind = .WHITESPACE →
        ∃ x post1 u, post = x :: post1 ∧ x.is_line_separator = false ∧ x.tok = some u ∧
          u.kind ≠ .WHITESPACE)) ∧
    (∀ w out, to_string obj w = .ok out →
      ∃ s2 s3 rv s4,
        insertSpecialBreaks (loop_fuel (tokens_of obj))
          (build_linked 0 0 (tokens_of obj) (links_of obj 0 none)) (some 0) = .ok s2 ∧
        propagatePretty s2 (some 0) w = .ok (s3, rv) ∧
        insertBreaksAsNeeded (loop_fuel (tokens_of obj)) (loop_fuel (tokens_of obj)) s3
          (some 0) w = .ok s4 ∧
        render true s4 = .ok out ∧ reachable obj s2 ∧ reachable obj s3 ∧ reachable obj s4 ∧
        out = join_lines (lines_of true s4) ∧
        (∀ l ∈ lines_of true s4, ∃ t ∈ l.toks, t.kind ≠ .WHITESPACE) ∧
        ((∀ t ∈ tokens_of obj, t.kind ≠ .WHITESPACE → ¬ blank t.toString) →
          ∀ l ∈ lines_of true s4, ¬ blank l.text)) := by
  have key : ∀ s, reachable obj s → ∀ pre m post, s = pre ++ m :: post →
      (m.is_line_separator = true →
        (∃ pre1 q t, pre = pre1 ++ [q] ∧ q.is_line_separator = false ∧ q.tok = some t ∧
          t.kind ≠ .WHITESPACE) ∧
        (∃ x post1 u, post = x :: post1 ∧ x.is_line_separator = false ∧ x.tok = some u ∧
          (u.kind = .WHITESPACE ∨ u.kind = .CLOSE_PAREN))) ∧
      (m.is_line_separator = false → ∀ t, m.tok = some t → t.kind = .WHITESPACE →
        ∃ x post1 u, post = x :: post1 ∧ x.is_line_separator = false ∧ x.tok = some u ∧
          u.kind ≠ .WHITESPACE) := by
    intro s hr pre m post e
    obtain ⟨_, hP, _⟩ := reachable_sound hs hr
    have hl := reachable_laid hs hr
    have := separators_walk hs s 0 none hl hP (fun q hq => by simp at hq) pre m post e
    refine ⟨fun hm => ?_, this.2⟩
    obtain ⟨⟨q, t, k1, k2, k3, k4, _⟩, k5⟩ := this.1 hm
    refine ⟨?_, k5⟩
    cases hpl : pre.getLast? with
    | none => rw [hpl] at k1; simp at k1
    | some x =>
      rw [hpl] at k1
      simp only [Option.some.injEq] at k1
      subst k1
      have hne : pre ≠ [] := by intro h0; subst h0; simp at hpl
      refine ⟨pre.dropLast, x, t, ?_, k2, k3, k4⟩
      have h1 := (List.dropLast_append_getLast hne).symm
      have h2 : pre.getLast hne = x := by
        have := List.getLast?_eq_getLast pre hne
        rw [hpl] at this
        simp only [Option.some.injEq] at this
        exact this.symm
      rw [h2] at h1
      exact h1
  refine ⟨key, fun w out h => ?_⟩
  obtain ⟨_, s2, s3, rv, s4, h1, h2, h3, h4, r2, r3, r4⟩ := to_string_reach h
  have hl := reachable_laid hs r4
  have hout := render_eq_join_lines s4 true out h4
  have htoks : ∀ n ∈ s4, n.is_line_separator = false → ∃ t, n.tok = some t :=
    laid_has_tok s4 0 hl
  -- every line holds a token that is no whitespace
  have hlines : ∀ l ∈ lines_of true s4, ∃ t ∈ l.toks, t.kind ≠ .WHITESPACE := by
    obtain ⟨n, tl, e, hid, hn⟩ := evolves_head hs (reachable_sound hs r4).1
    obtain ⟨g1, g2, g3, g4, g5⟩ := (laid_cons (e ▸ hl)).2 hn
    obtain ⟨u, hu⟩ := getElem?_some_of_lt g2
    have hu0 := (token_grammar hs 0 u hu).1 rfl
    have hstart := lines_of_start true n tl u hn (by rw [g3]; exact hu) (Or.inl hu0.1)
    obtain ⟨hd, e1, hhd⟩ := hstart
    have htail := lines_of_tail_tokens s4 true htoks
      (fun pre m post e2 => ⟨fun hm => ((key s4 r4 pre m post e2).1 hm).2,
        (key s4 r4 pre m post e2).2⟩)
    intro l hl2
    rw [e, e1] at hl2
    rcases List.mem_cons.1 hl2 with k | k
    · subst k; exact hhd
    · exact htail l (by rw [e, e1]; exact k)
  refine ⟨s2, s3, rv, s4, h1, h2, h3, h4, r2, r3, r4, hout, hlines, fun hvis l hl2 => ?_⟩
  obtain ⟨t, ht, hk⟩ := hlines l hl2
  refine line_not_blank l t ht (hvis t ?_ hk)
  have hall := lines_of_tokens s4 true
  have hrt : real_tokens s4 = tokens_of obj := by
    simpa using real_tokens_of_laid s4 0 hl
  rw [← hrt, ← hall]
  exact List.mem_flatMap.2 ⟨l, hl2, by simp [OutLine.tokens, ht]⟩

set_option maxRecDepth 100000 in
/-- Witness for C29: the list `(begin a)` at width 80. -/
theorem separators_between_tokens_witness :
    supported (build_list [.SYMBOL "begin", .SYMBOL "a"]) ∧
      ∃ lines, "(begin\n  a\n  )" = join_lines lines ∧
        (∀ l ∈ lines, ∃ t ∈ l.toks, t.kind ≠ .WHITESPACE) ∧ ∀ l ∈ lines, ¬ blank l.text :=
  ⟨by simp [build_list, supported],
    let ⟨_, h⟩ := separators_between_tokens (build_list [.SYMBOL "begin", .SYMBOL "a"])
      (by simp [build_list, supported])
    let ⟨_, _, _, s4, _, _, _, _, _, _, _, e, h1, h2⟩ := h 80 "(begin\n  a\n  )" (by rfl)
    ⟨lines_of true s4, e, h1, h2 (by
      intro t ht hk
      simp only [build_list, tokens_of, rest_tokens_of, List.cons_append, List.nil_append,
        List.mem_cons, List.mem_singleton, List.not_mem_nil, or_false] at ht
      rcases ht with rfl | rfl | rfl | rfl | rfl
      · intro hb; exact absurd (hb '(' (by decide)) (by decide)
      · intro hb; exact absurd (hb 'b' (by decide)) (by decide)
      · exact absurd rfl hk
      · intro hb; exact absurd (hb 'a' (by decide)) (by decide)
      · intro hb; exact absurd (hb ')' (by decide)) (by decide))⟩⟩

set_option maxRecDepth 100000 in
/-- C29, the last part as the claim words it, refuted at the list of `begin` and a symbol
with the empty name, at width 80: the second line of the output is made of the two spaces
of the indentation only. -/
theorem blank_line_for_empty_symbol :
    supported (build_list [.SYMBOL "begin", .SYMBOL ""]) ∧
      to_string (build_list [.SYMBOL "begin", .SYMBOL ""]) 80 = .ok "(begin\n  \n  )" := by
  refine ⟨by simp [build_list, supported], by rfl⟩

theorem propagated_list_reachable {obj : Object} {w : Int} {s : NodeList}
    (h : propagated_list obj w s) : reachable obj s := by
  obtain ⟨s0, rv, h1, h2⟩ := h
  exact .propagated h1 h2

/-- A pass over a list that a pass has returned gives counted lines. -/
theorem propagated_list_counted {obj : Object} (hs : supported obj) {w : Int}
    {s s1 : NodeList} {rv : Option Nat} (h : propagated_list obj w s)
    (hp : propagatePretty s (some 0) w = .ok (s1, rv)) : lines_counted 0 s1 := by
  obtain ⟨s0, rv0, h1, h2⟩ := h
  obtain ⟨hE, _, hH⟩ := reachable_sound hs h1
  obtain ⟨t1, r1, t2, r2, p1, p2, _, hc, _⟩ := propagatePretty_twice hs hE w
  rw [h2] at p1
  simp only [Except.ok.injEq, Prod.mk.injEq] at p1
  obtain ⟨e1, _⟩ := p1
  subst e1
  rw [hp] at p2
  simp only [Except.ok.injEq, Prod.mk.injEq] at p2
  obtain ⟨e2, _⟩ := p2
  subst e2
  obtain ⟨n, tl, e, _, _⟩ := evolves_head hs hE
  have := hc n (by rw [e]; rfl)
  rw [hH n (by rw [e]; rfl)] at this
  exact this

theorem fix_line_propagated {obj : Object} (w : Int) (c : Option Nat) :
    ∀ (fuel : Nat) (s : NodeList) (f : Option Nat) (s1 : NodeList), propagated_list obj w s →
      fix_line (some 0) w c fuel s f = .ok s1 → propagated_list obj w s1 := by
  intro fuel
  induction fuel with
  | zero => intro s f s1 _ h; simp [fix_line] at h
  | succ fuel ih =>
    intro s f s1 hr h
    cases f with
    | none => simp [fix_line] at h; subst h; exact hr
    | some i =>
      simp only [fix_line] at h
      obtain ⟨sa, h1, h2⟩ := bind_eq_ok h
      obtain ⟨⟨sb, rv⟩, h3, h4⟩ := bind_eq_ok h2
      obtain ⟨bad, h5, h6⟩ := bind_eq_ok h4
      have E : propagated_list obj w sb :=
        ⟨sa, rv, .broken (propagated_list_reachable hr) h1, h3⟩
      simp only at h6
      split at h6
      · simp [pure, Except.pure] at h6; subst h6; exact E
      · obtain ⟨nx, h7, h8⟩ := bind_eq_ok h6
        split at h8
        · simp [pure, Except.pure] at h8; subst h8; exact E
        · exact ih _ _ _ E h8

/-- Every line search of the outer loop of `insertBreaksAsNeeded`, started on a list that
a pass has returned, runs on counted lines. -/
theorem search_lists_counted {obj : Object} (hs : supported obj) (w : Int) (inner : Nat) :
    ∀ (fuel : Nat) (s : NodeList) (last start : Option Nat), propagated_list obj w s →
      ∀ x ∈ search_lists (some 0) w inner fuel s last start, lines_counted 0 x := by
  intro fuel
  induction fuel with
  | zero => intro s last start _ x hx; simp [search_lists] at hx
  | succ fuel ih =>
    intro s last start hr x hx
    simp only [search_lists] at hx
    split at hx
    · simp at hx
    · rename_i s1 rv hp
      have hc := propagated_list_counted hs hr hp
      have hr1 : propagated_list obj w s1 := ⟨s, rv, propagated_list_reachable hr, hp⟩
      rcases List.mem_cons.1 hx with h1 | h1
      · subst h1; exact hc
      · split at h1
        · rename_i c hcand
          split at h1
          · rename_i s2 hfix
            obtain ⟨_, _, hfix⟩ := bind_eq_ok hfix
            obtain ⟨f, _, hfix⟩ := bind_eq_ok hfix
            exact ih _ _ _ (fix_line_propagated _ _ _ _ _ _ hr1 hfix) x h1
          · simp at h1
        · simp at h1

/-- The list that the outer loop of `insertBreaksAsNeeded` returns is the list of its last
line search. -/
theorem search_lists_last (head : Option Nat) (w : Int) (inner : Nat) :
    ∀ (fuel : Nat) (s : NodeList) (last start : Option Nat) (r : NodeList),
      insertBreaks_loop head w inner fuel s last start = .ok r →
      (search_lists head w inner fuel s last start).getLast? = some r := by
  intro fuel
  induction fuel with
  | zero => intro s last start r h; simp [insertBreaks_loop] at h
  | succ fuel ih =>
    intro s last start r h
    simp only [insertBreaks_loop] at h
    obtain ⟨⟨s1, rv⟩, h1, h2⟩ := bind_eq_ok h
    obtain ⟨cand, h5, h6⟩ := bind_eq_ok h2
    simp only at h6
    simp only [search_lists, h1, h5]
    split at h6
    · simp [pure, Except.pure] at h6
      subst h6
      rfl
    · rename_i c
      obtain ⟨u, h7, h8⟩ := bind_eq_ok h6
      obtain ⟨f, h9, h10⟩ := bind_eq_ok h8
      obtain ⟨sb, h11, h12⟩ := bind_eq_ok h10
      have hfix : (assert (null_or_separator s1 (prev_of s1 c)) >>= fun _ =>
          getFirstListOnLine s1 (some c) >>= fun form_to_start =>
            fix_line head w (some c) inner s1 form_to_start) = .ok sb := by
        rw [h7]
        simp only [bind, Except.bind]
        rw [h9]
        exact h11
      simp only [hfix]
      have := ih _ _ _ _ h12
      cases hsl : search_lists head w inner fuel sb (some c) (some c) with
      | nil => rw [hsl] at this; simp at this
      | cons y ys =>
        rw [hsl] at this
        rw [List.getLast?_cons_cons]
        exact this

/-- C31: for every list that `to_string obj` passes through, two `propagatePretty` passes in
a row return, the second one inserts no separator, after them the line of every token is
the number of separators before it, and a third pass returns the same list, node for node,
and the same node. The outer loop of `insertBreaksAsNeeded` in `to_string` starts on the
result of a pass and runs a pass at the head of every turn, so each of its line searches
runs on a list with these line numbers; the list it returns is the list of its last
search. -/
theorem two_passes_fixed_point (obj : Object) (hs : supported obj) (w : Int) :
    (∀ s, reachable obj s → ∃ s1 rv1 s2 rv2,
      propagatePretty s (some 0) w = .ok (s1, rv1) ∧
      propagatePretty s1 (some 0) w = .ok (s2, rv2) ∧ same_shape s1 s2 ∧
      (∀ A n B, s2 = A ++ n :: B → n.is_line_separator = false → n.line = (separators A : Int)) ∧
      propagatePretty s2 (some 0) w = .ok (s2, rv2)) ∧
    (∀ s2 s3 rv,
      insertSpecialBreaks (loop_fuel (tokens_of obj))
        (build_linked 0 0 (tokens_of obj) (links_of obj 0 none)) (some 0) = .ok s2 →
      propagatePretty s2 (some 0) w = .ok (s3, rv) →
      ∀ fuel inner,
        (∀ x ∈ search_lists (some 0) w inner fuel s3 none (some 0),
          ∀ A n B, x = A ++ n :: B → n.is_line_separator = false → n.line = (separators A : Int)) ∧
        ∀ s4, insertBreaksAsNeeded fuel inner s3 (some 0) w = .ok s4 →
          (search_lists (some 0) w inner fuel s3 none (some 0)).getLast? = some s4) := by
  constructor
  · intro s hr
    obtain ⟨hE, _, hH⟩ := reachable_sound hs hr
    obtain ⟨s1, rv1, s2, rv2, p1, p2, hsh, hc, p3⟩ := propagatePretty_twice hs hE w
    refine ⟨s1, rv1, s2, rv2, p1, p2, hsh, ?_, p3⟩
    obtain ⟨n, tl, e, _, _⟩ := evolves_head hs hE
    have := hc n (by rw [e]; rfl)
    rw [hH n (by rw [e]; rfl)] at this
    intro A m B e2 hm
    simpa using this A m B e2 hm
  · intro s2 s3 rv h1 h2 fuel inner
    have r2 := insertSpecialBreaks_reach hs .start h1
    refine ⟨fun x hx A m B e2 hm => ?_, fun s4 h4 => search_lists_last _ _ _ _ _ _ _ _ h4⟩
    have := search_lists_counted hs w inner fuel s3 none (some 0) ⟨s2, rv, r2, h2⟩ x hx
    simpa using this A m B e2 hm

set_option maxRecDepth 100000 in
/-- Witness for C31: the list that `to_string` builds for `(deftype foo (bar) x)`, at
width 80. -/
theorem two_passes_fixed_point_witness :
    supported (build_list [.SYMBOL "deftype", .SYMBOL "foo", build_list [.SYMBOL "bar"],
      .SYMBOL "x"]) ∧
      ∃ s2 rv2, propagatePretty s2 (some 0) 80 = .ok (s2, rv2) ∧
        ∀ A n B, s2 = A ++ n :: B → n.is_line_separator = false → n.line = (separators A : Int) :=
  ⟨by simp [build_list, supported],
    let ⟨h, _⟩ := two_passes_fixed_point
      (build_list [.SYMBOL "deftype", .SYMBOL "foo", build_list [.SYMBOL "bar"], .SYMBOL "x"])
      (by simp [build_list, supported]) 80
    let ⟨_, _, s2, rv2, _, _, _, hc, p3⟩ := h _ .start
    ⟨s2, rv2, p3, hc⟩⟩

theorem flat_column_succ {toks : List FormToken} {a : Nat} {t : FormToken}
    (h : toks[a]? = some t) :
    flat_column toks (a + 1) = flat_column toks a + t.toString.length := by
  have hlt : a < toks.length := by
    by_contra hge
    rw [List.getElem?_eq_none (by omega)] at h
    simp at h
  have e : toks.take (a + 1) = toks.take a ++ [t] := by
    rw [List.take_succ, h]
    rfl
  simp only [flat_column, e, text_width_append, text_width]
  omega

theorem flat_column_mono (toks : List FormToken) {a b : Nat} (h : a ≤ b) :
    flat_column toks a ≤ flat_column toks b := text_width_take_le toks h

theorem flat_column_le (toks : List FormToken) (a : Nat) :
    flat_column toks a ≤ text_width toks := by
  have := text_width_take_le toks (Nat.le_max_left a toks.length)
  have e : toks.take (max a toks.length) = toks := List.take_of_length_le (Nat.le_max_right _ _)
  rw [e] at this
  exact this

/-- The offsets that the second loop of `propagatePretty` gives: at most the column in the
flat rendering plus `d`, where `d` makes up for the indent of two columns inside the
outermost list. -/
theorem offsets_bounded {toks : List FormToken} {links : List (Option Nat)} (w : Int)
    (d : Int) (hd : 2 ≤ flat_column toks 2 + d) :
    ∀ (l : NodeList) (a : Nat) (prev : Option PrettyPrinterNode) (st : OffsetState)
      (r : NodeList) (rv : Option Nat),
      laid toks links a l → inline_walk a l →
      (∀ q, prev = some q → q.is_line_separator = true →
        ∀ n rest, l = n :: rest → ∀ t, n.tok = some t → t.kind ≠ .OPEN_PAREN) →
      (prev = none → a = 0) →
      (a = 0 → st.offset ≤ 0) → st.offset ≤ flat_column toks a + d →
      (∀ e ∈ st.indentStack, e ≤ flat_column toks (max a 2) + d) →
      propagate_offsets w prev st l = .ok (r, rv) →
      ∀ n ∈ r, n.is_line_separator = false →
        n.offset ≤ flat_column toks n.id + d ∧ (n.id = 0 → n.offset ≤ 0) := by
  intro l
  induction l with
  | nil =>
    intro a prev st r rv _ _ _ _ _ _ _ h
    simp only [propagate_offsets, Except.ok.injEq, Prod.mk.injEq] at h
    obtain ⟨h1, _⟩ := h
    subst h1
    intro n hn
    simp at hn
  | cons n rest ih =>
    intro a prev st r rv hl hw hprev hnone h0 hoff hstk h
    obtain ⟨f1, f2⟩ := laid_cons hl
    cases hsep : n.is_line_separator with
    | true =>
      obtain ⟨hdelta, ha2, ⟨x, post, u, e, hx, hu, hk⟩, hw1⟩ := hw.1 hsep
      simp only [propagate_offsets, hsep, if_true] at h
      cases hs : st.indentStack with
      | nil => simp [hs] at h
      | cons top tl =>
        simp only [hs] at h
        split at h
        · simp at h
        · rename_i r1 rv1 hr1
          simp only [Except.ok.injEq, Prod.mk.injEq] at h
          obtain ⟨e1, _⟩ := h
          subst e1
          have htop : top ≤ flat_column toks (max a 2) + d := hstk top (by rw [hs]; simp)
          have hmax : max a 2 = a := by omega
          rw [hmax] at htop
          have := ih a (some n) _ r1 rv1 (f1 hsep).2 hw1
            (fun q hq _ n1 rest1 e1 t ht => by
              rw [e] at e1
              simp only [List.cons.injEq] at e1
              rw [← e1.1, hu] at ht
              simp only [Option.some.injEq] at ht
              rw [← ht]; exact hk)
            (fun hq => by simp at hq) (fun ha => by omega)
            (by simp only [hdelta]; omega)
            (fun e he => by
              simp only [hs] at he
              exact hstk e (by rw [hs]; exact he)) hr1
          intro m hm hms
          rcases List.mem_cons.1 hm with k | k
          · subst k; rw [hsep] at hms; simp at hms
          · exact this m k hms
    | false =>
      obtain ⟨g1, g2, g3, g4, g5⟩ := f2 hsep
      obtain ⟨t, hta⟩ := getElem?_some_of_lt g2
      have htok : n.tok = some t := by rw [g3]; exact hta
      have ht : tok_of n = .ok t := by simp [tok_of, htok]
      have hw1 := hw.2 hsep
      have hF := flat_column_succ hta
      have hlen : (0 : Int) ≤ t.toString.length := Int.natCast_nonneg _
      have hmono : flat_column toks (max a 2) ≤ flat_column toks (max (a + 1) 2) :=
        flat_column_mono toks (by omega)
      have hmono2 : flat_column toks (a + 1) ≤ flat_column toks (max (a + 1) 2) :=
        flat_column_mono toks (by omega)
      -- the value pushed at an open paren
      have hpush : t.kind = .OPEN_PAREN →
          (prev = none → st.offset + (t.toString.length : Int) + 1
            ≤ flat_column toks (max (a + 1) 2) + d) ∧
          (∀ q, prev = some q → (if q.is_line_separator = true then
                st.offset + (t.toString.length : Int) + 1
              else st.offset + (t.toString.length : Int) - 1)
            ≤ flat_column toks (max (a + 1) 2) + d) := by
        intro hk
        have hl1 : t.toString.length = 1 := by
          simp only [FormToken.toString, hk]
          rfl
        have hl1c : (t.toString.length : Int) = 1 := by rw [hl1]; rfl
        refine ⟨fun hp => ?_, fun q hp => ?_⟩
        · have ha := hnone hp
          subst ha
          have := h0 rfl
          have e2 : max (0 + 1) 2 = 2 := by decide
          rw [e2]
          omega
        · cases hq : q.is_line_separator with
          | true => exact absurd hk (hprev q hp hq n rest rfl t htok)
          | false =>
            simp only [Bool.false_eq_true, if_false]
            omega
      -- the rest of the walk
      have step : ∀ (n2 : PrettyPrinterNode) (st1 : OffsetState) (r1 : NodeList)
          (rv1 : Option Nat), n2.is_line_separator = false → n2.id = a →
          n2.offset = st.offset →
          st1.offset = st.offset + t.toString.length →
          (∀ e ∈ st1.indentStack, e ≤ flat_column toks (max (a + 1) 2) + d) →
          propagate_offsets w (some n2) st1 rest = .ok (r1, rv1) →
          ∀ m ∈ n2 :: r1, m.is_line_separator = false →
            m.offset ≤ flat_column toks m.id + d ∧ (m.id = 0 → m.offset ≤ 0) := by
        intro n2 st1 r1 rv1 hn2 hid2 hoff2 hst1 hstk1 hr1
        have := ih (a + 1) (some n2) st1 r1 rv1 g5 hw1
          (fun q hq hqs => by
            simp only [Option.some.injEq] at hq
            rw [← hq, hn2] at hqs
            simp at hqs)
          (fun hq => by simp at hq) (fun ha => by omega)
          (by rw [hst1, hF]; omega) hstk1 hr1
        intro m hm hms
        rcases List.mem_cons.1 hm with k | k
        · subst k
          rw [hid2, hoff2]
          exact ⟨hoff, h0⟩
        · exact this m k hms
      simp only [propagate_offsets, hsep, Bool.false_eq_true, if_false, ht] at h
      by_cases hc : t.kind = .CLOSE_PAREN
      · have hno : ¬ t.kind = .OPEN_PAREN := by rw [hc]; decide
        have hne : (TokenKind.CLOSE_PAREN = TokenKind.OPEN_PAREN) = False :=
          eq_false (by decide)
        simp only [hc, if_true, hne, if_false] at h
        cases hs : st.indentStack with
        | nil => simp [hs] at h
        | cons top tl =>
          simp only [hs] at h
          split at h
          · simp at h
          · rename_i r1 rv1 hr1
            simp only [Except.ok.injEq, Prod.mk.injEq] at h
            obtain ⟨e1, _⟩ := h
            subst e1
            exact step _ _ r1 rv1 rfl g1 rfl rfl
              (fun e he => by
                have := hstk e (by rw [hs]; exact List.mem_cons_of_mem _ he)
                omega) hr1
      · simp only [hc, if_false] at h
        split at h
        · simp at h
        · rename_i r1 rv1 hr1
          simp only [Except.ok.injEq, Prod.mk.injEq] at h
          obtain ⟨e1, _⟩ := h
          subst e1
          refine step _ _ r1 rv1 rfl g1 rfl rfl (fun e he => ?_) hr1
          by_cases hk : t.kind = .OPEN_PAREN
          · simp only [hk, if_true, List.mem_cons] at he
            rcases he with he | he
            · rw [he]
              cases prev with
              | none => exact (hpush hk).1 rfl
              | some q => exact (hpush hk).2 q rfl
            · have := hstk e he
              omega
          · simp only [hk, if_false] at he
            have := hstk e he
            omega

/-- One turn of the second loop of `propagatePretty` with two line lengths: the node is the
same, and so are the local variables apart from the returned node. -/
theorem offset_step_width (w1 w2 : Int) (prev : Option PrettyPrinterNode)
    (st st2 : OffsetState) (n : PrettyPrinterNode)
    (h1 : st2.indentStack = st.indentStack) (h2 : st2.offset = st.offset)
    (h3 : st2.line_start = st.line_start) (h4 : st2.previous_line_sep = st.previous_line_sep)
    {n2 : PrettyPrinterNode} {stA : OffsetState}
    (h : offset_step w1 prev st n = .ok (n2, stA)) :
    ∃ stB, offset_step w2 prev st2 n = .ok (n2, stB) ∧ stB.indentStack = stA.indentStack ∧
      stB.offset = stA.offset ∧ stB.line_start = stA.line_start ∧
      stB.previous_line_sep = stA.previous_line_sep := by
  unfold offset_step at h ⊢
  rw [h1, h2, h3, h4]
  by_cases hsep : n.is_line_separator = true
  · rw [if_pos hsep] at h ⊢
    cases hs : st.indentStack with
    | nil => rw [hs] at h; simp at h
    | cons top tl =>
      rw [hs] at h
      simp only [Except.ok.injEq, Prod.mk.injEq] at h
      obtain ⟨e1, e2⟩ := h
      subst e1 e2
      exact ⟨_, rfl, rfl, rfl, rfl, rfl⟩
  · rw [if_neg hsep] at h ⊢
    cases ht : tok_of n with
    | error e => rw [ht] at h; simp at h
    | ok t =>
      rw [ht] at h
      simp only at h ⊢
      by_cases hc : t.kind = .CLOSE_PAREN
      · rw [if_pos hc] at h ⊢
        split at h
        · simp at h
        · rename_i x popped hpu
          simp only [Except.ok.injEq, Prod.mk.injEq] at h
          obtain ⟨e1, e2⟩ := h
          subst e1 e2
          exact ⟨_, rfl, rfl, rfl, rfl, rfl⟩
      · rw [if_neg hc] at h ⊢
        simp only [Except.ok.injEq, Prod.mk.injEq] at h
        obtain ⟨e1, e2⟩ := h
        subst e1 e2
        exact ⟨_, rfl, rfl, rfl, rfl, rfl⟩

/-- The list that the second loop of `propagatePretty` returns does not depend on the line
length. -/
theorem propagate_offsets_width (w1 w2 : Int) :
    ∀ (l : NodeList) (prev : Option PrettyPrinterNode) (st st2 : OffsetState) (r : NodeList)
      (rv : Option Nat),
      st2.indentStack = st.indentStack → st2.offset = st.offset →
      st2.line_start = st.line_start → st2.previous_line_sep = st.previous_line_sep →
      propagate_offsets w1 prev st l = .ok (r, rv) →
      ∃ rv2, propagate_offsets w2 prev st2 l = .ok (r, rv2) := by
  intro l
  induction l with
  | nil =>
    intro prev st st2 r rv _ _ _ _ h
    simp only [propagate_offsets, Except.ok.injEq, Prod.mk.injEq] at h
    obtain ⟨e, _⟩ := h
    subst e
    exact ⟨_, rfl⟩
  | cons n rest ih =>
    intro prev st st2 r rv h1 h2 h3 h4 h
    rw [propagate_offsets_cons] at h ⊢
    cases hst : offset_step w1 prev st n with
    | error e => rw [hst] at h; simp at h
    | ok p =>
      obtain ⟨n2, stA⟩ := p
      rw [hst] at h
      simp only at h
      obtain ⟨stB, hB, k1, k2, k3, k4⟩ := offset_step_width w1 w2 prev st st2 n h1 h2 h3 h4 hst
      rw [hB]
      simp only
      cases hrec : propagate_offsets w1 (some n2) stA rest with
      | error e => rw [hrec] at h; simp at h
      | ok q =>
        obtain ⟨r1, rv1⟩ := q
        rw [hrec] at h
        simp only [Except.ok.injEq, Prod.mk.injEq] at h
        obtain ⟨e, _⟩ := h
        subst e
        obtain ⟨rv2, hr2⟩ := ih (some n2) stA stB r1 rv1 k1 k2 k3 k4 hrec
        rw [hr2]
        exact ⟨_, rfl⟩

/-- The list that `propagatePretty` returns does not depend on the line length. -/
theorem propagatePretty_width {s s1 : NodeList} {list rv : Option Nat} (w1 w2 : Int)
    (h : propagatePretty s list w1 = .ok (s1, rv)) :
    ∃ rv2, propagatePretty s list w2 = .ok (s1, rv2) := by
  unfold propagatePretty at h ⊢
  obtain ⟨l, h1, h⟩ := bind_eq_ok h
  obtain ⟨sA, h2, h⟩ := bind_eq_ok h
  obtain ⟨⟨r, rv1⟩, h3, h⟩ := bind_eq_ok h
  simp only [pure, Except.pure, Except.ok.injEq, Prod.mk.injEq] at h
  obtain ⟨e, _⟩ := h
  subst e
  obtain ⟨rv2, h4⟩ := propagate_offsets_width w1 w2 _ _ _ _ _ _ rfl rfl rfl rfl h3
  refine ⟨rv2, ?_⟩
  simp only [h1, h2, h4, bind, Except.bind, pure, Except.pure]

/-- The token list of a supported object that has two tokens at least starts with an open
paren and ends with a close paren. -/
theorem tokens_of_long {obj : Object} (hs : supported obj)
    (h : 2 ≤ (tokens_of obj).length) :
    (tokens_of obj)[0]? = some ⟨.OPEN_PAREN, ""⟩ ∧
      (tokens_of obj)[(tokens_of obj).length - 1]? = some ⟨.CLOSE_PAREN, ""⟩ := by
  cases obj with
  | PAIR car cdr =>
    have hpos := rest_tokens_of_pos hs.2
    obtain ⟨h1, _⟩ := rest_last_close cdr hs.2 0 0
    refine ⟨by simp [tokens_of], ?_⟩
    have e : (tokens_of (.PAIR car cdr)).length - 1
        = ((tokens_of car).length + ((rest_tokens_of cdr).length - 1)) + 1 := by
      simp only [tokens_of, List.length_cons, List.length_append]; omega
    rw [e]
    simp only [tokens_of, List.getElem?_cons_succ]
    rw [List.getElem?_append_right (by omega)]
    simpa using h1
  | EMPTY_LIST => simp [tokens_of] at h
  | INTEGER p => simp [tokens_of] at h
  | FLOAT p => simp [tokens_of] at h
  | CHAR p => simp [tokens_of] at h
  | SYMBOL p => simp [tokens_of] at h
  | STRING p => simp [tokens_of] at h
  | ARRAY => simp [tokens_of] at h
  | LAMBDA => simp [tokens_of] at h
  | MACRO => simp [tokens_of] at h
  | ENVIRONMENT => simp [tokens_of] at h

/-- In the flat rendering of a supported object with two tokens at least, the column of
every token but the first is less than the length of the rendering, and the second token
starts at column 1. -/
theorem flat_column_lt {obj : Object} (hs : supported obj)
    (h : 2 ≤ (tokens_of obj).length) :
    flat_column (tokens_of obj) 1 = 1 ∧
      ∀ i, i < (tokens_of obj).length →
        flat_column (tokens_of obj) i + 1 ≤ text_width (tokens_of obj) := by
  obtain ⟨h0, hlast⟩ := tokens_of_long hs h
  constructor
  · have := flat_column_succ h0
    simp only [Nat.zero_add] at this
    rw [this]
    have h4 : ((⟨.OPEN_PAREN, ""⟩ : FormToken).toString.length : Int) = 1 := by rfl
    rw [h4]
    simp [flat_column, text_width]
  · intro i hi
    have h1 := flat_column_succ hlast
    have e : (tokens_of obj).length - 1 + 1 = (tokens_of obj).length := by omega
    rw [e] at h1
    have h2 : flat_column (tokens_of obj) (tokens_of obj).length = text_width (tokens_of obj) := by
      simp [flat_column]
    have h3 := flat_column_mono (tokens_of obj) (show i ≤ (tokens_of obj).length - 1 by omega)
    have h4 : ((⟨.CLOSE_PAREN, ""⟩ : FormToken).toString.length : Int) = 1 := by rfl
    omega

theorem inline_walk_of_placed {obj : Object} (hs : supported obj) {links : List (Option Nat)} :
    ∀ (l : NodeList) (a : Nat) (prev : Option PrettyPrinterNode),
      laid (tokens_of obj) links a l → placed_walk prev l →
      (∀ q, prev = some q → q.is_line_separator = false →
        ∃ t, q.tok = some t ∧ 0 < a ∧ (tokens_of obj)[a - 1]? = some t) →
      inline_walk a l := by
  intro l
  induction l with
  | nil => intro a prev _ _ _; trivial
  | cons n rest ih =>
    intro a prev hl hp hJ
    obtain ⟨f1, f2⟩ := laid_cons hl
    rw [placed_walk_cons] at hp
    constructor
    · intro hm
      obtain ⟨hdelta, ⟨q, t, hq, hqs, hqt, hk1, hk2⟩, x, post1, e3, hx⟩ := hp.1 hm
      subst e3
      obtain ⟨u0, hu0, ha0, hua⟩ := hJ q hq hqs
      rw [hqt] at hu0
      simp only [Option.some.injEq] at hu0
      subst hu0
      have hlx := (f1 hm).2
      obtain ⟨g1, g2, g3, g4, g5⟩ := (laid_cons hlx).2 hx
      obtain ⟨u, hu⟩ := getElem?_some_of_lt g2
      have hfol := (token_grammar hs (a - 1) t hua).2.1 u (by
        rw [show a - 1 + 1 = a by omega]; exact hu)
      have hu2 := hfol.2 ⟨hk1, hk2⟩
      refine ⟨hdelta, ?_, ⟨x, post1, u, rfl, hx, by rw [g3]; exact hu, ?_⟩, ?_⟩
      · by_contra hlt
        have ha1 : a = 1 := by omega
        subst ha1
        obtain ⟨h0, _⟩ := tokens_of_long hs (by omega)
        simp only [Nat.sub_self] at hua
        rw [h0] at hua
        simp only [Option.some.injEq] at hua
        rw [← hua] at hk2
        exact hk2 rfl
      · rcases hu2 with k | k <;> rw [k] <;> decide
      · exact ih a (some n) hlx hp.2 (fun q1 hq1 hqs1 => by
          simp only [Option.some.injEq] at hq1
          rw [← hq1, hm] at hqs1
          simp at hqs1)
    · intro hm
      obtain ⟨g1, g2, g3, g4, g5⟩ := f2 hm
      obtain ⟨t, ht⟩ := getElem?_some_of_lt g2
      exact ih (a + 1) (some n) g5 hp.2 (fun q hq _ => by
        simp only [Option.some.injEq] at hq
        subst hq
        exact ⟨t, by rw [g3]; exact ht, by omega, by simpa using ht⟩)

/-- The list that `propagatePretty` returns is what its second loop makes of this list
itself. -/
theorem propagatePretty_offsets {obj : Object} (hs : supported obj) {s s1 : NodeList}
    (hE : Evolves (build_linked 0 0 (tokens_of obj) (links_of obj 0 none)) s) {w : Int}
    {rv : Option Nat} (hp : propagatePretty s (some 0) w = .ok (s1, rv)) :
    propagate_offsets w none { line_start := some 0 } s1 = .ok (s1, rv) := by
  obtain ⟨n, tl, e, hid, hsep⟩ := evolves_head hs hE
  unfold propagatePretty at hp
  obtain ⟨l, h1, h2⟩ := bind_eq_ok hp
  have hln : l = n := by
    rw [e] at h1
    simp only [deref, node_at, List.find?_cons, hid, beq_self_eq_true,
      Except.ok.injEq] at h1
    exact h1.symm
  subst hln
  obtain ⟨sA, h3, h4⟩ := bind_eq_ok h2
  obtain ⟨⟨r, rv1⟩, h5, h6⟩ := bind_eq_ok h4
  simp only [pure, Except.pure, Except.ok.injEq, Prod.mk.injEq] at h6
  obtain ⟨h6, h7⟩ := h6
  have hb : nodes_before s l.id = [] := by rw [e]; simp [nodes_before]
  have hf : nodes_from s l.id = s := by rw [e]; simp [nodes_from]
  rw [hb, hf] at h3
  obtain ⟨tl1, er⟩ : ∃ tl1, sA = { l with line := l.line } :: tl1 := by
    rw [e] at h3
    exact propagate_lines_first hsep h3
  have hb1 : nodes_before sA l.id = [] := by rw [er]; simp [nodes_before]
  have hf1 : nodes_from sA l.id = sA := by rw [er]; simp [nodes_from]
  rw [hb1, hf1] at h5
  rw [hb1, List.nil_append] at h6
  subst h6
  subst h7
  simpa using propagate_offsets_again w _ _ _ _ _ h5

/-- The offsets in a list that `propagatePretty` returns during a call of `to_string`: no
token has an offset of more than its column in the flat rendering plus one, none has an
offset beyond the length of the flat rendering, and when the second token does not print
as the empty text no token has an offset of more than its column in the flat rendering. -/
theorem propagated_offsets_bounded {obj : Object} (hs : supported obj) {s s1 : NodeList}
    (hr : reachable obj s) {w : Int} {rv : Option Nat}
    (hp : propagatePretty s (some 0) w = .ok (s1, rv)) :
    ∀ n ∈ s1, n.is_line_separator = false →
      n.offset ≤ flat_column (tokens_of obj) n.id + 1 ∧
      n.offset ≤ text_width (tokens_of obj) ∧
      ((∀ t, (tokens_of obj)[1]? = some t → 0 < t.toString.length) →
        n.offset ≤ flat_column (tokens_of obj) n.id) := by
  have hE := (reachable_sound hs hr).1
  have hr1 : reachable obj s1 := .propagated hr hp
  obtain ⟨hE1, hP1, _⟩ := reachable_sound hs hr1
  have hl1 := reachable_laid hs hr1
  have hfix := propagatePretty_offsets hs hE hp
  have hw1 := inline_walk_of_placed hs s1 0 none hl1 hP1 (fun q hq => by simp at hq)
  have hF0 : flat_column (tokens_of obj) 0 = 0 := by simp [flat_column, text_width]
  have key : ∀ d : Int, 0 ≤ d → 2 ≤ flat_column (tokens_of obj) 2 + d →
      ∀ n ∈ s1, n.is_line_separator = false →
        n.offset ≤ flat_column (tokens_of obj) n.id + d ∧ (n.id = 0 → n.offset ≤ 0) :=
    fun d hd0 hd => offsets_bounded w d hd s1 0 none { line_start := some 0 } s1 rv hl1 hw1
      (fun q hq => by simp at hq) (fun _ => rfl) (fun _ => by simp)
      (by simp only [hF0]; omega)
      (fun e he => by
        simp only [List.mem_singleton] at he
        have e2 : max 0 2 = 2 := by decide
        rw [e2]
        omega) hfix
  have hnn : ∀ i, 0 ≤ flat_column (tokens_of obj) i := fun i => by
    have := flat_column_mono (tokens_of obj) (Nat.zero_le i)
    omega
  intro n hn hsep
  have hid : n.id < (tokens_of obj).length := by
    obtain ⟨t, ht⟩ := laid_has_tok s1 0 hl1 n hn hsep
    have h3 := (hl1.2.2 n hn hsep).1
    rw [ht] at h3
    by_contra hge
    rw [List.getElem?_eq_none (by omega)] at h3
    simp at h3
  by_cases hT : 2 ≤ (tokens_of obj).length
  · obtain ⟨hc1, hlt⟩ := flat_column_lt hs hT
    have h12 := flat_column_mono (tokens_of obj) (show 1 ≤ 2 by omega)
    obtain ⟨k1, k2⟩ := key 1 (by omega) (by omega) n hn hsep
    refine ⟨k1, by have := hlt n.id hid; omega, fun hne => ?_⟩
    obtain ⟨t, ht⟩ := getElem?_some_of_lt (show 1 < (tokens_of obj).length by omega)
    have h2 : flat_column (tokens_of obj) 2
        = flat_column (tokens_of obj) 1 + t.toString.length := flat_column_succ ht
    have := hne t ht
    have := (key 0 (by omega) (by omega) n hn hsep).1
    omega
  · have h0 : n.id = 0 := by omega
    obtain ⟨_, k2⟩ := key 2 (by omega) (by have := hnn 2; omega) n hn hsep
    have := k2 h0
    have h3 := flat_column_le (tokens_of obj) 0
    rw [h0, hF0]
    exact ⟨by omega, by omega, fun _ => by omega⟩

/-- The loop of `getFirstBadLine` over a part of the list in which no token has an offset
beyond the line length and the last node is no separator: no bad line. -/
theorem getFirstBadLine_walk_fit (w : Int) :
    ∀ (rest : NodeList) (cl : Int) (cln : Nat),
      (∀ n ∈ rest, n.is_line_separator = false → n.offset ≤ w) →
      (∀ pre m, rest = pre ++ [m] → m.is_line_separator = false) →
      getFirstBadLine_walk w cl cln rest = .ok none := by
  intro rest
  induction rest with
  | nil => intro cl cln _ _; rfl
  | cons n rest ih =>
    intro cl cln h hlast
    have hrec : ∀ (cl1 : Int) (cln1 : Nat), getFirstBadLine_walk w cl1 cln1 rest = .ok none :=
      fun cl1 cln1 => ih cl1 cln1 (fun m hm => h m (List.mem_cons_of_mem _ hm))
        (fun pre m e => hlast (n :: pre) m (by rw [e]; rfl))
    cases hs : n.is_line_separator with
    | true =>
      cases hr : rest with
      | nil =>
        have := hlast [] n (by rw [hr]; rfl)
        rw [hs] at this
        simp at this
      | cons x xs =>
        have := hrec cl cln
        rw [hr] at this
        rw [getFirstBadLine_walk, if_pos hs]
        exact this
    | false =>
      have hno : ¬ n.offset > w := by
        have := h n (by simp) hs
        omega
      cases hr : rest with
      | nil => simp only [getFirstBadLine_walk, hs, Bool.false_eq_true, if_false, hno]
      | cons x xs =>
        have := fun a b => hrec a b
        rw [hr] at this
        rw [getFirstBadLine_walk, if_neg (by simp [hs])]
        simp only [hno, if_false]
        exact this _ _

/-- The last node of a list with the property `placed` is no separator. -/
theorem placed_walk_last :
    ∀ (l : NodeList) (prev : Option PrettyPrinterNode), placed_walk prev l →
      ∀ pre m, l = pre ++ [m] → m.is_line_separator = false := by
  intro l
  induction l with
  | nil => intro prev _ pre m e; simp at e
  | cons n rest ih =>
    intro prev hp pre m e
    rw [placed_walk_cons] at hp
    cases pre with
    | nil =>
      simp only [List.nil_append, List.cons.injEq] at e
      obtain ⟨e1, e2⟩ := e
      subst e1
      cases hs : n.is_line_separator with
      | false => rfl
      | true =>
        obtain ⟨_, _, x, post, e3, _⟩ := hp.1 hs
        rw [e3] at e2
        simp at e2
    | cons p0 pre1 =>
      simp only [List.cons_append, List.cons.injEq] at e
      exact ih (some n) hp.2 pre1 m e.2

/-- When no token of a list of the call has an offset beyond the line length,
`getFirstBadLine` finds no bad line from any token on. -/
theorem getFirstBadLine_fit {obj : Object} (hs : supported obj) {s : NodeList}
    (hr : reachable obj s) {w : Int}
    (hfit : ∀ n ∈ s, n.is_line_separator = false → n.offset ≤ w)
    {c : Nat} (hc : c < (tokens_of obj).length) :
    getFirstBadLine s (some c) w = .ok none := by
  have hl := reachable_laid hs hr
  have hP := (reachable_sound hs hr).2.1
  obtain ⟨n, hn, hreal, hid, _⟩ := laid_node_at hl hc
  have hd : deref s (some c) = .ok n := by simp [deref, hn]
  have hsuf := nodes_before_append_from s n.id
  simp only [getFirstBadLine, hd, bind, Except.bind, assert, hreal, Bool.not_false, if_true]
  refine getFirstBadLine_walk_fit w _ _ _ (fun m hm => hfit m (mem_nodes_from hm))
    (fun pre m e => ?_)
  refine placed_walk_last s none hP (nodes_before s n.id ++ pre) m ?_
  rw [List.append_assoc, ← e, hsuf]

/-- The search at the top of the outer loop of `insertBreaksAsNeeded`, in its first turn:
when no token has an offset beyond the line length, there is no candidate line. -/
theorem find_candidate_line_fit {obj : Object} (hs : supported obj) {s : NodeList}
    (hr : reachable obj s) {w : Int}
    (hfit : ∀ n ∈ s, n.is_line_separator = false → n.offset ≤ w) :
    find_candidate_line s none (some 0) w = .ok none := by
  have hl := reachable_laid hs hr
  obtain ⟨t, rest, ht, _⟩ := tokens_of_head hs
  have h0 : 0 < (tokens_of obj).length := by rw [ht]; simp
  obtain ⟨n, hn, hreal, hid, _⟩ := laid_node_at hl h0
  have hd : deref s (some 0) = .ok n := by simp [deref, hn]
  simp only [find_candidate_line, getFirstBadLine_fit hs hr hfit h0, bind, Except.bind,
    if_true, getNextLine, hd, assert, hreal, Bool.not_false, pure, Except.pure]
  cases hx : getNextLine_walk n.line (nodes_from s n.id) with
  | none => rfl
  | some c =>
    simp only
    obtain ⟨m, hm, hms, _, hmid⟩ := getNextLine_walk_some _ _ _ hx
    have hm2 := mem_nodes_from hm
    have hc : c < (tokens_of obj).length := by
      obtain ⟨u, hu⟩ := laid_has_tok s 0 hl m hm2 hms
      have h3 := (hl.2.2 m hm2 hms).1
      rw [hu, hmid] at h3
      by_contra hge
      rw [List.getElem?_eq_none (by omega)] at h3
      simp at h3
    exact getFirstBadLine_fit hs hr hfit hc

/-- The outer loop of `insertBreaksAsNeeded`, started on a list of the call with a line
length that is at least the length of the flat rendering: it ends in its first turn and
returns what the `propagatePretty` pass of this turn returns. -/
theorem insertBreaks_loop_fit {obj : Object} (hs : supported obj) {s s1 : NodeList}
    (hr : reachable obj s) {w : Int} {rv : Option Nat}
    (hw : text_width (tokens_of obj) ≤ w)
    (hp : propagatePretty s (some 0) w = .ok (s1, rv)) (fuel inner : Nat) :
    insertBreaks_loop (some 0) w inner (fuel + 1) s none (some 0) = .ok s1 := by
  have hfit : ∀ n ∈ s1, n.is_line_separator = false → n.offset ≤ w := fun n hn hsep =>
    (propagated_offsets_bounded hs hr hp n hn hsep).2.1.trans hw
  have hc := find_candidate_line_fit hs (.propagated hr hp) hfit
  simp only [insertBreaks_loop, hp, hc, bind, Except.bind, pure, Except.pure]

/-- The passes of `to_string` on a supported object. -/
theorem to_string_passes {obj : Object} (hs : supported obj) (w : Int) :
    to_string obj w =
      (insertSpecialBreaks (loop_fuel (tokens_of obj))
          (build_linked 0 0 (tokens_of obj) (links_of obj 0 none)) (some 0) >>= fun s2 =>
        propagatePretty s2 (some 0) w >>= fun p =>
          insertBreaksAsNeeded (loop_fuel (tokens_of obj)) (loop_fuel (tokens_of obj)) p.1
            (some 0) w >>= fun s4 => render true s4) := by
  obtain ⟨t, rest, ht, _⟩ := tokens_of_head hs
  have h1 := add_to_token_list_of_supported obj [] hs
  simp only [List.nil_append] at h1
  have hne : (tokens_of obj).isEmpty = false := by rw [ht]; rfl
  unfold to_string
  simp only [h1, bind, Except.bind, assert, hne, Bool.not_false, if_true,
    attach_parens_spec hs, List.length_singleton, decide_True, List.head?_cons]

/-- C30 (width independence above the flat length): for every supported object and two
line lengths that are at least the length of the flat one-line rendering of its tokens,
`to_string` gives the same result for both. When the special-form pass returns, the
`propagatePretty` pass behind it returns a list `s3` in which no token has an offset of
more than its column in the flat rendering plus one, none has an offset beyond the length
of the flat rendering, and none has an offset of more than its column in the flat rendering
when the token behind the first one does not print as the empty text. The break insertion
returns the list `s4` that its own `propagatePretty` pass makes of `s3`: a list with the
same nodes as `s3` and the same bounds on the offsets, on which the search for a bad line
finds no line, so no break is inserted, and `to_string` renders this list. -/
theorem width_independence_above_flat_length {obj : Object} (hs : supported obj)
    (w1 w2 : Int) (h1 : ((flat_text (tokens_of obj)).length : Int) ≤ w1)
    (h2 : ((flat_text (tokens_of obj)).length : Int) ≤ w2) :
    to_string obj w1 = to_string obj w2 ∧
    ∀ s2, insertSpecialBreaks (loop_fuel (tokens_of obj))
        (build_linked 0 0 (tokens_of obj) (links_of obj 0 none)) (some 0) = .ok s2 →
      ∃ s3 rv s4 rv4, propagatePretty s2 (some 0) w1 = .ok (s3, rv) ∧
        propagatePretty s3 (some 0) w1 = .ok (s4, rv4) ∧
        insertBreaksAsNeeded (loop_fuel (tokens_of obj)) (loop_fuel (tokens_of obj)) s3
          (some 0) w1 = .ok s4 ∧
        same_shape s3 s4 ∧
        (∀ s, s = s3 ∨ s = s4 → ∀ n ∈ s, n.is_line_separator = false →
          n.offset ≤ flat_column (tokens_of obj) n.id + 1 ∧
          n.offset ≤ ((flat_text (tokens_of obj)).length : Int) ∧
          ((∀ t, (tokens_of obj)[1]? = some t → 0 < t.toString.length) →
            n.offset ≤ flat_column (tokens_of obj) n.id)) ∧
        getFirstBadLine s3 (some 0) w1 = .ok none ∧
        find_candidate_line s4 none (some 0) w1 = .ok none ∧
        to_string obj w1 = render true s4 := by
  have hw1 : text_width (tokens_of obj) ≤ w1 := by rw [text_width_eq_length]; exact h1
  have hw2 : text_width (tokens_of obj) ≤ w2 := by rw [text_width_eq_length]; exact h2
  have hfuel : loop_fuel (tokens_of obj) = ((tokens_of obj).length + 1) + 1 := rfl
  have stage : ∀ s2, insertSpecialBreaks (loop_fuel (tokens_of obj))
        (build_linked 0 0 (tokens_of obj) (links_of obj 0 none)) (some 0) = .ok s2 →
      ∃ s3 s4, reachable obj s2 ∧ reachable obj s3 ∧ same_shape s3 s4 ∧
        ∀ w, text_width (tokens_of obj) ≤ w →
          ∃ rv rv4, propagatePretty s2 (some 0) w = .ok (s3, rv) ∧
            propagatePretty s3 (some 0) w = .ok (s4, rv4) ∧
            insertBreaksAsNeeded (loop_fuel (tokens_of obj)) (loop_fuel (tokens_of obj)) s3
              (some 0) w = .ok s4 ∧
            to_string obj w = render true s4 := by
    intro s2 hsp
    have hr2 : reachable obj s2 := insertSpecialBreaks_reach hs .start hsp
    obtain ⟨s3, rv, s4, rv4, p1, p2, hsh, _, _⟩ :=
      propagatePretty_twice hs (reachable_sound hs hr2).1 w1
    have hr3 : reachable obj s3 := .propagated hr2 p1
    refine ⟨s3, s4, hr2, hr3, hsh, fun w hw => ?_⟩
    obtain ⟨rvA, q1⟩ := propagatePretty_width w1 w p1
    obtain ⟨rvB, q2⟩ := propagatePretty_width w1 w p2
    have hib : insertBreaksAsNeeded (loop_fuel (tokens_of obj)) (loop_fuel (tokens_of obj)) s3
        (some 0) w = .ok s4 := by
      rw [insertBreaksAsNeeded, hfuel]
      exact insertBreaks_loop_fit hs hr3 hw q2 _ _
    refine ⟨rvA, rvB, q1, q2, hib, ?_⟩
    rw [to_string_passes hs w]
    simp only [hsp, q1, hib, bind, Except.bind]
  constructor
  · cases hsp : insertSpecialBreaks (loop_fuel (tokens_of obj))
        (build_linked 0 0 (tokens_of obj) (links_of obj 0 none)) (some 0) with
    | error e =>
      rw [to_string_passes hs w1, to_string_passes hs w2]
      simp only [hsp, bind, Except.bind]
    | ok s2 =>
      obtain ⟨s3, s4, _, _, _, hall⟩ := stage s2 hsp
      obtain ⟨_, _, _, _, _, e1⟩ := hall w1 hw1
      obtain ⟨_, _, _, _, _, e2⟩ := hall w2 hw2
      rw [e1, e2]
  · intro s2 hsp
    obtain ⟨s3, s4, hr2, hr3, hsh, hall⟩ := stage s2 hsp
    obtain ⟨rv, rv4, p1, p2, hib, e1⟩ := hall w1 hw1
    have hb3 := propagated_offsets_bounded hs hr2 p1
    have hb4 := propagated_offsets_bounded hs hr3 p2
    have hlen := text_width_eq_length (tokens_of obj)
    have hT : 0 < (tokens_of obj).length := by
      obtain ⟨t, rest, ht, _⟩ := tokens_of_head hs
      rw [ht]; simp
    refine ⟨s3, rv, s4, rv4, p1, p2, hib, hsh, ?_, ?_, ?_, e1⟩
    · intro s hs34 n hn hsep
      rcases hs34 with e | e
      · subst e
        obtain ⟨k1, k2, k3⟩ := hb3 n hn hsep
        exact ⟨k1, by rw [← hlen]; exact k2, k3⟩
      · subst e
        obtain ⟨k1, k2, k3⟩ := hb4 n hn hsep
        exact ⟨k1, by rw [← hlen]; exact k2, k3⟩
    · exact getFirstBadLine_fit hs hr3
        (fun n hn hsep => (hb3 n hn hsep).2.1.trans hw1) hT
    · exact find_candidate_line_fit hs (.propagated hr3 p2)
        (fun n hn hsep => (hb4 n hn hsep).2.1.trans hw1)

set_option maxRecDepth 100000 in
/-- Witness for C30: the list `(foo 1 2)`, whose flat rendering has nine columns, at the
line lengths 9 and 80. -/
theorem width_independence_above_flat_length_witness :
    supported (build_list [.SYMBOL "foo", .INTEGER "1", .INTEGER "2"]) ∧
      ((flat_text (tokens_of (build_list [.SYMBOL "foo", .INTEGER "1", .INTEGER "2"]))).length
        : Int) ≤ 9 ∧
      to_string (build_list [.SYMBOL "foo", .INTEGER "1", .INTEGER "2"]) 9
        = to_string (build_list [.SYMBOL "foo", .INTEGER "1", .INTEGER "2"]) 80 :=
  ⟨by simp [build_list, supported], by decide,
    (width_independence_above_flat_length
      (by simp [build_list, supported]) 9 80 (by decide) (by decide)).1⟩

set_option maxRecDepth 100000 in
/-- C30, evaluated at the list of the symbol with the empty name and the symbol `begin`,
with the line length 8, the length of the flat rendering `( begin)`: after the special-form
pass and `propagatePretty` the tokens have the offsets 0, 1, 2, 3 and 2, while their
columns in the flat rendering are 0, 1, 1, 2 and 7, so the whitespace and the token `begin`
have an offset of one more than their column in the flat rendering. -/
theorem offset_beyond_flat_column :
    supported (build_list [.SYMBOL "", .SYMBOL "begin"]) ∧
      (flat_text (tokens_of (build_list [.SYMBOL "", .SYMBOL "begin"]))).length = 8 ∧
      (insertSpecialBreaks (loop_fuel (tokens_of (build_list [.SYMBOL "", .SYMBOL "begin"])))
          (build_linked 0 0 (tokens_of (build_list [.SYMBOL "", .SYMBOL "begin"]))
            (links_of (build_list [.SYMBOL "", .SYMBOL "begin"]) 0 none)) (some 0) >>= fun s2 =>
        propagatePretty s2 (some 0) 8 >>= fun p =>
          pure ((p.1.filter (fun n => !n.is_line_separator)).map (fun n => (n.id, n.offset))))
        = .ok [(0, 0), (1, 1), (2, 2), (3, 3), (4, 2)] ∧
      (List.range 5).map (flat_column (tokens_of (build_list [.SYMBOL "", .SYMBOL "begin"])))
        = [0, 1, 1, 2, 7] ∧
      to_string (build_list [.SYMBOL "", .SYMBOL "begin"]) 8 = .ok "(\n  begin\n  )" :=
  ⟨by simp [build_list, supported], by rfl, by rfl, by rfl, by rfl⟩

/-- The addresses of the nodes of a part of a list that holds the tokens from `a` on. -/
theorem laid_ids_part {toks : List FormToken} {links : List (Option Nat)} :
    ∀ (A rest : NodeList) (a : Nat), laid toks links a (A ++ rest) →
      ∀ m ∈ A, (m.is_line_separator = false → m.id < a + (real_tokens A).length) ∧
        (m.is_line_separator = true → toks.length ≤ m.id) := by
  intro A
  induction A with
  | nil => intro rest a _ m hm; simp at hm
  | cons x A ih =>
    intro rest a h m hm
    obtain ⟨f1, f2⟩ := laid_cons h
    cases hx : x.is_line_separator with
    | true =>
      obtain ⟨g1, g2⟩ := f1 hx
      have e : real_tokens (x :: A) = real_tokens A := by
        simp [real_tokens, List.filter_cons, hx]
      rw [e]
      rcases List.mem_cons.1 hm with k | k
      · subst k
        exact ⟨fun h0 => by rw [hx] at h0; simp at h0, fun _ => g1⟩
      · exact ih rest a g2 m k
    | false =>
      obtain ⟨g1, g2, g3, g4, g5⟩ := f2 hx
      obtain ⟨t, ht⟩ := getElem?_some_of_lt g2
      rw [ht] at g3
      have hlen : (real_tokens (x :: A)).length = 1 + (real_tokens A).length := by
        simp [real_tokens, List.filter_cons, hx, g3]
        omega
      rw [hlen]
      rcases List.mem_cons.1 hm with k | k
      · subst k
        exact ⟨fun _ => by omega, fun h0 => by rw [hx] at h0; simp at h0⟩
      · obtain ⟨i1, i2⟩ := ih rest (a + 1) g5 m k
        exact ⟨fun h0 => by have := i1 h0; omega, i2⟩

/-- In a list that holds the tokens of a tree, no node before a token node has the address
of this node. -/
theorem laid_split_ids {toks : List FormToken} {links : List (Option Nat)} {A R : NodeList}
    {o : PrettyPrinterNode} (hl : laid toks links 0 (A ++ o :: R))
    (ho : o.is_line_separator = false) : ∀ m ∈ A, m.id ≠ o.id := by
  intro m hm
  obtain ⟨i1, i2⟩ := laid_ids_part A (o :: R) 0 hl m hm
  have g := laid_append A (o :: R) 0 hl
  obtain ⟨g1, g2, _⟩ := (laid_cons g).2 ho
  cases hms : m.is_line_separator with
  | true => have := i2 hms; omega
  | false => have := i1 hms; omega

/-- What `settled_walk` says at a node of the part. -/
theorem settled_walk_at :
    ∀ (l pre : NodeList), settled_walk pre l → ∀ A c B, l = A ++ c :: B →
      c.is_line_separator = false → ∃ t, c.tok = some t ∧
        (t.kind = .CLOSE_PAREN → ∃ o po, c.paren = some o ∧ node_at (pre ++ A) o = some po ∧
          po.is_line_separator = false ∧
          (separators (nodes_before (pre ++ A) o) = separators (pre ++ A) ∨
            stands_alone (pre ++ A) B)) := by
  intro l
  induction l with
  | nil => intro pre _ A c B e; simp at e
  | cons x rest ih =>
    intro pre h A c B e hc
    obtain ⟨h1, h2⟩ := h
    cases A with
    | nil =>
      simp only [List.nil_append, List.cons.injEq] at e
      obtain ⟨e1, e2⟩ := e
      subst e1 e2
      simpa using h1 hc
    | cons a A1 =>
      simp only [List.cons_append, List.cons.injEq] at e
      obtain ⟨e1, e2⟩ := e
      subst e1
      have := ih (pre ++ [x]) h2 A1 c B e2 hc
      simpa using this

/-- After a `propagatePretty` pass every close paren with a separator between its open
paren and itself stands alone on its line. -/
theorem propagatePretty_alone {obj : Object} (hs : supported obj) {s s3 : NodeList}
    {rv : Option Nat} {w : Int}
    (hE : Evolves (build_linked 0 0 (tokens_of obj) (links_of obj 0 none)) s)
    (hp : propagatePretty s (some 0) w = .ok (s3, rv)) : close_parens_alone s3 := by
  obtain ⟨s1, rv1, p1, hw, _⟩ := propagatePretty_settles hs hE w
  rw [hp] at p1
  simp only [Except.ok.injEq, Prod.mk.injEq] at p1
  obtain ⟨e1, _⟩ := p1
  subst e1
  have hl := (hE.andThen (propagatePretty_evolves hp)).laid (laid_build_linked hs)
  intro A o B c C e ho hc hclose hpar hsep
  obtain ⟨t, ht, hk⟩ := hclose
  have e2 : s3 = (A ++ o :: B) ++ c :: C := by rw [e]; simp
  obtain ⟨t1, ht1, hfact⟩ := settled_walk_at s3 [] hw (A ++ o :: B) c C e2 hc
  rw [ht] at ht1
  simp only [Option.some.injEq] at ht1
  subst ht1
  obtain ⟨o1, po, hp1, hpo, _, hcase⟩ := hfact hk
  rw [hpar] at hp1
  simp only [Option.some.injEq] at hp1
  subst hp1
  simp only [List.nil_append] at hpo hcase
  have hne : ∀ m ∈ A, m.id ≠ o.id := by
    rw [e] at hl
    exact laid_split_ids hl ho
  have hb : nodes_before (A ++ o :: B) o.id = A := nodes_before_stop o.id o B rfl A hne
  obtain ⟨m, hm, hms⟩ := hsep
  have hpos : 0 < separators B := by
    unfold separators
    exact List.countP_pos_iff.2 ⟨m, hm, by simpa using hms⟩
  rcases hcase with hcase | hcase
  · rw [hb] at hcase
    have : separators (A ++ o :: B) = separators A + separators B := by
      rw [separators_append, separators_cons_tok o B ho]
    omega
  · obtain ⟨k1, k2⟩ := hcase
    refine ⟨?_, k2⟩
    rcases k1 with k1 | ⟨pre1, q, k1, hq⟩
    · simp at k1
    · have hBne : B ≠ [] := by intro h0; subst h0; simp at hm
      obtain ⟨B1, q1, hB⟩ : ∃ B1 q1, B = B1 ++ [q1] := by
        rcases List.eq_nil_or_concat B with h0 | ⟨L, b, h0⟩
        · exact absurd h0 hBne
        · exact ⟨L, b, by simpa using h0⟩
      subst hB
      have e3 : A ++ o :: (B1 ++ [q1]) = (A ++ o :: B1) ++ [q1] := by simp
      rw [e3] at k1
      have := List.append_inj' k1 rfl
      obtain ⟨_, e4⟩ := this
      simp only [List.cons.injEq, and_true] at e4
      subst e4
      exact ⟨B1, q1, rfl, hq⟩

/-- C11 (close-paren isolation): let `obj` be built from the supported kinds. After every
`propagatePretty` pass over a list of the call `to_string obj w` (a list that comes from the
initial one by splicing in separators and recomputing the layout), every close paren whose
open paren is on a different line, that is, with a separator somewhere between the open
paren and the close paren, stands directly behind a separator and is the last node or
stands directly before a separator. The list that `to_string` renders comes out of such a
pass: in it the close parens are isolated in the same way, and in the output every such
close paren has a line break before it and is the last token or has a line break behind
it. -/
theorem close_paren_isolation (obj : Object) (hs : supported obj) (w : Int) :
    (∀ s s3 rv, Evolves (build_linked 0 0 (tokens_of obj) (links_of obj 0 none)) s →
      propagatePretty s (some 0) w = .ok (s3, rv) → close_parens_alone s3) ∧
    ∀ out, to_string obj w = .ok out →
      ∃ s4, render true s4 = .ok out ∧ out = join_lines (lines_of true s4) ∧
        real_tokens s4 = tokens_of obj ∧ close_parens_alone s4 ∧
        ∀ A o B c C, s4 = A ++ o :: (B ++ c :: C) →
          o.is_line_separator = false → c.is_line_separator = false →
          (∃ t, c.tok = some t ∧ t.kind = .CLOSE_PAREN) → c.paren = some o.id →
          (∃ m ∈ B, m.is_line_separator = true) →
            break_at (lines_of true s4) c.id ∧
            (c.id + 1 = (tokens_of obj).length ∨ break_at (lines_of true s4) (c.id + 1)) := by
  refine ⟨fun s s3 rv hE h => propagatePretty_alone hs hE h, ?_⟩
  intro out h
  obtain ⟨sa, s4, rv, E, hp, hr⟩ := to_string_final_pass h
  have iso := propagatePretty_alone hs E hp
  have E4 := E.andThen (propagatePretty_evolves hp)
  have hl := E4.laid (laid_build_linked hs)
  refine ⟨s4, hr, render_eq_join_lines _ _ _ hr, ?_, iso, ?_⟩
  · rw [E4.1.real_tokens, real_tokens_build_linked _ _ _ _ (links_of_length _ _ _)]
  · intro A o B c C e ho hc hclose hpar hsep
    obtain ⟨⟨B1, q, e1, hq⟩, hpost⟩ := iso A o B c C e ho hc hclose hpar hsep
    subst e1
    have e2 : s4 = (A ++ o :: B1) ++ q :: c :: C := by rw [e]; simp
    constructor
    · rw [e2] at hl ⊢
      exact break_at_of_sep_before hl hq hc
    · rcases hpost with hpost | ⟨m, post1, hpost, hm⟩
      · left
        subst hpost
        rw [e2] at hl
        have e3 : (A ++ o :: B1) ++ [q, c] = (A ++ o :: B1 ++ [q]) ++ [c] := by simp
        rw [e3] at hl
        have g := laid_append (A ++ o :: B1 ++ [q]) [c] 0 hl
        obtain ⟨g1, g2, _, _, g5⟩ := (laid_cons g).2 hc
        have := g5.1.1
        simp only [real_ids, List.filter_nil, List.map_nil] at this
        have h0 := congrArg List.length this
        simp only [List.length_nil, List.length_range'] at h0
        omega
      · right
        exact break_at_of_sep_after hl
          ⟨A ++ o :: B1 ++ [q], c, m, post1, by rw [e, hpost]; simp, rfl, hc, hm⟩

set_option maxRecDepth 100000 in
/-- Witness for C11: `(deftype foo (bar) x)` at width 80, where the separator before the
last close paren comes from the `propagatePretty` pass. -/
theorem close_paren_isolation_witness :
    supported (build_list [.SYMBOL "deftype", .SYMBOL "foo", build_list [.SYMBOL "bar"],
      .SYMBOL "x"]) ∧
      to_string (build_list [.SYMBOL "deftype", .SYMBOL "foo", build_list [.SYMBOL "bar"],
        .SYMBOL "x"]) 80 = .ok "(deftype foo (bar)\n  x\n  )" ∧
      ∃ s4, render true s4 = .ok "(deftype foo (bar)\n  x\n  )" ∧ close_parens_alone s4 :=
  ⟨by simp [supported, build_list], by rfl,
    let ⟨s4, h1, _, _, h4, _⟩ :=
      (close_paren_isolation (build_list [.SYMBOL "deftype", .SYMBOL "foo",
        build_list [.SYMBOL "bar"], .SYMBOL "x"])
        (by simp [supported, build_list]) 80).2 "(deftype foo (bar)\n  x\n  )" (by rfl)
    ⟨s4, h1, h4⟩⟩

theorem spaces_length (k : Nat) : (spaces k).length = k := by
  simp [spaces, String.length]

set_option maxRecDepth 100000 in
/-- C9 (an unbreakable atom), as the code has it: for every supported tree, every width and
every token of the tree that is no whitespace and is wider than the width, the resolver
terminates on the list that `to_string` hands to it, and when `to_string` returns, the
token is printed uncut on one line of the output, and this line is longer than the width.
For the tree `(a (b (c X)))`, `X` being a symbol of 200 characters, and width 40,
`to_string` returns the seven lines stated, of which only the line holding `X`, printed
uncut after four spaces, has more than 40 columns. -/
theorem unbreakable_atom_line (obj : Object) (hs : supported obj) (w : Int) (t : FormToken)
    (ht : t ∈ tokens_of obj) (hk : t.kind ≠ .WHITESPACE)
    (hwide : w < (t.toString.length : Int)) :
    (∀ s2 s3 rv, insertSpecialBreaks (loop_fuel (tokens_of obj))
        (build_linked 0 0 (tokens_of obj) (links_of obj 0 none)) (some 0) = .ok s2 →
      propagatePretty s2 (some 0) w = .ok (s3, rv) →
      Halts (insertBreaksAsNeeded (loop_fuel (tokens_of obj)) (loop_fuel (tokens_of obj)) s3
        (some 0) w)) ∧
    (∀ out, to_string obj w = .ok out →
      ∃ lines, out = join_lines lines ∧ lines.flatMap OutLine.tokens = tokens_of obj ∧
        ∃ l ∈ lines, ∃ A B, l.toks = A ++ t :: B ∧
          l.text = spaces l.indent ++ flat_text A ++ t.toString ++ flat_text B ∧
          w < (l.text.length : Int)) ∧
    to_string (build_list [.SYMBOL "a", build_list [.SYMBOL "b",
        build_list [.SYMBOL "c", .SYMBOL (String.mk (List.replicate 200 'X'))]]]) 40
      = .ok ("(a\n  (b\n   (c\n    " ++ String.mk (List.replicate 200 'X')
          ++ "\n    )\n   )\n  )") ∧
    (["(a", "  (b", "   (c", "    " ++ String.mk (List.replicate 200 'X'), "    )", "   )",
        "  )"].filter (fun l => decide (l.length > 40))
      = ["    " ++ String.mk (List.replicate 200 'X')]) ∧
    "\n".intercalate ["(a", "  (b", "   (c", "    " ++ String.mk (List.replicate 200 'X'),
        "    )", "   )", "  )"]
      = "(a\n  (b\n   (c\n    " ++ String.mk (List.replicate 200 'X') ++ "\n    )\n   )\n  )" := by
  refine ⟨?_, ?_, by rfl, by rfl, by rfl⟩
  · intro s2 s3 rv h2 h3
    have hr2 : reachable obj s2 := insertSpecialBreaks_reach hs .start h2
    have hr3 : reachable obj s3 := .propagated hr2 h3
    exact halts_insertBreaksAsNeeded (reachable_numbered hs hr3) _ _ (Nat.le_refl _)
      (Nat.le_refl _) w
  · intro out h
    obtain ⟨lines, _, h2, h3, h4, _⟩ := to_string_lines h
    refine ⟨lines, h2, h3, ?_⟩
    have hm : t ∈ lines.flatMap OutLine.tokens := by rw [h3]; exact ht
    obtain ⟨l, hl, htl⟩ := List.mem_flatMap.1 hm
    have htoks : t ∈ l.toks := by
      simp only [OutLine.tokens, List.mem_append] at htl
      rcases htl with k | k
      · cases hd : l.dropped with
        | none => rw [hd] at k; simp at k
        | some u =>
          rw [hd] at k
          simp only [Option.toList_some, List.mem_singleton] at k
          subst k
          exact absurd (h4 l hl t hd) hk
      · exact k
    obtain ⟨A, B, e⟩ := List.append_of_mem htoks
    refine ⟨l, hl, A, B, e, ?_, ?_⟩
    · simp only [OutLine.text, e, flat_text_append, flat_text, String.append_assoc]
    · simp only [OutLine.text, e, flat_text_append, flat_text, String.length_append,
        spaces_length]
      push_cast
      omega

set_option maxRecDepth 100000 in
/-- Witness for C9: the tree `(a (b (c X)))`, `X` being a symbol of 200 characters, at
width 40. -/
theorem unbreakable_atom_line_witness :
    supported (build_list [.SYMBOL "a", build_list [.SYMBOL "b",
        build_list [.SYMBOL "c", .SYMBOL (String.mk (List.replicate 200 'X'))]]]) ∧
      ∃ lines, "(a\n  (b\n   (c\n    " ++ String.mk (List.replicate 200 'X')
          ++ "\n    )\n   )\n  )" = join_lines lines ∧
        ∃ l ∈ lines, ∃ A B,
          l.toks = A ++ ⟨.STRING, String.mk (List.replicate 200 'X')⟩ :: B ∧
            (40 : Int) < (l.text.length : Int) :=
  ⟨by simp [build_list, supported],
    let ⟨_, h, h40, _, _⟩ := unbreakable_atom_line
      (build_list [.SYMBOL "a", build_list [.SYMBOL "b",
        build_list [.SYMBOL "c", .SYMBOL (String.mk (List.replicate 200 'X'))]]])
      (by simp [build_list, supported]) 40 ⟨.STRING, String.mk (List.replicate 200 'X')⟩
      (by simp [build_list, tokens_of, rest_tokens_of]) (by decide) (by decide)
    let ⟨lines, e, _, l, hl, A, B, e1, _, e3⟩ := h _ h40
    ⟨lines, e, l, hl, A, B, e1, e3⟩⟩

set_option maxRecDepth 100000 in
/-- C9, counterexample: for the tree `(a (b (c X)))`, `X` being a symbol of 200 characters,
and width 3, `to_string` returns the same seven lines, and five of them are longer than
the width. -/
theorem several_lines_exceed_width :
    to_string (build_list [.SYMBOL "a", build_list [.SYMBOL "b",
        build_list [.SYMBOL "c", .SYMBOL (String.mk (List.replicate 200 'X'))]]]) 3
      = .ok ("(a\n  (b\n   (c\n    " ++ String.mk (List.replicate 200 'X')
          ++ "\n    )\n   )\n  )") ∧
    (["(a", "  (b", "   (c", "    " ++ String.mk (List.replicate 200 'X'), "    )", "   )",
        "  )"].filter (fun l => decide (l.length > 3))
      = ["  (b", "   (c", "    " ++ String.mk (List.replicate 200 'X'), "    )", "   )"]) ∧
    "\n".intercalate ["(a", "  (b", "   (c", "    " ++ String.mk (List.replicate 200 'X'),
        "    )", "   )", "  )"]
      = "(a\n  (b\n   (c\n    " ++ String.mk (List.replicate 200 'X') ++ "\n    )\n   )\n  )" :=
  ⟨by rfl, by rfl, by rfl⟩

theorem insertSpecialBreaks_loop_append (fuel : Nat) :
    ∀ (todo1 todo2 : List Nat) (s : NodeList),
      insertSpecialBreaks_loop fuel s (todo1 ++ todo2) =
        (insertSpecialBreaks_loop fuel s todo1).bind
          (fun s1 => insertSpecialBreaks_loop fuel s1 todo2) := by
  intro todo1
  induction todo1 with
  | nil => intro todo2 s; rfl
  | cons p todo1 ih =>
    intro todo2 s
    simp only [List.cons_append, insertSpecialBreaks_loop]
    cases special_breaks_at fuel s p with
    | error e => rfl
    | ok s1 => exact ih todo2 s1

theorem range_split (T x : Nat) (hx : x < T) :
    List.range' 0 T = List.range' 0 x ++ x :: List.range' (x + 1) (T - x - 1) := by
  have e1 := List.range'_append_1 0 x (T - x)
  have e2 : T - x + x = T := by omega
  have e3 : T - x = (T - x - 1) + 1 := by omega
  rw [e2] at e1
  rw [← e1, Nat.zero_add]
  conv => lhs; rw [e3, List.range'_succ]

/-- The list with which the loop arrives at the next token. -/
theorem pass_at_succ (obj : Object) (x : Nat) :
    pass_at obj (x + 1) =
      (pass_at obj x).bind (fun s => special_breaks_at (loop_fuel (tokens_of obj)) s x) := by
  unfold pass_at
  have e : List.range' 0 (x + 1) = List.range' 0 x ++ [x] := by
    have := range_split (x + 1) x (by omega)
    simpa using this
  rw [e, insertSpecialBreaks_loop_append]
  cases insertSpecialBreaks_loop (loop_fuel (tokens_of obj))
    (build_linked 0 0 (tokens_of obj) (links_of obj 0 none)) (List.range' 0 x) with
  | error e => rfl
  | ok s =>
    simp only [Except.bind, insertSpecialBreaks_loop]
    cases special_breaks_at (loop_fuel (tokens_of obj)) s x <;> rfl

/-- The special-form pass of `to_string`, cut at the token with the address `x`: the pass
up to this token, the body of the loop at this token, and the loop over the tokens behind
it. -/
theorem special_pass_turns (obj : Object) (x : Nat) (hx : x < (tokens_of obj).length) :
    insertSpecialBreaks (loop_fuel (tokens_of obj))
        (build_linked 0 0 (tokens_of obj) (links_of obj 0 none)) (some 0) =
      (pass_at obj x).bind (fun sx =>
        (special_breaks_at (loop_fuel (tokens_of obj)) sx x).bind (fun s1 =>
          insertSpecialBreaks_loop (loop_fuel (tokens_of obj)) s1
            (List.range' (x + 1) ((tokens_of obj).length - x - 1)))) := by
  have hlen := links_of_length obj 0 none
  have hids := ids_build_linked (tokens_of obj) (links_of obj 0 none) 0 0 hlen
  have hfrom : nodes_from (build_linked 0 0 (tokens_of obj) (links_of obj 0 none)) 0
      = build_linked 0 0 (tokens_of obj) (links_of obj 0 none) := by
    generalize tokens_of obj = toks at hlen hx
    generalize links_of obj 0 none = links at hlen
    cases toks with
    | nil => simp at hx
    | cons t rest =>
      cases links with
      | nil => simp at hlen
      | cons q qs => simp [build_linked, nodes_from]
  simp only [insertSpecialBreaks, hfrom, hids, pass_at]
  rw [range_split _ x hx, insertSpecialBreaks_loop_append]
  cases insertSpecialBreaks_loop (loop_fuel (tokens_of obj))
    (build_linked 0 0 (tokens_of obj) (links_of obj 0 none)) (List.range' 0 x) with
  | error e => rfl
  | ok s =>
    simp only [Except.bind, insertSpecialBreaks_loop]
    cases special_breaks_at (loop_fuel (tokens_of obj)) s x <;> rfl

/-- When the special-form pass of `to_string` returns, it has arrived at every token, has
run the body of the loop there, and has gone on to the end. -/
theorem special_pass_reaches {obj : Object} (hs : supported obj) {x : Nat}
    (hx : x < (tokens_of obj).length) {s2 : NodeList}
    (h : insertSpecialBreaks (loop_fuel (tokens_of obj))
      (build_linked 0 0 (tokens_of obj) (links_of obj 0 none)) (some 0) = .ok s2) :
    ∃ sx sx1, pass_at obj x = .ok sx ∧
      special_breaks_at (loop_fuel (tokens_of obj)) sx x = .ok sx1 ∧
      insertSpecialBreaks_loop (loop_fuel (tokens_of obj)) sx1
        (List.range' (x + 1) ((tokens_of obj).length - x - 1)) = .ok s2 ∧
      reachable obj sx ∧ reachable obj sx1 ∧ Evolves sx1 s2 := by
  rw [special_pass_turns obj x hx] at h
  cases h1 : pass_at obj x with
  | error e => rw [h1] at h; simp [Except.bind] at h
  | ok sx =>
    rw [h1] at h
    simp only [Except.bind] at h
    cases h2 : special_breaks_at (loop_fuel (tokens_of obj)) sx x with
    | error e => rw [h2] at h; simp at h
    | ok sx1 =>
      rw [h2] at h
      simp only at h
      have r1 : reachable obj sx := insertSpecialBreaks_loop_reach hs _ _ _ _ .start h1
      have r2 : reachable obj sx1 := special_breaks_at_reach hs r1 h2
      exact ⟨sx, sx1, rfl, h2, h, r1, r2, insertSpecialBreaks_loop_evolves _ _ _ _ h⟩

/-- In a list of a call, a separator stands behind a token exactly when the node behind
the token is a separator. -/
theorem sep_after_next {toks : List FormToken} {links : List (Option Nat)} {s : NodeList}
    (hl : laid toks links 0 s) (x : Nat) :
    sep_after s x ↔ x < toks.length ∧
      ∃ m rest, nodes_after s x = m :: rest ∧ m.is_line_separator = true := by
  constructor
  · rintro ⟨pre, n, m, post, e, hid, hn, hm⟩
    subst e
    have hne := laid_split_ids hl hn
    have hxT : x < toks.length := by
      have := ((numbered_from_mem _ hl.1).1 n (by simp) hn).2
      omega
    refine ⟨hxT, m, post, ?_, hm⟩
    unfold nodes_after
    rw [nodes_from_skip x _ pre (fun k hk => by rw [← hid]; exact hne k hk)]
    simp [nodes_from, hid]
  · rintro ⟨hx, m, rest, e, hm⟩
    obtain ⟨n, n1, n2, n3, _, _, _⟩ := laid_node_at hl hx
    have := split_at_node n1
    rw [e] at this
    exact ⟨_, n, m, rest, this.symm, n3, n2, hm⟩

/-- What a scan along a line finds: the first token of the kinds looked for, and only
tokens stand between the start of the scan and this token. -/
theorem scan_line_first {toks : List FormToken} {links : List (Option Nat)}
    (kinds : List TokenKind) (line : Int) :
    ∀ (l : NodeList) (a f : Nat), laid toks links a l →
      scan_line kinds line l = .ok (some f) →
      a ≤ f ∧ f < toks.length ∧ (∃ t, toks[f]? = some t ∧ t.kind ∈ kinds) ∧
        (∀ i, a ≤ i → i < f → ∃ t, toks[i]? = some t ∧ t.kind ∉ kinds) ∧
        ∃ H nf R, l = H ++ nf :: R ∧ nf.id = f ∧ nf.is_line_separator = false ∧
          (∀ m ∈ H, m.is_line_separator = false) := by
  intro l
  induction l with
  | nil => intro a f _ h; simp [scan_line] at h
  | cons n rest ih =>
    intro a f hl h
    obtain ⟨f1, f2⟩ := laid_cons hl
    simp only [scan_line] at h
    split at h
    · rename_i hc
      have hsep : n.is_line_separator = false := by simpa using hc.1
      obtain ⟨g1, g2, g3, g4, g5⟩ := f2 hsep
      rw [List.getElem?_eq_getElem g2] at g3
      simp only [tok_of, g3] at h
      split at h
      · rename_i hk
        simp only [Except.ok.injEq, Option.some.injEq] at h
        have hfa : f = a := by omega
        subst hfa
        refine ⟨Nat.le_refl _, g2, ⟨_, List.getElem?_eq_getElem g2, hk⟩, ?_, [], n, rest,
          rfl, g1, hsep, by simp⟩
        intro i h1 h2
        omega
      · rename_i hk
        obtain ⟨r1, r2, r3, r4, H, nf, R, r5, r6, r7, r8⟩ := ih (a + 1) f g5 h
        refine ⟨by omega, r2, r3, ?_, n :: H, nf, R, by rw [r5]; rfl, r6, r7, ?_⟩
        · intro i h1 h2
          by_cases hia : i = a
          · subst hia
            exact ⟨_, List.getElem?_eq_getElem g2, hk⟩
          · exact r4 i (by omega) h2
        · intro m hm
          rcases List.mem_cons.1 hm with hm | hm
          · subst hm; exact hsep
          · exact r8 m hm
    · simp at h

/-- In a run of token nodes, the node behind each of them is a token node. -/
theorem run_next {toks : List FormToken} {links : List (Option Nat)}
    (nf : PrettyPrinterNode) (R : NodeList) (hnf : nf.is_line_separator = false) :
    ∀ (H : NodeList) (a : Nat), laid toks links a (H ++ nf :: R) →
      (∀ m ∈ H, m.is_line_separator = false) →
      nf.id = a + H.length ∧ ∀ i, a ≤ i → i < a + H.length →
        ∃ m rest, nodes_after (H ++ nf :: R) i = m :: rest ∧ m.is_line_separator = false := by
  intro H
  induction H with
  | nil =>
    intro a hl _
    obtain ⟨_, f2⟩ := laid_cons hl
    refine ⟨by simpa using (f2 hnf).1, ?_⟩
    intro i h1 h2
    simp at h2
    omega
  | cons n H ih =>
    intro a hl hH
    obtain ⟨_, f2⟩ := laid_cons hl
    obtain ⟨g1, _, _, _, g5⟩ := f2 (hH n (by simp))
    obtain ⟨r1, r2⟩ := ih (a + 1) g5 (fun m hm => hH m (List.mem_cons_of_mem _ hm))
    refine ⟨by simp [r1]; omega, ?_⟩
    intro i h1 h2
    by_cases hia : i = a
    · subst hia
      cases H with
      | nil => exact ⟨nf, R, by simp [nodes_after, nodes_from, g1], hnf⟩
      | cons m H1 =>
        exact ⟨m, H1 ++ nf :: R, by simp [nodes_after, nodes_from, g1], hH m (by simp)⟩
    · obtain ⟨m, rest, e, hm⟩ := r2 i (by omega) (by simp at h2; omega)
      refine ⟨m, rest, ?_, hm⟩
      rw [← e]
      simp only [nodes_after, List.cons_append, nodes_from]
      rw [if_neg (by omega)]
      rfl

/-- What a search along the line finds: the first token behind the start that has one of
the kinds looked for, and no separator stands between the start and this token. -/
theorem scan_next_on_line_first {toks : List FormToken} {links : List (Option Nat)}
    {s : NodeList} {x f : Nat} {kinds : List TokenKind} (hl : laid toks links 0 s)
    (h : scan_next_on_line kinds s (some x) = .ok (some f)) :
    x < f ∧ f < toks.length ∧ (∃ t, toks[f]? = some t ∧ t.kind ∈ kinds) ∧
      (∀ i, x < i → i < f → ∃ t, toks[i]? = some t ∧ t.kind ∉ kinds) ∧
      ∀ i, x ≤ i → i < f → ¬ sep_after s i := by
  unfold scan_next_on_line at h
  obtain ⟨st, h1, h⟩ := bind_eq_ok h
  obtain ⟨_, h2, h⟩ := bind_eq_ok h
  have hreal : st.is_line_separator = false := by simpa using assert_eq_ok h2
  obtain ⟨i0, e0, hn⟩ := deref_ok h1
  simp only [Option.some.injEq] at e0
  subst e0
  have hid := node_at_id hn
  obtain ⟨hxT, hla⟩ := laid_nodes_after hl hn hreal
  rw [hid] at h
  cases hna : nodes_after s x with
  | nil => rw [hna] at h; simp [pure, Except.pure] at h
  | cons m rest =>
    rw [hna] at h
    simp only at h
    split at h
    · simp [pure, Except.pure] at h
    · rw [hna] at hla
      obtain ⟨r1, r2, r3, r4, H, nf, R, r5, r6, r7, r8⟩ := scan_line_first kinds _ _ _ _ hla h
      refine ⟨by omega, r2, r3, fun i a b => r4 i (by omega) b, ?_⟩
      intro i hi1 hi2 hsep
      obtain ⟨_, m1, rest1, e1, hm1⟩ := (sep_after_next hl i).1 hsep
      rw [r5] at hla
      obtain ⟨q1, q2⟩ := run_next nf R r7 H (x + 1) hla r8
      by_cases hix : i = x
      · subst hix
        rw [hna, r5] at e1
        cases H with
        | nil =>
          simp only [List.nil_append, List.cons.injEq] at e1
          rw [← e1.1, r7] at hm1
          simp at hm1
        | cons y H1 =>
          simp only [List.cons_append, List.cons.injEq] at e1
          rw [← e1.1, r8 y (by simp)] at hm1
          simp at hm1
      · obtain ⟨m2, rest2, e2, hm2⟩ := q2 i (by omega) (by omega)
        have hsplit := split_at_node hn
        rw [hna, r5] at hsplit
        have hskip : nodes_from s i = nodes_from (H ++ nf :: R) i := by
          rw [← hsplit]
          have e3 : nodes_before s x ++ st :: (H ++ nf :: R)
              = (nodes_before s x ++ [st]) ++ (H ++ nf :: R) := by simp
          rw [e3]
          refine nodes_from_skip i _ _ ?_
          intro k hk
          rcases List.mem_append.1 hk with hk | hk
          · cases hks : k.is_line_separator with
            | true =>
              have := hl.2.1 k (List.mem_of_mem_take (l := s) (n := s.length) (by
                rw [List.take_length]
                rw [← split_at_node hn]
                exact List.mem_append_left _ hk)) hks
              omega
            | false =>
              have := laid_before_lt x s 0 hl (Nat.zero_le _) k hk hks
              omega
          · simp only [List.mem_singleton] at hk
            subst hk
            omega
        have : nodes_after s i = nodes_after (H ++ nf :: R) i := by
          unfold nodes_after
          rw [hskip]
        rw [this, e2] at e1
        simp only [List.cons.injEq] at e1
        rw [← e1.1, hm2] at hm1
        simp at hm1

/-- Lists that open one behind the other do not cross. -/
theorem balances_nested {toks : List FormToken} {g cg p c : Nat} (hg : balances toks g cg)
    (hp : balances toks p c) (h1 : g < p) (h2 : p < cg) : c < cg := by
  by_contra hge
  have hcT : cg < toks.length := by
    by_contra hx
    have := hg.2.2.1
    rw [List.getElem?_eq_none (by omega)] at this
    simp at this
  obtain ⟨r, hr⟩ := segment_prefix_depth hp.2.2.2 (by omega : p + 1 ≤ cg) (by omega)
    (by omega)
  exact no_open_unclosed hg.2.2.2 (by omega) h2 hp.2.1 rfl hr

/-- A token at the top level of a list is not inside a list that opens behind the open
paren of this list. -/
theorem direct_end_outside {toks : List FormToken} {L cL p c u : Nat}
    (hp : balances toks p c) (hLp : L < p) (hu : direct_end toks L cL u = true) :
    ¬ (p < u ∧ u < c) := by
  rintro ⟨h1, h2⟩
  obtain ⟨_, _, _, h4⟩ := (direct_end_iff toks L cL u).1 hu
  have hcT : c < toks.length := by
    by_contra hx
    have := hp.2.2.1
    rw [List.getElem?_eq_none (by omega)] at this
    simp at this
  obtain ⟨r, hr⟩ := segment_prefix_depth hp.2.2.2 (by omega : p + 1 ≤ u + 1) (by omega)
    (by omega)
  exact no_open_unclosed h4 (by omega) (by omega) hp.2.1 rfl hr

theorem outside_later_first {toks : List FormToken} {a g : Nat}
    (h : ∀ i, a < i → i < g → ∃ t, toks[i]? = some t ∧ t.kind ≠ .OPEN_PAREN) :
    outside_later toks a g := by
  rintro q c h1 hb ⟨h2, _⟩
  obtain ⟨t, ht, hk⟩ := h q h1 h2
  rw [hb.2.1] at ht
  simp only [Option.some.injEq] at ht
  subst ht
  exact hk rfl

theorem outside_later_close {toks : List FormToken} {a g cg : Nat}
    (h : outside_later toks a g) (hag : a < g) (hb : balances toks g cg) :
    outside_later toks a cg := by
  rintro q c h1 hq ⟨h2, h3⟩
  rcases Nat.lt_trichotomy q g with hlt | heq | hgt
  · exact h q c h1 hq ⟨hlt, by have := hb.1; omega⟩
  · subst heq
    have := balances_unique hq hb
    omega
  · have := balances_nested hb hq hgt h2
    omega

theorem outside_later_next {toks : List FormToken} {a g cg g2 : Nat}
    (h : outside_later toks a g) (hag : a < g) (hb : balances toks g cg) (hcg : cg < g2)
    (hbl : ∀ i, cg < i → i < g2 → ∃ t, toks[i]? = some t ∧ t.kind ≠ .OPEN_PAREN) :
    outside_later toks a g2 := by
  rintro q c h1 hq ⟨h2, h3⟩
  have hgc := hb.1
  rcases Nat.lt_trichotomy q g with hlt | heq | hgt
  · exact h q c h1 hq ⟨hlt, by omega⟩
  · subst heq
    have := balances_unique hq hb
    omega
  · by_cases hin : q < cg
    · have := balances_nested hb hq hgt hin
      omega
    · by_cases hq2 : q = cg
      · subst hq2
        have e1 := hq.2.1
        rw [hb.2.2.1] at e1
        simp at e1
      · obtain ⟨t, ht, hk⟩ := hbl q (by omega) h2
        rw [hq.2.1] at ht
        simp only [Option.some.injEq] at ht
        subst ht
        exact hk rfl

theorem thinner_refl : ∀ (l : NodeList), Thinner l l
  | [] => .nil
  | n :: l => .keep n (thinner_refl l)

theorem thinner_head_sep {m : PrettyPrinterNode} {post r1 : NodeList}
    (h : Thinner (m :: post) r1) (hm : m.is_line_separator = true) :
    ∃ b1 rest1, r1 = b1 :: rest1 ∧ b1.is_line_separator = true := by
  generalize hl : m :: post = l at h
  induction h with
  | nil => simp at hl
  | keep n _ _ =>
    simp only [List.cons.injEq] at hl
    rw [← hl.1]
    exact ⟨_, _, rfl, hm⟩
  | both _ h2 _ _ => exact ⟨_, _, rfl, h2⟩
  | drop h1 _ _ => exact ⟨_, _, rfl, h1⟩

/-- A separator that stands behind a token in the thinner list stands behind it in the
other list. -/
theorem thinner_sep_after {r r1 : NodeList} (h : Thinner r r1) :
    ∀ u, sep_after r u → sep_after r1 u := by
  induction h with
  | nil => intro u hu; exact absurd hu (sep_after_short _ _ (by simp))
  | @keep n r r1 h ih =>
    intro u hu
    cases r with
    | nil => exact absurd hu (sep_after_short _ _ (by simp))
    | cons m post =>
      rcases (sep_after_cons_cons n m post u).1 hu with ⟨a1, a2, a3⟩ | hB
      · obtain ⟨b1, rest1, e, hb⟩ := thinner_head_sep h a3
        rw [e]
        exact (sep_after_cons_cons _ _ _ _).2 (Or.inl ⟨a1, a2, hb⟩)
      · exact sep_after_append [n] (ih u hB)
  | @both b b1 r r1 hb hb1 h ih =>
    intro u hu
    cases r with
    | nil => exact absurd hu (sep_after_short _ _ (by simp))
    | cons m post =>
      rcases (sep_after_cons_cons b m post u).1 hu with ⟨_, a2, _⟩ | hB
      · rw [hb] at a2; simp at a2
      · exact sep_after_append [b1] (ih u hB)
  | @drop b1 r r1 hb1 h ih =>
    intro u hu
    exact sep_after_append [b1] (ih u hu)

theorem thinner_mem {r r1 : NodeList} (h : Thinner r r1) :
    ∀ n ∈ r, n.is_line_separator = true ∨ n ∈ r1 := by
  induction h with
  | nil => intro n hn; simp at hn
  | keep n _ ih =>
    intro k hk
    rcases List.mem_cons.1 hk with hk | hk
    · subst hk; exact Or.inr (by simp)
    · rcases ih k hk with h1 | h1
      · exact Or.inl h1
      · exact Or.inr (List.mem_cons_of_mem _ h1)
  | both hb _ _ ih =>
    intro k hk
    rcases List.mem_cons.1 hk with hk | hk
    · subst hk; exact Or.inl hb
    · rcases ih k hk with h1 | h1
      · exact Or.inl h1
      · exact Or.inr (List.mem_cons_of_mem _ h1)
  | drop _ _ ih =>
    intro k hk
    rcases ih k hk with h1 | h1
    · exact Or.inl h1
    · exact Or.inr (List.mem_cons_of_mem _ h1)

theorem thinner_prepend (A : NodeList) {r r1 : NodeList} (h : Thinner r r1) :
    Thinner (A ++ r) (A ++ r1) := by
  induction A with
  | nil => exact h
  | cons a A ih => exact .keep a ih

theorem thin_pass (n : PrettyPrinterNode) {X X1 : Except Err NodeList} {R R1 : NodeList}
    (h : (match X with
      | .error e => .error e
      | .ok r => .ok (n :: r) : Except Err NodeList) = .ok R)
    (h1 : (match X1 with
      | .error e => .error e
      | .ok r => .ok (n :: r) : Except Err NodeList) = .ok R1)
    (hX : ∀ r r1, X = .ok r → X1 = .ok r1 → Thinner r r1) : Thinner R R1 := by
  cases X with
  | error e => simp at h
  | ok r =>
    cases X1 with
    | error e => simp at h1
    | ok r1 =>
      simp only [Except.ok.injEq] at h h1
      subst h h1
      exact .keep n (hX r r1 rfl rfl)

theorem thin_choice (n m : PrettyPrinterNode) (W : Nat → Bool → Except Err NodeList)
    (W1 : Nat → Except Err NodeList) {b : Bool} {f f1 : Nat} {R R1 : NodeList}
    (h : (if (b && !m.is_line_separator) = true then
        (match W (f + 1) b with
          | .error e => .error e
          | .ok r => .ok (n :: new_separator f 0 :: r) : Except Err NodeList)
      else
        (match W f b with
          | .error e => .error e
          | .ok r => .ok (n :: r) : Except Err NodeList)) = .ok R)
    (h1 : (if (true && !m.is_line_separator) = true then
        (match W1 (f1 + 1) with
          | .error e => .error e
          | .ok r => .ok (n :: new_separator f1 0 :: r) : Except Err NodeList)
      else
        (match W1 f1 with
          | .error e => .error e
          | .ok r => .ok (n :: r) : Except Err NodeList)) = .ok R1)
    (hW : ∀ f f1 b r r1, W f b = .ok r → W1 f1 = .ok r1 → Thinner r r1) : Thinner R R1 := by
  cases hm : m.is_line_separator with
  | true =>
    simp only [hm, Bool.not_true, Bool.and_false, Bool.false_eq_true, if_false] at h h1
    exact thin_pass n h h1 (hW f f1 b)
  | false =>
    simp only [hm, Bool.not_false, Bool.and_true, if_true] at h1
    cases b with
    | true =>
      simp only [hm, Bool.not_false, Bool.and_true, if_true] at h
      cases hx : W (f + 1) true with
      | error e => rw [hx] at h; simp at h
      | ok r =>
        cases hx1 : W1 (f1 + 1) with
        | error e => rw [hx1] at h1; simp at h1
        | ok r1 =>
          rw [hx] at h
          rw [hx1] at h1
          simp only [Except.ok.injEq] at h h1
          subst h h1
          exact .keep n (.both rfl rfl (hW _ _ _ _ _ hx hx1))
    | false =>
      simp only [Bool.false_and, Bool.false_eq_true, if_false] at h
      cases hx : W f false with
      | error e => rw [hx] at h; simp at h
      | ok r =>
        cases hx1 : W1 (f1 + 1) with
        | error e => rw [hx1] at h1; simp at h1
        | ok r1 =>
          rw [hx] at h
          rw [hx1] at h1
          simp only [Except.ok.injEq] at h h1
          subst h h1
          exact .keep n (.drop rfl (hW _ _ _ _ _ hx hx1))

/-- The walk of the three-argument `breakList` splices in no more separators than the walk
of the two-argument `breakList` over the same nodes. -/
theorem breakList_walk_thinner (s0 : NodeList) (rp fe : Option Nat) :
    ∀ (l : NodeList) (f f1 : Nat) (b : Bool) (jump : Option Nat) (r r1 : NodeList),
      breakList_walk s0 rp fe f b jump l = .ok r →
      breakList_walk s0 rp none f1 true jump l = .ok r1 → Thinner r r1 := by
  intro l
  induction l with
  | nil =>
    intro f f1 b jump r r1 h h1
    cases jump <;> simp [breakList_walk] at h h1
    subst h h1
    exact .nil
  | cons n rest ih =>
    intro f f1 b jump r r1 h h1
    cases jump with
    | some target =>
      simp only [breakList_walk] at h h1
      by_cases hid : n.id = target
      · simp only [hid, if_true] at h h1
        cases rest with
        | nil =>
          simp only [Except.ok.injEq] at h h1
          subst h h1
          exact thinner_refl _
        | cons m rest1 =>
          simp only at h h1
          exact thin_choice n m (fun f b => breakList_walk s0 rp fe f b none (m :: rest1))
            (fun f1 => breakList_walk s0 rp none f1 true none (m :: rest1))
            h h1 (fun f f1 b r r1 => ih f f1 b none r r1)
      · simp only [hid, if_false] at h h1
        exact thin_pass n h h1 (ih f f1 b (some target))
    | none =>
      simp only [breakList_walk] at h h1
      by_cases hrp : some n.id = rp
      · simp only [hrp, if_true, Except.ok.injEq] at h h1
        subst h h1
        exact thinner_refl _
      · simp only [hrp, if_false, reduceCtorEq] at h h1
        cases hsep : n.is_line_separator with
        | true =>
          simp only [hsep, if_true] at h h1
          exact thin_pass n h h1 (ih f f1 _ none)
        | false =>
          simp only [hsep, Bool.false_eq_true, if_false] at h h1
          cases htok : tok_of n with
          | error e => rw [htok] at h; simp at h
          | ok t =>
            rw [htok] at h h1
            simp only at h h1
            by_cases ho : t.kind = .OPEN_PAREN
            · simp only [ho, if_true] at h h1
              cases hd : deref s0 n.paren with
              | error e => rw [hd] at h; simp at h
              | ok cl =>
                rw [hd] at h h1
                simp only at h h1
                cases hct : tok_of cl with
                | error e => rw [hct] at h; simp at h
                | ok ct =>
                  rw [hct] at h h1
                  simp only at h h1
                  by_cases hc : ct.kind = .CLOSE_PAREN
                  · simp only [hc, if_true] at h h1
                    exact thin_pass n h h1 (ih f f1 _ (some cl.id))
                  · simp only [hc, if_false] at h
                    simp at h
            · simp only [ho, if_false] at h h1
              by_cases hw : t.kind = .WHITESPACE
              · simp only [hw, ne_eq, not_true_eq_false, if_false] at h h1
                exact thin_pass n h h1 (ih f f1 _ none)
              · simp only [ne_eq, hw, not_false_eq_true, if_true] at h h1
                by_cases hcl : t.kind = .CLOSE_PAREN
                · simp only [hcl, if_true] at h
                  simp at h
                · simp only [hcl, if_false] at h h1
                  cases rest with
                  | nil =>
                    simp only [Except.ok.injEq] at h h1
                    subst h h1
                    exact thinner_refl _
                  | cons m rest1 =>
                    simp only at h h1
                    exact thin_choice n m
                      (fun f b => breakList_walk s0 rp fe f b none (m :: rest1))
                      (fun f1 => breakList_walk s0 rp none f1 true none (m :: rest1))
                      h h1 (fun f f1 b r r1 => ih f f1 b none r r1)

theorem splice_after_cons_head (fresh : Nat) (d : Int) (b : PrettyPrinterNode)
    (rest : NodeList) (t : Nat) : ∃ X, splice_after fresh d (b :: rest) t = b :: X := by
  simp only [splice_after]
  split
  · split
    · exact ⟨_, rfl⟩
    · split <;> exact ⟨_, rfl⟩
  · exact ⟨_, rfl⟩

/-- Where the separators are after the splice of `insertNewlineAfter`: where they were,
and behind the node the splice was made at. The nodes of the list stay as they are. -/
theorem splice_after_seps (fresh : Nat) (d : Int) (t : Nat) :
    ∀ (l : NodeList),
      (∀ u, sep_after (splice_after fresh d l t) u → sep_after l u ∨ u = t) ∧
      (∀ n ∈ splice_after fresh d l t, n ∈ l ∨ n.is_line_separator = true) := by
  intro l
  induction l with
  | nil =>
    refine ⟨fun u hu => Or.inl hu, fun n hn => Or.inl hn⟩
  | cons a rest ih =>
    by_cases ha : a.id = t
    · cases rest with
      | nil =>
        simp only [splice_after, ha, if_true]
        exact ⟨fun u hu => Or.inl hu, fun n hn => Or.inl hn⟩
      | cons b rest1 =>
        cases hb : b.is_line_separator with
        | true =>
          simp only [splice_after, ha, if_true, hb]
          exact ⟨fun u hu => Or.inl hu, fun n hn => Or.inl hn⟩
        | false =>
          simp only [splice_after, ha, if_true, hb, Bool.false_eq_true, if_false]
          constructor
          · intro u hu
            rcases (sep_after_cons_cons _ _ _ _).1 hu with ⟨h1, _, _⟩ | h2
            · exact Or.inr (by rw [← h1, ha])
            · rcases (sep_after_cons_cons _ _ _ _).1 h2 with ⟨_, h3, _⟩ | h4
              · simp [new_separator] at h3
              · exact Or.inl (sep_after_append [a] h4)
          · intro n hn
            simp only [List.mem_cons] at hn
            rcases hn with hn | hn | hn | hn
            · exact Or.inl (by simp [hn])
            · exact Or.inr (by rw [hn]; rfl)
            · exact Or.inl (by simp [hn])
            · exact Or.inl (by simp [hn])
    · simp only [splice_after, if_neg ha]
      cases rest with
      | nil =>
        simp only [splice_after]
        exact ⟨fun u hu => Or.inl hu, fun n hn => Or.inl hn⟩
      | cons b rest1 =>
        obtain ⟨X, hX⟩ := splice_after_cons_head fresh d b rest1 t
        rw [hX] at ih ⊢
        constructor
        · intro u hu
          rcases (sep_after_cons_cons _ _ _ _).1 hu with h1 | h2
          · exact Or.inl ((sep_after_cons_cons _ _ _ _).2 (Or.inl h1))
          · rcases ih.1 u h2 with h3 | h3
            · exact Or.inl (sep_after_append [a] h3)
            · exact Or.inr h3
        · intro n hn
          rcases List.mem_cons.1 hn with hn | hn
          · exact Or.inl (by simp [hn])
          · rcases ih.2 n hn with h3 | h3
            · exact Or.inl (List.mem_cons_of_mem _ h3)
            · exact Or.inr h3

/-- Where the separators are after `insertNewlineAfter`. -/
theorem insertNewlineAfter_ptr_seps {s s1 : NodeList} {t : Nat} {d : Int}
    (h : insertNewlineAfter_ptr s (some t) d = .ok s1) :
    (∀ u, sep_after s1 u → sep_after s u ∨ u = t) ∧
      (∀ n ∈ s1, n ∈ s ∨ n.is_line_separator = true) := by
  unfold insertNewlineAfter_ptr at h
  split at h
  · simp at h
  · rename_i n hn
    simp only [Except.ok.injEq] at h
    subst h
    obtain ⟨i, e, hi⟩ := deref_ok hn
    simp only [Option.some.injEq] at e
    subst e
    rw [node_at_id hi]
    exact splice_after_seps _ _ _ _

/-- The two-argument `breakList` at the open paren of a list, in parts: the entry
assertions hold, the walk returns, and the result is the list with a new separator behind
every token at the top level of the list. -/
theorem breakList_parts {obj : Object} (hs : supported obj) {s : NodeList}
    (hl : laid (tokens_of obj) (links_of obj 0 none) 0 s) {p c : Nat}
    (hb : balances (tokens_of obj) p c) :
    ∃ lp, breakList_entry s (some p) = .ok lp ∧ lp.id = p ∧ lp.paren = some c ∧
      node_at s p = some lp ∧
      breakList_walk s (some c) none s.length true none (nodes_after s p)
        = .ok (with_breaks (direct_end (tokens_of obj) p c) s.length (nodes_after s p)) ∧
      with_breaks (direct_end (tokens_of obj) p c) s.length s
        = nodes_before s p ++ lp ::
          with_breaks (direct_end (tokens_of obj) p c) s.length (nodes_after s p) ∧
      (∀ x, sep_after (with_breaks (direct_end (tokens_of obj) p c) s.length s) x ↔
        sep_after s x ∨ direct_end (tokens_of obj) p c x = true) := by
  obtain ⟨b1, b2, b3, b4⟩ := hb
  have hcT : c < (tokens_of obj).length := by
    by_contra hge
    rw [List.getElem?_eq_none (by omega)] at b3
    simp at b3
  obtain ⟨lp, lp1, lp2, lp3, lp4, lp5, lp6⟩ := laid_node_at hl (show p < _ by omega)
  obtain ⟨rn, rn1, rn2, rn3, rn4, _, _⟩ := laid_node_at hl hcT
  rw [b2] at lp4
  rw [b3] at rn4
  obtain ⟨c1, k1, k2, _⟩ := open_link_balances hs b2 rfl
  have hc1 : c1 = c := balances_unique k2 ⟨b1, b2, b3, b4⟩
  subst hc1
  rw [k1] at lp5
  have hpar : lp.paren = some c1 := (Option.some.inj lp5).symm
  have hentry : breakList_entry s (some p) = .ok lp := by
    simp only [breakList_entry, deref, lp1, bind, Except.bind, assert, lp2, Bool.not_false,
      if_true, tok_of, lp4, decide_True, hpar, rn1, rn4, pure, Except.pure]
  have hwalk := breakList_walk_children hs hl ⟨b1, b2, b3, b4⟩ (nodes_after s p) (p + 1)
    s.length none lp6 (by omega)
    (fun _ => ⟨by omega, by rw [segment_self]; rfl⟩) (fun t h => by simp at h)
  have hsplit := split_at_node lp1
  have hPbefore : ∀ n ∈ nodes_before s p, n.is_line_separator = false →
      direct_end (tokens_of obj) p c1 n.id = false := by
    intro n hn hns
    have := laid_before_lt p s 0 hl (Nat.zero_le _) n hn hns
    cases hde : direct_end (tokens_of obj) p c1 n.id with
    | false => rfl
    | true =>
      have := ((direct_end_iff _ _ _ _).1 hde).1
      omega
  have hPp : direct_end (tokens_of obj) p c1 lp.id = false := by
    rw [lp3]
    cases hde : direct_end (tokens_of obj) p c1 p with
    | false => rfl
    | true =>
      have := ((direct_end_iff _ _ _ _).1 hde).1
      omega
  have hwhole : ∀ f, with_breaks (direct_end (tokens_of obj) p c1) f s
      = nodes_before s p ++ lp ::
        with_breaks (direct_end (tokens_of obj) p c1) f (nodes_after s p) := by
    intro f
    conv => lhs; rw [← hsplit]
    rw [with_breaks_start _ _ _ _ hPbefore]
    congr 1
    cases hna : nodes_after s p with
    | nil => rfl
    | cons m rest1 =>
      rw [with_breaks_step]
      simp only [hPp, Bool.and_false, Bool.false_and, Bool.false_eq_true, if_false]
  refine ⟨lp, hentry, lp3, hpar, lp1, hwalk, hwhole _, ?_⟩
  intro x
  rw [with_breaks_sep_after]
  constructor
  · rintro (h | ⟨h, _⟩)
    · exact Or.inl h
    · exact Or.inr h
  · rintro (h | h)
    · exact Or.inl h
    · refine Or.inr ⟨h, ?_⟩
      have hxc := ((direct_end_iff _ _ _ _).1 h).2.1
      obtain ⟨n, n1, n2, n3, _, _, n6⟩ := laid_node_at hl (show x < _ by omega)
      cases hna : nodes_after s x with
      | nil => rw [hna] at n6; have := laid_nil n6; omega
      | cons m post =>
        have := split_at_node n1
        rw [hna] at this
        exact ⟨_, n, m, post, this.symm, n3, n2⟩

/-- Where the separators are after the two-argument `breakList`: where they were, and
behind every token at the top level of the list. The nodes of the list stay as they are. -/
theorem breakList_seps {obj : Object} (hs : supported obj) {s s1 : NodeList}
    (hl : laid (tokens_of obj) (links_of obj 0 none) 0 s) {p c : Nat}
    (hb : balances (tokens_of obj) p c) (h : breakList s (some p) = .ok s1) :
    (∀ u, sep_after s1 u ↔ sep_after s u ∨ direct_end (tokens_of obj) p c u = true) ∧
      (∀ n ∈ s1, n ∈ s ∨ n.is_line_separator = true) := by
  obtain ⟨lp, e1, e2, e3, _, e5, e6, e7⟩ := breakList_parts hs hl hb
  have hres : breakList s (some p)
      = .ok (with_breaks (direct_end (tokens_of obj) p c) s.length s) := by
    rw [e6]
    simp only [breakList, e1, bind, Except.bind, e3, e2, e5, pure, Except.pure]
  rw [hres] at h
  simp only [Except.ok.injEq] at h
  subst h
  refine ⟨e7, ?_⟩
  intro n hn
  rcases (with_breaks_nodes _ _ _).2 n hn with h1 | ⟨k, _, h2⟩
  · exact Or.inl h1
  · exact Or.inr (by rw [h2]; rfl)

/-- Where the separators are after the three-argument `breakList`: where they were, or
behind a token at the top level of the list. The nodes of the list stay as they are. -/
theorem breakList_from_seps {obj : Object} (hs : supported obj) {s s1 : NodeList}
    (hl : laid (tokens_of obj) (links_of obj 0 none) 0 s) {p c : Nat} {z : Option Nat}
    (hb : balances (tokens_of obj) p c) (h : breakList_from s (some p) z = .ok s1) :
    (∀ u, sep_after s1 u → sep_after s u ∨ direct_end (tokens_of obj) p c u = true) ∧
      (∀ n ∈ s1, n ∈ s ∨ n.is_line_separator = true) := by
  obtain ⟨lp, e1, e2, e3, e4, e5, e6, e7⟩ := breakList_parts hs hl hb
  simp only [breakList_from, e1, bind, Except.bind, e3, e2] at h
  cases hw : breakList_walk s (some c) z s.length false none (nodes_after s p) with
  | error e => rw [hw] at h; simp at h
  | ok r =>
    rw [hw] at h
    simp only [pure, Except.pure, Except.ok.injEq] at h
    subst h
    have hT := breakList_walk_thinner s (some c) z _ _ _ _ _ _ _ hw e5
    have hT2 : Thinner (nodes_before s p ++ lp :: r)
        (with_breaks (direct_end (tokens_of obj) p c) s.length s) := by
      rw [e6]
      exact thinner_prepend _ (.keep lp hT)
    constructor
    · intro u hu
      exact (e7 u).1 (thinner_sep_after hT2 u hu)
    · intro n hn
      rcases thinner_mem hT2 n hn with h1 | h1
      · exact Or.inr h1
      · rcases (with_breaks_nodes _ _ _).2 n h1 with h2 | ⟨k, _, h2⟩
        · exact Or.inl h2
        · exact Or.inr (by rw [h2]; rfl)

theorem rule_steps_trans {toks : List FormToken} {links : List (Option Nat)} {x : Nat}
    {s s1 s2 : NodeList} (h1 : rule_steps toks links x s s1)
    (h2 : rule_steps toks links x s1 s2) : rule_steps toks links x s s2 := by
  induction h2 with
  | done => exact h1
  | newline _ a b c ih => exact .newline ih a b c
  | around _ a b c d ih => exact .around ih a b c d
  | ahead _ a b c ih => exact .ahead ih a b c
  | rest_from _ a b c ih => exact .rest_from ih a b c

/-- The node that a pointer to a token of the call points to. -/
theorem deref_token {toks : List FormToken} {links : List (Option Nat)} {s : NodeList}
    (hl : laid toks links 0 s) {g : Nat} (hg : g < toks.length) {n : PrettyPrinterNode}
    (h : deref s (some g) = .ok n) :
    node_at s g = some n ∧ n.is_line_separator = false ∧ n.id = g ∧ n.tok = toks[g]? ∧
      links[g]? = some n.paren := by
  obtain ⟨m, m1, m2, m3, m4, m5, _⟩ := laid_node_at hl hg
  have e : n = m := by
    simp only [deref, m1, Except.ok.injEq] at h
    exact h.symm
  subst e
  exact ⟨m1, m2, m3, m4, m5⟩

/-- In a list of a call, the node before an open paren that is not the first token is the
token before it: no separator stands before an open paren. -/
theorem before_open_real {obj : Object} (hs : supported obj) {s : NodeList}
    (hr : reachable obj s) {o : Nat} {t : FormToken} (ho : (tokens_of obj)[o]? = some t)
    (hk : t.kind = .OPEN_PAREN) (h0 : 0 < o) : prev_of s o = some (o - 1) := by
  have hl := reachable_laid hs hr
  have hoT : o < (tokens_of obj).length := by
    by_contra hge
    rw [List.getElem?_eq_none (by omega)] at ho
    simp at ho
  obtain ⟨n, hn, hnreal, hnid, hntok, _, _⟩ := laid_node_at hl hoT
  rw [prev_of_eq s o ⟨n, node_at_mem hn, node_at_id hn⟩]
  obtain ⟨m, hm1, hm2, hm3⟩ := last_before_laid hl h0 hoT
  rw [hm1]
  simp only [Option.map_some', Option.some.injEq]
  cases hms : m.is_line_separator with
  | false => exact hm3 hms
  | true =>
    exfalso
    obtain ⟨ys, hys⟩ := List.getLast?_eq_some_iff.1 hm1
    have hsplit := split_at_node hn
    rw [hys] at hsplit
    have e : s = ys ++ m :: (n :: nodes_after s o) := by
      simpa using hsplit.symm
    obtain ⟨_, pl, _⟩ := reachable_sound hs hr
    have := (separators_walk hs s 0 none hl pl (fun q hq => by simp at hq) ys m
      (n :: nodes_after s o) e).1 hms
    obtain ⟨_, x, post1, u, e1, _, e3, e4⟩ := this
    simp only [List.cons.injEq] at e1
    rw [← e1.1, hntok, ho] at e3
    simp only [Option.some.injEq] at e3
    subst e3
    rw [hk] at e4
    rcases e4 with e4 | e4 <;> simp at e4

/-- The search that skips separators and whitespace: what it finds is a token, and only
whitespace tokens stand before it. -/
theorem skip_blank_first {toks : List FormToken} {links : List (Option Nat)} :
    ∀ (l : NodeList) (a f : Nat), laid toks links a l → skip_blank l = some f →
      a ≤ f ∧ f < toks.length ∧
        ∀ i, a ≤ i → i < f → ∃ t, toks[i]? = some t ∧ t.kind = .WHITESPACE := by
  intro l
  induction l with
  | nil => intro a f _ h; simp [skip_blank] at h
  | cons n rest ih =>
    intro a f hl h
    obtain ⟨f1, f2⟩ := laid_cons hl
    simp only [skip_blank] at h
    cases hsep : n.is_line_separator with
    | true =>
      simp only [hsep, if_true] at h
      exact ih a f (f1 hsep).2 h
    | false =>
      simp only [hsep, Bool.false_eq_true, if_false] at h
      obtain ⟨g1, g2, g3, g4, g5⟩ := f2 hsep
      rw [List.getElem?_eq_getElem g2] at g3
      rw [g3] at h
      simp only at h
      split at h
      · rename_i hw
        obtain ⟨r1, r2, r3⟩ := ih (a + 1) f g5 h
        refine ⟨by omega, r2, ?_⟩
        intro i h1 h2
        by_cases hia : i = a
        · subst hia
          exact ⟨_, List.getElem?_eq_getElem g2, hw⟩
        · exact r3 i (by omega) h2
      · simp only [Option.some.injEq] at h
        refine ⟨by omega, by omega, ?_⟩
        intro i h1 h2
        omega

/-- The link of a string token that the three-argument `breakList` is called with. -/
theorem string_link_before {obj : Object} {s : NodeList} {x : Nat} {name : String}
    (hx : (tokens_of obj)[x]? = some ⟨.STRING, name⟩) {q : Option Nat}
    (hq : (links_of obj 0 none)[x]? = some q) {lp : PrettyPrinterNode}
    (h : breakList_entry s q = .ok lp) : ∃ L, q = some L ∧ L < x := by
  obtain ⟨i, hi, _⟩ := breakList_entry_ok h
  rcases inner_link_bounds obj 0 none x _ hx (by simp) with ⟨_, _, h1⟩ | ⟨j, h1, _, h3⟩
  · rw [h1] at hq
    simp only [Option.some.injEq] at hq
    rw [← hq] at hi
    simp at hi
  · rw [h1] at hq
    simp only [Option.some.injEq] at hq
    exact ⟨j, hq.symm, by omega⟩

theorem breakList_from_entry {s s1 : NodeList} {q z : Option Nat}
    (h : breakList_from s q z = .ok s1) : ∃ lp, breakList_entry s q = .ok lp := by
  unfold breakList_from at h
  obtain ⟨lp, h1, _⟩ := bind_eq_ok h
  exact ⟨lp, h1⟩

theorem breakList_entry_of_ok {s s1 : NodeList} {q : Option Nat}
    (h : breakList s q = .ok s1) : ∃ lp, breakList_entry s q = .ok lp := by
  unfold breakList at h
  obtain ⟨lp, h1, _⟩ := bind_eq_ok h
  exact ⟨lp, h1⟩

/-- The rule for `deftype`, call by call. -/
theorem special_deftype_steps {obj : Object} (hs : supported obj) {s s1 : NodeList}
    {node : PrettyPrinterNode} (hr : reachable obj s)
    (h : special_deftype s node = .ok s1) :
    rule_steps (tokens_of obj) (links_of obj 0 none) node.id s s1 := by
  have hl := reachable_laid hs hr
  unfold special_deftype at h
  obtain ⟨p, hp, h⟩ := bind_eq_ok h
  split at h
  · simp [pure, Except.pure] at h; subst h; exact .done _
  · rename_i g
    obtain ⟨ptd, hd, h⟩ := bind_eq_ok h
    obtain ⟨a1, a2, ⟨t, a3, a4⟩, a5, _⟩ := scan_next_on_line_first hl hp
    simp only [List.mem_singleton] at a4
    obtain ⟨_, _, _, _, d5⟩ := deref_token hl a2 hd
    obtain ⟨c, k1, k2, _⟩ := open_link_balances hs a3 a4
    rw [k1] at d5
    simp only [Option.some.injEq] at d5
    rw [← d5] at h
    have ho := @outside_later_first (tokens_of obj) node.id g
      (fun i h1 h2 => by
        obtain ⟨u, hu, hk⟩ := a5 i h1 h2
        exact ⟨u, hu, by simpa using hk⟩)
    exact .newline (.done _) (by have := k2.1; omega) (outside_later_close ho a1 k2) h

/-- The entry assertions of `breakList`: the node is a token node with an open paren. -/
theorem breakList_entry_open {s : NodeList} {p : Option Nat} {lp : PrettyPrinterNode}
    (h : breakList_entry s p = .ok lp) :
    ∃ i, p = some i ∧ node_at s i = some lp ∧ lp.is_line_separator = false ∧
      ∃ lt, lp.tok = some lt ∧ lt.kind = .OPEN_PAREN := by
  obtain ⟨i, e, hn⟩ := breakList_entry_ok h
  have hreal := breakList_entry_real h
  unfold breakList_entry at h
  obtain ⟨a, h1, h2⟩ := bind_eq_ok h
  obtain ⟨_, h3, h4⟩ := bind_eq_ok h2
  obtain ⟨lt, h5, h6⟩ := bind_eq_ok h4
  obtain ⟨_, h7, h8⟩ := bind_eq_ok h6
  obtain ⟨_, _, h9⟩ := bind_eq_ok h8
  obtain ⟨_, _, h10⟩ := bind_eq_ok h9
  obtain ⟨_, _, h11⟩ := bind_eq_ok h10
  simp [pure, Except.pure] at h11
  subst h11
  refine ⟨i, e, hn, hreal, lt, ?_, by simpa using assert_eq_ok h7⟩
  unfold tok_of at h5
  split at h5
  · simp at h5
  · rename_i t ht
    simp only [Except.ok.injEq] at h5
    rw [ht, h5]

/-- In a list of a call, the first token has no node before it. -/
theorem prev_of_first {obj : Object} (hs : supported obj) {s : NodeList}
    (hr : reachable obj s) : prev_of s 0 = none := by
  have hl := reachable_laid hs hr
  obtain ⟨_, pl, _⟩ := reachable_sound hs hr
  cases s with
  | nil => rfl
  | cons n rest =>
    obtain ⟨f1, f2⟩ := laid_cons hl
    cases hsep : n.is_line_separator with
    | true =>
      have := pl.1 hsep
      obtain ⟨_, ⟨q, t, e, _⟩, _⟩ := this
      simp at e
    | false =>
      simp [prev_of, (f2 hsep).1]

/-- The list that the last step of the rules for `let` and for the control-flow names
breaks: its open paren stands before the head, and the step breaks it from the open paren
of the form on. -/
theorem enclosing_link {obj : Object} (hs : supported obj) {sa : NodeList}
    (hr : reachable obj sa) {x : Nat} (hx : x < (tokens_of obj).length) {o : Nat}
    (h1 : prev_of sa x = some o) {op : PrettyPrinterNode} (h2 : deref sa (some o) = .ok op)
    {ot : FormToken} (h3 : tok_of op = .ok ot) (h4 : ot.kind = .OPEN_PAREN) {pp : Nat}
    (h5 : prev_of sa op.id = some pp) {ppn : PrettyPrinterNode}
    (h6 : deref sa (some pp) = .ok ppn) {lp : PrettyPrinterNode}
    (h7 : breakList_entry sa ppn.paren = .ok lp) :
    x = o + 1 ∧ ∃ L, ppn.paren = some L ∧ L < x := by
  have hl := reachable_laid hs hr
  have h0 : 0 < x := by
    by_contra hz
    have : x = 0 := by omega
    subst this
    rw [prev_of_first hs hr] at h1
    simp at h1
  obtain ⟨_, e2, hop⟩ := deref_ok h2
  simp only [Option.some.injEq] at e2
  subst e2
  have hotok : op.tok = some ot := by
    unfold tok_of at h3
    split at h3
    · simp at h3
    · rename_i t ht
      simp only [Except.ok.injEq] at h3
      rw [ht, h3]
  have hox := prev_token hl h0 hx h1 hop hotok
  have hopreal : op.is_line_separator = false := by
    cases hsp : op.is_line_separator with
    | false => rfl
    | true =>
      have := (hl.2.1 op (node_at_mem hop) hsp).2
      rw [hotok] at this
      simp at this
  have hopid := node_at_id hop
  have hoT : o < (tokens_of obj).length := by omega
  have hto : (tokens_of obj)[o]? = some ot := by
    have := (hl.2.2 op (node_at_mem hop) hopreal).1
    rw [hopid, hotok] at this
    exact this.symm
  have ho0 : 0 < o := by
    by_contra hz
    have : o = 0 := by omega
    subst this
    rw [hopid, prev_of_first hs hr] at h5
    simp at h5
  rw [hopid, before_open_real hs hr hto h4 ho0] at h5
  simp only [Option.some.injEq] at h5
  subst h5
  obtain ⟨_, _, _, d4, d5⟩ := deref_token hl (show o - 1 < _ by omega) h6
  obtain ⟨L, e, hlp, hlpreal, lt, hlt, hltk⟩ := breakList_entry_open h7
  refine ⟨by omega, L, e, ?_⟩
  rw [e] at d5
  have hLtok := (hl.2.2 lp (node_at_mem hlp) hlpreal).1
  rw [node_at_id hlp, hlt] at hLtok
  obtain ⟨u, hu⟩ := getElem?_some_of_lt (show o - 1 < (tokens_of obj).length by omega)
  by_cases huo : u.kind = .OPEN_PAREN
  · exfalso
    obtain ⟨c, k1, k2, _⟩ := open_link_balances hs hu huo
    rw [k1] at d5
    simp only [Option.some.injEq] at d5
    subst d5
    rw [k2.2.2.1] at hLtok
    simp only [Option.some.injEq] at hLtok
    rw [hLtok] at hltk
    simp at hltk
  · rcases inner_link_bounds obj 0 none (o - 1) u hu huo with ⟨_, _, g1⟩ | ⟨j, g1, _, g3⟩
    · rw [g1] at d5
      simp at d5
    · rw [g1] at d5
      simp only [Option.some.injEq] at d5
      omega

/-- The first part of the rule for the definition names, call by call. -/
theorem special_define_break_steps {obj : Object} (hs : supported obj) {s s1 : NodeList}
    {node : PrettyPrinterNode} {name : String} {first_list : Option Nat}
    (hr : reachable obj s)
    (hx : (tokens_of obj)[node.id]? = some ⟨.STRING, name⟩)
    (hq : (links_of obj 0 none)[node.id]? = some node.paren)
    (hfl : ∀ f, first_list = some f → node.id < f ∧ f < (tokens_of obj).length ∧
      (∃ t, (tokens_of obj)[f]? = some t ∧ (t.kind = .OPEN_PAREN ∨ t.kind = .EMPTY_PAIR)) ∧
      outside_later (tokens_of obj) node.id f)
    (h : special_define_break s node first_list = .ok s1) :
    rule_steps (tokens_of obj) (links_of obj 0 none) node.id s s1 := by
  have hl := reachable_laid hs hr
  unfold special_define_break at h
  split at h
  · simp [pure, Except.pure] at h; subst h; exact .done _
  · rename_i f
    obtain ⟨a1, a2, ⟨t, a3, a4⟩, a5⟩ := hfl f rfl
    obtain ⟨fl, hd, h⟩ := bind_eq_ok h
    obtain ⟨_, _, _, d4, d5⟩ := deref_token hl a2 hd
    obtain ⟨ft, hft, h⟩ := bind_eq_ok h
    have eft : ft = t := by
      simp only [tok_of, d4, a3, Except.ok.injEq] at hft
      exact hft.symm
    subst eft
    split at h
    · obtain ⟨sa, h1, h⟩ := bind_eq_ok h
      obtain ⟨lp, hlp⟩ := breakList_from_entry h
      obtain ⟨L, e, hL⟩ := string_link_before hx hq hlp
      rw [e] at h
      exact .rest_from (.newline (.done _) a1 a5 h1) hL (by omega) h
    · rename_i hne
      obtain ⟨sa, h1, h⟩ := bind_eq_ok h
      have hopen : ft.kind = .OPEN_PAREN := by
        rcases a4 with hk | hk
        · exact hk
        · exact absurd hk hne
      obtain ⟨c, k1, k2, _⟩ := open_link_balances hs a3 hopen
      rw [k1] at d5
      simp only [Option.some.injEq] at d5
      rw [← d5] at h1
      obtain ⟨lp, hlp⟩ := breakList_from_entry h
      obtain ⟨L, e, hL⟩ := string_link_before hx hq hlp
      rw [e] at h
      exact .rest_from (.newline (.done _) (by have := k2.1; omega)
        (outside_later_close a5 a1 k2) h1) hL (by omega) h

/-- The second part of the rule for `let`, `let*` and `rlet`, call by call. -/
theorem special_let_steps {obj : Object} (hs : supported obj) {s s1 : NodeList}
    {node : PrettyPrinterNode} {first_list : Option Nat} (hr : reachable obj s)
    (hxT : node.id < (tokens_of obj).length)
    (hfl : ∀ f, first_list = some f → node.id < f ∧ outside_later (tokens_of obj) node.id f)
    (h : special_let s node first_list = .ok s1) :
    rule_steps (tokens_of obj) (links_of obj 0 none) node.id s s1 := by
  unfold special_let at h
  split at h
  · simp [pure, Except.pure] at h; subst h; exact .done _
  · rename_i f
    obtain ⟨a1, a5⟩ := hfl f rfl
    obtain ⟨fl, _, h⟩ := bind_eq_ok h
    obtain ⟨ft, _, h⟩ := bind_eq_ok h
    obtain ⟨sa, h1, h⟩ := bind_eq_ok h
    have E : rule_steps (tokens_of obj) (links_of obj 0 none) node.id s sa ∧
        reachable obj sa := by
      split at h1
      · obtain ⟨sv, _, h1⟩ := bind_eq_ok h1
        split at h1
        · exact ⟨.ahead (.done _) a1 a5 h1, .broken hr h1⟩
        · simp [pure, Except.pure] at h1; subst h1; exact ⟨.done _, hr⟩
      · simp [pure, Except.pure] at h1; subst h1; exact ⟨.done _, hr⟩
    obtain ⟨E1, E2⟩ := E
    simp only at h
    split at h
    · simp [pure, Except.pure] at h; subst h; exact E1
    · rename_i o ho
      obtain ⟨op, hop, h⟩ := bind_eq_ok h
      obtain ⟨ot, hot, h⟩ := bind_eq_ok h
      split at h
      · rename_i hk
        split at h
        · simp [pure, Except.pure] at h; subst h; exact E1
        · rename_i pp hpp
          obtain ⟨ppn, hppn, h⟩ := bind_eq_ok h
          obtain ⟨lp, hlp⟩ := breakList_from_entry h
          rw [ho] at hop
          obtain ⟨e1, L, e2, hL⟩ := enclosing_link hs E2 hxT ho hop hot hk hpp hppn hlp
          rw [e2, ho] at h
          exact .rest_from E1 hL (by omega) h
      · simp [pure, Except.pure] at h; subst h; exact E1

/-- The rule for the control-flow names, call by call. -/
theorem special_control_flow_steps {obj : Object} (hs : supported obj) {s s1 : NodeList}
    {node : PrettyPrinterNode} {name : String} (hr : reachable obj s)
    (hx : (tokens_of obj)[node.id]? = some ⟨.STRING, name⟩)
    (hq : (links_of obj 0 none)[node.id]? = some node.paren)
    (h : special_control_flow s node = .ok s1) :
    rule_steps (tokens_of obj) (links_of obj 0 none) node.id s s1 := by
  have hl := reachable_laid hs hr
  have hxT : node.id < (tokens_of obj).length := by
    by_contra hge
    rw [List.getElem?_eq_none (by omega)] at hx
    simp at hx
  unfold special_control_flow at h
  obtain ⟨p, hp, h⟩ := bind_eq_ok h
  split at h
  · simp [pure, Except.pure] at h; subst h; exact .done _
  · rename_i f
    obtain ⟨a1, a2, ⟨t, a3, a4⟩, a5, _⟩ := scan_next_on_line_first hl hp
    have ho := @outside_later_first (tokens_of obj) node.id f
      (fun i h1 h2 => by
        obtain ⟨u, hu, hk⟩ := a5 i h1 h2
        exact ⟨u, hu, fun e => hk (by simp [e])⟩)
    obtain ⟨ptd, hd, h⟩ := bind_eq_ok h
    obtain ⟨_, _, _, d4, d5⟩ := deref_token hl a2 hd
    obtain ⟨pt, hpt, h⟩ := bind_eq_ok h
    have ept : pt = t := by
      simp only [tok_of, d4, a3, Except.ok.injEq] at hpt
      exact hpt.symm
    subst ept
    obtain ⟨sa, h1, h⟩ := bind_eq_ok h
    have E : rule_steps (tokens_of obj) (links_of obj 0 none) node.id s sa ∧
        reachable obj sa := by
      split at h1
      · rename_i hopen
        obtain ⟨sb, h2, h1⟩ := bind_eq_ok h1
        obtain ⟨c, k1, k2, _⟩ := open_link_balances hs a3 hopen
        have r1 := newline_at_close hs hr a3 hopen hd h2
        rw [k1] at d5
        simp only [Option.some.injEq] at d5
        rw [← d5] at h2
        obtain ⟨lp, hlp⟩ := breakList_from_entry h1
        obtain ⟨L, e, hL⟩ := string_link_before hx hq hlp
        have r2 : reachable obj sa := .broken_from r1 h1
        rw [e] at h1
        exact ⟨.rest_from (.newline (.done _) (by have := k2.1; omega)
          (outside_later_close ho a1 k2) h2) hL (by omega) h1, r2⟩
      · rename_i hne
        obtain ⟨sb, h2, h1⟩ := bind_eq_ok h1
        have hstr : pt.kind = .STRING := by
          simp only [List.mem_cons, List.mem_singleton, List.not_mem_nil, or_false] at a4
          rcases a4 with hk | hk
          · exact hk
          · exact absurd hk hne
        have r1 := newline_at_atom hs hr a3 (by rw [hstr]; decide) (by rw [hstr]; decide) h2
        obtain ⟨lp, hlp⟩ := breakList_from_entry h1
        obtain ⟨L, e, hL⟩ := string_link_before hx hq hlp
        have r2 : reachable obj sa := .broken_from r1 h1
        rw [e] at h1
        exact ⟨.rest_from (.newline (.done _) a1 ho h2) hL (by omega) h1, r2⟩
    obtain ⟨E1, E2⟩ := E
    simp only at h
    split at h
    · simp [pure, Except.pure] at h; subst h; exact E1
    · rename_i o ho1
      obtain ⟨op, hop, h⟩ := bind_eq_ok h
      obtain ⟨ot, hot, h⟩ := bind_eq_ok h
      split at h
      · rename_i hk
        split at h
        · rename_i hreal
          obtain ⟨ppn, hppn, h⟩ := bind_eq_ok h
          obtain ⟨tb, _, h⟩ := bind_eq_ok h
          split at h
          · simp [pure, Except.pure] at h; subst h; exact E1
          · split at h
            · obtain ⟨lp, hlp⟩ := breakList_from_entry h
              rw [ho1] at hop
              obtain ⟨pp, hpp, _⟩ := deref_ok hppn
              obtain ⟨e1, L, e2, hL⟩ := enclosing_link hs E2 hxT ho1 hop hot hk hpp
                (by rw [← hpp]; exact hppn) hlp
              rw [e2, ho1] at h
              exact .rest_from E1 hL (by omega) h
            · simp [pure, Except.pure] at h; subst h; exact E1
        · simp [pure, Except.pure] at h; subst h; exact E1
      · simp [pure, Except.pure] at h; subst h; exact E1

/-- The loop of the `cond` rule, call by call. -/
theorem break_cond_cases_steps {obj : Object} (hs : supported obj) (x : Nat) :
    ∀ (fuel : Nat) (s : NodeList) (g : Nat) (s1 : NodeList), reachable obj s → x < g →
      g < (tokens_of obj).length → outside_later (tokens_of obj) x g →
      break_cond_cases fuel s (some g) = .ok s1 →
      rule_steps (tokens_of obj) (links_of obj 0 none) x s s1 := by
  intro fuel
  induction fuel with
  | zero => intro s g s1 _ _ _ _ h; simp [break_cond_cases] at h
  | succ fuel ih =>
    intro s g s1 hr hxg hgT ho h
    have hl := reachable_laid hs hr
    simp only [break_cond_cases] at h
    obtain ⟨sc, hsc, h⟩ := bind_eq_ok h
    obtain ⟨_, _, _, d4, d5⟩ := deref_token hl hgT hsc
    obtain ⟨st, hst, h⟩ := bind_eq_ok h
    obtain ⟨_, hk, h⟩ := bind_eq_ok h
    have hopen : st.kind = .OPEN_PAREN := by simpa using assert_eq_ok hk
    obtain ⟨t, ht⟩ := getElem?_some_of_lt hgT
    have est : st = t := by
      simp only [tok_of, d4, ht, Except.ok.injEq] at hst
      exact hst.symm
    subst est
    obtain ⟨c, k1, k2, _⟩ := open_link_balances hs ht hopen
    rw [k1] at d5
    simp only [Option.some.injEq] at d5
    obtain ⟨ec, hec, h⟩ := bind_eq_ok h
    rw [← d5] at hec
    obtain ⟨_, e2, hecn⟩ := deref_ok hec
    simp only [Option.some.injEq] at e2
    subst e2
    obtain ⟨et, _, h⟩ := bind_eq_ok h
    obtain ⟨_, _, h⟩ := bind_eq_ok h
    obtain ⟨sa, h1, h⟩ := bind_eq_ok h
    have E : reachable obj sa := .broken hr h1
    have S : rule_steps (tokens_of obj) (links_of obj 0 none) x s sa :=
      .ahead (.done _) hxg ho h1
    split at h
    · simp [pure, Except.pure] at h; subst h; exact S
    · rename_i f hf
      obtain ⟨nx, _, h⟩ := bind_eq_ok h
      obtain ⟨nt, _, h⟩ := bind_eq_ok h
      split at h
      · simp [pure, Except.pure] at h; subst h; exact S
      · split at h
        · simp [pure, Except.pure] at h; subst h; exact S
        · have hla := reachable_laid hs E
          have hcT : c < (tokens_of obj).length := by
            by_contra hge
            have := k2.2.2.1
            rw [List.getElem?_eq_none (by omega)] at this
            simp at this
          obtain ⟨cn, cn1, cn2, cn3, _, _, cn6⟩ := laid_node_at hla hcT
          rw [node_at_id hecn] at hf
          obtain ⟨r1, r2, r3⟩ := skip_blank_first _ _ _ cn6 hf
          have ho2 := outside_later_next ho hxg k2 (show c < f by omega)
            (fun i h1 h2 => by
              obtain ⟨u, hu, hk⟩ := r3 i (by omega) h2
              exact ⟨u, hu, by rw [hk]; decide⟩)
          rw [node_at_id hecn, hf] at h
          exact rule_steps_trans S (ih sa f s1 E (by have := k2.1; omega) r2 ho2 h)

/-- The rule for `cond`, call by call. -/
theorem special_cond_steps {obj : Object} (hs : supported obj) {fuel : Nat}
    {s s1 : NodeList} {node : PrettyPrinterNode} (hr : reachable obj s)
    (hx : (tokens_of obj)[node.id]? = some ⟨.STRING, "cond"⟩)
    (hq : (links_of obj 0 none)[node.id]? = some node.paren)
    (h : special_cond fuel s node = .ok s1) :
    rule_steps (tokens_of obj) (links_of obj 0 none) node.id s s1 := by
  have hl := reachable_laid hs hr
  unfold special_cond at h
  obtain ⟨p, hp, hb⟩ := bind_eq_ok h
  obtain ⟨sa, h1, h2⟩ := bind_eq_ok hb
  cases p with
  | none =>
    cases fuel with
    | zero => simp [break_cond_cases] at h1
    | succ fuel => simp [break_cond_cases, deref, bind, Except.bind] at h1
  | some g =>
    obtain ⟨a1, a2, _, a5, _⟩ := scan_next_on_line_first hl hp
    have ho := @outside_later_first (tokens_of obj) node.id g
      (fun i h1 h2 => by
        obtain ⟨u, hu, hk⟩ := a5 i h1 h2
        exact ⟨u, hu, by simpa using hk⟩)
    have S := break_cond_cases_steps hs node.id fuel s g sa hr a1 a2 ho h1
    obtain ⟨lp, hlp⟩ := breakList_entry_of_ok h2
    obtain ⟨L, e, hL⟩ := string_link_before hx hq hlp
    rw [e] at h2 hq
    exact .around S hq hL (Or.inr hx) h2

/-- The rule for the definition names and for `let`, `let*` and `rlet`, call by call. -/
theorem special_define_steps {obj : Object} (hs : supported obj) {s s1 : NodeList}
    {node : PrettyPrinterNode} {name : String} (hr : reachable obj s)
    (hx : (tokens_of obj)[node.id]? = some ⟨.STRING, name⟩)
    (hq : (links_of obj 0 none)[node.id]? = some node.paren)
    (h : special_define s node name = .ok s1) :
    rule_steps (tokens_of obj) (links_of obj 0 none) node.id s s1 := by
  have hl := reachable_laid hs hr
  have hxT : node.id < (tokens_of obj).length := by
    by_contra hge
    rw [List.getElem?_eq_none (by omega)] at hx
    simp at hx
  unfold special_define at h
  obtain ⟨fl, hfl, h⟩ := bind_eq_ok h
  obtain ⟨se, h5, h⟩ := bind_eq_ok h
  have F : ∀ f, fl = some f → node.id < f ∧ f < (tokens_of obj).length ∧
      (∃ t, (tokens_of obj)[f]? = some t ∧ (t.kind = .OPEN_PAREN ∨ t.kind = .EMPTY_PAIR)) ∧
      outside_later (tokens_of obj) node.id f := by
    intro f hf
    subst hf
    obtain ⟨a1, a2, ⟨t, a3, a4⟩, a5, _⟩ := scan_next_on_line_first hl hfl
    simp only [List.mem_cons, List.mem_singleton, List.not_mem_nil, or_false] at a4
    refine ⟨a1, a2, ⟨t, a3, a4⟩, ?_⟩
    exact @outside_later_first (tokens_of obj) node.id f
      (fun i h1 h2 => by
        obtain ⟨u, hu, hk⟩ := a5 i h1 h2
        exact ⟨u, hu, fun e => hk (by simp [e])⟩)
  have E : reachable obj se :=
    special_define_break_reach hs hr (fun f hf => (F f hf).2.2.1) h5
  have S := special_define_break_steps hs hr hx hq F h5
  split at h
  · exact rule_steps_trans S
      (special_let_steps hs E hxT (fun f hf => ⟨(F f hf).1, (F f hf).2.2.2⟩) h)
  · simp [pure, Except.pure] at h; subst h; exact S

/-- The body of the loop of `insertSpecialBreaks` at a token of the call, call by call. -/
theorem special_breaks_at_steps {obj : Object} (hs : supported obj) {fuel : Nat}
    {s s1 : NodeList} {x : Nat} (hr : reachable obj s) (hx : x < (tokens_of obj).length)
    (h : special_breaks_at fuel s x = .ok s1) :
    rule_steps (tokens_of obj) (links_of obj 0 none) x s s1 := by
  have hl := reachable_laid hs hr
  unfold special_breaks_at at h
  obtain ⟨node, hnode, h⟩ := bind_eq_ok h
  obtain ⟨_, _, hid, d4, d5⟩ := deref_token hl hx hnode
  split at h
  · simp [pure, Except.pure] at h; subst h; exact .done _
  · obtain ⟨t, ht, h⟩ := bind_eq_ok h
    split at h
    · simp [pure, Except.pure] at h; subst h; exact .done _
    · rename_i hstr
      have hstr1 : t.kind = .STRING := by simpa using hstr
      have htx : (tokens_of obj)[node.id]? = some ⟨.STRING, t.str⟩ := by
        rw [hid, ← d4]
        unfold tok_of at ht
        split at ht
        · simp at ht
        · rename_i u hu
          simp only [Except.ok.injEq] at ht
          rw [hu, ht]
          cases t
          simp only at hstr1
          rw [hstr1]
      have hqx : (links_of obj 0 none)[node.id]? = some node.paren := by rw [hid]; exact d5
      obtain ⟨sa, h1, h⟩ := bind_eq_ok h
      obtain ⟨sb, h2, h⟩ := bind_eq_ok h
      obtain ⟨sc, h3, h⟩ := bind_eq_ok h
      obtain ⟨sd, h4, h⟩ := bind_eq_ok h
      have E1 : reachable obj sa ∧
          rule_steps (tokens_of obj) (links_of obj 0 none) node.id s sa := by
        split at h1
        · exact ⟨special_deftype_reach hs hr h1, special_deftype_steps hs hr h1⟩
        · simp [pure, Except.pure] at h1; subst h1; exact ⟨hr, .done _⟩
      have E2 : reachable obj sb ∧
          rule_steps (tokens_of obj) (links_of obj 0 none) node.id sa sb := by
        split at h2
        · rename_i hname
          refine ⟨.broken E1.1 h2, ?_⟩
          obtain ⟨lp, hlp⟩ := breakList_entry_of_ok h2
          obtain ⟨L, e, hL⟩ := string_link_before htx hqx hlp
          rw [e] at h2
          rw [e] at hqx
          rw [hname] at htx
          exact .around (.done _) hqx hL (Or.inl htx) h2
        · simp [pure, Except.pure] at h2; subst h2; exact ⟨E1.1, .done _⟩
      have E3 : reachable obj sc ∧
          rule_steps (tokens_of obj) (links_of obj 0 none) node.id sb sc := by
        split at h3
        · exact ⟨special_define_reach hs E2.1 h3, special_define_steps hs E2.1 htx hqx h3⟩
        · simp [pure, Except.pure] at h3; subst h3; exact ⟨E2.1, .done _⟩
      have E4 : reachable obj sd ∧
          rule_steps (tokens_of obj) (links_of obj 0 none) node.id sc sd := by
        split at h4
        · exact ⟨special_control_flow_reach hs E3.1 h4,
            special_control_flow_steps hs E3.1 htx hqx h4⟩
        · simp [pure, Except.pure] at h4; subst h4; exact ⟨E3.1, .done _⟩
      have E5 : rule_steps (tokens_of obj) (links_of obj 0 none) node.id sd s1 := by
        split at h
        · rename_i hname
          rw [hname] at htx
          exact special_cond_steps hs E4.1 htx hqx h
        · simp [pure, Except.pure] at h; subst h; exact .done _
      rw [hid] at E1 E2 E3 E4 E5
      exact rule_steps_trans (rule_steps_trans (rule_steps_trans
        (rule_steps_trans E1.2 E2.2) E3.2) E4.2) E5

theorem prefix_drop_left {α : Type} {l l1 l2 : List α} (n : Nat)
    (h : List.IsPrefix l (l1.drop n)) : List.IsPrefix l ((l1 ++ l2).drop n) := by
  rw [List.drop_append_eq_append_drop]
  exact h.trans (List.prefix_append _ _)

theorem prefix_drop_right {α : Type} {l l1 l2 : List α} (n : Nat)
    (h : List.IsPrefix l (l2.drop n)) : List.IsPrefix l ((l1 ++ l2).drop (l1.length + n)) := by
  rw [List.drop_append_eq_append_drop, List.drop_of_length_le (by omega)]
  simpa using h

mutual
/-- A form inside an object: its tokens and links stand in the tokens and links of the
object, from its address on. -/
theorem parts_of_tokens : ∀ (obj : Object) (b : Nat) (e : Option Nat) (p : Nat) (F : Object),
    (p, F) ∈ parts_of obj b → b ≤ p ∧ ∃ e1,
      List.IsPrefix (tokens_of F) ((tokens_of obj).drop (p - b)) ∧
      List.IsPrefix (links_of F p e1) ((links_of obj b e).drop (p - b))
  | .PAIR car cdr, b, e, p, F => by
    intro h
    simp only [parts_of, List.mem_cons, List.mem_append, Prod.mk.injEq] at h
    rcases h with ⟨h1, h2⟩ | h | h
    · subst h1 h2
      exact ⟨le_refl _, e, by simp, by simp⟩
    · obtain ⟨g1, e1, g2, g3⟩ := parts_of_tokens car (b + 1) (some b) p F h
      refine ⟨by omega, e1, ?_, ?_⟩
      · have : p - b = (p - (b + 1)) + 1 := by omega
        rw [this]
        simp only [tokens_of, List.drop_succ_cons]
        exact prefix_drop_left _ g2
      · have : p - b = (p - (b + 1)) + 1 := by omega
        rw [this]
        simp only [links_of, List.drop_succ_cons]
        exact prefix_drop_left _ g3
    · obtain ⟨g1, e1, g2, g3⟩ :=
        rest_parts_of_tokens cdr (b + 1 + (tokens_of car).length) b p F h
      refine ⟨by omega, e1, ?_, ?_⟩
      · have : p - b = ((tokens_of car).length + (p - (b + 1 + (tokens_of car).length))) + 1 := by
          omega
        rw [this]
        simp only [tokens_of, List.drop_succ_cons]
        exact prefix_drop_right _ g2
      · have : p - b = ((links_of car (b + 1) (some b)).length
            + (p - (b + 1 + (tokens_of car).length))) + 1 := by
          rw [links_of_length]
          omega
        rw [this]
        simp only [links_of, List.drop_succ_cons]
        exact prefix_drop_right _ g3
  | .EMPTY_LIST, b, e, p, F => by
    intro h
    simp only [parts_of, List.mem_singleton, Prod.mk.injEq] at h
    obtain ⟨h1, h2⟩ := h
    subst h1 h2
    exact ⟨le_refl _, e, by simp, by simp⟩
  | .INTEGER _, b, e, p, F => by
    intro h
    simp only [parts_of, List.mem_singleton, Prod.mk.injEq] at h
    obtain ⟨h1, h2⟩ := h
    subst h1 h2
    exact ⟨le_refl _, e, by simp, by simp⟩
  | .FLOAT _, b, e, p, F => by
    intro h
    simp only [parts_of, List.mem_singleton, Prod.mk.injEq] at h
    obtain ⟨h1, h2⟩ := h
    subst h1 h2
    exact ⟨le_refl _, e, by simp, by simp⟩
  | .CHAR _, b, e, p, F => by
    intro h
    simp only [parts_of, List.mem_singleton, Prod.mk.injEq] at h
    obtain ⟨h1, h2⟩ := h
    subst h1 h2
    exact ⟨le_refl _, e, by simp, by simp⟩
  | .SYMBOL _, b, e, p, F => by
    intro h
    simp only [parts_of, List.mem_singleton, Prod.mk.injEq] at h
    obtain ⟨h1, h2⟩ := h
    subst h1 h2
    exact ⟨le_refl _, e, by simp, by simp⟩
  | .STRING _, b, e, p, F => by
    intro h
    simp only [parts_of, List.mem_singleton, Prod.mk.injEq] at h
    obtain ⟨h1, h2⟩ := h
    subst h1 h2
    exact ⟨le_refl _, e, by simp, by simp⟩
  | .ARRAY, b, e, p, F => by
    intro h
    simp only [parts_of, List.mem_singleton, Prod.mk.injEq] at h
    obtain ⟨h1, h2⟩ := h
    subst h1 h2
    exact ⟨le_refl _, e, by simp, by simp⟩
  | .LAMBDA, b, e, p, F => by
    intro h
    simp only [parts_of, List.mem_singleton, Prod.mk.injEq] at h
    obtain ⟨h1, h2⟩ := h
    subst h1 h2
    exact ⟨le_refl _, e, by simp, by simp⟩
  | .MACRO, b, e, p, F => by
    intro h
    simp only [parts_of, List.mem_singleton, Prod.mk.injEq] at h
    obtain ⟨h1, h2⟩ := h
    subst h1 h2
    exact ⟨le_refl _, e, by simp, by simp⟩
  | .ENVIRONMENT, b, e, p, F => by
    intro h
    simp only [parts_of, List.mem_singleton, Prod.mk.injEq] at h
    obtain ⟨h1, h2⟩ := h
    subst h1 h2
    exact ⟨le_refl _, e, by simp, by simp⟩
theorem rest_parts_of_tokens : ∀ (cdr : Object) (b o : Nat) (p : Nat) (F : Object),
    (p, F) ∈ rest_parts_of cdr b → b < p ∧ ∃ e1,
      List.IsPrefix (tokens_of F) ((rest_tokens_of cdr).drop (p - b)) ∧
      List.IsPrefix (links_of F p e1) ((rest_links_of cdr b o).drop (p - b))
  | .PAIR car cdr, b, o, p, F => by
    intro h
    simp only [rest_parts_of, List.mem_append] at h
    rcases h with h | h
    · obtain ⟨g1, e1, g2, g3⟩ := parts_of_tokens car (b + 1) (some o) p F h
      refine ⟨by omega, e1, ?_, ?_⟩
      · have : p - b = (p - (b + 1)) + 1 := by omega
        rw [this]
        simp only [rest_tokens_of, List.drop_succ_cons]
        exact prefix_drop_left _ g2
      · have : p - b = (p - (b + 1)) + 1 := by omega
        rw [this]
        simp only [rest_links_of, List.drop_succ_cons]
        exact prefix_drop_left _ g3
    · obtain ⟨g1, e1, g2, g3⟩ :=
        rest_parts_of_tokens cdr (b + 1 + (tokens_of car).length) o p F h
      refine ⟨by omega, e1, ?_, ?_⟩
      · have : p - b = ((tokens_of car).length + (p - (b + 1 + (tokens_of car).length))) + 1 := by
          omega
        rw [this]
        simp only [rest_tokens_of, List.drop_succ_cons]
        exact prefix_drop_right _ g2
      · have : p - b = ((links_of car (b + 1) (some o)).length
            + (p - (b + 1 + (tokens_of car).length))) + 1 := by
          rw [links_of_length]
          omega
        rw [this]
        simp only [rest_links_of, List.drop_succ_cons]
        exact prefix_drop_right _ g3
  | .EMPTY_LIST, _, _, _, _ => by intro h; simp [rest_parts_of] at h
  | .INTEGER _, _, _, _, _ => by intro h; simp [rest_parts_of] at h
  | .FLOAT _, _, _, _, _ => by intro h; simp [rest_parts_of] at h
  | .CHAR _, _, _, _, _ => by intro h; simp [rest_parts_of] at h
  | .SYMBOL _, _, _, _, _ => by intro h; simp [rest_parts_of] at h
  | .STRING _, _, _, _, _ => by intro h; simp [rest_parts_of] at h
  | .ARRAY, _, _, _, _ => by intro h; simp [rest_parts_of] at h
  | .LAMBDA, _, _, _, _ => by intro h; simp [rest_parts_of] at h
  | .MACRO, _, _, _, _ => by intro h; simp [rest_parts_of] at h
  | .ENVIRONMENT, _, _, _, _ => by intro h; simp [rest_parts_of] at h
end

mutual
/-- A form inside a supported object is supported. -/
theorem parts_of_supported : ∀ (obj : Object) (b : Nat) (p : Nat) (F : Object),
    supported obj → (p, F) ∈ parts_of obj b → supported F
  | .PAIR car cdr, b, p, F => by
    intro hs h
    simp only [parts_of, List.mem_cons, List.mem_append, Prod.mk.injEq] at h
    rcases h with ⟨_, h2⟩ | h | h
    · subst h2; exact hs
    · exact parts_of_supported car _ p F hs.1 h
    · exact rest_parts_of_supported cdr _ p F hs.2 h
  | .EMPTY_LIST, b, p, F => by
    intro hs h
    simp only [parts_of, List.mem_singleton, Prod.mk.injEq] at h
    rw [h.2]; exact hs
  | .INTEGER _, b, p, F => by
    intro hs h
    simp only [parts_of, List.mem_singleton, Prod.mk.injEq] at h
    rw [h.2]; exact hs
  | .FLOAT _, b, p, F => by
    intro hs h
    simp only [parts_of, List.mem_singleton, Prod.mk.injEq] at h
    rw [h.2]; exact hs
  | .CHAR _, b, p, F => by
    intro hs h
    simp only [parts_of, List.mem_singleton, Prod.mk.injEq] at h
    rw [h.2]; exact hs
  | .SYMBOL _, b, p, F => by
    intro hs h
    simp only [parts_of, List.mem_singleton, Prod.mk.injEq] at h
    rw [h.2]; exact hs
  | .STRING _, b, p, F => by
    intro hs h
    simp only [parts_of, List.mem_singleton, Prod.mk.injEq] at h
    rw [h.2]; exact hs
  | .ARRAY, b, p, F => by
    intro hs h
    simp only [parts_of, List.mem_singleton, Prod.mk.injEq] at h
    rw [h.2]; exact hs
  | .LAMBDA, b, p, F => by
    intro hs h
    simp only [parts_of, List.mem_singleton, Prod.mk.injEq] at h
    rw [h.2]; exact hs
  | .MACRO, b, p, F => by
    intro hs h
    simp only [parts_of, List.mem_singleton, Prod.mk.injEq] at h
    rw [h.2]; exact hs
  | .ENVIRONMENT, b, p, F => by
    intro hs h
    simp only [parts_of, List.mem_singleton, Prod.mk.injEq] at h
    rw [h.2]; exact hs
theorem rest_parts_of_supported : ∀ (cdr : Object) (b : Nat) (p : Nat) (F : Object),
    supported cdr → (p, F) ∈ rest_parts_of cdr b → supported F
  | .PAIR car cdr, b, p, F => by
    intro hs h
    simp only [rest_parts_of, List.mem_append] at h
    rcases h with h | h
    · exact parts_of_supported car _ p F hs.1 h
    · exact rest_parts_of_supported cdr _ p F hs.2 h
  | .EMPTY_LIST, _, _, _ => by intro _ h; simp [rest_parts_of] at h
  | .INTEGER _, _, _, _ => by intro _ h; simp [rest_parts_of] at h
  | .FLOAT _, _, _, _ => by intro _ h; simp [rest_parts_of] at h
  | .CHAR _, _, _, _ => by intro _ h; simp [rest_parts_of] at h
  | .SYMBOL _, _, _, _ => by intro _ h; simp [rest_parts_of] at h
  | .STRING _, _, _, _ => by intro _ h; simp [rest_parts_of] at h
  | .ARRAY, _, _, _ => by intro _ h; simp [rest_parts_of] at h
  | .LAMBDA, _, _, _ => by intro _ h; simp [rest_parts_of] at h
  | .MACRO, _, _, _ => by intro _ h; simp [rest_parts_of] at h
  | .ENVIRONMENT, _, _, _ => by intro _ h; simp [rest_parts_of] at h
end

/-- A form inside the argument of `to_string`: its tokens and links stand in the token
list of the call, from its address on. -/
theorem part_at {obj : Object} {p : Nat} {F : Object} (h : (p, F) ∈ parts_of obj 0) :
    ∃ e1, List.IsPrefix (tokens_of F) ((tokens_of obj).drop p) ∧
      List.IsPrefix (links_of F p e1) ((links_of obj 0 none).drop p) := by
  obtain ⟨_, e1, g2, g3⟩ := parts_of_tokens obj 0 none p F h
  exact ⟨e1, by simpa using g2, by simpa using g3⟩

/-- The passes of `to_string` when it returns, seen from the token with the address `x`:
the special-form pass arrives at the token and runs the body of its loop there, and a
separator that stands behind a token after this is a line break in the output. -/
theorem to_string_at {obj : Object} {w : Int} {out : String}
    (h : to_string obj w = .ok out) {x : Nat} (hx : x < (tokens_of obj).length) :
    supported obj ∧ ∃ sx sx1 lines, pass_at obj x = .ok sx ∧
      special_breaks_at (loop_fuel (tokens_of obj)) sx x = .ok sx1 ∧
      reachable obj sx ∧ reachable obj sx1 ∧
      out = join_lines lines ∧ lines.flatMap OutLine.tokens = tokens_of obj ∧
      (∀ u, sep_after sx1 u → break_at lines (u + 1)) ∧
      (∀ u, sep_after sx1 u →
        (∃ t, (tokens_of obj)[u + 1]? = some t ∧ t.kind = .WHITESPACE) →
        (∃ t, (tokens_of obj)[u + 2]? = some t ∧ t.kind ≠ .WHITESPACE) →
        first_on_line lines (u + 2)) := by
  obtain ⟨hs, s2, s4, h1, E24, hr⟩ := to_string_pipeline h
  obtain ⟨sx, sx1, p1, p2, _, r1, r2, E12⟩ := special_pass_reaches hs hx h1
  have E02 := insertSpecialBreaks_evolves h1
  have hl := laid_build_linked hs
  have hl4 := (E02.andThen E24).laid hl
  refine ⟨hs, sx, sx1, lines_of true s4, p1, p2, r1, r2, render_eq_join_lines _ _ _ hr,
    ?_, ?_, ?_⟩
  · rw [lines_of_tokens, (E02.andThen E24).1.real_tokens,
      real_tokens_build_linked _ _ _ _ (links_of_length _ _ _)]
  · intro u hu
    exact break_at_of_sep_after hl4 ((E12.andThen E24).1.sep_after _ hu)
  · intro u hu hws hy
    exact first_on_line_of_sep_after hl4 ((E12.andThen E24).1.sep_after _ hu) hws hy

/-- C20 (cond clauses): for a list `(cond k1 ... kn)` whose children `ki` are all lists and
that stands anywhere in the argument of `to_string`, its open paren being the token with
the address `p`: at every width at which `to_string` returns, the output has a line break
directly behind the first child of every clause, from the first clause to the last. -/
theorem cond_clause_break_after_test (obj : Object) (p : Nat) (ks : List Object) (w : Int)
    (out : String) (hocc : (p, build_list (.SYMBOL "cond" :: ks)) ∈ parts_of obj 0)
    (hk : ∀ k ∈ ks, ∃ a d, k = .PAIR a d) (h : to_string obj w = .ok out) :
    ∃ lines, out = join_lines lines ∧ lines.flatMap OutLine.tokens = tokens_of obj ∧
      ∀ c1 car cdr c2, ks = c1 ++ .PAIR car cdr :: c2 →
        break_at lines
          (p + elts_width (.SYMBOL "cond" :: c1) + 1 + (tokens_of car).length + 1) := by
  obtain ⟨e1, ht, hlk⟩ := part_at hocc
  have hsF := parts_of_supported obj 0 p _ (to_string_pipeline h).1 hocc
  obtain ⟨_, _, t3, _, _, _, t7⟩ := list_tokens_at ht hlk
  have hxT : p + 1 < (tokens_of obj).length := by
    have : elts_width (.SYMBOL "cond" :: ks) = 2 + elts_width ks := elts_width_symbol _ _
    omega
  obtain ⟨hs, sx, sx1, lines, p1, p2, r1, r2, o1, o2, o3, _⟩ := to_string_at h hxT
  refine ⟨lines, o1, o2, ?_⟩
  cases ks with
  | nil =>
    intro c1 car cdr c2 hc
    simp at hc
  | cons k1 ks =>
    have hl := reachable_laid hs r1
    obtain ⟨_, _, a1, a2, a3, a4, a5, a6, _⟩ := form_at_facts ht hlk
    obtain ⟨n1, hn1, hreal, hid, htok, _, _⟩ := laid_node_at hl hxT
    rw [a1] at htok
    obtain ⟨sa, sb, sc, sd, b1, b2, b3, b4, b5⟩ := special_breaks_at_string hn1 hreal htok p2
    rw [if_neg (by decide)] at b1 b2 b3 b4
    rw [if_pos rfl] at b5
    simp only [pure, Except.pure, Except.ok.injEq] at b1 b2 b3 b4
    subst b1 b2 b3 b4
    have hsup := supported_build_list hsF
    obtain ⟨ka, kd, hk1⟩ := hk k1 (by simp)
    have hopen : (tokens_of obj)[p + 3]? = some ⟨.OPEN_PAREN, ""⟩ := by
      subst hk1
      simp only [tokens_of] at a4
      exact (prefix_drop_head a4).1
    simp only [special_cond] at b5
    obtain ⟨sc1, c1, b5⟩ := bind_eq_ok b5
    obtain ⟨s5, c2, c3⟩ := bind_eq_ok b5
    have hfound : sc1 = some (p + 2 + 1) := by
      cases sc1 with
      | none =>
        cases hf : loop_fuel (tokens_of obj) with
        | zero => rw [hf] at c2; simp [break_cond_cases] at c2
        | succ fuel => rw [hf] at c2; simp [break_cond_cases, deref, bind, Except.bind] at c2
      | some f =>
        rw [hid] at c1
        obtain ⟨g1, g2, ⟨t, g3, g4⟩, g5, _⟩ := scan_next_on_line_first hl c1
        simp only [List.mem_singleton] at g4
        have hf : f = p + 3 := by
          by_contra hne
          by_cases hlt : f < p + 3
          · have : f = p + 2 := by omega
            subst this
            rw [a3] at g3
            simp only [Option.some.injEq] at g3
            rw [← g3] at g4
            simp at g4
          · obtain ⟨u, hu, hku⟩ := g5 (p + 3) (by omega) (by omega)
            rw [hopen] at hu
            simp only [Option.some.injEq] at hu
            rw [← hu] at hku
            simp at hku
        rw [hf]
    subst hfound
    have E2 := breakList_evolves c3
    intro c1 car cdr cc hc
    have := break_cond_cases_effect p ks k1
      (fun k hkm => ⟨hsup k (List.mem_cons_of_mem _ hkm), hk k hkm⟩) _ _ s5 (p + 2) hl a5 a6
      c2 c1 car cdr cc hc
    have hsep := E2.1.sep_after _ this
    have := o3 _ hsep
    rw [elts_width_symbol]
    have e : p + (2 + elts_width c1) + 1 + (tokens_of car).length + 1
        = p + 2 + elts_width c1 + 1 + (tokens_of car).length + 1 := by omega
    rw [e]
    exact this

/-- Witness for C20: the `cond` form inside `(foo (cond (a b) (c d)))` at width 80. -/
theorem cond_clause_break_after_test_witness :
    to_string (build_list [.SYMBOL "foo", build_list [.SYMBOL "cond",
        build_list [.SYMBOL "a", .SYMBOL "b"], build_list [.SYMBOL "c", .SYMBOL "d"]]]) 80
        = .ok "(foo (cond\n     (a\n      b\n      )\n     (c\n      d\n      )\n     )\n  )" ∧
      ∃ lines, "(foo (cond\n     (a\n      b\n      )\n     (c\n      d\n      )\n     )\n  )"
          = join_lines lines ∧
        break_at lines 8 ∧ break_at lines 14 :=
  ⟨by rfl,
    let ⟨lines, h1, _, h3⟩ :=
      cond_clause_break_after_test
        (build_list [.SYMBOL "foo", build_list [.SYMBOL "cond",
          build_list [.SYMBOL "a", .SYMBOL "b"], build_list [.SYMBOL "c", .SYMBOL "d"]]]) 3
        [build_list [.SYMBOL "a", .SYMBOL "b"], build_list [.SYMBOL "c", .SYMBOL "d"]] 80
        "(foo (cond\n     (a\n      b\n      )\n     (c\n      d\n      )\n     )\n  )"
        (by simp [parts_of, rest_parts_of, build_list, tokens_of])
        (by
          intro k hk
          simp only [List.mem_cons, List.mem_singleton, List.not_mem_nil, or_false] at hk
          rcases hk with rfl | rfl
          · exact ⟨_, _, rfl⟩
          · exact ⟨_, _, rfl⟩)
        (by rfl)
    ⟨lines, h1, h3 [] (.SYMBOL "a") (build_list [.SYMBOL "b"]) [build_list [.SYMBOL "c", .SYMBOL "d"]] rfl,
      h3 [build_list [.SYMBOL "a", .SYMBOL "b"]] (.SYMBOL "c") (build_list [.SYMBOL "d"]) [] rfl⟩⟩

end pretty_print
